import Mathlib

/-!
# Tailslide compile pipeline: desugaring and constant propagation

A shallow embedding of the passes in `libtailslide/passes/desugaring.cc` and
`libtailslide/passes/values.cc` over the AST of `libtailslide/ast.hh` and the symbols of
`libtailslide/symtab.hh`, followed by the properties proved about them.

Conventions of the embedding.

* An AST node is a value `LSLASTNode.mk data children`. The child list stands for the
  `_mChildren` sibling chain; a null pointer returned by `getChild` is `none`, and a
  dereference of a null pointer makes the embedded function return `none`.
* `LSLType` objects are per-type singletons, so a `LSLType *` is identified with its
  `LSLIType`.
* An operation code is an `int` in the source: zero, an ASCII character or a parser
  token. Token numbers come from the generated parser header and are kept symbolic.
* Library routines whose bodies are not part of the sources at hand (`clone`,
  `getOneValue`, `canCoerce`, the operation behaviour module) are fields of `Library`
  and every theorem quantifies over them.
-/

namespace Tailslide

/-! ## Data model (symtab.hh, ast.hh) -/

/-- Primitive types, `enum LSLIType` of symtab.hh. -/
inductive LSLIType where
  | LST_NULL
  | LST_INTEGER
  | LST_FLOATINGPOINT
  | LST_STRING
  | LST_KEY
  | LST_VECTOR
  | LST_QUATERNION
  | LST_LIST
  | LST_ERROR
  deriving DecidableEq, Repr

/-- Symbol kinds, `enum LSLSymbolType` of symtab.hh. -/
inductive LSLSymbolType where
  | SYM_ANY
  | SYM_VARIABLE
  | SYM_FUNCTION
  | SYM_STATE
  | SYM_LABEL
  | SYM_EVENT
  deriving DecidableEq, Repr

/-- Symbol sub-kinds, `enum LSLSymbolSubType` of symtab.hh. -/
inductive LSLSymbolSubType where
  | SYM_LOCAL
  | SYM_GLOBAL
  | SYM_BUILTIN
  | SYM_FUNCTION_PARAMETER
  | SYM_EVENT_PARAMETER
  deriving DecidableEq, Repr

/-- Base node types, `enum LSLNodeType` of ast.hh. -/
inductive LSLNodeType where
  | NODE_NODE
  | NODE_NULL
  | NODE_AST_NODE_LIST
  | NODE_SCRIPT
  | NODE_IDENTIFIER
  | NODE_GLOBAL_VARIABLE
  | NODE_CONSTANT
  | NODE_GLOBAL_FUNCTION
  | NODE_FUNCTION_DEC
  | NODE_EVENT_DEC
  | NODE_STATE
  | NODE_EVENT_HANDLER
  | NODE_STATEMENT
  | NODE_EXPRESSION
  | NODE_TYPE
  deriving DecidableEq, Repr

/-- Node sub-types, `enum LSLNodeSubType` of ast.hh. -/
inductive LSLNodeSubType where
  | NODE_NO_SUB_TYPE
  | NODE_INTEGER_CONSTANT
  | NODE_FLOAT_CONSTANT
  | NODE_STRING_CONSTANT
  | NODE_KEY_CONSTANT
  | NODE_VECTOR_CONSTANT
  | NODE_QUATERNION_CONSTANT
  | NODE_LIST_CONSTANT
  | NODE_COMPOUND_STATEMENT
  | NODE_NOP_STATEMENT
  | NODE_EXPRESSION_STATEMENT
  | NODE_RETURN_STATEMENT
  | NODE_LABEL
  | NODE_JUMP_STATEMENT
  | NODE_IF_STATEMENT
  | NODE_FOR_STATEMENT
  | NODE_DO_STATEMENT
  | NODE_WHILE_STATEMENT
  | NODE_DECLARATION
  | NODE_STATE_STATEMENT
  | NODE_TYPECAST_EXPRESSION
  | NODE_BOOL_CONVERSION_EXPRESSION
  | NODE_PRINT_EXPRESSION
  | NODE_FUNCTION_EXPRESSION
  | NODE_VECTOR_EXPRESSION
  | NODE_QUATERNION_EXPRESSION
  | NODE_LIST_EXPRESSION
  | NODE_LVALUE_EXPRESSION
  | NODE_BINARY_EXPRESSION
  | NODE_UNARY_EXPRESSION
  | NODE_PARENTHESIS_EXPRESSION
  | NODE_CONSTANT_EXPRESSION
  deriving DecidableEq, Repr

/-- Operation codes of expressions (`int` in the source): `nop` is 0, `chr c` the ASCII
operator `c`, the named constructors are the parser tokens the passes mention and
`token n` is any other parser token. -/
inductive Operation where
  | nop
  | chr (c : Char)
  | ADD_ASSIGN
  | SUB_ASSIGN
  | MUL_ASSIGN
  | DIV_ASSIGN
  | MOD_ASSIGN
  | INC_PRE_OP
  | DEC_PRE_OP
  | INC_POST_OP
  | DEC_POST_OP
  | token (n : Nat)
  deriving DecidableEq, Repr

/-- Source location record of the parser (`YYLTYPE`). -/
structure YYLTYPE where
  first_line : Int := 0
  first_column : Int := 0
  last_line : Int := 0
  last_column : Int := 0
  deriving DecidableEq, Repr

/-- Wrap an integer to the signed 32-bit range (`S32`). -/
def wrapS32 (i : Int) : Int :=
  (i + 2147483648) % 4294967296 - 2147483648

/-- An IEEE-754 single (`F32`), held as its 32-bit pattern. -/
structure F32 where
  bits : Nat
  deriving DecidableEq, Repr

/-- Bit pattern of the float nearest to the positive integer `m < 2^32`
(round to nearest, ties to even), without the sign bit. -/
def F32.ofMagnitude (m : Nat) : Nat :=
  match (List.range 32).find? (fun e => decide (m < 2 ^ (e + 1))) with
  | none => 0
  | some e =>
    if e ≤ 23 then
      (e + 127) * 2 ^ 23 + (m * 2 ^ (23 - e) - 2 ^ 23)
    else
      let shift := e - 23
      let q := m / 2 ^ shift
      let r := m % 2 ^ shift
      let half := 2 ^ (shift - 1)
      let q1 := if r > half ∨ (r = half ∧ q % 2 = 1) then q + 1 else q
      -- a carry out of the mantissa lands in the exponent field
      (e + 127) * 2 ^ 23 + (q1 - 2 ^ 23)

/-- The C conversion `(F32) i` of a signed 32-bit integer. -/
def F32.ofS32 (i : Int) : F32 :=
  let v := wrapS32 i
  if v = 0 then ⟨0⟩
  else if v < 0 then ⟨2 ^ 31 + F32.ofMagnitude v.natAbs⟩
  else ⟨F32.ofMagnitude v.natAbs⟩

/-- Constant values (`LSLConstant` and its subclasses). A list constant holds the chain
of its element constants. -/
inductive LSLConstant where
  | integer (v : Int)
  | float (v : F32)
  | string (v : String)
  | key (v : String)
  | vector (x y z : F32)
  | quaternion (x y z s : F32)
  | list (items : List LSLConstant)
  deriving Repr

/-- `LSLConstant::getIType`. -/
def LSLConstant.getIType : LSLConstant → LSLIType
  | .integer _ => .LST_INTEGER
  | .float _ => .LST_FLOATINGPOINT
  | .string _ => .LST_STRING
  | .key _ => .LST_KEY
  | .vector _ _ _ => .LST_VECTOR
  | .quaternion _ _ _ _ => .LST_QUATERNION
  | .list _ => .LST_LIST

/-- Node sub-type of a constant node holding the given constant. -/
def LSLConstant.getNodeSubType : LSLConstant → LSLNodeSubType
  | .integer _ => .NODE_INTEGER_CONSTANT
  | .float _ => .NODE_FLOAT_CONSTANT
  | .string _ => .NODE_STRING_CONSTANT
  | .key _ => .NODE_KEY_CONSTANT
  | .vector _ _ _ => .NODE_VECTOR_CONSTANT
  | .quaternion _ _ _ _ => .NODE_QUATERNION_CONSTANT
  | .list _ => .NODE_LIST_CONSTANT

/-- Symbol record, `class LSLSymbol` of symtab.hh. `functionDecl` keeps, of the
parameter list node, the types of its children (all that the passes read from it). -/
structure LSLSymbol where
  name : String := ""
  type : LSLIType := .LST_NULL
  symbolType : LSLSymbolType := .SYM_VARIABLE
  subType : LSLSymbolSubType := .SYM_LOCAL
  functionDecl : Option (List LSLIType) := none
  constantValue : Option LSLConstant := none
  constantPrecluded : Bool := false
  references : Int := 0
  assignments : Int := 0

/-- `LSLSymbol::getAssignments`. -/
def LSLSymbol.getAssignments (s : LSLSymbol) : Int := s.assignments

/-- `LSLSymbol::addAssignment` (the counter is a C `int`). -/
def LSLSymbol.addAssignment (s : LSLSymbol) : LSLSymbol :=
  { s with assignments := wrapS32 (s.assignments + 1) }

/-- `LSLSymbol::resetTracking`. -/
def LSLSymbol.resetTracking (s : LSLSymbol) : LSLSymbol :=
  { s with assignments := 0, references := 0 }

/-- The symbols of a compilation, addressed by pointer. -/
abbrev SymbolStore := Nat → LSLSymbol

/-- The fields of an AST node other than its links (`class LSLASTNode`, plus the
operation of `LSLExpression` and the name and symbol of `LSLIdentifier`);
`symbolTable` is the pointer `_mSymbolTable` to the table a scope-opening node owns. -/
structure NodeData where
  nodeType : LSLNodeType := .NODE_NODE
  subType : LSLNodeSubType := .NODE_NO_SUB_TYPE
  type : LSLIType := .LST_NULL
  loc : YYLTYPE := {}
  operation : Operation := .nop
  constantValue : Option LSLConstant := none
  constantPrecluded : Bool := false
  staticNode : Bool := false
  synthesized : Bool := false
  declarationAllowed : Bool := true
  name : String := ""
  symbol : Option Nat := none
  symbolTable : Option Nat := none

/-- An AST node with its chain of children. -/
inductive LSLASTNode where
  | mk (data : NodeData) (children : List LSLASTNode)

namespace LSLASTNode

/-- The node's own fields. -/
def data : LSLASTNode → NodeData
  | .mk d _ => d

/-- The chain `_mChildren`, in sibling order. -/
def children : LSLASTNode → List LSLASTNode
  | .mk _ cs => cs

/-- `LSLASTNode::getChild`: the i-th child or null. -/
def getChild (n : LSLASTNode) (i : Nat) : Option LSLASTNode := n.children.get? i

/-- `LSLASTNode::getNumChildren`. -/
def getNumChildren (n : LSLASTNode) : Nat := n.children.length

/-- `LSLASTNode::getType`. -/
def getType (n : LSLASTNode) : LSLIType := n.data.type

/-- `LSLASTNode::getIType`. -/
def getIType (n : LSLASTNode) : LSLIType := n.data.type

/-- `LSLASTNode::setType`. -/
def setType (n : LSLASTNode) (t : LSLIType) : LSLASTNode :=
  .mk { n.data with type := t } n.children

/-- `LSLASTNode::getLoc`. -/
def getLoc (n : LSLASTNode) : YYLTYPE := n.data.loc

/-- `LSLASTNode::setLoc`. -/
def setLoc (n : LSLASTNode) (l : YYLTYPE) : LSLASTNode :=
  .mk { n.data with loc := l } n.children

/-- `LSLASTNode::getNodeType`. -/
def getNodeType (n : LSLASTNode) : LSLNodeType := n.data.nodeType

/-- `LSLASTNode::getNodeSubType`. -/
def getNodeSubType (n : LSLASTNode) : LSLNodeSubType := n.data.subType

/-- `LSLExpression::getOperation`. -/
def getOperation (n : LSLASTNode) : Operation := n.data.operation

/-- `LSLExpression::setOperation`. -/
def setOperation (n : LSLASTNode) (op : Operation) : LSLASTNode :=
  .mk { n.data with operation := op } n.children

/-- `LSLASTNode::getConstantValue`. -/
def getConstantValue (n : LSLASTNode) : Option LSLConstant := n.data.constantValue

/-- `LSLASTNode::setConstantValue`: a non-null value clears the precluded flag. -/
def setConstantValue (n : LSLASTNode) (cv : Option LSLConstant) : LSLASTNode :=
  .mk { n.data with
        constantPrecluded := if cv.isSome then false else n.data.constantPrecluded,
        constantValue := cv } n.children

/-- `LSLASTNode::isConstant`. -/
def isConstant (n : LSLASTNode) : Bool := n.getConstantValue.isSome

/-- `LSLASTNode::setConstantPrecluded`. -/
def setConstantPrecluded (n : LSLASTNode) (p : Bool) : LSLASTNode :=
  .mk { n.data with constantPrecluded := p } n.children

/-- `LSLASTNode::getConstantPrecluded`. -/
def getConstantPrecluded (n : LSLASTNode) : Bool := n.data.constantPrecluded

/-- `LSLASTNode::isStatic`. -/
def isStatic (n : LSLASTNode) : Bool := n.data.staticNode

/-- `LSLASTNode::markStatic`. -/
def markStatic (n : LSLASTNode) : LSLASTNode :=
  .mk { n.data with staticNode := true } n.children

/-- `LSLIdentifier::getSymbol`: the symbol pointer of an identifier node. -/
def getSymbol (n : LSLASTNode) : Option Nat := n.data.symbol

/-- `LSLIdentifier::getName`. -/
def getName (n : LSLASTNode) : String := n.data.name

/-- Modelled from the spec: `LSLASTNode::newNullNode` (declared in ast.hh, body not in
the sources) makes a fresh `LSLASTNullNode`, a node of type `NODE_NULL` without
children. -/
def newNullNode : LSLASTNode :=
  .mk { nodeType := .NODE_NULL } []

/-- Modelled from the spec: `LSLASTNode::replaceNode(old, replacement)` (declared in
ast.hh, body not in the sources) seen from the parent whose slot `i` holds `old`: the
slot now holds `replacement`, every other child stays in place. -/
def replaceChild (n : LSLASTNode) (i : Nat) (replacement : LSLASTNode) : LSLASTNode :=
  .mk n.data (n.children.set i replacement)

/-- Modelled from the spec: `LSLASTNode::takeChild(i)` (declared in ast.hh, body not in
the sources): "replace a node from the list of children with null, returning it". The
result is the taken child and the node left behind. -/
def takeChild (n : LSLASTNode) (i : Nat) : Option (LSLASTNode × LSLASTNode) :=
  match n.getChild i with
  | none => none
  | some c => some (c, n.replaceChild i newNullNode)

end LSLASTNode

/-! ## Library routines outside the passes -/

/-- The routines of libtailslide the passes call whose bodies are not among the sources
studied here. `clone` is `LSLLValueExpression::clone`, `getOneValue` is
`LSLType::getOneValue`, `canCoerce a b` is `a->canCoerce(b)`, and `operation` and
`cast` are the two entry points of the operation behaviour module (`c_right` may be
null). -/
structure Library where
  clone : LSLASTNode → LSLASTNode
  getOneValue : LSLIType → LSLConstant
  canCoerce : LSLIType → LSLIType → Bool
  operation : Operation → LSLConstant → Option LSLConstant → YYLTYPE → Option LSLConstant
  cast : LSLIType → LSLConstant → YYLTYPE → Option LSLConstant

/-- Modelled from the spec: `decouple_compound_operation` (defined in a header that is
not among the sources): a compound assignment `op=` for `op` in `+ - * / %` yields `op`,
every other operation is returned as it is. -/
def decouple_compound_operation : Operation → Operation
  | .ADD_ASSIGN => .chr '+'
  | .SUB_ASSIGN => .chr '-'
  | .MUL_ASSIGN => .chr '*'
  | .DIV_ASSIGN => .chr '/'
  | .MOD_ASSIGN => .chr '%'
  | op => op

/-- The compound assignment operators. -/
def Operation.isCompound : Operation → Bool
  | .ADD_ASSIGN => true
  | .SUB_ASSIGN => true
  | .MUL_ASSIGN => true
  | .DIV_ASSIGN => true
  | .MOD_ASSIGN => true
  | _ => false

/-- Modelled from the spec: the constructor `LSLBinaryExpression(lvalue, op, rvalue)`
(class not among the sources): a binary expression node with the two operands as its
children and the given operation; the type is still unset. -/
def LSLBinaryExpression.new (lvalue : LSLASTNode) (op : Operation) (rvalue : LSLASTNode) :
    LSLASTNode :=
  .mk { nodeType := .NODE_EXPRESSION, subType := .NODE_BINARY_EXPRESSION, operation := op }
    [lvalue, rvalue]

/-- Modelled from the spec: the constructor `LSLTypecastExpression(type, expr)` (class
not among the sources): a typecast node of the target type with the cast expression as
its only child. -/
def LSLTypecastExpression.new (to_type : LSLIType) (expr : LSLASTNode) : LSLASTNode :=
  .mk { nodeType := .NODE_EXPRESSION, subType := .NODE_TYPECAST_EXPRESSION, type := to_type }
    [expr]

/-- Modelled from the spec: a constant node (`LSLConstant` as an AST node, class not
among the sources): a childless node of type `NODE_CONSTANT` whose `getConstantValue`
is the constant itself. -/
def LSLConstant.toNode (cv : LSLConstant) : LSLASTNode :=
  .mk { nodeType := .NODE_CONSTANT, subType := cv.getNodeSubType, type := cv.getIType,
        constantValue := some cv } []

/-- Modelled from the spec: the constructor `LSLConstantExpression(constant)` (class
not among the sources): a constant-expression node with the constant as its only
child, typed and valued as the constant. -/
def LSLConstantExpression.new (cv : LSLConstant) : LSLASTNode :=
  .mk { nodeType := .NODE_EXPRESSION, subType := .NODE_CONSTANT_EXPRESSION,
        type := cv.getIType, constantValue := some cv } [cv.toNode]

/-- Modelled from the spec: the constructor `LSLVectorExpression(x, y, z)` (class not
among the sources). -/
def LSLVectorExpression.new (x y z : LSLASTNode) : LSLASTNode :=
  .mk { nodeType := .NODE_EXPRESSION, subType := .NODE_VECTOR_EXPRESSION,
        type := .LST_VECTOR } [x, y, z]

/-- Modelled from the spec: the constructor `LSLQuaternionExpression(x, y, z, s)` (class
not among the sources). -/
def LSLQuaternionExpression.new (x y z s : LSLASTNode) : LSLASTNode :=
  .mk { nodeType := .NODE_EXPRESSION, subType := .NODE_QUATERNION_EXPRESSION,
        type := .LST_QUATERNION } [x, y, z, s]

/-- Modelled from the spec: `getSymbol` of an lvalue or function expression (classes
not among the sources) is the symbol of the identifier in child 0. The outer `none` is
a missing child 0. -/
def LSLASTNode.getIdentifierSymbol (n : LSLASTNode) : Option (Option Nat) :=
  (n.getChild 0).map LSLASTNode.getSymbol

/-! ## The desugaring pass (desugaring.cc) -/

/-- Outcome of one `visit` call of a visitor on a node that sits in some slot of the
tree: `node` is what stands in that slot afterwards, `replaced` tells that the visited
node was unlinked and another node put in its place, `descend` is the value `visit`
returned. -/
structure Visited where
  node : LSLASTNode
  replaced : Bool := false
  descend : Bool := true

namespace DeSugaringVisitor

/-- `DeSugaringVisitor::maybeInjectCast(expr, to)`; the result is the node that stands
in the place of `expr` afterwards. -/
def maybeInjectCast (lib : Library) (expr : LSLASTNode) (to_type : LSLIType) : LSLASTNode :=
  let expr_type := expr.getType
  if to_type = expr_type then expr
  else if !lib.canCoerce expr_type to_type then expr
  else (LSLTypecastExpression.new to_type expr).setLoc expr.getLoc

/-- `DeSugaringVisitor::visit(LSLBinaryExpression *)`. -/
def visitBinaryExpression (lib : Library) (node : LSLASTNode) : Option Visited := do
  let decoupled_op := decouple_compound_operation node.getOperation
  let left ← node.getChild 0
  if left.getIType = .LST_ERROR then
    return { node := node }
  let right ← node.getChild 1
  if right.getIType = .LST_ERROR then
    return { node := node }
  if decoupled_op = .chr '=' then
    return { node := node.replaceChild 1 (maybeInjectCast lib right left.getType) }
  if node.getOperation = decoupled_op then
    return { node := node }
  if decoupled_op = .chr '*' ∧ left.getIType = .LST_INTEGER
      ∧ right.getIType = .LST_FLOATINGPOINT then
    return { node := node }
  let (right, node1) ← node.takeChild 1
  let new_right_node := ((LSLBinaryExpression.new (lib.clone left) decoupled_op right).setType
    node.getType).setLoc node.getLoc
  return { node := (node1.replaceChild 1 new_right_node).setOperation (.chr '=') }

/-- `DeSugaringVisitor::visit(LSLUnaryExpression *)`. -/
def visitUnaryExpression (lib : Library) (node : LSLASTNode) : Option Visited :=
  if node.getIType = .LST_ERROR then some { node := node }
  else
    let new_op : Option Operation :=
      match node.getOperation with
      | .INC_PRE_OP => some (.chr '+')
      | .DEC_PRE_OP => some (.chr '-')
      | _ => none
    match new_op with
    | none => some { node := node }
    | some new_op => do
      let (lvalue, _) ← node.takeChild 0
      let lvalue_copy := lib.clone lvalue
      let cv := lib.getOneValue lvalue.getType
      let rhs_operand := LSLConstantExpression.new cv
      let new_rvalue := (LSLBinaryExpression.new lvalue_copy new_op rhs_operand).setType
        node.getType
      let assign_expr := (LSLBinaryExpression.new lvalue (.chr '=') new_rvalue).setType
        node.getType
      return { node := assign_expr, replaced := true }

/-- `DeSugaringVisitor::visit(LSLDeclaration *)`. -/
def visitDeclaration (lib : Library) (node : LSLASTNode) : Option Visited := do
  let expr ← node.getChild 1
  if expr.getNodeType ≠ .NODE_NULL then
    let id ← node.getChild 0
    return { node := node.replaceChild 1 (maybeInjectCast lib expr id.getType) }
  return { node := node }

/-- The argument loop of `DeSugaringVisitor::visit(LSLFunctionExpression *)`: `k`
iterations are left and `i` is the loop index; `params` are the types of the children of
the function declaration. The loop ends early at a missing parameter or argument. -/
def castArguments (lib : Library) (params : List LSLIType) :
    Nat → Nat → LSLASTNode → LSLASTNode
  | 0, _, node => node
  | k + 1, i, node =>
    match params.get? i, node.getChild (i + 1) with
    | some expected_param, some param =>
      castArguments lib params k (i + 1)
        (node.replaceChild (i + 1) (maybeInjectCast lib param expected_param))
    | _, _ => node

/-- `DeSugaringVisitor::visit(LSLFunctionExpression *)`. -/
def visitFunctionExpression (lib : Library) (store : SymbolStore) (node : LSLASTNode) :
    Option Visited := do
  let sym ← node.getIdentifierSymbol
  match sym with
  | none => return { node := node }
  | some sym =>
    if (store sym).type = .LST_ERROR then return { node := node }
    match (store sym).functionDecl with
    | none => return { node := node }
    | some func_decl =>
      let num_children := node.getNumChildren - 1
      return { node := castArguments lib func_decl num_children 0 node }

/-- The parent walk of `DeSugaringVisitor::visit(LSLReturnStatement *)`: the nearest
node of type `NODE_GLOBAL_FUNCTION` in the parent chain (nearest parent first). -/
def enclosingFunction : List LSLASTNode → Option LSLASTNode
  | [] => none
  | parent :: rest =>
    if parent.getNodeType = .NODE_GLOBAL_FUNCTION then some parent
    else enclosingFunction rest

/-- `DeSugaringVisitor::visit(LSLReturnStatement *)`; `ancestors` is the parent chain of
the statement, nearest first. -/
def visitReturnStatement (lib : Library) (ancestors : List LSLASTNode) (node : LSLASTNode) :
    Option Visited := do
  let expr ← node.getChild 0
  if expr.getNodeType = .NODE_NULL then
    return { node := node }
  match enclosingFunction (node :: ancestors) with
  | some parent =>
    let id ← parent.getChild 0
    return { node := node.replaceChild 0 (maybeInjectCast lib expr id.getType) }
  | none => return { node := node }

/-- The constant-expression child built for one axis of a builtin vector or quaternion
constant in `DeSugaringVisitor::visit(LSLLValueExpression *)`. -/
def axisExpression (node : LSLASTNode) (axis : F32) : LSLASTNode :=
  (LSLConstantExpression.new (.float axis)).setLoc node.getLoc

/-- `DeSugaringVisitor::visit(LSLLValueExpression *)`. -/
def visitLValueExpression (store : SymbolStore) (node : LSLASTNode) : Option Visited := do
  let sym ← node.getIdentifierSymbol
  let sym ← sym
  if (store sym).symbolType ≠ .SYM_VARIABLE then
    return { node := node }
  if (store sym).subType ≠ .SYM_BUILTIN then
    return { node := node }
  match node.getConstantValue with
  | none => return { node := node }
  | some cv =>
    let new_expr : LSLASTNode :=
      match cv with
      | .vector x y z =>
        (LSLVectorExpression.new (axisExpression node x) (axisExpression node y)
          (axisExpression node z)).setConstantValue node.getConstantValue
      | .quaternion x y z s =>
        (LSLQuaternionExpression.new (axisExpression node x) (axisExpression node y)
          (axisExpression node z) (axisExpression node s)).setConstantValue
            node.getConstantValue
      | _ => LSLConstantExpression.new cv
    return { node := new_expr.setLoc node.getLoc, replaced := true, descend := false }

/-- `DeSugaringVisitor::handleCoordinateNode`, called by `visit(LSLVectorExpression *)`
and `visit(LSLQuaternionExpression *)`: every child slot, by index, goes through
`maybeInjectCast` to float. -/
def handleCoordinateNode (lib : Library) (node : LSLASTNode) : Visited :=
  { node := .mk node.data (node.children.map
      (fun child => maybeInjectCast lib child .LST_FLOATINGPOINT)) }

/-- The `visit` overload the visitor runs on a node, chosen by the node's class (its
sub-type); node classes without an overload in desugaring.cc take the default, which
changes nothing and descends. -/
def visitSpecific (lib : Library) (store : SymbolStore) (ancestors : List LSLASTNode)
    (node : LSLASTNode) : Option Visited :=
  match node.getNodeSubType with
  | .NODE_BINARY_EXPRESSION => visitBinaryExpression lib node
  | .NODE_UNARY_EXPRESSION => visitUnaryExpression lib node
  | .NODE_DECLARATION => visitDeclaration lib node
  | .NODE_QUATERNION_EXPRESSION => some (handleCoordinateNode lib node)
  | .NODE_VECTOR_EXPRESSION => some (handleCoordinateNode lib node)
  | .NODE_FUNCTION_EXPRESSION => visitFunctionExpression lib store node
  | .NODE_RETURN_STATEMENT => visitReturnStatement lib ancestors node
  | .NODE_LVALUE_EXPRESSION => visitLValueExpression store node
  | _ => some { node := node }

end DeSugaringVisitor

/-- Why a run of a pass over a tree gave no tree: the recursion budget of the embedding
ran out, the source would dereference a null pointer, or an `assert` of the source
fails. -/
inductive Fault where
  | outOfFuel
  | nullDereference
  | assertionFailed
  deriving DecidableEq, Repr

/-- Modelled from the spec: `ASTVisitor::visitChildren` (visitor module not among the
sources): the children are visited in sibling order, each seeing the parent with the
children before it already visited. `visitNode ancestors child` visits one child;
`done` are the visited children, the last argument the children still to visit. -/
def visitChildrenWith (visitNode : List LSLASTNode → LSLASTNode → Except Fault LSLASTNode)
    (ancestors : List LSLASTNode) (data : NodeData) :
    List LSLASTNode → List LSLASTNode → Except Fault (List LSLASTNode)
  | done, [] => .ok done
  | done, child :: rest =>
    match visitNode (.mk data (done ++ child :: rest) :: ancestors) child with
    | .error e => .error e
    | .ok child1 => visitChildrenWith visitNode ancestors data (done ++ [child1]) rest

/-- Modelled from the spec: the run of the desugaring visitor over a subtree (the
traversal driver is not among the sources; "a visitor is a table of functions keyed on
kind/sub-kind returning descend/skip"): the node's `visit` overload runs first and, when
it returns true, the children the node then has are visited in order. When the overload
has put another node in the visited node's place, the walk goes on below the unlinked
node and the replacement is not walked. The result is the subtree that stands in the
node's place afterwards; `fuel` bounds the depth of the walk. -/
def desugar (lib : Library) (store : SymbolStore) :
    Nat → List LSLASTNode → LSLASTNode → Except Fault LSLASTNode
  | 0, _, _ => .error .outOfFuel
  | fuel + 1, ancestors, node =>
    match DeSugaringVisitor.visitSpecific lib store ancestors node with
    | none => .error .nullDereference
    | some v =>
      if v.replaced then .ok v.node
      else if v.descend then
        match visitChildrenWith (desugar lib store fuel) ancestors v.node.data []
            v.node.children with
        | .error e => .error e
        | .ok children => .ok (.mk v.node.data children)
      else .ok v.node

/-! ## The constant-propagation pass (values.cc) -/

/-- One invocation of `_mOperationBehavior->operation(op, c_left, c_right, loc)`. -/
structure OperationCall where
  operation : Operation
  c_left : LSLConstant
  c_right : Option LSLConstant
  loc : YYLTYPE

namespace ConstantDeterminingVisitor

/-- `ConstantDeterminingVisitor::visit(LSLDeclaration *)`: stores the initializer's
constant and precluded flag in the declared symbol; returns `false`. The result is the
updated symbol store. -/
def visitDeclaration (store : SymbolStore) (node : LSLASTNode) : Option SymbolStore := do
  let id ← node.getChild 0
  let rvalue := node.getChild 1
  let (cv, cv_precluded) :=
    match rvalue with
    | some r =>
      if r.getNodeType ≠ .NODE_NULL then (r.getConstantValue, r.getConstantPrecluded)
      else (none, false)
    | none => (none, false)
  let sym ← id.getSymbol
  return Function.update store sym
    { store sym with constantValue := cv, constantPrecluded := cv_precluded }

/-- `ConstantDeterminingVisitor::visit(LSLExpression *)`. Besides the outcome for the
node, the result lists the invocations of the operation behaviour module made by the
call. -/
def visitExpression (lib : Library) (node : LSLASTNode) :
    Option (Visited × List OperationCall) := do
  let operation := node.getOperation
  let left ← node.getChild 0
  let right := node.getChild 1
  let rightIsError : Bool :=
    match right with
    | some r => decide (r.getType = .LST_ERROR)
    | none => false
  if left.getType = .LST_ERROR ∨ rightIsError = true then
    return ({ node := node.setConstantPrecluded true }, [])
  let checked : Bool :=
    match node.getNodeSubType with
    | .NODE_NO_SUB_TYPE => true
    | .NODE_CONSTANT_EXPRESSION => true
    | .NODE_PARENTHESIS_EXPRESSION => true
    | .NODE_BINARY_EXPRESSION => true
    | .NODE_UNARY_EXPRESSION => true
    | _ => false
  if checked = false then
    return ({ node := node }, [])
  if operation = .nop ∨ operation = .chr '(' then
    return ({ node := node.setConstantValue left.getConstantValue }, [])
  else if operation = .chr '=' then
    -- assert(right)
    let r ← right
    return ({ node := node.setConstantValue r.getConstantValue }, [])
  else
    let c_left := left.getConstantValue
    let c_right : Option LSLConstant :=
      match right with
      | some r => r.getConstantValue
      | none => none
    match c_left with
    | some cl =>
      if right.isNone ∨ c_right.isSome then
        return ({ node := node.setConstantValue
                    (lib.operation operation cl c_right node.getLoc) },
                [{ operation := operation, c_left := cl, c_right := c_right,
                   loc := node.getLoc }])
      else
        return ({ node := node.setConstantValue none }, [])
    | none => return ({ node := node.setConstantValue none }, [])

/-- The member switch of `visit(LSLLValueExpression *)`: `member[0]` selects the
component of a vector or quaternion constant; any other constant type yields null. -/
def memberConstant (constant_value : LSLConstant) (member : String) : Option LSLConstant :=
  match constant_value with
  | .vector x y z =>
    match member.toList.head? with
    | some 'x' => some (.float x)
    | some 'y' => some (.float y)
    | some 'z' => some (.float z)
    | _ => none
  | .quaternion x y z s =>
    match member.toList.head? with
    | some 'x' => some (.float x)
    | some 'y' => some (.float y)
    | some 'z' => some (.float z)
    | some 's' => some (.float s)
    | _ => none
  | _ => none

/-- `ConstantDeterminingVisitor::visit(LSLLValueExpression *)`. -/
def visitLValueExpression (store : SymbolStore) (node : LSLASTNode) : Option Visited := do
  let id ← node.getChild 0
  match id.getSymbol with
  | none =>
    return { node := (node.setConstantValue none).setConstantPrecluded true }
  | some symbol =>
    let member_id := node.getChild 1
    let member : Option String :=
      match member_id with
      | some m => if m.getNodeType = .NODE_IDENTIFIER then some m.getName else none
      | none => none
    let constant_value : Option LSLConstant :=
      if (store symbol).getAssignments = 0 then
        match (store symbol).constantValue, member with
        | some cv, some m => memberConstant cv m
        | cv, _ => cv
      else none
    return { node := node.setConstantValue constant_value }

/-- The child loop shared by `visit(LSLVectorExpression *)` (`limit` 3) and
`visit(LSLQuaternionExpression *)` (`limit` 4): `v` holds the components read so far
(`cv` is its length). An early `return true` inside the loop is `Except.error` with the
node as it then is; a completed loop is `Except.ok` with the components. -/
def scanCoordinates (limit : Nat) (node : LSLASTNode) :
    List LSLASTNode → List F32 → Except LSLASTNode (List F32)
  | [], v => .ok v
  | child :: rest, v =>
    if v.length ≥ limit then .error node
    else if !child.isConstant then
      .error (node.setConstantPrecluded child.getConstantPrecluded)
    else
      match child.getConstantValue with
      | some (.float f) => scanCoordinates limit node rest (v ++ [f])
      | some (.integer i) => scanCoordinates limit node rest (v ++ [F32.ofS32 i])
      | _ => .error (node.setConstantPrecluded true)

/-- `ConstantDeterminingVisitor::visit(LSLVectorExpression *)`. -/
def visitVectorExpression (node : LSLASTNode) : Visited :=
  match scanCoordinates 3 node node.children [] with
  | .error n => { node := n }
  | .ok [x, y, z] => { node := node.setConstantValue (some (.vector x y z)) }
  | .ok _ => { node := node }

/-- `ConstantDeterminingVisitor::visit(LSLQuaternionExpression *)`. -/
def visitQuaternionExpression (node : LSLASTNode) : Visited :=
  match scanCoordinates 4 node node.children [] with
  | .error n => { node := n }
  | .ok [x, y, z, s] => { node := node.setConstantValue (some (.quaternion x y z s)) }
  | .ok _ => { node := node }

end ConstantDeterminingVisitor

/-! ## Sample instances used to evaluate the passes -/

/-- Modelled from the spec: `LSLType::canCoerce` (types module not among the sources),
the coercion lattice: a type coerces to itself, `INTEGER` to `FLOAT`, and `STRING` and
`KEY` to each other. -/
def LSLType.canCoerce (a b : LSLIType) : Bool :=
  decide (a = b) || (a == .LST_INTEGER && b == .LST_FLOATINGPOINT)
    || (a == .LST_STRING && b == .LST_KEY) || (a == .LST_KEY && b == .LST_STRING)

/-- A library instance for running the passes on examples: `clone` yields an equal
tree, `canCoerce` is the coercion lattice, the one value of the numeric types is 1, and
the operation module folds integer addition with 32-bit wrap-around. -/
def Library.sample : Library where
  clone := fun n => n
  getOneValue := fun t =>
    match t with
    | .LST_INTEGER => .integer 1
    | .LST_FLOATINGPOINT => .float (F32.ofS32 1)
    | .LST_STRING => .string ""
    | .LST_KEY => .key ""
    | .LST_VECTOR => .vector ⟨0⟩ ⟨0⟩ ⟨0⟩
    | .LST_QUATERNION => .quaternion ⟨0⟩ ⟨0⟩ ⟨0⟩ ⟨0⟩
    | _ => .list []
  canCoerce := LSLType.canCoerce
  operation := fun op l r _ =>
    match op, l, r with
    | .chr '+', .integer a, some (.integer b) => some (.integer (wrapS32 (a + b)))
    | _, _, _ => none
  cast := fun _ _ _ => none

/-- An identifier node. -/
def Sample.identifier (t : LSLIType) (name : String) (symbol : Option Nat) : LSLASTNode :=
  .mk { nodeType := .NODE_IDENTIFIER, type := t, name := name, symbol := symbol } []

/-- The lvalue `name` of type `t` bound to `symbol`. -/
def Sample.lvalue (t : LSLIType) (name : String) (symbol : Option Nat) : LSLASTNode :=
  .mk { nodeType := .NODE_EXPRESSION, subType := .NODE_LVALUE_EXPRESSION, type := t }
    [Sample.identifier t name symbol]

/-- The member access `name.member`, a float, on a variable of type `t`. -/
def Sample.memberLvalue (t : LSLIType) (name member : String) (symbol : Option Nat) :
    LSLASTNode :=
  .mk { nodeType := .NODE_EXPRESSION, subType := .NODE_LVALUE_EXPRESSION,
        type := .LST_FLOATINGPOINT }
    [Sample.identifier t name symbol, Sample.identifier .LST_FLOATINGPOINT member none]

/-- A binary (or, with a compound operator, compound assignment) expression. -/
def Sample.binary (t : LSLIType) (op : Operation) (l r : LSLASTNode) : LSLASTNode :=
  .mk { nodeType := .NODE_EXPRESSION, subType := .NODE_BINARY_EXPRESSION, type := t,
        operation := op } [l, r]

/-- A unary expression. -/
def Sample.unary (t : LSLIType) (op : Operation) (e : LSLASTNode) : LSLASTNode :=
  .mk { nodeType := .NODE_EXPRESSION, subType := .NODE_UNARY_EXPRESSION, type := t,
        operation := op } [e]

/-- The local declaration `t name = init` (`init` a null node when absent). -/
def Sample.declaration (t : LSLIType) (name : String) (symbol : Option Nat)
    (init : LSLASTNode) : LSLASTNode :=
  .mk { nodeType := .NODE_STATEMENT, subType := .NODE_DECLARATION }
    [Sample.identifier t name symbol, init]

/-- The vector expression `<x, y, z>`. -/
def Sample.vectorExpression (x y z : LSLASTNode) : LSLASTNode :=
  LSLVectorExpression.new x y z

/-! ## Predicates used in the statements -/

/-- Height of a subtree: a leaf has height 1. -/
def LSLASTNode.height : LSLASTNode → Nat
  | .mk _ cs => 1 + heightList cs
where
  /-- Largest height among a list of subtrees. -/
  heightList : List LSLASTNode → Nat
  | [] => 0
  | c :: cs => max c.height (heightList cs)

/-- The predicate `P` holds of every node of the subtree. -/
inductive LSLASTNode.All (P : LSLASTNode → Prop) : LSLASTNode → Prop
  | mk (data : NodeData) (children : List LSLASTNode) :
      P (.mk data children) → (∀ c ∈ children, LSLASTNode.All P c) →
      LSLASTNode.All P (.mk data children)

/-- The pre-increment and pre-decrement operators. -/
def Operation.isPreIncDec : Operation → Bool
  | .INC_PRE_OP => true
  | .DEC_PRE_OP => true
  | _ => false

/-- The condition a node with fields `data` whose children have the types `types` meets
after desugaring: a binary expression with a compound operator is `int *= float` or has
an operand of type `ERROR`, and a unary expression with a pre-increment or
pre-decrement operator has type `ERROR`. -/
def DesugaredAt (data : NodeData) (types : List LSLIType) : Prop :=
  (data.subType = .NODE_BINARY_EXPRESSION → data.operation.isCompound = true →
    ∃ l r rest, types = l :: r :: rest ∧
      (l = .LST_ERROR ∨ r = .LST_ERROR ∨
        (data.operation = .MUL_ASSIGN ∧ l = .LST_INTEGER ∧ r = .LST_FLOATINGPOINT))) ∧
  (data.subType = .NODE_UNARY_EXPRESSION → data.operation.isPreIncDec = true →
    data.type = .LST_ERROR)

/-- The condition `DesugaredAt` of a node in a tree. -/
def LSLASTNode.Desugared (n : LSLASTNode) : Prop :=
  DesugaredAt n.data (n.children.map LSLASTNode.getIType)

/-- A subtree without binary and unary expression nodes, such as an lvalue. -/
def LSLASTNode.Plain (n : LSLASTNode) : Prop :=
  n.All (fun k => k.getNodeSubType ≠ .NODE_BINARY_EXPRESSION
    ∧ k.getNodeSubType ≠ .NODE_UNARY_EXPRESSION)

/-- What the parser, symbol resolution and the type pass establish of a node, as far as
desugaring relies on it. The node classes have the children their constructors give
them: a binary expression two operands, a declaration an identifier and an initializer
slot, a function call and a return statement their first child, an lvalue an identifier
with a resolved symbol. A reference to a builtin constant has the type of the constant
(the node that replaces it keeps the type). The operand of a pre-increment or
pre-decrement is an lvalue, a subtree without binary or unary expressions. -/
def LSLASTNode.Parsed (store : SymbolStore) (n : LSLASTNode) : Prop :=
  (n.getNodeSubType = .NODE_LVALUE_EXPRESSION →
    (∃ id sym, n.getChild 0 = some id ∧ id.getSymbol = some sym) ∧
    ∀ v, DeSugaringVisitor.visitLValueExpression store n = some v →
      v.node.getType = n.getType) ∧
  (n.getNodeSubType = .NODE_UNARY_EXPRESSION → n.getOperation.isPreIncDec = true →
    ∃ c, n.getChild 0 = some c ∧ c.Plain) ∧
  (n.getNodeSubType = .NODE_BINARY_EXPRESSION →
    ∃ l r, n.getChild 0 = some l ∧ n.getChild 1 = some r) ∧
  (n.getNodeSubType = .NODE_DECLARATION →
    ∃ id expr, n.getChild 0 = some id ∧ n.getChild 1 = some expr) ∧
  (n.getNodeSubType = .NODE_FUNCTION_EXPRESSION → ∃ id, n.getChild 0 = some id) ∧
  (n.getNodeSubType = .NODE_RETURN_STATEMENT → ∃ expr, n.getChild 0 = some expr)

/-- Every function node of a parent chain has its identifier child. -/
def AncestorsParsed (ancestors : List LSLASTNode) : Prop :=
  ∀ p ∈ ancestors, p.getNodeType = .NODE_GLOBAL_FUNCTION → ∃ id, p.getChild 0 = some id

/-- What desugaring relies on of `clone`: the copy is no higher than the original, and
it is `Parsed` throughout, respectively `Plain`, when the original is. -/
structure Library.CloneRespects (lib : Library) (store : SymbolStore) : Prop where
  height_le : ∀ n, (lib.clone n).height ≤ n.height
  parsed : ∀ n, n.All (LSLASTNode.Parsed store) → (lib.clone n).All (LSLASTNode.Parsed store)
  plain : ∀ n, n.Plain → (lib.clone n).Plain

/-- Where a child of a node just visited by the desugaring visitor comes from: it is a
child the node had before, a typecast put around such a child by `maybeInjectCast`, or
the binary expression made from a compound assignment. -/
inductive ChildOrigin (lib : Library) (n : LSLASTNode) : LSLASTNode → Prop
  | original {c : LSLASTNode} : c ∈ n.children → ChildOrigin lib n c
  | cast {c : LSLASTNode} (t : LSLIType) : c ∈ n.children →
      ChildOrigin lib n ((LSLTypecastExpression.new t c).setLoc c.getLoc)
  | decoupled {l r : LSLASTNode} (op : Operation) : l ∈ n.children → r ∈ n.children →
      op.isCompound = true →
      ChildOrigin lib n
        (((LSLBinaryExpression.new (lib.clone l) (decouple_compound_operation op) r).setType
          n.getType).setLoc n.getLoc)

/-- The outcome `v` of a `visit` overload on `n` that left `n` in the tree. -/
structure KeptInPlace (lib : Library) (n : LSLASTNode) (v : Visited) : Prop where
  subType : v.node.data.subType = n.data.subType
  type : v.node.data.type = n.data.type
  desugared : DesugaredAt v.node.data (v.node.children.map LSLASTNode.getIType)
  children : ∀ c ∈ v.node.children, ChildOrigin lib n c

/-- A node on which every `visit` overload is the identity and whose children are
lower than `h`. -/
def Inert (lib : Library) (store : SymbolStore) (h : Nat) (c : LSLASTNode) : Prop :=
  (∀ ancestors, DeSugaringVisitor.visitSpecific lib store ancestors c = some { node := c })
    ∧ ∀ g ∈ c.children, g.height < h

/-! ## The linked tree (ast.hh) -/

namespace Linked

/-- An AST node with its links: the fields `_mParent`, `_mNext`, `_mPrev`, `_mChildren`
and `_mChildrenTail` of `LSLASTNode` hold addresses, `none` for a null pointer. -/
structure Node where
  data : NodeData
  parent : Option Nat := none
  next : Option Nat := none
  prev : Option Nat := none
  children : Option Nat := none
  childrenTail : Option Nat := none

/-- The nodes of one compilation, by address; addresses from `free` on are unused. -/
structure Heap where
  node : Nat → Node
  free : Nat

/-- Update of the node at one address. -/
def Heap.modify (h : Heap) (p : Nat) (f : Node → Node) : Heap :=
  { h with node := fun q => if q = p then f (h.node p) else h.node q }

/-- The allocator's `newTracked`: the new node takes the first unused address. -/
def Heap.alloc (h : Heap) (n : Node) : Heap × Nat :=
  ({ node := fun q => if q = h.free then n else h.node q, free := h.free + 1 }, h.free)

/-- The loop of `LSLASTNode::getChild`: `while (i-- && c) c = c->getNext()`. -/
def Heap.walk (h : Heap) : Option Nat → Nat → Option Nat
  | c, 0 => c
  | none, _ + 1 => none
  | some c, i + 1 => h.walk (h.node c).next i

/-- `LSLASTNode::getChild`. -/
def Heap.getChild (h : Heap) (p : Nat) (i : Nat) : Option Nat :=
  h.walk (h.node p).children i

/-- Modelled from the spec: `LSLASTNode::setNext` (declared in ast.hh, body not in the
sources): "Set our next sibling, and ensure it links back to us." -/
def Heap.setNext (h : Heap) (p : Nat) (newnext : Option Nat) : Heap :=
  let h1 := h.modify p (fun n => { n with next := newnext })
  match newnext with
  | some q => h1.modify q (fun n => { n with prev := some p })
  | none => h1

/-- Modelled from the spec: `LSLASTNode::setPrev` (declared in ast.hh, body not in the
sources): "Set our previous sibling, and ensure it links back to us." -/
def Heap.setPrev (h : Heap) (p : Nat) (newprev : Option Nat) : Heap :=
  let h1 := h.modify p (fun n => { n with prev := newprev })
  match newprev with
  | some q => h1.modify q (fun n => { n with next := some p })
  | none => h1

/-- Modelled from the spec: `LSLASTNode::replaceNode(old_node, replacement)` (declared
in ast.hh, body not in the sources): "replace an arbitrary node with another, setting
prev, next and parent as appropriate"; "replacing a node unlinks the old node but does
not free it". The replacement takes over the siblings and the parent of the old node,
the parent's head and tail pointers follow, and the old node's links are cleared. -/
def Heap.replaceNode (h : Heap) (old_node replacement : Nat) : Heap :=
  let h1 := h.setPrev replacement (h.node old_node).prev
  let h2 := h1.setNext replacement (h.node old_node).next
  let parent := (h.node old_node).parent
  let h3 := h2.modify replacement (fun n => { n with parent := parent })
  let h4 :=
    match parent with
    | some p =>
      h3.modify p (fun n =>
        { n with
          children := if n.children = some old_node then some replacement else n.children,
          childrenTail :=
            if n.childrenTail = some old_node then some replacement else n.childrenTail })
    | none => h3
  h4.modify old_node (fun n => { n with parent := none, next := none, prev := none })

/-- Modelled from the spec: `LSLASTNode::newNullNode` (declared in ast.hh, body not in
the sources): a fresh unlinked node of type `NODE_NULL`. -/
def Heap.newNullNode (h : Heap) : Heap × Nat :=
  h.alloc { data := { nodeType := .NODE_NULL } }

/-- Modelled from the spec: the constructor `LSLTypecastExpression(type, expr)` (class
not among the sources) on the linked tree: a fresh typecast node of the target type
whose child list is the one node `expr` ("Add child to end of list"), which gets the
new node as its parent. -/
def Heap.newTypecastExpression (h : Heap) (to_type : LSLIType) (expr : Nat) : Heap × Nat :=
  let (h1, typecast) := h.alloc
    { data := { nodeType := .NODE_EXPRESSION, subType := .NODE_TYPECAST_EXPRESSION,
                type := to_type },
      children := some expr, childrenTail := some expr }
  (h1.modify expr (fun n => { n with parent := some typecast }), typecast)

/-- `DeSugaringVisitor::maybeInjectCast(expr, to)` on the linked tree. -/
def maybeInjectCast (lib : Library) (h : Heap) (expr : Nat) (to_type : LSLIType) : Heap :=
  let expr_type := (h.node expr).data.type
  if to_type = expr_type then h
  else if !lib.canCoerce expr_type to_type then h
  else
    let (h1, expr_placeholder) := h.newNullNode
    let h2 := h1.replaceNode expr expr_placeholder
    let (h3, typecast) := h2.newTypecastExpression to_type expr
    let h4 := h3.replaceNode expr_placeholder typecast
    h4.modify typecast (fun n => { n with data := { n.data with loc := (h4.node expr).data.loc } })

/-- The children of `parent` are the nodes `l`, in this order, with consistent links:
the head and tail pointers of the parent are the first and the last of them, each has
`parent` as its parent, its neighbours in `l` as previous and next sibling, and no node
occurs twice. -/
structure WellLinked (h : Heap) (parent : Nat) (l : List Nat) : Prop where
  head : (h.node parent).children = l.head?
  tail : (h.node parent).childrenTail = l.getLast?
  parent : ∀ (k x : Nat), l[k]? = some x → (h.node x).parent = some parent
  next : ∀ (k x : Nat), l[k]? = some x → (h.node x).next = l[k + 1]?
  prev : ∀ (k x : Nat), l[k]? = some x → (h.node x).prev = if k = 0 then none else l[k - 1]?
  nodup : l.Nodup

end Linked

/-! ## Further sample trees -/

/-- Numeric value of a node's constant as a vector or quaternion component: a float
constant gives its value, an integer constant its conversion to float, anything else
(no constant, or a constant of another type) gives nothing. -/
def LSLASTNode.numericConstant (n : LSLASTNode) : Option F32 :=
  match n.getConstantValue with
  | some (.float f) => some f
  | some (.integer i) => some (F32.ofS32 i)
  | _ => none

/-- A symbol store in which every symbol is a local variable without a constant. -/
def Sample.locals : SymbolStore := fun _ => {}

/-- A symbol store in which every symbol is a variable holding the constant `c` and
counted as assigned `assignments` times. -/
def Sample.store (c : Option LSLConstant) (assignments : Int) : SymbolStore :=
  fun _ => { symbolType := .SYM_VARIABLE, constantValue := c, assignments := assignments }

/-- A literal as the parser builds it: a constant expression over a constant node, its
own constant slot still empty. -/
def Sample.literal (cv : LSLConstant) : LSLASTNode :=
  .mk { nodeType := .NODE_EXPRESSION, subType := .NODE_CONSTANT_EXPRESSION,
        type := cv.getIType } [cv.toNode]

/-- The compound assignment `a += 1` on integers. -/
def Sample.addAssign : LSLASTNode :=
  Sample.binary .LST_INTEGER .ADD_ASSIGN (Sample.lvalue .LST_INTEGER "a" (some 0))
    (Sample.literal (.integer 1))

/-- The statement `integer b = a += 1;`. -/
def Sample.declareFromAddAssign : LSLASTNode :=
  Sample.declaration .LST_INTEGER "b" (some 1) Sample.addAssign

/-- The compound assignment `f *= i` with a float `f` and an integer `i`. -/
def Sample.floatMulInt : LSLASTNode :=
  Sample.binary .LST_FLOATINGPOINT .MUL_ASSIGN (Sample.lvalue .LST_FLOATINGPOINT "f" (some 0))
    (Sample.lvalue .LST_INTEGER "i" (some 1))

/-- The compound assignment `i *= f` with an integer `i` and a float `f`. -/
def Sample.intMulFloat : LSLASTNode :=
  Sample.binary .LST_INTEGER .MUL_ASSIGN (Sample.lvalue .LST_INTEGER "i" (some 1))
    (Sample.lvalue .LST_FLOATINGPOINT "f" (some 0))

/-- The ill-typed `a += (b + "x")`: the sum has type `ERROR`, and so has the
assignment. -/
def Sample.errorAddAssign : LSLASTNode :=
  Sample.binary .LST_ERROR .ADD_ASSIGN (Sample.lvalue .LST_INTEGER "a" (some 0))
    (Sample.binary .LST_ERROR (.chr '+') (Sample.lvalue .LST_INTEGER "b" (some 1))
      (Sample.literal (.string "x")))

/-- The ill-typed `++s` on a string `s`: the node has type `ERROR`. -/
def Sample.errorPreIncrement : LSLASTNode :=
  Sample.unary .LST_ERROR .INC_PRE_OP (Sample.lvalue .LST_STRING "s" (some 0))

/-- The pre-increment `++a` on an integer. -/
def Sample.preIncrement : LSLASTNode :=
  Sample.unary .LST_INTEGER .INC_PRE_OP (Sample.lvalue .LST_INTEGER "a" (some 0))

/-- The declaration `integer x = 1 + 2;`. -/
def Sample.declareSum : LSLASTNode :=
  Sample.declaration .LST_INTEGER "x" (some 0)
    (Sample.binary .LST_INTEGER (.chr '+') (Sample.literal (.integer 1))
      (Sample.literal (.integer 2)))

/-- The declaration `key k = s;` with `s` a string variable. -/
def Sample.declareKey : LSLASTNode :=
  Sample.declaration .LST_KEY "k" (some 1) (Sample.lvalue .LST_STRING "s" (some 0))

/-- The sum `1 + 2` with the constants of its operands already determined. -/
def Sample.foldableSum : LSLASTNode :=
  Sample.binary .LST_INTEGER (.chr '+')
    ((Sample.literal (.integer 1)).setConstantValue (some (.integer 1)))
    ((Sample.literal (.integer 2)).setConstantValue (some (.integer 2)))

/-- The vector expression `<1, 2, 3>` with the constants of its components already
determined. -/
def Sample.vector123 : LSLASTNode :=
  Sample.vectorExpression
    ((Sample.literal (.integer 1)).setConstantValue (some (.integer 1)))
    ((Sample.literal (.integer 2)).setConstantValue (some (.integer 2)))
    ((Sample.literal (.integer 3)).setConstantValue (some (.integer 3)))

/-- The symbol store after the constant pass has visited `vector v = <1, 2, 3>;`, `v`
being symbol 0 and never assigned again. -/
def Sample.storeAfterVector : Option SymbolStore :=
  ConstantDeterminingVisitor.visitDeclaration Sample.locals
    (Sample.declaration .LST_VECTOR "v" (some 0)
      (ConstantDeterminingVisitor.visitVectorExpression Sample.vector123).node)

/-- A linked tree: node 0 has the children 1, 2 and 3, node 2 being a string
expression; the addresses from 4 on are unused. -/
def Linked.Sample.heap : Linked.Heap where
  node := fun p =>
    match p with
    | 0 => { data := { nodeType := .NODE_STATEMENT }, children := some 1,
             childrenTail := some 3 }
    | 1 => { data := { nodeType := .NODE_EXPRESSION }, parent := some 0, next := some 2 }
    | 2 => { data := { nodeType := .NODE_EXPRESSION, type := .LST_STRING },
             parent := some 0, next := some 3, prev := some 1 }
    | 3 => { data := { nodeType := .NODE_EXPRESSION }, parent := some 0, prev := some 2 }
    | _ => { data := {} }
  free := 4

/-! ## The run of the constant-propagation pass (values.cc) -/

namespace ConstantDeterminingVisitor

/-- `ConstantDeterminingVisitor::beforeDescend`: the node as the hook leaves it and the
value the hook returns (`true`: descend into the children). -/
def beforeDescend (node : LSLASTNode) : LSLASTNode × Bool :=
  let node1 :=
    if node.isStatic = false ∧ node.getNodeType ≠ .NODE_CONSTANT then
      (node.setConstantValue none).setConstantPrecluded false
    else node
  if node1.getType = .LST_ERROR then
    ((node1.setConstantPrecluded true), false)
  else if node1.getNodeType = .NODE_SCRIPT then
    (node1, false)
  else
    (node1, true)

/-- `ConstantDeterminingVisitor::visit(LSLGlobalVariable *)`: with an initializer slot,
the symbol of the identifier takes the constant and the precluded flag of the
initializer. The result is the updated symbol store. -/
def visitGlobalVariable (store : SymbolStore) (node : LSLASTNode) : Option SymbolStore := do
  let identifier ← node.getChild 0
  let sym := identifier.getSymbol
  match node.getChild 1 with
  | some rvalue =>
    let sym ← sym
    return Function.update store sym
      { store sym with constantValue := rvalue.getConstantValue,
                       constantPrecluded := rvalue.getConstantPrecluded }
  | none => return store

/-- The first loop of `visit(LSLListExpression *)`: the first child that is not
constant, if there is one. -/
def firstNonConstant : List LSLASTNode → Option LSLASTNode
  | [] => none
  | child :: rest => if !child.isConstant then some child else firstNonConstant rest

/-- The second loop of `visit(LSLListExpression *)`: `new_child` is the chain of copies
built so far (empty for the null pointer). A copy of a constant is a constant of the
same value, and `addNextSibling` puts a constant at the end of the chain ("linked
sequence"); both routines are outside the sources. -/
def copyConstants : List LSLASTNode → List LSLConstant → Option (List LSLConstant)
  | [], new_child => some new_child
  | child :: rest, new_child => do
    let cv ← child.getConstantValue
    copyConstants rest (new_child ++ [cv])

/-- `ConstantDeterminingVisitor::visit(LSLListExpression *)`. -/
def visitListExpression (node : LSLASTNode) : Option Visited := do
  let child ← node.children.head?
  if child.getNodeType ≠ .NODE_NULL then
    match firstNonConstant node.children with
    | some c => return { node := node.setConstantPrecluded c.getConstantPrecluded }
    | none =>
      let new_child ← copyConstants node.children []
      return { node := node.setConstantValue (some (.list new_child)) }
  else
    return { node := node.setConstantValue (some (.list [])) }

/-- `ConstantDeterminingVisitor::visit(LSLTypecastExpression *)`. The location handed to
the cast routine is that of the constant, which the embedding of constants does not
keep; the cast is given the default location. -/
def visitTypecastExpression (lib : Library) (node : LSLASTNode) : Option Visited := do
  let child ← node.getChild 0
  let val := child.getConstantValue
  let node1 := node.setConstantValue none
  match val with
  | none => return { node := node1.setConstantPrecluded child.getConstantPrecluded }
  | some val =>
    let to_type := node.getType
    return { node := node1.setConstantValue (lib.cast to_type val {}) }

/-- The `visit` overload the visitor runs on a node other than the script node, chosen
by the class of the node (its type and sub-type): expression classes without an overload
of their own take `visit(LSLExpression *)`, every other class without an overload takes
the default, which does nothing. The result is the symbol store and the node
afterwards. -/
def visitSpecific (lib : Library) (store : SymbolStore) (node : LSLASTNode) :
    Option (SymbolStore × LSLASTNode) :=
  match node.getNodeType with
  | .NODE_GLOBAL_VARIABLE => (visitGlobalVariable store node).map (fun s => (s, node))
  | .NODE_STATEMENT =>
    if node.getNodeSubType = .NODE_DECLARATION then
      (visitDeclaration store node).map (fun s => (s, node))
    else some (store, node)
  | .NODE_EXPRESSION =>
    match node.getNodeSubType with
    | .NODE_LVALUE_EXPRESSION => (visitLValueExpression store node).map (fun v => (store, v.node))
    | .NODE_LIST_EXPRESSION => (visitListExpression node).map (fun v => (store, v.node))
    | .NODE_VECTOR_EXPRESSION => some (store, (visitVectorExpression node).node)
    | .NODE_QUATERNION_EXPRESSION => some (store, (visitQuaternionExpression node).node)
    | .NODE_TYPECAST_EXPRESSION =>
      (visitTypecastExpression lib node).map (fun v => (store, v.node))
    | _ => (visitExpression lib node).map (fun r => (store, r.1.node))
  | _ => some (store, node)

/-- Modelled from the spec: `ASTVisitor::visitChildren` (visitor module not among the
sources) for a pass that threads the symbol store: the children are visited in sibling
order by `visitNode`, each from the store the one before it left. -/
def visitChildren
    (visitNode : SymbolStore → LSLASTNode → Except Fault (SymbolStore × LSLASTNode)) :
    SymbolStore → List LSLASTNode → Except Fault (SymbolStore × List LSLASTNode)
  | store, [] => .ok (store, [])
  | store, child :: rest =>
    match visitNode store child with
    | .error e => .error e
    | .ok (store1, child1) =>
      match visitChildren visitNode store1 rest with
      | .error e => .error e
      | .ok (store2, rest1) => .ok (store2, child1 :: rest1)

/-- The loop of `ConstantDeterminingVisitor::visit(LSLScript *)` over the children of
the script's first child: of each of them the first child, when it is a global variable,
is visited. -/
def visitGlobalVariables
    (visitNode : SymbolStore → LSLASTNode → Except Fault (SymbolStore × LSLASTNode)) :
    SymbolStore → List LSLASTNode → Except Fault (SymbolStore × List LSLASTNode)
  | store, [] => .ok (store, [])
  | store, child :: rest =>
    let visited : Except Fault (SymbolStore × LSLASTNode) :=
      match child.getChild 0 with
      | some gs_child =>
        if gs_child.getNodeType = .NODE_GLOBAL_VARIABLE then
          match visitNode store gs_child with
          | .error e => .error e
          | .ok (store1, gs_child1) => .ok (store1, child.replaceChild 0 gs_child1)
        else .ok (store, child)
      | none => .ok (store, child)
    match visited with
    | .error e => .error e
    | .ok (store1, child1) =>
      match visitGlobalVariables visitNode store1 rest with
      | .error e => .error e
      | .ok (store2, rest1) => .ok (store2, child1 :: rest1)

/-- `ConstantDeterminingVisitor::visit(LSLScript *)`: the global variables first, then
all the children of the script. -/
def visitScript
    (visitNode : SymbolStore → LSLASTNode → Except Fault (SymbolStore × LSLASTNode))
    (store : SymbolStore) (node : LSLASTNode) : Except Fault (SymbolStore × LSLASTNode) :=
  match node.getChild 0 with
  | none => .error .nullDereference
  | some globals =>
    match visitGlobalVariables visitNode store globals.children with
    | .error e => .error e
    | .ok (store1, storages) =>
      let node1 := node.replaceChild 0 (.mk globals.data storages)
      match visitChildren visitNode store1 node1.children with
      | .error e => .error e
      | .ok (store2, children) => .ok (store2, .mk node1.data children)

/-- Modelled from the spec: the run of the constant-propagation visitor over a subtree
(the traversal driver is not among the sources; "Descends with a gating hook"): the hook
`beforeDescend` runs first, the children are visited when it returns true, and then the
`visit` overload of the node runs, on children that have their constants; the value the
overload returns is not used. The result is the symbol store and the subtree afterwards;
`fuel` bounds the depth of the walk. -/
def propagate (lib : Library) :
    Nat → SymbolStore → LSLASTNode → Except Fault (SymbolStore × LSLASTNode)
  | 0, _, _ => .error .outOfFuel
  | fuel + 1, store, node =>
    let (node1, descend) := beforeDescend node
    let below : Except Fault (SymbolStore × List LSLASTNode) :=
      if descend then visitChildren (propagate lib fuel) store node1.children
      else .ok (store, node1.children)
    match below with
    | .error e => .error e
    | .ok (store1, children) =>
      let node2 := LSLASTNode.mk node1.data children
      if node2.getNodeType = .NODE_SCRIPT then
        visitScript (propagate lib fuel) store1 node2
      else
        match visitSpecific lib store1 node2 with
        | none => .error .nullDereference
        | some r => .ok r

end ConstantDeterminingVisitor

/-- The list expression `[1, "a"]` with the constants of its elements determined. -/
def Sample.list1a : LSLASTNode :=
  .mk { nodeType := .NODE_EXPRESSION, subType := .NODE_LIST_EXPRESSION, type := .LST_LIST }
    [(Sample.literal (.integer 1)).setConstantValue (some (.integer 1)),
     (Sample.literal (.string "a")).setConstantValue (some (.string "a"))]

/-! ## Predicates on the constant-propagation pass -/

/-- The fields of a node that the constant-propagation pass never writes (all but the
constant slot and the precluded flag) agree. -/
def NodeData.SameSkeleton (d d' : NodeData) : Prop :=
  { d' with constantValue := d.constantValue, constantPrecluded := d.constantPrecluded } = d

/-- Two trees of the same form whose nodes at the same place have fields related by
`R`. -/
inductive LSLASTNode.Related (R : NodeData → NodeData → Prop) :
    LSLASTNode → LSLASTNode → Prop
  | mk (d d' : NodeData) (cs cs' : List LSLASTNode) :
      R d d' → cs'.length = cs.length →
      (∀ (i : Nat) (c c' : LSLASTNode), cs.get? i = some c → cs'.get? i = some c' →
        LSLASTNode.Related R c c') →
      LSLASTNode.Related R (.mk d cs) (.mk d' cs')

/-- What the parser and symbol resolution establish of a node, as far as the
constant-propagation pass relies on it: the script has its first child, a global
variable its identifier (with a symbol when there is an initializer slot), a declaration
an identifier with a symbol, a list expression a first child (the null placeholder when
the list is empty), every other expression but a vector or quaternion its first child,
and an assignment a right operand. -/
def LSLASTNode.ConstantReady (n : LSLASTNode) : Prop :=
  (n.getNodeType = .NODE_SCRIPT → ∃ globals, n.getChild 0 = some globals) ∧
  (n.getNodeType = .NODE_GLOBAL_VARIABLE →
    ∃ id, n.getChild 0 = some id ∧ (n.getNumChildren > 1 → ∃ sym, id.getSymbol = some sym)) ∧
  (n.getNodeType = .NODE_STATEMENT → n.getNodeSubType = .NODE_DECLARATION →
    ∃ id sym, n.getChild 0 = some id ∧ id.getSymbol = some sym) ∧
  (n.getNodeType = .NODE_EXPRESSION →
    n.getNodeSubType ≠ .NODE_VECTOR_EXPRESSION →
    n.getNodeSubType ≠ .NODE_QUATERNION_EXPRESSION →
    (∃ c, n.getChild 0 = some c) ∧
    (n.getOperation = .chr '=' → ∃ r, n.getChild 1 = some r))

/-- The constant-propagation pass, run on the tree, stores a constant in the symbol `x`:
the walk reaches a declaration or a global variable with an initializer slot whose
identifier has the symbol `x`. The walk goes below a node the gating hook lets it
descend into, below the script node, and to the global variables of the script. -/
inductive LSLASTNode.Writes : LSLASTNode → Nat → Prop
  | declaration (n id : LSLASTNode) (x : Nat) :
      n.getNodeType = .NODE_STATEMENT → n.getNodeSubType = .NODE_DECLARATION →
      n.getChild 0 = some id → id.getSymbol = some x → LSLASTNode.Writes n x
  | globalVariable (n id : LSLASTNode) (x : Nat) :
      n.getNodeType = .NODE_GLOBAL_VARIABLE → n.getNumChildren > 1 →
      n.getChild 0 = some id → id.getSymbol = some x → LSLASTNode.Writes n x
  | child (n c : LSLASTNode) (x : Nat) :
      (n.getType ≠ .LST_ERROR ∨ n.getNodeType = .NODE_SCRIPT) → c ∈ n.children →
      LSLASTNode.Writes c x → LSLASTNode.Writes n x
  | global (n globals storage gv : LSLASTNode) (x : Nat) :
      n.getNodeType = .NODE_SCRIPT → n.getChild 0 = some globals →
      storage ∈ globals.children → storage.getChild 0 = some gv →
      gv.getNodeType = .NODE_GLOBAL_VARIABLE →
      LSLASTNode.Writes gv x → LSLASTNode.Writes n x

namespace ConstantDeterminingVisitor

/-- The fields of a node with the fields `d` after `beforeDescend`. -/
def hookData (d : NodeData) : NodeData := (beforeDescend (.mk d [])).1.data

/-- The answer of `beforeDescend` on a node with the fields `d`. -/
def hookDescends (d : NodeData) : Bool := (beforeDescend (.mk d [])).2

end ConstantDeterminingVisitor

/-- The vector expression `<a, "x", 1>` over a float variable `a`, with the type `t` the
type pass gave it. -/
def Sample.vectorWithString (t : LSLIType) : LSLASTNode :=
  (Sample.vectorExpression (Sample.lvalue .LST_FLOATINGPOINT "a" (some 0))
    (Sample.literal (.string "x")) (Sample.literal (.integer 1))).setType t

/-- A node marked static that holds the constant 5: the lvalue `a`. -/
def Sample.staticLvalue : LSLASTNode :=
  ((Sample.lvalue .LST_INTEGER "a" (some 0)).setConstantValue (some (.integer 5))).markStatic

/-- A node marked static that holds the constant 3: the sum `e + 1` whose left operand
`e` has type `ERROR`. -/
def Sample.staticErrorSum : LSLASTNode :=
  ((Sample.binary .LST_ERROR (.chr '+') (Sample.lvalue .LST_ERROR "e" none)
    (Sample.literal (.integer 1))).setConstantValue (some (.integer 3))).markStatic

/-- The declaration `integer x = 1 + 2;` marked static and holding the constant 7: a
static node that is no expression node. -/
def Sample.staticDeclaration : LSLASTNode :=
  (Sample.declareSum.setConstantValue (some (.integer 7))).markStatic

/-- The statements `integer a; integer b = a += 1;` in a compound statement, `a` being
symbol 0 and `b` symbol 1. -/
def Sample.twoDeclarations : LSLASTNode :=
  .mk { nodeType := .NODE_STATEMENT, subType := .NODE_COMPOUND_STATEMENT }
    [Sample.declaration .LST_INTEGER "a" (some 0) LSLASTNode.newNullNode,
     Sample.declareFromAddAssign]

/-- The value of a constant as a vector or quaternion component: a float constant gives
its value, an integer constant its conversion to float. -/
def LSLConstant.numeric : LSLConstant → Option F32
  | .float f => some f
  | .integer i => some (F32.ofS32 i)
  | _ => none

/-- An expression that folds to the constant `c`: its leaves are literals and references
to variables whose symbol has the assignment counter 0 and holds a constant (or a
component of such a vector or quaternion variable), and it is built from them by
parentheses, by unary and binary operators on which the operation module yields a value,
by typecasts on which the cast routine yields a value, by vector and quaternion
constructors over integer or float components and by list constructors; no node of it has
the type `ERROR`. -/
inductive Folds (lib : Library) (store : SymbolStore) : LSLASTNode → LSLConstant → Prop
  | literal (d k : NodeData) (c : LSLConstant) :
      d.nodeType = .NODE_EXPRESSION → d.subType = .NODE_CONSTANT_EXPRESSION →
      d.type ≠ .LST_ERROR → d.operation = .nop →
      k.nodeType = .NODE_CONSTANT → k.type ≠ .LST_ERROR → k.constantValue = some c →
      Folds lib store (.mk d [.mk k []]) c
  | lvalue (d id : NodeData) (sym : Nat) (c : LSLConstant) :
      d.nodeType = .NODE_EXPRESSION → d.subType = .NODE_LVALUE_EXPRESSION →
      d.type ≠ .LST_ERROR → id.nodeType = .NODE_IDENTIFIER → id.symbol = some sym →
      (store sym).getAssignments = 0 → (store sym).constantValue = some c →
      Folds lib store (.mk d [.mk id []]) c
  | member (d id m : NodeData) (sym : Nat) (cv c : LSLConstant) :
      d.nodeType = .NODE_EXPRESSION → d.subType = .NODE_LVALUE_EXPRESSION →
      d.type ≠ .LST_ERROR → id.nodeType = .NODE_IDENTIFIER → id.symbol = some sym →
      m.nodeType = .NODE_IDENTIFIER →
      (store sym).getAssignments = 0 → (store sym).constantValue = some cv →
      ConstantDeterminingVisitor.memberConstant cv m.name = some c →
      Folds lib store (.mk d [.mk id [], .mk m []]) c
  | parenthesis (d : NodeData) (e : LSLASTNode) (c : LSLConstant) :
      d.nodeType = .NODE_EXPRESSION →
      (d.subType = .NODE_NO_SUB_TYPE ∨ d.subType = .NODE_PARENTHESIS_EXPRESSION) →
      d.type ≠ .LST_ERROR → (d.operation = .nop ∨ d.operation = .chr '(') →
      Folds lib store e c → Folds lib store (.mk d [e]) c
  | unary (d : NodeData) (e : LSLASTNode) (ce c : LSLConstant) :
      d.nodeType = .NODE_EXPRESSION → d.subType = .NODE_UNARY_EXPRESSION →
      d.type ≠ .LST_ERROR →
      d.operation ≠ .nop → d.operation ≠ .chr '(' → d.operation ≠ .chr '=' →
      Folds lib store e ce → lib.operation d.operation ce none d.loc = some c →
      Folds lib store (.mk d [e]) c
  | binary (d : NodeData) (l r : LSLASTNode) (cl cr c : LSLConstant) :
      d.nodeType = .NODE_EXPRESSION → d.subType = .NODE_BINARY_EXPRESSION →
      d.type ≠ .LST_ERROR →
      d.operation ≠ .nop → d.operation ≠ .chr '(' → d.operation ≠ .chr '=' →
      Folds lib store l cl → Folds lib store r cr →
      lib.operation d.operation cl (some cr) d.loc = some c →
      Folds lib store (.mk d [l, r]) c
  | typecast (d : NodeData) (e : LSLASTNode) (ce c : LSLConstant) :
      d.nodeType = .NODE_EXPRESSION → d.subType = .NODE_TYPECAST_EXPRESSION →
      d.type ≠ .LST_ERROR →
      Folds lib store e ce → lib.cast d.type ce {} = some c →
      Folds lib store (.mk d [e]) c
  | vector (d : NodeData) (x y z : LSLASTNode) (cx cy cz : LSLConstant) (fx fy fz : F32) :
      d.nodeType = .NODE_EXPRESSION → d.subType = .NODE_VECTOR_EXPRESSION →
      d.type ≠ .LST_ERROR →
      Folds lib store x cx → Folds lib store y cy → Folds lib store z cz →
      cx.numeric = some fx → cy.numeric = some fy → cz.numeric = some fz →
      Folds lib store (.mk d [x, y, z]) (.vector fx fy fz)
  | quaternion (d : NodeData) (x y z w : LSLASTNode) (cx cy cz cw : LSLConstant)
      (fx fy fz fw : F32) :
      d.nodeType = .NODE_EXPRESSION → d.subType = .NODE_QUATERNION_EXPRESSION →
      d.type ≠ .LST_ERROR →
      Folds lib store x cx → Folds lib store y cy → Folds lib store z cz →
      Folds lib store w cw →
      cx.numeric = some fx → cy.numeric = some fy → cz.numeric = some fz →
      cw.numeric = some fw →
      Folds lib store (.mk d [x, y, z, w]) (.quaternion fx fy fz fw)
  | list (d : NodeData) (es : List LSLASTNode) (ks : List LSLConstant) :
      d.nodeType = .NODE_EXPRESSION → d.subType = .NODE_LIST_EXPRESSION →
      d.type ≠ .LST_ERROR → es ≠ [] → ks.length = es.length →
      (∀ (i : Nat) (e : LSLASTNode) (k : LSLConstant), es.get? i = some e →
        ks.get? i = some k → Folds lib store e k) →
      Folds lib store (.mk d es) (.list ks)
  | emptyList (d p : NodeData) :
      d.nodeType = .NODE_EXPRESSION → d.subType = .NODE_LIST_EXPRESSION →
      d.type ≠ .LST_ERROR → p.nodeType = .NODE_NULL →
      Folds lib store (.mk d [.mk p []]) (.list [])

/-- The expression `print(1)`. -/
def Sample.printLiteral : LSLASTNode :=
  .mk { nodeType := .NODE_EXPRESSION, subType := .NODE_PRINT_EXPRESSION,
        type := .LST_INTEGER } [Sample.literal (.integer 1)]

/-- The sum `a + 1` on integers, `a` being symbol 0. -/
def Sample.symbolPlusOne : LSLASTNode :=
  Sample.binary .LST_INTEGER (.chr '+') (Sample.lvalue .LST_INTEGER "a" (some 0))
    (Sample.literal (.integer 1))

/-- The condition "every leaf is a literal or a single-assignment constant-holding
symbol" on a tree: each childless node is a constant node, or an identifier whose symbol
has the assignment counter 0 and holds a constant. -/
def LSLASTNode.LeavesKnown (store : SymbolStore) (t : LSLASTNode) : Prop :=
  t.All (fun n => n.children = [] →
    n.getNodeType = .NODE_CONSTANT ∨
      (n.getNodeType = .NODE_IDENTIFIER ∧
        ∃ sym, n.getSymbol = some sym ∧ (store sym).getAssignments = 0
          ∧ (store sym).constantValue.isSome = true))

/-! ## The symbol-resolution pass (symbol_resolution.cc) -/

/-- The diagnostics the symbol-resolution pass reports through `NODE_ERROR`. -/
inductive ErrorCode where
  | E_UNDECLARED
  | E_DECLARATION_INVALID_HERE
  | E_INVALID_EVENT
  | W_JUMP_TO_WRONG_LABEL
  | W_DUPLICATE_LABEL_NAME
  deriving DecidableEq, Repr

/-- One `NODE_ERROR` report: the code and the name it is about. -/
structure Diagnostic where
  code : ErrorCode
  name : String
  deriving DecidableEq, Repr

/-- An identifier the visitor keeps a pointer to (`_mPendingJumps`, `_mCollectedLabels`):
`path` are the child indices that lead to it from the enclosing function or event
handler, `scopes` the tables of the scope-opening nodes around it, innermost first. -/
structure IdentifierRef where
  path : List Nat
  scopes : List Nat
  deriving DecidableEq, Repr

/-- What the symbol-resolution pass works on besides the tree: the symbols the allocator
tracks (a symbol pointer is an index of `symbols`), the tables registered with the table
manager (a table pointer is an index of `tables`; a table lists symbol pointers in the
order of their definition), the two lists of the visitor and the reports of the
logger. -/
structure Resolution where
  symbols : List LSLSymbol := []
  tables : List (List Nat) := []
  mPendingJumps : List IdentifierRef := []
  mCollectedLabels : List IdentifierRef := []
  errors : List Diagnostic := []

/-- Where the walk stands: `scopes` are the tables of the scope-opening ancestors of the
node, innermost first (the table of the builtins is the last), `root` the scopes seen
from the root of the tree (`none` while the walk is at the root itself), and `path` the
child indices from the enclosing function or event handler to the node. -/
structure Place where
  scopes : List Nat := []
  root : Option (List Nat) := none
  path : List Nat := []

/-- `LSLIdentifier::setSymbol`. -/
def LSLASTNode.setSymbol (n : LSLASTNode) (sym : Option Nat) : LSLASTNode :=
  .mk { n.data with symbol := sym } n.children

/-- `LSLASTNode::getSymbolTable`. -/
def LSLASTNode.getSymbolTable (n : LSLASTNode) : Option Nat := n.data.symbolTable

/-- `LSLASTNode::setSymbolTable`. -/
def LSLASTNode.setSymbolTable (n : LSLASTNode) (table : Option Nat) : LSLASTNode :=
  .mk { n.data with symbolTable := table } n.children

/-- The tables a lookup that starts at the node goes through: the node's own table, when
it has one, and then those of its ancestors. -/
def LSLASTNode.scopesFrom (n : LSLASTNode) (scopes : List Nat) : List Nat :=
  match n.getSymbolTable with
  | some table => table :: scopes
  | none => scopes

/-- The node the child indices `path` lead to. -/
def LSLASTNode.nodeAt : LSLASTNode → List Nat → Option LSLASTNode
  | n, [] => some n
  | n, i :: rest =>
    match n.getChild i with
    | some c => c.nodeAt rest
    | none => none

/-- The tree with the node the child indices `path` lead to overwritten by `r`. -/
def LSLASTNode.setAt : LSLASTNode → List Nat → LSLASTNode → LSLASTNode
  | _, [], r => r
  | n, i :: rest, r =>
    match n.getChild i with
    | some c => n.replaceChild i (c.setAt rest r)
    | none => n

namespace Resolution

/-- `_mAllocator->newTracked<LSLSymbol>(...)`: the symbol is added to the tracked
objects; the result is the new state and the pointer to the symbol. -/
def newSymbol (st : Resolution) (sym : LSLSymbol) : Resolution × Nat :=
  ({ st with symbols := st.symbols ++ [sym] }, st.symbols.length)

/-- `NODE_ERROR(node, code, name)`. -/
def report (st : Resolution) (code : ErrorCode) (name : String) : Resolution :=
  { st with errors := st.errors ++ [{ code := code, name := name }] }

/-- Modelled from the spec: `LSLSymbolTable::lookup(name, type)` (symtab.cc is not among
the sources; "Multimap from name to symbols (case-sensitive ...)"): a symbol of the table
with the name and, unless `type` is `SYM_ANY`, of the kind asked for; of several, the
one defined first. -/
def lookupInTable (st : Resolution) (table : Nat) (name : String) (type : LSLSymbolType) :
    Option Nat :=
  (st.tables.getD table []).find? (fun p =>
    match st.symbols.get? p with
    | some s => decide (s.name = name) && (decide (type = .SYM_ANY) || decide (s.symbolType = type))
    | none => false)

/-- Modelled from the spec: `LSLASTNode::lookupSymbol(name, type)` (declared in ast.hh,
body not in the sources): "lookup of `name` at node `N` traverses up through `N`'s
ancestors, consulting each scope-opening ancestor's symbol table; the root table is
consulted last". `scopes` are the tables on that way, innermost first. -/
def lookupSymbol (st : Resolution) (scopes : List Nat) (name : String)
    (type : LSLSymbolType) : Option Nat :=
  scopes.findSome? (fun table => st.lookupInTable table name type)

/-- Modelled from the spec: `LSLASTNode::defineSymbol(symbol)` (declared in ast.hh, body
not in the sources): "`defineSymbol` appends to the innermost scope's table". -/
def defineSymbol (st : Resolution) (scopes : List Nat) (sym : Nat) : Resolution :=
  match scopes with
  | [] => st
  | table :: _ =>
    { st with tables := st.tables.set table ((st.tables.getD table []) ++ [sym]) }

/-- Modelled from the spec: `LSLIdentifier::resolveSymbol(type)` (class not among the
sources): the identifier takes the symbol the lookup of its name finds; when there is
none, an undeclared-symbol error is reported, the identifier is left without a symbol
and its type becomes `ERROR` ("undefined symbol ... sets the node's type to `ERROR`").
`scopes` are the tables the lookup from the identifier goes through. -/
def resolveSymbol (st : Resolution) (scopes : List Nat) (id : LSLASTNode)
    (type : LSLSymbolType) : Resolution × LSLASTNode :=
  match st.lookupSymbol scopes id.getName type with
  | some sym => (st, id.setSymbol (some sym))
  | none => (st.report .E_UNDECLARED id.getName, (id.setSymbol none).setType .LST_ERROR)

end Resolution

namespace BaseSymbolResolutionVisitor

/-- `BaseSymbolResolutionVisitor::visit(LSLLValueExpression *)`. The result is the state,
the node afterwards and the value returned (`true`: descend). -/
def visitLValueExpression (st : Resolution) (place : Place) (node : LSLASTNode) :
    Except Fault (Resolution × LSLASTNode × Bool) :=
  match node.getChild 0 with
  | none => .error .nullDereference
  | some id =>
    let (st1, id1) := st.resolveSymbol (node.scopesFrom place.scopes) id .SYM_VARIABLE
    .ok (st1, node.replaceChild 0 id1, false)

/-- `BaseSymbolResolutionVisitor::visit(LSLFunctionExpression *)`. -/
def visitFunctionExpression (st : Resolution) (place : Place) (node : LSLASTNode) :
    Except Fault (Resolution × LSLASTNode × Bool) :=
  match node.getChild 0 with
  | none => .error .nullDereference
  | some id =>
    let (st1, id1) := st.resolveSymbol (node.scopesFrom place.scopes) id .SYM_FUNCTION
    .ok (st1, node.replaceChild 0 id1, true)

/-- `BaseSymbolResolutionVisitor::replaceSymbolTable`: a new table is tracked, set as the
node's table and registered with the table manager. -/
def replaceSymbolTable (st : Resolution) (node : LSLASTNode) : Resolution × LSLASTNode :=
  ({ st with tables := st.tables ++ [[]] }, node.setSymbolTable (some st.tables.length))

/-- Modelled from the spec: `ASTVisitor::visitChildren` (visitor module not among the
sources) for the symbol-resolution visitors: the children from index `i` on are visited
in sibling order by `visitNode`, each from the state the one before it left, at the
place below the parent whose lookup scopes are `scopes`. -/
def visitChildrenFrom
    (visitNode : Resolution → Place → LSLASTNode → Except Fault (Resolution × LSLASTNode))
    (scopes : List Nat) (root : List Nat) (path : List Nat) :
    Nat → Resolution → List LSLASTNode → Except Fault (Resolution × List LSLASTNode)
  | _, st, [] => .ok (st, [])
  | i, st, child :: rest =>
    match visitNode st { scopes := scopes, root := some root, path := path ++ [i] } child with
    | .error e => .error e
    | .ok (st1, child1) =>
      match visitChildrenFrom visitNode scopes root path (i + 1) st1 rest with
      | .error e => .error e
      | .ok (st2, rest1) => .ok (st2, child1 :: rest1)

/-- The call `visitChildren(node)` of a visitor at a node that stands at `place`. -/
def visitChildren
    (visitNode : Resolution → Place → LSLASTNode → Except Fault (Resolution × LSLASTNode))
    (st : Resolution) (place : Place) (node : LSLASTNode) :
    Except Fault (Resolution × LSLASTNode) :=
  match visitChildrenFrom visitNode (node.scopesFrom place.scopes)
      (place.root.getD (node.scopesFrom place.scopes)) place.path 0 st node.children with
  | .error e => .error e
  | .ok (st1, children) => .ok (st1, .mk node.data children)

end BaseSymbolResolutionVisitor

namespace GlobalSymbolResolutionVisitor

open BaseSymbolResolutionVisitor

/-- `GlobalSymbolResolutionVisitor::visit(LSLGlobalVariable *)`: the children first, then
the symbol of the identifier is made and defined. -/
def visitGlobalVariable
    (visitNode : Resolution → Place → LSLASTNode → Except Fault (Resolution × LSLASTNode))
    (st : Resolution) (place : Place) (node : LSLASTNode) :
    Except Fault (Resolution × LSLASTNode × Bool) :=
  match visitChildren visitNode st place node with
  | .error e => .error e
  | .ok (st1, node1) =>
    match node1.getChild 0 with
    | none => .error .nullDereference
    | some identifier =>
      let (st2, sym) := st1.newSymbol
        { name := identifier.getName, type := identifier.getType,
          symbolType := .SYM_VARIABLE, subType := .SYM_GLOBAL }
      let node2 := node1.replaceChild 0 (identifier.setSymbol (some sym))
      .ok (st2.defineSymbol (node2.scopesFrom place.scopes) sym, node2, false)

/-- The parameter types of a parameter list, the link `function_decl` of a symbol. -/
def functionDecl (params : Option LSLASTNode) : Option (List LSLIType) :=
  params.map (fun p => p.children.map LSLASTNode.getType)

/-- `GlobalSymbolResolutionVisitor::visit(LSLGlobalFunction *)`: the function gets a
table of its own and its symbol is defined in the parent scope. -/
def visitGlobalFunction (st : Resolution) (place : Place) (node : LSLASTNode) :
    Except Fault (Resolution × LSLASTNode × Bool) :=
  let (st1, node1) := replaceSymbolTable st node
  match node1.getChild 0 with
  | none => .error .nullDereference
  | some identifier =>
    let (st2, sym) := st1.newSymbol
      { name := identifier.getName, type := identifier.getType,
        symbolType := .SYM_FUNCTION, subType := .SYM_GLOBAL,
        functionDecl := functionDecl (node1.getChild 1) }
    let node2 := node1.replaceChild 0 (identifier.setSymbol (some sym))
    .ok (st2.defineSymbol place.scopes sym, node2, false)

/-- `GlobalSymbolResolutionVisitor::visit(LSLState *)`. -/
def visitState (st : Resolution) (place : Place) (node : LSLASTNode) :
    Except Fault (Resolution × LSLASTNode × Bool) :=
  let (st1, node1) := replaceSymbolTable st node
  match node1.getChild 0 with
  | none => .error .nullDereference
  | some identifier =>
    let (st2, sym) := st1.newSymbol
      { name := identifier.getName, type := identifier.getType,
        symbolType := .SYM_STATE, subType := .SYM_GLOBAL }
    let node2 := node1.replaceChild 0 (identifier.setSymbol (some sym))
    .ok (st2.defineSymbol place.scopes sym, node2, false)

/-- The `visit` overload the global visitor runs on a node, chosen by the class of the
node; a class without an overload takes the default, which changes nothing and
descends. -/
def visitSpecific
    (visitNode : Resolution → Place → LSLASTNode → Except Fault (Resolution × LSLASTNode))
    (st : Resolution) (place : Place) (node : LSLASTNode) :
    Except Fault (Resolution × LSLASTNode × Bool) :=
  match node.getNodeType with
  | .NODE_GLOBAL_VARIABLE => visitGlobalVariable visitNode st place node
  | .NODE_GLOBAL_FUNCTION => visitGlobalFunction st place node
  | .NODE_STATE => visitState st place node
  | .NODE_EXPRESSION =>
    match node.getNodeSubType with
    | .NODE_LVALUE_EXPRESSION => visitLValueExpression st place node
    | .NODE_FUNCTION_EXPRESSION => visitFunctionExpression st place node
    | _ => .ok (st, node, true)
  | _ => .ok (st, node, true)

/-- Modelled from the spec: `node->visit(&visitor)` for the global visitor (the traversal
driver is not among the sources; "a visitor is a table of functions keyed on
kind/sub-kind returning descend/skip"): the `visit` overload of the node runs first and,
when it returns true, the children are visited in order. `fuel` bounds the depth of the
walk. -/
def resolve : Nat → Resolution → Place → LSLASTNode → Except Fault (Resolution × LSLASTNode)
  | 0, _, _, _ => .error .outOfFuel
  | fuel + 1, st, place, node =>
    match visitSpecific (resolve fuel) st place node with
    | .error e => .error e
    | .ok (st1, node1, descend) =>
      if descend then visitChildren (resolve fuel) st1 place node1 else .ok (st1, node1)

end GlobalSymbolResolutionVisitor

namespace SymbolResolutionVisitor

open BaseSymbolResolutionVisitor

/-- `SymbolResolutionVisitor::visit(LSLScript *)`: the script gets a new table and the
global visitor walks the script; `fuel` bounds the depth of that walk. -/
def visitScript (fuel : Nat) (st : Resolution) (place : Place) (node : LSLASTNode) :
    Except Fault (Resolution × LSLASTNode × Bool) :=
  let (st1, node1) := replaceSymbolTable st node
  match GlobalSymbolResolutionVisitor.resolve fuel st1 place node1 with
  | .error e => .error e
  | .ok (st2, node2) => .ok (st2, node2, true)

/-- `SymbolResolutionVisitor::visit(LSLDeclaration *)`: the initializer, when there is
one, is visited first; then the symbol of the identifier is made and defined. -/
def visitDeclaration
    (visitNode : Resolution → Place → LSLASTNode → Except Fault (Resolution × LSLASTNode))
    (st : Resolution) (place : Place) (node : LSLASTNode) :
    Except Fault (Resolution × LSLASTNode × Bool) :=
  let visited : Except Fault (Resolution × LSLASTNode) :=
    match node.getChild 1 with
    | some rvalue =>
      match visitNode st
          { scopes := node.scopesFrom place.scopes,
            root := some (place.root.getD (node.scopesFrom place.scopes)),
            path := place.path ++ [1] } rvalue with
      | .error e => .error e
      | .ok (st1, rvalue1) => .ok (st1, node.replaceChild 1 rvalue1)
    | none => .ok (st, node)
  match visited with
  | .error e => .error e
  | .ok (st1, node1) =>
    match node1.getChild 0 with
    | none => .error .nullDereference
    | some identifier =>
      let (st2, sym) := st1.newSymbol
        { name := identifier.getName, type := identifier.getType,
          symbolType := .SYM_VARIABLE, subType := .SYM_LOCAL }
      let node2 := node1.replaceChild 0 (identifier.setSymbol (some sym))
      let st3 := st2.defineSymbol (node2.scopesFrom place.scopes) sym
      let st4 :=
        if node2.data.declarationAllowed = false then
          st3.report .E_DECLARATION_INVALID_HERE identifier.getName
        else st3
      .ok (st4, node2, false)

/-- The loop of `register_func_param_symbols` over the children of a prototype, from
index `i` on; `scopes` are the tables a definition at the prototype goes to. -/
def registerParams (scopes : List Nat) (sub : LSLSymbolSubType) :
    Resolution → List LSLASTNode → Resolution × List LSLASTNode
  | st, [] => (st, [])
  | st, identifier :: rest =>
    let (st1, sym) := st.newSymbol
      { name := identifier.getName, type := identifier.getType,
        symbolType := .SYM_VARIABLE, subType := sub }
    let st2 := st1.defineSymbol scopes sym
    let (st3, rest1) := registerParams scopes sub st2 rest
    (st3, identifier.setSymbol (some sym) :: rest1)

/-- `register_func_param_symbols(proto, is_event)`. -/
def register_func_param_symbols (st : Resolution) (place : Place) (proto : LSLASTNode)
    (is_event : Bool) : Resolution × LSLASTNode :=
  let (st1, children) := registerParams (proto.scopesFrom place.scopes)
    (if is_event then .SYM_EVENT_PARAMETER else .SYM_FUNCTION_PARAMETER) st proto.children
  (st1, .mk proto.data children)

/-- The search of `resolvePendingJumps` through the collected labels, last first: the
symbol of the first label met that has a symbol of kind `SYM_LABEL` with the name
`name`. `body` is the function or event handler the references point into. -/
def findLabel (st : Resolution) (body : LSLASTNode) (name : String) :
    List IdentifierRef → Option Nat
  | [] => none
  | label :: rest =>
    match (body.nodeAt label.path).bind LSLASTNode.getSymbol with
    | some cand =>
      match st.symbols.get? cand with
      | some cand_sym =>
        if cand_sym.symbolType = .SYM_LABEL ∧ cand_sym.name = name then some cand
        else findLabel st body name rest
      | none => findLabel st body name rest
    | none => findLabel st body name rest

/-- The first loop of `resolvePendingJumps`, over the pending jumps. -/
def resolveJumps (legacy : Bool) (labels : List IdentifierRef) :
    Resolution → LSLASTNode → List IdentifierRef → Except Fault (Resolution × LSLASTNode)
  | st, body, [] => .ok (st, body)
  | st, body, jump :: rest =>
    match body.nodeAt jump.path with
    | none => .error .nullDereference
    | some id =>
      let (st1, id1) := st.resolveSymbol jump.scopes id .SYM_LABEL
      let body1 := body.setAt jump.path id1
      if legacy = false then
        resolveJumps legacy labels st1 body1 rest
      else
        match id1.getSymbol with
        | none => resolveJumps legacy labels st1 body1 rest
        | some orig =>
          match st1.symbols.get? orig with
          | none => .error .nullDereference
          | some orig_sym =>
            match findLabel st1 body1 orig_sym.name labels.reverse with
            | none => .error .assertionFailed
            | some new_sym =>
              let st2 :=
                if new_sym ≠ orig then st1.report .W_JUMP_TO_WRONG_LABEL orig_sym.name
                else st1
              resolveJumps legacy labels st2
                (body1.setAt jump.path (id1.setSymbol (some new_sym))) rest

/-- The second loop of `resolvePendingJumps`, over the collected labels: `label_names`
are the names met so far. -/
def warnDuplicateLabels (body : LSLASTNode) :
    Resolution → List String → List IdentifierRef → Except Fault Resolution
  | st, _, [] => .ok st
  | st, label_names, label :: rest =>
    match body.nodeAt label.path with
    | none => .error .nullDereference
    | some label_id =>
      if label_id.getName ∈ label_names then
        warnDuplicateLabels body (st.report .W_DUPLICATE_LABEL_NAME label_id.getName)
          label_names rest
      else
        warnDuplicateLabels body st (label_names ++ [label_id.getName]) rest

/-- `SymbolResolutionVisitor::resolvePendingJumps`, on the function or event handler
`body` the pending identifiers point into; `legacy` is `_mLindenJumpSemantics`. -/
def resolvePendingJumps (legacy : Bool) (st : Resolution) (body : LSLASTNode) :
    Except Fault (Resolution × LSLASTNode) :=
  match resolveJumps legacy st.mCollectedLabels st body st.mPendingJumps with
  | .error e => .error e
  | .ok (st1, body1) =>
    let warned : Except Fault Resolution :=
      if legacy then warnDuplicateLabels body1 st1 [] st1.mCollectedLabels else .ok st1
    match warned with
    | .error e => .error e
    | .ok st2 => .ok ({ st2 with mPendingJumps := [], mCollectedLabels := [] }, body1)

/-- `SymbolResolutionVisitor::visit(LSLGlobalFunction *)`. -/
def visitGlobalFunction (legacy : Bool)
    (visitNode : Resolution → Place → LSLASTNode → Except Fault (Resolution × LSLASTNode))
    (st : Resolution) (place : Place) (node : LSLASTNode) :
    Except Fault (Resolution × LSLASTNode × Bool) :=
  if st.mPendingJumps ≠ [] then .error .assertionFailed
  else
    match visitChildren visitNode st { place with path := [] } node with
    | .error e => .error e
    | .ok (st1, node1) =>
      match resolvePendingJumps legacy st1 node1 with
      | .error e => .error e
      | .ok (st2, node2) => .ok (st2, node2, false)

/-- `SymbolResolutionVisitor::visit(LSLEventHandler *)`. -/
def visitEventHandler (legacy : Bool)
    (visitNode : Resolution → Place → LSLASTNode → Except Fault (Resolution × LSLASTNode))
    (st : Resolution) (place : Place) (node : LSLASTNode) :
    Except Fault (Resolution × LSLASTNode × Bool) :=
  let (st1, node1) := replaceSymbolTable st node
  match node1.getChild 0 with
  | none => .error .nullDereference
  | some id =>
    let (st2, node2) : Resolution × LSLASTNode :=
      match st1.lookupSymbol (place.root.getD (node1.scopesFrom place.scopes)) id.getName
          .SYM_EVENT with
      | some _ =>
        let (st2, sym) := st1.newSymbol
          { name := id.getName, type := id.getType, symbolType := .SYM_EVENT,
            subType := .SYM_BUILTIN,
            functionDecl := GlobalSymbolResolutionVisitor.functionDecl (node1.getChild 1) }
        (st2.defineSymbol place.scopes sym, node1.replaceChild 0 (id.setSymbol (some sym)))
      | none => (st1.report .E_INVALID_EVENT id.getName, node1)
    if st2.mPendingJumps ≠ [] then .error .assertionFailed
    else
      match visitChildren visitNode st2 { place with path := [] } node2 with
      | .error e => .error e
      | .ok (st3, node3) =>
        match resolvePendingJumps legacy st3 node3 with
        | .error e => .error e
        | .ok (st4, node4) => .ok (st4, node4, false)

/-- `SymbolResolutionVisitor::visit(LSLLabel *)`. -/
def visitLabel (st : Resolution) (place : Place) (node : LSLASTNode) :
    Except Fault (Resolution × LSLASTNode × Bool) :=
  match node.getChild 0 with
  | none => .error .nullDereference
  | some identifier =>
    let (st1, sym) := st.newSymbol
      { name := identifier.getName, type := identifier.getType,
        symbolType := .SYM_LABEL, subType := .SYM_LOCAL }
    let node1 := node.replaceChild 0 (identifier.setSymbol (some sym))
    let st2 := st1.defineSymbol (node1.scopesFrom place.scopes) sym
    .ok ({ st2 with mCollectedLabels := st2.mCollectedLabels ++
            [{ path := place.path ++ [0], scopes := node1.scopesFrom place.scopes }] },
         node1, true)

/-- `SymbolResolutionVisitor::visit(LSLJumpStatement *)`. -/
def visitJumpStatement (st : Resolution) (place : Place) (node : LSLASTNode) :
    Except Fault (Resolution × LSLASTNode × Bool) :=
  .ok ({ st with mPendingJumps := st.mPendingJumps ++
          [{ path := place.path ++ [0], scopes := node.scopesFrom place.scopes }] },
       node, true)

/-- `SymbolResolutionVisitor::visit(LSLStateStatement *)`. -/
def visitStateStatement (st : Resolution) (place : Place) (node : LSLASTNode) :
    Except Fault (Resolution × LSLASTNode × Bool) :=
  match node.getChild 0 with
  | none => .error .nullDereference
  | some id =>
    let (st1, id1) := st.resolveSymbol (node.scopesFrom place.scopes) id .SYM_STATE
    .ok (st1, node.replaceChild 0 id1, true)

/-- `SymbolResolutionVisitor::visit(LSLCompoundStatement *)`. -/
def visitCompoundStatement (st : Resolution) (node : LSLASTNode) :
    Except Fault (Resolution × LSLASTNode × Bool) :=
  let (st1, node1) := replaceSymbolTable st node
  .ok (st1, node1, true)

/-- The `visit` overload the visitor runs on a node, chosen by the class of the node; a
class without an overload takes the default, which changes nothing and descends. -/
def visitSpecific (legacy : Bool) (fuel : Nat)
    (visitNode : Resolution → Place → LSLASTNode → Except Fault (Resolution × LSLASTNode))
    (st : Resolution) (place : Place) (node : LSLASTNode) :
    Except Fault (Resolution × LSLASTNode × Bool) :=
  match node.getNodeType with
  | .NODE_SCRIPT => visitScript fuel st place node
  | .NODE_GLOBAL_FUNCTION => visitGlobalFunction legacy visitNode st place node
  | .NODE_FUNCTION_DEC =>
    let (st1, node1) := register_func_param_symbols st place node false
    .ok (st1, node1, true)
  | .NODE_GLOBAL_VARIABLE => .ok (st, node, false)
  | .NODE_EVENT_HANDLER => visitEventHandler legacy visitNode st place node
  | .NODE_EVENT_DEC =>
    let (st1, node1) := register_func_param_symbols st place node true
    .ok (st1, node1, true)
  | .NODE_STATEMENT =>
    match node.getNodeSubType with
    | .NODE_DECLARATION => visitDeclaration visitNode st place node
    | .NODE_LABEL => visitLabel st place node
    | .NODE_JUMP_STATEMENT => visitJumpStatement st place node
    | .NODE_STATE_STATEMENT => visitStateStatement st place node
    | .NODE_COMPOUND_STATEMENT => visitCompoundStatement st node
    | _ => .ok (st, node, true)
  | .NODE_EXPRESSION =>
    match node.getNodeSubType with
    | .NODE_LVALUE_EXPRESSION => visitLValueExpression st place node
    | .NODE_FUNCTION_EXPRESSION => visitFunctionExpression st place node
    | _ => .ok (st, node, true)
  | _ => .ok (st, node, true)

/-- Modelled from the spec: `node->visit(&visitor)` for the symbol-resolution visitor
(the traversal driver is not among the sources; "a visitor is a table of functions keyed
on kind/sub-kind returning descend/skip"): the `visit` overload of the node runs first
and, when it returns true, the children are visited in order. `legacy` is
`_mLindenJumpSemantics`; `fuel` bounds the depth of the walk. -/
def resolve (legacy : Bool) :
    Nat → Resolution → Place → LSLASTNode → Except Fault (Resolution × LSLASTNode)
  | 0, _, _, _ => .error .outOfFuel
  | fuel + 1, st, place, node =>
    match visitSpecific legacy fuel (resolve legacy fuel) st place node with
    | .error e => .error e
    | .ok (st1, node1, descend) =>
      if descend then visitChildren (resolve legacy fuel) st1 place node1
      else .ok (st1, node1)

end SymbolResolutionVisitor

/-- The declaration `string foo = foo;` as the parser builds it: no identifier has a
symbol yet. As a local declaration it is a statement, as a global one a global
variable. -/
def Sample.fooFromFoo (nodeType : LSLNodeType) : LSLASTNode :=
  .mk { nodeType := nodeType,
        subType := if nodeType = .NODE_STATEMENT then .NODE_DECLARATION else .NODE_NO_SUB_TYPE }
    [Sample.identifier .LST_STRING "foo" none, Sample.lvalue .LST_STRING "foo" none]

/-- A state of the pass with the table 0 (of the builtins) and the table 1 (of the
enclosing scope), both empty, and no symbols. -/
def Sample.emptyScopes : Resolution := { tables := [[], []] }

/-- Every symbol pointer of every table points to a tracked symbol. -/
def Resolution.WellFormed (st : Resolution) : Prop :=
  ∀ table ∈ st.tables, ∀ p ∈ table, p < st.symbols.length

/-- Every symbol pointer a node of the tree holds is below `n`: it points to one of the
first `n` tracked symbols. -/
def LSLASTNode.SymbolsBelow (n : Nat) (t : LSLASTNode) : Prop :=
  t.All (fun x => ∀ q, x.getSymbol = some q → q < n)

/-- A walk keeps the tables well formed, only adds symbols, and leaves in the tree only
pointers to tracked symbols. -/
def Resolution.Sound
    (f : Resolution → Place → LSLASTNode → Except Fault (Resolution × LSLASTNode)) : Prop :=
  ∀ st place t r, st.WellFormed → t.SymbolsBelow st.symbols.length → f st place t = .ok r →
    r.1.WellFormed ∧ st.symbols.length ≤ r.1.symbols.length
      ∧ r.2.SymbolsBelow r.1.symbols.length

/-! ## Predicates on two runs of the constant-propagation pass -/

/-- The fields of a symbol that the constant-propagation pass never writes (all but the
constant slot and the precluded flag) agree. -/
def LSLSymbol.SameSkeleton (a b : LSLSymbol) : Prop :=
  { b with constantValue := a.constantValue, constantPrecluded := a.constantPrecluded } = a

/-- Two symbol stores hold the same symbols up to the constant slots, and the same
constant slots on the symbols in `D`. -/
def StoresAgree (D : Nat → Prop) (σ τ : SymbolStore) : Prop :=
  (∀ x, (σ x).SameSkeleton (τ x)) ∧ ∀ x, D x → σ x = τ x

/-- The visit of the node by the constant-propagation pass reads the symbol `x`: the
node is an lvalue expression whose identifier has the symbol `x`. -/
def LSLASTNode.ReadsSymbol (n : LSLASTNode) (x : Nat) : Prop :=
  n.getNodeType = .NODE_EXPRESSION ∧ n.getNodeSubType = .NODE_LVALUE_EXPRESSION ∧
    ∃ id, n.getChild 0 = some id ∧ id.getSymbol = some x

/-- A node on which the constant-propagation pass does nothing but descend: it is not
of type `ERROR` and is neither a script, a global variable, a statement nor an
expression (as the list of globals and its items are). -/
def NodeData.Plain (d : NodeData) : Prop :=
  d.type ≠ .LST_ERROR ∧ d.nodeType ≠ .NODE_SCRIPT ∧ d.nodeType ≠ .NODE_GLOBAL_VARIABLE ∧
    d.nodeType ≠ .NODE_STATEMENT ∧ d.nodeType ≠ .NODE_EXPRESSION

/-- The symbols the global variables among the first `i` items of the list of globals
write. -/
def GlobalWrites (items : List LSLASTNode) (i : Nat) (y : Nat) : Prop :=
  ∃ j item gv, j < i ∧ items.get? j = some item ∧ item.getChild 0 = some gv ∧
    gv.getNodeType = .NODE_GLOBAL_VARIABLE ∧ gv.Writes y

/-- The symbols the first `i` nodes of a list write. -/
def WritesBefore (cs : List LSLASTNode) (i : Nat) (y : Nat) : Prop :=
  ∃ j c, j < i ∧ cs.get? j = some c ∧ c.Writes y

/-- The tree is well scoped for the constant-propagation pass, `D` being the symbols
known from outside: every symbol an lvalue refers to is in `D` or is written, by a
declaration or a global variable, before the lvalue is visited. Below a node the children
are visited in order, each knowing what the ones before it wrote. In a script the global
variables are visited first, each knowing the symbols from outside that the script does
not write and what the global variables before it wrote; then the children of the script
are visited, knowing what all the global variables wrote. The list of globals and its
items are plain nodes, an item with a global variable writes through the variable only,
and no other item writes the symbol of a global variable. -/
inductive LSLASTNode.Scoped : (Nat → Prop) → LSLASTNode → Prop
  | node (D : Nat → Prop) (d : NodeData) (cs : List LSLASTNode) :
      d.nodeType ≠ .NODE_SCRIPT →
      (∀ x, (LSLASTNode.mk d cs).ReadsSymbol x → D x) →
      (d.type ≠ .LST_ERROR → ∀ (i : Nat) (c : LSLASTNode), cs.get? i = some c →
        LSLASTNode.Scoped (fun y => D y ∨ WritesBefore cs i y) c) →
      LSLASTNode.Scoped D (.mk d cs)
  | script (D : Nat → Prop) (d g : NodeData) (items rest : List LSLASTNode) :
      d.nodeType = .NODE_SCRIPT →
      g.Plain → (∀ item ∈ items, item.data.Plain) →
      (∀ item ∈ items, ∀ gv, item.getChild 0 = some gv →
        gv.getNodeType = .NODE_GLOBAL_VARIABLE →
        ∀ (k : Nat) (c : LSLASTNode) (y : Nat), 0 < k → item.getChild k = some c →
          ¬ c.Writes y) →
      (∀ item ∈ items,
        (∀ gv, item.getChild 0 = some gv → gv.getNodeType ≠ .NODE_GLOBAL_VARIABLE) →
        ∀ y, item.Writes y → ¬ GlobalWrites items items.length y) →
      (∀ (i : Nat) (item gv : LSLASTNode), items.get? i = some item →
        item.getChild 0 = some gv → gv.getNodeType = .NODE_GLOBAL_VARIABLE →
        LSLASTNode.Scoped
          (fun y => (D y ∧ ¬ (LSLASTNode.mk d (.mk g items :: rest)).Writes y)
            ∨ GlobalWrites items i y) gv) →
      (∀ (i : Nat) (c : LSLASTNode), (LSLASTNode.mk g items :: rest).get? i = some c →
        LSLASTNode.Scoped
          (fun y => (D y ∨ GlobalWrites items items.length y)
            ∨ WritesBefore (LSLASTNode.mk g items :: rest) i y) c) →
      LSLASTNode.Scoped D (.mk d (.mk g items :: rest))

/-- What a run that returns leaves: a tree of the same skeleton, and a store of the same
skeleton that differs from the one before only on symbols the tree writes. -/
def ConstantDeterminingVisitor.Kept (s : SymbolStore) (t : LSLASTNode) (s' : SymbolStore)
    (t' : LSLASTNode) : Prop :=
  t.Related NodeData.SameSkeleton t' ∧ (∀ x, ¬ t.Writes x → s' x = s x)
    ∧ ∀ x, (s x).SameSkeleton (s' x)


/-- The walk `f` can be run again: when it returns on a well-scoped tree, it returns on
the tree it left, from any store that agrees with the first one on the symbols known from
outside, leaves that tree as it is, and the two stores left agree on the known symbols and
on those the tree writes. -/
def ConstantDeterminingVisitor.Reruns
    (f : SymbolStore → LSLASTNode → Except Fault (SymbolStore × LSLASTNode)) : Prop :=
  ∀ (σA : SymbolStore) (t : LSLASTNode) (σA' : SymbolStore) (t' : LSLASTNode),
    f σA t = .ok (σA', t') →
    ∀ (D : Nat → Prop) (σB : SymbolStore), t.Scoped D → StoresAgree D σA σB →
      ∃ σB', f σB t' = .ok (σB', t') ∧ StoresAgree (fun y => D y ∨ t.Writes y) σA' σB'

/-- The global storage of the function `f() { integer y = g; }`; `g` is the symbol 0,
`y` the symbol 1 and `f` the symbol 2. -/
def Sample.functionStorage : LSLASTNode :=
  .mk {}
    [LSLASTNode.newNullNode,
     .mk { nodeType := .NODE_GLOBAL_FUNCTION }
       [Sample.identifier .LST_NULL "f" (some 2),
        .mk { nodeType := .NODE_FUNCTION_DEC } [],
        .mk { nodeType := .NODE_STATEMENT, subType := .NODE_COMPOUND_STATEMENT }
          [Sample.declaration .LST_INTEGER "y" (some 1)
            (Sample.lvalue .LST_INTEGER "g" (some 0))]]]

/-- The global storage of the variable `integer g = 1 + 2;`. -/
def Sample.globalStorage : LSLASTNode :=
  .mk {}
    [.mk { nodeType := .NODE_GLOBAL_VARIABLE }
       [Sample.identifier .LST_INTEGER "g" (some 0),
        Sample.binary .LST_INTEGER (.chr '+') (Sample.literal (.integer 1))
          (Sample.literal (.integer 2))],
     LSLASTNode.newNullNode]

/-- The script `f() { integer y = g; } integer g = 1 + 2;` with an empty list of states:
the function that reads the global variable comes first in the source. -/
def Sample.functionBeforeGlobal : LSLASTNode :=
  .mk { nodeType := .NODE_SCRIPT }
    [.mk { nodeType := .NODE_AST_NODE_LIST } [Sample.functionStorage, Sample.globalStorage],
     .mk { nodeType := .NODE_AST_NODE_LIST } []]

/-- A tree that symbol resolution does not produce: in one compound statement the
reference `x` stands before the declaration `integer x = 1;` of the very symbol (0) it is
bound to. -/
def Sample.readBeforeDeclaration : LSLASTNode :=
  .mk { nodeType := .NODE_STATEMENT, subType := .NODE_COMPOUND_STATEMENT }
    [Sample.lvalue .LST_INTEGER "x" (some 0),
     Sample.declaration .LST_INTEGER "x" (some 0) (Sample.literal (.integer 1))]

/-- `Arrives lib fuel s t σ n`: in the run of the constant-propagation pass on the
subtree `t` from the store `s`, the walk arrives at the node `n` of the subtree when the
store is `σ`: at `t` itself at the start of the run, and, when the hook lets the walk
descend, at a node of the child number `j` after the children before it are visited. -/
inductive ConstantDeterminingVisitor.Arrives (lib : Library) :
    Nat → SymbolStore → LSLASTNode → SymbolStore → LSLASTNode → Prop
  | root (fuel : Nat) (s : SymbolStore) (t : LSLASTNode) :
      ConstantDeterminingVisitor.Arrives lib fuel s t s t
  | child (fuel : Nat) (s σj σ : SymbolStore) (d : NodeData) (cs front : List LSLASTNode)
      (j : Nat) (c n : LSLASTNode) :
      ConstantDeterminingVisitor.hookDescends d = true → cs.get? j = some c →
      ConstantDeterminingVisitor.visitChildren (ConstantDeterminingVisitor.propagate lib fuel)
        s (cs.take j) = .ok (σj, front) →
      ConstantDeterminingVisitor.Arrives lib fuel σj c σ n →
      ConstantDeterminingVisitor.Arrives lib (fuel + 1) s (.mk d cs) σ n

/-- In the visit of the children `cs` from the store `s`, the walk arrives at the node
`n` of the child number `j` when the store is `σ`. -/
def ConstantDeterminingVisitor.ArrivesIn (lib : Library) (fuel : Nat) (s : SymbolStore)
    (cs : List LSLASTNode) (j : Nat) (σ : SymbolStore) (n : LSLASTNode) : Prop :=
  ∃ c σj front, cs.get? j = some c ∧
    ConstantDeterminingVisitor.visitChildren (ConstantDeterminingVisitor.propagate lib fuel)
      s (cs.take j) = .ok (σj, front) ∧
    ConstantDeterminingVisitor.Arrives lib fuel σj c σ n

/-- The global variables of the storages `items` are bound to symbols of their own: no
symbol is written by two of them. -/
def GlobalsDistinct (items : List LSLASTNode) : Prop :=
  ∀ (i k : Nat) (a b gv gv' : LSLASTNode) (y : Nat),
    items.get? i = some a → a.getChild 0 = some gv → gv.getNodeType = .NODE_GLOBAL_VARIABLE →
    items.get? k = some b → b.getChild 0 = some gv' →
    gv'.getNodeType = .NODE_GLOBAL_VARIABLE → gv.Writes y → gv'.Writes y → i = k

/-! ## Predicates and samples for the diagnostics of symbol resolution -/

/-- `LSLASTNode::getDeclarationAllowed`. -/
def LSLASTNode.getDeclarationAllowed (n : LSLASTNode) : Bool := n.data.declarationAllowed

/-- `LSLASTNode::setDeclarationAllowed`. -/
def LSLASTNode.setDeclarationAllowed (n : LSLASTNode) (allowed : Bool) : LSLASTNode :=
  .mk { n.data with declarationAllowed := allowed } n.children

/-- The place of the initializer of a declaration that stands at `place`. -/
def SymbolResolutionVisitor.initializerPlace (place : Place) (node : LSLASTNode) : Place :=
  { scopes := node.scopesFrom place.scopes,
    root := some (place.root.getD (node.scopesFrom place.scopes)),
    path := place.path ++ [1] }

/-- What `visit(LSLDeclaration *)` reports itself, after the walk of the initializer. -/
def SymbolResolutionVisitor.declarationReports (node id : LSLASTNode) : List Diagnostic :=
  if node.getDeclarationAllowed = false then
    [{ code := .E_DECLARATION_INVALID_HERE, name := id.getName }]
  else []

/-- The declaration `string foo = foo;` as the only statement of the body of an `if`: the
parser has cleared its declaration-allowed flag. -/
def Sample.fooNotAllowed : LSLASTNode :=
  (Sample.fooFromFoo .NODE_STATEMENT).setDeclarationAllowed false

/-! ## The final checks (libsling, final_walk.cc) -/

namespace Sling

/-- The codes the final checks report through `ERROR`, and the code of an undeclared
name, which `resolve_symbol` may report. -/
inductive ErrorCode where
  | E_UNDECLARED
  | E_NOT_ALL_PATHS_RETURN
  | E_INVALID_EVENT
  | E_ARGUMENT_WRONG_TYPE_EVENT
  | E_TOO_MANY_ARGUMENTS_EVENT
  | E_TOO_FEW_ARGUMENTS_EVENT
  | W_CONDITION_ALWAYS_TRUE
  | W_CONDITION_ALWAYS_FALSE
  | W_ASSIGNMENT_IN_COMPARISON
  | W_MULTIPLE_EVENT_HANDLERS
  deriving DecidableEq, Repr

/-- One `ERROR` report: the code, the name it is about (empty when the report has none)
and, for a wrong parameter type, the number `param_num` of the parameter. -/
structure Report where
  code : ErrorCode
  name : String := ""
  param_num : Nat := 0
  deriving DecidableEq, Repr

/-- What the final checks use of the rest of the program (lslmini.hh is not among the
sources): `symbols` dereferences a symbol pointer, `resolve_symbol id type` is
`id->resolve_symbol(type)` on an identifier, giving the identifier afterwards and what
the call reported, and `can_coerce a b` is `a->can_coerce(b)` on types. -/
structure Env where
  symbols : SymbolStore
  resolve_symbol : LSLASTNode → LSLSymbolType → LSLASTNode × List Report
  can_coerce : LSLIType → LSLIType → Bool

/-- `allret(p)`: `allret.all cs` lists the values of `allret` on the nodes of `cs`, so
that `p->get_child(i) && allret(p->get_child(i))` is the entry `i` of the list, `false`
when there is no such child. -/
def allret : LSLASTNode → Bool
  | .mk d cs =>
    if d.nodeType = .NODE_STATEMENT ∧ d.subType = .NODE_RETURN_STATEMENT then true
    else if d.nodeType = .NODE_STATEMENT ∧ d.subType = .NODE_IF_STATEMENT then
      let true_branch := ((all cs).get? 1).getD false
      let false_branch := ((all cs).get? 2).getD false
      true_branch && false_branch
    else if d.nodeType = .NODE_STATEMENT ∧ d.subType = .NODE_COMPOUND_STATEMENT then
      (all cs).foldl (fun ret r => ret || r) false
    else false
where
  /-- The values of `allret` on the nodes of a list. -/
  all : List LSLASTNode → List Bool
    | [] => []
    | q :: rest => allret q :: all rest

/-- The step `if (id->get_symbol() == NULL) id->resolve_symbol(type)` both checks on an
identifier start with. -/
def resolveIfUnresolved (env : Env) (id : LSLASTNode) (type : LSLSymbolType) :
    LSLASTNode × List Report :=
  if id.getSymbol = none then env.resolve_symbol id type else (id, [])

/-- `LLScriptGlobalFunction::final_pre_checks`: the node afterwards and the reports. -/
def LLScriptGlobalFunction.final_pre_checks (env : Env) (node : LSLASTNode) :
    Except Fault (LSLASTNode × List Report) :=
  match node.getChild 0 with
  | none => .error .nullDereference
  | some id =>
    let (id1, resolved) := resolveIfUnresolved env id .SYM_FUNCTION
    let node1 := node.replaceChild 0 id1
    match id1.getSymbol with
    | none => .ok (node1, resolved)
    | some sym =>
      if (env.symbols sym).type ≠ .LST_NULL then
        match node.getChild 2 with
        | none => .error .nullDereference
        | some statement =>
          if allret statement = false then
            .ok (node1, resolved ++ [{ code := .E_NOT_ALL_PATHS_RETURN }])
          else .ok (node1, resolved)
      else .ok (node1, resolved)

/-- `LLScriptIfStatement::final_pre_checks`; a constant whose node sub-type is
`NODE_INTEGER_CONSTANT` is an integer constant. -/
def LLScriptIfStatement.final_pre_checks (node : LSLASTNode) :
    Except Fault (LSLASTNode × List Report) :=
  match node.getChild 0 with
  | none => .error .nullDereference
  | some condition =>
    let constant : List Report :=
      match condition.getConstantValue with
      | some (.integer value) =>
        if value ≠ 0 then [{ code := .W_CONDITION_ALWAYS_TRUE }]
        else [{ code := .W_CONDITION_ALWAYS_FALSE }]
      | _ => []
    let assignment : List Report :=
      if condition.getNodeType = .NODE_EXPRESSION ∧ condition.getOperation = .chr '=' then
        [{ code := .W_ASSIGNMENT_IN_COMPARISON }]
      else []
    .ok (node, constant ++ assignment)

/-- The loop of `LLScriptEventHandler::final_pre_checks` over the children of the parent,
from the child number `i` on: `found` counts the event handlers named `name`, `is_last`
says whether the last of them met is the child number `self`. -/
def scanHandlers (name : String) (self : Nat) :
    Nat → List LSLASTNode → Nat × Bool → Except Fault (Nat × Bool)
  | _, [], acc => .ok acc
  | i, node :: rest, (found, is_last) =>
    if node.getNodeType ≠ .NODE_EVENT_HANDLER then
      scanHandlers name self (i + 1) rest (found, is_last)
    else
      match node.getChild 0 with
      | none => .error .nullDereference
      | some other_id =>
        if other_id.getName = name then
          scanHandlers name self (i + 1) rest (found + 1, decide (i = self))
        else scanHandlers name self (i + 1) rest (found, is_last)

/-- The loop of `LLScriptEventHandler::final_pre_checks` over the parameters and the two
tests after it: `declared` are the types of the parameters of the prototype still to
compare, `passed` the parameters of the handler still to compare. -/
def checkParameters (env : Env) (name : String) :
    Nat → List LSLIType → List LSLASTNode → List Report
  | param_num, declared_param :: declared, passed_param :: passed =>
    if env.can_coerce passed_param.getType declared_param = false then
      [{ code := .E_ARGUMENT_WRONG_TYPE_EVENT, name := name, param_num := param_num }]
    else checkParameters env name (param_num + 1) declared passed
  | _, [], _ :: _ => [{ code := .E_TOO_MANY_ARGUMENTS_EVENT, name := name }]
  | _, _ :: _, [] => [{ code := .E_TOO_FEW_ARGUMENTS_EVENT, name := name }]
  | _, [], [] => []

/-- `LLScriptEventHandler::final_pre_checks`; `siblings` are the children of the parent
and `self` is the place of the node among them. -/
def LLScriptEventHandler.final_pre_checks (env : Env) (siblings : List LSLASTNode)
    (self : Nat) (node : LSLASTNode) : Except Fault (LSLASTNode × List Report) :=
  match node.getChild 0 with
  | none => .error .nullDereference
  | some id =>
    match scanHandlers id.getName self 0 siblings (0, true) with
    | .error e => .error e
    | .ok (found, is_last) =>
      let duplicates : List Report :=
        if found > 1 ∧ is_last = true then
          [{ code := .W_MULTIPLE_EVENT_HANDLERS, name := id.getName }]
        else []
      let (id1, resolved) := resolveIfUnresolved env id .SYM_EVENT
      let node1 := node.replaceChild 0 id1
      match id1.getSymbol with
      | none =>
        .ok (node1, duplicates ++ resolved ++ [{ code := .E_INVALID_EVENT, name := id.getName }])
      | some sym =>
        match (env.symbols sym).functionDecl, node.getChild 1 with
        | some declared, some passed =>
          .ok (node1, duplicates ++ resolved ++
            checkParameters env id.getName 1 declared passed.children)
        | _, _ => .error .nullDereference

/-- The `final_pre_checks` a node runs, chosen by its class; a class without a
definition in final_walk.cc takes `LLASTNode::final_pre_checks`, which does nothing. -/
def LLASTNode.final_pre_checks (env : Env) (siblings : List LSLASTNode) (self : Nat)
    (node : LSLASTNode) : Except Fault (LSLASTNode × List Report) :=
  match node.getNodeType with
  | .NODE_GLOBAL_FUNCTION => LLScriptGlobalFunction.final_pre_checks env node
  | .NODE_EVENT_HANDLER => LLScriptEventHandler.final_pre_checks env siblings self node
  | .NODE_STATEMENT =>
    if node.getNodeSubType = .NODE_IF_STATEMENT then
      LLScriptIfStatement.final_pre_checks node
    else .ok (node, [])
  | _ => .ok (node, [])

/-- The loop of `LLASTNode::final_pre_walk` over the children: `done` are the children
already walked, the last argument the children still to walk; each child sees as its
siblings the children as they are then. -/
def walkChildren
    (walk : List LSLASTNode → Nat → LSLASTNode → Except Fault (LSLASTNode × List Report)) :
    List LSLASTNode → List LSLASTNode → Except Fault (List LSLASTNode × List Report)
  | done, [] => .ok (done, [])
  | done, child :: rest =>
    match walk (done ++ child :: rest) done.length child with
    | .error e => .error e
    | .ok (child1, reports) =>
      match walkChildren walk (done ++ [child1]) rest with
      | .error e => .error e
      | .ok (children, more) => .ok (children, reports ++ more)

/-- `LLASTNode::final_pre_walk`: the checks of the node, then the walk of its children.
`fuel` bounds the depth of the walk; the result is the subtree afterwards and the
reports in the order they are made. -/
def LLASTNode.final_pre_walk (env : Env) :
    Nat → List LSLASTNode → Nat → LSLASTNode → Except Fault (LSLASTNode × List Report)
  | 0, _, _, _ => .error .outOfFuel
  | fuel + 1, siblings, self, node =>
    match LLASTNode.final_pre_checks env siblings self node with
    | .error e => .error e
    | .ok (node1, reports) =>
      match walkChildren (LLASTNode.final_pre_walk env fuel) [] node1.children with
      | .error e => .error e
      | .ok (children, more) => .ok (.mk node1.data children, reports ++ more)

end Sling

/-- The statement `return 1;`. -/
def Sample.returnOne : LSLASTNode :=
  .mk { nodeType := .NODE_STATEMENT, subType := .NODE_RETURN_STATEMENT }
    [LSLConstantExpression.new (.integer 1)]

/-- The statement `if (1) return 1;` after constant propagation: the condition holds the
constant 1, and the null placeholder stands for the missing else-branch. -/
def Sample.ifOneReturn : LSLASTNode :=
  .mk { nodeType := .NODE_STATEMENT, subType := .NODE_IF_STATEMENT }
    [LSLConstantExpression.new (.integer 1), Sample.returnOne, LSLASTNode.newNullNode]

/-- The function `integer f() { if (1) return 1; }`; `f` is the symbol 0. -/
def Sample.returnsInIf : LSLASTNode :=
  .mk { nodeType := .NODE_GLOBAL_FUNCTION }
    [Sample.identifier .LST_INTEGER "f" (some 0),
     .mk { nodeType := .NODE_FUNCTION_DEC } [],
     .mk { nodeType := .NODE_STATEMENT, subType := .NODE_COMPOUND_STATEMENT }
       [Sample.ifOneReturn]]

/-- An environment for the examples: every symbol pointer is the integer function `f`
or, from 10 on, the event `touch_start(integer)`; `resolve_symbol` finds nothing and
reports the name undeclared, and `can_coerce` is the coercion lattice. -/
def Sample.env : Sling.Env where
  symbols := fun p =>
    if p < 10 then
      { name := "f", type := .LST_INTEGER, symbolType := .SYM_FUNCTION, subType := .SYM_GLOBAL }
    else
      { name := "touch_start", symbolType := .SYM_EVENT, subType := .SYM_BUILTIN,
        functionDecl := some [.LST_INTEGER] }
  resolve_symbol := fun id _ =>
    ((id.setSymbol none).setType .LST_ERROR, [{ code := .E_UNDECLARED, name := id.getName }])
  can_coerce := LSLType.canCoerce

/-- The event handler `touch_start(<parameters>) { }` with parameters of the types
`types`; with `known` the name is bound to the symbol 10, the event `touch_start`. -/
def Sample.touchStart (known : Bool) (types : List LSLIType) : LSLASTNode :=
  .mk { nodeType := .NODE_EVENT_HANDLER }
    [Sample.identifier .LST_NULL "touch_start" (if known then some 10 else none),
     .mk { nodeType := .NODE_EVENT_DEC } (types.map (fun t => Sample.identifier t "p" none)),
     .mk { nodeType := .NODE_STATEMENT, subType := .NODE_COMPOUND_STATEMENT } []]

/-! ## Predicates on the resolution of jumps -/

/-- The path `q` leads through the node the path `p` leads to: `p` is an initial segment
of `q`. -/
def Path.below : List Nat → List Nat → Bool
  | [], _ => true
  | _ :: _, [] => false
  | a :: p, b :: q => decide (a = b) && Path.below p q

/-- Neither of the two paths leads through the node of the other. -/
def Path.apart (p q : List Nat) : Bool := !Path.below p q && !Path.below q p

namespace SymbolResolutionVisitor

/-- The symbol of the identifier a kept pointer points to. -/
def symbolAt (body : LSLASTNode) (r : IdentifierRef) : Option Nat :=
  (body.nodeAt r.path).bind LSLASTNode.getSymbol

/-- Whether the symbol pointer `cand` is a label named `name`: the test of the search of
`resolvePendingJumps` through the collected labels. -/
def isLabelNamed (st : Resolution) (name : String) (cand : Nat) : Bool :=
  match st.symbols.get? cand with
  | some cand_sym => decide (cand_sym.symbolType = .SYM_LABEL ∧ cand_sym.name = name)
  | none => false

/-- The symbols of the collected labels, in the order of collection, that are labels
named `name`. -/
def labelsNamed (st : Resolution) (body : LSLASTNode) (name : String)
    (labels : List IdentifierRef) : List Nat :=
  (labels.filterMap (symbolAt body)).filter (isLabelNamed st name)

/-- The symbol the lexical lookup finds for the label of a pending jump: the lookup of
the name of the jump's identifier as a label through the scopes around the jump. -/
def lexicalLabel (st : Resolution) (body : LSLASTNode) (jump : IdentifierRef) : Option Nat :=
  (body.nodeAt jump.path).bind (fun id => st.lookupSymbol jump.scopes id.getName .SYM_LABEL)

/-- The symbol of the last collected label that has the name of the label the lexical
lookup finds for the jump; none when the lexical lookup finds nothing. -/
def legacyLabel (st : Resolution) (body : LSLASTNode) (labels : List IdentifierRef)
    (jump : IdentifierRef) : Option Nat :=
  (lexicalLabel st body jump).bind (fun orig =>
    (st.symbols.get? orig).bind (fun orig_sym =>
      (labelsNamed st body orig_sym.name labels).getLast?))

/-- What the first loop of `resolvePendingJumps` reports for one pending jump: the
undeclared name when the lexical lookup fails; in legacy mode the wrong-label warning when
the last label of the name is another symbol than the one the lookup found; and nothing
otherwise. -/
def jumpReports (legacy : Bool) (st : Resolution) (body : LSLASTNode)
    (labels : List IdentifierRef) (jump : IdentifierRef) : List Diagnostic :=
  match body.nodeAt jump.path with
  | none => []
  | some id =>
    match lexicalLabel st body jump with
    | none => [{ code := .E_UNDECLARED, name := id.getName }]
    | some orig =>
      if legacy = true ∧ legacyLabel st body labels jump ≠ some orig then
        [{ code := .W_JUMP_TO_WRONG_LABEL,
           name := ((st.symbols.get? orig).map (fun s => s.name)).getD "" }]
      else []

/-- The names of `names`, in their order, that occur in `earlier` or earlier in
`names`. -/
def repeatedAfter : List String → List String → List String
  | _, [] => []
  | earlier, n :: rest =>
    (if n ∈ earlier then [n] else []) ++ repeatedAfter (earlier ++ [n]) rest

/-- The names of the identifiers the collected labels point to, in the order of
collection. -/
def labelNames (body : LSLASTNode) (labels : List IdentifierRef) : List String :=
  labels.filterMap (fun r => (body.nodeAt r.path).map LSLASTNode.getName)

/-- One duplicate-label warning for each name of the collected labels that an earlier
collected label has, in the order of the labels. -/
def duplicateReports (body : LSLASTNode) (labels : List IdentifierRef) : List Diagnostic :=
  (repeatedAfter [] (labelNames body labels)).map
    (fun n => { code := .W_DUPLICATE_LABEL_NAME, name := n })

/-- The reports of the list of the given code. -/
def reportsOf (code : ErrorCode) (errors : List Diagnostic) : List Diagnostic :=
  errors.filter (fun e => decide (e.code = code))

/-- What `resolvePendingJumps` relies on: every pending jump and every collected label
points to a node of the body, no two pending jumps to the same node or to a node below
the other, and no collected label to the node of a pending jump, above or below it. -/
def PendingApart (st : Resolution) (body : LSLASTNode) : Prop :=
  (∀ jump ∈ st.mPendingJumps, (body.nodeAt jump.path).isSome = true)
  ∧ (∀ label ∈ st.mCollectedLabels, (body.nodeAt label.path).isSome = true)
  ∧ st.mPendingJumps.Pairwise (fun a b => Path.apart a.path b.path = true)
  ∧ ∀ label ∈ st.mCollectedLabels, ∀ jump ∈ st.mPendingJumps,
      Path.apart jump.path label.path = true

instance (st : Resolution) (body : LSLASTNode) : Decidable (PendingApart st body) := by
  unfold PendingApart
  exact inferInstance

/-- The `assert(new_sym)` of `resolvePendingJumps` holds: where the lexical lookup finds a
label for a pending jump, that label is a tracked symbol and a label of its name is among
the collected labels. -/
def LabelsCollected (st : Resolution) (body : LSLASTNode) : Prop :=
  ∀ jump ∈ st.mPendingJumps, (lexicalLabel st body jump).isSome = true →
    (legacyLabel st body st.mCollectedLabels jump).isSome = true

instance (st : Resolution) (body : LSLASTNode) : Decidable (LabelsCollected st body) := by
  unfold LabelsCollected
  exact inferInstance

end SymbolResolutionVisitor

/-- The jump statement `jump name;` as the parser builds it. -/
def Sample.jump (name : String) : LSLASTNode :=
  .mk { nodeType := .NODE_STATEMENT, subType := .NODE_JUMP_STATEMENT }
    [Sample.identifier .LST_NULL name none]

/-- The label `@name;` as the parser builds it. -/
def Sample.label (name : String) : LSLASTNode :=
  .mk { nodeType := .NODE_STATEMENT, subType := .NODE_LABEL }
    [Sample.identifier .LST_NULL name none]

/-- The compound statement of the given statements. -/
def Sample.compound (statements : List LSLASTNode) : LSLASTNode :=
  .mk { nodeType := .NODE_STATEMENT, subType := .NODE_COMPOUND_STATEMENT } statements

/-- The global function `name() <body>` without a return type. -/
def Sample.function (name : String) (body : LSLASTNode) : LSLASTNode :=
  .mk { nodeType := .NODE_GLOBAL_FUNCTION }
    [Sample.identifier .LST_NULL name none, .mk { nodeType := .NODE_FUNCTION_DEC } [], body]

/-- The script of the given global functions and states, each function in a storage of
its own behind the null placeholder of the variable. -/
def Sample.script (functions states : List LSLASTNode) : LSLASTNode :=
  .mk { nodeType := .NODE_SCRIPT }
    [.mk { nodeType := .NODE_AST_NODE_LIST }
       (functions.map (fun f => .mk {} [LSLASTNode.newNullNode, f])),
     .mk { nodeType := .NODE_AST_NODE_LIST } states]

/-- The function `f() { jump L; { @L; } }`: the label stands in a nested scope. -/
def Sample.jumpIntoNested : LSLASTNode :=
  Sample.function "f" (Sample.compound [Sample.jump "L", Sample.compound [Sample.label "L"]])

/-- The function `f() { jump L; @L; }`: the label is declared after the jump, in the
scope of the jump. -/
def Sample.jumpForward : LSLASTNode :=
  Sample.function "f" (Sample.compound [Sample.jump "L", Sample.label "L"])

/-- The function `f() { @L; jump L; { @L; } }`: a label of the name is visible from the
jump, and a later label of the name stands in a nested scope. -/
def Sample.jumpPastVisible : LSLASTNode :=
  Sample.function "f"
    (Sample.compound [Sample.label "L", Sample.jump "L", Sample.compound [Sample.label "L"]])

/-- The state the pass starts from on the examples: the table 0 of the builtins, empty,
and nothing else. -/
def Sample.builtinsOnly : Resolution := { tables := [[]] }

/-- The identifier of a pending jump as the first loop of `resolvePendingJumps` leaves it:
without a symbol and of type `ERROR` when the lexical lookup fails, bound to what the
lookup found in clean mode, and to the last label of that name in legacy mode. -/
def SymbolResolutionVisitor.resolvedJump (legacy : Bool) (st : Resolution) (body : LSLASTNode)
    (labels : List IdentifierRef) (jump : IdentifierRef) (id : LSLASTNode) : LSLASTNode :=
  match SymbolResolutionVisitor.lexicalLabel st body jump with
  | none => (id.setSymbol none).setType .LST_ERROR
  | some orig =>
    id.setSymbol
      (if legacy = true then SymbolResolutionVisitor.legacyLabel st body labels jump
       else some orig)

namespace SymbolResolutionVisitor

open BaseSymbolResolutionVisitor

/-- What `SymbolResolutionVisitor::visit(LSLEventHandler *)` does before it visits the
children: the handler gets its table, and its name is looked up among the events from the
root; a known event is defined as a symbol of the enclosing scope, an unknown one is
reported. -/
def enterEventHandler (st : Resolution) (place : Place) (node : LSLASTNode) :
    Except Fault (Resolution × LSLASTNode) :=
  let (st1, node1) := replaceSymbolTable st node
  match node1.getChild 0 with
  | none => .error .nullDereference
  | some id =>
    match st1.lookupSymbol (place.root.getD (node1.scopesFrom place.scopes)) id.getName
        .SYM_EVENT with
    | some _ =>
      let (st2, sym) := st1.newSymbol
        { name := id.getName, type := id.getType, symbolType := .SYM_EVENT,
          subType := .SYM_BUILTIN,
          functionDecl := GlobalSymbolResolutionVisitor.functionDecl (node1.getChild 1) }
      .ok (st2.defineSymbol place.scopes sym, node1.replaceChild 0 (id.setSymbol (some sym)))
    | none => .ok (st1.report .E_INVALID_EVENT id.getName, node1)

/-- The visit of the global function or event handler `node` from the state `st` has
walked all the children and stands before the call of `resolvePendingJumps`: `st1` and
`body` are the state and the tree `visitChildren` has returned. -/
def ChildrenWalked
    (visitNode : Resolution → Place → LSLASTNode → Except Fault (Resolution × LSLASTNode))
    (st : Resolution) (place : Place) (node : LSLASTNode) (st1 : Resolution)
    (body : LSLASTNode) : Prop :=
  (node.getNodeType = .NODE_GLOBAL_FUNCTION ∧ st.mPendingJumps = []
    ∧ visitChildren visitNode st { place with path := [] } node = .ok (st1, body))
  ∨ (node.getNodeType = .NODE_EVENT_HANDLER
    ∧ ∃ st0 node0, enterEventHandler st place node = .ok (st0, node0)
      ∧ st0.mPendingJumps = []
      ∧ visitChildren visitNode st0 { place with path := [] } node0 = .ok (st1, body))

end SymbolResolutionVisitor

/-- The state and the tree the visit of the children of the function `f` returns, from
the two empty tables and below the scopes 1 and 0; the function itself when the visit
fails. -/
def Sample.walked (legacy : Bool) (f : LSLASTNode) : Resolution × LSLASTNode :=
  match BaseSymbolResolutionVisitor.visitChildren (SymbolResolutionVisitor.resolve legacy 8)
      Sample.emptyScopes { scopes := [1, 0] } f with
  | .ok r => r
  | .error _ => (Sample.emptyScopes, f)

/-- A symbol with the name `name` and of the kind `type` (of any kind when `type` is
`SYM_ANY`) stands in one of the tables `scopes`: the name is visible from a node whose
lookup goes through these tables. -/
def Resolution.Visible (st : Resolution) (scopes : List Nat) (name : String)
    (type : LSLSymbolType) : Prop :=
  ∃ table ∈ scopes, ∃ p ∈ st.tables.getD table [], ∃ s, st.symbols.get? p = some s
    ∧ s.name = name ∧ (type = .SYM_ANY ∨ s.symbolType = type)

/-- The state `st1` continues the state `st`: every tracked symbol is still tracked under
its pointer, every table is still registered under its pointer and still holds what it
held, and the reports are those of `st` followed by reports whose codes are `allowed`. -/
def Resolution.Grows (allowed : ErrorCode → Prop) (st st1 : Resolution) : Prop :=
  (∀ p s, st.symbols.get? p = some s → st1.symbols.get? p = some s)
  ∧ st.tables.length ≤ st1.tables.length
  ∧ (∀ t p, p ∈ st.tables.getD t [] → p ∈ st1.tables.getD t [])
  ∧ ∃ added, st1.errors = st.errors ++ added ∧ ∀ e ∈ added, allowed e.code

/-- Every run of the visit `f` that returns leaves a state that continues the one it
started from. -/
def Resolution.Growing (allowed : ErrorCode → Prop)
    (f : Resolution → Place → LSLASTNode → Except Fault (Resolution × LSLASTNode)) : Prop :=
  ∀ st place t r, f st place t = .ok r → Resolution.Grows allowed st r.1

/-- The codes the symbol-resolution pass may report: in clean mode neither of the two
warnings about labels. -/
def SymbolResolutionVisitor.mayReport (legacy : Bool) (code : ErrorCode) : Prop :=
  legacy = false → code ≠ .W_JUMP_TO_WRONG_LABEL ∧ code ≠ .W_DUPLICATE_LABEL_NAME

/-! ## Predicates on the two phases of symbol resolution -/

namespace GlobalSymbolResolutionVisitor

/-- The kind of the symbol the global visitor makes at a node: at a global variable, a
global function and a state; none at any other node. -/
def itemKind (n : LSLASTNode) : Option LSLSymbolType :=
  match n.getNodeType with
  | .NODE_GLOBAL_VARIABLE => some .SYM_VARIABLE
  | .NODE_GLOBAL_FUNCTION => some .SYM_FUNCTION
  | .NODE_STATE => some .SYM_STATE
  | _ => none

/-- The node is an expression the base visitor resolves the identifier of: an lvalue or a
call. -/
def isReference (n : LSLASTNode) : Bool :=
  decide (n.getNodeType = .NODE_EXPRESSION) &&
    (decide (n.getNodeSubType = .NODE_LVALUE_EXPRESSION)
      || decide (n.getNodeSubType = .NODE_FUNCTION_EXPRESSION))

/-- The global visitor has no overload for the node: its visit changes nothing and the
walk goes on to the children. -/
def passesThrough (n : LSLASTNode) : Bool :=
  (itemKind n).isNone && !isReference n

/-- `Reaches t q x`: the child indices `q` lead from `t` to the global variable, global
function or state `x` through nodes the global visitor has no overload for; the walk of
the global phase over `t` comes to `x`. -/
inductive Reaches : LSLASTNode → List Nat → LSLASTNode → Prop
  | here (x : LSLASTNode) : (itemKind x).isSome = true → Reaches x [] x
  | child (n : LSLASTNode) (i : Nat) (c : LSLASTNode) (q : List Nat) (x : LSLASTNode) :
      passesThrough n = true → n.getChild i = some c → Reaches c q x →
      Reaches n (i :: q) x

/-- Every node the global visitor takes the identifier of has one: a global variable, a
global function, a state, an lvalue and a call have a child 0. -/
def Shaped (t : LSLASTNode) : Prop :=
  t.All (fun x => ((itemKind x).isSome = true ∨ isReference x = true) →
    (x.getChild 0).isSome = true)

/-- The item `x` that stood at the path `q` is defined in the state `st2` and the tree
`t2`: its identifier is bound to a tracked symbol that has the name of the identifier and
the kind of the item and stands in the table `table`; and of a function or state every
child but the identifier is as it was. -/
def Defined (st2 : Resolution) (t2 : LSLASTNode) (table : Nat) (q : List Nat)
    (x : LSLASTNode) : Prop :=
  ∃ id p sym, x.getChild 0 = some id
    ∧ (t2.nodeAt (q ++ [0])).bind LSLASTNode.getSymbol = some p
    ∧ st2.symbols.get? p = some sym ∧ sym.name = id.getName
    ∧ some sym.symbolType = itemKind x
    ∧ p ∈ st2.tables.getD table []
    ∧ (x.getNodeType ≠ .NODE_GLOBAL_VARIABLE → ∀ i, 0 < i →
        (t2.nodeAt q).bind (fun y => y.getChild i) = x.getChild i)

end GlobalSymbolResolutionVisitor

namespace SymbolResolutionVisitor

open BaseSymbolResolutionVisitor

/-- `Arrives legacy fuel st place node st1 place1 x`: in the run of the pass on `node`
from the state `st` at `place`, with `fuel`, the visitor comes to the node `x` in the
state `st1` at `place1`. It comes to `node` itself; when the visit of `node` returns true,
to what it comes to in a child, from the state the children before it have left; in a
global function and, once entered, in an event handler likewise, these visiting the
children themselves; and in a declaration to what it comes to in the initializer. -/
inductive Arrives (legacy : Bool) :
    Nat → Resolution → Place → LSLASTNode → Resolution → Place → LSLASTNode → Prop
  | here (fuel : Nat) (st : Resolution) (place : Place) (node : LSLASTNode) :
      Arrives legacy (fuel + 1) st place node st place node
  | descend (fuel : Nat) (st : Resolution) (place : Place) (node : LSLASTNode)
      (st1 : Resolution) (node1 : LSLASTNode) (j : Nat) (c : LSLASTNode) (stj : Resolution)
      (front : List LSLASTNode) (st2 : Resolution) (place2 : Place) (x : LSLASTNode) :
      visitSpecific legacy fuel (resolve legacy fuel) st place node = .ok (st1, node1, true) →
      node1.children.get? j = some c →
      visitChildrenFrom (resolve legacy fuel) (node1.scopesFrom place.scopes)
        (place.root.getD (node1.scopesFrom place.scopes)) place.path 0 st1
        (node1.children.take j) = .ok (stj, front) →
      Arrives legacy fuel stj
        { scopes := node1.scopesFrom place.scopes,
          root := some (place.root.getD (node1.scopesFrom place.scopes)),
          path := place.path ++ [j] } c st2 place2 x →
      Arrives legacy (fuel + 1) st place node st2 place2 x
  | function (fuel : Nat) (st : Resolution) (place : Place) (node : LSLASTNode)
      (j : Nat) (c : LSLASTNode) (stj : Resolution) (front : List LSLASTNode)
      (st2 : Resolution) (place2 : Place) (x : LSLASTNode) :
      node.getNodeType = .NODE_GLOBAL_FUNCTION → st.mPendingJumps = [] →
      node.children.get? j = some c →
      visitChildrenFrom (resolve legacy fuel) (node.scopesFrom place.scopes)
        (place.root.getD (node.scopesFrom place.scopes)) [] 0 st
        (node.children.take j) = .ok (stj, front) →
      Arrives legacy fuel stj
        { scopes := node.scopesFrom place.scopes,
          root := some (place.root.getD (node.scopesFrom place.scopes)),
          path := [j] } c st2 place2 x →
      Arrives legacy (fuel + 1) st place node st2 place2 x
  | handler (fuel : Nat) (st : Resolution) (place : Place) (node : LSLASTNode)
      (st0 : Resolution) (node0 : LSLASTNode) (j : Nat) (c : LSLASTNode) (stj : Resolution)
      (front : List LSLASTNode) (st2 : Resolution) (place2 : Place) (x : LSLASTNode) :
      node.getNodeType = .NODE_EVENT_HANDLER →
      enterEventHandler st place node = .ok (st0, node0) → st0.mPendingJumps = [] →
      node0.children.get? j = some c →
      visitChildrenFrom (resolve legacy fuel) (node0.scopesFrom place.scopes)
        (place.root.getD (node0.scopesFrom place.scopes)) [] 0 st0
        (node0.children.take j) = .ok (stj, front) →
      Arrives legacy fuel stj
        { scopes := node0.scopesFrom place.scopes,
          root := some (place.root.getD (node0.scopesFrom place.scopes)),
          path := [j] } c st2 place2 x →
      Arrives legacy (fuel + 1) st place node st2 place2 x
  | declaration (fuel : Nat) (st : Resolution) (place : Place) (node rvalue : LSLASTNode)
      (st2 : Resolution) (place2 : Place) (x : LSLASTNode) :
      node.getNodeType = .NODE_STATEMENT → node.getNodeSubType = .NODE_DECLARATION →
      node.getChild 1 = some rvalue →
      Arrives legacy fuel st (initializerPlace place node) rvalue st2 place2 x →
      Arrives legacy (fuel + 1) st place node st2 place2 x

end SymbolResolutionVisitor

/-- The statement `name();`: a call without arguments as an expression statement. -/
def Sample.call (name : String) : LSLASTNode :=
  .mk { nodeType := .NODE_STATEMENT, subType := .NODE_EXPRESSION_STATEMENT }
    [.mk { nodeType := .NODE_EXPRESSION, subType := .NODE_FUNCTION_EXPRESSION }
      [Sample.identifier .LST_NULL name none]]

/-- The state change `state name;`. -/
def Sample.stateChange (name : String) : LSLASTNode :=
  .mk { nodeType := .NODE_STATEMENT, subType := .NODE_STATE_STATEMENT }
    [Sample.identifier .LST_NULL name none]

/-- The state `name` without event handlers. -/
def Sample.state (name : String) : LSLASTNode :=
  .mk { nodeType := .NODE_STATE }
    [Sample.identifier .LST_NULL name none, .mk { nodeType := .NODE_AST_NODE_LIST } []]

/-- The script `f() { g(); state other; } g() { }` with the states `default` and
`other`: the function `g` and the state `other` are declared after the statements that
name them. -/
def Sample.forwardReferences : LSLASTNode :=
  Sample.script
    [Sample.function "f" (Sample.compound [Sample.call "g", Sample.stateChange "other"]),
     Sample.function "g" (Sample.compound [])]
    [Sample.state "default", Sample.state "other"]

/-- Every run of the visit `f` that returns, on a tree no node of which owns a table yet
and below a scope whose table is registered, leaves every item it reaches defined in that
table. -/
def GlobalSymbolResolutionVisitor.Defines
    (f : Resolution → Place → LSLASTNode → Except Fault (Resolution × LSLASTNode)) : Prop :=
  ∀ st place node st2 node2 table rest, f st place node = .ok (st2, node2) →
    node.All (fun x => x.getSymbolTable = none) → place.scopes = table :: rest →
    table < st.tables.length →
    ∀ q x, GlobalSymbolResolutionVisitor.Reaches node q x →
      GlobalSymbolResolutionVisitor.Defined st2 node2 table q x

/-! ## The LSO bit stream (lso_compiler.hh) -/

/-- `class Vector3`: the components `x`, `y`, `z` of a vector value. -/
structure Vector3 where
  x : F32
  y : F32
  z : F32
  deriving DecidableEq, Repr

/-- `class Quaternion`: the components `x`, `y`, `z`, `s` of a rotation value. -/
structure Quaternion where
  x : F32
  y : F32
  z : F32
  s : F32
  deriving DecidableEq, Repr

/-- Modelled from the spec: `class BitStream`, the base of `LSOBitStream` (bitstream.hh
is not among the sources): the bytes of the stream and the position of the next read;
writes go to the end. -/
structure LSOBitStream where
  data : List Nat := []
  pos : Nat := 0
  deriving DecidableEq, Repr

namespace LSOBitStream

/-- Modelled from the spec: the four bytes of a 32-bit pattern, most significant first
(the LSO stream is constructed with `ENDIAN_BIG`; "big-endian stream"). -/
def bytesOf (f : F32) : List Nat :=
  [f.bits / 2 ^ 24 % 256, f.bits / 2 ^ 16 % 256, f.bits / 2 ^ 8 % 256, f.bits % 256]

/-- Modelled from the spec: `BitStream::operator<<(float)` (bitstream.hh is not among
the sources): the four bytes of the value are appended to the stream. -/
def writeFloat (bs : LSOBitStream) (f : F32) : LSOBitStream :=
  { bs with data := bs.data ++ bytesOf f }

/-- Modelled from the spec: `BitStream::operator>>(float &)` (bitstream.hh is not among
the sources): the value of the four bytes at the read position, which moves past them;
`none` when fewer than four bytes are left. -/
def readFloat (bs : LSOBitStream) : Option (F32 × LSOBitStream) :=
  match bs.data.drop bs.pos with
  | a :: b :: c :: d :: _ =>
    some (⟨((a * 256 + b) * 256 + c) * 256 + d⟩, { bs with pos := bs.pos + 4 })
  | _ => none

/-- `operator<<(LSOBitStream &bs, const Vector3 &v)`. -/
def writeVector3 (bs : LSOBitStream) (v : Vector3) : LSOBitStream :=
  let bs := bs.writeFloat v.z
  let bs := bs.writeFloat v.y
  let bs := bs.writeFloat v.x
  bs

/-- `operator>>(LSOBitStream &bs, Vector3 &v)`: the vector `v` afterwards and the
stream. -/
def readVector3 (bs : LSOBitStream) (v : Vector3) : Option (Vector3 × LSOBitStream) := do
  let (z, bs) ← bs.readFloat
  let v := { v with z := z }
  let (y, bs) ← bs.readFloat
  let v := { v with y := y }
  let (x, bs) ← bs.readFloat
  let v := { v with x := x }
  return (v, bs)

/-- `operator<<(LSOBitStream &bs, const Quaternion &v)`. -/
def writeQuaternion (bs : LSOBitStream) (v : Quaternion) : LSOBitStream :=
  let bs := bs.writeFloat v.s
  let bs := bs.writeFloat v.z
  let bs := bs.writeFloat v.y
  let bs := bs.writeFloat v.x
  bs

/-- `operator>>(LSOBitStream &bs, Quaternion &v)`: the quaternion `v` afterwards and the
stream. -/
def readQuaternion (bs : LSOBitStream) (v : Quaternion) :
    Option (Quaternion × LSOBitStream) := do
  let (s, bs) ← bs.readFloat
  let v := { v with s := s }
  let (z, bs) ← bs.readFloat
  let v := { v with z := z }
  let (y, bs) ← bs.readFloat
  let v := { v with y := y }
  let (x, bs) ← bs.readFloat
  let v := { v with x := x }
  return (v, bs)

end LSOBitStream

/-- The vector `<1.0, 2.0, 3.0>`. -/
def Sample.oneTwoThree : Vector3 := { x := ⟨0x3F800000⟩, y := ⟨0x40000000⟩, z := ⟨0x40400000⟩ }

/-- The rotation `<0.0, 0.0, 0.0, 1.0>`. -/
def Sample.unitRotation : Quaternion :=
  { x := ⟨0⟩, y := ⟨0⟩, z := ⟨0⟩, s := ⟨0x3F800000⟩ }

/-! ## The drivers (main.cc, fuzz.cc) -/

namespace Driver

/-- The calls the drivers make on the script and on the logger once the script is
parsed (fuzz.cc spells the same passes `collectSymbols`, `linkSymbolTables`, ...);
`compile` is the visit of the script by the `LSOScriptCompiler`. -/
inductive Call where
  | collect_symbols
  | link_symbol_tables
  | determine_types
  | recalculate_reference_data
  | propagate_values
  | check_best_practices
  | filter_assert_errors
  | set_check_assertions
  | optimize
  | validate_globals
  | check_symbols
  | set_mangled_names
  | print
  | report
  | show_tree
  | compile
  deriving DecidableEq, Repr

/-- What the drivers use of the library (its passes are not among the sources, save
those embedded above): `apply c` is the effect of the call `c` on the state of the
compilation (tree, symbol tables and logger), `get_errors` is `logger->get_errors()`. -/
structure Passes (σ : Type) where
  apply : Call → σ → σ
  get_errors : σ → Nat

/-- A run of a driver so far: the state of the compilation and the calls made, in
order. -/
structure Run (σ : Type) where
  state : σ
  trace : List Call

/-- One call of the driver. -/
def Run.call {σ : Type} (p : Passes σ) (r : Run σ) (c : Call) : Run σ :=
  { state := p.apply c r.state, trace := r.trace ++ [c] }

/-- The analysis passes both drivers run on a parsed script, in their order. -/
def analysis {σ : Type} (p : Passes σ) (r : Run σ) : Run σ :=
  let r := r.call p .collect_symbols
  let r := r.call p .link_symbol_tables
  let r := r.call p .determine_types
  let r := r.call p .recalculate_reference_data
  let r := r.call p .propagate_values
  let r := r.call p .check_best_practices
  r

/-- The part of `main` (main.cc) after the parse: `parsed` is the state the parser
leaves, `script` tells whether it produced a script. The result is the run and the exit
status. -/
def main {σ : Type} (p : Passes σ) (check_assertions pretty_print show_tree : Bool)
    (parsed : σ) (script : Bool) : Run σ × Nat :=
  let r : Run σ := { state := parsed, trace := [] }
  let r :=
    if script then
      let r := analysis p r
      let r :=
        if check_assertions then
          (r.call p .filter_assert_errors).call p .set_check_assertions
        else r
      let r :=
        if p.get_errors r.state = 0 then
          let r := r.call p .optimize
          let r := r.call p .validate_globals
          let r := r.call p .check_symbols
          if pretty_print then (r.call p .set_mangled_names).call p .print else r
        else
          let r := r.call p .validate_globals
          let r := r.call p .check_symbols
          r
      let r := r.call p .report
      if show_tree then r.call p .show_tree else r
    else r.call p .report
  (r, p.get_errors r.state)

/-- The part of `LLVMFuzzerTestOneInput` (fuzz.cc) after the parse; `compile_lso` is the
flag of that name. -/
def LLVMFuzzerTestOneInput {σ : Type} (p : Passes σ) (compile_lso : Bool) (parsed : σ)
    (script : Bool) : Run σ :=
  let r : Run σ := { state := parsed, trace := [] }
  if script then
    let r := analysis p r
    if compile_lso then
      let r := r.call p .validate_globals
      if p.get_errors r.state = 0 then r.call p .compile else r
    else
      if p.get_errors r.state = 0 then
        let r := r.call p .optimize
        let r := r.call p .validate_globals
        let r := r.call p .check_symbols
        r
      else r
  else r

/-- A library whose state is the error count of the logger: typing reports the errors
`found`, the assertion filter removes those `expected`, the other calls report
nothing. -/
def Passes.counting (found expected : Nat) : Passes Nat where
  apply c errors :=
    match c with
    | .determine_types => errors + found
    | .filter_assert_errors => errors - expected
    | _ => errors
  get_errors errors := errors

end Driver

/-- The function `float f() { return 1; }` before desugaring. -/
def Sample.floatFunction : LSLASTNode :=
  .mk { nodeType := .NODE_GLOBAL_FUNCTION }
    [Sample.identifier .LST_FLOATINGPOINT "f" (some 0),
     .mk { nodeType := .NODE_FUNCTION_DEC } [],
     Sample.compound [Sample.returnOne]]

/-- A symbol store in which every symbol is a builtin variable. -/
def Sample.builtins : SymbolStore :=
  fun _ => { symbolType := .SYM_VARIABLE, subType := .SYM_BUILTIN }

/-- A reference to a builtin vector constant such as `ZERO_VECTOR`, holding the constant
`<0.0, 0.0, 0.0>`. -/
def Sample.zeroVector : LSLASTNode :=
  (Sample.lvalue .LST_VECTOR "ZERO_VECTOR" (some 0)).setConstantValue
    (some (.vector ⟨0⟩ ⟨0⟩ ⟨0⟩))

/-- A symbol store in which every symbol is a function `f(float, float)`, of the type
`t`. -/
def Sample.functions (t : LSLIType) : SymbolStore :=
  fun _ => { name := "f", type := t, symbolType := .SYM_FUNCTION, subType := .SYM_GLOBAL,
             functionDecl := some [.LST_FLOATINGPOINT, .LST_FLOATINGPOINT] }

/-- The call `f(1, 2.0, 3)` of a function of type `t`: one argument more than the
function `f(float, float)` takes; the float literal has the bit pattern of 2.0. -/
def Sample.callWithArguments (t : LSLIType) : LSLASTNode :=
  .mk { nodeType := .NODE_EXPRESSION, subType := .NODE_FUNCTION_EXPRESSION, type := t }
    [Sample.identifier t "f" (some 0), Sample.literal (.integer 1),
     Sample.literal (.float ⟨0x40000000⟩), Sample.literal (.integer 3)]

/-- The division `x / 0` whose left operand, an undeclared name, has the type ERROR. -/
def Sample.errorDividedByZero : LSLASTNode :=
  Sample.binary .LST_ERROR (.chr '/') (Sample.lvalue .LST_ERROR "x" none)
    ((Sample.literal (.integer 0)).setConstantValue (some (.integer 0)))

namespace Sling

/-- Whether `s` is an event handler whose identifier has the name `name`. -/
def isHandlerNamed (name : String) (s : LSLASTNode) : Bool :=
  decide (s.getNodeType = .NODE_EVENT_HANDLER)
    && decide ((s.getChild 0).map LSLASTNode.getName = some name)

/-- The number of event handlers named `name` among the children of a state. -/
def handlersNamed (name : String) (siblings : List LSLASTNode) : Nat :=
  (siblings.filter (isHandlerNamed name)).length

/-- Whether no child after the child number `self` is an event handler named `name`. -/
def noneAfter (name : String) (self : Nat) (siblings : List LSLASTNode) : Bool :=
  (siblings.drop (self + 1)).all (fun s => !isHandlerNamed name s)

/-- Whether `LLScriptEventHandler::final_pre_checks`, run on the child number `self`
for the name `name`, ends its loop over the children with `found > 1 && is_last`. -/
def warnsMultiple (name : String) (siblings : List LSLASTNode) (self : Nat) : Bool :=
  match scanHandlers name self 0 siblings (0, true) with
  | .ok (found, is_last) => decide (found > 1) && is_last
  | .error _ => false

end Sling

/-- The children of a state with the handlers `touch_start`, `timer`, `touch_start`,
`touch_start`, in this order. -/
def Sample.handlers : List LSLASTNode :=
  [Sample.touchStart true [.LST_INTEGER],
   .mk { nodeType := .NODE_EVENT_HANDLER }
     [Sample.identifier .LST_NULL "timer" none, .mk { nodeType := .NODE_EVENT_DEC } [],
      Sample.compound []],
   Sample.touchStart true [.LST_INTEGER],
   Sample.touchStart true [.LST_INTEGER]]

/-! ## Predicates on the assertions of symbol resolution -/

namespace Resolution

/-- Whether every entry of every table is a tracked symbol that is no label: the state
the pass starts from, whose tables hold the builtins. -/
def labelFree (st : Resolution) : Bool :=
  st.tables.all (fun table => table.all (fun p =>
    match st.symbols.get? p with
    | some s => decide (s.symbolType ≠ .SYM_LABEL)
    | none => false))

/-- Every entry of the tables below `K` is a tracked symbol that is no label. -/
def LabelFreeBelow (K : Nat) (st : Resolution) : Prop :=
  ∀ table, table < K → ∀ p ∈ st.tables.getD table [],
    ∃ s, st.symbols.get? p = some s ∧ s.symbolType ≠ .SYM_LABEL

/-- The state `st1` continues the state `st` with the two lists of the visitor as they
were, and every entry a table has gained is a tracked symbol that is no label. -/
def Quiet (st st1 : Resolution) : Prop :=
  Grows (fun _ => True) st st1
    ∧ st1.mPendingJumps = st.mPendingJumps ∧ st1.mCollectedLabels = st.mCollectedLabels
    ∧ ∀ table e, e ∈ st1.tables.getD table [] → e ∉ st.tables.getD table [] →
        ∃ s, st1.symbols.get? e = some s ∧ s.symbolType ≠ .SYM_LABEL

end Resolution

namespace SymbolResolutionVisitor

/-- Whether the children of a label or jump statement are as the parser builds them: one
identifier, without children and without a table of its own. -/
def plainIdentifier : List LSLASTNode → Bool
  | [id] => decide (id.getNodeType = .NODE_IDENTIFIER) && id.children.isEmpty
      && id.getSymbolTable.isNone
  | _ => false

/-- Whether a subtree of a global function or event handler has the form the parser
gives it: no node owns a table yet, none is a script, a global function or an event
handler, a label or jump statement has one childless identifier as its only child, and a
label stands inside a compound statement (`inner` tells whether the subtree does). -/
def bodyForm : Bool → LSLASTNode → Bool
  | inner, .mk d cs =>
    d.symbolTable.isNone
      && decide (d.nodeType ≠ .NODE_SCRIPT ∧ d.nodeType ≠ .NODE_GLOBAL_FUNCTION
          ∧ d.nodeType ≠ .NODE_EVENT_HANDLER)
      && (if d.nodeType = .NODE_STATEMENT ∧ d.subType = .NODE_JUMP_STATEMENT then
            plainIdentifier cs
          else if d.nodeType = .NODE_STATEMENT ∧ d.subType = .NODE_LABEL then
            inner && plainIdentifier cs
          else true)
      && all (inner || decide (d.nodeType = .NODE_STATEMENT
          ∧ d.subType = .NODE_COMPOUND_STATEMENT)) cs
where
  /-- Whether every subtree of the list has the form. -/
  all : Bool → List LSLASTNode → Bool
    | _, [] => true
    | inner, c :: cs => bodyForm inner c && all inner cs

/-- Whether the table the node owns, if it owns one, is below `K`. -/
def tableBelow (K : Nat) (d : NodeData) : Bool :=
  match d.symbolTable with
  | some table => decide (table < K)
  | none => true

/-- Whether a subtree of the script outside of the functions and event handlers has the
form the parser gives it, with the tables a function or state owns below `K` (none for
`K = 0`, before the pass): global functions, with children of the form `bodyForm`;
global variables; states, below which (`inState`) stand the event handlers; and nodes of
the classes that carry them (lists, storages, identifiers, types, placeholders). -/
def outerForm (K : Nat) : Bool → LSLASTNode → Bool
  | inState, .mk d cs =>
    match d.nodeType with
    | .NODE_GLOBAL_FUNCTION => tableBelow K d && bodyForm.all false cs
    | .NODE_EVENT_HANDLER => inState && bodyForm.all false cs
    | .NODE_GLOBAL_VARIABLE => true
    | .NODE_STATE => tableBelow K d && all K true cs
    | .NODE_NODE => d.symbolTable.isNone && all K inState cs
    | .NODE_NULL => d.symbolTable.isNone && all K inState cs
    | .NODE_AST_NODE_LIST => d.symbolTable.isNone && all K inState cs
    | .NODE_IDENTIFIER => d.symbolTable.isNone && all K inState cs
    | .NODE_CONSTANT => d.symbolTable.isNone && all K inState cs
    | .NODE_TYPE => d.symbolTable.isNone && all K inState cs
    | _ => false
where
  /-- Whether every subtree of the list has the form. -/
  all (K : Nat) : Bool → List LSLASTNode → Bool
    | _, [] => true
    | inState, c :: cs => outerForm K inState c && all K inState cs

/-- The kept pointer `r` points to a childless node of the subtree `t`, which stands at
`path` in its function or event handler. -/
def Kept (path : List Nat) (t : LSLASTNode) (r : IdentifierRef) : Prop :=
  ∃ q id, r.path = path ++ q ∧ t.nodeAt q = some id ∧ id.children = []

/-- The kept pointer `r` points to a node of the subtree `t` that holds the symbol
pointer `e`. -/
def KeptSymbol (path : List Nat) (t : LSLASTNode) (r : IdentifierRef) (e : Nat) : Prop :=
  ∃ q id, r.path = path ++ q ∧ t.nodeAt q = some id ∧ id.getSymbol = some e

/-- What a part of the walk of a function or event handler has done between the states
`st` and `st1`, seen on the subtree `t` at `path`: it has added the pending jumps `js`
and the collected labels `ls`, each pointing to a childless node of `t`, to different
nodes, and every entry a table has gained is a tracked symbol that is no label or the
symbol of one of the labels `ls`, in a table registered since the function was entered
(the tables from `Kf` on). The scopes of the jumps are tables below `K0` or from `Kf`
on. -/
structure Walked (K0 Kf : Nat) (st st1 : Resolution) (path : List Nat) (t : LSLASTNode)
    (js ls : List IdentifierRef) : Prop where
  grows : Resolution.Grows (fun _ => True) st st1
  jumps : st1.mPendingJumps = st.mPendingJumps ++ js
  labels : st1.mCollectedLabels = st.mCollectedLabels ++ ls
  scopes : ∀ j ∈ js, ∀ table ∈ j.scopes, table < K0 ∨ Kf ≤ table
  kept : ∀ r ∈ js ++ ls, Kept path t r
  nodup : (js.map (fun r => r.path)).Nodup
  distinct : ∀ j ∈ js, ∀ l ∈ ls, j.path ≠ l.path
  entries : ∀ table e, e ∈ st1.tables.getD table [] → e ∉ st.tables.getD table [] →
    (∃ s, st1.symbols.get? e = some s ∧ s.symbolType ≠ .SYM_LABEL)
      ∨ (Kf ≤ table ∧ ∃ l ∈ ls, KeptSymbol path t l e)

/-- The innermost of the scopes is a table registered since the function was entered. -/
def HeadFresh (Kf : Nat) (scopes : List Nat) : Prop :=
  ∃ head rest, scopes = head :: rest ∧ Kf ≤ head

/-- Each of the scopes is a table below `K0` or one registered since the function was
entered. -/
def GoodScopes (K0 Kf : Nat) (scopes : List Nat) : Prop :=
  ∀ table ∈ scopes, table < K0 ∨ Kf ≤ table

/-- The visit `f`, run inside a function or event handler on a subtree of the parser's
form, fails no assertion, and when it returns it has done what `Walked` says. -/
def BodyWalk (K0 Kf : Nat)
    (f : Resolution → Place → LSLASTNode → Except Fault (Resolution × LSLASTNode)) : Prop :=
  ∀ (st : Resolution) (place : Place) (inner : Bool) (t : LSLASTNode),
    bodyForm inner t = true → (inner = true → HeadFresh Kf place.scopes) →
    GoodScopes K0 Kf place.scopes → Kf ≤ st.tables.length →
    f st place t ≠ .error .assertionFailed
      ∧ ∀ st1 t1, f st place t = .ok (st1, t1) →
          ∃ js ls, Walked K0 Kf st st1 place.path t1 js ls

/-- The state of the pass between two functions or event handlers: the two lists of the
visitor are empty, and the tables below `K0`, those registered before the walk of the
bodies began, hold no label. -/
def OuterState (K0 : Nat) (st : Resolution) : Prop :=
  st.mPendingJumps = [] ∧ st.mCollectedLabels = [] ∧ st.LabelFreeBelow K0
    ∧ K0 ≤ st.tables.length

/-- The visit `f`, run outside of the functions and event handlers on a subtree of the
parser's form from a state between two bodies, fails no assertion, and when it returns
the state is one between two bodies again. -/
def OuterWalk (K0 : Nat)
    (f : Resolution → Place → LSLASTNode → Except Fault (Resolution × LSLASTNode)) : Prop :=
  ∀ (st : Resolution) (place : Place) (inState : Bool) (t : LSLASTNode),
    outerForm K0 inState t = true → OuterState K0 st →
    (∀ table ∈ place.scopes, table < K0) →
    f st place t ≠ .error .assertionFailed
      ∧ ∀ st1 t1, f st place t = .ok (st1, t1) → OuterState K0 st1

end SymbolResolutionVisitor

/-- The event handler `touch_start() { jump L; { @L; } @L; }` as the parser builds
it. -/
def Sample.jumpingHandler : LSLASTNode :=
  .mk { nodeType := .NODE_EVENT_HANDLER }
    [Sample.identifier .LST_NULL "touch_start" none, .mk { nodeType := .NODE_EVENT_DEC } [],
     Sample.compound [Sample.jump "L", Sample.compound [Sample.label "L"], Sample.label "L"]]

/-- The script of the functions `f() { @L; jump L; { @L; } }` and `f() { jump L; @L; }`
and the state `default` with the handler `touch_start() { jump L; { @L; } @L; }`. -/
def Sample.jumpingScript : LSLASTNode :=
  Sample.script [Sample.jumpPastVisible, Sample.jumpForward]
    [.mk { nodeType := .NODE_STATE }
      [Sample.identifier .LST_NULL "default" none,
       .mk { nodeType := .NODE_AST_NODE_LIST } [Sample.jumpingHandler]]]

namespace SymbolResolutionVisitor

/-- The visit `f` fails no assertion on any tree, and when it returns it has left the two
lists of the visitor as they were, added no label to a table, and the node is of the
class it was. -/
def QuietWalk
    (f : Resolution → Place → LSLASTNode → Except Fault (Resolution × LSLASTNode)) : Prop :=
  ∀ (st : Resolution) (place : Place) (t : LSLASTNode),
    f st place t ≠ .error .assertionFailed
      ∧ ∀ st1 t1, f st place t = .ok (st1, t1) →
          st.Quiet st1 ∧ t1.getNodeType = t.getNodeType

/-- The visit `f` of the global visitor, run on a subtree of the parser's form outside of
the states, returns it in that form, with the tables the functions and states own among
those registered. -/
def FormWalk
    (f : Resolution → Place → LSLASTNode → Except Fault (Resolution × LSLASTNode)) : Prop :=
  ∀ (K : Nat) (st : Resolution) (place : Place) (t : LSLASTNode) (st1 : Resolution)
    (t1 : LSLASTNode), outerForm K false t = true → K ≤ st.tables.length →
    f st place t = .ok (st1, t1) → outerForm st1.tables.length false t1 = true

end SymbolResolutionVisitor

/-! # Properties -/

/-! ## Auxiliary lemmas -/

section Desugaring

open DeSugaringVisitor

@[simp] theorem LSLASTNode.data_mk (d : NodeData) (cs : List LSLASTNode) :
    (LSLASTNode.mk d cs).data = d := rfl

@[simp] theorem LSLASTNode.children_mk (d : NodeData) (cs : List LSLASTNode) :
    (LSLASTNode.mk d cs).children = cs := rfl

theorem LSLASTNode.height_mk (d : NodeData) (cs : List LSLASTNode) :
    (LSLASTNode.mk d cs).height = 1 + LSLASTNode.height.heightList cs := by
  simp [LSLASTNode.height]

theorem LSLASTNode.height_lt_of_mem {c : LSLASTNode} {cs : List LSLASTNode} (h : c ∈ cs)
    (d : NodeData) : c.height < (LSLASTNode.mk d cs).height := by
  rw [LSLASTNode.height_mk]
  induction cs with
  | nil => cases h
  | cons a cs ih =>
    simp only [LSLASTNode.height.heightList]
    rcases List.mem_cons.mp h with h | h
    · subst h; omega
    · have := ih h; omega

theorem LSLASTNode.height_pos (n : LSLASTNode) : 0 < n.height := by
  cases n with
  | mk d cs => rw [LSLASTNode.height_mk]; omega

theorem LSLASTNode.All.here {P : LSLASTNode → Prop} {n : LSLASTNode} (h : n.All P) : P n := by
  cases h with
  | mk d cs hp _ => exact hp

theorem LSLASTNode.All.child {P : LSLASTNode → Prop} {n : LSLASTNode} (h : n.All P)
    {c : LSLASTNode} (hc : c ∈ n.children) : c.All P := by
  cases h with
  | mk d cs _ hcs => exact hcs c hc

theorem LSLASTNode.All.imp {P Q : LSLASTNode → Prop} (hPQ : ∀ n, P n → Q n) :
    ∀ {n : LSLASTNode}, n.All P → n.All Q := by
  intro n h
  induction h with
  | mk d cs hp _ ih => exact .mk d cs (hPQ _ hp) ih

theorem maybeInjectCast_cases (lib : Library) (c : LSLASTNode) (t : LSLIType) :
    maybeInjectCast lib c t = c
      ∨ maybeInjectCast lib c t = (LSLTypecastExpression.new t c).setLoc c.getLoc := by
  unfold maybeInjectCast
  simp only []
  split
  · exact Or.inl rfl
  · split
    · exact Or.inl rfl
    · exact Or.inr rfl

theorem ChildOrigin.ofInject (lib : Library) {n c : LSLASTNode} (hc : c ∈ n.children)
    (t : LSLIType) : ChildOrigin lib n (maybeInjectCast lib c t) := by
  rcases maybeInjectCast_cases lib c t with h | h <;> rw [h]
  · exact .original hc
  · exact .cast t hc

theorem visitBinaryExpression_spec (lib : Library) (n : LSLASTNode) (v : Visited)
    (h : visitBinaryExpression lib n = some v)
    (hsub : n.getNodeSubType = .NODE_BINARY_EXPRESSION)
    (hops : ∃ l r, n.getChild 0 = some l ∧ n.getChild 1 = some r) :
    v.replaced = false ∧ v.descend = true ∧ KeptInPlace lib n v := by
  obtain ⟨d, cs⟩ := n
  obtain ⟨l0, r0, hl0, hr0⟩ := hops
  rcases cs with _ | ⟨l, _ | ⟨r, rest⟩⟩
  · simp [LSLASTNode.getChild] at hl0
  · simp [LSLASTNode.getChild] at hr0
  have hsub' : d.subType = .NODE_BINARY_EXPRESSION := hsub
  simp only [visitBinaryExpression, LSLASTNode.getChild, LSLASTNode.children,
    List.get?_cons_zero, List.get?_cons_succ, Option.bind_eq_bind, Option.some_bind,
    Option.pure_def] at h
  split at h
  · -- the left operand has type ERROR
    rename_i herr
    cases h
    refine ⟨rfl, rfl, rfl, rfl, ?_, fun c hc => .original hc⟩
    exact ⟨fun _ _ => ⟨l.getIType, r.getIType, rest.map LSLASTNode.getIType, rfl,
      Or.inl herr⟩, fun hu => by simp [LSLASTNode.data, hsub'] at hu⟩
  · rename_i herrl
    split at h
    · -- the right operand has type ERROR
      rename_i herr
      cases h
      refine ⟨rfl, rfl, rfl, rfl, ?_, fun c hc => .original hc⟩
      exact ⟨fun _ _ => ⟨l.getIType, r.getIType, rest.map LSLASTNode.getIType, rfl,
        Or.inr (Or.inl herr)⟩, fun hu => by simp [LSLASTNode.data, hsub'] at hu⟩
    · rename_i herr
      split at h
      · -- plain assignment
        rename_i heq
        cases h
        refine ⟨rfl, rfl, rfl, rfl, ?_, ?_⟩
        · refine ⟨fun _ hcomp => ?_, fun hu => ?_⟩
          · simp only [LSLASTNode.replaceChild, LSLASTNode.data] at hcomp
            simp only [LSLASTNode.getOperation, LSLASTNode.data] at heq
            cases hd : d.operation <;>
              simp [hd, Operation.isCompound, decouple_compound_operation] at hcomp heq
          · simp [LSLASTNode.replaceChild, LSLASTNode.data, hsub'] at hu
        · intro c hc
          simp only [LSLASTNode.replaceChild, LSLASTNode.children, List.set_cons_succ,
            List.set_cons_zero, List.mem_cons] at hc
          rcases hc with hc | hc | hc
          · subst hc; exact .original (by simp [LSLASTNode.children])
          · subst hc; exact ChildOrigin.ofInject lib (by simp [LSLASTNode.children]) _
          · exact .original (by simp [LSLASTNode.children, hc])
      · rename_i hne
        split at h
        · -- not a compound operator
          rename_i hsame
          cases h
          refine ⟨rfl, rfl, rfl, rfl, ?_, fun c hc => .original hc⟩
          refine ⟨fun _ hcomp => ?_, fun hu => ?_⟩
          · simp only [LSLASTNode.getOperation, LSLASTNode.data] at hsame
            simp only [LSLASTNode.data] at hcomp
            cases hd : d.operation <;>
              simp [hd, Operation.isCompound, decouple_compound_operation] at hcomp hsame
          · simp [LSLASTNode.data, hsub'] at hu
        · rename_i hdiff
          split at h
          · -- int *= float
            rename_i hkeep
            cases h
            refine ⟨rfl, rfl, rfl, rfl, ?_, fun c hc => .original hc⟩
            refine ⟨fun _ _ => ⟨l.getIType, r.getIType, rest.map LSLASTNode.getIType, rfl,
              Or.inr (Or.inr ⟨?_, hkeep.2.1, hkeep.2.2⟩)⟩, fun hu => ?_⟩
            · have h1 := hkeep.1
              simp only [LSLASTNode.getOperation, LSLASTNode.data] at h1 hdiff
              cases hd : d.operation <;>
                simp [hd, decouple_compound_operation, LSLASTNode.data] at h1 hdiff ⊢
            · simp [LSLASTNode.data, hsub'] at hu
          · -- desugared
            rename_i hnk
            simp only [LSLASTNode.takeChild, LSLASTNode.getChild, LSLASTNode.children,
              List.get?_cons_zero, List.get?_cons_succ, Option.some_bind] at h
            cases h
            refine ⟨rfl, rfl, rfl, rfl, ?_, ?_⟩
            · refine ⟨fun _ hcomp => ?_, fun hu => ?_⟩
              · simp [LSLASTNode.setOperation, LSLASTNode.data, Operation.isCompound] at hcomp
              · simp [LSLASTNode.setOperation, LSLASTNode.replaceChild, LSLASTNode.data,
                  hsub'] at hu
            · intro c hc
              simp only [LSLASTNode.setOperation, LSLASTNode.replaceChild,
                LSLASTNode.children, List.set_cons_succ, List.set_cons_zero,
                List.mem_cons] at hc
              have hcomp : d.operation.isCompound = true := by
                simp only [LSLASTNode.getOperation, LSLASTNode.data] at hdiff
                cases hd : d.operation <;>
                  simp [hd, decouple_compound_operation, Operation.isCompound] at hdiff ⊢
              rcases hc with hc | hc | hc
              · subst hc; exact .original (by simp [LSLASTNode.children])
              · subst hc
                exact ChildOrigin.decoupled d.operation
                  (List.mem_cons_self l _) (List.mem_cons_of_mem l (List.mem_cons_self r _))
                  hcomp
              · exact .original (by simp [LSLASTNode.children, hc])

theorem DesugaredAt.of_other {d : NodeData} (types : List LSLIType)
    (h1 : d.subType ≠ .NODE_BINARY_EXPRESSION) (h2 : d.subType ≠ .NODE_UNARY_EXPRESSION) :
    DesugaredAt d types :=
  ⟨fun h => absurd h h1, fun h => absurd h h2⟩

theorem KeptInPlace.of_data (lib : Library) (n n1 : LSLASTNode) (hd : n1.data = n.data)
    (h1 : n.data.subType ≠ .NODE_BINARY_EXPRESSION)
    (h2 : n.data.subType ≠ .NODE_UNARY_EXPRESSION)
    (hc : ∀ c ∈ n1.children, ChildOrigin lib n c) (r : Bool) (e : Bool) :
    KeptInPlace lib n { node := n1, replaced := r, descend := e } where
  subType := by simp [hd]
  type := by simp [hd]
  desugared := DesugaredAt.of_other _ (by simpa [hd] using h1) (by simpa [hd] using h2)
  children := hc

theorem LSLASTNode.Plain.desugared {n : LSLASTNode} (h : n.Plain) :
    n.All LSLASTNode.Desugared :=
  LSLASTNode.All.imp (fun _ hk => DesugaredAt.of_other _ hk.1 hk.2) h

theorem LSLConstant.toNode_desugared (cv : LSLConstant) :
    cv.toNode.All LSLASTNode.Desugared := by
  refine .mk _ _ (DesugaredAt.of_other _ ?_ ?_) (by simp)
  · cases cv <;> simp [LSLConstant.getNodeSubType]
  · cases cv <;> simp [LSLConstant.getNodeSubType]

theorem LSLConstantExpression.new_desugared (cv : LSLConstant) :
    (LSLConstantExpression.new cv).All LSLASTNode.Desugared := by
  refine .mk _ _ (DesugaredAt.of_other _ (by simp) (by simp)) ?_
  intro c hc
  simp at hc
  subst hc
  exact cv.toNode_desugared

theorem LSLASTNode.All.setLoc {P : LSLASTNode → Prop} {n : LSLASTNode} (l : YYLTYPE)
    (hP : P (n.setLoc l)) (h : n.All P) : (n.setLoc l).All P := by
  obtain ⟨d, cs⟩ := n
  exact .mk _ _ hP (fun c hc => h.child hc)

theorem visitUnaryExpression_spec (lib : Library) (store : SymbolStore) (n : LSLASTNode)
    (v : Visited) (h : visitUnaryExpression lib n = some v)
    (hsub : n.getNodeSubType = .NODE_UNARY_EXPRESSION)
    (hp : n.Parsed store) (hcl : lib.CloneRespects store) :
    (v.replaced = false ∧ v.descend = true ∧ KeptInPlace lib n v)
      ∨ (v.replaced = true ∧ v.node.getType = n.getType
          ∧ v.node.All LSLASTNode.Desugared) := by
  obtain ⟨d, cs⟩ := n
  have hsub' : d.subType = .NODE_UNARY_EXPRESSION := hsub
  have hkeep : ∀ (hok : d.operation.isPreIncDec = true → d.type = .LST_ERROR),
      KeptInPlace lib (.mk d cs) { node := .mk d cs } := fun hok =>
    ⟨rfl, rfl, ⟨fun hb => by simp [hsub'] at hb, fun _ hpre => hok hpre⟩,
      fun c hc => .original hc⟩
  by_cases herr : d.type = .LST_ERROR
  · simp [visitUnaryExpression, LSLASTNode.getIType, herr] at h
    subst h
    exact Or.inl ⟨rfl, rfl, hkeep (fun _ => herr)⟩
  by_cases hpre : d.operation.isPreIncDec = true
  · obtain ⟨c0, hc0, hc0p⟩ := hp.2.1 hsub hpre
    rcases cs with _ | ⟨lvalue, rest⟩
    · simp [LSLASTNode.getChild] at hc0
    have hpl : lvalue.Plain := by
      simp only [LSLASTNode.getChild, LSLASTNode.children_mk, List.get?_cons_zero,
        Option.some.injEq] at hc0
      exact hc0 ▸ hc0p
    have hdone : ∀ (new_op : Operation), new_op.isCompound = false →
        ((LSLBinaryExpression.new lvalue (.chr '=')
          ((LSLBinaryExpression.new (lib.clone lvalue) new_op
            (LSLConstantExpression.new (lib.getOneValue lvalue.getType))).setType
              d.type)).setType d.type).All LSLASTNode.Desugared := by
      intro new_op hnc
      simp only [LSLBinaryExpression.new, LSLASTNode.setType, LSLASTNode.data,
        LSLASTNode.children]
      refine .mk _ _ ⟨fun _ hc => by simp [Operation.isCompound] at hc,
        fun hu => by simp at hu⟩ ?_
      intro c hc
      simp only [List.mem_cons, List.mem_singleton, List.not_mem_nil, or_false] at hc
      rcases hc with hc | hc
      · subst hc; exact hpl.desugared
      · subst hc
        refine .mk _ _ ⟨fun _ hc => by simp [hnc] at hc, fun hu => by simp at hu⟩ ?_
        intro c hc
        simp only [List.mem_cons, List.mem_singleton, List.not_mem_nil, or_false] at hc
        rcases hc with hc | hc
        · subst hc; exact (hcl.plain _ hpl).desugared
        · subst hc; exact LSLConstantExpression.new_desugared _
    cases hd : d.operation <;> simp [hd, Operation.isPreIncDec] at hpre
    · simp [visitUnaryExpression, LSLASTNode.getIType, herr, LSLASTNode.getOperation, hd,
        LSLASTNode.takeChild, LSLASTNode.getChild, LSLBinaryExpression.new,
        LSLASTNode.setType, LSLASTNode.getType] at h
      subst h
      exact Or.inr ⟨rfl, rfl, hdone _ rfl⟩
    · simp [visitUnaryExpression, LSLASTNode.getIType, herr, LSLASTNode.getOperation, hd,
        LSLASTNode.takeChild, LSLASTNode.getChild, LSLBinaryExpression.new,
        LSLASTNode.setType, LSLASTNode.getType] at h
      subst h
      exact Or.inr ⟨rfl, rfl, hdone _ rfl⟩
  · have : visitUnaryExpression lib (.mk d cs) = some { node := .mk d cs } := by
      cases hd : d.operation <;>
        simp [hd, Operation.isPreIncDec, visitUnaryExpression, LSLASTNode.getIType, herr,
          LSLASTNode.getOperation] at hpre ⊢
    rw [this] at h
    cases h
    exact Or.inl ⟨rfl, rfl, hkeep (fun hp' => absurd hp' hpre)⟩

theorem visitDeclaration_spec (lib : Library) (n : LSLASTNode) (v : Visited)
    (h : visitDeclaration lib n = some v)
    (hsub : n.getNodeSubType = .NODE_DECLARATION) :
    v.replaced = false ∧ v.descend = true ∧ KeptInPlace lib n v := by
  obtain ⟨d, cs⟩ := n
  have hsub' : d.subType = .NODE_DECLARATION := hsub
  have h1 : (LSLASTNode.mk d cs).data.subType ≠ .NODE_BINARY_EXPRESSION := by simp [hsub']
  have h2 : (LSLASTNode.mk d cs).data.subType ≠ .NODE_UNARY_EXPRESSION := by simp [hsub']
  rcases cs with _ | ⟨id, _ | ⟨expr, rest⟩⟩
  · simp [visitDeclaration, LSLASTNode.getChild] at h
  · simp [visitDeclaration, LSLASTNode.getChild] at h
  simp only [visitDeclaration, LSLASTNode.getChild, LSLASTNode.children,
    List.get?_cons_zero, List.get?_cons_succ, Option.bind_eq_bind, Option.some_bind,
    Option.pure_def] at h
  split at h
  · cases h
    refine ⟨rfl, rfl, KeptInPlace.of_data lib _ _ (by rfl) h1 h2 ?_ _ _⟩
    intro c hc
    simp only [LSLASTNode.replaceChild, LSLASTNode.children, List.set_cons_succ,
      List.set_cons_zero, List.mem_cons] at hc
    rcases hc with hc | hc | hc
    · subst hc; exact .original (by simp)
    · subst hc; exact ChildOrigin.ofInject lib (by simp) _
    · exact .original (by simp [hc])
  · cases h
    exact ⟨rfl, rfl, KeptInPlace.of_data lib _ _ (by rfl) h1 h2 (fun c hc => .original hc) _ _⟩

theorem handleCoordinateNode_spec (lib : Library) (n : LSLASTNode)
    (h1 : n.getNodeSubType ≠ .NODE_BINARY_EXPRESSION)
    (h2 : n.getNodeSubType ≠ .NODE_UNARY_EXPRESSION) :
    (handleCoordinateNode lib n).replaced = false
      ∧ (handleCoordinateNode lib n).descend = true
      ∧ KeptInPlace lib n (handleCoordinateNode lib n) := by
  refine ⟨rfl, rfl, ?_⟩
  unfold handleCoordinateNode
  refine KeptInPlace.of_data lib _ _ (by rfl) h1 h2 ?_ _ _
  intro c hc
  simp only [LSLASTNode.children_mk, List.mem_map] at hc
  obtain ⟨c0, hc0, rfl⟩ := hc
  exact ChildOrigin.ofInject lib hc0 _

theorem castArguments_spec (lib : Library) (params : List LSLIType) (n : LSLASTNode) :
    ∀ (k i : Nat) (n1 : LSLASTNode), n1.data = n.data →
      (∀ c ∈ n1.children, ChildOrigin lib n c) →
      (∀ j, i < j → n1.children.get? j = n.children.get? j) →
      (castArguments lib params k i n1).data = n.data
        ∧ ∀ c ∈ (castArguments lib params k i n1).children, ChildOrigin lib n c := by
  intro k
  induction k with
  | zero => intro i n1 hd hc _; exact ⟨hd, hc⟩
  | succ k ih =>
    intro i n1 hd hc hrest
    unfold castArguments
    split
    · rename_i expected param hpar hchild
      apply ih
      · simpa [LSLASTNode.replaceChild] using hd
      · intro c hcm
        simp only [LSLASTNode.replaceChild, LSLASTNode.children_mk] at hcm
        rcases List.mem_or_eq_of_mem_set hcm with hcm | hcm
        · exact hc c hcm
        · subst hcm
          refine ChildOrigin.ofInject lib ?_ _
          have : n.children.get? (i + 1) = some param := by
            rw [← hrest (i + 1) (Nat.lt_succ_self i)]; exact hchild
          exact List.get?_mem this
      · intro j hj
        simp only [LSLASTNode.replaceChild, LSLASTNode.children_mk]
        rw [← hrest j (by omega)]
        simp only [List.get?_eq_getElem?]
        exact List.getElem?_set_ne (by omega)
    · exact ⟨hd, hc⟩

theorem visitFunctionExpression_spec (lib : Library) (store : SymbolStore) (n : LSLASTNode)
    (v : Visited) (h : visitFunctionExpression lib store n = some v)
    (hsub : n.getNodeSubType = .NODE_FUNCTION_EXPRESSION) :
    v.replaced = false ∧ v.descend = true ∧ KeptInPlace lib n v := by
  have h1 : n.data.subType ≠ .NODE_BINARY_EXPRESSION := by
    have : n.data.subType = .NODE_FUNCTION_EXPRESSION := hsub
    simp [this]
  have h2 : n.data.subType ≠ .NODE_UNARY_EXPRESSION := by
    have : n.data.subType = .NODE_FUNCTION_EXPRESSION := hsub
    simp [this]
  have hsame : KeptInPlace lib n { node := n } :=
    KeptInPlace.of_data lib _ _ (by rfl) h1 h2 (fun c hc => .original hc) _ _
  unfold visitFunctionExpression at h
  cases hs : n.getIdentifierSymbol with
  | none => simp [hs] at h
  | some sym =>
    simp only [hs, Option.bind_eq_bind, Option.some_bind, Option.pure_def] at h
    split at h
    · cases h; exact ⟨rfl, rfl, hsame⟩
    · split at h
      · cases h; exact ⟨rfl, rfl, hsame⟩
      · split at h
        · cases h; exact ⟨rfl, rfl, hsame⟩
        · cases h
          obtain ⟨hd, hc⟩ := castArguments_spec lib _ n (n.getNumChildren - 1) 0 n rfl
            (fun c hc => .original hc) (fun _ _ => rfl)
          exact ⟨rfl, rfl, KeptInPlace.of_data lib _ _ hd h1 h2 hc _ _⟩

theorem visitReturnStatement_spec (lib : Library) (ancestors : List LSLASTNode)
    (n : LSLASTNode) (v : Visited) (h : visitReturnStatement lib ancestors n = some v)
    (hsub : n.getNodeSubType = .NODE_RETURN_STATEMENT) :
    v.replaced = false ∧ v.descend = true ∧ KeptInPlace lib n v := by
  obtain ⟨d, cs⟩ := n
  have hsub' : d.subType = .NODE_RETURN_STATEMENT := hsub
  have h1 : (LSLASTNode.mk d cs).data.subType ≠ .NODE_BINARY_EXPRESSION := by simp [hsub']
  have h2 : (LSLASTNode.mk d cs).data.subType ≠ .NODE_UNARY_EXPRESSION := by simp [hsub']
  have hsame : KeptInPlace lib (.mk d cs) { node := .mk d cs } :=
    KeptInPlace.of_data lib _ _ (by rfl) h1 h2 (fun c hc => .original hc) _ _
  rcases cs with _ | ⟨expr, rest⟩
  · simp [visitReturnStatement, LSLASTNode.getChild] at h
  have hg0 : (LSLASTNode.mk d (expr :: rest)).getChild 0 = some expr := rfl
  simp only [visitReturnStatement, hg0, Option.bind_eq_bind, Option.some_bind,
    Option.pure_def] at h
  split at h
  · cases h; exact ⟨rfl, rfl, hsame⟩
  · split at h
    · rename_i parent _
      cases hid : parent.getChild 0 with
      | none => simp [hid] at h
      | some id =>
        simp only [hid, Option.some_bind, Option.some.injEq] at h
        subst h
        refine ⟨rfl, rfl, KeptInPlace.of_data lib _ _ (by rfl) h1 h2 ?_ _ _⟩
        intro c hc
        simp only [LSLASTNode.replaceChild, LSLASTNode.children, List.set_cons_zero,
          List.mem_cons] at hc
        rcases hc with hc | hc
        · subst hc; exact ChildOrigin.ofInject lib (by simp) _
        · exact .original (by simp [hc])
    · cases h; exact ⟨rfl, rfl, hsame⟩

theorem axisExpression_desugared (node : LSLASTNode) (axis : F32) :
    (axisExpression node axis).All LSLASTNode.Desugared :=
  LSLASTNode.All.setLoc _ (DesugaredAt.of_other _ (by simp [LSLASTNode.setLoc,
    LSLConstantExpression.new]) (by simp [LSLASTNode.setLoc, LSLConstantExpression.new]))
    (LSLConstantExpression.new_desugared _)

theorem visitLValueExpression_spec (lib : Library) (store : SymbolStore) (n : LSLASTNode)
    (v : Visited) (h : visitLValueExpression store n = some v)
    (hsub : n.getNodeSubType = .NODE_LVALUE_EXPRESSION)
    (hp : n.Parsed store) :
    (v.replaced = false ∧ v.descend = true ∧ KeptInPlace lib n v)
      ∨ (v.replaced = true ∧ v.node.getType = n.getType
          ∧ v.node.All LSLASTNode.Desugared) := by
  have htype := (hp.1 hsub).2 v h
  have h1 : n.data.subType ≠ .NODE_BINARY_EXPRESSION := by
    have : n.data.subType = .NODE_LVALUE_EXPRESSION := hsub
    simp [this]
  have h2 : n.data.subType ≠ .NODE_UNARY_EXPRESSION := by
    have : n.data.subType = .NODE_LVALUE_EXPRESSION := hsub
    simp [this]
  have hsame : KeptInPlace lib n { node := n } :=
    KeptInPlace.of_data lib _ _ (by rfl) h1 h2 (fun c hc => .original hc) _ _
  unfold visitLValueExpression at h
  cases hs : n.getIdentifierSymbol with
  | none => simp [hs] at h
  | some sym0 =>
    cases sym0 with
    | none => simp [hs] at h
    | some sym =>
      simp only [hs, Option.bind_eq_bind, Option.some_bind, Option.pure_def] at h
      split at h
      · cases h; exact Or.inl ⟨rfl, rfl, hsame⟩
      · split at h
        · cases h; exact Or.inl ⟨rfl, rfl, hsame⟩
        · split at h
          · cases h; exact Or.inl ⟨rfl, rfl, hsame⟩
          · rename_i cv hcv
            cases h
            refine Or.inr ⟨rfl, htype, ?_⟩
            refine LSLASTNode.All.setLoc _ ?_ ?_
            · cases cv <;> exact DesugaredAt.of_other _
                (by simp [LSLASTNode.setLoc, LSLConstantExpression.new,
                  LSLVectorExpression.new, LSLQuaternionExpression.new,
                  LSLASTNode.setConstantValue])
                (by simp [LSLASTNode.setLoc, LSLConstantExpression.new,
                  LSLVectorExpression.new, LSLQuaternionExpression.new,
                  LSLASTNode.setConstantValue])
            · cases cv
              case vector x y z =>
                refine .mk _ _ (DesugaredAt.of_other _ (by simp [LSLVectorExpression.new])
                  (by simp [LSLVectorExpression.new])) ?_
                intro c hc
                simp only [LSLVectorExpression.new, LSLASTNode.children_mk, List.mem_cons,
                  List.mem_singleton, List.not_mem_nil, or_false] at hc
                rcases hc with hc | hc | hc <;> subst hc <;>
                  exact axisExpression_desugared _ _
              case quaternion x y z s =>
                refine .mk _ _ (DesugaredAt.of_other _
                  (by simp [LSLQuaternionExpression.new])
                  (by simp [LSLQuaternionExpression.new])) ?_
                intro c hc
                simp only [LSLQuaternionExpression.new, LSLASTNode.children_mk,
                  List.mem_cons, List.mem_singleton, List.not_mem_nil, or_false] at hc
                rcases hc with hc | hc | hc | hc <;> subst hc <;>
                  exact axisExpression_desugared _ _
              all_goals exact LSLConstantExpression.new_desugared _

theorem visitSpecific_spec (lib : Library) (store : SymbolStore)
    (ancestors : List LSLASTNode) (n : LSLASTNode) (v : Visited)
    (h : visitSpecific lib store ancestors n = some v)
    (hp : n.Parsed store) (hcl : lib.CloneRespects store) :
    (v.replaced = false ∧ v.descend = true ∧ KeptInPlace lib n v)
      ∨ (v.replaced = true ∧ v.node.getType = n.getType
          ∧ v.node.All LSLASTNode.Desugared) := by
  unfold visitSpecific at h
  split at h
  · exact Or.inl (visitBinaryExpression_spec lib n v h ‹_› (hp.2.2.1 ‹_›))
  · exact visitUnaryExpression_spec lib store n v h ‹_› hp hcl
  · exact Or.inl (visitDeclaration_spec lib n v h ‹_›)
  · rename_i hs
    cases h
    exact Or.inl (handleCoordinateNode_spec lib n (by simp [hs]) (by simp [hs]))
  · rename_i hs
    cases h
    exact Or.inl (handleCoordinateNode_spec lib n (by simp [hs]) (by simp [hs]))
  · exact Or.inl (visitFunctionExpression_spec lib store n v h ‹_›)
  · exact Or.inl (visitReturnStatement_spec lib ancestors n v h ‹_›)
  · exact visitLValueExpression_spec lib store n v h ‹_› hp
  · rename_i h1 h2 _ _ _ _ _ _
    cases h
    exact Or.inl ⟨rfl, rfl, KeptInPlace.of_data lib _ _ (by rfl) h1 h2
      (fun c hc => .original hc) _ _⟩

theorem enclosingFunction_mem :
    ∀ (ancestors : List LSLASTNode) (p : LSLASTNode),
      enclosingFunction ancestors = some p →
        p ∈ ancestors ∧ p.getNodeType = .NODE_GLOBAL_FUNCTION := by
  intro ancestors
  induction ancestors with
  | nil => intro p h; simp [enclosingFunction] at h
  | cons a as ih =>
    intro p h
    unfold enclosingFunction at h
    split at h
    · cases h; exact ⟨List.mem_cons_self _ _, ‹_›⟩
    · obtain ⟨h1, h2⟩ := ih p h
      exact ⟨List.mem_cons_of_mem _ h1, h2⟩

theorem visitSpecific_total (lib : Library) (store : SymbolStore)
    (ancestors : List LSLASTNode) (n : LSLASTNode)
    (hp : n.Parsed store) (ha : AncestorsParsed ancestors) :
    ∃ v, visitSpecific lib store ancestors n = some v := by
  unfold visitSpecific
  split
  · rename_i hs
    obtain ⟨l, r, hl, hr⟩ := hp.2.2.1 hs
    unfold visitBinaryExpression
    simp only [hl, hr, Option.bind_eq_bind, Option.some_bind, Option.pure_def]
    split
    · exact ⟨_, rfl⟩
    · split
      · exact ⟨_, rfl⟩
      · split
        · exact ⟨_, rfl⟩
        · split
          · exact ⟨_, rfl⟩
          · split
            · exact ⟨_, rfl⟩
            · simp [LSLASTNode.takeChild, hr]
  · rename_i hs
    unfold visitUnaryExpression
    split
    · exact ⟨_, rfl⟩
    · by_cases hpre : n.getOperation.isPreIncDec = true
      · obtain ⟨c, hc, _⟩ := hp.2.1 hs hpre
        cases hd : n.getOperation <;>
          simp [hd, Operation.isPreIncDec, LSLASTNode.takeChild, hc] at hpre ⊢
      · cases hd : n.getOperation <;> simp [hd, Operation.isPreIncDec] at hpre ⊢
  · rename_i hs
    obtain ⟨id, expr, hid, hexpr⟩ := hp.2.2.2.1 hs
    unfold visitDeclaration
    simp only [hid, hexpr, Option.bind_eq_bind, Option.some_bind, Option.pure_def]
    split <;> exact ⟨_, rfl⟩
  · exact ⟨_, rfl⟩
  · exact ⟨_, rfl⟩
  · rename_i hs
    obtain ⟨id, hid⟩ := hp.2.2.2.2.1 hs
    unfold visitFunctionExpression
    simp only [LSLASTNode.getIdentifierSymbol, hid, Option.map_some', Option.bind_eq_bind,
      Option.some_bind, Option.pure_def]
    split
    · exact ⟨_, rfl⟩
    · split
      · exact ⟨_, rfl⟩
      · split <;> exact ⟨_, rfl⟩
  · rename_i hs
    obtain ⟨expr, hexpr⟩ := hp.2.2.2.2.2 hs
    unfold visitReturnStatement
    simp only [hexpr, Option.bind_eq_bind, Option.some_bind, Option.pure_def]
    split
    · exact ⟨_, rfl⟩
    · split
      · rename_i parent hpar
        obtain ⟨hmem, hty⟩ := enclosingFunction_mem _ _ hpar
        have : ∃ id, parent.getChild 0 = some id := by
          rcases List.mem_cons.mp hmem with h | h
          · subst h; exact ⟨expr, hexpr⟩
          · exact ha parent h hty
        obtain ⟨id, hid⟩ := this
        simp [hid]
      · exact ⟨_, rfl⟩
  · rename_i hs
    obtain ⟨⟨id, sym, hid, hsym⟩, _⟩ := hp.1 hs
    unfold visitLValueExpression
    simp only [LSLASTNode.getIdentifierSymbol, hid, hsym, Option.map_some',
      Option.bind_eq_bind, Option.some_bind, Option.pure_def]
    split
    · exact ⟨_, rfl⟩
    · split
      · exact ⟨_, rfl⟩
      · split <;> exact ⟨_, rfl⟩
  · exact ⟨_, rfl⟩

theorem ChildOrigin.parsed {lib : Library} {store : SymbolStore} {n c : LSLASTNode}
    (hcl : lib.CloneRespects store) (hn : n.All (LSLASTNode.Parsed store))
    (hc : ChildOrigin lib n c) : c.All (LSLASTNode.Parsed store) := by
  cases hc with
  | original hm => exact hn.child hm
  | @cast c0 t hm =>
    refine LSLASTNode.All.setLoc _ ?_ ?_
    · simp [LSLASTNode.Parsed, LSLASTNode.setLoc, LSLTypecastExpression.new,
        LSLASTNode.getNodeSubType]
    · refine .mk _ _ ?_ ?_
      · simp [LSLASTNode.Parsed, LSLASTNode.getNodeSubType]
      · intro c hc
        simp only [List.mem_singleton] at hc
        subst hc
        exact hn.child hm
  | @decoupled l r op hl hr hop =>
    refine LSLASTNode.All.setLoc _ ?_ ?_
    · simp [LSLASTNode.Parsed, LSLASTNode.setLoc, LSLASTNode.setType,
        LSLBinaryExpression.new, LSLASTNode.getNodeSubType, LSLASTNode.getChild]
    · simp only [LSLBinaryExpression.new, LSLASTNode.setType, LSLASTNode.data_mk,
        LSLASTNode.children_mk]
      refine .mk _ _ ?_ ?_
      · simp [LSLASTNode.Parsed, LSLASTNode.getNodeSubType, LSLASTNode.getChild]
      · intro c hc
        simp only [List.mem_cons, List.mem_singleton, List.not_mem_nil, or_false] at hc
        rcases hc with hc | hc
        · subst hc; exact hcl.parsed _ (hn.child hl)
        · subst hc; exact hn.child hr

theorem ChildOrigin.height {lib : Library} {store : SymbolStore} {n c : LSLASTNode}
    (hcl : lib.CloneRespects store) (hc : ChildOrigin lib n c) :
    c.height < n.height ∨ Inert lib store n.height c := by
  obtain ⟨d, cs⟩ := n
  cases hc with
  | original hm => exact Or.inl (LSLASTNode.height_lt_of_mem hm d)
  | @cast c0 t hm =>
    refine Or.inr ⟨fun anc => ?_, ?_⟩
    · simp [visitSpecific, LSLASTNode.getNodeSubType, LSLASTNode.setLoc,
        LSLTypecastExpression.new]
    · intro g hg
      simp only [LSLASTNode.setLoc, LSLTypecastExpression.new, LSLASTNode.children_mk,
        List.mem_singleton] at hg
      subst hg
      exact LSLASTNode.height_lt_of_mem hm d
  | @decoupled l r op hl hr hop =>
    refine Or.inr ⟨fun anc => ?_, ?_⟩
    · by_cases herr : (lib.clone l).getIType = .LST_ERROR ∨ r.getIType = .LST_ERROR
      · cases op <;> simp [Operation.isCompound] at hop <;>
          simp [visitSpecific, LSLASTNode.getNodeSubType, LSLASTNode.setLoc,
            LSLASTNode.setType, LSLBinaryExpression.new, visitBinaryExpression,
            LSLASTNode.getChild, decouple_compound_operation, LSLASTNode.getOperation,
            herr]
      · cases op <;> simp [Operation.isCompound] at hop <;>
          simp [visitSpecific, LSLASTNode.getNodeSubType, LSLASTNode.setLoc,
            LSLASTNode.setType, LSLBinaryExpression.new, visitBinaryExpression,
            LSLASTNode.getChild, decouple_compound_operation, LSLASTNode.getOperation,
            herr]
    · intro g hg
      simp only [LSLASTNode.setLoc, LSLASTNode.setType, LSLBinaryExpression.new,
        LSLASTNode.children_mk, List.mem_cons, List.mem_singleton, List.not_mem_nil,
        or_false] at hg
      rcases hg with hg | hg
      · subst hg
        exact lt_of_le_of_lt (hcl.height_le l) (LSLASTNode.height_lt_of_mem hl d)
      · subst hg
        exact LSLASTNode.height_lt_of_mem hr d

theorem visitChildrenWith_ok
    (visitNode : List LSLASTNode → LSLASTNode → Except Fault LSLASTNode)
    (R : LSLASTNode → LSLASTNode → Prop) (ancestors : List LSLASTNode) (data : NodeData) :
    ∀ (todo done out : List LSLASTNode),
      (∀ c ∈ todo, ∀ anc r, visitNode anc c = .ok r → R c r) →
      visitChildrenWith visitNode ancestors data done todo = .ok out →
        ∃ rs, out = done ++ rs ∧ List.Forall₂ R todo rs := by
  intro todo
  induction todo with
  | nil =>
    intro done out _ h
    simp only [visitChildrenWith] at h
    cases h
    exact ⟨[], by simp, .nil⟩
  | cons c rest ih =>
    intro done out hR h
    unfold visitChildrenWith at h
    split at h
    · cases h
    · rename_i c1 hc1
      obtain ⟨rs, h1, h2⟩ := ih (done ++ [c1]) out
        (fun c' hc' => hR c' (List.mem_cons_of_mem _ hc')) h
      refine ⟨c1 :: rs, by simp [h1], .cons ?_ h2⟩
      exact hR c (List.mem_cons_self _ _) _ _ hc1

theorem visitChildrenWith_total
    (visitNode : List LSLASTNode → LSLASTNode → Except Fault LSLASTNode)
    (ancestors : List LSLASTNode) (data : NodeData) :
    ∀ (todo done : List LSLASTNode),
      (∀ c ∈ todo, ∀ pre post, ∃ r,
        visitNode (.mk data (pre ++ c :: post) :: ancestors) c = .ok r) →
      ∃ out, visitChildrenWith visitNode ancestors data done todo = .ok out := by
  intro todo
  induction todo with
  | nil => intro done _; exact ⟨done, rfl⟩
  | cons c rest ih =>
    intro done h
    obtain ⟨r, hr⟩ := h c (List.mem_cons_self _ _) done rest
    unfold visitChildrenWith
    rw [hr]
    exact ih (done ++ [r]) (fun c' hc' => h c' (List.mem_cons_of_mem _ hc'))

theorem forall₂_types_all (P : LSLASTNode → Prop) :
    ∀ (l rs : List LSLASTNode),
      List.Forall₂ (fun c c1 => c1.getType = c.getType ∧ P c1) l rs →
        rs.map LSLASTNode.getIType = l.map LSLASTNode.getIType ∧ ∀ c ∈ rs, P c := by
  intro l rs h
  induction h with
  | nil => exact ⟨rfl, fun c hc => by cases hc⟩
  | cons hab _ ih =>
    refine ⟨?_, ?_⟩
    · simp only [List.map_cons, ih.1]
      congr 1
      exact hab.1
    · intro c hc
      rcases List.mem_cons.mp hc with hc | hc
      · subst hc; exact hab.2
      · exact ih.2 c hc

theorem desugar_type (lib : Library) (store : SymbolStore) (hcl : lib.CloneRespects store)
    (fuel : Nat) (ancestors : List LSLASTNode) (n r : LSLASTNode)
    (hp : n.Parsed store) (h : desugar lib store fuel ancestors n = .ok r) :
    r.getType = n.getType := by
  cases fuel with
  | zero => simp [desugar] at h
  | succ fuel =>
    unfold desugar at h
    split at h
    · cases h
    · rename_i v hv
      rcases visitSpecific_spec lib store ancestors n v hv hp hcl with
        ⟨hrep, hdesc, hk⟩ | ⟨hrep, hty, _⟩
      · simp only [hrep, hdesc, if_true, Bool.false_eq_true, if_false] at h
        split at h
        · cases h
        · cases h
          exact hk.type
      · simp only [hrep, if_true] at h
        cases h
        exact hty

theorem desugar_desugared (lib : Library) (store : SymbolStore)
    (hcl : lib.CloneRespects store) :
    ∀ (fuel : Nat) (ancestors : List LSLASTNode) (n r : LSLASTNode),
      n.All (LSLASTNode.Parsed store) → desugar lib store fuel ancestors n = .ok r →
        r.All LSLASTNode.Desugared := by
  intro fuel
  induction fuel with
  | zero => intro anc n r _ h; simp [desugar] at h
  | succ fuel ih =>
    intro anc n r hp h
    unfold desugar at h
    split at h
    · cases h
    · rename_i v hv
      rcases visitSpecific_spec lib store anc n v hv hp.here hcl with
        ⟨hrep, hdesc, hk⟩ | ⟨hrep, _, hall⟩
      · simp only [hrep, hdesc, if_true, Bool.false_eq_true, if_false] at h
        split at h
        · cases h
        · rename_i out hout
          cases h
          obtain ⟨rs, h1, h2⟩ := visitChildrenWith_ok (desugar lib store fuel)
            (fun c c1 => c1.getType = c.getType ∧ c1.All LSLASTNode.Desugared)
            anc v.node.data v.node.children [] out
            (fun c hc anc1 r1 hr1 =>
              have hcp := (hk.children c hc).parsed hcl hp
              ⟨desugar_type lib store hcl fuel anc1 c r1 hcp.here hr1,
                ih anc1 c r1 hcp hr1⟩) hout
          simp only [List.nil_append] at h1
          subst h1
          obtain ⟨htypes, hall⟩ := forall₂_types_all _ _ _ h2
          refine .mk _ _ ?_ ?_
          · show DesugaredAt _ _
            simp only [LSLASTNode.data_mk, LSLASTNode.children_mk, htypes]
            exact hk.desugared
          · exact hall
      · simp only [hrep, if_true] at h
        cases h
        exact hall

theorem AncestorsParsed.cons {ancestors : List LSLASTNode} (ha : AncestorsParsed ancestors)
    (data : NodeData) (pre post : List LSLASTNode) (c : LSLASTNode) :
    AncestorsParsed (.mk data (pre ++ c :: post) :: ancestors) := by
  intro p hp hty
  rcases List.mem_cons.mp hp with h | h
  · subst h
    cases pre with
    | nil => exact ⟨c, rfl⟩
    | cons a pre => exact ⟨a, rfl⟩
  · exact ha p h hty

theorem desugar_total (lib : Library) (store : SymbolStore)
    (hcl : lib.CloneRespects store) :
    ∀ (fuel : Nat) (n : LSLASTNode) (ancestors : List LSLASTNode),
      AncestorsParsed ancestors → n.All (LSLASTNode.Parsed store) → 2 * n.height ≤ fuel →
        ∃ r, desugar lib store fuel ancestors n = .ok r := by
  intro fuel
  induction fuel using Nat.strong_induction_on with
  | _ fuel ih =>
    intro n anc ha hp hfuel
    have hpos := n.height_pos
    cases fuel with
    | zero => omega
    | succ f =>
      obtain ⟨v, hv⟩ := visitSpecific_total lib store anc n hp.here ha
      unfold desugar
      rw [hv]
      rcases visitSpecific_spec lib store anc n v hv hp.here hcl with
        ⟨hrep, hdesc, hk⟩ | ⟨hrep, _, _⟩
      · simp only [hrep, hdesc, if_true, Bool.false_eq_true, if_false]
        have hchildren : ∃ out, visitChildrenWith (desugar lib store f) anc v.node.data []
            v.node.children = .ok out := by
          apply visitChildrenWith_total
          intro c hc pre post
          have hcp := (hk.children c hc).parsed hcl hp
          have ha1 := ha.cons v.node.data pre post c
          rcases (hk.children c hc).height hcl with hlt | ⟨hid, hlow⟩
          · exact ih f (Nat.lt_succ_self f) c _ ha1 hcp (by omega)
          · cases f with
            | zero => omega
            | succ f1 =>
              unfold desugar
              rw [hid]
              simp only [Bool.false_eq_true, if_false, if_true]
              have : ∃ out, visitChildrenWith (desugar lib store f1)
                  (.mk v.node.data (pre ++ c :: post) :: anc) c.data [] c.children
                    = .ok out := by
                apply visitChildrenWith_total
                intro g hg pre1 post1
                exact ih f1 (by omega) g _ (ha1.cons c.data pre1 post1 g) (hcp.child hg)
                  (by have := hlow g hg; omega)
              obtain ⟨out, hout⟩ := this
              rw [hout]
              exact ⟨_, rfl⟩
        obtain ⟨out, hout⟩ := hchildren
        rw [hout]
        exact ⟨_, rfl⟩
      · simp only [hrep, if_true]
        exact ⟨_, rfl⟩

end Desugaring

namespace Linked

@[simp] theorem Heap.modify_node (h : Heap) (p : Nat) (f : Node → Node) (x : Nat) :
    (h.modify p f).node x = if x = p then f (h.node p) else h.node x := rfl

@[simp] theorem Heap.modify_free (h : Heap) (p : Nat) (f : Node → Node) :
    (h.modify p f).free = h.free := rfl

@[simp] theorem Heap.alloc_node (h : Heap) (n : Node) (x : Nat) :
    (h.alloc n).1.node x = if x = h.free then n else h.node x := rfl

@[simp] theorem Heap.alloc_free (h : Heap) (n : Node) : (h.alloc n).1.free = h.free + 1 := rfl

@[simp] theorem Heap.alloc_addr (h : Heap) (n : Node) : (h.alloc n).2 = h.free := rfl

/-- The heap after `replaceNode`, address by address. -/
theorem Heap.replaceNode_node (h : Heap) (o r : Nat) (hor : o ≠ r)
    (hpv : ∀ p, (h.node o).prev = some p → p ≠ o ∧ p ≠ r)
    (hnx : ∀ q, (h.node o).next = some q → q ≠ o ∧ q ≠ r)
    (hpn : ∀ p, (h.node o).prev = some p → (h.node o).next ≠ some p)
    (hpar : ∀ P, (h.node o).parent = some P →
      P ≠ o ∧ P ≠ r ∧ (h.node o).prev ≠ some P ∧ (h.node o).next ≠ some P) (x : Nat) :
    (h.replaceNode o r).node x =
      if x = o then { h.node o with parent := none, next := none, prev := none }
      else if x = r then
        { h.node r with prev := (h.node o).prev, next := (h.node o).next,
                        parent := (h.node o).parent }
      else if (h.node o).parent = some x then
        { h.node x with
          children := if (h.node x).children = some o then some r else (h.node x).children,
          childrenTail :=
            if (h.node x).childrenTail = some o then some r else (h.node x).childrenTail }
      else if (h.node o).prev = some x then { h.node x with next := some r }
      else if (h.node o).next = some x then { h.node x with prev := some r }
      else h.node x := by
  have key : ∀ (pv nx par : Option Nat), (h.node o).prev = pv → (h.node o).next = nx →
      (h.node o).parent = par →
      (∀ p, pv = some p → p ≠ o ∧ p ≠ r) → (∀ q, nx = some q → q ≠ o ∧ q ≠ r) →
      (∀ p, pv = some p → nx ≠ some p) →
      (∀ P, par = some P → P ≠ o ∧ P ≠ r ∧ pv ≠ some P ∧ nx ≠ some P) →
      (h.replaceNode o r).node x =
        if x = o then { h.node o with parent := none, next := none, prev := none }
        else if x = r then { h.node r with prev := pv, next := nx, parent := par }
        else if par = some x then
          { h.node x with
            children := if (h.node x).children = some o then some r
              else (h.node x).children,
            childrenTail := if (h.node x).childrenTail = some o then some r
              else (h.node x).childrenTail }
        else if pv = some x then { h.node x with next := some r }
        else if nx = some x then { h.node x with prev := some r }
        else h.node x := by
    intro pv nx par hp hn hq hpv hnx hpn hpar
    simp only [Heap.replaceNode, Heap.setPrev, Heap.setNext, hp, hn, hq]
    have hro : r ≠ o := hor.symm
    rcases pv with _ | p <;> rcases nx with _ | q <;> rcases par with _ | P
    · by_cases h1 : x = o <;> by_cases h2 : x = r <;> simp [*]
    · obtain ⟨a1, a2, _, _⟩ := hpar P rfl
      have a1s := a1.symm
      have a2s := a2.symm
      by_cases h1 : x = o <;> by_cases h2 : x = r <;> by_cases h3 : x = P <;> (try have h3s : ¬ P = x := fun h => h3 h.symm) <;> simp [*]
    · obtain ⟨b1, b2⟩ := hnx q rfl
      have b1s := b1.symm
      have b2s := b2.symm
      by_cases h1 : x = o <;> by_cases h2 : x = r <;> by_cases h4 : x = q <;> (try have h4s : ¬ q = x := fun h => h4 h.symm) <;> simp [*]
    · obtain ⟨a1, a2, _, a4⟩ := hpar P rfl
      obtain ⟨b1, b2⟩ := hnx q rfl
      have a1s := a1.symm
      have a2s := a2.symm
      have b1s := b1.symm
      have b2s := b2.symm
      have a4' : q ≠ P := fun h => a4 (by rw [h])
      have a4s := a4'.symm
      by_cases h1 : x = o <;> by_cases h2 : x = r <;> by_cases h3 : x = P <;> (try have h3s : ¬ P = x := fun h => h3 h.symm) <;>
        by_cases h4 : x = q <;> (try have h4s : ¬ q = x := fun h => h4 h.symm) <;> simp [*]
    · obtain ⟨c1, c2⟩ := hpv p rfl
      have c1s := c1.symm
      have c2s := c2.symm
      by_cases h1 : x = o <;> by_cases h2 : x = r <;> by_cases h5 : x = p <;> (try have h5s : ¬ p = x := fun h => h5 h.symm) <;> simp [*]
    · obtain ⟨a1, a2, a3, _⟩ := hpar P rfl
      obtain ⟨c1, c2⟩ := hpv p rfl
      have a1s := a1.symm
      have a2s := a2.symm
      have c1s := c1.symm
      have c2s := c2.symm
      have a3' : p ≠ P := fun h => a3 (by rw [h])
      have a3s := a3'.symm
      by_cases h1 : x = o <;> by_cases h2 : x = r <;> by_cases h3 : x = P <;> (try have h3s : ¬ P = x := fun h => h3 h.symm) <;>
        by_cases h5 : x = p <;> (try have h5s : ¬ p = x := fun h => h5 h.symm) <;> simp [*]
    · obtain ⟨b1, b2⟩ := hnx q rfl
      obtain ⟨c1, c2⟩ := hpv p rfl
      have b1s := b1.symm
      have b2s := b2.symm
      have c1s := c1.symm
      have c2s := c2.symm
      have d1 : q ≠ p := fun h => hpn p rfl (by rw [h])
      have d1s := d1.symm
      by_cases h1 : x = o <;> by_cases h2 : x = r <;> by_cases h4 : x = q <;> (try have h4s : ¬ q = x := fun h => h4 h.symm) <;>
        by_cases h5 : x = p <;> (try have h5s : ¬ p = x := fun h => h5 h.symm) <;> simp [*]
    · obtain ⟨a1, a2, a3, a4⟩ := hpar P rfl
      obtain ⟨b1, b2⟩ := hnx q rfl
      obtain ⟨c1, c2⟩ := hpv p rfl
      have a1s := a1.symm
      have a2s := a2.symm
      have b1s := b1.symm
      have b2s := b2.symm
      have c1s := c1.symm
      have c2s := c2.symm
      have a3' : p ≠ P := fun h => a3 (by rw [h])
      have a3s := a3'.symm
      have a4' : q ≠ P := fun h => a4 (by rw [h])
      have a4s := a4'.symm
      have d1 : q ≠ p := fun h => hpn p rfl (by rw [h])
      have d1s := d1.symm
      by_cases h1 : x = o <;> by_cases h2 : x = r <;> by_cases h3 : x = P <;> (try have h3s : ¬ P = x := fun h => h3 h.symm) <;>
        by_cases h4 : x = q <;> (try have h4s : ¬ q = x := fun h => h4 h.symm) <;> by_cases h5 : x = p <;> (try have h5s : ¬ p = x := fun h => h5 h.symm) <;> simp [*]
  exact key _ _ _ rfl rfl rfl hpv hnx hpn hpar

@[simp] theorem Heap.setPrev_free (h : Heap) (p : Nat) (v : Option Nat) :
    (h.setPrev p v).free = h.free := by
  cases v <;> rfl

@[simp] theorem Heap.setNext_free (h : Heap) (p : Nat) (v : Option Nat) :
    (h.setNext p v).free = h.free := by
  cases v <;> rfl

@[simp] theorem Heap.replaceNode_free (h : Heap) (o r : Nat) :
    (h.replaceNode o r).free = h.free := by
  unfold Heap.replaceNode
  cases (h.node o).parent <;> simp

theorem WellLinked.index_unique {h : Heap} {P : Nat} {l : List Nat}
    (hw : WellLinked h P l) {k j x : Nat} (hk : l[k]? = some x) (hj : l[j]? = some x) :
    k = j := by
  have hlt : k < l.length := by
    by_contra hge
    rw [List.getElem?_eq_none (by omega)] at hk
    cases hk
  exact List.getElem?_inj hlt hw.nodup (hk.trans hj.symm)

theorem mem_of_getElem? {l : List Nat} {k x : Nat} (hk : l[k]? = some x) : x ∈ l :=
  List.mem_iff_getElem?.mpr ⟨k, hk⟩

/-- Replacing the child in slot `i` keeps the child list well linked, with the
replacement in slot `i`. -/
theorem WellLinked.replaceNode {h : Heap} {P : Nat} {l : List Nat}
    (hw : WellLinked h P l) {i o r : Nat} (hi : l[i]? = some o) (hr : r ∉ l)
    (hrP : r ≠ P) (hPl : P ∉ l) :
    WellLinked (h.replaceNode o r) P (l.set i r)
      ∧ (h.replaceNode o r).node o
          = { h.node o with parent := none, next := none, prev := none }
      ∧ (h.replaceNode o r).node r
          = { h.node r with prev := (h.node o).prev, next := (h.node o).next,
                            parent := some P }
      ∧ (∀ x, x ≠ o → x ≠ r → x ≠ P → x ∉ l → (h.replaceNode o r).node x = h.node x) := by
  have hil : i < l.length := by
    by_contra hge
    rw [List.getElem?_eq_none (by omega)] at hi
    cases hi
  have hol : o ∈ l := mem_of_getElem? hi
  have hor : o ≠ r := fun e => hr (e ▸ hol)
  have hoP : o ≠ P := fun e => hPl (e ▸ hol)
  have hpar : (h.node o).parent = some P := hw.parent i o hi
  have hnext : (h.node o).next = l[i + 1]? := hw.next i o hi
  have hprev : (h.node o).prev = if i = 0 then none else l[i - 1]? := hw.prev i o hi
  have hprev_iff : ∀ x, (h.node o).prev = some x ↔ (i ≠ 0 ∧ l[i - 1]? = some x) := by
    intro x
    rw [hprev]
    by_cases h0 : i = 0 <;> simp [h0]
  have N := Heap.replaceNode_node h o r hor
    (by
      intro p hp
      obtain ⟨h0, hp⟩ := (hprev_iff p).mp hp
      refine ⟨fun e => ?_, fun e => hr (e ▸ mem_of_getElem? hp)⟩
      have := hw.index_unique hp (e ▸ hi)
      omega)
    (by
      intro q hq
      rw [hnext] at hq
      refine ⟨fun e => ?_, fun e => hr (e ▸ mem_of_getElem? hq)⟩
      have := hw.index_unique hq (e ▸ hi)
      omega)
    (by
      intro p hp hq
      obtain ⟨h0, hp⟩ := (hprev_iff p).mp hp
      rw [hnext] at hq
      have := hw.index_unique hp hq
      omega)
    (by
      intro Q hQ
      rw [hpar] at hQ
      cases hQ
      refine ⟨hoP.symm, hrP.symm, fun hp => ?_, fun hq => ?_⟩
      · exact hPl (mem_of_getElem? ((hprev_iff P).mp hp).2)
      · rw [hnext] at hq
        exact hPl (mem_of_getElem? hq))
  simp only [hpar] at N
  have hNr : (h.replaceNode o r).node r
      = { h.node r with prev := (h.node o).prev, next := (h.node o).next,
                        parent := some P } := by
    rw [N r]; simp [hor.symm]
  have hNP : (h.replaceNode o r).node P
      = { h.node P with
          children := if (h.node P).children = some o then some r
            else (h.node P).children,
          childrenTail := if (h.node P).childrenTail = some o then some r
            else (h.node P).childrenTail } := by
    rw [N P]; simp [hoP.symm, hrP.symm]
  -- a child in another slot
  have facts : ∀ k x, k ≠ i → l[k]? = some x →
      x ≠ o ∧ x ≠ r ∧ ¬ some P = some x
        ∧ ((h.node o).prev = some x ↔ k + 1 = i)
        ∧ ((h.node o).next = some x ↔ k = i + 1) := by
    intro k x hki hk
    have hxl : x ∈ l := mem_of_getElem? hk
    refine ⟨fun e => hki (hw.index_unique (e ▸ hk) hi), fun e => hr (e ▸ hxl),
      fun e => hPl (Option.some.inj e ▸ hxl), ?_, ?_⟩
    · rw [hprev_iff]
      constructor
      · rintro ⟨h0, hx⟩
        have := hw.index_unique hk hx
        omega
      · intro hx
        refine ⟨by omega, ?_⟩
        have : i - 1 = k := by omega
        rw [this]; exact hk
    · rw [hnext]
      constructor
      · intro hx; exact hw.index_unique hk hx
      · intro hx; exact hx ▸ hk
  have before : ∀ k x, k + 1 = i → l[k]? = some x →
      (h.replaceNode o r).node x = { h.node x with next := some r } := by
    intro k x hki hk
    obtain ⟨f1, f2, f3, f4, f5⟩ := facts k x (by omega) hk
    rw [N x]
    simp only [f1, f2, f3, if_false, f4.mpr hki, if_true]
  have after : ∀ k x, k = i + 1 → l[k]? = some x →
      (h.replaceNode o r).node x = { h.node x with prev := some r } := by
    intro k x hki hk
    obtain ⟨f1, f2, f3, f4, f5⟩ := facts k x (by omega) hk
    have : ¬ (h.node o).prev = some x := fun e => by have := f4.mp e; omega
    rw [N x]
    simp only [f1, f2, f3, if_false, this, f5.mpr hki, if_true]
  have apart : ∀ k x, k ≠ i → k + 1 ≠ i → k ≠ i + 1 → l[k]? = some x →
      (h.replaceNode o r).node x = h.node x := by
    intro k x h1 h2 h3 hk
    obtain ⟨f1, f2, f3, f4, f5⟩ := facts k x h1 hk
    rw [N x]
    simp only [f1, f2, f3, if_false, mt f4.mp h2, mt f5.mp h3]
  have slot : ∀ k x, (l.set i r)[k]? = some x →
      (k = i ∧ x = r) ∨ (k ≠ i ∧ l[k]? = some x) := by
    intro k x hk
    rw [List.getElem?_set] at hk
    by_cases hki : i = k
    · simp only [hki, if_true] at hk
      split at hk
      · cases hk; exact Or.inl ⟨hki.symm, rfl⟩
      · cases hk
    · simp only [hki, if_false] at hk
      exact Or.inr ⟨fun e => hki e.symm, hk⟩
  have hset_i : (l.set i r)[i]? = some r := by
    rw [List.getElem?_set]; simp [hil]
  refine ⟨⟨?_, ?_, ?_, ?_, ?_, hw.nodup.set hr⟩, ?_, hNr, ?_⟩
  · -- head
    rw [hNP, List.head?_eq_getElem?, List.getElem?_set]
    simp only [hw.head, List.head?_eq_getElem?]
    by_cases h0 : i = 0
    · subst h0; simp [hi, hil]
    · have : ¬ l[0]? = some o := fun e => h0 (hw.index_unique e hi).symm
      simp [h0, this]
  · -- tail
    rw [hNP, List.getLast?_eq_getElem?, List.getElem?_set, List.length_set]
    simp only [hw.tail, List.getLast?_eq_getElem?]
    by_cases h0 : i = l.length - 1
    · rw [← h0]; simp [hi, hil]
    · have : ¬ l[l.length - 1]? = some o := fun e => h0 (hw.index_unique e hi).symm
      simp [h0, this]
  · -- parent
    intro k x hk
    rcases slot k x hk with ⟨_, hx⟩ | ⟨hki, hk⟩
    · rw [hx, hNr]
    · have hp := hw.parent k x hk
      by_cases c1 : k + 1 = i
      · rw [before k x c1 hk]; exact hp
      · by_cases c2 : k = i + 1
        · rw [after k x c2 hk]; exact hp
        · rw [apart k x hki c1 c2 hk]; exact hp
  · -- next
    intro k x hk
    rcases slot k x hk with ⟨hki, hx⟩ | ⟨hki, hk⟩
    · rw [hx, hNr, hki, List.getElem?_set_ne (by omega)]
      exact hnext
    · have hn := hw.next k x hk
      by_cases c1 : k + 1 = i
      · rw [before k x c1 hk, c1]; exact hset_i.symm
      · rw [List.getElem?_set_ne (fun e => c1 e.symm)]
        by_cases c2 : k = i + 1
        · rw [after k x c2 hk]; exact hn
        · rw [apart k x hki c1 c2 hk]; exact hn
  · -- prev
    intro k x hk
    rcases slot k x hk with ⟨hki, hx⟩ | ⟨hki, hk⟩
    · rw [hx, hNr, hki]
      show (h.node o).prev = _
      rw [hprev]
      by_cases h0 : i = 0
      · simp [h0]
      · simp only [h0, if_false]
        rw [List.getElem?_set_ne (by omega)]
    · have hp := hw.prev k x hk
      by_cases c2 : k = i + 1
      · rw [after k x c2 hk]
        have hk0 : ¬ k = 0 := by omega
        have : k - 1 = i := by omega
        simp only [hk0, if_false, this]
        exact hset_i.symm
      · have hset : ∀ (hk0 : ¬ k = 0), (l.set i r)[k - 1]? = l[k - 1]? := fun hk0 =>
          List.getElem?_set_ne (by omega)
        have goal : (h.node x).prev = if k = 0 then none else (l.set i r)[k - 1]? := by
          rw [hp]
          by_cases hk0 : k = 0
          · simp [hk0]
          · simp only [hk0, if_false]; exact (hset hk0).symm
        by_cases c1 : k + 1 = i
        · rw [before k x c1 hk]; exact goal
        · rw [apart k x hki c1 c2 hk]; exact goal
  · rw [N o]; simp
  · intro x hxo hxr hxP hxl
    rw [N x]
    have hxP' : ¬ some P = some x := fun e => hxP (Option.some.inj e).symm
    have e1 : ¬ (h.node o).prev = some x := fun e =>
      hxl (mem_of_getElem? ((hprev_iff x).mp e).2)
    have e2 : ¬ (h.node o).next = some x := fun e =>
      hxl (mem_of_getElem? (hnext ▸ e))
    simp [hxo, hxr, hxP', e1, e2]

/-- Well-linkedness only depends on the links of the parent and of the children. -/
theorem WellLinked.congr {h h1 : Heap} {P : Nat} {l : List Nat} (hw : WellLinked h P l)
    (hP : (h1.node P).children = (h.node P).children
      ∧ (h1.node P).childrenTail = (h.node P).childrenTail)
    (hl : ∀ x ∈ l, (h1.node x).parent = (h.node x).parent
      ∧ (h1.node x).next = (h.node x).next ∧ (h1.node x).prev = (h.node x).prev) :
    WellLinked h1 P l where
  head := hP.1.trans hw.head
  tail := hP.2.trans hw.tail
  parent := fun k x hk => (hl x (mem_of_getElem? hk)).1.trans (hw.parent k x hk)
  next := fun k x hk => (hl x (mem_of_getElem? hk)).2.1.trans (hw.next k x hk)
  prev := fun k x hk => (hl x (mem_of_getElem? hk)).2.2.trans (hw.prev k x hk)
  nodup := hw.nodup

theorem WellLinked.walk {h : Heap} {P : Nat} {l : List Nat} (hw : WellLinked h P l) :
    ∀ (k j : Nat), h.walk l[j]? k = l[j + k]? := by
  intro k
  induction k with
  | zero =>
    intro j
    show h.walk l[j]? 0 = l[j]?
    cases l[j]? <;> rfl
  | succ k ih =>
    intro j
    cases hj : l[j]? with
    | none =>
      have : l.length ≤ j := by
        by_contra hlt
        rw [List.getElem?_eq_getElem (by omega)] at hj
        cases hj
      rw [List.getElem?_eq_none (by omega)]
      rfl
    | some c =>
      show h.walk (h.node c).next k = _
      rw [hw.next j c hj, ih (j + 1)]
      congr 1
      omega

theorem WellLinked.getChild {h : Heap} {P : Nat} {l : List Nat} (hw : WellLinked h P l)
    (k : Nat) : h.getChild P k = l[k]? := by
  unfold Heap.getChild
  rw [hw.head, List.head?_eq_getElem?, hw.walk k 0]
  simp

end Linked

/-! ## Desugaring of single nodes -/

namespace DeSugaringVisitor

/-- Claim C1. A binary expression with a compound assignment operator whose operands
are not of type ERROR, other than `int *= float`, is turned by the visit into the
assignment `=` whose first child is the original lvalue and whose second child is a new
binary expression over a clone of the lvalue, the decoupled operator and the original
right operand, carrying the type and the location of the original node. -/
theorem visitBinaryExpression_compound (lib : Library) (d : NodeData)
    (left right : LSLASTNode) (rest : List LSLASTNode)
    (hop : d.operation.isCompound = true)
    (hl : left.getIType ≠ .LST_ERROR) (hr : right.getIType ≠ .LST_ERROR)
    (hkeep : ¬ (d.operation = .MUL_ASSIGN ∧ left.getIType = .LST_INTEGER
      ∧ right.getIType = .LST_FLOATINGPOINT)) :
    visitBinaryExpression lib (.mk d (left :: right :: rest)) =
      some { node := .mk { d with operation := .chr '=' }
               (left :: .mk { nodeType := .NODE_EXPRESSION, subType := .NODE_BINARY_EXPRESSION,
                              operation := decouple_compound_operation d.operation,
                              type := d.type, loc := d.loc } [lib.clone left, right] :: rest),
             replaced := false, descend := true } := by
  cases hd : d.operation <;> simp [hd, Operation.isCompound] at hop hkeep <;>
    simp [visitBinaryExpression, LSLASTNode.getOperation, LSLASTNode.getChild,
      LSLASTNode.children, LSLASTNode.data, decouple_compound_operation, hd, hl, hr,
      LSLASTNode.takeChild, LSLASTNode.replaceChild, LSLASTNode.setOperation,
      LSLBinaryExpression.new, LSLASTNode.setType, LSLASTNode.setLoc, LSLASTNode.getType,
      LSLASTNode.getLoc, hkeep]
  intro h1 h2
  exact absurd h2 (hkeep h1)

/-- The compound assignment `a += 1` becomes `a = a + 1`. -/
theorem visitBinaryExpression_compound_witness :
    Operation.isCompound .ADD_ASSIGN = true
      ∧ visitBinaryExpression Library.sample Sample.addAssign =
          some { node := Sample.binary .LST_INTEGER (.chr '=')
                   (Sample.lvalue .LST_INTEGER "a" (some 0))
                   (Sample.binary .LST_INTEGER (.chr '+')
                     (Sample.lvalue .LST_INTEGER "a" (some 0))
                     (Sample.literal (.integer 1))) } :=
  ⟨rfl, visitBinaryExpression_compound Library.sample
    { nodeType := .NODE_EXPRESSION, subType := .NODE_BINARY_EXPRESSION,
      type := .LST_INTEGER, operation := .ADD_ASSIGN }
    (Sample.lvalue .LST_INTEGER "a" (some 0)) (Sample.literal (.integer 1)) [] rfl
    (by decide) (by decide) (by decide)⟩

/-- Counterexample to claim C2 as stated: `float *= int` is not left as it is, the visit
turns it into `f = f * i`. -/
theorem float_mul_assign_int_desugared :
    Sample.floatMulInt.getOperation = .MUL_ASSIGN
      ∧ (Sample.floatMulInt.children.map LSLASTNode.getIType)
          = [.LST_FLOATINGPOINT, .LST_INTEGER]
      ∧ visitBinaryExpression Library.sample Sample.floatMulInt =
          some { node := Sample.binary .LST_FLOATINGPOINT (.chr '=')
                   (Sample.lvalue .LST_FLOATINGPOINT "f" (some 0))
                   (Sample.binary .LST_FLOATINGPOINT (.chr '*')
                     (Sample.lvalue .LST_FLOATINGPOINT "f" (some 0))
                     (Sample.lvalue .LST_INTEGER "i" (some 1))) } :=
  ⟨rfl, rfl, rfl⟩

/-- Claim C2, amended. A compound multiply-assign whose left operand is an integer and
whose right operand is a float (`int *= float`) is left as it is: the operator stays
compound and the children are unchanged. -/
theorem visitBinaryExpression_int_mul_float (lib : Library) (d : NodeData)
    (left right : LSLASTNode) (rest : List LSLASTNode) (hop : d.operation = .MUL_ASSIGN)
    (hl : left.getIType = .LST_INTEGER) (hr : right.getIType = .LST_FLOATINGPOINT) :
    visitBinaryExpression lib (.mk d (left :: right :: rest)) =
      some { node := .mk d (left :: right :: rest), replaced := false, descend := true } := by
  simp [visitBinaryExpression, LSLASTNode.getOperation, LSLASTNode.getChild,
    LSLASTNode.children, LSLASTNode.data, decouple_compound_operation, hop, hl, hr]

/-- The compound assignment `i *= f` stays as it is. -/
theorem visitBinaryExpression_int_mul_float_witness :
    visitBinaryExpression Library.sample Sample.intMulFloat
      = some { node := Sample.intMulFloat } :=
  visitBinaryExpression_int_mul_float Library.sample
    { nodeType := .NODE_EXPRESSION, subType := .NODE_BINARY_EXPRESSION,
      type := .LST_INTEGER, operation := .MUL_ASSIGN }
    (Sample.lvalue .LST_INTEGER "i" (some 1)) (Sample.lvalue .LST_FLOATINGPOINT "f" (some 0))
    [] rfl rfl rfl

/-- Claim C4. A unary expression of non-ERROR type with a pre-increment (pre-decrement)
operator is replaced by the assignment `lhs = lhs + one` (`lhs = lhs - one`): the target
is the original lvalue, the left operand of the new binary expression a clone of it,
`one` a constant expression holding the one value of the lvalue's type, and both new
nodes carry the type of the original node. A unary node with any other operator, the
post-increment and post-decrement among them, is left unchanged. -/
theorem visitUnaryExpression_pre_operators (lib : Library) (d : NodeData)
    (lvalue : LSLASTNode) (rest : List LSLASTNode) :
    (d.type ≠ .LST_ERROR → d.operation = .INC_PRE_OP →
      visitUnaryExpression lib (.mk d (lvalue :: rest)) =
        some { node := .mk { nodeType := .NODE_EXPRESSION, subType := .NODE_BINARY_EXPRESSION,
                             operation := .chr '=', type := d.type }
                 [lvalue, .mk { nodeType := .NODE_EXPRESSION, subType := .NODE_BINARY_EXPRESSION,
                                operation := .chr '+', type := d.type }
                    [lib.clone lvalue, LSLConstantExpression.new (lib.getOneValue lvalue.getType)]],
               replaced := true, descend := true }) ∧
    (d.type ≠ .LST_ERROR → d.operation = .DEC_PRE_OP →
      visitUnaryExpression lib (.mk d (lvalue :: rest)) =
        some { node := .mk { nodeType := .NODE_EXPRESSION, subType := .NODE_BINARY_EXPRESSION,
                             operation := .chr '=', type := d.type }
                 [lvalue, .mk { nodeType := .NODE_EXPRESSION, subType := .NODE_BINARY_EXPRESSION,
                                operation := .chr '-', type := d.type }
                    [lib.clone lvalue, LSLConstantExpression.new (lib.getOneValue lvalue.getType)]],
               replaced := true, descend := true }) ∧
    (d.operation ≠ .INC_PRE_OP → d.operation ≠ .DEC_PRE_OP →
      visitUnaryExpression lib (.mk d (lvalue :: rest)) =
        some { node := .mk d (lvalue :: rest), replaced := false, descend := true }) := by
  refine ⟨?_, ?_, ?_⟩
  · intro ht hop
    simp [visitUnaryExpression, LSLASTNode.getIType, LSLASTNode.data, ht, hop,
      LSLASTNode.getOperation, LSLASTNode.takeChild, LSLASTNode.getChild, LSLASTNode.children,
      LSLBinaryExpression.new, LSLASTNode.setType, LSLASTNode.getType]
  · intro ht hop
    simp [visitUnaryExpression, LSLASTNode.getIType, LSLASTNode.data, ht, hop,
      LSLASTNode.getOperation, LSLASTNode.takeChild, LSLASTNode.getChild, LSLASTNode.children,
      LSLBinaryExpression.new, LSLASTNode.setType, LSLASTNode.getType]
  · intro h1 h2
    unfold visitUnaryExpression
    split
    · rfl
    · cases hd : d.operation <;> simp_all [LSLASTNode.getOperation, LSLASTNode.data]

/-- The pre-increment `++a` of an integer becomes `a = a + 1`, and the post-increment
`a++` stays. -/
theorem visitUnaryExpression_pre_operators_witness :
    visitUnaryExpression Library.sample Sample.preIncrement =
        some { node := Sample.binary .LST_INTEGER (.chr '=')
                 (Sample.lvalue .LST_INTEGER "a" (some 0))
                 (Sample.binary .LST_INTEGER (.chr '+')
                   (Sample.lvalue .LST_INTEGER "a" (some 0))
                   (LSLConstantExpression.new (.integer 1))),
               replaced := true }
      ∧ visitUnaryExpression Library.sample
          (Sample.unary .LST_INTEGER .INC_POST_OP (Sample.lvalue .LST_INTEGER "a" (some 0)))
        = some { node := Sample.unary .LST_INTEGER .INC_POST_OP
                   (Sample.lvalue .LST_INTEGER "a" (some 0)) } :=
  ⟨(visitUnaryExpression_pre_operators Library.sample
      { nodeType := .NODE_EXPRESSION, subType := .NODE_UNARY_EXPRESSION,
        type := .LST_INTEGER, operation := .INC_PRE_OP }
      (Sample.lvalue .LST_INTEGER "a" (some 0)) []).1 (by decide) rfl,
   (visitUnaryExpression_pre_operators Library.sample
      { nodeType := .NODE_EXPRESSION, subType := .NODE_UNARY_EXPRESSION,
        type := .LST_INTEGER, operation := .INC_POST_OP }
      (Sample.lvalue .LST_INTEGER "a" (some 0)) []).2.2 (by decide) (by decide)⟩

theorem typecast_ne (d : NodeData) (expr : LSLASTNode) : LSLASTNode.mk d [expr] ≠ expr := by
  intro h
  have := congrArg sizeOf h
  simp at this
  omega

/-- Claim C5. `maybeInjectCast(expr, to)` puts a typecast to `to` around `expr` if and
only if the type of `expr` differs from `to` and can be coerced to `to`; otherwise the
tree is unchanged. Hence a declaration whose initializer has the declared type, such as
`integer x = 1 + 2`, gets no cast, and `key k = s` with `s` a string gets a typecast to
key around `s` (string coerces to key). -/
theorem maybeInjectCast_iff (lib : Library) :
    (∀ (expr : LSLASTNode) (to_type : LSLIType),
      (maybeInjectCast lib expr to_type =
          .mk { nodeType := .NODE_EXPRESSION, subType := .NODE_TYPECAST_EXPRESSION,
                type := to_type, loc := expr.getLoc } [expr]
        ↔ (expr.getType ≠ to_type ∧ lib.canCoerce expr.getType to_type = true)) ∧
      (maybeInjectCast lib expr to_type = expr
        ↔ ¬ (expr.getType ≠ to_type ∧ lib.canCoerce expr.getType to_type = true))) ∧
    (∀ (d : NodeData) (id expr : LSLASTNode) (rest : List LSLASTNode),
      expr.getType = id.getType →
      visitDeclaration lib (.mk d (id :: expr :: rest))
        = some { node := .mk d (id :: expr :: rest) }) ∧
    (∀ (d : NodeData) (id expr : LSLASTNode) (rest : List LSLASTNode),
      expr.getNodeType ≠ .NODE_NULL → id.getType = .LST_KEY → expr.getType = .LST_STRING →
      lib.canCoerce .LST_STRING .LST_KEY = true →
      visitDeclaration lib (.mk d (id :: expr :: rest))
        = some { node := .mk d (id :: .mk { nodeType := .NODE_EXPRESSION,
                                             subType := .NODE_TYPECAST_EXPRESSION,
                                             type := .LST_KEY, loc := expr.getLoc } [expr]
                                :: rest) }) := by
  refine ⟨?_, ?_, ?_⟩
  · intro expr to_type
    by_cases h1 : to_type = expr.getType
    · simp [maybeInjectCast, h1]
      exact (typecast_ne _ _).symm
    · have h1' : expr.getType ≠ to_type := fun h => h1 h.symm
      cases h2 : lib.canCoerce expr.getType to_type
      · simp [maybeInjectCast, h1, h2]
        exact (typecast_ne _ _).symm
      · simp [maybeInjectCast, h1, h2, h1', LSLTypecastExpression.new, LSLASTNode.setLoc,
          LSLASTNode.data, LSLASTNode.children]
        exact typecast_ne _ _
  · intro d id expr rest hty
    by_cases hn : expr.getNodeType = .NODE_NULL
    · simp [visitDeclaration, LSLASTNode.getChild, LSLASTNode.children, hn]
    · simp [visitDeclaration, LSLASTNode.getChild, LSLASTNode.children, hn,
        maybeInjectCast, hty, LSLASTNode.replaceChild, LSLASTNode.data]
  · intro d id expr rest hn hid hexpr hco
    simp [visitDeclaration, LSLASTNode.getChild, LSLASTNode.children, hn,
      maybeInjectCast, hid, hexpr, hco, LSLASTNode.replaceChild, LSLASTNode.data,
      LSLTypecastExpression.new, LSLASTNode.setLoc]

/-- The declaration `integer x = 1 + 2` gets no cast; in `key k = s` a typecast to key is
put around the string `s`. -/
theorem maybeInjectCast_iff_witness :
    visitDeclaration Library.sample Sample.declareSum = some { node := Sample.declareSum }
      ∧ visitDeclaration Library.sample Sample.declareKey
        = some { node := Sample.declaration .LST_KEY "k" (some 1)
                   (LSLTypecastExpression.new .LST_KEY
                     (Sample.lvalue .LST_STRING "s" (some 0))) } :=
  ⟨(maybeInjectCast_iff Library.sample).2.1 _ _ _ _ rfl,
   (maybeInjectCast_iff Library.sample).2.2 _ _ _ _ (by decide) rfl rfl rfl⟩

end DeSugaringVisitor

/-! ## The desugaring pass over a tree -/

/-- Counterexample to claim C3 as stated: the pass leaves the compound assignment
`a += (b + "x")`, whose right operand has type ERROR, and the pre-increment `++s` of
type ERROR as they are. -/
theorem desugar_keeps_error_typed_sugar :
    desugar Library.sample Sample.locals 10 [] Sample.errorAddAssign
        = .ok Sample.errorAddAssign
      ∧ Sample.errorAddAssign.getNodeSubType = .NODE_BINARY_EXPRESSION
      ∧ Sample.errorAddAssign.getOperation = .ADD_ASSIGN
      ∧ desugar Library.sample Sample.locals 10 [] Sample.errorPreIncrement
        = .ok Sample.errorPreIncrement
      ∧ Sample.errorPreIncrement.getNodeSubType = .NODE_UNARY_EXPRESSION
      ∧ Sample.errorPreIncrement.getOperation = .INC_PRE_OP :=
  ⟨rfl, rfl, rfl, rfl, rfl, rfl⟩

/-- Claim C3, amended. The desugaring pass over a tree as the earlier passes leave it
ends, and in the tree it leaves every binary expression that still has a compound
assignment operator is `int *= float` or has an operand of type ERROR, and every unary
expression that still has a pre-increment or pre-decrement operator has type ERROR. -/
theorem desugar_removes_sugar (lib : Library) (store : SymbolStore)
    (hcl : lib.CloneRespects store) (tree : LSLASTNode)
    (hp : tree.All (LSLASTNode.Parsed store)) (fuel : Nat)
    (hfuel : 2 * tree.height ≤ fuel) :
    ∃ r, desugar lib store fuel [] tree = .ok r ∧ r.All LSLASTNode.Desugared := by
  obtain ⟨r, hr⟩ := desugar_total lib store hcl fuel tree []
    (fun _ h => by cases h) hp hfuel
  exact ⟨r, hr, desugar_desugared lib store hcl _ _ _ _ hp hr⟩

theorem Library.sample_cloneRespects (store : SymbolStore) :
    Library.sample.CloneRespects store :=
  ⟨fun _ => le_refl _, fun _ h => h, fun _ h => h⟩

theorem Sample.identifier_parsed (store : SymbolStore) (t : LSLIType) (name : String)
    (symbol : Option Nat) :
    (Sample.identifier t name symbol).All (LSLASTNode.Parsed store) :=
  .mk _ _ (by simp [LSLASTNode.Parsed, LSLASTNode.getNodeSubType]) (by simp)

theorem Sample.lvalue_parsed (t : LSLIType) (name : String) (symbol : Nat) :
    (Sample.lvalue t name (some symbol)).All (LSLASTNode.Parsed Sample.locals) := by
  refine .mk _ _ ?_ ?_
  · refine ⟨fun _ => ⟨⟨_, symbol, rfl, rfl⟩, ?_⟩, ?_, ?_, ?_, ?_, ?_⟩
    · intro v hv
      simp [DeSugaringVisitor.visitLValueExpression, LSLASTNode.getIdentifierSymbol,
        LSLASTNode.getChild, LSLASTNode.getSymbol, Sample.identifier, Sample.locals] at hv
      subst hv
      rfl
    all_goals simp [LSLASTNode.getNodeSubType]
  · intro c hc
    simp only [List.mem_singleton] at hc
    subst hc
    exact Sample.identifier_parsed _ _ _ _

theorem Sample.literal_parsed (store : SymbolStore) (cv : LSLConstant) :
    (Sample.literal cv).All (LSLASTNode.Parsed store) := by
  refine .mk _ _ (by simp [LSLASTNode.Parsed, LSLASTNode.getNodeSubType]) ?_
  intro c hc
  simp only [List.mem_singleton] at hc
  subst hc
  refine .mk _ _ ?_ (by simp)
  cases cv <;> simp [LSLASTNode.Parsed, LSLASTNode.getNodeSubType,
    LSLConstant.getNodeSubType]

theorem Sample.declareFromAddAssign_parsed :
    Sample.declareFromAddAssign.All (LSLASTNode.Parsed Sample.locals) := by
  refine .mk _ _ (by simp [LSLASTNode.Parsed, LSLASTNode.getNodeSubType,
    LSLASTNode.getChild]) ?_
  intro c hc
  simp only [List.mem_cons, List.mem_singleton, List.not_mem_nil, or_false] at hc
  rcases hc with hc | hc
  · subst hc; exact Sample.identifier_parsed _ _ _ _
  · subst hc
    refine .mk _ _ (by simp [LSLASTNode.Parsed, LSLASTNode.getNodeSubType,
      LSLASTNode.getChild]) ?_
    intro c hc
    simp only [List.mem_cons, List.mem_singleton, List.not_mem_nil, or_false] at hc
    rcases hc with hc | hc
    · subst hc; exact Sample.lvalue_parsed _ _ _
    · subst hc; exact Sample.literal_parsed _ _

/-- The pass over `integer b = a += 1;` ends with a tree without sugar. -/
theorem desugar_removes_sugar_witness :
    Library.sample.CloneRespects Sample.locals
      ∧ Sample.declareFromAddAssign.All (LSLASTNode.Parsed Sample.locals)
      ∧ 2 * Sample.declareFromAddAssign.height ≤ 10
      ∧ ∃ r, desugar Library.sample Sample.locals 10 [] Sample.declareFromAddAssign = .ok r
          ∧ r.All LSLASTNode.Desugared :=
  ⟨Library.sample_cloneRespects _, Sample.declareFromAddAssign_parsed, by decide,
    desugar_removes_sugar Library.sample Sample.locals (Library.sample_cloneRespects _)
      Sample.declareFromAddAssign Sample.declareFromAddAssign_parsed 10 (by decide)⟩

/-- The pass turns `integer b = a += 1;` into `integer b = a = a + 1;`. -/
theorem desugar_declareFromAddAssign :
    desugar Library.sample Sample.locals 10 [] Sample.declareFromAddAssign
      = .ok (Sample.declaration .LST_INTEGER "b" (some 1)
          (Sample.binary .LST_INTEGER (.chr '=') (Sample.lvalue .LST_INTEGER "a" (some 0))
            (Sample.binary .LST_INTEGER (.chr '+') (Sample.lvalue .LST_INTEGER "a" (some 0))
              (Sample.literal (.integer 1))))) :=
  rfl

/-! ## Cast injection on the linked tree -/

namespace Linked

/-- Claim C6. When `maybeInjectCast` puts a cast around the expression in slot `i` of
its parent: the parent has as many children as before, slot `i` holds the new typecast
node, whose parent is the parent and whose previous and next siblings are the ones the
expression had, every other slot holds the node it held, and the expression is the
child of the typecast with its parent link at the typecast. -/
theorem maybeInjectCast_relinks (lib : Library) (h : Heap) (P : Nat) (l : List Nat)
    (i expr : Nat) (to_type : LSLIType) (hw : WellLinked h P l) (hi : l[i]? = some expr)
    (hPl : P ∉ l) (hP : P < h.free) (hl : ∀ x ∈ l, x < h.free)
    (hne : to_type ≠ (h.node expr).data.type)
    (hco : lib.canCoerce (h.node expr).data.type to_type = true) :
    WellLinked (maybeInjectCast lib h expr to_type) P (l.set i (h.free + 1))
      ∧ (l.set i (h.free + 1)).length = l.length
      ∧ (l.set i (h.free + 1))[i]? = some (h.free + 1)
      ∧ (∀ k, k ≠ i → (l.set i (h.free + 1))[k]? = l[k]?)
      ∧ (∀ k, (maybeInjectCast lib h expr to_type).getChild P k
            = (l.set i (h.free + 1))[k]?)
      ∧ ((maybeInjectCast lib h expr to_type).node (h.free + 1)).data
          = { nodeType := .NODE_EXPRESSION, subType := .NODE_TYPECAST_EXPRESSION,
              type := to_type, loc := (h.node expr).data.loc }
      ∧ ((maybeInjectCast lib h expr to_type).node (h.free + 1)).parent = some P
      ∧ ((maybeInjectCast lib h expr to_type).node (h.free + 1)).prev
          = (h.node expr).prev
      ∧ ((maybeInjectCast lib h expr to_type).node (h.free + 1)).next
          = (h.node expr).next
      ∧ (maybeInjectCast lib h expr to_type).getChild (h.free + 1) 0 = some expr
      ∧ ((maybeInjectCast lib h expr to_type).node (h.free + 1)).childrenTail = some expr
      ∧ ((maybeInjectCast lib h expr to_type).node expr).parent = some (h.free + 1)
      ∧ ((maybeInjectCast lib h expr to_type).node expr).next = none
      ∧ ((maybeInjectCast lib h expr to_type).node expr).prev = none := by
  have hil : i < l.length := by
    by_contra hge
    rw [List.getElem?_eq_none (by omega)] at hi
    cases hi
  have hel : expr ∈ l := mem_of_getElem? hi
  have he : expr < h.free := hl expr hel
  have heP : expr ≠ P := fun e => hPl (e ▸ hel)
  have hal : h.free ∉ l := fun hm => by have := hl _ hm; omega
  have htl : h.free + 1 ∉ l := fun hm => by have := hl _ hm; omega
  -- the placeholder is allocated
  have hw1 : WellLinked (h.alloc { data := { nodeType := .NODE_NULL } }).1 P l :=
    hw.congr (by simp [Nat.ne_of_lt hP])
      (fun x hx => by simp [Nat.ne_of_lt (hl x hx)])
  -- and takes the place of the expression
  obtain ⟨hw2, h2e, h2a, h2o⟩ := hw1.replaceNode hi hal (by omega) hPl
  simp only [Heap.alloc_node, Nat.ne_of_lt he, if_false, if_true] at h2e h2a
  have hset_a : (l.set i h.free)[i]? = some h.free := by
    rw [List.getElem?_set]; simp [hil]
  have hmem_set : ∀ (a x : Nat), x ∈ l.set i a → x ∈ l ∨ x = a :=
    fun a x hx => List.mem_or_eq_of_mem_set hx
  have he2 : expr ∉ l.set i h.free := by
    intro hm
    obtain ⟨k, hk⟩ := List.mem_iff_getElem?.mp hm
    rw [List.getElem?_set] at hk
    by_cases hki : i = k
    · simp only [hki, if_true] at hk
      split at hk
      · cases hk; omega
      · cases hk
    · simp only [hki, if_false] at hk
      exact hki (hw.index_unique hi hk)
  have hP2 : P ∉ l.set i h.free := fun hm => by
    rcases hmem_set _ _ hm with hm | hm
    · exact hPl hm
    · omega
  have ht2 : h.free + 1 ∉ l.set i h.free := fun hm => by
    rcases hmem_set _ _ hm with hm | hm
    · exact htl hm
    · omega
  have hne' : ¬ to_type = (h.node expr).data.type := hne
  obtain ⟨H2, hH2⟩ : ∃ H2, H2 = (h.alloc { data := { nodeType := .NODE_NULL } }).1.replaceNode
      expr h.free := ⟨_, rfl⟩
  rw [← hH2] at hw2 h2e h2a h2o
  have hfree2 : H2.free = h.free + 1 := by rw [hH2]; simp
  have hea : expr ≠ h.free := by omega
  have het : expr ≠ h.free + 1 := by omega
  have hPt : P ≠ h.free + 1 := by omega
  have hat : h.free ≠ h.free + 1 := by omega
  -- the typecast node is built over the expression
  obtain ⟨H3, hH3⟩ : ∃ H3, H3 = (H2.alloc
      { data := { nodeType := .NODE_EXPRESSION, subType := .NODE_TYPECAST_EXPRESSION,
                  type := to_type },
        children := some expr, childrenTail := some expr }).1.modify expr
      (fun n => { n with parent := some (h.free + 1) }) := ⟨_, rfl⟩
  have h3 : ∀ x, x ≠ expr → x ≠ h.free + 1 → H3.node x = H2.node x := by
    intro x h1 h2
    rw [hH3]; simp [h1, h2, hfree2]
  have h3e : H3.node expr = { H2.node expr with parent := some (h.free + 1) } := by
    rw [hH3]; simp [het, hfree2]
  have h3t : H3.node (h.free + 1) =
      { data := { nodeType := .NODE_EXPRESSION, subType := .NODE_TYPECAST_EXPRESSION,
                  type := to_type },
        children := some expr, childrenTail := some expr } := by
    rw [hH3]; simp [het.symm, hfree2]
  have hw3 : WellLinked H3 P (l.set i h.free) :=
    hw2.congr (by rw [h3 P heP.symm hPt]; exact ⟨rfl, rfl⟩)
      (fun x hx => by
        rw [h3 x (fun e => he2 (e ▸ hx)) (fun e => ht2 (e ▸ hx))]
        exact ⟨rfl, rfl, rfl⟩)
  -- and takes the place of the placeholder
  obtain ⟨H4, hH4⟩ : ∃ H4, H4 = H3.replaceNode h.free (h.free + 1) := ⟨_, rfl⟩
  obtain ⟨hw4, _, h4t, h4o⟩ := hw3.replaceNode hset_a ht2 hPt.symm hP2
  rw [← hH4, List.set_set] at hw4
  rw [← hH4] at h4t h4o
  rw [h3t, h3 h.free hea.symm hat, h2a] at h4t
  have h4e : H4.node expr = { H2.node expr with parent := some (h.free + 1) } := by
    rw [h4o expr hea het heP he2, h3e]
  have hdef : maybeInjectCast lib h expr to_type = H4.modify (h.free + 1)
      (fun n => { n with data := { n.data with loc := (H4.node expr).data.loc } }) := by
    rw [hH4, hH3]
    simp only [maybeInjectCast, hne', hco, Heap.newNullNode, Heap.newTypecastExpression,
      Heap.alloc_addr, if_false, Bool.not_true, Bool.false_eq_true, ← hH2, hfree2]
  have hw5 : WellLinked (maybeInjectCast lib h expr to_type) P (l.set i (h.free + 1)) := by
    rw [hdef]
    refine hw4.congr (by simp [hPt]) (fun x _ => ?_)
    by_cases hx : x = h.free + 1 <;> simp [hx]
  have h5t : (maybeInjectCast lib h expr to_type).node (h.free + 1) =
      { data := { nodeType := .NODE_EXPRESSION, subType := .NODE_TYPECAST_EXPRESSION,
                  type := to_type, loc := (h.node expr).data.loc },
        parent := some P, next := (h.node expr).next, prev := (h.node expr).prev,
        children := some expr, childrenTail := some expr } := by
    rw [hdef]
    simp [h4t, h4e, h2e]
  have h5e : (maybeInjectCast lib h expr to_type).node expr =
      { H2.node expr with parent := some (h.free + 1) } := by
    rw [hdef]
    simp [het, h4e]
  refine ⟨hw5, List.length_set _ _ _, ?_, ?_, fun k => hw5.getChild k, ?_, ?_, ?_, ?_, ?_,
    ?_, ?_, ?_, ?_⟩
  · rw [List.getElem?_set]; simp [hil]
  · intro k hk
    exact List.getElem?_set_ne (fun e => hk e.symm)
  · rw [h5t]
  · rw [h5t]
  · rw [h5t]
  · rw [h5t]
  · unfold Heap.getChild
    rw [h5t]
    rfl
  · rw [h5t]
  · rw [h5e]
  · rw [h5e, h2e]
  · rw [h5e, h2e]

theorem Sample.heap_wellLinked : WellLinked Sample.heap 0 [1, 2, 3] where
  head := rfl
  tail := rfl
  parent := by
    intro k x hk
    rcases k with _ | _ | _ | k <;> simp at hk <;> subst hk <;> rfl
  next := by
    intro k x hk
    rcases k with _ | _ | _ | k <;> simp at hk <;> subst hk <;> rfl
  prev := by
    intro k x hk
    rcases k with _ | _ | _ | k <;> simp at hk <;> subst hk <;> rfl
  nodup := by decide

/-- A cast to key around the string expression in the middle slot of three children. -/
theorem maybeInjectCast_relinks_witness :
    WellLinked Sample.heap 0 [1, 2, 3]
      ∧ WellLinked (maybeInjectCast Library.sample Sample.heap 2 .LST_KEY) 0 [1, 5, 3]
      ∧ ((maybeInjectCast Library.sample Sample.heap 2 .LST_KEY).node 5).parent = some 0
      ∧ ((maybeInjectCast Library.sample Sample.heap 2 .LST_KEY).node 2).parent = some 5 :=
  have key := maybeInjectCast_relinks Library.sample Sample.heap 0 [1, 2, 3] 1 2 .LST_KEY
    Sample.heap_wellLinked rfl (by decide) (by decide) (by decide) (by decide) rfl
  ⟨Sample.heap_wellLinked, key.1, key.2.2.2.2.2.2.1, key.2.2.2.2.2.2.2.2.2.2.2.1⟩

end Linked

/-! ## Constant propagation -/

namespace ConstantDeterminingVisitor

/-- Counterexample to claim C7 as stated: with the symbol's assignment counter at 1 the
lvalue gets no constant although the symbol holds one, and with the counter at 0 it gets
the symbol's constant. -/
theorem visitLValueExpression_counter_one :
    (visitLValueExpression (Sample.store (some (.integer 5)) 1)
        (Sample.lvalue .LST_INTEGER "a" (some 0))).map
          (fun v => v.node.getConstantValue.isSome) = some false
      ∧ (visitLValueExpression (Sample.store (some (.integer 5)) 0)
          (Sample.lvalue .LST_INTEGER "a" (some 0))).map
            (fun v => v.node.getConstantValue.isSome) = some true := by
  decide

/-- Claim C7, amended. The visit of an lvalue takes the lvalue's constant from its
symbol only if the symbol's assignment counter equals 0: for every other count the
lvalue's constant is None, and with the counter at 0 an lvalue without member access
gets the symbol's constant. -/
theorem visitLValueExpression_assignments (store : SymbolStore) (d : NodeData)
    (id : LSLASTNode) (rest : List LSLASTNode) (symbol : Nat)
    (hsym : id.getSymbol = some symbol) :
    ((store symbol).getAssignments ≠ 0 →
      visitLValueExpression store (.mk d (id :: rest))
        = some { node := (LSLASTNode.mk d (id :: rest)).setConstantValue none }) ∧
    ((store symbol).getAssignments = 0 → rest = [] →
      visitLValueExpression store (.mk d (id :: rest))
        = some { node := (LSLASTNode.mk d (id :: rest)).setConstantValue
                   (store symbol).constantValue }) ∧
    (∀ v, visitLValueExpression store (.mk d (id :: rest)) = some v →
      v.node.getConstantValue ≠ none → (store symbol).getAssignments = 0) := by
  refine ⟨?_, ?_, ?_⟩
  · intro h
    simp [visitLValueExpression, LSLASTNode.getChild, LSLASTNode.children, hsym, h]
  · intro h hrest
    subst hrest
    simp [visitLValueExpression, LSLASTNode.getChild, LSLASTNode.children, hsym, h]
  · intro v hv hc
    by_contra h
    simp [visitLValueExpression, LSLASTNode.getChild, LSLASTNode.children, hsym, h] at hv
    subst hv
    simp [LSLASTNode.setConstantValue, LSLASTNode.getConstantValue, LSLASTNode.data] at hc

/-- An integer variable holding 5: never assigned, its lvalue has the constant 5;
assigned twice, it has none. -/
theorem visitLValueExpression_assignments_witness :
    visitLValueExpression (Sample.store (some (.integer 5)) 0)
        (Sample.lvalue .LST_INTEGER "a" (some 0))
      = some { node := (Sample.lvalue .LST_INTEGER "a" (some 0)).setConstantValue
                 (some (.integer 5)) }
    ∧ visitLValueExpression (Sample.store (some (.integer 5)) 2)
        (Sample.lvalue .LST_INTEGER "a" (some 0))
      = some { node := (Sample.lvalue .LST_INTEGER "a" (some 0)).setConstantValue none } :=
  ⟨(visitLValueExpression_assignments (Sample.store (some (.integer 5)) 0) _
      (Sample.identifier .LST_INTEGER "a" (some 0)) [] 0 rfl).2.1 rfl rfl,
   (visitLValueExpression_assignments (Sample.store (some (.integer 5)) 2) _
      (Sample.identifier .LST_INTEGER "a" (some 0)) [] 0 rfl).1 (by decide)⟩

/-- Counterexample to claim C8 as stated: for the member name `xy`, which names no
component, the lvalue of a vector constant `<1, 2, 3>` gets the constant 1.0, not
None. -/
theorem visitLValueExpression_member_xy :
    (visitLValueExpression
        (Sample.store (some (.vector (F32.ofS32 1) (F32.ofS32 2) (F32.ofS32 3))) 0)
        (Sample.memberLvalue .LST_VECTOR "v" "xy" (some 0))).map
          (fun v => v.node.getConstantValue) = some (some (.float ⟨0x3F800000⟩)) := by
  rfl

/-- Claim C8, amended. For an lvalue `v.m` whose symbol has the assignment counter 0
and holds a vector constant (a quaternion constant), the lvalue's constant is the float
constant of the component selected by the first character of `m`: x, y or z (x, y, z or
s); it is None when `m` starts with any other character or is empty, and when the
symbol's constant is of any other type. -/
theorem visitLValueExpression_member (store : SymbolStore) (d : NodeData)
    (id member_id : LSLASTNode) (symbol : Nat)
    (hsym : id.getSymbol = some symbol)
    (hmem : member_id.getNodeType = .NODE_IDENTIFIER)
    (hassign : (store symbol).getAssignments = 0) :
    (∀ x y z, (store symbol).constantValue = some (.vector x y z) →
      (visitLValueExpression store (.mk d [id, member_id])).map
          (fun v => v.node.getConstantValue)
        = some (match member_id.getName.toList.head? with
                | some 'x' => some (.float x)
                | some 'y' => some (.float y)
                | some 'z' => some (.float z)
                | _ => none)) ∧
    (∀ x y z s, (store symbol).constantValue = some (.quaternion x y z s) →
      (visitLValueExpression store (.mk d [id, member_id])).map
          (fun v => v.node.getConstantValue)
        = some (match member_id.getName.toList.head? with
                | some 'x' => some (.float x)
                | some 'y' => some (.float y)
                | some 'z' => some (.float z)
                | some 's' => some (.float s)
                | _ => none)) ∧
    (∀ c, (store symbol).constantValue = some c → c.getIType ≠ .LST_VECTOR →
      c.getIType ≠ .LST_QUATERNION →
      (visitLValueExpression store (.mk d [id, member_id])).map
          (fun v => v.node.getConstantValue) = some none) := by
  refine ⟨?_, ?_, ?_⟩
  · intro x y z hc
    simp [visitLValueExpression, LSLASTNode.getChild, LSLASTNode.children, hsym, hmem,
      hassign, hc, memberConstant, LSLASTNode.setConstantValue,
      LSLASTNode.getConstantValue, LSLASTNode.data]
  · intro x y z w hc
    simp [visitLValueExpression, LSLASTNode.getChild, LSLASTNode.children, hsym, hmem,
      hassign, hc, memberConstant, LSLASTNode.setConstantValue,
      LSLASTNode.getConstantValue, LSLASTNode.data]
  · intro c hc h1 h2
    cases c <;>
      simp_all [visitLValueExpression, LSLASTNode.getChild, LSLASTNode.children,
        memberConstant, LSLASTNode.setConstantValue,
        LSLASTNode.getConstantValue, LSLASTNode.data, LSLConstant.getIType]

/-- For `vector v = <1, 2, 3>` never assigned again, the constant of `v.x` is 1.0, and
so is the constant of `x` after `float x = v.x;`. -/
theorem visitLValueExpression_member_witness :
    (visitLValueExpression
        (Sample.store (some (.vector (F32.ofS32 1) (F32.ofS32 2) (F32.ofS32 3))) 0)
        (Sample.memberLvalue .LST_VECTOR "v" "x" (some 0))).map
          (fun v => v.node.getConstantValue) = some (some (.float ⟨0x3F800000⟩)) :=
  (visitLValueExpression_member
    (Sample.store (some (.vector (F32.ofS32 1) (F32.ofS32 2) (F32.ofS32 3))) 0) _
    (Sample.identifier .LST_VECTOR "v" (some 0))
    (Sample.identifier .LST_FLOATINGPOINT "x" none) 0 rfl rfl rfl).1 _ _ _ rfl

/-- The scenario `vector v = <1, 2, 3>; float x = v.x;` through the visits of the
pass: the vector expression folds, the declaration gives the constant to `v`, the
member access reads 1.0 from it and the second declaration gives it to `x`. -/
theorem vector_member_scenario :
    (Sample.storeAfterVector.bind (fun store =>
      (visitLValueExpression store (Sample.memberLvalue .LST_VECTOR "v" "x" (some 0))).bind
        (fun v => (visitDeclaration store
          (Sample.declaration .LST_FLOATINGPOINT "x" (some 1) v.node)).map
            (fun store1 => (store1 1).constantValue))))
      = some (some (.float ⟨0x3F800000⟩)) := by
  rfl

/-- Claim C9. For a plain, constant, parenthesis, binary or unary expression none of
whose operands has type ERROR, the visit sets the node's constant to the left child's
constant when the operator is none or `(`, to the right-hand side's constant when the
operator is `=`, and otherwise to the result of `operation(op, left, right)` when the
left child has a constant and the right child is absent or has a constant, and to None
when an operand's constant is missing, without invoking the operation module then. -/
theorem visitExpression_constant (lib : Library) (d : NodeData) (left : LSLASTNode)
    (rest : List LSLASTNode)
    (hsub : d.subType = .NODE_NO_SUB_TYPE ∨ d.subType = .NODE_CONSTANT_EXPRESSION
      ∨ d.subType = .NODE_PARENTHESIS_EXPRESSION ∨ d.subType = .NODE_BINARY_EXPRESSION
      ∨ d.subType = .NODE_UNARY_EXPRESSION)
    (hl : left.getType ≠ .LST_ERROR)
    (hr : ∀ r, rest.head? = some r → r.getType ≠ .LST_ERROR) :
    ((d.operation = .nop ∨ d.operation = .chr '(') →
      visitExpression lib (.mk d (left :: rest))
        = some ({ node := (LSLASTNode.mk d (left :: rest)).setConstantValue
                    left.getConstantValue }, [])) ∧
    (d.operation = .chr '=' → ∀ r, rest.head? = some r →
      visitExpression lib (.mk d (left :: rest))
        = some ({ node := (LSLASTNode.mk d (left :: rest)).setConstantValue
                    r.getConstantValue }, [])) ∧
    (d.operation ≠ .nop → d.operation ≠ .chr '(' → d.operation ≠ .chr '=' →
      (∀ cl, left.getConstantValue = some cl → rest = [] →
        visitExpression lib (.mk d (left :: rest))
          = some ({ node := (LSLASTNode.mk d (left :: rest)).setConstantValue
                      (lib.operation d.operation cl none d.loc) },
                  [{ operation := d.operation, c_left := cl, c_right := none,
                     loc := d.loc }])) ∧
      (∀ cl r cr, left.getConstantValue = some cl → rest.head? = some r →
        r.getConstantValue = some cr →
        visitExpression lib (.mk d (left :: rest))
          = some ({ node := (LSLASTNode.mk d (left :: rest)).setConstantValue
                      (lib.operation d.operation cl (some cr) d.loc) },
                  [{ operation := d.operation, c_left := cl, c_right := some cr,
                     loc := d.loc }])) ∧
      ((left.getConstantValue = none
          ∨ ∃ r, rest.head? = some r ∧ r.getConstantValue = none) →
        visitExpression lib (.mk d (left :: rest))
          = some ({ node := (LSLASTNode.mk d (left :: rest)).setConstantValue none },
                  []))) := by
  have hchk : (match d.subType with
      | .NODE_NO_SUB_TYPE => true
      | .NODE_CONSTANT_EXPRESSION => true
      | .NODE_PARENTHESIS_EXPRESSION => true
      | .NODE_BINARY_EXPRESSION => true
      | .NODE_UNARY_EXPRESSION => true
      | _ => false) = true := by
    rcases hsub with h | h | h | h | h <;> rw [h]
  rcases rest with _ | ⟨r0, rest⟩
  · refine ⟨?_, ?_, ?_⟩
    · intro hop
      simp [visitExpression, hl, hchk, LSLASTNode.getChild, LSLASTNode.children,
        LSLASTNode.getNodeSubType, LSLASTNode.getOperation, LSLASTNode.data, hop]
    · intro _ r hrr
      simp at hrr
    · intro h1 h2 h3
      refine ⟨?_, ?_, ?_⟩
      · intro cl hcl _
        simp [visitExpression, hl, hchk, LSLASTNode.getChild, LSLASTNode.children,
          LSLASTNode.getNodeSubType, LSLASTNode.getOperation, LSLASTNode.data, h1, h2, h3,
          hcl, LSLASTNode.getLoc]
      · intro cl r cr _ hrr
        simp at hrr
      · rintro (hcl | ⟨r, hrr, _⟩)
        · simp [visitExpression, hl, hchk, LSLASTNode.getChild, LSLASTNode.children,
            LSLASTNode.getNodeSubType, LSLASTNode.getOperation, LSLASTNode.data, h1, h2, h3,
            hcl]
        · simp at hrr
  · have hr0 : r0.getType ≠ .LST_ERROR := hr r0 rfl
    refine ⟨?_, ?_, ?_⟩
    · intro hop
      simp [visitExpression, hl, hr0, hchk, LSLASTNode.getChild, LSLASTNode.children,
        LSLASTNode.getNodeSubType, LSLASTNode.getOperation, LSLASTNode.data, hop]
    · intro hop r hrr
      simp at hrr
      subst hrr
      simp [visitExpression, hl, hr0, hchk, LSLASTNode.getChild, LSLASTNode.children,
        LSLASTNode.getNodeSubType, LSLASTNode.getOperation, LSLASTNode.data, hop]
    · intro h1 h2 h3
      refine ⟨?_, ?_, ?_⟩
      · intro cl _ hrest
        simp at hrest
      · intro cl r cr hcl hrr hcr
        simp at hrr
        subst hrr
        simp [visitExpression, hl, hr0, hchk, LSLASTNode.getChild, LSLASTNode.children,
          LSLASTNode.getNodeSubType, LSLASTNode.getOperation, LSLASTNode.data, h1, h2, h3,
          hcl, hcr, LSLASTNode.getLoc]
      · rintro (hcl | ⟨r, hrr, hcr⟩)
        · simp [visitExpression, hl, hr0, hchk, LSLASTNode.getChild, LSLASTNode.children,
            LSLASTNode.getNodeSubType, LSLASTNode.getOperation, LSLASTNode.data, h1, h2, h3,
            hcl]
        · simp at hrr
          subst hrr
          cases hcl : left.getConstantValue <;>
          simp [visitExpression, hl, hr0, hchk, LSLASTNode.getChild, LSLASTNode.children,
            LSLASTNode.getNodeSubType, LSLASTNode.getOperation, LSLASTNode.data, h1, h2, h3,
            hcl, hcr]
/-- The sum `1 + 2` of two literals folds to 3 through one call of the operation
module. -/
theorem visitExpression_constant_witness :
    (visitExpression Library.sample Sample.foldableSum).map
        (fun r => (r.1.node.getConstantValue, r.2.length))
      = some (some (.integer 3), 1) :=
  have key := (visitExpression_constant Library.sample
    { nodeType := .NODE_EXPRESSION, subType := .NODE_BINARY_EXPRESSION,
      type := .LST_INTEGER, operation := .chr '+' }
    ((Sample.literal (.integer 1)).setConstantValue (some (.integer 1)))
    [(Sample.literal (.integer 2)).setConstantValue (some (.integer 2))]
    (Or.inr (Or.inr (Or.inr (Or.inl rfl)))) (by decide)
    (fun r hr => by cases hr; decide)).2.2 (by decide) (by decide) (by decide)
  congrArg (Option.map (fun r => (r.1.node.getConstantValue, r.2.length)))
    (key.2.1 (.integer 1) _ (.integer 2) rfl rfl rfl)

theorem scanCoordinates_error (limit : Nat) (node : LSLASTNode) :
    ∀ (cs : List LSLASTNode) (v : List F32) (n : LSLASTNode),
      scanCoordinates limit node cs v = .error n →
        n.getConstantValue = node.getConstantValue := by
  intro cs
  induction cs with
  | nil => intro v n h; simp [scanCoordinates] at h
  | cons c cs ih =>
    intro v n h
    unfold scanCoordinates at h
    split at h
    · cases h; rfl
    · split at h
      · cases h; rfl
      · split at h
        · exact ih _ _ h
        · exact ih _ _ h
        · cases h; rfl

theorem scanCoordinates_ok (limit : Nat) (node : LSLASTNode) :
    ∀ (cs : List LSLASTNode) (v w : List F32),
      scanCoordinates limit node cs v = .ok w →
        ∃ vs, cs.map LSLASTNode.numericConstant = vs.map some ∧ w = v ++ vs := by
  intro cs
  induction cs with
  | nil =>
    intro v w h
    simp [scanCoordinates] at h
    exact ⟨[], by simp, by simp [h]⟩
  | cons c cs ih =>
    intro v w h
    unfold scanCoordinates at h
    split at h
    · cases h
    · split at h
      · cases h
      · split at h
        · rename_i f hf
          obtain ⟨vs, h1, h2⟩ := ih _ _ h
          exact ⟨f :: vs, by simp [h1, LSLASTNode.numericConstant, hf], by simp [h2]⟩
        · rename_i i hi
          obtain ⟨vs, h1, h2⟩ := ih _ _ h
          exact ⟨F32.ofS32 i :: vs, by simp [h1, LSLASTNode.numericConstant, hi],
            by simp [h2]⟩
        · cases h

theorem scanCoordinates_complete (limit : Nat) (node : LSLASTNode) :
    ∀ (cs : List LSLASTNode) (vs v : List F32),
      cs.map LSLASTNode.numericConstant = vs.map some → v.length + cs.length ≤ limit →
        scanCoordinates limit node cs v = .ok (v ++ vs) := by
  intro cs
  induction cs with
  | nil =>
    intro vs v h _
    cases vs with
    | nil => simp [scanCoordinates]
    | cons a vs => simp at h
  | cons c cs ih =>
    intro vs v h hlen
    cases vs with
    | nil => simp at h
    | cons a vs =>
      simp only [List.map_cons, List.cons.injEq] at h
      obtain ⟨hc, hrest⟩ := h
      have hlt : ¬ v.length ≥ limit := by simp at hlen; omega
      have hlen2 : (v ++ [a]).length + cs.length ≤ limit := by simp at hlen ⊢; omega
      unfold scanCoordinates
      simp only [hlt, if_false]
      unfold LSLASTNode.numericConstant at hc
      split at hc
      · rename_i f hf
        cases hc
        simp [LSLASTNode.isConstant, hf, ih vs (v ++ [a]) hrest hlen2]
      · rename_i i hi
        cases hc
        simp [LSLASTNode.isConstant, hi, ih vs (v ++ [F32.ofS32 i]) hrest hlen2]
      · cases hc

/-- Claim C10. The visit of a vector expression (of a quaternion expression) gives
the node a constant value if and only if the node has exactly 3 (4) children and every
child has an integer or float constant; the components of the constant are then the
children's values in child order, integer values converted to float. In every other
case the node's constant slot is left as it was. -/
theorem visitCoordinates_constant (node : LSLASTNode) :
    (∀ x y z, node.children.map LSLASTNode.numericConstant = [some x, some y, some z] →
      visitVectorExpression node
        = { node := node.setConstantValue (some (.vector x y z)) }) ∧
    ((¬ ∃ x y z, node.children.map LSLASTNode.numericConstant = [some x, some y, some z]) →
      (visitVectorExpression node).node.getConstantValue = node.getConstantValue) ∧
    (∀ x y z s,
      node.children.map LSLASTNode.numericConstant = [some x, some y, some z, some s] →
      visitQuaternionExpression node
        = { node := node.setConstantValue (some (.quaternion x y z s)) }) ∧
    ((¬ ∃ x y z s,
        node.children.map LSLASTNode.numericConstant = [some x, some y, some z, some s]) →
      (visitQuaternionExpression node).node.getConstantValue = node.getConstantValue) := by
  refine ⟨?_, ?_, ?_, ?_⟩
  · intro x y z h
    have hlen : node.children.length = 3 := by
      have := congrArg List.length h
      simpa using this
    have := scanCoordinates_complete 3 node node.children [x, y, z] [] (by simpa using h)
      (by simp [hlen])
    simp [visitVectorExpression, this]
  · intro hno
    unfold visitVectorExpression
    split
    · rename_i n hn
      exact scanCoordinates_error _ _ _ _ _ hn
    · rename_i x y z hok
      obtain ⟨vs, h1, h2⟩ := scanCoordinates_ok _ _ _ _ _ hok
      simp at h2
      subst h2
      exact absurd ⟨x, y, z, by simpa using h1⟩ hno
    · rfl
  · intro x y z s h
    have hlen : node.children.length = 4 := by
      have := congrArg List.length h
      simpa using this
    have := scanCoordinates_complete 4 node node.children [x, y, z, s] [] (by simpa using h)
      (by simp [hlen])
    simp [visitQuaternionExpression, this]
  · intro hno
    unfold visitQuaternionExpression
    split
    · rename_i n hn
      exact scanCoordinates_error _ _ _ _ _ hn
    · rename_i x y z s hok
      obtain ⟨vs, h1, h2⟩ := scanCoordinates_ok _ _ _ _ _ hok
      simp at h2
      subst h2
      exact absurd ⟨x, y, z, s, by simpa using h1⟩ hno
    · rfl
/-- The vector expression `<1, 2, 3>` over integer literals folds to the vector
constant `<1.0, 2.0, 3.0>`. -/
theorem visitCoordinates_constant_witness :
    (visitVectorExpression Sample.vector123).node.getConstantValue
      = some (.vector ⟨0x3F800000⟩ ⟨0x40000000⟩ ⟨0x40400000⟩) :=
  congrArg (fun v => v.node.getConstantValue)
    ((visitCoordinates_constant Sample.vector123).1 ⟨0x3F800000⟩ ⟨0x40000000⟩ ⟨0x40400000⟩
      (by decide))

end ConstantDeterminingVisitor

/-! ## The gating hook and the list constructor -/

namespace ConstantDeterminingVisitor

/-- C13: `beforeDescend` leaves the children and every field other than the constant slot
and the precluded flag as they are; the constant slot is emptied unless the node is marked
static or is a literal (constant) node; the precluded flag is set when the type of the node
is `ERROR`, and is otherwise cleared unless the node is static or a literal; the hook
answers "do not descend" exactly for a node of type `ERROR` and for the script node. -/
theorem beforeDescend_spec (node : LSLASTNode) :
    (beforeDescend node).1 = LSLASTNode.mk
      { node.data with
        constantValue :=
          if node.isStatic = false ∧ node.getNodeType ≠ .NODE_CONSTANT then none
          else node.getConstantValue,
        constantPrecluded :=
          if node.getType = .LST_ERROR then true
          else if node.isStatic = false ∧ node.getNodeType ≠ .NODE_CONSTANT then false
          else node.getConstantPrecluded }
      node.children
    ∧ ((beforeDescend node).2 = true ↔
        node.getType ≠ .LST_ERROR ∧ node.getNodeType ≠ .NODE_SCRIPT) := by
  obtain ⟨⟨nt, st, ty, loc, op, cv, cp, sn, sy, da, nm, sm, tb⟩, cs⟩ := node
  cases sn <;>
    by_cases hk : nt = .NODE_CONSTANT <;>
    by_cases he : ty = .LST_ERROR <;>
    by_cases hs : nt = .NODE_SCRIPT <;>
    simp_all [beforeDescend, LSLASTNode.isStatic, LSLASTNode.getNodeType, LSLASTNode.getType,
      LSLASTNode.setConstantValue, LSLASTNode.setConstantPrecluded,
      LSLASTNode.getConstantValue, LSLASTNode.getConstantPrecluded]

theorem firstNonConstant_none :
    ∀ (l : List LSLASTNode), (∀ c ∈ l, c.isConstant = true) → firstNonConstant l = none := by
  intro l
  induction l with
  | nil => intro _; rfl
  | cons a l ih =>
    intro h
    have ha := h a (List.mem_cons_self a l)
    simp only [firstNonConstant, ha, Bool.not_true, Bool.false_eq_true, if_false]
    exact ih (fun c hc => h c (List.mem_cons_of_mem a hc))

theorem firstNonConstant_some :
    ∀ (l : List LSLASTNode) (c : LSLASTNode), firstNonConstant l = some c →
      ∃ before after, l = before ++ c :: after ∧ (∀ x ∈ before, x.isConstant = true)
        ∧ c.isConstant = false := by
  intro l
  induction l with
  | nil => intro c h; simp [firstNonConstant] at h
  | cons a l ih =>
    intro c h
    by_cases ha : a.isConstant = true
    · simp only [firstNonConstant, ha, Bool.not_true, Bool.false_eq_true, if_false] at h
      obtain ⟨before, after, hl, hb, hc⟩ := ih c h
      refine ⟨a :: before, after, by simp [hl], ?_, hc⟩
      intro x hx
      rcases List.mem_cons.mp hx with hx | hx
      · subst hx; exact ha
      · exact hb x hx
    · have ha' : a.isConstant = false := by simpa using ha
      simp only [firstNonConstant, ha', Bool.not_false, if_true, Option.some.injEq] at h
      subst h
      exact ⟨[], l, rfl, fun x hx => absurd hx (List.not_mem_nil x), ha'⟩

theorem firstNonConstant_of_split (before after : List LSLASTNode) (c : LSLASTNode)
    (hb : ∀ x ∈ before, x.isConstant = true) (hc : c.isConstant = false) :
    firstNonConstant (before ++ c :: after) = some c := by
  induction before with
  | nil => simp [firstNonConstant, hc]
  | cons a before ih =>
    have ha := hb a (List.mem_cons_self a before)
    simp only [List.cons_append, firstNonConstant, ha, Bool.not_true, Bool.false_eq_true,
      if_false]
    exact ih (fun x hx => hb x (List.mem_cons_of_mem a hx))

theorem all_of_firstNonConstant_none :
    ∀ (l : List LSLASTNode), firstNonConstant l = none → ∀ c ∈ l, c.isConstant = true := by
  intro l
  induction l with
  | nil => intro _ c hc; exact absurd hc (List.not_mem_nil c)
  | cons a l ih =>
    intro h c hc
    by_cases ha : a.isConstant = true
    · simp only [firstNonConstant, ha, Bool.not_true, Bool.false_eq_true, if_false] at h
      rcases List.mem_cons.mp hc with hc | hc
      · subst hc; exact ha
      · exact ih h c hc
    · have ha' : a.isConstant = false := by simpa using ha
      simp [firstNonConstant, ha'] at h

theorem copyConstants_all :
    ∀ (l : List LSLASTNode) (acc : List LSLConstant), (∀ c ∈ l, c.isConstant = true) →
      ∃ items, copyConstants l acc = some (acc ++ items)
        ∧ items.map some = l.map LSLASTNode.getConstantValue := by
  intro l
  induction l with
  | nil => intro acc _; exact ⟨[], by simp [copyConstants], rfl⟩
  | cons a l ih =>
    intro acc h
    have ha := h a (List.mem_cons_self a l)
    obtain ⟨cv, hcv⟩ := Option.isSome_iff_exists.mp ha
    have hcv' : a.getConstantValue = some cv := hcv
    obtain ⟨items, hi, hm⟩ := ih (acc ++ [cv]) (fun c hc => h c (List.mem_cons_of_mem a hc))
    refine ⟨cv :: items, ?_, ?_⟩
    · simp only [copyConstants, hcv', Option.bind_eq_bind, Option.some_bind, hi]
      simp
    · simp [hm, hcv']

/-- C12: `visit(LSLListExpression *)` on a list expression that has children. When the
first child is the null placeholder (the empty list expression) the node's constant is a
list constant of length 0. Otherwise, when every child has a constant, the node's constant
is a list constant whose elements are the constants of the children, one for each child
and in child order; and when some child has no constant the visit assigns no constant: the
constant slot is left as it is and the node takes the precluded flag of the first child
without a constant. -/
theorem visitListExpression_constant (node first : LSLASTNode) (rest : List LSLASTNode)
    (hch : node.children = first :: rest) :
    ∃ v, visitListExpression node = some v ∧
      (first.getNodeType = .NODE_NULL →
        v.node = node.setConstantValue (some (.list []))) ∧
      (first.getNodeType ≠ .NODE_NULL → (∀ c ∈ node.children, c.isConstant = true) →
        ∃ items, v.node = node.setConstantValue (some (.list items))
          ∧ items.length = node.getNumChildren
          ∧ items.map some = node.children.map LSLASTNode.getConstantValue) ∧
      (first.getNodeType ≠ .NODE_NULL →
        ∀ before c after, node.children = before ++ c :: after →
          (∀ x ∈ before, x.isConstant = true) → c.isConstant = false →
          v.node = node.setConstantPrecluded c.getConstantPrecluded
            ∧ v.node.getConstantValue = node.getConstantValue) := by
  by_cases hnull : first.getNodeType = .NODE_NULL
  · refine ⟨{ node := node.setConstantValue (some (.list [])) }, ?_, fun _ => rfl,
      fun h => absurd hnull h, fun h => absurd hnull h⟩
    simp [visitListExpression, hch, hnull]
  · cases hf : firstNonConstant node.children with
    | some c0 =>
      refine ⟨{ node := node.setConstantPrecluded c0.getConstantPrecluded }, ?_,
        fun h => absurd h hnull, ?_, ?_⟩
      · rw [hch] at hf
        simp [visitListExpression, hch, hnull, hf]
      · intro _ hall
        rw [firstNonConstant_none _ hall] at hf
        cases hf
      · intro _ before c after hsplit hb hc
        rw [hsplit, firstNonConstant_of_split before after c hb hc] at hf
        cases hf
        obtain ⟨d, cs⟩ := node
        exact ⟨rfl, rfl⟩
    | none =>
      have hall := all_of_firstNonConstant_none node.children hf
      obtain ⟨items, hi, hm⟩ := copyConstants_all node.children [] hall
      refine ⟨{ node := node.setConstantValue (some (.list items)) }, ?_,
        fun h => absurd h hnull, ?_, ?_⟩
      · rw [hch] at hf hi
        simp [visitListExpression, hch, hnull, hf, hi]
      · intro _ _
        refine ⟨items, rfl, ?_, hm⟩
        have := congrArg List.length hm
        simpa [LSLASTNode.getNumChildren] using this
      · intro _ before c after hsplit hb hc
        have := hall c (by rw [hsplit]; simp)
        rw [hc] at this
        cases this

/-- The list expression `[1, "a"]` with the constants of its elements determined. -/
theorem visitListExpression_constant_witness :
    ∃ v, visitListExpression Sample.list1a = some v ∧
      (((Sample.literal (.integer 1)).setConstantValue (some (.integer 1))).getNodeType
          = .NODE_NULL →
        v.node = Sample.list1a.setConstantValue (some (.list []))) ∧
      (((Sample.literal (.integer 1)).setConstantValue (some (.integer 1))).getNodeType
          ≠ .NODE_NULL → (∀ c ∈ Sample.list1a.children, c.isConstant = true) →
        ∃ items, v.node = Sample.list1a.setConstantValue (some (.list items))
          ∧ items.length = Sample.list1a.getNumChildren
          ∧ items.map some = Sample.list1a.children.map LSLASTNode.getConstantValue) ∧
      (((Sample.literal (.integer 1)).setConstantValue (some (.integer 1))).getNodeType
          ≠ .NODE_NULL →
        ∀ before c after, Sample.list1a.children = before ++ c :: after →
          (∀ x ∈ before, x.isConstant = true) → c.isConstant = false →
          v.node = Sample.list1a.setConstantPrecluded c.getConstantPrecluded
            ∧ v.node.getConstantValue = Sample.list1a.getConstantValue) :=
  visitListExpression_constant Sample.list1a _ _ rfl

end ConstantDeterminingVisitor

/-! ## The run of the constant-propagation pass: auxiliary lemmas -/

section Propagation

open ConstantDeterminingVisitor

theorem ConstantDeterminingVisitor.beforeDescend_mk (d : NodeData) (cs : List LSLASTNode) :
    beforeDescend (.mk d cs) = (.mk (hookData d) cs, hookDescends d) := by
  obtain ⟨nt, st, ty, loc, op, cv, cp, sn, sy, da, nm, sm, tb⟩ := d
  cases sn <;>
    by_cases hk : nt = .NODE_CONSTANT <;>
    by_cases he : ty = .LST_ERROR <;>
    by_cases hs : nt = .NODE_SCRIPT <;>
    simp_all [beforeDescend, hookData, hookDescends, LSLASTNode.isStatic,
      LSLASTNode.getNodeType, LSLASTNode.getType,
      LSLASTNode.setConstantValue, LSLASTNode.setConstantPrecluded,
      LSLASTNode.getConstantValue, LSLASTNode.getConstantPrecluded]

theorem ConstantDeterminingVisitor.hookData_eq (d : NodeData) :
    hookData d =
      { d with
        constantValue :=
          if d.staticNode = false ∧ d.nodeType ≠ .NODE_CONSTANT then none
          else d.constantValue,
        constantPrecluded :=
          if d.type = .LST_ERROR then true
          else if d.staticNode = false ∧ d.nodeType ≠ .NODE_CONSTANT then false
          else d.constantPrecluded } := by
  obtain ⟨nt, st, ty, loc, op, cv, cp, sn, sy, da, nm, sm, tb⟩ := d
  cases sn <;>
    by_cases hk : nt = .NODE_CONSTANT <;>
    by_cases he : ty = .LST_ERROR <;>
    by_cases hs : nt = .NODE_SCRIPT <;>
    simp_all [beforeDescend, hookData, LSLASTNode.isStatic,
      LSLASTNode.getNodeType, LSLASTNode.getType,
      LSLASTNode.setConstantValue, LSLASTNode.setConstantPrecluded,
      LSLASTNode.getConstantValue, LSLASTNode.getConstantPrecluded]

theorem ConstantDeterminingVisitor.hookDescends_eq (d : NodeData) :
    hookDescends d = (decide (d.type ≠ .LST_ERROR) && decide (d.nodeType ≠ .NODE_SCRIPT)) := by
  obtain ⟨nt, st, ty, loc, op, cv, cp, sn, sy, da, nm, sm, tb⟩ := d
  cases sn <;>
    by_cases hk : nt = .NODE_CONSTANT <;>
    by_cases he : ty = .LST_ERROR <;>
    by_cases hs : nt = .NODE_SCRIPT <;>
    simp_all [beforeDescend, hookDescends, LSLASTNode.isStatic,
      LSLASTNode.getNodeType, LSLASTNode.getType,
      LSLASTNode.setConstantValue, LSLASTNode.setConstantPrecluded,
      LSLASTNode.getConstantValue, LSLASTNode.getConstantPrecluded]

theorem ConstantDeterminingVisitor.hookData_skeleton (d : NodeData) :
    d.SameSkeleton (hookData d) := by
  rw [hookData_eq]
  rfl

theorem ConstantDeterminingVisitor.propagate_succ (lib : Library) (fuel : Nat)
    (s : SymbolStore) (d : NodeData) (cs : List LSLASTNode) :
    propagate lib (fuel + 1) s (.mk d cs) =
      match (if hookDescends d = true then visitChildren (propagate lib fuel) s cs
             else .ok (s, cs)) with
      | .error e => .error e
      | .ok (s1, cs1) =>
        if d.nodeType = .NODE_SCRIPT then
          visitScript (propagate lib fuel) s1 (.mk (hookData d) cs1)
        else
          match visitSpecific lib s1 (.mk (hookData d) cs1) with
          | none => .error .nullDereference
          | some r => .ok r := by
  have hnt : (hookData d).nodeType = d.nodeType := by rw [hookData_eq]
  simp only [propagate, beforeDescend_mk, LSLASTNode.data_mk, LSLASTNode.children_mk,
    LSLASTNode.getNodeType, hnt]

theorem LSLASTNode.mem_of_get? {l : List LSLASTNode} {i : Nat} {c : LSLASTNode}
    (h : l.get? i = some c) : c ∈ l := by
  induction l generalizing i with
  | nil => simp at h
  | cons a l ih =>
    cases i with
    | zero => simp at h; subst h; exact List.mem_cons_self _ _
    | succ i => exact List.mem_cons_of_mem _ (ih (by simpa using h))

theorem LSLASTNode.get?_of_mem {l : List LSLASTNode} {c : LSLASTNode} (h : c ∈ l) :
    ∃ i, l.get? i = some c := by
  induction l with
  | nil => exact absurd h (List.not_mem_nil c)
  | cons a l ih =>
    rcases List.mem_cons.mp h with h | h
    · exact ⟨0, by simp [h]⟩
    · obtain ⟨i, hi⟩ := ih h
      exact ⟨i + 1, by simpa using hi⟩

theorem LSLASTNode.get?_of_length_eq {l l' : List LSLASTNode} (hl : l'.length = l.length)
    {i : Nat} {c : LSLASTNode} (h : l.get? i = some c) : ∃ c', l'.get? i = some c' := by
  have hi : i < l.length := by
    by_contra hlt
    have := List.get?_eq_none.mpr (Nat.le_of_not_lt hlt)
    rw [this] at h
    cases h
  have hi' : i < l'.length := hl ▸ hi
  exact ⟨l'.get ⟨i, hi'⟩, List.get?_eq_get hi'⟩

theorem LSLASTNode.Related.data {R : NodeData → NodeData → Prop} {t t' : LSLASTNode}
    (h : t.Related R t') : R t.data t'.data := by
  cases h with
  | mk d d' cs cs' hR _ _ => exact hR

theorem LSLASTNode.Related.length {R : NodeData → NodeData → Prop} {t t' : LSLASTNode}
    (h : t.Related R t') : t'.children.length = t.children.length := by
  cases h with
  | mk d d' cs cs' _ hl _ => exact hl

theorem LSLASTNode.Related.child_related {R : NodeData → NodeData → Prop} {t t' : LSLASTNode}
    (h : t.Related R t') {i : Nat} {c c' : LSLASTNode} (hc : t.getChild i = some c)
    (hc' : t'.getChild i = some c') : c.Related R c' := by
  cases h with
  | mk d d' cs cs' _ _ hcs => exact hcs i c c' hc hc'

theorem LSLASTNode.Related.refl_of_height {R : NodeData → NodeData → Prop}
    (hrefl : ∀ d, R d d) :
    ∀ (n : Nat) (t : LSLASTNode), t.height ≤ n → t.Related R t := by
  intro n
  induction n with
  | zero =>
    intro t ht
    have := t.height_pos
    omega
  | succ n ih =>
    intro t ht
    obtain ⟨d, cs⟩ := t
    refine .mk d d cs cs (hrefl d) rfl ?_
    intro i c c' hc hc'
    rw [hc] at hc'
    cases hc'
    have := LSLASTNode.height_lt_of_mem (LSLASTNode.mem_of_get? hc) d
    exact ih c (by omega)

theorem LSLASTNode.Related.reflexive {R : NodeData → NodeData → Prop} (hrefl : ∀ d, R d d)
    (t : LSLASTNode) : t.Related R t :=
  LSLASTNode.Related.refl_of_height hrefl t.height t (Nat.le_refl _)

theorem LSLASTNode.Related.transitive {R : NodeData → NodeData → Prop}
    (htrans : ∀ a b c, R a b → R b c → R a c) {t1 t2 : LSLASTNode}
    (h12 : t1.Related R t2) : ∀ {t3 : LSLASTNode}, t2.Related R t3 → t1.Related R t3 := by
  induction h12 with
  | mk d d' cs cs' hR hl _ ih =>
    intro t3 h23
    cases h23 with
    | mk _ d'' _ cs'' hR' hl' hcs' =>
      refine .mk d d'' cs cs'' (htrans _ _ _ hR hR') (hl'.trans hl) ?_
      intro i c c'' hc hc''
      obtain ⟨c', hc'⟩ := LSLASTNode.get?_of_length_eq hl hc
      exact ih i c c' hc hc' (hcs' i c' c'' hc' hc'')

theorem LSLASTNode.Related.weaken {R S : NodeData → NodeData → Prop}
    (hRS : ∀ a b, R a b → S a b) {t t' : LSLASTNode} (h : t.Related R t') :
    t.Related S t' := by
  induction h with
  | mk d d' cs cs' hR hl _ ih => exact .mk d d' cs cs' (hRS _ _ hR) hl ih

theorem LSLASTNode.heightList_congr :
    ∀ (cs cs' : List LSLASTNode), cs'.length = cs.length →
      (∀ (i : Nat) (c c' : LSLASTNode), cs.get? i = some c → cs'.get? i = some c' →
        c'.height = c.height) →
      LSLASTNode.height.heightList cs' = LSLASTNode.height.heightList cs := by
  intro cs
  induction cs with
  | nil =>
    intro cs' hl _
    cases cs' with
    | nil => rfl
    | cons a l => simp at hl
  | cons a cs ih =>
    intro cs' hl h
    cases cs' with
    | nil => simp at hl
    | cons a' cs' =>
      simp only [LSLASTNode.height.heightList]
      rw [h 0 a a' (by simp) (by simp),
        ih cs' (by simpa using hl) (fun i c c' hc hc' => h (i + 1) c c' (by simpa using hc)
          (by simpa using hc'))]

theorem LSLASTNode.Related.height_eq {R : NodeData → NodeData → Prop} {t t' : LSLASTNode}
    (h : t.Related R t') : t'.height = t.height := by
  induction h with
  | mk d d' cs cs' _ hl _ ih =>
    rw [LSLASTNode.height_mk, LSLASTNode.height_mk, LSLASTNode.heightList_congr cs cs' hl ih]

theorem NodeData.SameSkeleton.fields {d d' : NodeData} (h : d.SameSkeleton d') :
    d'.nodeType = d.nodeType ∧ d'.subType = d.subType ∧ d'.type = d.type
      ∧ d'.operation = d.operation ∧ d'.symbol = d.symbol ∧ d'.staticNode = d.staticNode
      ∧ d'.loc = d.loc ∧ d'.name = d.name := by
  obtain ⟨nt, st, ty, loc, op, cv, cp, sn, sy, da, nm, sm, tb⟩ := d
  obtain ⟨nt', st', ty', loc', op', cv', cp', sn', sy', da', nm', sm', tb'⟩ := d'
  simp only [NodeData.SameSkeleton, NodeData.mk.injEq] at h
  obtain ⟨h1, h2, h3, h4, h5, _, _, h8, _, _, h11, h12, _⟩ := h
  exact ⟨h1, h2, h3, h5, h12, h8, h4, h11⟩

theorem NodeData.SameSkeleton.same (d : NodeData) : d.SameSkeleton d := rfl

theorem NodeData.SameSkeleton.compose {a b c : NodeData} (h1 : a.SameSkeleton b)
    (h2 : b.SameSkeleton c) : a.SameSkeleton c := by
  obtain ⟨nt, st, ty, loc, op, cv, cp, sn, sy, da, nm, sm, tb⟩ := a
  obtain ⟨nt', st', ty', loc', op', cv', cp', sn', sy', da', nm', sm', tb'⟩ := b
  obtain ⟨nt2, st2, ty2, loc2, op2, cv2, cp2, sn2, sy2, da2, nm2, sm2, tb2⟩ := c
  simp only [NodeData.SameSkeleton, NodeData.mk.injEq] at h1 h2 ⊢
  obtain ⟨a1, a2, a3, a4, a5, _, _, a8, a9, a10, a11, a12, a13⟩ := h1
  obtain ⟨b1, b2, b3, b4, b5, _, _, b8, b9, b10, b11, b12, b13⟩ := h2
  exact ⟨b1.trans a1, b2.trans a2, b3.trans a3, b4.trans a4, b5.trans a5, trivial, trivial,
    b8.trans a8, b9.trans a9, b10.trans a10, b11.trans a11, b12.trans a12, b13.trans a13⟩

theorem LSLASTNode.ConstantReady.of_related {R : NodeData → NodeData → Prop}
    (hR : ∀ a b, R a b → a.SameSkeleton b) {t t' : LSLASTNode} (h : t.Related R t')
    (hc : t.ConstantReady) : t'.ConstantReady := by
  have hd := (hR _ _ h.data).fields
  have hl := h.length
  have hchild : ∀ (i : Nat) (c : LSLASTNode), t.getChild i = some c →
      ∃ c', t'.getChild i = some c' ∧ c'.getSymbol = c.getSymbol := by
    intro i c hci
    obtain ⟨c', hc'⟩ := LSLASTNode.get?_of_length_eq hl hci
    exact ⟨c', hc', (hR _ _ (h.child_related hci hc').data).fields.2.2.2.2.1⟩
  have hnt : t'.getNodeType = t.getNodeType := hd.1
  have hst : t'.getNodeSubType = t.getNodeSubType := hd.2.1
  have hop : t'.getOperation = t.getOperation := hd.2.2.2.1
  obtain ⟨h1, h2, h3, h4⟩ := hc
  refine ⟨?_, ?_, ?_, ?_⟩
  · intro hs
    obtain ⟨g, hg⟩ := h1 (hnt.symm.trans hs)
    obtain ⟨g', hg', _⟩ := hchild 0 g hg
    exact ⟨g', hg'⟩
  · intro hs
    obtain ⟨id, hid, hsym⟩ := h2 (hnt.symm.trans hs)
    obtain ⟨id', hid', hs'⟩ := hchild 0 id hid
    refine ⟨id', hid', fun hn => ?_⟩
    obtain ⟨sym, hsym⟩ := hsym (by simpa [LSLASTNode.getNumChildren, hl] using hn)
    exact ⟨sym, hs'.trans hsym⟩
  · intro hs hsub
    obtain ⟨id, sym, hid, hsym⟩ := h3 (hnt.symm.trans hs) (hst.symm.trans hsub)
    obtain ⟨id', hid', hs'⟩ := hchild 0 id hid
    exact ⟨id', sym, hid', hs'.trans hsym⟩
  · intro hs hv hq
    obtain ⟨⟨c, hc⟩, hopr⟩ := h4 (hnt.symm.trans hs) (fun e => hv (hst.trans e))
      (fun e => hq (hst.trans e))
    obtain ⟨c', hc', _⟩ := hchild 0 c hc
    refine ⟨⟨c', hc'⟩, fun ho => ?_⟩
    obtain ⟨r, hr⟩ := hopr (hop.symm.trans ho)
    obtain ⟨r', hr', _⟩ := hchild 1 r hr
    exact ⟨r', hr'⟩

theorem LSLASTNode.All.constantReady_of_related {R : NodeData → NodeData → Prop}
    (hR : ∀ a b, R a b → a.SameSkeleton b) {t t' : LSLASTNode} (h : t.Related R t') :
    t.All LSLASTNode.ConstantReady → t'.All LSLASTNode.ConstantReady := by
  induction h with
  | mk d d' cs cs' hd hl hcs ih =>
    intro hall
    refine .mk d' cs' ((LSLASTNode.ConstantReady.of_related hR (.mk d d' cs cs' hd hl hcs))
      hall.here) ?_
    intro c' hc'
    obtain ⟨i, hi⟩ := LSLASTNode.get?_of_mem hc'
    obtain ⟨c, hc⟩ := LSLASTNode.get?_of_length_eq hl.symm hi
    exact ih i c c' hc hi (hall.child (LSLASTNode.mem_of_get? hc))

end Propagation

section Propagation

open ConstantDeterminingVisitor

theorem ConstantDeterminingVisitor.visitSpecific_returns (lib : Library) (s : SymbolStore)
    (n : LSLASTNode) (hn : n.ConstantReady) : ∃ r, visitSpecific lib s n = some r := by
  obtain ⟨d, cs⟩ := n
  obtain ⟨_, h2, h3, h4⟩ := hn
  unfold visitSpecific
  split
  · rename_i hnt
    obtain ⟨id, hid, hsym⟩ := h2 hnt
    cases hr : (LSLASTNode.mk d cs).getChild 1 with
    | none => simp [visitGlobalVariable, hid, hr]
    | some r =>
      have hlen : (LSLASTNode.mk d cs).getNumChildren > 1 := by
        by_contra hle
        have := List.get?_eq_none.mpr (Nat.le_of_not_lt hle)
        simp only [LSLASTNode.getChild] at hr
        rw [this] at hr
        cases hr
      obtain ⟨sym, hsym⟩ := hsym hlen
      simp [visitGlobalVariable, hid, hr, hsym]
  · rename_i hnt
    split
    · rename_i hsub
      obtain ⟨id, sym, hid, hsym⟩ := h3 hnt hsub
      simp [visitDeclaration, hid, hsym]
    · exact ⟨_, rfl⟩
  · rename_i hnt
    split
    · rename_i hsub
      obtain ⟨⟨c, hc⟩, _⟩ := h4 hnt (by rw [hsub]; decide) (by rw [hsub]; decide)
      cases hsy : c.getSymbol <;>
        simp [ConstantDeterminingVisitor.visitLValueExpression, hc, hsy]
    · rename_i hsub
      obtain ⟨⟨c, hc⟩, _⟩ := h4 hnt (by rw [hsub]; decide) (by rw [hsub]; decide)
      have hcs : ∃ rest, cs = c :: rest := by
        cases cs with
        | nil => simp [LSLASTNode.getChild] at hc
        | cons a l => simp [LSLASTNode.getChild] at hc; exact ⟨l, by rw [hc]⟩
      obtain ⟨rest, rfl⟩ := hcs
      by_cases hnull : c.getNodeType = .NODE_NULL
      · simp [visitListExpression, hnull]
      · cases hf : firstNonConstant (c :: rest) with
        | some c0 => simp [visitListExpression, hnull, hf]
        | none =>
          obtain ⟨items, hi, _⟩ := copyConstants_all (c :: rest) []
            (all_of_firstNonConstant_none _ hf)
          simp [visitListExpression, hnull, hf, hi]
    · exact ⟨_, rfl⟩
    · exact ⟨_, rfl⟩
    · rename_i hsub
      obtain ⟨⟨c, hc⟩, _⟩ := h4 hnt (by rw [hsub]; decide) (by rw [hsub]; decide)
      cases hv : c.getConstantValue <;>
        simp [visitTypecastExpression, hc, hv]
    · rename_i hl hli hv hq ht
      obtain ⟨⟨c, hc⟩, hop⟩ := h4 hnt hv hq
      simp only [visitExpression, hc, Option.bind_eq_bind, Option.some_bind, Option.pure_def]
      split
      · exact ⟨_, rfl⟩
      · split
        · exact ⟨_, rfl⟩
        · split
          · exact ⟨_, rfl⟩
          · split
            · rename_i ho
              obtain ⟨r, hr⟩ := hop ho
              simp [hr]
            · split
              · split <;> exact ⟨_, rfl⟩
              · exact ⟨_, rfl⟩
  · exact ⟨_, rfl⟩

end Propagation

section Propagation

open ConstantDeterminingVisitor

/-- The shape of what a `visit` overload of the constant pass does to the fields of the
visited node: it may assign the constant slot (`cv`) and the precluded flag (`cp`), a
non-null constant always with a cleared flag, whatever these two fields held. -/
theorem ConstantDeterminingVisitor.effect_of_setConstantValue (d : NodeData)
    (cs : List LSLASTNode) (s' : SymbolStore) (V : Option LSLConstant)
    (F : Option LSLConstant → Bool → Option (SymbolStore × LSLASTNode))
    (hF : ∀ c2 p2, F c2 p2 = some (s',
      (LSLASTNode.mk { d with constantValue := c2, constantPrecluded := p2 }
        cs).setConstantValue V)) :
    ∃ (cv : Option (Option LSLConstant)) (cp : Option Bool),
      (∀ v, cv = some (some v) → cp = some false) ∧
      ∀ c2 p2, F c2 p2 = some (s',
        .mk { d with constantValue := cv.getD c2, constantPrecluded := cp.getD p2 } cs) := by
  cases V with
  | none => exact ⟨some none, none, by simp, fun c2 p2 => by rw [hF]; rfl⟩
  | some v => exact ⟨some (some v), some false, by simp, fun c2 p2 => by rw [hF]; rfl⟩

theorem ConstantDeterminingVisitor.effect_of_setConstantPrecluded (d : NodeData)
    (cs : List LSLASTNode) (s' : SymbolStore) (p : Bool)
    (F : Option LSLConstant → Bool → Option (SymbolStore × LSLASTNode))
    (hF : ∀ c2 p2, F c2 p2 = some (s',
      (LSLASTNode.mk { d with constantValue := c2, constantPrecluded := p2 }
        cs).setConstantPrecluded p)) :
    ∃ (cv : Option (Option LSLConstant)) (cp : Option Bool),
      (∀ v, cv = some (some v) → cp = some false) ∧
      ∀ c2 p2, F c2 p2 = some (s',
        .mk { d with constantValue := cv.getD c2, constantPrecluded := cp.getD p2 } cs) :=
  ⟨none, some p, by simp, fun c2 p2 => by rw [hF]; rfl⟩

theorem ConstantDeterminingVisitor.effect_of_clear_setConstantPrecluded (d : NodeData)
    (cs : List LSLASTNode) (s' : SymbolStore) (p : Bool)
    (F : Option LSLConstant → Bool → Option (SymbolStore × LSLASTNode))
    (hF : ∀ c2 p2, F c2 p2 = some (s',
      ((LSLASTNode.mk { d with constantValue := c2, constantPrecluded := p2 }
        cs).setConstantValue none).setConstantPrecluded p)) :
    ∃ (cv : Option (Option LSLConstant)) (cp : Option Bool),
      (∀ v, cv = some (some v) → cp = some false) ∧
      ∀ c2 p2, F c2 p2 = some (s',
        .mk { d with constantValue := cv.getD c2, constantPrecluded := cp.getD p2 } cs) :=
  ⟨some none, some p, by simp, fun c2 p2 => by rw [hF]; rfl⟩

theorem ConstantDeterminingVisitor.effect_of_clear_setConstantValue (d : NodeData)
    (cs : List LSLASTNode) (s' : SymbolStore) (V : Option LSLConstant)
    (F : Option LSLConstant → Bool → Option (SymbolStore × LSLASTNode))
    (hF : ∀ c2 p2, F c2 p2 = some (s',
      ((LSLASTNode.mk { d with constantValue := c2, constantPrecluded := p2 }
        cs).setConstantValue none).setConstantValue V)) :
    ∃ (cv : Option (Option LSLConstant)) (cp : Option Bool),
      (∀ v, cv = some (some v) → cp = some false) ∧
      ∀ c2 p2, F c2 p2 = some (s',
        .mk { d with constantValue := cv.getD c2, constantPrecluded := cp.getD p2 } cs) := by
  cases V with
  | none => exact ⟨some none, none, by simp, fun c2 p2 => by rw [hF]; rfl⟩
  | some v => exact ⟨some (some v), some false, by simp, fun c2 p2 => by rw [hF]; rfl⟩

theorem ConstantDeterminingVisitor.effect_of_id (d : NodeData)
    (cs : List LSLASTNode) (s' : SymbolStore)
    (F : Option LSLConstant → Bool → Option (SymbolStore × LSLASTNode))
    (hF : ∀ c2 p2, F c2 p2 = some (s',
      LSLASTNode.mk { d with constantValue := c2, constantPrecluded := p2 } cs)) :
    ∃ (cv : Option (Option LSLConstant)) (cp : Option Bool),
      (∀ v, cv = some (some v) → cp = some false) ∧
      ∀ c2 p2, F c2 p2 = some (s',
        .mk { d with constantValue := cv.getD c2, constantPrecluded := cp.getD p2 } cs) :=
  ⟨none, none, by simp, fun c2 p2 => by rw [hF]; rfl⟩

end Propagation

section Propagation

open ConstantDeterminingVisitor

theorem LSLASTNode.getType_mk (d : NodeData) (cs : List LSLASTNode) :
    (LSLASTNode.mk d cs).getType = d.type := rfl

theorem LSLASTNode.getNodeType_mk (d : NodeData) (cs : List LSLASTNode) :
    (LSLASTNode.mk d cs).getNodeType = d.nodeType := rfl

theorem LSLASTNode.getNodeSubType_mk (d : NodeData) (cs : List LSLASTNode) :
    (LSLASTNode.mk d cs).getNodeSubType = d.subType := rfl

theorem LSLASTNode.getOperation_mk (d : NodeData) (cs : List LSLASTNode) :
    (LSLASTNode.mk d cs).getOperation = d.operation := rfl

theorem LSLASTNode.getLoc_mk (d : NodeData) (cs : List LSLASTNode) :
    (LSLASTNode.mk d cs).getLoc = d.loc := rfl

theorem LSLASTNode.getChild_mk (d : NodeData) (cs : List LSLASTNode) (i : Nat) :
    (LSLASTNode.mk d cs).getChild i = cs.get? i := rfl

theorem ConstantDeterminingVisitor.visitExpression_cons (lib : Library) (d : NodeData)
    (left : LSLASTNode) (rest : List LSLASTNode) :
    visitExpression lib (.mk d (left :: rest)) =
      if left.getType = .LST_ERROR
          ∨ (rest.head?.any fun r => decide (r.getType = .LST_ERROR)) = true then
        some ({ node := (LSLASTNode.mk d (left :: rest)).setConstantPrecluded true }, [])
      else if d.subType ∉ [LSLNodeSubType.NODE_NO_SUB_TYPE, .NODE_CONSTANT_EXPRESSION,
          .NODE_PARENTHESIS_EXPRESSION, .NODE_BINARY_EXPRESSION, .NODE_UNARY_EXPRESSION] then
        some ({ node := LSLASTNode.mk d (left :: rest) }, [])
      else if d.operation = .nop ∨ d.operation = .chr '(' then
        some ({ node := (LSLASTNode.mk d (left :: rest)).setConstantValue
                          left.getConstantValue }, [])
      else if d.operation = .chr '=' then
        rest.head?.map fun r =>
          ({ node := (LSLASTNode.mk d (left :: rest)).setConstantValue r.getConstantValue }, [])
      else
        match left.getConstantValue with
        | some cl =>
          if rest.head?.isNone = true
              ∨ (rest.head?.bind LSLASTNode.getConstantValue).isSome = true then
            some ({ node := (LSLASTNode.mk d (left :: rest)).setConstantValue
                              (lib.operation d.operation cl
                                (rest.head?.bind LSLASTNode.getConstantValue) d.loc) },
              [{ operation := d.operation, c_left := cl,
                 c_right := rest.head?.bind LSLASTNode.getConstantValue, loc := d.loc }])
          else some ({ node := (LSLASTNode.mk d (left :: rest)).setConstantValue none }, [])
        | none => some ({ node := (LSLASTNode.mk d (left :: rest)).setConstantValue none }, []) := by
  rcases rest with _ | ⟨r, rest⟩ <;>
    cases hsub : d.subType <;>
    cases hcl : left.getConstantValue <;>
    simp [visitExpression, LSLASTNode.getChild_mk, LSLASTNode.getNodeSubType_mk,
      LSLASTNode.getOperation_mk, LSLASTNode.getLoc_mk, hsub, hcl]

theorem ConstantDeterminingVisitor.visitExpression_effect (lib : Library)
    (s : SymbolStore) (d : NodeData) (cs : List LSLASTNode) :
    (∀ c2 p2, visitExpression lib
        (.mk { d with constantValue := c2, constantPrecluded := p2 } cs) = none) ∨
    ∃ (cv : Option (Option LSLConstant)) (cp : Option Bool),
      (∀ v, cv = some (some v) → cp = some false) ∧
      ∀ c2 p2, (visitExpression lib
          (.mk { d with constantValue := c2, constantPrecluded := p2 } cs)).map
            (fun r => (s, r.1.node)) = some (s,
        .mk { d with constantValue := cv.getD c2, constantPrecluded := cp.getD p2 } cs) := by
  rcases cs with _ | ⟨left, rest⟩
  · left
    intro c2 p2
    rfl
  · by_cases herr : left.getType = .LST_ERROR
        ∨ (rest.head?.any fun r => decide (r.getType = .LST_ERROR)) = true
    · right
      exact effect_of_setConstantPrecluded d _ s true _ (fun c2 p2 => by
        rw [visitExpression_cons, if_pos herr]; rfl)
    by_cases hch : d.subType ∉ [LSLNodeSubType.NODE_NO_SUB_TYPE, .NODE_CONSTANT_EXPRESSION,
          .NODE_PARENTHESIS_EXPRESSION, .NODE_BINARY_EXPRESSION, .NODE_UNARY_EXPRESSION]
    · right
      exact effect_of_id d _ s _ (fun c2 p2 => by
        rw [visitExpression_cons, if_neg herr]; dsimp only; rw [if_pos hch]; rfl)
    by_cases hop : d.operation = .nop ∨ d.operation = .chr '('
    · right
      exact effect_of_setConstantValue d _ s left.getConstantValue _ (fun c2 p2 => by
        rw [visitExpression_cons, if_neg herr]; dsimp only; rw [if_neg hch, if_pos hop]; rfl)
    by_cases heq : d.operation = .chr '='
    · cases hr : rest.head? with
      | none =>
        left
        intro c2 p2
        rw [visitExpression_cons, if_neg herr]; dsimp only
        rw [if_neg hch, if_neg hop, if_pos heq, hr]; rfl
      | some r =>
        right
        exact effect_of_setConstantValue d _ s r.getConstantValue _ (fun c2 p2 => by
          rw [visitExpression_cons, if_neg herr]; dsimp only
          rw [if_neg hch, if_neg hop, if_pos heq, hr]; rfl)
    right
    cases hcl : left.getConstantValue with
    | none =>
      exact effect_of_setConstantValue d _ s none _ (fun c2 p2 => by
        rw [visitExpression_cons, if_neg herr]; dsimp only
        rw [if_neg hch, if_neg hop, if_neg heq, hcl]; rfl)
    | some cl =>
      by_cases hrc : rest.head?.isNone = true
          ∨ (rest.head?.bind LSLASTNode.getConstantValue).isSome = true
      · exact effect_of_setConstantValue d _ s
          (lib.operation d.operation cl (rest.head?.bind LSLASTNode.getConstantValue) d.loc) _
          (fun c2 p2 => by
            rw [visitExpression_cons, if_neg herr]; dsimp only
            rw [if_neg hch, if_neg hop, if_neg heq, hcl]; dsimp only
            rw [if_pos hrc]; rfl)
      · exact effect_of_setConstantValue d _ s none _ (fun c2 p2 => by
          rw [visitExpression_cons, if_neg herr]; dsimp only
          rw [if_neg hch, if_neg hop, if_neg heq, hcl]; dsimp only
          rw [if_neg hrc]; rfl)

end Propagation

section Propagation

open ConstantDeterminingVisitor

theorem ConstantDeterminingVisitor.scanCoordinates_cases (limit : Nat) :
    ∀ (l : List LSLASTNode) (v : List F32),
      (∃ v', ∀ n, scanCoordinates limit n l v = .ok v') ∨
      (∀ n, scanCoordinates limit n l v = .error n) ∨
      (∃ p, ∀ n, scanCoordinates limit n l v = .error (n.setConstantPrecluded p)) := by
  intro l
  induction l with
  | nil => intro v; exact Or.inl ⟨v, fun n => rfl⟩
  | cons child rest ih =>
    intro v
    by_cases hlim : v.length ≥ limit
    · exact Or.inr (Or.inl (fun n => by simp [scanCoordinates, hlim]))
    by_cases hc : child.isConstant = true
    · cases hv : child.getConstantValue with
      | none => simp [LSLASTNode.isConstant, hv] at hc
      | some c =>
        cases c with
        | float f =>
          rcases ih (v ++ [f]) with ⟨v', h⟩ | h | ⟨p, h⟩
          · exact Or.inl ⟨v', fun n => by simp [scanCoordinates, hlim, hc, hv, h]⟩
          · exact Or.inr (Or.inl (fun n => by simp [scanCoordinates, hlim, hc, hv, h]))
          · exact Or.inr (Or.inr ⟨p, fun n => by simp [scanCoordinates, hlim, hc, hv, h]⟩)
        | integer i =>
          rcases ih (v ++ [F32.ofS32 i]) with ⟨v', h⟩ | h | ⟨p, h⟩
          · exact Or.inl ⟨v', fun n => by simp [scanCoordinates, hlim, hc, hv, h]⟩
          · exact Or.inr (Or.inl (fun n => by simp [scanCoordinates, hlim, hc, hv, h]))
          · exact Or.inr (Or.inr ⟨p, fun n => by simp [scanCoordinates, hlim, hc, hv, h]⟩)
        | _ => exact Or.inr (Or.inr ⟨true, fun n => by simp [scanCoordinates, hlim, hc, hv]⟩)
    · exact Or.inr (Or.inr ⟨child.getConstantPrecluded, fun n => by
        simp [scanCoordinates, hlim, hc]⟩)

theorem ConstantDeterminingVisitor.visitSpecific_lvalue (lib : Library) (s : SymbolStore)
    (n : LSLASTNode) (h1 : n.getNodeType = .NODE_EXPRESSION)
    (h2 : n.getNodeSubType = .NODE_LVALUE_EXPRESSION) :
    visitSpecific lib s n =
      (ConstantDeterminingVisitor.visitLValueExpression s n).map (fun v => (s, v.node)) := by
  simp only [visitSpecific, h1, h2]

theorem ConstantDeterminingVisitor.visitSpecific_list (lib : Library) (s : SymbolStore)
    (n : LSLASTNode) (h1 : n.getNodeType = .NODE_EXPRESSION)
    (h2 : n.getNodeSubType = .NODE_LIST_EXPRESSION) :
    visitSpecific lib s n = (visitListExpression n).map (fun v => (s, v.node)) := by
  simp only [visitSpecific, h1, h2]

theorem ConstantDeterminingVisitor.visitSpecific_vector (lib : Library) (s : SymbolStore)
    (n : LSLASTNode) (h1 : n.getNodeType = .NODE_EXPRESSION)
    (h2 : n.getNodeSubType = .NODE_VECTOR_EXPRESSION) :
    visitSpecific lib s n = some (s, (visitVectorExpression n).node) := by
  simp only [visitSpecific, h1, h2]

theorem ConstantDeterminingVisitor.visitSpecific_quaternion (lib : Library) (s : SymbolStore)
    (n : LSLASTNode) (h1 : n.getNodeType = .NODE_EXPRESSION)
    (h2 : n.getNodeSubType = .NODE_QUATERNION_EXPRESSION) :
    visitSpecific lib s n = some (s, (visitQuaternionExpression n).node) := by
  simp only [visitSpecific, h1, h2]

theorem ConstantDeterminingVisitor.visitSpecific_typecast (lib : Library) (s : SymbolStore)
    (n : LSLASTNode) (h1 : n.getNodeType = .NODE_EXPRESSION)
    (h2 : n.getNodeSubType = .NODE_TYPECAST_EXPRESSION) :
    visitSpecific lib s n = (visitTypecastExpression lib n).map (fun v => (s, v.node)) := by
  simp only [visitSpecific, h1, h2]

theorem ConstantDeterminingVisitor.visitSpecific_expression (lib : Library) (s : SymbolStore)
    (n : LSLASTNode) (h1 : n.getNodeType = .NODE_EXPRESSION)
    (h2 : n.getNodeSubType ≠ .NODE_LVALUE_EXPRESSION)
    (h3 : n.getNodeSubType ≠ .NODE_LIST_EXPRESSION)
    (h4 : n.getNodeSubType ≠ .NODE_VECTOR_EXPRESSION)
    (h5 : n.getNodeSubType ≠ .NODE_QUATERNION_EXPRESSION)
    (h6 : n.getNodeSubType ≠ .NODE_TYPECAST_EXPRESSION) :
    visitSpecific lib s n = (visitExpression lib n).map (fun r => (s, r.1.node)) := by
  simp only [visitSpecific, h1]


theorem ConstantDeterminingVisitor.visitSpecific_expression_effect (lib : Library)
    (s : SymbolStore) (d : NodeData) (cs : List LSLASTNode)
    (hnt : d.nodeType = .NODE_EXPRESSION) :
    (∀ c2 p2, visitSpecific lib s
        (.mk { d with constantValue := c2, constantPrecluded := p2 } cs) = none) ∨
    ∃ (cv : Option (Option LSLConstant)) (cp : Option Bool),
      (∀ v, cv = some (some v) → cp = some false) ∧
      ∀ c2 p2, visitSpecific lib s
          (.mk { d with constantValue := c2, constantPrecluded := p2 } cs) = some (s,
        .mk { d with constantValue := cv.getD c2, constantPrecluded := cp.getD p2 } cs) := by
  by_cases hst : d.subType = .NODE_LVALUE_EXPRESSION
  ·
    have hS : ∀ c2 p2, visitSpecific lib s
        (.mk { d with constantValue := c2, constantPrecluded := p2 } cs) =
        (ConstantDeterminingVisitor.visitLValueExpression s
          (.mk { d with constantValue := c2, constantPrecluded := p2 } cs)).map
            (fun v => (s, v.node)) := by
      intro c2 p2
      exact visitSpecific_lvalue lib s _ hnt hst
    rcases cs with _ | ⟨id, rest⟩
    · left
      intro c2 p2
      rw [hS]; rfl
    · right
      cases hsy : id.getSymbol with
      | none =>
        exact effect_of_clear_setConstantPrecluded d _ s true _ (fun c2 p2 => by
          rw [hS]
          simp only [ConstantDeterminingVisitor.visitLValueExpression, LSLASTNode.getChild_mk,
            List.get?_cons_zero, Option.bind_eq_bind, Option.some_bind, hsy, Option.pure_def,
            Option.map_some'])
      | some sym =>
        exact effect_of_setConstantValue d _ s _ _ (fun c2 p2 => by
          rw [hS]
          simp only [ConstantDeterminingVisitor.visitLValueExpression, LSLASTNode.getChild_mk,
            List.get?_cons_zero, Option.bind_eq_bind, Option.some_bind, hsy, Option.pure_def,
            Option.map_some']
          rfl)
  have h1 := hst
  clear hst
  by_cases hst : d.subType = .NODE_LIST_EXPRESSION
  ·
    have hS : ∀ c2 p2, visitSpecific lib s
        (.mk { d with constantValue := c2, constantPrecluded := p2 } cs) =
        (visitListExpression
          (.mk { d with constantValue := c2, constantPrecluded := p2 } cs)).map
            (fun v => (s, v.node)) := by
      intro c2 p2
      exact visitSpecific_list lib s _ hnt hst
    rcases cs with _ | ⟨first, rest⟩
    · left
      intro c2 p2
      rw [hS]; rfl
    · by_cases hnull : first.getNodeType = .NODE_NULL
      · right
        exact effect_of_setConstantValue d _ s (some (.list [])) _ (fun c2 p2 => by
          rw [hS]
          simp [visitListExpression, hnull])
      · cases hf : firstNonConstant (first :: rest) with
        | some c0 =>
          right
          exact effect_of_setConstantPrecluded d _ s c0.getConstantPrecluded _ (fun c2 p2 => by
            rw [hS]
            simp [visitListExpression, hnull, hf])
        | none =>
          cases hcp : copyConstants (first :: rest) [] with
          | none =>
            left
            intro c2 p2
            rw [hS]
            simp [visitListExpression, hnull, hf, hcp]
          | some items =>
            right
            exact effect_of_setConstantValue d _ s (some (.list items)) _ (fun c2 p2 => by
              rw [hS]
              simp [visitListExpression, hnull, hf, hcp])
  have h2 := hst
  clear hst
  by_cases hst : d.subType = .NODE_VECTOR_EXPRESSION
  ·
    right
    have hS : ∀ c2 p2, visitSpecific lib s
        (.mk { d with constantValue := c2, constantPrecluded := p2 } cs) =
        some (s, (visitVectorExpression
          (.mk { d with constantValue := c2, constantPrecluded := p2 } cs)).node) := by
      intro c2 p2
      exact visitSpecific_vector lib s _ hnt hst
    rcases scanCoordinates_cases 3 cs [] with ⟨v', h⟩ | h | ⟨p, h⟩
    · by_cases h3 : ∃ x y z, v' = [x, y, z]
      · obtain ⟨x, y, z, rfl⟩ := h3
        exact effect_of_setConstantValue d _ s (some (.vector x y z)) _ (fun c2 p2 => by
          rw [hS]
          simp [visitVectorExpression, h])
      · refine effect_of_id d _ s _ (fun c2 p2 => ?_)
        rw [hS]
        simp only [visitVectorExpression, LSLASTNode.children_mk, h]
        split
        · rename_i heq; cases heq
        · rename_i x y z heq
          cases heq
          exact absurd ⟨x, y, z, rfl⟩ h3
        · rfl
    · exact effect_of_id d _ s _ (fun c2 p2 => by
        rw [hS]
        simp [visitVectorExpression, h])
    · exact effect_of_setConstantPrecluded d _ s p _ (fun c2 p2 => by
        rw [hS]
        simp [visitVectorExpression, h])
  have h3 := hst
  clear hst
  by_cases hst : d.subType = .NODE_QUATERNION_EXPRESSION
  ·
    right
    have hS : ∀ c2 p2, visitSpecific lib s
        (.mk { d with constantValue := c2, constantPrecluded := p2 } cs) =
        some (s, (visitQuaternionExpression
          (.mk { d with constantValue := c2, constantPrecluded := p2 } cs)).node) := by
      intro c2 p2
      exact visitSpecific_quaternion lib s _ hnt hst
    rcases scanCoordinates_cases 4 cs [] with ⟨v', h⟩ | h | ⟨p, h⟩
    · by_cases h4 : ∃ x y z w, v' = [x, y, z, w]
      · obtain ⟨x, y, z, w, rfl⟩ := h4
        exact effect_of_setConstantValue d _ s (some (.quaternion x y z w)) _ (fun c2 p2 => by
          rw [hS]
          simp [visitQuaternionExpression, h])
      · refine effect_of_id d _ s _ (fun c2 p2 => ?_)
        rw [hS]
        simp only [visitQuaternionExpression, LSLASTNode.children_mk, h]
        split
        · rename_i heq; cases heq
        · rename_i x y z w heq
          cases heq
          exact absurd ⟨x, y, z, w, rfl⟩ h4
        · rfl
    · exact effect_of_id d _ s _ (fun c2 p2 => by
        rw [hS]
        simp [visitQuaternionExpression, h])
    · exact effect_of_setConstantPrecluded d _ s p _ (fun c2 p2 => by
        rw [hS]
        simp [visitQuaternionExpression, h])
  have h4 := hst
  clear hst
  by_cases hst : d.subType = .NODE_TYPECAST_EXPRESSION
  ·
    have hS : ∀ c2 p2, visitSpecific lib s
        (.mk { d with constantValue := c2, constantPrecluded := p2 } cs) =
        (visitTypecastExpression lib
          (.mk { d with constantValue := c2, constantPrecluded := p2 } cs)).map
            (fun v => (s, v.node)) := by
      intro c2 p2
      exact visitSpecific_typecast lib s _ hnt hst
    rcases cs with _ | ⟨child, rest⟩
    · left
      intro c2 p2
      rw [hS]; rfl
    · right
      cases hv : child.getConstantValue with
      | none =>
        exact effect_of_clear_setConstantPrecluded d _ s child.getConstantPrecluded _
          (fun c2 p2 => by
            rw [hS]
            simp [visitTypecastExpression, LSLASTNode.getChild_mk, hv])
      | some val =>
        exact effect_of_clear_setConstantValue d _ s (lib.cast d.type val {}) _
          (fun c2 p2 => by
            rw [hS]
            simp [visitTypecastExpression, LSLASTNode.getChild_mk, hv,
              LSLASTNode.getType_mk])
  · have hS : ∀ c2 p2, visitSpecific lib s
        (.mk { d with constantValue := c2, constantPrecluded := p2 } cs) =
        (visitExpression lib
          (.mk { d with constantValue := c2, constantPrecluded := p2 } cs)).map
            (fun r => (s, r.1.node)) := by
      intro c2 p2
      exact visitSpecific_expression lib s _ hnt h1 h2 h3 h4 hst
    rcases visitExpression_effect lib s d cs with h | ⟨cv, cp, hc, h⟩
    · left
      intro c2 p2
      rw [hS, h]; rfl
    · right
      exact ⟨cv, cp, hc, fun c2 p2 => by rw [hS, h]⟩

theorem ConstantDeterminingVisitor.visitSpecific_effect (lib : Library)
    (s : SymbolStore) (d : NodeData) (cs : List LSLASTNode) :
    (∀ c2 p2, visitSpecific lib s
        (.mk { d with constantValue := c2, constantPrecluded := p2 } cs) = none) ∨
    ∃ (s' : SymbolStore) (cv : Option (Option LSLConstant)) (cp : Option Bool),
      (∀ v, cv = some (some v) → cp = some false) ∧
      (d.nodeType ≠ .NODE_EXPRESSION → cv = none ∧ cp = none) ∧
      (d.nodeType = .NODE_EXPRESSION → s' = s) ∧
      ∀ c2 p2, visitSpecific lib s
          (.mk { d with constantValue := c2, constantPrecluded := p2 } cs) = some (s',
        .mk { d with constantValue := cv.getD c2, constantPrecluded := cp.getD p2 } cs) := by
  by_cases hnt : d.nodeType = .NODE_EXPRESSION
  · rcases visitSpecific_expression_effect lib s d cs hnt with h | ⟨cv, cp, hc, h⟩
    · exact Or.inl h
    · exact Or.inr ⟨s, cv, cp, hc, fun hne => absurd hnt hne, fun _ => rfl, h⟩
  · by_cases hgv : d.nodeType = .NODE_GLOBAL_VARIABLE
    · have hS : ∀ c2 p2, visitSpecific lib s
          (.mk { d with constantValue := c2, constantPrecluded := p2 } cs) =
          (visitGlobalVariable s (.mk d cs)).map (fun s1 =>
            (s1, .mk { d with constantValue := c2, constantPrecluded := p2 } cs)) := by
        intro c2 p2
        have h1 : (LSLASTNode.mk { d with constantValue := c2, constantPrecluded := p2 }
            cs).getNodeType = .NODE_GLOBAL_VARIABLE := hgv
        simp only [visitSpecific, h1]
        rfl
      cases hv : visitGlobalVariable s (.mk d cs) with
      | none => exact Or.inl (fun c2 p2 => by rw [hS, hv]; rfl)
      | some s1 =>
        exact Or.inr ⟨s1, none, none, by simp, fun _ => ⟨rfl, rfl⟩, fun h => absurd h hnt,
          fun c2 p2 => by rw [hS, hv]; rfl⟩
    · by_cases hdecl : d.nodeType = .NODE_STATEMENT ∧ d.subType = .NODE_DECLARATION
      · have hS : ∀ c2 p2, visitSpecific lib s
            (.mk { d with constantValue := c2, constantPrecluded := p2 } cs) =
            (ConstantDeterminingVisitor.visitDeclaration s (.mk d cs)).map (fun s1 =>
              (s1, .mk { d with constantValue := c2, constantPrecluded := p2 } cs)) := by
          intro c2 p2
          have h1 : (LSLASTNode.mk { d with constantValue := c2, constantPrecluded := p2 }
              cs).getNodeType = .NODE_STATEMENT := hdecl.1
          have h2 : (LSLASTNode.mk { d with constantValue := c2, constantPrecluded := p2 }
              cs).getNodeSubType = .NODE_DECLARATION := hdecl.2
          simp only [visitSpecific, h1, h2, if_true]
          rfl
        cases hv : ConstantDeterminingVisitor.visitDeclaration s (.mk d cs) with
        | none => exact Or.inl (fun c2 p2 => by rw [hS, hv]; rfl)
        | some s1 =>
          exact Or.inr ⟨s1, none, none, by simp, fun _ => ⟨rfl, rfl⟩, fun h => absurd h hnt,
            fun c2 p2 => by rw [hS, hv]; rfl⟩
      · refine Or.inr ⟨s, none, none, by simp, fun _ => ⟨rfl, rfl⟩, fun _ => rfl, ?_⟩
        intro c2 p2
        have key : ∀ n : LSLASTNode, n.getNodeType ≠ .NODE_EXPRESSION →
            n.getNodeType ≠ .NODE_GLOBAL_VARIABLE →
            ¬ (n.getNodeType = .NODE_STATEMENT ∧ n.getNodeSubType = .NODE_DECLARATION) →
            visitSpecific lib s n = some (s, n) := by
          intro n a b c
          unfold visitSpecific
          split
          · exact absurd ‹_› b
          · split
            · exact absurd ⟨‹_›, ‹_›⟩ c
            · rfl
          · exact absurd ‹_› a
          · rfl
        exact key _ hnt hgv hdecl

theorem ConstantDeterminingVisitor.visitSpecific_store (lib : Library) (s s' : SymbolStore)
    (n n' : LSLASTNode) (h : visitSpecific lib s n = some (s', n')) :
    s' = s ∨ ∃ x cv cp, n.Writes x ∧
      s' = Function.update s x { s x with constantValue := cv, constantPrecluded := cp } := by
  unfold visitSpecific at h
  split at h
  · rename_i hnt
    cases hid : n.getChild 0 with
    | none => simp [visitGlobalVariable, hid] at h
    | some id =>
      cases hr : n.getChild 1 with
      | none =>
        simp [visitGlobalVariable, hid, hr] at h
        exact Or.inl h.1.symm
      | some r =>
        cases hsy : id.getSymbol with
        | none => simp [visitGlobalVariable, hid, hr, hsy] at h
        | some x =>
          simp [visitGlobalVariable, hid, hr, hsy] at h
          have hlen : n.getNumChildren > 1 := by
            by_contra hle
            have := List.get?_eq_none.mpr (Nat.le_of_not_lt hle)
            simp only [LSLASTNode.getChild] at hr
            rw [this] at hr
            cases hr
          exact Or.inr ⟨x, _, _, .globalVariable n id x hnt hlen hid hsy, h.1.symm⟩
  · rename_i hnt
    split at h
    · rename_i hsub
      cases hid : n.getChild 0 with
      | none => simp [ConstantDeterminingVisitor.visitDeclaration, hid] at h
      | some id =>
        cases hsy : id.getSymbol with
        | none => simp [ConstantDeterminingVisitor.visitDeclaration, hid, hsy] at h
        | some x =>
          simp [ConstantDeterminingVisitor.visitDeclaration, hid, hsy] at h
          exact Or.inr ⟨x, _, _, .declaration n id x hnt hsub hid hsy, h.1.symm⟩
    · simp at h
      exact Or.inl h.1.symm
  · left
    split at h <;> simp at h <;> first | exact h.1.symm | (obtain ⟨_, _, h⟩ := h; exact h.1.symm)
  · simp at h
    exact Or.inl h.1.symm

end Propagation

section Propagation

open ConstantDeterminingVisitor

theorem ConstantDeterminingVisitor.visitChildren_total
    (f : SymbolStore → LSLASTNode → Except Fault (SymbolStore × LSLASTNode))
    (P : LSLASTNode → Prop) (Q : LSLASTNode → LSLASTNode → Prop)
    (hf : ∀ s c, P c → ∃ r, f s c = .ok r ∧ Q c r.2) :
    ∀ (cs : List LSLASTNode) (s : SymbolStore), (∀ c ∈ cs, P c) →
      ∃ r, visitChildren f s cs = .ok r ∧ r.2.length = cs.length ∧
        ∀ (i : Nat) (c c' : LSLASTNode), cs.get? i = some c → r.2.get? i = some c' →
          Q c c' := by
  intro cs
  induction cs with
  | nil =>
    intro s _
    exact ⟨(s, []), rfl, rfl, fun i c c' hc _ => by simp at hc⟩
  | cons a cs ih =>
    intro s hP
    obtain ⟨⟨s1, a1⟩, ha, hQ⟩ := hf s a (hP a (List.mem_cons_self a cs))
    obtain ⟨⟨s2, cs1⟩, hcs, hl, hQs⟩ := ih s1 (fun c hc => hP c (List.mem_cons_of_mem a hc))
    refine ⟨(s2, a1 :: cs1), by simp [visitChildren, ha, hcs], by simpa using hl, ?_⟩
    intro i c c' hc hc'
    cases i with
    | zero =>
      simp at hc hc'
      subst hc hc'
      exact hQ
    | succ i => exact hQs i c c' (by simpa using hc) (by simpa using hc')

theorem ConstantDeterminingVisitor.visitGlobalVariables_total
    (f : SymbolStore → LSLASTNode → Except Fault (SymbolStore × LSLASTNode))
    (P : LSLASTNode → Prop) (Q : LSLASTNode → LSLASTNode → Prop)
    (hf : ∀ s c, P c → ∃ r, f s c = .ok r ∧ Q c r.2) :
    ∀ (cs : List LSLASTNode) (s : SymbolStore),
      (∀ c ∈ cs, ∀ gv, c.getChild 0 = some gv → gv.getNodeType = .NODE_GLOBAL_VARIABLE →
        P gv) →
      ∃ r, visitGlobalVariables f s cs = .ok r ∧ r.2.length = cs.length ∧
        ∀ (i : Nat) (c c' : LSLASTNode), cs.get? i = some c → r.2.get? i = some c' →
          c' = c ∨ ∃ gv gv', c.getChild 0 = some gv
            ∧ gv.getNodeType = .NODE_GLOBAL_VARIABLE ∧ Q gv gv'
            ∧ c' = c.replaceChild 0 gv' := by
  intro cs
  induction cs with
  | nil =>
    intro s _
    exact ⟨(s, []), rfl, rfl, fun i c c' hc _ => by simp at hc⟩
  | cons a cs ih =>
    intro s hP
    have finish : ∀ (s1 : SymbolStore) (a1 : LSLASTNode),
        (a1 = a ∨ ∃ gv gv', a.getChild 0 = some gv
            ∧ gv.getNodeType = .NODE_GLOBAL_VARIABLE ∧ Q gv gv'
            ∧ a1 = a.replaceChild 0 gv') →
        (∀ s2 cs1, visitGlobalVariables f s1 cs = .ok (s2, cs1) →
          visitGlobalVariables f s (a :: cs) = .ok (s2, a1 :: cs1)) →
        ∃ r, visitGlobalVariables f s (a :: cs) = .ok r ∧ r.2.length = (a :: cs).length ∧
          ∀ (i : Nat) (c c' : LSLASTNode), (a :: cs).get? i = some c →
            r.2.get? i = some c' →
            c' = c ∨ ∃ gv gv', c.getChild 0 = some gv
              ∧ gv.getNodeType = .NODE_GLOBAL_VARIABLE ∧ Q gv gv'
              ∧ c' = c.replaceChild 0 gv' := by
      intro s1 a1 hQ hrun
      obtain ⟨⟨s2, cs1⟩, hcs, hl, hQs⟩ :=
        ih s1 (fun c hc => hP c (List.mem_cons_of_mem a hc))
      refine ⟨(s2, a1 :: cs1), hrun s2 cs1 hcs, by simpa using hl, ?_⟩
      intro i c c' hc hc'
      cases i with
      | zero =>
        simp at hc hc'
        subst hc hc'
        exact hQ
      | succ i => exact hQs i c c' (by simpa using hc) (by simpa using hc')
    cases hg : a.getChild 0 with
    | none =>
      exact finish s a (Or.inl rfl) (fun s2 cs1 hcs => by
        simp [visitGlobalVariables, hg, hcs])
    | some gv =>
      by_cases hgv : gv.getNodeType = .NODE_GLOBAL_VARIABLE
      · obtain ⟨⟨s1, gv1⟩, hr, hQ⟩ := hf s gv (hP a (List.mem_cons_self a cs) gv hg hgv)
        exact finish s1 (a.replaceChild 0 gv1) (Or.inr ⟨gv, gv1, hg, hgv, hQ, rfl⟩)
          (fun s2 cs1 hcs => by simp [visitGlobalVariables, hg, hgv, hr, hcs])
      · exact finish s a (Or.inl rfl) (fun s2 cs1 hcs => by
          simp [visitGlobalVariables, hg, hgv, hcs])

end Propagation

section Propagation

open ConstantDeterminingVisitor

theorem ConstantDeterminingVisitor.visitSpecific_node (lib : Library) (s s' : SymbolStore)
    (d : NodeData) (cs : List LSLASTNode) (n' : LSLASTNode)
    (h : visitSpecific lib s (.mk d cs) = some (s', n')) :
    n'.children = cs ∧ d.SameSkeleton n'.data := by
  rcases visitSpecific_effect lib s d cs with hn | ⟨s1, cv, cp, _, _, _, he⟩
  · have := hn d.constantValue d.constantPrecluded
    rw [h] at this
    cases this
  · have := he d.constantValue d.constantPrecluded
    rw [h] at this
    cases this
    exact ⟨rfl, rfl⟩

theorem LSLASTNode.Related.replaceChild {R : NodeData → NodeData → Prop}
    (hrefl : ∀ d, R d d) {c gv gv' : LSLASTNode} (hgv : c.getChild 0 = some gv)
    (h : gv.Related R gv') : c.Related R (c.replaceChild 0 gv') := by
  obtain ⟨d, cs⟩ := c
  rcases cs with _ | ⟨a, rest⟩
  · simp [LSLASTNode.getChild] at hgv
  · simp [LSLASTNode.getChild] at hgv
    subst hgv
    refine .mk d d _ _ (hrefl d) (by simp [LSLASTNode.replaceChild]) ?_
    intro i c c' hc hc'
    cases i with
    | zero =>
      simp [LSLASTNode.replaceChild] at hc hc'
      subst hc hc'
      exact h
    | succ i =>
      simp [LSLASTNode.replaceChild] at hc hc'
      rw [hc] at hc'
      cases hc'
      exact LSLASTNode.Related.reflexive hrefl c

/-- The run of the constant pass on a tree of the parser's form ends, given fuel for the
height of the tree, and relates the fields of every node before and after by any relation
that the hook, the `visit` overloads and their compositions respect. -/
theorem ConstantDeterminingVisitor.propagate_related (lib : Library)
    (R : NodeData → NodeData → Prop)
    (hskel : ∀ a b, R a b → a.SameSkeleton b)
    (hrefl : ∀ d, R d d)
    (htrans : ∀ a b c, R a b → R b c → R a c)
    (hhook : ∀ d, R d (hookData d))
    (hvisit : ∀ s d cs r, visitSpecific lib s (.mk (hookData d) cs) = some r →
      R d r.2.data) :
    ∀ (fuel : Nat) (s : SymbolStore) (t : LSLASTNode),
      t.All LSLASTNode.ConstantReady → t.height ≤ fuel →
      ∃ r, propagate lib fuel s t = .ok r ∧ t.Related R r.2 := by
  intro fuel
  induction fuel with
  | zero =>
    intro s t _ ht
    have := t.height_pos
    omega
  | succ fuel ih =>
    intro s t hall ht
    obtain ⟨d, cs⟩ := t
    have hchild : ∀ c ∈ cs, c.All LSLASTNode.ConstantReady ∧ c.height ≤ fuel := by
      intro c hc
      have := LSLASTNode.height_lt_of_mem hc d
      exact ⟨hall.child hc, by omega⟩
    have hbelow : ∃ s1 cs1,
        (if hookDescends d = true then visitChildren (propagate lib fuel) s cs
          else .ok (s, cs)) = .ok (s1, cs1) ∧ cs1.length = cs.length ∧
        ∀ (i : Nat) (c c' : LSLASTNode), cs.get? i = some c → cs1.get? i = some c' →
          c.Related R c' := by
      by_cases hd : hookDescends d = true
      · obtain ⟨⟨s1, cs1⟩, hr, hl, hQ⟩ := visitChildren_total (propagate lib fuel)
          (fun c => c.All LSLASTNode.ConstantReady ∧ c.height ≤ fuel) (LSLASTNode.Related R)
          (fun s c hc => ih s c hc.1 hc.2) cs s hchild
        exact ⟨s1, cs1, by simp [hd, hr], hl, hQ⟩
      · refine ⟨s, cs, by simp [hd], rfl, ?_⟩
        intro i c c' hc hc'
        rw [hc] at hc'
        cases hc'
        exact LSLASTNode.Related.reflexive hrefl c
    obtain ⟨s1, cs1, hrun, hl, hQ⟩ := hbelow
    have hrel2 : (LSLASTNode.mk d cs).Related R (.mk (hookData d) cs1) :=
      .mk d (hookData d) cs cs1 (hhook d) hl hQ
    have hready2 := LSLASTNode.All.constantReady_of_related hskel hrel2 hall
    have hheight2 := hrel2.height_eq
    rw [propagate_succ, hrun]
    simp only []
    by_cases hscript : d.nodeType = .NODE_SCRIPT
    · rw [if_pos hscript]
      have hnt2 : (LSLASTNode.mk (hookData d) cs1).getNodeType = .NODE_SCRIPT := by
        rw [LSLASTNode.getNodeType_mk, (hookData_skeleton d).fields.1]
        exact hscript
      obtain ⟨globals, hglobals⟩ := hready2.here.1 hnt2
      rcases cs1 with _ | ⟨g, rest⟩
      · simp [LSLASTNode.getChild] at hglobals
      simp [LSLASTNode.getChild] at hglobals
      subst hglobals
      have hgall : g.All LSLASTNode.ConstantReady :=
        hready2.child (List.mem_cons_self g rest)
      have hgh : g.height < fuel + 1 := by
        have := LSLASTNode.height_lt_of_mem (List.mem_cons_self g rest) (hookData d)
        omega
      obtain ⟨⟨s2, storages⟩, hp1, hl1, hQ1⟩ := visitGlobalVariables_total
        (propagate lib fuel)
        (fun c => c.All LSLASTNode.ConstantReady ∧ c.height ≤ fuel) (LSLASTNode.Related R)
        (fun s c hc => ih s c hc.1 hc.2) g.children s1 (by
          intro c hc gv hgv _
          have hgvm : gv ∈ c.children := LSLASTNode.mem_of_get? hgv
          have h1 : c.height < g.height := by
            obtain ⟨dg, csg⟩ := g
            exact LSLASTNode.height_lt_of_mem hc dg
          have h2 : gv.height < c.height := by
            obtain ⟨dc, csc⟩ := c
            exact LSLASTNode.height_lt_of_mem hgvm dc
          exact ⟨(hgall.child hc).child hgvm, by omega⟩)
      have hrelg : g.Related R (.mk g.data storages) := by
        obtain ⟨dg, csg⟩ := g
        refine .mk dg dg csg storages (hrefl dg) hl1 ?_
        intro i c c' hc hc'
        rcases hQ1 i c c' hc hc' with h | ⟨gv, gv', hgv, _, hrel, h⟩
        · subst h
          exact LSLASTNode.Related.reflexive hrefl c'
        · subst h
          exact LSLASTNode.Related.replaceChild hrefl hgv hrel
      obtain ⟨⟨s3, cs3⟩, hp2, hl2, hQ2⟩ := visitChildren_total (propagate lib fuel)
        (fun c => c.All LSLASTNode.ConstantReady ∧ c.height ≤ fuel) (LSLASTNode.Related R)
        (fun s c hc => ih s c hc.1 hc.2) (.mk g.data storages :: rest) s2 (by
          intro c hc
          rcases List.mem_cons.mp hc with hc | hc
          · subst hc
            exact ⟨LSLASTNode.All.constantReady_of_related hskel hrelg hgall, by
              rw [hrelg.height_eq]; omega⟩
          · have := LSLASTNode.height_lt_of_mem (List.mem_cons_of_mem g hc) (hookData d)
            exact ⟨hready2.child (List.mem_cons_of_mem g hc), by omega⟩)
      refine ⟨(s3, .mk (hookData d) cs3), ?_, ?_⟩
      · simp [visitScript, LSLASTNode.getChild, LSLASTNode.replaceChild, hp1, hp2]
      · refine LSLASTNode.Related.transitive htrans hrel2 ?_
        refine .mk _ _ _ _ (hrefl _) (by simpa using hl2) ?_
        intro i c c' hc hc'
        cases i with
        | zero =>
          simp at hc
          subst hc
          obtain ⟨c1, hc1⟩ : ∃ c1, (LSLASTNode.mk g.data storages :: rest).get? 0 = some c1 :=
            ⟨_, rfl⟩
          exact LSLASTNode.Related.transitive htrans hrelg (hQ2 0 _ c' rfl hc')
        | succ i =>
          exact hQ2 (i + 1) c c' (by simpa using hc) hc'
    · rw [if_neg hscript]
      obtain ⟨⟨s2, n2⟩, hv⟩ := visitSpecific_returns lib s1 _ hready2.here
      have hnode := visitSpecific_node lib s1 s2 (hookData d) cs1 n2 hv
      have hR := hvisit s1 d cs1 (s2, n2) hv
      refine ⟨(s2, n2), by rw [hv], ?_⟩
      obtain ⟨d2, cs2⟩ := n2
      simp only [LSLASTNode.children_mk] at hnode
      obtain ⟨hcs, _⟩ := hnode
      subst hcs
      exact .mk d d2 cs cs2 hR hl hQ

end Propagation

section Propagation

open ConstantDeterminingVisitor

theorem LSLASTNode.Related.all {R : NodeData → NodeData → Prop} {p q : NodeData → Prop}
    (hpq : ∀ d d', R d d' → p d → q d') {t t' : LSLASTNode} (h : t.Related R t') :
    t.All (fun n => p n.data) → t'.All (fun n => q n.data) := by
  induction h with
  | mk d d' cs cs' hd hl _ ih =>
    intro hall
    refine .mk d' cs' (hpq d d' hd hall.here) ?_
    intro c' hc'
    obtain ⟨i, hi⟩ := LSLASTNode.get?_of_mem hc'
    obtain ⟨c, hc⟩ := LSLASTNode.get?_of_length_eq hl.symm hi
    exact ih i c c' hc hi (hall.child (LSLASTNode.mem_of_get? hc))

/-- The data the `visit` overload leaves, in terms of the data the hook left. -/
theorem ConstantDeterminingVisitor.visitSpecific_hooked (lib : Library) (s : SymbolStore)
    (d : NodeData) (cs : List LSLASTNode) (r : SymbolStore × LSLASTNode)
    (h : visitSpecific lib s (.mk (hookData d) cs) = some r) :
    ∃ (cv : Option (Option LSLConstant)) (cp : Option Bool),
      (∀ v, cv = some (some v) → cp = some false) ∧
      (d.nodeType ≠ .NODE_EXPRESSION → cv = none ∧ cp = none) ∧
      (d.nodeType = .NODE_EXPRESSION → r.1 = s) ∧
      r.2 = .mk { hookData d with
                  constantValue := cv.getD (hookData d).constantValue,
                  constantPrecluded := cp.getD (hookData d).constantPrecluded } cs := by
  have hnt : (hookData d).nodeType = d.nodeType := (hookData_skeleton d).fields.1
  rcases visitSpecific_effect lib s (hookData d) cs with hn | ⟨s1, cv, cp, h1, h2, h3, he⟩
  · have := hn (hookData d).constantValue (hookData d).constantPrecluded
    rw [h] at this
    cases this
  · have := he (hookData d).constantValue (hookData d).constantPrecluded
    rw [h] at this
    cases this
    exact ⟨cv, cp, h1, fun hne => h2 (hnt ▸ hne), fun heq => h3 (hnt.trans heq), rfl⟩

/-- On a tree of the parser's form the constant pass ends, given fuel for the height of
the tree, and the tree it leaves differs from the tree it got only in constant slots and
precluded flags. -/
theorem ConstantDeterminingVisitor.propagate_total (lib : Library) (fuel : Nat)
    (s : SymbolStore) (t : LSLASTNode) (hall : t.All LSLASTNode.ConstantReady)
    (hfuel : t.height ≤ fuel) :
    ∃ r, propagate lib fuel s t = .ok r ∧ t.Related NodeData.SameSkeleton r.2 :=
  propagate_related lib NodeData.SameSkeleton (fun _ _ h => h) NodeData.SameSkeleton.same
    (fun _ _ _ => NodeData.SameSkeleton.compose) hookData_skeleton
    (fun s d cs r h =>
      (hookData_skeleton d).compose (visitSpecific_node lib s r.1 (hookData d) cs r.2 h).2)
    fuel s t hall hfuel

end Propagation

section Propagation

open ConstantDeterminingVisitor

/-- The steps of the run on a node other than the script node. -/
theorem ConstantDeterminingVisitor.propagate_node (lib : Library) (fuel : Nat)
    (s : SymbolStore) (d : NodeData) (cs : List LSLASTNode) (r : SymbolStore × LSLASTNode)
    (h : propagate lib (fuel + 1) s (.mk d cs) = .ok r) (hs : d.nodeType ≠ .NODE_SCRIPT) :
    ∃ s1 cs1,
      (if hookDescends d = true then visitChildren (propagate lib fuel) s cs
        else .ok (s, cs)) = .ok (s1, cs1) ∧
      visitSpecific lib s1 (.mk (hookData d) cs1) = some r := by
  rw [propagate_succ] at h
  split at h
  · cases h
  · rename_i s1 cs1 hbelow
    rw [if_neg hs] at h
    refine ⟨s1, cs1, hbelow, ?_⟩
    split at h
    · cases h
    · rename_i r1 hv
      cases h
      exact hv

theorem ConstantDeterminingVisitor.scanCoordinates_stop (limit : Nat) (node c : LSLASTNode)
    (after : List LSLASTNode) (hc : c.numericConstant = none) :
    ∀ (before : List LSLASTNode) (v : List F32),
      (∀ x ∈ before, x.numericConstant.isSome = true) → v.length + before.length < limit →
      scanCoordinates limit node (before ++ c :: after) v =
        .error (node.setConstantPrecluded
          (if c.isConstant = true then true else c.getConstantPrecluded)) := by
  intro before
  induction before with
  | nil =>
    intro v _ hlen
    have hlt : ¬ v.length ≥ limit := by simp at hlen; omega
    simp only [List.nil_append, scanCoordinates, hlt, if_false]
    cases hcv : c.getConstantValue with
    | none => simp [LSLASTNode.isConstant, hcv]
    | some k =>
      cases k <;> simp [LSLASTNode.isConstant, hcv, LSLASTNode.numericConstant] at hc ⊢
  | cons x before ih =>
    intro v hb hlen
    have hlt : ¬ v.length ≥ limit := by simp at hlen; omega
    have hx := hb x (List.mem_cons_self x before)
    have hrest : ∀ y ∈ before, y.numericConstant.isSome = true :=
      fun y hy => hb y (List.mem_cons_of_mem x hy)
    simp only [List.cons_append, scanCoordinates, hlt, if_false]
    cases hxv : x.getConstantValue with
    | none => simp [LSLASTNode.numericConstant, hxv] at hx
    | some k =>
      cases k with
      | float f =>
        simp only [LSLASTNode.isConstant, hxv, Option.isSome_some, Bool.not_true,
          Bool.false_eq_true, if_false]
        exact ih (v ++ [f]) hrest (by simp at hlen ⊢; omega)
      | integer i =>
        simp only [LSLASTNode.isConstant, hxv, Option.isSome_some, Bool.not_true,
          Bool.false_eq_true, if_false]
        exact ih (v ++ [F32.ofS32 i]) hrest (by simp at hlen ⊢; omega)
      | _ => simp [LSLASTNode.numericConstant, hxv] at hx

end Propagation

section Propagation

theorem LSLASTNode.all_mk_iff (P : LSLASTNode → Prop) (d : NodeData) (cs : List LSLASTNode) :
    (LSLASTNode.mk d cs).All P ↔ P (.mk d cs) ∧ ∀ c ∈ cs, c.All P :=
  ⟨fun h => ⟨h.here, fun _ hc => h.child hc⟩, fun h => .mk d cs h.1 h.2⟩

theorem Sample.declareSum_constantReady :
    Sample.declareSum.All LSLASTNode.ConstantReady := by
  simp [Sample.declareSum, Sample.declaration, Sample.binary, Sample.literal,
    Sample.identifier, LSLConstant.toNode, LSLASTNode.all_mk_iff, LSLASTNode.ConstantReady,
    LSLASTNode.getNodeType, LSLASTNode.getNodeSubType, LSLASTNode.getChild,
    LSLASTNode.getSymbol, LSLASTNode.getOperation, LSLASTNode.getNumChildren,
    LSLConstant.getNodeSubType, LSLConstant.getIType]

theorem Sample.staticDeclaration_constantReady :
    Sample.staticDeclaration.All LSLASTNode.ConstantReady := by
  simp [Sample.staticDeclaration, LSLASTNode.markStatic, LSLASTNode.setConstantValue,
    Sample.declareSum, Sample.declaration, Sample.binary, Sample.literal,
    Sample.identifier, LSLConstant.toNode, LSLASTNode.all_mk_iff, LSLASTNode.ConstantReady,
    LSLASTNode.getNodeType, LSLASTNode.getNodeSubType, LSLASTNode.getChild,
    LSLASTNode.getSymbol, LSLASTNode.getOperation, LSLASTNode.getNumChildren,
    LSLConstant.getNodeSubType, LSLConstant.getIType]

theorem Sample.declareSum_unprecluded :
    Sample.declareSum.All (fun n => n.data.staticNode = false →
      n.data.nodeType ≠ .NODE_CONSTANT →
      n.data.constantValue.isSome = true → n.data.constantPrecluded = false) := by
  simp [Sample.declareSum, Sample.declaration, Sample.binary, Sample.literal,
    Sample.identifier, LSLConstant.toNode, LSLASTNode.all_mk_iff]

end Propagation

section Propagation

theorem Sample.vectorWithString_constantReady :
    (Sample.vectorWithString .LST_VECTOR).All LSLASTNode.ConstantReady := by
  simp [Sample.vectorWithString, Sample.vectorExpression, LSLVectorExpression.new,
    Sample.lvalue, Sample.literal, LSLASTNode.setType,
    Sample.identifier, LSLConstant.toNode, LSLASTNode.all_mk_iff, LSLASTNode.ConstantReady,
    LSLASTNode.getNodeType, LSLASTNode.getNodeSubType, LSLASTNode.getChild,
    LSLASTNode.getSymbol, LSLASTNode.getOperation, LSLASTNode.getNumChildren,
    LSLConstant.getNodeSubType, LSLConstant.getIType]

end Propagation

/-! ## The constant pass over a tree -/

namespace ConstantDeterminingVisitor

/-- The static sum `e + 1` with an operand of type `ERROR` holds the constant 3 and is not
precluded before the pass, and holds the constant 3 and is precluded after it. -/
theorem static_node_constant_and_precluded :
    Sample.staticErrorSum.getConstantValue.isSome = true ∧
    Sample.staticErrorSum.getConstantPrecluded = false ∧
    ∃ r, propagate Library.sample 3 Sample.locals Sample.staticErrorSum = .ok r ∧
      r.2.getConstantValue.isSome = true ∧ r.2.getConstantPrecluded = true :=
  ⟨rfl, rfl, _, rfl, rfl, rfl⟩

/-- C15 (amended): on a tree of the parser's form the constant pass ends, and when no node
of the tree that is neither marked static nor a literal (constant) node has both a constant
and the precluded flag before the pass, none has after it; and `setConstantValue` with a
non-null value clears the precluded flag. -/
theorem propagate_constant_excludes_precluded (lib : Library) (fuel : Nat)
    (s : SymbolStore) (t : LSLASTNode) (hall : t.All LSLASTNode.ConstantReady)
    (hfuel : t.height ≤ fuel)
    (hinv : t.All (fun n => n.data.staticNode = false → n.data.nodeType ≠ .NODE_CONSTANT →
      n.data.constantValue.isSome = true → n.data.constantPrecluded = false)) :
    (∃ r, propagate lib fuel s t = .ok r ∧
      r.2.All (fun n => n.data.staticNode = false → n.data.nodeType ≠ .NODE_CONSTANT →
        n.data.constantValue.isSome = true → n.data.constantPrecluded = false)) ∧
    ∀ (n : LSLASTNode) (cv : LSLConstant),
      (n.setConstantValue (some cv)).getConstantPrecluded = false := by
  refine ⟨?_, fun n cv => rfl⟩
  obtain ⟨r, hr, hrel⟩ := propagate_related lib
    (fun d d' => d.SameSkeleton d' ∧
      ((d.staticNode = false → d.nodeType ≠ .NODE_CONSTANT →
          d.constantValue.isSome = true → d.constantPrecluded = false) →
        d'.staticNode = false → d'.nodeType ≠ .NODE_CONSTANT →
          d'.constantValue.isSome = true → d'.constantPrecluded = false))
    (fun _ _ h => h.1) (fun d => ⟨NodeData.SameSkeleton.same d, fun h => h⟩)
    (fun a b c h1 h2 => ⟨h1.1.compose h2.1, fun h => h2.2 (h1.2 h)⟩)
    (fun d => ⟨hookData_skeleton d, by
      intro _ h1 h2 h3
      have e1 := (hookData_skeleton d).fields
      rw [hookData_eq] at h3
      rw [e1.2.2.2.2.2.1] at h1
      rw [e1.1] at h2
      simp [h1, h2] at h3⟩)
    (fun s d cs r h => by
      obtain ⟨cv, cp, hc, _, _, hrd⟩ := visitSpecific_hooked lib s d cs r h
      have e1 := (hookData_skeleton d).fields
      refine ⟨(hookData_skeleton d).compose (visitSpecific_node lib s r.1 _ cs r.2 h).2, ?_⟩
      intro _ h1 h2 h3
      rw [hrd] at h1 h2 h3 ⊢
      simp only [LSLASTNode.data_mk] at h1 h2 h3 ⊢
      rw [e1.2.2.2.2.2.1] at h1
      rw [e1.1] at h2
      have hnone : (hookData d).constantValue = none := by
        rw [hookData_eq]
        simp [h1, h2]
      rw [hnone] at h3
      cases cv with
      | none => simp at h3
      | some v =>
        cases v with
        | none => simp at h3
        | some c => rw [hc c rfl]; rfl)
    fuel s t hall hfuel
  exact ⟨r, hr, LSLASTNode.Related.all (fun d d' h hp => h.2 hp) hrel hinv⟩

end ConstantDeterminingVisitor

namespace ConstantDeterminingVisitor

/-- C15 on the declaration `integer x = 1 + 2;`. -/
theorem propagate_constant_excludes_precluded_witness :
    Sample.declareSum.All LSLASTNode.ConstantReady ∧ Sample.declareSum.height ≤ 5 ∧
    (∃ r, propagate Library.sample 5 Sample.locals Sample.declareSum = .ok r ∧
      r.2.All (fun n => n.data.staticNode = false → n.data.nodeType ≠ .NODE_CONSTANT →
        n.data.constantValue.isSome = true → n.data.constantPrecluded = false)) :=
  ⟨Sample.declareSum_constantReady, by decide,
    (propagate_constant_excludes_precluded Library.sample 5 Sample.locals Sample.declareSum
      Sample.declareSum_constantReady (by decide) Sample.declareSum_unprecluded).1⟩

/-- The static lvalue `a` holds the constant 5 before the pass and no constant after it
(its symbol holds no constant). -/
theorem static_lvalue_constant_overwritten :
    Sample.staticLvalue.isStatic = true ∧
    Sample.staticLvalue.getConstantValue.isSome = true ∧
    ∃ r, propagate Library.sample 3 Sample.locals Sample.staticLvalue = .ok r ∧
      r.2.getConstantValue.isSome = false :=
  ⟨rfl, rfl, _, rfl, rfl⟩

/-- C14 (amended): on a tree of the parser's form the constant pass ends and leaves every
node marked static that is not an expression node with the constant value it had; the
gating hook leaves the constant slot of every static node as it is. -/
theorem propagate_static_constant (lib : Library) (fuel : Nat)
    (s : SymbolStore) (t : LSLASTNode) (hall : t.All LSLASTNode.ConstantReady)
    (hfuel : t.height ≤ fuel) :
    (∃ r, propagate lib fuel s t = .ok r ∧
      t.Related (fun d d' => d.SameSkeleton d' ∧
        (d.staticNode = true → d.nodeType ≠ .NODE_EXPRESSION →
          d'.constantValue = d.constantValue)) r.2) ∧
    ∀ n : LSLASTNode, n.isStatic = true →
      (beforeDescend n).1.getConstantValue = n.getConstantValue := by
  refine ⟨?_, ?_⟩
  · have htrans : ∀ a b c : NodeData,
        (a.SameSkeleton b ∧ (a.staticNode = true → a.nodeType ≠ .NODE_EXPRESSION →
          b.constantValue = a.constantValue)) →
        (b.SameSkeleton c ∧ (b.staticNode = true → b.nodeType ≠ .NODE_EXPRESSION →
          c.constantValue = b.constantValue)) →
        a.SameSkeleton c ∧ (a.staticNode = true → a.nodeType ≠ .NODE_EXPRESSION →
          c.constantValue = a.constantValue) := by
      intro a b c h1 h2
      refine ⟨h1.1.compose h2.1, fun hs hn => ?_⟩
      have e := h1.1.fields
      rw [h2.2 (e.2.2.2.2.2.1.trans hs) (by rw [e.1]; exact hn), h1.2 hs hn]
    have hhook : ∀ d : NodeData, d.SameSkeleton (hookData d) ∧
        (d.staticNode = true → d.nodeType ≠ .NODE_EXPRESSION →
          (hookData d).constantValue = d.constantValue) := by
      intro d
      refine ⟨hookData_skeleton d, fun hs _ => ?_⟩
      rw [hookData_eq]
      simp [hs]
    have hvisit : ∀ (s : SymbolStore) (d : NodeData) (cs : List LSLASTNode)
        (r : SymbolStore × LSLASTNode),
        visitSpecific lib s (.mk (hookData d) cs) = some r →
        d.SameSkeleton r.2.data ∧ (d.staticNode = true → d.nodeType ≠ .NODE_EXPRESSION →
          r.2.data.constantValue = d.constantValue) := by
      intro s d cs r h
      obtain ⟨cv, cp, _, hne, _, hrd⟩ := visitSpecific_hooked lib s d cs r h
      refine ⟨(hookData_skeleton d).compose (visitSpecific_node lib s r.1 _ cs r.2 h).2, ?_⟩
      intro hs hn
      obtain ⟨rfl, rfl⟩ := hne hn
      rw [hrd, hookData_eq]
      simp [hs]
    exact propagate_related lib _ (fun _ _ h => h.1)
      (fun d => ⟨NodeData.SameSkeleton.same d, fun _ _ => rfl⟩) htrans hhook hvisit
      fuel s t hall hfuel
  · intro n hn
    obtain ⟨d, cs⟩ := n
    rw [beforeDescend_mk, hookData_eq]
    have : d.staticNode = true := hn
    simp [LSLASTNode.getConstantValue, this]

/-- C14 on the declaration `integer x = 1 + 2;` marked static and holding the constant 7,
a static node that is no expression node: the pass ends and the declaration holds the 7
afterwards, and the gating hook leaves the 7 in its slot. -/
theorem propagate_static_constant_witness :
    Sample.staticDeclaration.All LSLASTNode.ConstantReady
      ∧ Sample.staticDeclaration.height ≤ 5
      ∧ Sample.staticDeclaration.isStatic = true
      ∧ Sample.staticDeclaration.data.staticNode = true
      ∧ Sample.staticDeclaration.data.nodeType ≠ .NODE_EXPRESSION
      ∧ Sample.staticDeclaration.getConstantValue = some (.integer 7)
      ∧ (∃ r, propagate Library.sample 5 Sample.locals Sample.staticDeclaration = .ok r
          ∧ Sample.staticDeclaration.Related (fun d d' => d.SameSkeleton d' ∧
              (d.staticNode = true → d.nodeType ≠ .NODE_EXPRESSION →
                d'.constantValue = d.constantValue)) r.2
          ∧ r.2.getConstantValue = some (.integer 7))
      ∧ (beforeDescend Sample.staticDeclaration).1.getConstantValue = some (.integer 7) := by
  have h := propagate_static_constant Library.sample 5 Sample.locals Sample.staticDeclaration
    Sample.staticDeclaration_constantReady (by decide)
  obtain ⟨r, hr, hrel⟩ := h.1
  exact ⟨Sample.staticDeclaration_constantReady, by decide, rfl, rfl, by decide, rfl,
    ⟨r, hr, hrel, (hrel.data.2 rfl (by decide)).trans rfl⟩,
    (h.2 Sample.staticDeclaration rfl).trans rfl⟩

/-- The vector expression `<a, "x", 1>` comes out of the pass without the precluded flag,
both with the type `ERROR` and with the type `VECTOR`. -/
theorem vector_with_string_not_precluded :
    (∃ r, propagate Library.sample 3 Sample.locals (Sample.vectorWithString .LST_ERROR)
        = .ok r ∧ r.2.getConstantPrecluded = false) ∧
    (∃ r, propagate Library.sample 3 Sample.locals (Sample.vectorWithString .LST_VECTOR)
        = .ok r ∧ r.2.getConstantPrecluded = false
        ∧ (r.2.children.map LSLASTNode.getConstantValue).map (Option.map LSLConstant.getIType)
          = [none, some .LST_STRING, some .LST_INTEGER]) :=
  ⟨⟨_, rfl, rfl⟩, ⟨_, rfl, rfl, rfl⟩⟩

/-- C11 (amended): on a vector expression of the parser's form that is not marked static
the constant pass ends, and when among the first three components, as they come out of
the pass, there is one that is not an integer or float constant, the vector expression has
no constant value; its precluded flag is then set if the first such component has a
constant (of another type, such as a string constant) and is the precluded flag of that
component if it has no constant. -/
theorem propagate_vector_non_numeric (lib : Library) (fuel : Nat) (s : SymbolStore)
    (t : LSLASTNode) (hnt : t.getNodeType = .NODE_EXPRESSION)
    (hst : t.getNodeSubType = .NODE_VECTOR_EXPRESSION) (hstatic : t.isStatic = false)
    (hall : t.All LSLASTNode.ConstantReady) (hfuel : t.height ≤ fuel) :
    ∃ r, propagate lib fuel s t = .ok r ∧
      ∀ before c after, r.2.children = before ++ c :: after →
        (∀ x ∈ before, x.numericConstant.isSome = true) → before.length < 3 →
        c.numericConstant = none →
        r.2.getConstantValue = none ∧
        r.2.getConstantPrecluded =
          (if c.isConstant = true then true else c.getConstantPrecluded) := by
  obtain ⟨r, hr, _⟩ := propagate_total lib fuel s t hall hfuel
  refine ⟨r, hr, ?_⟩
  intro before c after hch hb hlen hc
  cases fuel with
  | zero => cases hr
  | succ fuel =>
    obtain ⟨d, cs⟩ := t
    have hns : d.nodeType ≠ .NODE_SCRIPT := by
      have : d.nodeType = .NODE_EXPRESSION := hnt
      rw [this]; decide
    obtain ⟨s1, cs1, _, hv⟩ := propagate_node lib fuel s d cs r hr hns
    have e := (hookData_skeleton d).fields
    rw [visitSpecific_vector lib s1 (.mk (hookData d) cs1) (e.1.trans hnt) (e.2.1.trans hst)] at hv
    cases hv
    have hscan := scanCoordinates_stop 3 (.mk (hookData d) cs1) c after hc before [] hb
      (by simpa using hlen)
    have hcs : cs1 = before ++ c :: after := by
      rw [← hch]
      simp only [visitVectorExpression, LSLASTNode.children_mk]
      split
      · rename_i n hn
        have := scanCoordinates_cases 3 cs1 []
        rcases this with ⟨v', h⟩ | h | ⟨p, h⟩
        · rw [h] at hn; cases hn
        · rw [h] at hn; cases hn; rfl
        · rw [h] at hn; cases hn; rfl
      · rfl
      · rfl
    rw [← hcs] at hscan
    have hd : d.staticNode = false := hstatic
    have hk : d.nodeType ≠ .NODE_CONSTANT := by
      have : d.nodeType = .NODE_EXPRESSION := hnt
      rw [this]; decide
    have hnone : (hookData d).constantValue = none := by
      rw [hookData_eq]; simp [hd, hk]
    simp only [visitVectorExpression, LSLASTNode.children_mk, hscan]
    exact ⟨hnone, rfl⟩

/-- C11 on the vector expression `<a, "x", 1>`. -/
theorem propagate_vector_non_numeric_witness :
    (Sample.vectorWithString .LST_VECTOR).getNodeType = .NODE_EXPRESSION ∧
    (Sample.vectorWithString .LST_VECTOR).getNodeSubType = .NODE_VECTOR_EXPRESSION ∧
    (Sample.vectorWithString .LST_VECTOR).isStatic = false ∧
    (Sample.vectorWithString .LST_VECTOR).All LSLASTNode.ConstantReady ∧
    (Sample.vectorWithString .LST_VECTOR).height ≤ 3 ∧
    ∃ r, propagate Library.sample 3 Sample.locals (Sample.vectorWithString .LST_VECTOR)
        = .ok r ∧
      ∀ before c after, r.2.children = before ++ c :: after →
        (∀ x ∈ before, x.numericConstant.isSome = true) → before.length < 3 →
        c.numericConstant = none →
        r.2.getConstantValue = none ∧
        r.2.getConstantPrecluded =
          (if c.isConstant = true then true else c.getConstantPrecluded) :=
  ⟨rfl, rfl, rfl, Sample.vectorWithString_constantReady, by decide,
    propagate_vector_non_numeric Library.sample 3 Sample.locals
      (Sample.vectorWithString .LST_VECTOR) rfl rfl rfl Sample.vectorWithString_constantReady
      (by decide)⟩

end ConstantDeterminingVisitor

namespace ConstantDeterminingVisitor

/-- C19: on a declaration or a global variable (with an initializer slot) of the parser's
form the constant pass ends, and then the symbol of the declared identifier has the
constant value and the precluded flag of the initializer as it comes out of the pass; it
has no constant (and no precluded flag) when a declaration has the null placeholder in
place of an initializer, and no constant when a global variable has a null placeholder
that holds no constant. For `integer a; integer b = a += 1;`, desugared, the symbol of `b`
ends without a constant. -/
theorem propagate_declaration_symbol (lib : Library) (fuel : Nat) (s : SymbolStore)
    (t : LSLASTNode) (hall : t.All LSLASTNode.ConstantReady) (hfuel : t.height ≤ fuel)
    (hdecl : (t.getNodeType = .NODE_STATEMENT ∧ t.getNodeSubType = .NODE_DECLARATION)
      ∨ (t.getNodeType = .NODE_GLOBAL_VARIABLE ∧ t.getNumChildren > 1)) :
    (∃ r id sym, propagate lib fuel s t = .ok r ∧ r.2.getChild 0 = some id
      ∧ id.getSymbol = some sym ∧
      (∀ init, r.2.getChild 1 = some init →
        (t.getNodeType = .NODE_GLOBAL_VARIABLE ∨ init.getNodeType ≠ .NODE_NULL) →
        (r.1 sym).constantValue = init.getConstantValue
          ∧ (r.1 sym).constantPrecluded = init.getConstantPrecluded) ∧
      (t.getNodeType = .NODE_STATEMENT →
        (r.2.getChild 1 = none
          ∨ ∃ init, r.2.getChild 1 = some init ∧ init.getNodeType = .NODE_NULL) →
        (r.1 sym).constantValue = none ∧ (r.1 sym).constantPrecluded = false) ∧
      (∀ init, t.getChild 1 = some init → init.getNodeType = .NODE_NULL →
        init.getConstantValue = none → (r.1 sym).constantValue = none)) ∧
    (∃ t2 r, desugar Library.sample Sample.locals 12 [] Sample.twoDeclarations = .ok t2
      ∧ propagate Library.sample 12 (Sample.store none 1) t2 = .ok r
      ∧ (r.1 1).constantValue.isNone = true) := by
  refine ⟨?_, _, _, rfl, rfl, rfl⟩
  -- the run ends, and a null placeholder without a constant stays without one
  obtain ⟨r, hr, hrel⟩ := propagate_related lib
    (fun d d' => d.SameSkeleton d' ∧
      (d.nodeType = .NODE_NULL → d.constantValue = none → d'.constantValue = none))
    (fun _ _ h => h.1) (fun d => ⟨NodeData.SameSkeleton.same d, fun _ h => h⟩)
    (fun a b c h1 h2 => ⟨h1.1.compose h2.1, fun hn hc =>
      h2.2 (h1.1.fields.1.trans hn) (h1.2 hn hc)⟩)
    (fun d => ⟨hookData_skeleton d, fun _ hc => by
      rw [hookData_eq]
      by_cases hcl : d.staticNode = false ∧ d.nodeType ≠ .NODE_CONSTANT
      · simp [hcl]
      · simp [hcl, hc]⟩)
    (fun s d cs r h => by
      obtain ⟨cv, cp, _, hne, _, hrd⟩ := visitSpecific_hooked lib s d cs r h
      refine ⟨(hookData_skeleton d).compose (visitSpecific_node lib s r.1 _ cs r.2 h).2, ?_⟩
      intro hn hc
      obtain ⟨rfl, rfl⟩ := hne (by rw [hn]; decide)
      rw [hrd, hookData_eq]
      by_cases hcl : d.staticNode = false ∧ d.nodeType ≠ .NODE_CONSTANT
      · simp [hcl]
      · simp [hcl, hc])
    fuel s t hall hfuel
  cases fuel with
  | zero => cases hr
  | succ fuel =>
    obtain ⟨d, cs⟩ := t
    have hns : d.nodeType ≠ .NODE_SCRIPT := by
      rcases hdecl with h | h
      · have : d.nodeType = .NODE_STATEMENT := h.1
        rw [this]; decide
      · have : d.nodeType = .NODE_GLOBAL_VARIABLE := h.1
        rw [this]; decide
    obtain ⟨s1, cs1, _, hv⟩ := propagate_node lib fuel s d cs r hr hns
    have e := (hookData_skeleton d).fields
    have hready : (LSLASTNode.mk (hookData d) cs1).ConstantReady := by
      have hnode := visitSpecific_node lib s1 r.1 (hookData d) cs1 r.2 hv
      obtain ⟨s2, ⟨d2, cs2⟩⟩ := r
      simp only [LSLASTNode.children_mk] at hnode
      obtain ⟨hcs, hsk⟩ := hnode
      subst hcs
      have hrel2 : (LSLASTNode.mk d cs).Related NodeData.SameSkeleton
          (.mk (hookData d) cs2) := by
        cases hrel with
        | mk _ _ _ _ hd hl hcs =>
          exact .mk d (hookData d) cs cs2 (hookData_skeleton d) hl
            (fun i c c' hc hc' => (hcs i c c' hc hc').weaken (fun _ _ h => h.1))
      exact LSLASTNode.ConstantReady.of_related (fun _ _ h => h) hrel2 hall.here
    have hnull : ∀ init, (LSLASTNode.mk d cs).getChild 1 = some init →
        init.getNodeType = .NODE_NULL → init.getConstantValue = none →
        ∀ init', cs1.get? 1 = some init' → init'.getConstantValue = none := by
      intro init hi hn hc init' hi'
      have hnode := visitSpecific_node lib s1 r.1 (hookData d) cs1 r.2 hv
      have hc1 : r.2.getChild 1 = some init' := by
        rw [LSLASTNode.getChild, hnode.1]; exact hi'
      exact (hrel.child_related hi hc1).data.2 hn hc
    rcases hdecl with ⟨h1, h2⟩ | ⟨h1, h2⟩
    · -- a declaration
      have hnt : (LSLASTNode.mk (hookData d) cs1).getNodeType = .NODE_STATEMENT :=
        e.1.trans h1
      have hsub : (LSLASTNode.mk (hookData d) cs1).getNodeSubType = .NODE_DECLARATION :=
        e.2.1.trans h2
      obtain ⟨id, sym, hid, hsym⟩ := hready.2.2.1 hnt hsub
      simp only [visitSpecific, hnt, hsub, if_true,
        ConstantDeterminingVisitor.visitDeclaration, hid, hsym, Option.bind_eq_bind,
        Option.some_bind, Option.pure_def, Option.map_some', Option.some.injEq] at hv
      subst hv
      refine ⟨_, id, sym, hr, hid, hsym, ?_, ?_, ?_⟩
      · intro init hi hnn
        have hnn' : init.getNodeType ≠ .NODE_NULL := by
          rcases hnn with h | h
          · have h' : d.nodeType = .NODE_GLOBAL_VARIABLE := h
            have h1' : d.nodeType = .NODE_STATEMENT := h1
            rw [h1'] at h'
            cases h'
          · exact h
        simp [hi, hnn']
      · intro _ hno
        rcases hno with hno | ⟨init, hi, hn⟩
        · simp [hno]
        · simp [hi, hn]
      · intro init hi hn hc
        cases hi' : cs1.get? 1 with
        | none =>
          have hg : (LSLASTNode.mk (hookData d) cs1).getChild 1 = none := hi'
          simp [hg]
        | some init' =>
          have hg : (LSLASTNode.mk (hookData d) cs1).getChild 1 = some init' := hi'
          have := hnull init hi hn hc init' hi'
          by_cases hn' : init'.getNodeType = .NODE_NULL
          · simp [hg, hn']
          · simp [hg, hn', this]
    · -- a global variable
      have hnt : (LSLASTNode.mk (hookData d) cs1).getNodeType = .NODE_GLOBAL_VARIABLE :=
        e.1.trans h1
      have hlen : cs1.length = cs.length := by
        have hnode := visitSpecific_node lib s1 r.1 (hookData d) cs1 r.2 hv
        have := hrel.length
        rw [hnode.1] at this
        exact this
      have hnum : (LSLASTNode.mk (hookData d) cs1).getNumChildren > 1 := by
        simpa [LSLASTNode.getNumChildren, hlen] using h2
      obtain ⟨id, hid, hsym⟩ := hready.2.1 hnt
      obtain ⟨sym, hsym⟩ := hsym hnum
      obtain ⟨init', hi'⟩ : ∃ init', cs1.get? 1 = some init' :=
        ⟨cs1.get ⟨1, hnum⟩, List.get?_eq_get hnum⟩
      have hg : (LSLASTNode.mk (hookData d) cs1).getChild 1 = some init' := hi'
      simp only [visitSpecific, hnt, visitGlobalVariable, hid, hsym, Option.bind_eq_bind,
        Option.some_bind, Option.pure_def, Option.map_some', Option.some.injEq, hg] at hv
      subst hv
      refine ⟨_, id, sym, hr, hid, hsym, ?_, ?_, ?_⟩
      · intro init hi _
        rw [hg] at hi
        cases hi
        simp
      · intro hst
        have h1' : d.nodeType = .NODE_GLOBAL_VARIABLE := h1
        have hst' : d.nodeType = .NODE_STATEMENT := hst
        rw [h1'] at hst'
        cases hst'
      · intro init hi hn hc
        simp [hnull init hi hn hc init' hi']

/-- C19 on the declaration `integer x = 1 + 2;`. -/
theorem propagate_declaration_symbol_witness :
    Sample.declareSum.All LSLASTNode.ConstantReady ∧ Sample.declareSum.height ≤ 5 ∧
    ∃ r id sym, propagate Library.sample 5 Sample.locals Sample.declareSum = .ok r
      ∧ r.2.getChild 0 = some id ∧ id.getSymbol = some sym ∧
      (∀ init, r.2.getChild 1 = some init →
        (Sample.declareSum.getNodeType = .NODE_GLOBAL_VARIABLE
          ∨ init.getNodeType ≠ .NODE_NULL) →
        (r.1 sym).constantValue = init.getConstantValue
          ∧ (r.1 sym).constantPrecluded = init.getConstantPrecluded) ∧
      (Sample.declareSum.getNodeType = .NODE_STATEMENT →
        (r.2.getChild 1 = none
          ∨ ∃ init, r.2.getChild 1 = some init ∧ init.getNodeType = .NODE_NULL) →
        (r.1 sym).constantValue = none ∧ (r.1 sym).constantPrecluded = false) ∧
      (∀ init, Sample.declareSum.getChild 1 = some init → init.getNodeType = .NODE_NULL →
        init.getConstantValue = none → (r.1 sym).constantValue = none) :=
  ⟨Sample.declareSum_constantReady, by decide,
    (propagate_declaration_symbol Library.sample 5 Sample.locals Sample.declareSum
      Sample.declareSum_constantReady (by decide) (Or.inl ⟨rfl, rfl⟩)).1⟩

end ConstantDeterminingVisitor

section Propagation

open ConstantDeterminingVisitor

theorem ConstantDeterminingVisitor.visitChildren_indexed
    (f : SymbolStore → LSLASTNode → Except Fault (SymbolStore × LSLASTNode))
    (σ : SymbolStore) :
    ∀ (cs : List LSLASTNode) (Q : Nat → LSLASTNode → Prop),
      (∀ (i : Nat) (c : LSLASTNode), cs.get? i = some c → ∃ c', f σ c = .ok (σ, c') ∧ Q i c') →
      ∃ cs', visitChildren f σ cs = .ok (σ, cs') ∧ cs'.length = cs.length ∧
        ∀ (i : Nat) (c' : LSLASTNode), cs'.get? i = some c' → Q i c' := by
  intro cs
  induction cs with
  | nil =>
    intro Q _
    exact ⟨[], rfl, rfl, fun i c' hc => by simp at hc⟩
  | cons a cs ih =>
    intro Q h
    obtain ⟨a', ha, hQ⟩ := h 0 a rfl
    obtain ⟨cs', hcs, hl, hQs⟩ := ih (fun i => Q (i + 1))
      (fun i c hc => h (i + 1) c (by simpa using hc))
    refine ⟨a' :: cs', by simp [visitChildren, ha, hcs], by simpa using hl, ?_⟩
    intro i c' hc'
    cases i with
    | zero =>
      simp at hc'
      subst hc'
      exact hQ
    | succ i => exact hQs i c' (by simpa using hc')

/-- The run on a childless node of a class without a `visit` overload. -/
theorem ConstantDeterminingVisitor.propagate_leaf (lib : Library) (fuel : Nat)
    (s : SymbolStore) (k : NodeData) (h1 : k.nodeType ≠ .NODE_SCRIPT)
    (h2 : k.nodeType ≠ .NODE_EXPRESSION) (h3 : k.nodeType ≠ .NODE_GLOBAL_VARIABLE)
    (h4 : k.nodeType ≠ .NODE_STATEMENT) :
    propagate lib (fuel + 1) s (.mk k []) = .ok (s, .mk (hookData k) []) := by
  have e := (hookData_skeleton k).fields
  have hbelow : (if hookDescends k = true then visitChildren (propagate lib fuel) s []
      else .ok (s, [])) = (.ok (s, []) : Except Fault (SymbolStore × List LSLASTNode)) := by
    split <;> rfl
  rw [propagate_succ, hbelow]
  simp only [if_neg h1]
  have hv : visitSpecific lib s (.mk (hookData k) []) = some (s, .mk (hookData k) []) := by
    unfold visitSpecific
    split
    · rename_i h; exact absurd (e.1.symm.trans h) h3
    · rename_i h; exact absurd (e.1.symm.trans h) h4
    · rename_i h; exact absurd (e.1.symm.trans h) h2
    · rfl
  rw [hv]

theorem Folds.expression {lib : Library} {store : SymbolStore} {t : LSLASTNode}
    {c : LSLConstant} (h : Folds lib store t c) :
    t.data.nodeType = .NODE_EXPRESSION ∧ t.data.type ≠ .LST_ERROR := by
  cases h <;> exact ⟨‹_›, ‹_›⟩

theorem ConstantDeterminingVisitor.propagate_expression_node (lib : Library)
    (store : SymbolStore) (d : NodeData) (cs cs' : List LSLASTNode) (fuel : Nat)
    (t' : LSLASTNode) (hnt : d.nodeType = .NODE_EXPRESSION) (hty : d.type ≠ .LST_ERROR)
    (hch : visitChildren (propagate lib fuel) store cs = .ok (store, cs'))
    (hv : visitSpecific lib store (.mk (hookData d) cs') = some (store, t')) :
    propagate lib (fuel + 1) store (.mk d cs) = .ok (store, t') ∧ d.SameSkeleton t'.data := by
  have hdesc : hookDescends d = true := by
    rw [hookDescends_eq]
    simp [hty, hnt]
  have hns : d.nodeType ≠ .NODE_SCRIPT := by rw [hnt]; decide
  refine ⟨?_, (hookData_skeleton d).compose (visitSpecific_node lib store store _ cs' t' hv).2⟩
  rw [propagate_succ, if_pos hdesc, hch]
  simp only [if_neg hns, hv]

theorem ConstantDeterminingVisitor.hookData_expression (d : NodeData)
    (hnt : d.nodeType = .NODE_EXPRESSION) :
    (hookData d).nodeType = .NODE_EXPRESSION ∧ (hookData d).subType = d.subType
      ∧ (hookData d).type = d.type ∧ (hookData d).operation = d.operation
      ∧ (hookData d).loc = d.loc := by
  have e := (hookData_skeleton d).fields
  exact ⟨e.1.trans hnt, e.2.1, e.2.2.1, e.2.2.2.1, e.2.2.2.2.2.2.1⟩

theorem ConstantDeterminingVisitor.hookData_constant (k : NodeData)
    (hk : k.nodeType = .NODE_CONSTANT) (hkt : k.type ≠ .LST_ERROR) : hookData k = k := by
  obtain ⟨nt, st, ty, loc, op, cv, cp, sn, sy, da, nm, sm, tb⟩ := k
  rw [hookData_eq]
  simp only at hk hkt
  simp [hk, hkt]

theorem ConstantDeterminingVisitor.visitSpecific_hooked_expression (lib : Library)
    (s : SymbolStore) (d : NodeData) (cs : List LSLASTNode)
    (hnt : d.nodeType = .NODE_EXPRESSION)
    (h : d.subType ∉ [LSLNodeSubType.NODE_LVALUE_EXPRESSION, .NODE_LIST_EXPRESSION,
      .NODE_VECTOR_EXPRESSION, .NODE_QUATERNION_EXPRESSION, .NODE_TYPECAST_EXPRESSION]) :
    visitSpecific lib s (.mk (hookData d) cs) =
      (visitExpression lib (.mk (hookData d) cs)).map (fun r => (s, r.1.node)) := by
  obtain ⟨e1, e2, _⟩ := hookData_expression d hnt
  simp only [List.mem_cons, List.mem_singleton, List.not_mem_nil, or_false, not_or] at h
  have e2' : (LSLASTNode.mk (hookData d) cs).getNodeSubType = d.subType := e2
  exact visitSpecific_expression lib s (.mk (hookData d) cs) e1 (by rw [e2']; exact h.1)
    (by rw [e2']; exact h.2.1) (by rw [e2']; exact h.2.2.1) (by rw [e2']; exact h.2.2.2.1)
    (by rw [e2']; exact h.2.2.2.2)

theorem ConstantDeterminingVisitor.visitSpecific_hooked_lvalue (lib : Library)
    (s : SymbolStore) (d : NodeData) (cs : List LSLASTNode)
    (hnt : d.nodeType = .NODE_EXPRESSION) (hst : d.subType = .NODE_LVALUE_EXPRESSION) :
    visitSpecific lib s (.mk (hookData d) cs) =
      (ConstantDeterminingVisitor.visitLValueExpression s (.mk (hookData d) cs)).map
        (fun v => (s, v.node)) :=
  visitSpecific_lvalue lib s (.mk (hookData d) cs) (hookData_expression d hnt).1
    ((hookData_expression d hnt).2.1.trans hst)

theorem ConstantDeterminingVisitor.visitSpecific_hooked_list (lib : Library)
    (s : SymbolStore) (d : NodeData) (cs : List LSLASTNode)
    (hnt : d.nodeType = .NODE_EXPRESSION) (hst : d.subType = .NODE_LIST_EXPRESSION) :
    visitSpecific lib s (.mk (hookData d) cs) =
      (visitListExpression (.mk (hookData d) cs)).map (fun v => (s, v.node)) :=
  visitSpecific_list lib s (.mk (hookData d) cs) (hookData_expression d hnt).1
    ((hookData_expression d hnt).2.1.trans hst)

theorem ConstantDeterminingVisitor.visitSpecific_hooked_vector (lib : Library)
    (s : SymbolStore) (d : NodeData) (cs : List LSLASTNode)
    (hnt : d.nodeType = .NODE_EXPRESSION) (hst : d.subType = .NODE_VECTOR_EXPRESSION) :
    visitSpecific lib s (.mk (hookData d) cs) =
      some (s, (visitVectorExpression (.mk (hookData d) cs)).node) :=
  visitSpecific_vector lib s (.mk (hookData d) cs) (hookData_expression d hnt).1
    ((hookData_expression d hnt).2.1.trans hst)

theorem ConstantDeterminingVisitor.visitSpecific_hooked_quaternion (lib : Library)
    (s : SymbolStore) (d : NodeData) (cs : List LSLASTNode)
    (hnt : d.nodeType = .NODE_EXPRESSION) (hst : d.subType = .NODE_QUATERNION_EXPRESSION) :
    visitSpecific lib s (.mk (hookData d) cs) =
      some (s, (visitQuaternionExpression (.mk (hookData d) cs)).node) :=
  visitSpecific_quaternion lib s (.mk (hookData d) cs) (hookData_expression d hnt).1
    ((hookData_expression d hnt).2.1.trans hst)

theorem ConstantDeterminingVisitor.visitSpecific_hooked_typecast (lib : Library)
    (s : SymbolStore) (d : NodeData) (cs : List LSLASTNode)
    (hnt : d.nodeType = .NODE_EXPRESSION) (hst : d.subType = .NODE_TYPECAST_EXPRESSION) :
    visitSpecific lib s (.mk (hookData d) cs) =
      (visitTypecastExpression lib (.mk (hookData d) cs)).map (fun v => (s, v.node)) :=
  visitSpecific_typecast lib s (.mk (hookData d) cs) (hookData_expression d hnt).1
    ((hookData_expression d hnt).2.1.trans hst)

theorem LSLASTNode.numericConstant_of_constant {n : LSLASTNode} {c : LSLConstant} {f : F32}
    (hc : n.getConstantValue = some c) (hf : c.numeric = some f) :
    n.numericConstant = some f := by
  cases c <;> simp [LSLConstant.numeric] at hf <;>
    simp [LSLASTNode.numericConstant, hc, hf]

theorem LSLASTNode.type_of_skeleton {t t' : LSLASTNode} (h : t.data.SameSkeleton t'.data) :
    t'.getType = t.data.type ∧ t'.getNodeType = t.data.nodeType :=
  ⟨h.fields.2.2.1, h.fields.1⟩

/-- A foldable expression comes out of the pass with the constant it folds to, and the
pass leaves the symbol store as it is. -/
theorem ConstantDeterminingVisitor.propagate_folds (lib : Library) (store : SymbolStore)
    {t : LSLASTNode} {c : LSLConstant} (h : Folds lib store t c) :
    ∀ fuel, t.height ≤ fuel →
      ∃ t', propagate lib fuel store t = .ok (store, t') ∧ t'.getConstantValue = some c
        ∧ t.data.SameSkeleton t'.data := by
  induction h with
  | literal d k c hnt hst hty hop hk hkt hkc =>
    intro fuel hfuel
    obtain ⟨fuel, rfl⟩ : ∃ f, fuel = f + 2 := ⟨fuel - 2, by
      simp [LSLASTNode.height, LSLASTNode.height.heightList] at hfuel; omega⟩
    obtain ⟨e1, e2, e3, e4, e5⟩ := hookData_expression d hnt
    have hch : visitChildren (propagate lib (fuel + 1)) store [.mk k []]
        = .ok (store, [.mk k []]) := by
      simp [visitChildren, propagate_leaf lib fuel store k (by rw [hk]; decide)
        (by rw [hk]; decide) (by rw [hk]; decide) (by rw [hk]; decide),
        hookData_constant k hk hkt]
    have hv : visitSpecific lib store (.mk (hookData d) [.mk k []]) = some (store,
        (LSLASTNode.mk (hookData d) [.mk k []]).setConstantValue (some c)) := by
      rw [visitSpecific_hooked_expression lib store d _ hnt (by rw [hst]; decide),
        visitExpression_cons]
      simp [LSLASTNode.getType_mk, hkt, e2, hst, e4, hop, LSLASTNode.getConstantValue, hkc]
    obtain ⟨hp, hs⟩ := propagate_expression_node lib store d _ _ (fuel + 1) _ hnt hty hch hv
    exact ⟨_, hp, rfl, hs⟩
  | lvalue d id sym c hnt hst hty hid hsym hasg hcv =>
    intro fuel hfuel
    obtain ⟨fuel, rfl⟩ : ∃ f, fuel = f + 2 := ⟨fuel - 2, by
      simp [LSLASTNode.height, LSLASTNode.height.heightList] at hfuel; omega⟩
    have hsy : (hookData id).symbol = some sym :=
      (hookData_skeleton id).fields.2.2.2.2.1.trans hsym
    have hch : visitChildren (propagate lib (fuel + 1)) store [.mk id []]
        = .ok (store, [.mk (hookData id) []]) := by
      simp [visitChildren, propagate_leaf lib fuel store id (by rw [hid]; decide)
        (by rw [hid]; decide) (by rw [hid]; decide) (by rw [hid]; decide)]
    have hv : visitSpecific lib store (.mk (hookData d) [.mk (hookData id) []]) = some (store,
        (LSLASTNode.mk (hookData d) [.mk (hookData id) []]).setConstantValue (some c)) := by
      rw [visitSpecific_hooked_lvalue lib store d _ hnt hst]
      simp [ConstantDeterminingVisitor.visitLValueExpression, LSLASTNode.getChild,
        LSLASTNode.getSymbol, hsy, hasg, hcv]
    obtain ⟨hp, hs⟩ := propagate_expression_node lib store d _ _ (fuel + 1) _ hnt hty hch hv
    exact ⟨_, hp, rfl, hs⟩
  | member d id m sym cv c hnt hst hty hid hsym hm hasg hcv hmc =>
    intro fuel hfuel
    obtain ⟨fuel, rfl⟩ : ∃ f, fuel = f + 2 := ⟨fuel - 2, by
      simp [LSLASTNode.height, LSLASTNode.height.heightList] at hfuel; omega⟩
    have hsy : (hookData id).symbol = some sym :=
      (hookData_skeleton id).fields.2.2.2.2.1.trans hsym
    have hmt : (hookData m).nodeType = .NODE_IDENTIFIER :=
      (hookData_skeleton m).fields.1.trans hm
    have hmn : (hookData m).name = m.name := (hookData_skeleton m).fields.2.2.2.2.2.2.2
    have hch : visitChildren (propagate lib (fuel + 1)) store [.mk id [], .mk m []]
        = .ok (store, [.mk (hookData id) [], .mk (hookData m) []]) := by
      simp [visitChildren, propagate_leaf lib fuel store id (by rw [hid]; decide)
        (by rw [hid]; decide) (by rw [hid]; decide) (by rw [hid]; decide),
        propagate_leaf lib fuel store m (by rw [hm]; decide)
        (by rw [hm]; decide) (by rw [hm]; decide) (by rw [hm]; decide)]
    have hv : visitSpecific lib store
        (.mk (hookData d) [.mk (hookData id) [], .mk (hookData m) []]) = some (store,
        (LSLASTNode.mk (hookData d) [.mk (hookData id) [],
          .mk (hookData m) []]).setConstantValue (some c)) := by
      rw [visitSpecific_hooked_lvalue lib store d _ hnt hst]
      simp [ConstantDeterminingVisitor.visitLValueExpression, LSLASTNode.getChild,
        LSLASTNode.getSymbol, LSLASTNode.getNodeType, LSLASTNode.getName, hsy, hasg, hcv,
        hmt, hmn, hmc]
    obtain ⟨hp, hs⟩ := propagate_expression_node lib store d _ _ (fuel + 1) _ hnt hty hch hv
    exact ⟨_, hp, rfl, hs⟩
  | parenthesis d e c hnt hst hty hop he ih =>
    intro fuel hfuel
    obtain ⟨fuel, rfl⟩ : ∃ f, fuel = f + 1 := ⟨fuel - 1, by
      have := (LSLASTNode.mk d [e]).height_pos; omega⟩
    have hlt := LSLASTNode.height_lt_of_mem (List.mem_cons_self e []) d
    obtain ⟨e', hrun, hcv, hsk⟩ := ih fuel (by omega)
    obtain ⟨e1, e2, e3, e4, e5⟩ := hookData_expression d hnt
    have het : e'.getType ≠ .LST_ERROR := by
      rw [(LSLASTNode.type_of_skeleton hsk).1]; exact he.expression.2
    have hch : visitChildren (propagate lib fuel) store [e] = .ok (store, [e']) := by
      simp [visitChildren, hrun]
    have hv : visitSpecific lib store (.mk (hookData d) [e']) = some (store,
        (LSLASTNode.mk (hookData d) [e']).setConstantValue (some c)) := by
      rw [visitSpecific_hooked_expression lib store d _ hnt (by
        rcases hst with h | h <;> rw [h] <;> decide), visitExpression_cons]
      rcases hst with h | h <;> rcases hop with h' | h' <;>
        simp [het, e2, h, e4, h', hcv]
    obtain ⟨hp, hs⟩ := propagate_expression_node lib store d _ _ fuel _ hnt hty hch hv
    exact ⟨_, hp, rfl, hs⟩
  | unary d e ce c hnt hst hty hop1 hop2 hop3 he hval ih =>
    intro fuel hfuel
    obtain ⟨fuel, rfl⟩ : ∃ f, fuel = f + 1 := ⟨fuel - 1, by
      have := (LSLASTNode.mk d [e]).height_pos; omega⟩
    have hlt := LSLASTNode.height_lt_of_mem (List.mem_cons_self e []) d
    obtain ⟨e', hrun, hcv, hsk⟩ := ih fuel (by omega)
    obtain ⟨e1, e2, e3, e4, e5⟩ := hookData_expression d hnt
    have het : e'.getType ≠ .LST_ERROR := by
      rw [(LSLASTNode.type_of_skeleton hsk).1]; exact he.expression.2
    have hch : visitChildren (propagate lib fuel) store [e] = .ok (store, [e']) := by
      simp [visitChildren, hrun]
    have hv : visitSpecific lib store (.mk (hookData d) [e']) = some (store,
        (LSLASTNode.mk (hookData d) [e']).setConstantValue (some c)) := by
      rw [visitSpecific_hooked_expression lib store d _ hnt (by rw [hst]; decide),
        visitExpression_cons]
      simp [het, e2, hst, e4, e5, hop1, hop2, hop3, hcv, hval]
    obtain ⟨hp, hs⟩ := propagate_expression_node lib store d _ _ fuel _ hnt hty hch hv
    exact ⟨_, hp, rfl, hs⟩
  | binary d l r cl cr c hnt hst hty hop1 hop2 hop3 hl hr hval ihl ihr =>
    intro fuel hfuel
    obtain ⟨fuel, rfl⟩ : ∃ f, fuel = f + 1 := ⟨fuel - 1, by
      have := (LSLASTNode.mk d [l, r]).height_pos; omega⟩
    have hlt1 := LSLASTNode.height_lt_of_mem (List.mem_cons_self l [r]) d
    have hlt2 := LSLASTNode.height_lt_of_mem
      (List.mem_cons_of_mem l (List.mem_cons_self r [])) d
    obtain ⟨l', hrunl, hcvl, hskl⟩ := ihl fuel (by omega)
    obtain ⟨r', hrunr, hcvr, hskr⟩ := ihr fuel (by omega)
    obtain ⟨e1, e2, e3, e4, e5⟩ := hookData_expression d hnt
    have hlt : l'.getType ≠ .LST_ERROR := by
      rw [(LSLASTNode.type_of_skeleton hskl).1]; exact hl.expression.2
    have hrt : r'.getType ≠ .LST_ERROR := by
      rw [(LSLASTNode.type_of_skeleton hskr).1]; exact hr.expression.2
    have hch : visitChildren (propagate lib fuel) store [l, r] = .ok (store, [l', r']) := by
      simp [visitChildren, hrunl, hrunr]
    have hv : visitSpecific lib store (.mk (hookData d) [l', r']) = some (store,
        (LSLASTNode.mk (hookData d) [l', r']).setConstantValue (some c)) := by
      rw [visitSpecific_hooked_expression lib store d _ hnt (by rw [hst]; decide),
        visitExpression_cons]
      simp [hlt, hrt, e2, hst, e4, e5, hop1, hop2, hop3, hcvl, hcvr, hval]
    obtain ⟨hp, hs⟩ := propagate_expression_node lib store d _ _ fuel _ hnt hty hch hv
    exact ⟨_, hp, rfl, hs⟩
  | typecast d e ce c hnt hst hty he hval ih =>
    intro fuel hfuel
    obtain ⟨fuel, rfl⟩ : ∃ f, fuel = f + 1 := ⟨fuel - 1, by
      have := (LSLASTNode.mk d [e]).height_pos; omega⟩
    have hlt := LSLASTNode.height_lt_of_mem (List.mem_cons_self e []) d
    obtain ⟨e', hrun, hcv, hsk⟩ := ih fuel (by omega)
    obtain ⟨e1, e2, e3, e4, e5⟩ := hookData_expression d hnt
    have hch : visitChildren (propagate lib fuel) store [e] = .ok (store, [e']) := by
      simp [visitChildren, hrun]
    have hv : visitSpecific lib store (.mk (hookData d) [e']) = some (store,
        ((LSLASTNode.mk (hookData d) [e']).setConstantValue none).setConstantValue
          (some c)) := by
      rw [visitSpecific_hooked_typecast lib store d _ hnt hst]
      simp [visitTypecastExpression, LSLASTNode.getChild, hcv, LSLASTNode.getType_mk, e3,
        hval]
    obtain ⟨hp, hs⟩ := propagate_expression_node lib store d _ _ fuel _ hnt hty hch hv
    exact ⟨_, hp, rfl, hs⟩
  | vector d x y z cx cy cz fx fy fz hnt hst hty hx hy hz hfx hfy hfz ihx ihy ihz =>
    intro fuel hfuel
    obtain ⟨fuel, rfl⟩ : ∃ f, fuel = f + 1 := ⟨fuel - 1, by
      have := (LSLASTNode.mk d [x, y, z]).height_pos; omega⟩
    have hlt1 := LSLASTNode.height_lt_of_mem (List.mem_cons_self x [y, z]) d
    have hlt2 := LSLASTNode.height_lt_of_mem
      (List.mem_cons_of_mem x (List.mem_cons_self y [z])) d
    have hlt3 := LSLASTNode.height_lt_of_mem
      (List.mem_cons_of_mem x (List.mem_cons_of_mem y (List.mem_cons_self z []))) d
    obtain ⟨x', hrunx, hcvx, _⟩ := ihx fuel (by omega)
    obtain ⟨y', hruny, hcvy, _⟩ := ihy fuel (by omega)
    obtain ⟨z', hrunz, hcvz, _⟩ := ihz fuel (by omega)
    have hch : visitChildren (propagate lib fuel) store [x, y, z]
        = .ok (store, [x', y', z']) := by
      simp [visitChildren, hrunx, hruny, hrunz]
    have hscan := scanCoordinates_complete 3 (.mk (hookData d) [x', y', z']) [x', y', z']
      [fx, fy, fz] [] (by
        simp [LSLASTNode.numericConstant_of_constant hcvx hfx,
          LSLASTNode.numericConstant_of_constant hcvy hfy,
          LSLASTNode.numericConstant_of_constant hcvz hfz]) (by simp)
    have hv : visitSpecific lib store (.mk (hookData d) [x', y', z']) = some (store,
        (LSLASTNode.mk (hookData d) [x', y', z']).setConstantValue
          (some (.vector fx fy fz))) := by
      rw [visitSpecific_hooked_vector lib store d _ hnt hst]
      simp [visitVectorExpression, hscan]
    obtain ⟨hp, hs⟩ := propagate_expression_node lib store d _ _ fuel _ hnt hty hch hv
    exact ⟨_, hp, rfl, hs⟩
  | quaternion d x y z w cx cy cz cw fx fy fz fw hnt hst hty hx hy hz hw hfx hfy hfz hfw
      ihx ihy ihz ihw =>
    intro fuel hfuel
    obtain ⟨fuel, rfl⟩ : ∃ f, fuel = f + 1 := ⟨fuel - 1, by
      have := (LSLASTNode.mk d [x, y, z, w]).height_pos; omega⟩
    have hlt1 := LSLASTNode.height_lt_of_mem (List.mem_cons_self x [y, z, w]) d
    have hlt2 := LSLASTNode.height_lt_of_mem
      (List.mem_cons_of_mem x (List.mem_cons_self y [z, w])) d
    have hlt3 := LSLASTNode.height_lt_of_mem
      (List.mem_cons_of_mem x (List.mem_cons_of_mem y (List.mem_cons_self z [w]))) d
    have hlt4 := LSLASTNode.height_lt_of_mem
      (List.mem_cons_of_mem x (List.mem_cons_of_mem y
        (List.mem_cons_of_mem z (List.mem_cons_self w [])))) d
    obtain ⟨x', hrunx, hcvx, _⟩ := ihx fuel (by omega)
    obtain ⟨y', hruny, hcvy, _⟩ := ihy fuel (by omega)
    obtain ⟨z', hrunz, hcvz, _⟩ := ihz fuel (by omega)
    obtain ⟨w', hrunw, hcvw, _⟩ := ihw fuel (by omega)
    have hch : visitChildren (propagate lib fuel) store [x, y, z, w]
        = .ok (store, [x', y', z', w']) := by
      simp [visitChildren, hrunx, hruny, hrunz, hrunw]
    have hscan := scanCoordinates_complete 4 (.mk (hookData d) [x', y', z', w'])
      [x', y', z', w'] [fx, fy, fz, fw] [] (by
        simp [LSLASTNode.numericConstant_of_constant hcvx hfx,
          LSLASTNode.numericConstant_of_constant hcvy hfy,
          LSLASTNode.numericConstant_of_constant hcvz hfz,
          LSLASTNode.numericConstant_of_constant hcvw hfw]) (by simp)
    have hv : visitSpecific lib store (.mk (hookData d) [x', y', z', w']) = some (store,
        (LSLASTNode.mk (hookData d) [x', y', z', w']).setConstantValue
          (some (.quaternion fx fy fz fw))) := by
      rw [visitSpecific_hooked_quaternion lib store d _ hnt hst]
      simp [visitQuaternionExpression, hscan]
    obtain ⟨hp, hs⟩ := propagate_expression_node lib store d _ _ fuel _ hnt hty hch hv
    exact ⟨_, hp, rfl, hs⟩
  | emptyList d p hnt hst hty hp =>
    intro fuel hfuel
    obtain ⟨fuel, rfl⟩ : ∃ f, fuel = f + 2 := ⟨fuel - 2, by
      simp [LSLASTNode.height, LSLASTNode.height.heightList] at hfuel; omega⟩
    have hpt : (hookData p).nodeType = .NODE_NULL := (hookData_skeleton p).fields.1.trans hp
    have hch : visitChildren (propagate lib (fuel + 1)) store [.mk p []]
        = .ok (store, [.mk (hookData p) []]) := by
      simp [visitChildren, propagate_leaf lib fuel store p (by rw [hp]; decide)
        (by rw [hp]; decide) (by rw [hp]; decide) (by rw [hp]; decide)]
    have hv : visitSpecific lib store (.mk (hookData d) [.mk (hookData p) []]) = some (store,
        (LSLASTNode.mk (hookData d) [.mk (hookData p) []]).setConstantValue
          (some (.list []))) := by
      rw [visitSpecific_hooked_list lib store d _ hnt hst]
      simp [visitListExpression, LSLASTNode.getNodeType, hpt]
    obtain ⟨hp, hs⟩ := propagate_expression_node lib store d _ _ (fuel + 1) _ hnt hty hch hv
    exact ⟨_, hp, rfl, hs⟩
  | list d es ks hnt hst hty hne hlen hes ih =>
    intro fuel hfuel
    obtain ⟨fuel, rfl⟩ : ∃ f, fuel = f + 1 := ⟨fuel - 1, by
      have := (LSLASTNode.mk d es).height_pos; omega⟩
    have hkey : ∀ (i : Nat) (e : LSLASTNode), es.get? i = some e →
        ∃ k, ks.get? i = some k := by
      intro i e hi
      have hi' : i < ks.length := by
        rw [hlen]
        by_contra hlt
        rw [List.get?_eq_none.mpr (Nat.le_of_not_lt hlt)] at hi
        cases hi
      exact ⟨ks.get ⟨i, hi'⟩, List.get?_eq_get hi'⟩
    obtain ⟨es', hch, hl', hQ⟩ := visitChildren_indexed (propagate lib fuel) store es
      (fun i e' => e'.getNodeType = .NODE_EXPRESSION ∧
        ∃ k, ks.get? i = some k ∧ e'.getConstantValue = some k)
      (fun i e hi => by
        obtain ⟨k, hk⟩ := hkey i e hi
        have hlt := LSLASTNode.height_lt_of_mem (LSLASTNode.mem_of_get? hi) d
        obtain ⟨e', hrun, hcv, hsk⟩ := ih i e k hi hk fuel (by omega)
        exact ⟨e', hrun, (LSLASTNode.type_of_skeleton hsk).2.trans
          (hes i e k hi hk).expression.1, k, hk, hcv⟩)
    have hall : ∀ c ∈ es', c.isConstant = true := by
      intro c hc
      obtain ⟨i, hi⟩ := LSLASTNode.get?_of_mem hc
      obtain ⟨_, k, _, hcv⟩ := hQ i c hi
      simp [LSLASTNode.isConstant, hcv]
    obtain ⟨items, hcopy, hitems⟩ := copyConstants_all es' [] hall
    have hks : items = ks := by
      have hmap : es'.map LSLASTNode.getConstantValue = ks.map some := by
        apply List.ext_get?
        intro i
        rw [List.get?_map, List.get?_map]
        cases hi : es'.get? i with
        | none =>
          have : ks.get? i = none := by
            rw [List.get?_eq_none] at hi ⊢
            omega
          rw [this]; rfl
        | some c =>
          obtain ⟨_, k, hk, hcv⟩ := hQ i c hi
          rw [hk]
          simp [hcv]
      rw [hmap] at hitems
      exact List.map_injective_iff.mpr (Option.some_injective _) hitems
    obtain ⟨first, rest, hcons⟩ : ∃ first rest, es' = first :: rest := by
      cases es' with
      | nil =>
        have : es.length = 0 := by simpa using hl'.symm
        exact absurd (List.length_eq_zero.mp this) hne
      | cons a l => exact ⟨a, l, rfl⟩
    have hfirst : first.getNodeType = .NODE_EXPRESSION :=
      (hQ 0 first (by rw [hcons]; rfl)).1
    have hv : visitSpecific lib store (.mk (hookData d) es') = some (store,
        (LSLASTNode.mk (hookData d) es').setConstantValue (some (.list ks))) := by
      rw [visitSpecific_hooked_list lib store d _ hnt hst]
      have hfn := firstNonConstant_none es' hall
      rw [hcons] at hfn hcopy
      subst hks
      simp [visitListExpression, hcons, hfirst, hfn, hcopy]
    obtain ⟨hp, hs⟩ := propagate_expression_node lib store d _ _ fuel _ hnt hty hch hv
    exact ⟨_, hp, rfl, hs⟩

end Propagation

section Foldable

open ConstantDeterminingVisitor

/-- C18 (counterexample): every leaf of `print(1)` is a literal, and the run of the pass
leaves the print expression without a constant: `visit(LSLExpression *)` returns at the
`default` label of its sub-type switch. -/
theorem ConstantDeterminingVisitor.print_literal_without_constant :
    Sample.printLiteral.LeavesKnown (Sample.store none 0) ∧
      ∃ r, propagate Library.sample 3 (Sample.store none 0) Sample.printLiteral = .ok r
        ∧ r.2.getConstantValue = none := by
  refine ⟨?_, ?_⟩
  · simp [LSLASTNode.LeavesKnown, Sample.printLiteral, Sample.literal, LSLConstant.toNode,
      LSLASTNode.all_mk_iff, LSLASTNode.getNodeType, LSLASTNode.children]
  · exact ⟨_, rfl, rfl⟩

/-- C18 (amended): after the run of the constant-propagation pass on an expression that
folds (it is built from literals and from references to symbols with the assignment
counter 0 that hold a constant, by parentheses, by unary and binary operators on which
the operation module yields a value, by typecasts on which the cast yields a value, by
vector and quaternion constructors over integer or float components and by list
constructors, and none of its nodes has the type `ERROR`) the expression has a non-empty
constant slot: the run returns, with any fuel not below the height of the expression, it
leaves the symbol store as it was, and the expression holds the constant it folds to. -/
theorem ConstantDeterminingVisitor.propagate_foldable_constant (lib : Library)
    (store : SymbolStore) (t : LSLASTNode) (c : LSLConstant) (h : Folds lib store t c)
    (fuel : Nat) (hfuel : t.height ≤ fuel) :
    ∃ t', propagate lib fuel store t = .ok (store, t') ∧ t'.isConstant = true
      ∧ t'.getConstantValue = some c := by
  obtain ⟨t', hrun, hcv, _⟩ := propagate_folds lib store h fuel hfuel
  exact ⟨t', hrun, by simp [LSLASTNode.isConstant, hcv], hcv⟩

theorem ConstantDeterminingVisitor.propagate_foldable_constant_witness :
    ∃ t', propagate Library.sample 4 (Sample.store (some (.integer 2)) 0)
        Sample.symbolPlusOne = .ok (Sample.store (some (.integer 2)) 0, t')
      ∧ t'.isConstant = true ∧ t'.getConstantValue = some (.integer 3) :=
  propagate_foldable_constant Library.sample (Sample.store (some (.integer 2)) 0)
    Sample.symbolPlusOne (.integer 3)
    (Folds.binary _ _ _ (.integer 2) (.integer 1) _ rfl rfl (by decide) (by decide)
      (by decide) (by decide)
      (Folds.lvalue _ _ 0 _ rfl rfl (by decide) rfl rfl rfl rfl)
      (Folds.literal _ _ _ rfl rfl (by decide) rfl rfl (by decide) rfl)
      rfl)
    4 (by decide)

end Foldable

/-! ## Symbol resolution -/

section Resolving

theorem LSLASTNode.SymbolsBelow.mono {n m : Nat} {t : LSLASTNode} (h : t.SymbolsBelow n)
    (hnm : n ≤ m) : t.SymbolsBelow m :=
  LSLASTNode.All.imp (fun _ hx q hq => Nat.lt_of_lt_of_le (hx q hq) hnm) h

theorem LSLASTNode.SymbolsBelow.child_below {n : Nat} {t c : LSLASTNode}
    (h : t.SymbolsBelow n) (hc : c ∈ t.children) : c.SymbolsBelow n :=
  LSLASTNode.All.child h hc

theorem LSLASTNode.SymbolsBelow.getChild_below {n i : Nat} {t c : LSLASTNode}
    (h : t.SymbolsBelow n) (hc : t.getChild i = some c) : c.SymbolsBelow n :=
  h.child_below (LSLASTNode.mem_of_get? hc)

theorem LSLASTNode.SymbolsBelow.rebuild {n : Nat} {t : LSLASTNode} {d : NodeData}
    {cs : List LSLASTNode} (h : t.SymbolsBelow n) (hd : d.symbol = t.data.symbol)
    (hcs : ∀ c ∈ cs, c.SymbolsBelow n) : (LSLASTNode.mk d cs).SymbolsBelow n := by
  refine (LSLASTNode.all_mk_iff _ d cs).mpr ⟨?_, hcs⟩
  intro q hq
  exact LSLASTNode.All.here h q (by
    simp only [LSLASTNode.getSymbol] at hq ⊢
    rw [← hd]; exact hq)

theorem LSLASTNode.SymbolsBelow.replaceChild_below {n i : Nat} {t c : LSLASTNode}
    (h : t.SymbolsBelow n) (hc : c.SymbolsBelow n) : (t.replaceChild i c).SymbolsBelow n := by
  refine h.rebuild rfl ?_
  intro x hx
  rcases List.mem_or_eq_of_mem_set hx with hx | hx
  · exact h.child_below hx
  · rw [hx]; exact hc

theorem LSLASTNode.SymbolsBelow.setSymbol_below {n q : Nat} {t : LSLASTNode}
    (h : t.SymbolsBelow n) (hq : q < n) : (t.setSymbol (some q)).SymbolsBelow n := by
  refine (LSLASTNode.all_mk_iff _ _ _).mpr ⟨?_, fun c hc => h.child_below hc⟩
  intro p hp
  simp only [LSLASTNode.getSymbol, LSLASTNode.data] at hp
  cases hp
  exact hq

theorem LSLASTNode.SymbolsBelow.setSymbol_none {n : Nat} {t : LSLASTNode}
    (h : t.SymbolsBelow n) : (t.setSymbol none).SymbolsBelow n := by
  refine (LSLASTNode.all_mk_iff _ _ _).mpr ⟨?_, fun c hc => h.child_below hc⟩
  intro p hp
  simp [LSLASTNode.getSymbol, LSLASTNode.data] at hp

theorem LSLASTNode.SymbolsBelow.setType_below {n : Nat} {t : LSLASTNode} (ty : LSLIType)
    (h : t.SymbolsBelow n) : (t.setType ty).SymbolsBelow n :=
  h.rebuild rfl (fun _ hc => h.child_below hc)

theorem LSLASTNode.SymbolsBelow.setSymbolTable_below {n : Nat} {t : LSLASTNode}
    (table : Option Nat) (h : t.SymbolsBelow n) : (t.setSymbolTable table).SymbolsBelow n :=
  h.rebuild rfl (fun _ hc => h.child_below hc)

theorem LSLASTNode.SymbolsBelow.nodeAt_below {n : Nat} :
    ∀ (path : List Nat) {t x : LSLASTNode}, t.SymbolsBelow n → t.nodeAt path = some x →
      x.SymbolsBelow n := by
  intro path
  induction path with
  | nil =>
    intro t x h hx
    simp only [LSLASTNode.nodeAt, Option.some.injEq] at hx
    rw [← hx]; exact h
  | cons i rest ih =>
    intro t x h hx
    simp only [LSLASTNode.nodeAt] at hx
    cases hc : t.getChild i with
    | none => rw [hc] at hx; cases hx
    | some c =>
      rw [hc] at hx
      exact ih (h.getChild_below hc) hx

theorem LSLASTNode.SymbolsBelow.setAt_below {n : Nat} :
    ∀ (path : List Nat) {t r : LSLASTNode}, t.SymbolsBelow n → r.SymbolsBelow n →
      (t.setAt path r).SymbolsBelow n := by
  intro path
  induction path with
  | nil => intro t r _ hr; exact hr
  | cons i rest ih =>
    intro t r h hr
    simp only [LSLASTNode.setAt]
    cases hc : t.getChild i with
    | none => exact h
    | some c => exact h.replaceChild_below (ih (h.getChild_below hc) hr)

namespace Resolution

theorem lookupInTable_lt {st : Resolution} (h : st.WellFormed) {table : Nat} {name : String}
    {type : LSLSymbolType} {p : Nat} (hp : st.lookupInTable table name type = some p) :
    p < st.symbols.length := by
  unfold lookupInTable at hp
  have hmem := List.mem_of_find?_eq_some hp
  by_cases hlt : table < st.tables.length
  · have hget : st.tables.getD table [] = st.tables.get ⟨table, hlt⟩ := by
      simp [List.getD, List.getElem?_eq_getElem hlt]
    rw [hget] at hmem
    exact h _ (List.get_mem _ _ _) p hmem
  · have hget : st.tables.getD table [] = [] := by
      simp [List.getD, List.getElem?_eq_none (Nat.le_of_not_lt hlt)]
    rw [hget] at hmem
    exact absurd hmem (List.not_mem_nil p)

theorem lookupSymbol_lt {st : Resolution} (h : st.WellFormed) {scopes : List Nat}
    {name : String} {type : LSLSymbolType} {p : Nat}
    (hp : st.lookupSymbol scopes name type = some p) : p < st.symbols.length := by
  unfold lookupSymbol at hp
  obtain ⟨table, _, ht⟩ := List.exists_of_findSome?_eq_some hp
  exact lookupInTable_lt h ht

theorem WellFormed.report {st : Resolution} (h : st.WellFormed) (code : ErrorCode)
    (name : String) : (st.report code name).WellFormed := h

theorem WellFormed.newSymbol {st : Resolution} (h : st.WellFormed) (sym : LSLSymbol) :
    (st.newSymbol sym).1.WellFormed := by
  intro table ht p hp
  have := h table ht p hp
  simp only [Resolution.newSymbol, List.length_append, List.length_singleton]
  omega

theorem WellFormed.defineSymbol {st : Resolution} (h : st.WellFormed) (scopes : List Nat)
    {sym : Nat} (hs : sym < st.symbols.length) : (st.defineSymbol scopes sym).WellFormed := by
  unfold Resolution.defineSymbol
  cases scopes with
  | nil => exact h
  | cons table rest =>
    intro t ht p hp
    simp only at ht
    rcases List.mem_or_eq_of_mem_set ht with ht | ht
    · exact h t ht p hp
    · subst ht
      rcases List.mem_append.mp hp with hp | hp
      · by_cases hlt : table < st.tables.length
        · have hget : st.tables.getD table [] = st.tables.get ⟨table, hlt⟩ := by
            simp [List.getD, List.getElem?_eq_getElem hlt]
          rw [hget] at hp
          exact h _ (List.get_mem _ _ _) p hp
        · have hget : st.tables.getD table [] = [] := by
            simp [List.getD, List.getElem?_eq_none (Nat.le_of_not_lt hlt)]
          rw [hget] at hp
          exact absurd hp (List.not_mem_nil p)
      · simp only [List.mem_singleton] at hp
        subst hp
        exact hs

theorem defineSymbol_symbols (st : Resolution) (scopes : List Nat) (sym : Nat) :
    (st.defineSymbol scopes sym).symbols = st.symbols := by
  unfold Resolution.defineSymbol
  cases scopes <;> rfl

theorem resolveSymbol_sound {st : Resolution} (h : st.WellFormed) (scopes : List Nat)
    {id : LSLASTNode} (hid : id.SymbolsBelow st.symbols.length) (type : LSLSymbolType) :
    (st.resolveSymbol scopes id type).1.WellFormed
      ∧ (st.resolveSymbol scopes id type).1.symbols = st.symbols
      ∧ (st.resolveSymbol scopes id type).2.SymbolsBelow st.symbols.length := by
  unfold Resolution.resolveSymbol
  cases hl : st.lookupSymbol scopes id.getName type with
  | none => exact ⟨h.report _ _, rfl, hid.setSymbol_none.setType_below _⟩
  | some p => exact ⟨h, rfl, hid.setSymbol_below (lookupSymbol_lt h hl)⟩

end Resolution

end Resolving

section Resolving

open BaseSymbolResolutionVisitor

theorem Resolution.declare_sound {st : Resolution} (h : st.WellFormed) {node id : LSLASTNode}
    (hn : node.SymbolsBelow st.symbols.length) (hid : node.getChild 0 = some id)
    (s : LSLSymbol) (scopes : List Nat) :
    ((st.newSymbol s).1.defineSymbol scopes (st.newSymbol s).2).WellFormed
      ∧ ((st.newSymbol s).1.defineSymbol scopes (st.newSymbol s).2).symbols.length
          = st.symbols.length + 1
      ∧ (node.replaceChild 0 (id.setSymbol (some (st.newSymbol s).2))).SymbolsBelow
          (st.symbols.length + 1) := by
  have hlen : (st.newSymbol s).1.symbols.length = st.symbols.length + 1 := by
    simp [Resolution.newSymbol]
  have h2 : (st.newSymbol s).2 = st.symbols.length := rfl
  refine ⟨(h.newSymbol s).defineSymbol scopes (by rw [hlen, h2]; omega), ?_, ?_⟩
  · rw [Resolution.defineSymbol_symbols, hlen]
  · have hn' := hn.mono (Nat.le_succ _)
    exact hn'.replaceChild_below ((hn'.getChild_below hid).setSymbol_below (by rw [h2]; omega))

theorem BaseSymbolResolutionVisitor.replaceSymbolTable_sound {st : Resolution}
    (h : st.WellFormed) {node : LSLASTNode} (hn : node.SymbolsBelow st.symbols.length) :
    (replaceSymbolTable st node).1.WellFormed
      ∧ (replaceSymbolTable st node).1.symbols = st.symbols
      ∧ (replaceSymbolTable st node).2.SymbolsBelow st.symbols.length
      ∧ (replaceSymbolTable st node).2.children = node.children := by
  refine ⟨?_, rfl, hn.setSymbolTable_below _, rfl⟩
  intro table ht p hp
  simp only [replaceSymbolTable, List.mem_append, List.mem_singleton] at ht
  rcases ht with ht | ht
  · exact h table ht p hp
  · subst ht; exact absurd hp (List.not_mem_nil p)

theorem BaseSymbolResolutionVisitor.visitChildrenFrom_sound
    {f : Resolution → Place → LSLASTNode → Except Fault (Resolution × LSLASTNode)}
    (hf : Resolution.Sound f) (scopes root path : List Nat) :
    ∀ (cs : List LSLASTNode) (i : Nat) (st : Resolution) (r : Resolution × List LSLASTNode),
      st.WellFormed → (∀ c ∈ cs, c.SymbolsBelow st.symbols.length) →
      visitChildrenFrom f scopes root path i st cs = .ok r →
      r.1.WellFormed ∧ st.symbols.length ≤ r.1.symbols.length
        ∧ ∀ c ∈ r.2, c.SymbolsBelow r.1.symbols.length := by
  intro cs
  induction cs with
  | nil =>
    intro i st r h _ hr
    simp only [visitChildrenFrom, Except.ok.injEq] at hr
    subst hr
    exact ⟨h, Nat.le_refl _, fun c hc => absurd hc (List.not_mem_nil c)⟩
  | cons a cs ih =>
    intro i st r h hcs hr
    simp only [visitChildrenFrom] at hr
    cases ha : f st { scopes := scopes, root := some root, path := path ++ [i] } a with
    | error e => rw [ha] at hr; cases hr
    | ok r1 =>
      obtain ⟨st1, a1⟩ := r1
      rw [ha] at hr
      simp only at hr
      obtain ⟨h1, hl1, hb1⟩ := hf _ _ _ _ h (hcs a (List.mem_cons_self a cs)) ha
      cases hrest : visitChildrenFrom f scopes root path (i + 1) st1 cs with
      | error e => rw [hrest] at hr; cases hr
      | ok r2 =>
        obtain ⟨st2, rest1⟩ := r2
        rw [hrest] at hr
        simp only [Except.ok.injEq] at hr
        subst hr
        obtain ⟨h2, hl2, hb2⟩ := ih (i + 1) st1 _ h1
          (fun c hc => (hcs c (List.mem_cons_of_mem a hc)).mono hl1) hrest
        refine ⟨h2, Nat.le_trans hl1 hl2, ?_⟩
        intro c hc
        rcases List.mem_cons.mp hc with hc | hc
        · subst hc; exact hb1.mono hl2
        · exact hb2 c hc

theorem BaseSymbolResolutionVisitor.visitChildren_sound
    {f : Resolution → Place → LSLASTNode → Except Fault (Resolution × LSLASTNode)}
    (hf : Resolution.Sound f) {st : Resolution} (place : Place) {node : LSLASTNode}
    {r : Resolution × LSLASTNode} (h : st.WellFormed)
    (hn : node.SymbolsBelow st.symbols.length) (hr : visitChildren f st place node = .ok r) :
    r.1.WellFormed ∧ st.symbols.length ≤ r.1.symbols.length
      ∧ r.2.SymbolsBelow r.1.symbols.length := by
  unfold visitChildren at hr
  split at hr
  · cases hr
  · rename_i st1 children hch
    simp only [Except.ok.injEq] at hr
    subst hr
    obtain ⟨h1, hl1, hb1⟩ := visitChildrenFrom_sound hf _ _ _ _ _ _ _ h
      (fun c hc => hn.child_below hc) hch
    exact ⟨h1, hl1, (hn.mono hl1).rebuild rfl hb1⟩

/-- What a `visit` overload has to keep for the walk to be sound. -/
def Resolution.StepSound (st : Resolution) (r : Resolution × LSLASTNode × Bool) : Prop :=
  r.1.WellFormed ∧ st.symbols.length ≤ r.1.symbols.length
    ∧ r.2.1.SymbolsBelow r.1.symbols.length

theorem BaseSymbolResolutionVisitor.visitLValueExpression_sound {st : Resolution}
    (place : Place) {node : LSLASTNode} {r : Resolution × LSLASTNode × Bool}
    (h : st.WellFormed) (hn : node.SymbolsBelow st.symbols.length)
    (hr : visitLValueExpression st place node = .ok r) : st.StepSound r := by
  unfold visitLValueExpression at hr
  cases hid : node.getChild 0 with
  | none => rw [hid] at hr; cases hr
  | some id =>
    rw [hid] at hr
    simp only [Except.ok.injEq] at hr
    subst hr
    obtain ⟨h1, hs, hb⟩ := Resolution.resolveSymbol_sound h (node.scopesFrom place.scopes)
      (hn.getChild_below hid) .SYM_VARIABLE
    refine ⟨h1, by rw [hs], ?_⟩
    show (node.replaceChild 0 _).SymbolsBelow _
    rw [hs]
    exact hn.replaceChild_below hb

theorem BaseSymbolResolutionVisitor.visitFunctionExpression_sound {st : Resolution}
    (place : Place) {node : LSLASTNode} {r : Resolution × LSLASTNode × Bool}
    (h : st.WellFormed) (hn : node.SymbolsBelow st.symbols.length)
    (hr : visitFunctionExpression st place node = .ok r) : st.StepSound r := by
  unfold visitFunctionExpression at hr
  cases hid : node.getChild 0 with
  | none => rw [hid] at hr; cases hr
  | some id =>
    rw [hid] at hr
    simp only [Except.ok.injEq] at hr
    subst hr
    obtain ⟨h1, hs, hb⟩ := Resolution.resolveSymbol_sound h (node.scopesFrom place.scopes)
      (hn.getChild_below hid) .SYM_FUNCTION
    refine ⟨h1, by rw [hs], ?_⟩
    show (node.replaceChild 0 _).SymbolsBelow _
    rw [hs]
    exact hn.replaceChild_below hb

theorem Resolution.StepSound.of_same {st : Resolution} {node : LSLASTNode} (b : Bool)
    (h : st.WellFormed) (hn : node.SymbolsBelow st.symbols.length) :
    st.StepSound (st, node, b) := ⟨h, Nat.le_refl _, hn⟩

theorem Resolution.StepSound.of_parts {st st1 : Resolution} {node1 : LSLASTNode} (b : Bool)
    (h : st1.WellFormed) (hl : st.symbols.length ≤ st1.symbols.length)
    (hn : node1.SymbolsBelow st1.symbols.length) : st.StepSound (st1, node1, b) :=
  ⟨h, hl, hn⟩

theorem Resolution.StepSound.of_declare {st st1 st2 : Resolution} {node2 : LSLASTNode}
    (b : Bool) (hl : st.symbols.length ≤ st1.symbols.length)
    (h : st2.WellFormed ∧ st2.symbols.length = st1.symbols.length + 1
      ∧ node2.SymbolsBelow (st1.symbols.length + 1)) : st.StepSound (st2, node2, b) :=
  ⟨h.1, by rw [h.2.1]; omega, by rw [h.2.1]; exact h.2.2⟩

namespace GlobalSymbolResolutionVisitor

theorem visitGlobalVariable_sound
    {f : Resolution → Place → LSLASTNode → Except Fault (Resolution × LSLASTNode)}
    (hf : Resolution.Sound f) {st : Resolution} (place : Place) {node : LSLASTNode}
    {r : Resolution × LSLASTNode × Bool} (h : st.WellFormed)
    (hn : node.SymbolsBelow st.symbols.length)
    (hr : visitGlobalVariable f st place node = .ok r) : st.StepSound r := by
  unfold visitGlobalVariable at hr
  cases hch : visitChildren f st place node with
  | error e => rw [hch] at hr; cases hr
  | ok r1 =>
    obtain ⟨st1, node1⟩ := r1
    rw [hch] at hr
    simp only at hr
    obtain ⟨h1, hl1, hb1⟩ : st1.WellFormed ∧ st.symbols.length ≤ st1.symbols.length
        ∧ node1.SymbolsBelow st1.symbols.length := visitChildren_sound hf place h hn hch
    cases hid : node1.getChild 0 with
    | none => rw [hid] at hr; cases hr
    | some id =>
      rw [hid] at hr
      simp only [Except.ok.injEq] at hr
      subst hr
      exact .of_declare _ hl1 (Resolution.declare_sound h1 hb1 hid _ _)

theorem visitGlobalFunction_sound_global {st : Resolution} (place : Place) {node : LSLASTNode}
    {r : Resolution × LSLASTNode × Bool} (h : st.WellFormed)
    (hn : node.SymbolsBelow st.symbols.length)
    (hr : visitGlobalFunction st place node = .ok r) : st.StepSound r := by
  unfold visitGlobalFunction at hr
  obtain ⟨h1, hs1, hb1, _⟩ := replaceSymbolTable_sound h hn
  simp only at hr
  cases hid : (replaceSymbolTable st node).2.getChild 0 with
  | none => rw [hid] at hr; cases hr
  | some id =>
    rw [hid] at hr
    simp only [Except.ok.injEq] at hr
    subst hr
    have hlen : (replaceSymbolTable st node).1.symbols.length = st.symbols.length := by
      rw [hs1]
    rw [← hlen] at hb1
    exact .of_declare _ (Nat.le_of_eq hlen.symm) (Resolution.declare_sound h1 hb1 hid _ _)

theorem visitState_sound {st : Resolution} (place : Place) {node : LSLASTNode}
    {r : Resolution × LSLASTNode × Bool} (h : st.WellFormed)
    (hn : node.SymbolsBelow st.symbols.length)
    (hr : visitState st place node = .ok r) : st.StepSound r := by
  unfold visitState at hr
  obtain ⟨h1, hs1, hb1, _⟩ := replaceSymbolTable_sound h hn
  simp only at hr
  cases hid : (replaceSymbolTable st node).2.getChild 0 with
  | none => rw [hid] at hr; cases hr
  | some id =>
    rw [hid] at hr
    simp only [Except.ok.injEq] at hr
    subst hr
    have hlen : (replaceSymbolTable st node).1.symbols.length = st.symbols.length := by
      rw [hs1]
    rw [← hlen] at hb1
    exact .of_declare _ (Nat.le_of_eq hlen.symm) (Resolution.declare_sound h1 hb1 hid _ _)

theorem visitSpecific_sound_global
    {f : Resolution → Place → LSLASTNode → Except Fault (Resolution × LSLASTNode)}
    (hf : Resolution.Sound f) {st : Resolution} (place : Place) {node : LSLASTNode}
    {r : Resolution × LSLASTNode × Bool} (h : st.WellFormed)
    (hn : node.SymbolsBelow st.symbols.length)
    (hr : visitSpecific f st place node = .ok r) : st.StepSound r := by
  unfold visitSpecific at hr
  split at hr
  · exact visitGlobalVariable_sound hf place h hn hr
  · exact visitGlobalFunction_sound_global place h hn hr
  · exact visitState_sound place h hn hr
  · split at hr
    · exact visitLValueExpression_sound place h hn hr
    · exact visitFunctionExpression_sound place h hn hr
    · cases hr; exact .of_same _ h hn
  · cases hr; exact .of_same _ h hn

theorem resolve_sound_global : ∀ fuel, Resolution.Sound (resolve fuel) := by
  intro fuel
  induction fuel with
  | zero => intro st place t r _ _ hr; cases hr
  | succ fuel ih =>
    intro st place t r h hn hr
    simp only [resolve] at hr
    cases hv : visitSpecific (resolve fuel) st place t with
    | error e => rw [hv] at hr; cases hr
    | ok r1 =>
      obtain ⟨st1, node1, descend⟩ := r1
      rw [hv] at hr
      simp only at hr
      obtain ⟨h1, hl1, hb1⟩ : st1.WellFormed ∧ st.symbols.length ≤ st1.symbols.length
          ∧ node1.SymbolsBelow st1.symbols.length := visitSpecific_sound_global ih place h hn hv
      cases descend with
      | false =>
        simp only [Bool.false_eq_true, if_false, Except.ok.injEq] at hr
        subst hr
        exact ⟨h1, hl1, hb1⟩
      | true =>
        simp only [if_true] at hr
        obtain ⟨h2, hl2, hb2⟩ := visitChildren_sound ih place h1 hb1 hr
        exact ⟨h2, Nat.le_trans hl1 hl2, hb2⟩

end GlobalSymbolResolutionVisitor

end Resolving

section Resolving

open BaseSymbolResolutionVisitor

namespace SymbolResolutionVisitor

theorem visitScript_sound (fuel : Nat) {st : Resolution} (place : Place) {node : LSLASTNode}
    {r : Resolution × LSLASTNode × Bool} (h : st.WellFormed)
    (hn : node.SymbolsBelow st.symbols.length)
    (hr : visitScript fuel st place node = .ok r) : st.StepSound r := by
  unfold visitScript at hr
  obtain ⟨h1, hs1, hb1, _⟩ := replaceSymbolTable_sound h hn
  simp only at hr
  cases hg : GlobalSymbolResolutionVisitor.resolve fuel (replaceSymbolTable st node).1 place
      (replaceSymbolTable st node).2 with
  | error e => rw [hg] at hr; cases hr
  | ok r1 =>
    obtain ⟨st2, node2⟩ := r1
    rw [hg] at hr
    simp only [Except.ok.injEq] at hr
    subst hr
    have hlen : (replaceSymbolTable st node).1.symbols.length = st.symbols.length := by
      rw [hs1]
    rw [← hlen] at hb1
    obtain ⟨h2, hl2, hb2⟩ : st2.WellFormed
        ∧ (replaceSymbolTable st node).1.symbols.length ≤ st2.symbols.length
        ∧ node2.SymbolsBelow st2.symbols.length :=
      GlobalSymbolResolutionVisitor.resolve_sound_global fuel _ _ _ _ h1 hb1 hg
    exact .of_parts _ h2 (by rw [← hlen]; exact hl2) hb2

theorem visitDeclaration_sound
    {f : Resolution → Place → LSLASTNode → Except Fault (Resolution × LSLASTNode)}
    (hf : Resolution.Sound f) {st : Resolution} (place : Place) {node : LSLASTNode}
    {r : Resolution × LSLASTNode × Bool} (h : st.WellFormed)
    (hn : node.SymbolsBelow st.symbols.length)
    (hr : visitDeclaration f st place node = .ok r) : st.StepSound r := by
  unfold visitDeclaration at hr
  have hvis : ∀ (v : Except Fault (Resolution × LSLASTNode)) (st1 : Resolution)
      (node1 : LSLASTNode),
      (match node.getChild 1 with
        | some rvalue =>
          match f st
              { scopes := node.scopesFrom place.scopes,
                root := some (place.root.getD (node.scopesFrom place.scopes)),
                path := place.path ++ [1] } rvalue with
          | .error e => .error e
          | .ok (st1, rvalue1) => .ok (st1, node.replaceChild 1 rvalue1)
        | none => .ok (st, node)) = v → v = .ok (st1, node1) →
      st1.WellFormed ∧ st.symbols.length ≤ st1.symbols.length
        ∧ node1.SymbolsBelow st1.symbols.length := by
    intro v st1 node1 hv hv1
    subst hv1
    cases hc : node.getChild 1 with
    | none =>
      rw [hc] at hv
      simp only [Except.ok.injEq, Prod.mk.injEq] at hv
      obtain ⟨rfl, rfl⟩ := hv
      exact ⟨h, Nat.le_refl _, hn⟩
    | some rvalue =>
      rw [hc] at hv
      simp only at hv
      split at hv
      · cases hv
      · rename_i st1' rvalue1 hrun
        simp only [Except.ok.injEq, Prod.mk.injEq] at hv
        obtain ⟨rfl, rfl⟩ := hv
        obtain ⟨h1, hl1, hb1⟩ := hf _ _ _ _ h (hn.getChild_below hc) hrun
        exact ⟨h1, hl1, (hn.mono hl1).replaceChild_below hb1⟩
  simp only at hr
  split at hr
  · cases hr
  · rename_i st1 node1 hvisited
    obtain ⟨h1, hl1, hb1⟩ := hvis _ st1 node1 rfl hvisited
    cases hid : node1.getChild 0 with
    | none => rw [hid] at hr; cases hr
    | some id =>
      rw [hid] at hr
      simp only [Except.ok.injEq] at hr
      subst hr
      have hd := Resolution.declare_sound h1 hb1 hid
        { name := id.getName, type := id.getType, symbolType := .SYM_VARIABLE,
          subType := .SYM_LOCAL }
        ((node1.replaceChild 0 (id.setSymbol (some st1.symbols.length))).scopesFrom
          place.scopes)
      split
      · exact .of_declare _ hl1 ⟨hd.1.report _ _, hd.2.1, hd.2.2⟩
      · exact .of_declare _ hl1 hd

theorem registerParams_sound (scopes : List Nat) (sub : LSLSymbolSubType) :
    ∀ (cs : List LSLASTNode) (st : Resolution), st.WellFormed →
      (∀ c ∈ cs, c.SymbolsBelow st.symbols.length) →
      (registerParams scopes sub st cs).1.WellFormed
        ∧ st.symbols.length ≤ (registerParams scopes sub st cs).1.symbols.length
        ∧ ∀ c ∈ (registerParams scopes sub st cs).2,
            c.SymbolsBelow (registerParams scopes sub st cs).1.symbols.length := by
  intro cs
  induction cs with
  | nil =>
    intro st h _
    exact ⟨h, Nat.le_refl _, fun c hc => absurd hc (List.not_mem_nil c)⟩
  | cons a cs ih =>
    intro st h hcs
    obtain ⟨s, hs⟩ : ∃ s : LSLSymbol, s =
        { name := a.getName, type := a.getType, symbolType := .SYM_VARIABLE,
          subType := sub } := ⟨_, rfl⟩
    have hlen : (st.newSymbol s).1.symbols.length = st.symbols.length + 1 := by
      simp [Resolution.newSymbol]
    have h2 : ((st.newSymbol s).1.defineSymbol scopes st.symbols.length).WellFormed :=
      (h.newSymbol _).defineSymbol scopes (by rw [hlen]; omega)
    have hl2 : ((st.newSymbol s).1.defineSymbol scopes st.symbols.length).symbols.length
        = st.symbols.length + 1 := by
      rw [Resolution.defineSymbol_symbols, hlen]
    obtain ⟨h3, hl3, hb3⟩ := ih _ h2 (fun c hc =>
      (hcs c (List.mem_cons_of_mem a hc)).mono (by rw [hl2]; omega))
    simp only [registerParams, ← hs]
    have h2' : (st.newSymbol s).2 = st.symbols.length := rfl
    rw [h2']
    refine ⟨h3, by rw [hl2] at hl3; exact Nat.le_trans (Nat.le_succ _) hl3, ?_⟩
    intro c hc
    rcases List.mem_cons.mp hc with hc | hc
    · subst hc
      rw [hl2] at hl3
      exact ((hcs a (List.mem_cons_self a cs)).mono (Nat.le_trans (Nat.le_succ _) hl3)
        ).setSymbol_below (by
          show st.symbols.length < _
          omega)
    · exact hb3 c hc

theorem register_func_param_symbols_sound {st : Resolution} (place : Place)
    {proto : LSLASTNode} (is_event : Bool) (h : st.WellFormed)
    (hn : proto.SymbolsBelow st.symbols.length) :
    st.StepSound ((register_func_param_symbols st place proto is_event).1,
      (register_func_param_symbols st place proto is_event).2, true) := by
  obtain ⟨h1, hl1, hb1⟩ := registerParams_sound (proto.scopesFrom place.scopes)
    (if is_event then .SYM_EVENT_PARAMETER else .SYM_FUNCTION_PARAMETER) proto.children st h
    (fun c hc => hn.child_below hc)
  exact .of_parts _ h1 hl1 ((hn.mono hl1).rebuild rfl hb1)

theorem findLabel_lt (st : Resolution) (body : LSLASTNode) (name : String) :
    ∀ (labels : List IdentifierRef) (p : Nat), findLabel st body name labels = some p →
      p < st.symbols.length := by
  intro labels
  induction labels with
  | nil => intro p hp; cases hp
  | cons label rest ih =>
    intro p hp
    simp only [findLabel] at hp
    split at hp
    · rename_i cand _
      split at hp
      · rename_i cand_sym hget
        split at hp
        · simp only [Option.some.injEq] at hp
          subst hp
          by_contra hlt
          rw [List.get?_eq_none.mpr (Nat.le_of_not_lt hlt)] at hget
          cases hget
        · exact ih p hp
      · exact ih p hp
    · exact ih p hp

theorem resolveJumps_sound (legacy : Bool) (labels : List IdentifierRef) :
    ∀ (pending : List IdentifierRef) (st : Resolution) (body : LSLASTNode)
      (r : Resolution × LSLASTNode), st.WellFormed → body.SymbolsBelow st.symbols.length →
      resolveJumps legacy labels st body pending = .ok r →
      r.1.WellFormed ∧ r.1.symbols = st.symbols ∧ r.2.SymbolsBelow st.symbols.length := by
  intro pending
  induction pending with
  | nil =>
    intro st body r h hb hr
    simp only [resolveJumps, Except.ok.injEq] at hr
    subst hr
    exact ⟨h, rfl, hb⟩
  | cons jump rest ih =>
    intro st body r h hb hr
    simp only [resolveJumps] at hr
    cases hid : body.nodeAt jump.path with
    | none => rw [hid] at hr; cases hr
    | some id =>
      rw [hid] at hr
      simp only at hr
      obtain ⟨h1, hs1, hb1⟩ := Resolution.resolveSymbol_sound h jump.scopes
        (hb.nodeAt_below jump.path hid) .SYM_LABEL
      have hbody1 : (body.setAt jump.path (st.resolveSymbol jump.scopes id .SYM_LABEL).2
          ).SymbolsBelow (st.resolveSymbol jump.scopes id .SYM_LABEL).1.symbols.length := by
        rw [hs1]; exact hb.setAt_below jump.path hb1
      have finish : ∀ (st2 : Resolution) (body2 : LSLASTNode), st2.WellFormed →
          st2.symbols = st.symbols → body2.SymbolsBelow st.symbols.length →
          resolveJumps legacy labels st2 body2 rest = .ok r →
          r.1.WellFormed ∧ r.1.symbols = st.symbols ∧ r.2.SymbolsBelow st.symbols.length := by
        intro st2 body2 hw hs hb2 hrun
        obtain ⟨a, b, c⟩ := ih st2 body2 r hw (by rw [hs]; exact hb2) hrun
        exact ⟨a, b.trans hs, by rw [hs] at c; exact c⟩
      split at hr
      · exact finish _ _ h1 hs1 (by rw [hs1] at hbody1; exact hbody1) hr
      · split at hr
        · exact finish _ _ h1 hs1 (by rw [hs1] at hbody1; exact hbody1) hr
        · rename_i orig _
          split at hr
          · cases hr
          · rename_i orig_sym _
            split at hr
            · cases hr
            · rename_i new_sym hfind
              have hlt := findLabel_lt _ _ _ _ _ hfind
              rw [hs1] at hlt hbody1
              refine finish _ _ ?_ ?_ ?_ hr
              · split
                · exact h1.report _ _
                · exact h1
              · split
                · exact hs1
                · exact hs1
              · exact hbody1.setAt_below jump.path (hb1.setSymbol_below hlt)

theorem warnDuplicateLabels_state (body : LSLASTNode) :
    ∀ (labels : List IdentifierRef) (st : Resolution) (names : List String) (r : Resolution),
      warnDuplicateLabels body st names labels = .ok r →
      r.symbols = st.symbols ∧ r.tables = st.tables := by
  intro labels
  induction labels with
  | nil =>
    intro st names r hr
    simp only [warnDuplicateLabels, Except.ok.injEq] at hr
    subst hr
    exact ⟨rfl, rfl⟩
  | cons label rest ih =>
    intro st names r hr
    simp only [warnDuplicateLabels] at hr
    split at hr
    · cases hr
    · rename_i label_id _
      split at hr
      · exact ih (st.report .W_DUPLICATE_LABEL_NAME label_id.getName) _ _ hr
      · exact ih st _ _ hr

theorem resolvePendingJumps_sound (legacy : Bool) {st : Resolution} {body : LSLASTNode}
    {r : Resolution × LSLASTNode} (h : st.WellFormed)
    (hb : body.SymbolsBelow st.symbols.length)
    (hr : resolvePendingJumps legacy st body = .ok r) :
    r.1.WellFormed ∧ r.1.symbols = st.symbols ∧ r.2.SymbolsBelow st.symbols.length := by
  unfold resolvePendingJumps at hr
  split at hr
  · cases hr
  · rename_i st1 body1 hj
    obtain ⟨h1, hs1, hb1⟩ := resolveJumps_sound legacy _ _ _ _ _ h hb hj
    simp only at hr
    split at hr
    · cases hr
    · rename_i st2 hw
      simp only [Except.ok.injEq] at hr
      subst hr
      have hst2 : st2.symbols = st1.symbols ∧ st2.tables = st1.tables := by
        cases legacy with
        | false =>
          simp only [Bool.false_eq_true, if_false, Except.ok.injEq] at hw
          subst hw
          exact ⟨rfl, rfl⟩
        | true =>
          simp only [if_true] at hw
          exact warnDuplicateLabels_state _ _ _ _ _ hw
      refine ⟨?_, hst2.1.trans hs1, hb1⟩
      intro table ht p hp
      have ht' : table ∈ st1.tables := by
        have : table ∈ st2.tables := ht
        rw [hst2.2] at this
        exact this
      have := h1 table ht' p hp
      show p < st2.symbols.length
      rw [hst2.1]
      exact this

end SymbolResolutionVisitor

end Resolving

section Resolving

open BaseSymbolResolutionVisitor

namespace SymbolResolutionVisitor

theorem visitGlobalFunction_sound (legacy : Bool)
    {f : Resolution → Place → LSLASTNode → Except Fault (Resolution × LSLASTNode)}
    (hf : Resolution.Sound f) {st : Resolution} (place : Place) {node : LSLASTNode}
    {r : Resolution × LSLASTNode × Bool} (h : st.WellFormed)
    (hn : node.SymbolsBelow st.symbols.length)
    (hr : visitGlobalFunction legacy f st place node = .ok r) : st.StepSound r := by
  unfold visitGlobalFunction at hr
  split at hr
  · cases hr
  · split at hr
    · cases hr
    · rename_i st1 node1 hch
      obtain ⟨h1, hl1, hb1⟩ : st1.WellFormed ∧ st.symbols.length ≤ st1.symbols.length
          ∧ node1.SymbolsBelow st1.symbols.length := visitChildren_sound hf _ h hn hch
      split at hr
      · cases hr
      · rename_i st2 node2 hj
        simp only [Except.ok.injEq] at hr
        subst hr
        obtain ⟨h2, hs2, hb2⟩ : st2.WellFormed ∧ st2.symbols = st1.symbols
            ∧ node2.SymbolsBelow st1.symbols.length :=
          resolvePendingJumps_sound legacy h1 hb1 hj
        exact .of_parts _ h2 (by rw [hs2]; exact hl1) (by rw [hs2]; exact hb2)

theorem visitEventHandler_sound (legacy : Bool)
    {f : Resolution → Place → LSLASTNode → Except Fault (Resolution × LSLASTNode)}
    (hf : Resolution.Sound f) {st : Resolution} (place : Place) {node : LSLASTNode}
    {r : Resolution × LSLASTNode × Bool} (h : st.WellFormed)
    (hn : node.SymbolsBelow st.symbols.length)
    (hr : visitEventHandler legacy f st place node = .ok r) : st.StepSound r := by
  unfold visitEventHandler at hr
  obtain ⟨h1, hs1, hb1, _⟩ := replaceSymbolTable_sound h hn
  have hlen : (replaceSymbolTable st node).1.symbols.length = st.symbols.length := by
    rw [hs1]
  rw [← hlen] at hb1
  simp only at hr
  cases hid : (replaceSymbolTable st node).2.getChild 0 with
  | none => rw [hid] at hr; cases hr
  | some id =>
    rw [hid] at hr
    simp only at hr
    have hdef : ∀ (p : Resolution × LSLASTNode),
        (match (replaceSymbolTable st node).1.lookupSymbol
            (place.root.getD ((replaceSymbolTable st node).2.scopesFrom place.scopes))
            id.getName .SYM_EVENT with
          | some _ =>
            (((replaceSymbolTable st node).1.newSymbol
                { name := id.getName, type := id.getType, symbolType := .SYM_EVENT,
                  subType := .SYM_BUILTIN,
                  functionDecl := GlobalSymbolResolutionVisitor.functionDecl
                    ((replaceSymbolTable st node).2.getChild 1) }).1.defineSymbol
                place.scopes
                ((replaceSymbolTable st node).1.newSymbol
                  { name := id.getName, type := id.getType, symbolType := .SYM_EVENT,
                    subType := .SYM_BUILTIN,
                    functionDecl := GlobalSymbolResolutionVisitor.functionDecl
                      ((replaceSymbolTable st node).2.getChild 1) }).2,
              (replaceSymbolTable st node).2.replaceChild 0
                (id.setSymbol (some ((replaceSymbolTable st node).1.newSymbol
                  { name := id.getName, type := id.getType, symbolType := .SYM_EVENT,
                    subType := .SYM_BUILTIN,
                    functionDecl := GlobalSymbolResolutionVisitor.functionDecl
                      ((replaceSymbolTable st node).2.getChild 1) }).2)))
          | none => ((replaceSymbolTable st node).1.report .E_INVALID_EVENT id.getName,
              (replaceSymbolTable st node).2)) = p →
        p.1.WellFormed ∧ st.symbols.length ≤ p.1.symbols.length
          ∧ p.2.SymbolsBelow p.1.symbols.length := by
      intro p hp
      split at hp
      · subst hp
        obtain ⟨a, b, c⟩ := Resolution.declare_sound h1 hb1 hid
          { name := id.getName, type := id.getType, symbolType := .SYM_EVENT,
            subType := .SYM_BUILTIN,
            functionDecl := GlobalSymbolResolutionVisitor.functionDecl
              ((replaceSymbolTable st node).2.getChild 1) } place.scopes
        exact ⟨a, by rw [b, hlen]; omega, by rw [b]; exact c⟩
      · subst hp
        exact ⟨h1.report _ _, Nat.le_of_eq hlen.symm, hb1⟩
    split at hr
    · cases hr
    · rename_i hpending
      obtain ⟨h2, hl2, hb2⟩ := hdef _ rfl
      split at hr
      · cases hr
      · rename_i st3 node3 hch
        obtain ⟨h3, hl3, hb3⟩ := visitChildren_sound hf _ h2 hb2 hch
        split at hr
        · cases hr
        · rename_i st4 node4 hj
          simp only [Except.ok.injEq] at hr
          subst hr
          obtain ⟨h4, hs4, hb4⟩ : st4.WellFormed ∧ st4.symbols = st3.symbols
              ∧ node4.SymbolsBelow st3.symbols.length :=
            resolvePendingJumps_sound legacy h3 hb3 hj
          exact .of_parts _ h4 (by rw [hs4]; exact Nat.le_trans hl2 hl3)
            (by rw [hs4]; exact hb4)

theorem visitLabel_sound {st : Resolution} (place : Place) {node : LSLASTNode}
    {r : Resolution × LSLASTNode × Bool} (h : st.WellFormed)
    (hn : node.SymbolsBelow st.symbols.length)
    (hr : visitLabel st place node = .ok r) : st.StepSound r := by
  unfold visitLabel at hr
  cases hid : node.getChild 0 with
  | none => rw [hid] at hr; cases hr
  | some id =>
    rw [hid] at hr
    simp only [Except.ok.injEq] at hr
    subst hr
    obtain ⟨a, b, c⟩ := Resolution.declare_sound h hn hid
      { name := id.getName, type := id.getType, symbolType := .SYM_LABEL,
        subType := .SYM_LOCAL }
      ((node.replaceChild 0 (id.setSymbol (some st.symbols.length))).scopesFrom place.scopes)
    exact .of_declare _ (Nat.le_refl _) ⟨a, b, c⟩

theorem visitJumpStatement_sound {st : Resolution} (place : Place) {node : LSLASTNode}
    {r : Resolution × LSLASTNode × Bool} (h : st.WellFormed)
    (hn : node.SymbolsBelow st.symbols.length)
    (hr : visitJumpStatement st place node = .ok r) : st.StepSound r := by
  unfold visitJumpStatement at hr
  simp only [Except.ok.injEq] at hr
  subst hr
  exact .of_parts _ h (Nat.le_refl _) hn

theorem visitStateStatement_sound {st : Resolution} (place : Place) {node : LSLASTNode}
    {r : Resolution × LSLASTNode × Bool} (h : st.WellFormed)
    (hn : node.SymbolsBelow st.symbols.length)
    (hr : visitStateStatement st place node = .ok r) : st.StepSound r := by
  unfold visitStateStatement at hr
  cases hid : node.getChild 0 with
  | none => rw [hid] at hr; cases hr
  | some id =>
    rw [hid] at hr
    simp only [Except.ok.injEq] at hr
    subst hr
    obtain ⟨h1, hs, hb⟩ := Resolution.resolveSymbol_sound h (node.scopesFrom place.scopes)
      (hn.getChild_below hid) .SYM_STATE
    refine ⟨h1, by rw [hs], ?_⟩
    show (node.replaceChild 0 _).SymbolsBelow _
    rw [hs]
    exact hn.replaceChild_below hb

theorem visitCompoundStatement_sound {st : Resolution} {node : LSLASTNode}
    {r : Resolution × LSLASTNode × Bool} (h : st.WellFormed)
    (hn : node.SymbolsBelow st.symbols.length)
    (hr : visitCompoundStatement st node = .ok r) : st.StepSound r := by
  unfold visitCompoundStatement at hr
  simp only [Except.ok.injEq] at hr
  subst hr
  obtain ⟨h1, hs1, hb1, _⟩ := replaceSymbolTable_sound h hn
  exact .of_parts _ h1 (by rw [hs1]) (by rw [hs1]; exact hb1)

theorem visitSpecific_sound (legacy : Bool) (fuel : Nat)
    {f : Resolution → Place → LSLASTNode → Except Fault (Resolution × LSLASTNode)}
    (hf : Resolution.Sound f) {st : Resolution} (place : Place) {node : LSLASTNode}
    {r : Resolution × LSLASTNode × Bool} (h : st.WellFormed)
    (hn : node.SymbolsBelow st.symbols.length)
    (hr : visitSpecific legacy fuel f st place node = .ok r) : st.StepSound r := by
  unfold visitSpecific at hr
  split at hr
  · exact visitScript_sound fuel place h hn hr
  · exact visitGlobalFunction_sound legacy hf place h hn hr
  · simp only [Except.ok.injEq] at hr
    subst hr
    exact register_func_param_symbols_sound place false h hn
  · cases hr; exact .of_same _ h hn
  · exact visitEventHandler_sound legacy hf place h hn hr
  · simp only [Except.ok.injEq] at hr
    subst hr
    exact register_func_param_symbols_sound place true h hn
  · split at hr
    · exact visitDeclaration_sound hf place h hn hr
    · exact visitLabel_sound place h hn hr
    · exact visitJumpStatement_sound place h hn hr
    · exact visitStateStatement_sound place h hn hr
    · exact visitCompoundStatement_sound h hn hr
    · cases hr; exact .of_same _ h hn
  · split at hr
    · exact visitLValueExpression_sound place h hn hr
    · exact visitFunctionExpression_sound place h hn hr
    · cases hr; exact .of_same _ h hn
  · cases hr; exact .of_same _ h hn

theorem resolve_sound (legacy : Bool) : ∀ fuel, Resolution.Sound (resolve legacy fuel) := by
  intro fuel
  induction fuel with
  | zero => intro st place t r _ _ hr; cases hr
  | succ fuel ih =>
    intro st place t r h hn hr
    simp only [resolve] at hr
    cases hv : visitSpecific legacy fuel (resolve legacy fuel) st place t with
    | error e => rw [hv] at hr; cases hr
    | ok r1 =>
      obtain ⟨st1, node1, descend⟩ := r1
      rw [hv] at hr
      simp only at hr
      obtain ⟨h1, hl1, hb1⟩ : st1.WellFormed ∧ st.symbols.length ≤ st1.symbols.length
          ∧ node1.SymbolsBelow st1.symbols.length :=
        visitSpecific_sound legacy fuel ih place h hn hv
      cases descend with
      | false =>
        simp only [Bool.false_eq_true, if_false, Except.ok.injEq] at hr
        subst hr
        exact ⟨h1, hl1, hb1⟩
      | true =>
        simp only [if_true] at hr
        obtain ⟨h2, hl2, hb2⟩ := visitChildren_sound ih place h1 hb1 hr
        exact ⟨h2, Nat.le_trans hl1 hl2, hb2⟩

end SymbolResolutionVisitor

end Resolving

section Resolving

open BaseSymbolResolutionVisitor

theorem LSLASTNode.SymbolsBelow.never {n : Nat} {t : LSLASTNode} (h : t.SymbolsBelow n) :
    t.All (fun x => x.getSymbol ≠ some n) :=
  LSLASTNode.All.imp (fun x hx (heq : x.getSymbol = some n) => Nat.lt_irrefl n (hx n heq)) h

theorem Resolution.WellFormed.not_defined {st : Resolution} (h : st.WellFormed) :
    ∀ table ∈ st.tables, st.symbols.length ∉ table :=
  fun table ht hmem => Nat.lt_irrefl _ (h table ht _ hmem)

theorem LSLASTNode.getChild_replaceChild_ne (n c : LSLASTNode) {i j : Nat} (h : i ≠ j) :
    (n.replaceChild i c).getChild j = n.getChild j := by
  simp [LSLASTNode.replaceChild, LSLASTNode.getChild, LSLASTNode.children,
    List.getElem?_set_ne h]

theorem LSLASTNode.getChild_replaceChild_self (n c : LSLASTNode) {i : Nat} {old : LSLASTNode}
    (h : n.getChild i = some old) : (n.replaceChild i c).getChild i = some c := by
  obtain ⟨d, cs⟩ := n
  have hi : i < cs.length := by
    by_contra hlt
    simp only [LSLASTNode.getChild, LSLASTNode.children] at h
    rw [List.get?_eq_none.mpr (Nat.le_of_not_lt hlt)] at h
    cases h
  simp [LSLASTNode.replaceChild, LSLASTNode.getChild, LSLASTNode.children,
    List.getElem?_set_self, hi]

theorem Resolution.defineSymbol_newSymbol_tables (st : Resolution) (s : LSLSymbol)
    (scopes : List Nat) (p : Nat) :
    ((st.newSymbol s).1.defineSymbol scopes p).tables = (st.defineSymbol scopes p).tables := by
  unfold Resolution.defineSymbol
  cases scopes <;> rfl

theorem Sample.emptyScopes_wellFormed : Sample.emptyScopes.WellFormed := by
  intro table ht p hp
  simp only [Sample.emptyScopes, List.mem_cons, List.mem_singleton, List.not_mem_nil,
    or_false, or_self] at ht
  subst ht
  exact absurd hp (List.not_mem_nil p)

theorem Sample.fooFromFoo_unresolved (nodeType : LSLNodeType) :
    (Sample.fooFromFoo nodeType).SymbolsBelow Sample.emptyScopes.symbols.length := by
  simp [LSLASTNode.SymbolsBelow, Sample.fooFromFoo, Sample.identifier, Sample.lvalue,
    LSLASTNode.all_mk_iff, LSLASTNode.getSymbol, LSLASTNode.data]

end Resolving

namespace SymbolResolutionVisitor

open BaseSymbolResolutionVisitor

/-- C20: both visitors resolve the initializer before the declared symbol is made and
defined. For a global variable in the global phase: when the walk of the children returns,
the visit returns; the symbol of the identifier is the one tracked next after that walk,
so it is in no table while the initializer is resolved and is defined only afterwards, and
no node of the initializer (of any child but the identifier) holds it. For a local
declaration in the body phase the same holds of the walk of the initializer in child 1.
Here the state has only pointers to tracked symbols in its tables and in the tree. For
`string foo = foo;` with empty scopes, as a global variable and as a local declaration,
the reference in the initializer is reported undeclared and is left without a symbol,
and `foo` is defined in the enclosing scope afterwards. -/
theorem initializer_resolved_before_definition (legacy : Bool) (fuel : Nat)
    (st : Resolution) (place : Place) (node : LSLASTNode) (hwf : st.WellFormed)
    (hn : node.SymbolsBelow st.symbols.length) :
    (∀ st1 node1 id, node.getNodeType = .NODE_GLOBAL_VARIABLE →
      visitChildren (GlobalSymbolResolutionVisitor.resolve fuel) st place node
        = .ok (st1, node1) →
      node1.getChild 0 = some id →
      ∃ st2 node2, GlobalSymbolResolutionVisitor.resolve (fuel + 1) st place node
          = .ok (st2, node2)
        ∧ node2.getChild 0 = some (id.setSymbol (some st1.symbols.length))
        ∧ st2.symbols.length = st1.symbols.length + 1
        ∧ st2.tables = (st1.defineSymbol (node2.scopesFrom place.scopes)
            st1.symbols.length).tables
        ∧ (∀ table ∈ st1.tables, st1.symbols.length ∉ table)
        ∧ ∀ i init, 0 < i → node2.getChild i = some init →
            node1.getChild i = some init
              ∧ init.All (fun x => x.getSymbol ≠ some st1.symbols.length)) ∧
    (∀ rvalue st1 rvalue1 id, node.getNodeType = .NODE_STATEMENT →
      node.getNodeSubType = .NODE_DECLARATION → node.getChild 1 = some rvalue →
      resolve legacy fuel st
          { scopes := node.scopesFrom place.scopes,
            root := some (place.root.getD (node.scopesFrom place.scopes)),
            path := place.path ++ [1] } rvalue = .ok (st1, rvalue1) →
      node.getChild 0 = some id →
      ∃ st2 node2, resolve legacy (fuel + 1) st place node = .ok (st2, node2)
        ∧ node2.getChild 0 = some (id.setSymbol (some st1.symbols.length))
        ∧ node2.getChild 1 = some rvalue1
        ∧ st2.symbols.length = st1.symbols.length + 1
        ∧ st2.tables = (st1.defineSymbol (node2.scopesFrom place.scopes)
            st1.symbols.length).tables
        ∧ (∀ table ∈ st1.tables, st1.symbols.length ∉ table)
        ∧ rvalue1.All (fun x => x.getSymbol ≠ some st1.symbols.length)) ∧
    (∃ st2 node2 init id,
      GlobalSymbolResolutionVisitor.resolve 3 Sample.emptyScopes { scopes := [1, 0] }
          (Sample.fooFromFoo .NODE_GLOBAL_VARIABLE) = .ok (st2, node2)
        ∧ node2.getChild 1 = some init ∧ init.getChild 0 = some id
        ∧ id.getSymbol = none
        ∧ st2.errors = [{ code := .E_UNDECLARED, name := "foo" }]
        ∧ st2.tables = [[], [0]]) ∧
    (∃ st2 node2 init id,
      resolve legacy 3 Sample.emptyScopes { scopes := [1, 0] }
          (Sample.fooFromFoo .NODE_STATEMENT) = .ok (st2, node2)
        ∧ node2.getChild 1 = some init ∧ init.getChild 0 = some id
        ∧ id.getSymbol = none
        ∧ st2.errors = [{ code := .E_UNDECLARED, name := "foo" }]
        ∧ st2.tables = [[], [0]]) := by
  refine ⟨?_, ?_, ⟨_, _, _, _, rfl, rfl, rfl, rfl, rfl, rfl⟩,
    ⟨_, _, _, _, rfl, rfl, rfl, rfl, rfl, rfl⟩⟩
  · intro st1 node1 id hnt hch hid
    obtain ⟨h1, hl1, hb1⟩ : st1.WellFormed ∧ st.symbols.length ≤ st1.symbols.length
        ∧ node1.SymbolsBelow st1.symbols.length :=
      visitChildren_sound (GlobalSymbolResolutionVisitor.resolve_sound_global fuel) place hwf hn hch
    have hv : GlobalSymbolResolutionVisitor.visitSpecific
        (GlobalSymbolResolutionVisitor.resolve fuel) st place node =
        GlobalSymbolResolutionVisitor.visitGlobalVariable
          (GlobalSymbolResolutionVisitor.resolve fuel) st place node := by
      unfold GlobalSymbolResolutionVisitor.visitSpecific
      rw [hnt]
    have hrun : GlobalSymbolResolutionVisitor.resolve (fuel + 1) st place node = .ok
        ((st1.newSymbol
            { name := id.getName, type := id.getType, symbolType := .SYM_VARIABLE,
              subType := .SYM_GLOBAL }).1.defineSymbol
          ((node1.replaceChild 0 (id.setSymbol (some st1.symbols.length))).scopesFrom
            place.scopes) st1.symbols.length,
         node1.replaceChild 0 (id.setSymbol (some st1.symbols.length))) := by
      simp only [GlobalSymbolResolutionVisitor.resolve, hv,
        GlobalSymbolResolutionVisitor.visitGlobalVariable, hch, hid, Bool.false_eq_true,
        if_false]
      rfl
    refine ⟨_, _, hrun, LSLASTNode.getChild_replaceChild_self node1 _ hid, ?_,
      Resolution.defineSymbol_newSymbol_tables _ _ _ _, h1.not_defined, ?_⟩
    · rw [Resolution.defineSymbol_symbols]
      simp [Resolution.newSymbol]
    · intro i init hi hinit
      rw [LSLASTNode.getChild_replaceChild_ne node1 _ (Nat.ne_of_lt hi)] at hinit
      exact ⟨hinit, (hb1.getChild_below hinit).never⟩
  · intro rvalue st1 rvalue1 id hnt hst hrv hrun hid
    obtain ⟨h1, hl1, hb1⟩ : st1.WellFormed ∧ st.symbols.length ≤ st1.symbols.length
        ∧ rvalue1.SymbolsBelow st1.symbols.length :=
      resolve_sound legacy fuel _ _ _ _ hwf (hn.getChild_below hrv) hrun
    have hv : visitSpecific legacy fuel (resolve legacy fuel) st place node =
        visitDeclaration (resolve legacy fuel) st place node := by
      unfold visitSpecific
      rw [hnt]
      simp only
      rw [hst]
    have hid1 : (node.replaceChild 1 rvalue1).getChild 0 = some id := by
      rw [LSLASTNode.getChild_replaceChild_ne node _ (by decide)]; exact hid
    have hr1 : ((node.replaceChild 1 rvalue1).replaceChild 0
        (id.setSymbol (some st1.symbols.length))).getChild 1 = some rvalue1 := by
      rw [LSLASTNode.getChild_replaceChild_ne _ _ (by decide)]
      exact LSLASTNode.getChild_replaceChild_self node _ hrv
    have hrun2 : resolve legacy (fuel + 1) st place node = .ok
        (if ((node.replaceChild 1 rvalue1).replaceChild 0
              (id.setSymbol (some st1.symbols.length))).data.declarationAllowed = false then
          ((st1.newSymbol
              { name := id.getName, type := id.getType, symbolType := .SYM_VARIABLE,
                subType := .SYM_LOCAL }).1.defineSymbol
            (((node.replaceChild 1 rvalue1).replaceChild 0
              (id.setSymbol (some st1.symbols.length))).scopesFrom place.scopes)
            st1.symbols.length).report .E_DECLARATION_INVALID_HERE id.getName
         else
          (st1.newSymbol
              { name := id.getName, type := id.getType, symbolType := .SYM_VARIABLE,
                subType := .SYM_LOCAL }).1.defineSymbol
            (((node.replaceChild 1 rvalue1).replaceChild 0
              (id.setSymbol (some st1.symbols.length))).scopesFrom place.scopes)
            st1.symbols.length,
         (node.replaceChild 1 rvalue1).replaceChild 0
          (id.setSymbol (some st1.symbols.length))) := by
      simp only [resolve, hv, visitDeclaration, hrv, hrun, hid1, Bool.false_eq_true,
        if_false]
      rfl
    refine ⟨_, _, hrun2, LSLASTNode.getChild_replaceChild_self _ _ hid1, hr1, ?_, ?_,
      h1.not_defined, hb1.never⟩
    · split
      · show ((st1.newSymbol _).1.defineSymbol _ _).symbols.length = _
        rw [Resolution.defineSymbol_symbols]
        simp [Resolution.newSymbol]
      · rw [Resolution.defineSymbol_symbols]
        simp [Resolution.newSymbol]
    · split
      · exact Resolution.defineSymbol_newSymbol_tables _ _ _ _
      · exact Resolution.defineSymbol_newSymbol_tables _ _ _ _

/-- C20 on `string foo = foo;` in empty scopes. -/
theorem initializer_resolved_before_definition_witness :
    Sample.emptyScopes.WellFormed ∧
    (Sample.fooFromFoo .NODE_STATEMENT).SymbolsBelow Sample.emptyScopes.symbols.length ∧
    ∀ rvalue st1 rvalue1 id,
      (Sample.fooFromFoo .NODE_STATEMENT).getNodeType = .NODE_STATEMENT →
      (Sample.fooFromFoo .NODE_STATEMENT).getNodeSubType = .NODE_DECLARATION →
      (Sample.fooFromFoo .NODE_STATEMENT).getChild 1 = some rvalue →
      resolve false 2 Sample.emptyScopes
          { scopes := (Sample.fooFromFoo .NODE_STATEMENT).scopesFrom [1, 0],
            root := some ((none : Option (List Nat)).getD
              ((Sample.fooFromFoo .NODE_STATEMENT).scopesFrom [1, 0])),
            path := [] ++ [1] } rvalue = .ok (st1, rvalue1) →
      (Sample.fooFromFoo .NODE_STATEMENT).getChild 0 = some id →
      ∃ st2 node2, resolve false (2 + 1) Sample.emptyScopes { scopes := [1, 0] }
          (Sample.fooFromFoo .NODE_STATEMENT) = .ok (st2, node2)
        ∧ node2.getChild 0 = some (id.setSymbol (some st1.symbols.length))
        ∧ node2.getChild 1 = some rvalue1
        ∧ st2.symbols.length = st1.symbols.length + 1
        ∧ st2.tables = (st1.defineSymbol (node2.scopesFrom [1, 0])
            st1.symbols.length).tables
        ∧ (∀ table ∈ st1.tables, st1.symbols.length ∉ table)
        ∧ rvalue1.All (fun x => x.getSymbol ≠ some st1.symbols.length) :=
  ⟨Sample.emptyScopes_wellFormed, Sample.fooFromFoo_unresolved _,
    (initializer_resolved_before_definition false 2 Sample.emptyScopes { scopes := [1, 0] }
      (Sample.fooFromFoo .NODE_STATEMENT) Sample.emptyScopes_wellFormed
      (Sample.fooFromFoo_unresolved _)).2.1⟩

end SymbolResolutionVisitor

/-! ## Two runs of the constant-propagation pass -/

section TwoRuns

theorem NodeData.SameSkeleton.flip_data {d d' : NodeData} (h : d.SameSkeleton d') :
    d'.SameSkeleton d := by
  obtain ⟨nt, st, ty, loc, op, cv, cp, sn, sy, da, nm, sm, tb⟩ := d
  obtain ⟨nt', st', ty', loc', op', cv', cp', sn', sy', da', nm', sm', tb'⟩ := d'
  simp only [NodeData.SameSkeleton, NodeData.mk.injEq] at h ⊢
  obtain ⟨a1, a2, a3, a4, a5, _, _, a8, a9, a10, a11, a12, a13⟩ := h
  exact ⟨a1.symm, a2.symm, a3.symm, a4.symm, a5.symm, trivial, trivial, a8.symm, a9.symm,
    a10.symm, a11.symm, a12.symm, a13.symm⟩

theorem LSLASTNode.Related.flip {t t' : LSLASTNode}
    (h : t.Related NodeData.SameSkeleton t') : t'.Related NodeData.SameSkeleton t := by
  induction h with
  | mk d d' cs cs' hR hl _ ih =>
    exact .mk d' d cs' cs hR.flip_data hl.symm (fun i c' c hc' hc => ih i c c' hc hc')

theorem LSLASTNode.Related.getChild_some {R : NodeData → NodeData → Prop}
    {t t' : LSLASTNode} (h : t.Related R t') {i : Nat} {c : LSLASTNode}
    (hc : t.getChild i = some c) : ∃ c', t'.getChild i = some c' ∧ c.Related R c' := by
  obtain ⟨c', hc'⟩ := LSLASTNode.get?_of_length_eq h.length hc
  exact ⟨c', hc', h.child_related hc hc'⟩

theorem LSLASTNode.Related.getChild_none {R : NodeData → NodeData → Prop}
    {t t' : LSLASTNode} (h : t.Related R t') {i : Nat}
    (hc : t.getChild i = none) : t'.getChild i = none := by
  simp only [LSLASTNode.getChild] at hc ⊢
  rw [List.get?_eq_none] at hc ⊢
  rw [h.length]; exact hc

theorem LSLASTNode.Related.mem_children {R : NodeData → NodeData → Prop}
    {t t' : LSLASTNode} (h : t.Related R t') {c : LSLASTNode} (hc : c ∈ t.children) :
    ∃ c', c' ∈ t'.children ∧ c.Related R c' := by
  obtain ⟨i, hi⟩ := LSLASTNode.get?_of_mem hc
  obtain ⟨c', hc', hr⟩ := h.getChild_some (i := i) hi
  exact ⟨c', LSLASTNode.mem_of_get? hc', hr⟩

theorem LSLASTNode.Related.skeleton_fields {t t' : LSLASTNode}
    (h : t.Related NodeData.SameSkeleton t') :
    t'.getNodeType = t.getNodeType ∧ t'.getNodeSubType = t.getNodeSubType
      ∧ t'.getType = t.getType ∧ t'.getSymbol = t.getSymbol
      ∧ t'.getNumChildren = t.getNumChildren :=
  ⟨h.data.fields.1, h.data.fields.2.1, h.data.fields.2.2.1, h.data.fields.2.2.2.2.1,
    h.length⟩

theorem LSLASTNode.Writes.writes_of_related {t : LSLASTNode} {x : Nat} (h : t.Writes x) :
    ∀ {t' : LSLASTNode}, t.Related NodeData.SameSkeleton t' → t'.Writes x := by
  induction h with
  | declaration n id x hnt hst hid hsym =>
    intro t' hrel
    obtain ⟨id', hid', hr⟩ := hrel.getChild_some hid
    exact .declaration t' id' x (hrel.skeleton_fields.1.trans hnt)
      (hrel.skeleton_fields.2.1.trans hst) hid' (hr.skeleton_fields.2.2.2.1.trans hsym)
  | globalVariable n id x hnt hnum hid hsym =>
    intro t' hrel
    obtain ⟨id', hid', hr⟩ := hrel.getChild_some hid
    exact .globalVariable t' id' x (hrel.skeleton_fields.1.trans hnt)
      (by rw [hrel.skeleton_fields.2.2.2.2]; exact hnum) hid'
      (hr.skeleton_fields.2.2.2.1.trans hsym)
  | child n c x hty hc _ ih =>
    intro t' hrel
    obtain ⟨c', hc', hr⟩ := hrel.mem_children hc
    refine .child t' c' x ?_ hc' (ih hr)
    rw [hrel.skeleton_fields.2.2.1, hrel.skeleton_fields.1]
    exact hty
  | global n globals storage gv x hnt hg hs hgv hgvt _ ih =>
    intro t' hrel
    obtain ⟨globals', hg', hrg⟩ := hrel.getChild_some hg
    obtain ⟨storage', hs', hrs⟩ := hrg.mem_children hs
    obtain ⟨gv', hgv', hrv⟩ := hrs.getChild_some hgv
    exact .global t' globals' storage' gv' x (hrel.skeleton_fields.1.trans hnt) hg' hs' hgv'
      (hrv.skeleton_fields.1.trans hgvt) (ih hrv)

theorem LSLASTNode.ReadsSymbol.reads_of_related {t t' : LSLASTNode} {x : Nat}
    (hrel : t.Related NodeData.SameSkeleton t') (h : t.ReadsSymbol x) : t'.ReadsSymbol x := by
  obtain ⟨h1, h2, id, hid, hsym⟩ := h
  obtain ⟨id', hid', hr⟩ := hrel.getChild_some hid
  exact ⟨hrel.skeleton_fields.1.trans h1, hrel.skeleton_fields.2.1.trans h2, id', hid',
    hr.skeleton_fields.2.2.2.1.trans hsym⟩

/-- Two lists of the same length whose nodes at the same place are related. -/
theorem WritesBefore.before_of_related {cs cs' : List LSLASTNode}
    (hl : cs'.length = cs.length)
    (hcs : ∀ (i : Nat) (c c' : LSLASTNode), cs.get? i = some c → cs'.get? i = some c' →
      c.Related NodeData.SameSkeleton c') {i y : Nat} (h : WritesBefore cs i y) :
    WritesBefore cs' i y := by
  obtain ⟨j, c, hj, hc, hw⟩ := h
  obtain ⟨c', hc'⟩ := LSLASTNode.get?_of_length_eq hl hc
  exact ⟨j, c', hj, hc', hw.writes_of_related (hcs j c c' hc hc')⟩

theorem GlobalWrites.global_of_related {cs cs' : List LSLASTNode}
    (hl : cs'.length = cs.length)
    (hcs : ∀ (i : Nat) (c c' : LSLASTNode), cs.get? i = some c → cs'.get? i = some c' →
      c.Related NodeData.SameSkeleton c') {i y : Nat} (h : GlobalWrites cs i y) :
    GlobalWrites cs' i y := by
  obtain ⟨j, item, gv, hj, hc, hgv, hnt, hw⟩ := h
  obtain ⟨item', hc'⟩ := LSLASTNode.get?_of_length_eq hl hc
  obtain ⟨gv', hgv', hr⟩ := (hcs j item item' hc hc').getChild_some hgv
  exact ⟨j, item', gv', hj, hc', hgv', hr.skeleton_fields.1.trans hnt, hw.writes_of_related hr⟩

theorem LSLASTNode.Scoped.scoped_mono {D : Nat → Prop} {t : LSLASTNode} (h : t.Scoped D) :
    ∀ (D' : Nat → Prop), (∀ y, D y → D' y) → t.Scoped D' := by
  induction h with
  | node D d cs hns hread _ ih =>
    intro D' hD
    exact .node D' d cs hns (fun x hx => hD x (hread x hx))
      (fun hty i c hc => ih hty i c hc _ (fun y hy => hy.imp (hD y) id))
  | script D d g items rest hnt hg hitems hinert hsep _ _ ih1 ih2 =>
    intro D' hD
    exact .script D' d g items rest hnt hg hitems hinert hsep
      (fun i item gv hi hgv hgvt => ih1 i item gv hi hgv hgvt _
        (fun y hy => hy.imp (fun h => ⟨hD y h.1, h.2⟩) id))
      (fun i c hc => ih2 i c hc _ (fun y hy => hy.imp (fun h => h.imp (hD y) id) id))

theorem StoresAgree.anti {D D' : Nat → Prop} {σ τ : SymbolStore} (h : StoresAgree D σ τ)
    (hD : ∀ y, D' y → D y) : StoresAgree D' σ τ :=
  ⟨h.1, fun x hx => h.2 x (hD x hx)⟩

theorem LSLSymbol.SameSkeleton.same_symbol (a : LSLSymbol) : a.SameSkeleton a := rfl

theorem LSLSymbol.SameSkeleton.compose_symbol {a b c : LSLSymbol} (h1 : a.SameSkeleton b)
    (h2 : b.SameSkeleton c) : a.SameSkeleton c := by
  obtain ⟨n1, t1, s1, u1, f1, c1, p1, r1, a1⟩ := a
  obtain ⟨n2, t2, s2, u2, f2, c2, p2, r2, a2⟩ := b
  obtain ⟨n3, t3, s3, u3, f3, c3, p3, r3, a3⟩ := c
  simp only [LSLSymbol.SameSkeleton, LSLSymbol.mk.injEq] at h1 h2 ⊢
  obtain ⟨x1, x2, x3, x4, x5, _, _, x8, x9⟩ := h1
  obtain ⟨y1, y2, y3, y4, y5, _, _, y8, y9⟩ := h2
  exact ⟨y1.trans x1, y2.trans x2, y3.trans x3, y4.trans x4, y5.trans x5, trivial, trivial,
    y8.trans x8, y9.trans x9⟩

theorem LSLSymbol.SameSkeleton.flip_symbol {a b : LSLSymbol} (h : a.SameSkeleton b) :
    b.SameSkeleton a := by
  obtain ⟨n1, t1, s1, u1, f1, c1, p1, r1, a1⟩ := a
  obtain ⟨n2, t2, s2, u2, f2, c2, p2, r2, a2⟩ := b
  simp only [LSLSymbol.SameSkeleton, LSLSymbol.mk.injEq] at h ⊢
  obtain ⟨x1, x2, x3, x4, x5, _, _, x8, x9⟩ := h
  exact ⟨x1.symm, x2.symm, x3.symm, x4.symm, x5.symm, trivial, trivial, x8.symm, x9.symm⟩

theorem LSLSymbol.SameSkeleton.update {a b : LSLSymbol} (h : a.SameSkeleton b)
    (cv : Option LSLConstant) (cp : Bool) :
    ({ a with constantValue := cv, constantPrecluded := cp } : LSLSymbol) =
      { b with constantValue := cv, constantPrecluded := cp } := by
  obtain ⟨n1, t1, s1, u1, f1, c1, p1, r1, a1⟩ := a
  obtain ⟨n2, t2, s2, u2, f2, c2, p2, r2, a2⟩ := b
  simp only [LSLSymbol.SameSkeleton, LSLSymbol.mk.injEq] at h ⊢
  obtain ⟨x1, x2, x3, x4, x5, _, _, x8, x9⟩ := h
  exact ⟨x1.symm, x2.symm, x3.symm, x4.symm, x5.symm, trivial, trivial, x8.symm, x9.symm⟩

end TwoRuns

section TwoRuns

theorem NodeData.Plain.of_skeleton {d d' : NodeData} (h : d.SameSkeleton d')
    (hp : d.Plain) : d'.Plain := by
  obtain ⟨h1, h2, h3, _⟩ := h.fields
  unfold NodeData.Plain
  rw [h1, h3]
  exact hp

theorem LSLASTNode.Scoped.scoped_of_related {D : Nat → Prop} {t : LSLASTNode} (h : t.Scoped D) :
    ∀ {t' : LSLASTNode}, t.Related NodeData.SameSkeleton t' → t'.Scoped D := by
  induction h with
  | node D d cs hns hread _ ih =>
    intro t' hrel
    obtain ⟨d', cs'⟩ := t'
    have hl : cs'.length = cs.length := hrel.length
    have hf := hrel.data.fields
    have hcs : ∀ (i : Nat) (c c' : LSLASTNode), cs.get? i = some c → cs'.get? i = some c' →
        c.Related NodeData.SameSkeleton c' := fun i c c' hc hc' => hrel.child_related hc hc'
    refine .node D d' cs' (by rw [show d'.nodeType = d.nodeType from hf.1]; exact hns)
      (fun x hx => hread x (hx.reads_of_related hrel.flip)) ?_
    intro hty i c' hc'
    obtain ⟨c, hc⟩ := LSLASTNode.get?_of_length_eq hl.symm hc'
    exact (ih (by rw [← show d'.type = d.type from hf.2.2.1]; exact hty) i c hc
      (hcs i c c' hc hc')).scoped_mono _ (fun y hy => hy.imp id (WritesBefore.before_of_related hl hcs))
  | script D d g items rest hnt hg hitems hinert hsep _ _ ih1 ih2 =>
    intro t' hrel
    obtain ⟨d', cs'⟩ := t'
    have hl : cs'.length = (LSLASTNode.mk g items :: rest).length := hrel.length
    have hf := hrel.data.fields
    have hcs : ∀ (i : Nat) (c c' : LSLASTNode),
        (LSLASTNode.mk g items :: rest).get? i = some c → cs'.get? i = some c' →
        c.Related NodeData.SameSkeleton c' := fun i c c' hc hc' => hrel.child_related hc hc'
    rcases cs' with _ | ⟨c0', rest'⟩
    · simp at hl
    obtain ⟨g', items'⟩ := c0'
    have hr0 : (LSLASTNode.mk g items).Related NodeData.SameSkeleton (.mk g' items') :=
      hcs 0 _ _ rfl rfl
    have hli : items'.length = items.length := hr0.length
    have hits : ∀ (i : Nat) (c c' : LSLASTNode), items.get? i = some c →
        items'.get? i = some c' → c.Related NodeData.SameSkeleton c' :=
      fun i c c' hc hc' => hr0.child_related hc hc'
    have back : ∀ item', item' ∈ items' → ∃ item, item ∈ items ∧
        item.Related NodeData.SameSkeleton item' := by
      intro item' hm
      obtain ⟨i, hi⟩ := LSLASTNode.get?_of_mem hm
      obtain ⟨item, hitem⟩ := LSLASTNode.get?_of_length_eq hli.symm hi
      exact ⟨item, LSLASTNode.mem_of_get? hitem, hits i item item' hitem hi⟩
    have hwr : ∀ y, (LSLASTNode.mk d' (.mk g' items' :: rest')).Writes y →
        (LSLASTNode.mk d (.mk g items :: rest)).Writes y :=
      fun y hy => hy.writes_of_related hrel.flip
    have hgw : ∀ i y, GlobalWrites items' i y → GlobalWrites items i y :=
      fun i y hy => GlobalWrites.global_of_related hli.symm
        (fun j c' c hc' hc => (hits j c c' hc hc').flip) hy
    have hnt' : d'.nodeType = .NODE_SCRIPT := (show d'.nodeType = d.nodeType from hf.1).trans hnt
    refine .script D d' g' items' rest' hnt' (hg.of_skeleton hr0.data) ?_ ?_ ?_ ?_ ?_
    · intro item' hm
      obtain ⟨item, hitem, hr⟩ := back item' hm
      exact (hitems item hitem).of_skeleton hr.data
    · intro item' hm gv' hgv' hgvt' k c' y hk hc' hw
      obtain ⟨item, hitem, hr⟩ := back item' hm
      obtain ⟨gv, hgv, hrv⟩ := hr.flip.getChild_some hgv'
      obtain ⟨c, hc, hrc⟩ := hr.flip.getChild_some hc'
      exact hinert item hitem gv hgv (hrv.skeleton_fields.1.trans hgvt') k c y hk hc
        (hw.writes_of_related hrc)
    · intro item' hm hnogv y hw hgl
      obtain ⟨item, hitem, hr⟩ := back item' hm
      refine hsep item hitem ?_ y (hw.writes_of_related hr.flip) ?_
      · intro gv hgv hgvt
        obtain ⟨gv', hgv', hrv⟩ := hr.getChild_some hgv
        exact hnogv gv' hgv' (hrv.skeleton_fields.1.trans hgvt)
      · rw [← hli]; exact hgw _ y hgl
    · intro i item' gv' hi hgv' hgvt'
      obtain ⟨item, hitem⟩ := LSLASTNode.get?_of_length_eq hli.symm hi
      have hr := hits i item item' hitem hi
      obtain ⟨gv, hgv, hrv⟩ := hr.flip.getChild_some hgv'
      refine (ih1 i item gv hitem hgv (hrv.skeleton_fields.1.trans hgvt') hrv.flip).scoped_mono _ ?_
      intro y hy
      rcases hy with ⟨hD, hn⟩ | hy
      · exact Or.inl ⟨hD, fun hw => hn (hwr y hw)⟩
      · exact Or.inr (GlobalWrites.global_of_related hli hits hy)
    · intro i c' hc'
      obtain ⟨c, hc⟩ := LSLASTNode.get?_of_length_eq hl.symm hc'
      refine (ih2 i c hc (hcs i c c' hc hc')).scoped_mono _ ?_
      intro y hy
      rcases hy with (hD | hy) | hy
      · exact Or.inl (Or.inl hD)
      · exact Or.inl (Or.inr (by rw [hli]; exact GlobalWrites.global_of_related hli hits hy))
      · exact Or.inr (WritesBefore.before_of_related hl hcs hy)

end TwoRuns

section TwoRuns

open ConstantDeterminingVisitor

theorem ConstantDeterminingVisitor.visitChildren_cons_ok
    {f : SymbolStore → LSLASTNode → Except Fault (SymbolStore × LSLASTNode)}
    {s s' : SymbolStore} {a : LSLASTNode} {cs l' : List LSLASTNode}
    (h : visitChildren f s (a :: cs) = .ok (s', l')) :
    ∃ s1 a1 cs1, f s a = .ok (s1, a1) ∧ visitChildren f s1 cs = .ok (s', cs1)
      ∧ l' = a1 :: cs1 := by
  simp only [visitChildren] at h
  split at h
  · cases h
  · rename_i s1 a1 ha
    split at h
    · cases h
    · rename_i s2 cs1 hcs
      simp only [Except.ok.injEq, Prod.mk.injEq] at h
      obtain ⟨rfl, rfl⟩ := h
      exact ⟨s1, a1, cs1, ha, hcs, rfl⟩

theorem ConstantDeterminingVisitor.visitChildren_cons_of
    {f : SymbolStore → LSLASTNode → Except Fault (SymbolStore × LSLASTNode)}
    {s s1 s' : SymbolStore} {a a1 : LSLASTNode} {cs cs1 : List LSLASTNode}
    (ha : f s a = .ok (s1, a1)) (hcs : visitChildren f s1 cs = .ok (s', cs1)) :
    visitChildren f s (a :: cs) = .ok (s', a1 :: cs1) := by
  simp only [visitChildren, ha, hcs]

/-- One step of the loop over the items of the list of globals. -/
theorem ConstantDeterminingVisitor.visitGlobalVariables_cons_ok
    {f : SymbolStore → LSLASTNode → Except Fault (SymbolStore × LSLASTNode)}
    {s s' : SymbolStore} {a : LSLASTNode} {cs l' : List LSLASTNode}
    (h : visitGlobalVariables f s (a :: cs) = .ok (s', l')) :
    ∃ s1 a1 cs1, visitGlobalVariables f s1 cs = .ok (s', cs1) ∧ l' = a1 :: cs1 ∧
      ((∃ gv gv1, a.getChild 0 = some gv ∧ gv.getNodeType = .NODE_GLOBAL_VARIABLE
          ∧ f s gv = .ok (s1, gv1) ∧ a1 = a.replaceChild 0 gv1)
        ∨ ((∀ gv, a.getChild 0 = some gv → gv.getNodeType ≠ .NODE_GLOBAL_VARIABLE)
          ∧ s1 = s ∧ a1 = a)) := by
  cases hg : a.getChild 0 with
  | none =>
    simp only [visitGlobalVariables, hg] at h
    split at h
    · cases h
    · rename_i s2 cs1 hcs
      simp only [Except.ok.injEq, Prod.mk.injEq] at h
      obtain ⟨rfl, rfl⟩ := h
      exact ⟨s, a, cs1, hcs, rfl,
        Or.inr ⟨fun gv hgv => (by cases hgv), rfl, rfl⟩⟩
  | some gv =>
    by_cases hnt : gv.getNodeType = .NODE_GLOBAL_VARIABLE
    · simp only [visitGlobalVariables, hg, hnt, if_true] at h
      cases hrun : f s gv with
      | error e => simp only [hrun] at h; cases h
      | ok r1 =>
        obtain ⟨s1, gv1⟩ := r1
        simp only [hrun] at h
        split at h
        · cases h
        · rename_i s2 cs1 hcs
          simp only [Except.ok.injEq, Prod.mk.injEq] at h
          obtain ⟨rfl, rfl⟩ := h
          exact ⟨s1, _, cs1, hcs, rfl, Or.inl ⟨gv, gv1, rfl, hnt, hrun, rfl⟩⟩
    · simp only [visitGlobalVariables, hg, hnt, if_false] at h
      split at h
      · cases h
      · rename_i s2 cs1 hcs
        simp only [Except.ok.injEq, Prod.mk.injEq] at h
        obtain ⟨rfl, rfl⟩ := h
        exact ⟨s, a, cs1, hcs, rfl,
          Or.inr ⟨fun gv' hgv' => (by cases hgv'; exact hnt), rfl, rfl⟩⟩

theorem ConstantDeterminingVisitor.visitGlobalVariables_cons_visit
    {f : SymbolStore → LSLASTNode → Except Fault (SymbolStore × LSLASTNode)}
    {s s1 s' : SymbolStore} {a gv gv1 : LSLASTNode} {cs cs1 : List LSLASTNode}
    (hg : a.getChild 0 = some gv) (hnt : gv.getNodeType = .NODE_GLOBAL_VARIABLE)
    (hrun : f s gv = .ok (s1, gv1))
    (hcs : visitGlobalVariables f s1 cs = .ok (s', cs1)) :
    visitGlobalVariables f s (a :: cs) = .ok (s', a.replaceChild 0 gv1 :: cs1) := by
  simp only [visitGlobalVariables, hg, hnt, if_true, hrun, hcs]

theorem ConstantDeterminingVisitor.visitGlobalVariables_cons_skip
    {f : SymbolStore → LSLASTNode → Except Fault (SymbolStore × LSLASTNode)}
    {s s' : SymbolStore} {a : LSLASTNode} {cs cs1 : List LSLASTNode}
    (hg : ∀ gv, a.getChild 0 = some gv → gv.getNodeType ≠ .NODE_GLOBAL_VARIABLE)
    (hcs : visitGlobalVariables f s cs = .ok (s', cs1)) :
    visitGlobalVariables f s (a :: cs) = .ok (s', a :: cs1) := by
  cases hc : a.getChild 0 with
  | none => simp only [visitGlobalVariables, hc, hcs]
  | some gv => simp only [visitGlobalVariables, hc, hg gv hc, if_false, hcs]

theorem ConstantDeterminingVisitor.visitScript_ok
    {f : SymbolStore → LSLASTNode → Except Fault (SymbolStore × LSLASTNode)}
    {s : SymbolStore} {d : NodeData} {cs : List LSLASTNode} {r : SymbolStore × LSLASTNode}
    (h : visitScript f s (.mk d cs) = .ok r) :
    ∃ g items rest s1 items1 s2 cs2, cs = .mk g items :: rest
      ∧ visitGlobalVariables f s items = .ok (s1, items1)
      ∧ visitChildren f s1 (.mk g items1 :: rest) = .ok (s2, cs2)
      ∧ r = (s2, .mk d cs2) := by
  rcases cs with _ | ⟨⟨g, items⟩, rest⟩
  · simp [visitScript, LSLASTNode.getChild] at h
  · simp only [visitScript, LSLASTNode.getChild, LSLASTNode.children,
      List.get?_cons_zero, LSLASTNode.data, LSLASTNode.replaceChild, List.set_cons_zero] at h
    split at h
    · cases h
    · rename_i s1 items1 hp1
      split at h
      · cases h
      · rename_i s2 cs2 hp2
        simp only [Except.ok.injEq] at h
        exact ⟨g, items, rest, s1, items1, s2, cs2, rfl, hp1, hp2, h.symm⟩

theorem ConstantDeterminingVisitor.visitScript_of
    {f : SymbolStore → LSLASTNode → Except Fault (SymbolStore × LSLASTNode)}
    {s s1 s2 : SymbolStore} {d g : NodeData} {items items1 rest cs2 : List LSLASTNode}
    (hp1 : visitGlobalVariables f s items = .ok (s1, items1))
    (hp2 : visitChildren f s1 (.mk g items1 :: rest) = .ok (s2, cs2)) :
    visitScript f s (.mk d (.mk g items :: rest)) = .ok (s2, .mk d cs2) := by
  simp only [visitScript, LSLASTNode.getChild, LSLASTNode.children,
    List.get?_cons_zero, LSLASTNode.data, LSLASTNode.replaceChild, List.set_cons_zero, hp1,
    hp2]

end TwoRuns

section TwoRuns

open ConstantDeterminingVisitor

theorem ConstantDeterminingVisitor.visitChildren_kept
    {f : SymbolStore → LSLASTNode → Except Fault (SymbolStore × LSLASTNode)}
    (hf : ∀ s c s' c', f s c = .ok (s', c') → Kept s c s' c') :
    ∀ (cs : List LSLASTNode) (s s' : SymbolStore) (cs' : List LSLASTNode),
      visitChildren f s cs = .ok (s', cs') →
      cs'.length = cs.length
        ∧ (∀ (i : Nat) (c c' : LSLASTNode), cs.get? i = some c → cs'.get? i = some c' →
            c.Related NodeData.SameSkeleton c')
        ∧ (∀ x, (∀ c ∈ cs, ¬ c.Writes x) → s' x = s x)
        ∧ ∀ x, (s x).SameSkeleton (s' x) := by
  intro cs
  induction cs with
  | nil =>
    intro s s' cs' h
    simp only [visitChildren, Except.ok.injEq, Prod.mk.injEq] at h
    obtain ⟨rfl, rfl⟩ := h
    exact ⟨rfl, fun i c c' hc => by simp at hc, fun _ _ => rfl,
      fun x => LSLSymbol.SameSkeleton.same_symbol _⟩
  | cons a cs ih =>
    intro s s' cs' h
    obtain ⟨s1, a1, cs1, ha, hcs, rfl⟩ := visitChildren_cons_ok h
    obtain ⟨hr, hfr, hsk⟩ := hf s a s1 a1 ha
    obtain ⟨hl, hrs, hfrs, hsks⟩ := ih s1 s' cs1 hcs
    refine ⟨by simp [hl], ?_, ?_, fun x => (hsk x).compose_symbol (hsks x)⟩
    · intro i c c' hc hc'
      cases i with
      | zero =>
        simp only [List.get?_cons_zero, Option.some.injEq] at hc hc'
        subst hc hc'
        exact hr
      | succ i => exact hrs i c c' (by simpa using hc) (by simpa using hc')
    · intro x hx
      rw [hfrs x (fun c hc => hx c (List.mem_cons_of_mem a hc)),
        hfr x (hx a (List.mem_cons_self a cs))]

theorem GlobalWrites.head {a gv : LSLASTNode} {cs : List LSLASTNode} {x : Nat}
    (hg : a.getChild 0 = some gv) (hnt : gv.getNodeType = .NODE_GLOBAL_VARIABLE)
    (hw : gv.Writes x) : GlobalWrites (a :: cs) (a :: cs).length x :=
  ⟨0, a, gv, by simp, rfl, hg, hnt, hw⟩

theorem GlobalWrites.tail {a : LSLASTNode} {cs : List LSLASTNode} {i x : Nat}
    (h : GlobalWrites cs i x) : GlobalWrites (a :: cs) (i + 1) x := by
  obtain ⟨j, item, gv, hj, hi, hg, hnt, hw⟩ := h
  exact ⟨j + 1, item, gv, by omega, by simpa using hi, hg, hnt, hw⟩

theorem ConstantDeterminingVisitor.visitGlobalVariables_kept
    {f : SymbolStore → LSLASTNode → Except Fault (SymbolStore × LSLASTNode)}
    (hf : ∀ s c s' c', f s c = .ok (s', c') → Kept s c s' c') :
    ∀ (cs : List LSLASTNode) (s s' : SymbolStore) (cs' : List LSLASTNode),
      visitGlobalVariables f s cs = .ok (s', cs') →
      cs'.length = cs.length
        ∧ (∀ (i : Nat) (c c' : LSLASTNode), cs.get? i = some c → cs'.get? i = some c' →
            c.Related NodeData.SameSkeleton c')
        ∧ (∀ x, ¬ GlobalWrites cs cs.length x → s' x = s x)
        ∧ ∀ x, (s x).SameSkeleton (s' x) := by
  intro cs
  induction cs with
  | nil =>
    intro s s' cs' h
    simp only [visitGlobalVariables, Except.ok.injEq, Prod.mk.injEq] at h
    obtain ⟨rfl, rfl⟩ := h
    exact ⟨rfl, fun i c c' hc => by simp at hc, fun _ _ => rfl,
      fun x => LSLSymbol.SameSkeleton.same_symbol _⟩
  | cons a cs ih =>
    intro s s' cs' h
    obtain ⟨s1, a1, cs1, hcs, rfl, hstep⟩ := visitGlobalVariables_cons_ok h
    obtain ⟨hl, hrs, hfrs, hsks⟩ := ih s1 s' cs1 hcs
    have hstep' : a.Related NodeData.SameSkeleton a1 ∧
        (∀ x, ¬ GlobalWrites (a :: cs) (a :: cs).length x → s1 x = s x) ∧
        ∀ x, (s x).SameSkeleton (s1 x) := by
      rcases hstep with ⟨gv, gv1, hg, hnt, hrun, rfl⟩ | ⟨_, hs, ha⟩
      · obtain ⟨hr, hfr, hsk⟩ := hf s gv s1 gv1 hrun
        exact ⟨LSLASTNode.Related.replaceChild NodeData.SameSkeleton.same hg hr,
          fun x hx => hfr x (fun hw => hx (GlobalWrites.head hg hnt hw)), hsk⟩
      · rw [hs, ha]
        exact ⟨LSLASTNode.Related.reflexive NodeData.SameSkeleton.same a, fun _ _ => rfl,
          fun x => LSLSymbol.SameSkeleton.same_symbol _⟩
    obtain ⟨hr, hfr, hsk⟩ := hstep'
    refine ⟨by simp [hl], ?_, ?_, fun x => (hsk x).compose_symbol (hsks x)⟩
    · intro i c c' hc hc'
      cases i with
      | zero =>
        simp only [List.get?_cons_zero, Option.some.injEq] at hc hc'
        subst hc hc'
        exact hr
      | succ i => exact hrs i c c' (by simpa using hc) (by simpa using hc')
    · intro x hx
      rw [hfrs x (fun hw => hx hw.tail), hfr x hx]

end TwoRuns

section TwoRuns

open ConstantDeterminingVisitor

theorem ConstantDeterminingVisitor.hookDescends_iff (d : NodeData) :
    hookDescends d = true ↔ d.type ≠ .LST_ERROR ∧ d.nodeType ≠ .NODE_SCRIPT := by
  rw [hookDescends_eq]
  simp

theorem ConstantDeterminingVisitor.propagate_script (lib : Library) (fuel : Nat)
    (s : SymbolStore) (d : NodeData) (cs : List LSLASTNode)
    (hs : d.nodeType = .NODE_SCRIPT) :
    propagate lib (fuel + 1) s (.mk d cs) =
      visitScript (propagate lib fuel) s (.mk (hookData d) cs) := by
  have hd : ¬ hookDescends d = true := fun h => ((hookDescends_iff d).mp h).2 hs
  rw [propagate_succ, if_neg hd]
  simp only [if_pos hs]

theorem LSLASTNode.Related.skeleton_trans {t1 t2 t3 : LSLASTNode}
    (h12 : t1.Related NodeData.SameSkeleton t2) (h23 : t2.Related NodeData.SameSkeleton t3) :
    t1.Related NodeData.SameSkeleton t3 :=
  LSLASTNode.Related.transitive
    (fun a b c (h1 : a.SameSkeleton b) (h2 : b.SameSkeleton c) => h1.compose h2) h12 h23

theorem LSLSymbol.SameSkeleton.of_update (a : LSLSymbol) (cv : Option LSLConstant)
    (cp : Bool) : a.SameSkeleton { a with constantValue := cv, constantPrecluded := cp } :=
  rfl

/-- A run that returns leaves a tree of the same skeleton and a store that differs from
the one before only in the constant slots of symbols the tree writes. -/
theorem ConstantDeterminingVisitor.propagate_kept (lib : Library) :
    ∀ (fuel : Nat) (s : SymbolStore) (t : LSLASTNode) (s' : SymbolStore) (t' : LSLASTNode),
      propagate lib fuel s t = .ok (s', t') → Kept s t s' t' := by
  intro fuel
  induction fuel with
  | zero => intro s t s' t' h; cases h
  | succ fuel ih =>
    intro s t s' t' h
    obtain ⟨d, cs⟩ := t
    by_cases hscript : d.nodeType = .NODE_SCRIPT
    · rw [propagate_script lib fuel s d cs hscript] at h
      obtain ⟨g, items, rest, s1, items1, s2, cs2, rfl, hp1, hp2, hr⟩ := visitScript_ok h
      simp only [Prod.mk.injEq] at hr
      obtain ⟨rfl, rfl⟩ := hr
      obtain ⟨hl1, hr1, hf1, hk1⟩ := visitGlobalVariables_kept ih items s s1 items1 hp1
      obtain ⟨hl2, hr2, hf2, hk2⟩ := visitChildren_kept ih _ s1 s' cs2 hp2
      have hrelg : (LSLASTNode.mk g items).Related NodeData.SameSkeleton (.mk g items1) :=
        .mk g g items items1 (NodeData.SameSkeleton.same g) hl1 hr1
      refine ⟨?_, ?_, fun x => (hk1 x).compose_symbol (hk2 x)⟩
      · refine .mk d (hookData d) _ cs2 (hookData_skeleton d) (by simpa using hl2) ?_
        intro i c c' hc hc'
        cases i with
        | zero =>
          simp only [List.get?_cons_zero, Option.some.injEq] at hc
          subst hc
          exact hrelg.skeleton_trans (hr2 0 _ c' rfl hc')
        | succ i => exact hr2 (i + 1) c c' (by simpa using hc) hc'
      · intro x hx
        rw [hf2 x ?_, hf1 x ?_]
        · intro hw
          obtain ⟨j, item, gv, _, hi, hg, hnt, hwx⟩ := hw
          exact hx (.global _ (.mk g items) item gv x hscript rfl
            (LSLASTNode.mem_of_get? hi) hg hnt hwx)
        · intro c hc hw
          rcases List.mem_cons.mp hc with hc | hc
          · subst hc
            exact hx (.child _ (.mk g items) x (Or.inr hscript) (List.mem_cons_self _ _)
              (hw.writes_of_related hrelg.flip))
          · exact hx (.child _ c x (Or.inr hscript) (List.mem_cons_of_mem _ hc) hw)
    · obtain ⟨s1, cs1, hbelow, hv⟩ := propagate_node lib fuel s d cs _ h hscript
      have hch : cs1.length = cs.length
          ∧ (∀ (i : Nat) (c c' : LSLASTNode), cs.get? i = some c → cs1.get? i = some c' →
              c.Related NodeData.SameSkeleton c')
          ∧ (∀ x, ¬ (LSLASTNode.mk d cs).Writes x → s1 x = s x)
          ∧ ∀ x, (s x).SameSkeleton (s1 x) := by
        by_cases hd : hookDescends d = true
        · rw [if_pos hd] at hbelow
          obtain ⟨hl, hr, hf, hk⟩ := visitChildren_kept ih cs s s1 cs1 hbelow
          refine ⟨hl, hr, fun x hx => hf x (fun c hc hw => hx ?_), hk⟩
          exact .child _ c x (Or.inl ((hookDescends_iff d).mp hd).1) hc hw
        · rw [if_neg hd] at hbelow
          simp only [Except.ok.injEq, Prod.mk.injEq] at hbelow
          obtain ⟨rfl, rfl⟩ := hbelow
          exact ⟨rfl, fun i c c' hc hc' => by
            rw [hc] at hc'; cases hc'
            exact LSLASTNode.Related.reflexive NodeData.SameSkeleton.same c,
            fun _ _ => rfl, fun x => LSLSymbol.SameSkeleton.same_symbol _⟩
      obtain ⟨hl, hr, hf, hk⟩ := hch
      have hrel1 : (LSLASTNode.mk d cs).Related NodeData.SameSkeleton
          (.mk (hookData d) cs1) := .mk d (hookData d) cs cs1 (hookData_skeleton d) hl hr
      obtain ⟨hcs', hsk'⟩ := visitSpecific_node lib s1 s' (hookData d) cs1 t' hv
      obtain ⟨d2, cs2⟩ := t'
      simp only [LSLASTNode.children_mk] at hcs'
      subst hcs'
      refine ⟨.mk d d2 cs cs2 ((hookData_skeleton d).compose hsk') hl hr, ?_, ?_⟩
      · intro x hx
        rcases visitSpecific_store lib s1 s' _ _ hv with hs | ⟨y, cv, cp, hw, hs⟩
        · rw [hs]; exact hf x hx
        · have hne : x ≠ y := fun hxy => hx (hxy ▸ hw.writes_of_related hrel1.flip)
          rw [hs, Function.update_noteq hne]
          exact hf x hx
      · intro x
        rcases visitSpecific_store lib s1 s' _ _ hv with hs | ⟨y, cv, cp, hw, hs⟩
        · rw [hs]; exact hk x
        · rw [hs]
          by_cases hxy : x = y
          · subst hxy
            rw [Function.update_same]
            exact (hk x).compose_symbol (LSLSymbol.SameSkeleton.of_update _ cv cp)
          · rw [Function.update_noteq hxy]
            exact hk x

end TwoRuns

section TwoRuns

open ConstantDeterminingVisitor

theorem ConstantDeterminingVisitor.visitChildren_mono
    {f g : SymbolStore → LSLASTNode → Except Fault (SymbolStore × LSLASTNode)}
    (hfg : ∀ s c r, f s c = .ok r → g s c = .ok r) :
    ∀ (cs : List LSLASTNode) (s : SymbolStore) (r : SymbolStore × List LSLASTNode),
      visitChildren f s cs = .ok r → visitChildren g s cs = .ok r := by
  intro cs
  induction cs with
  | nil => intro s r h; exact h
  | cons a cs ih =>
    intro s r h
    obtain ⟨s', l'⟩ := r
    obtain ⟨s1, a1, cs1, ha, hcs, rfl⟩ := visitChildren_cons_ok h
    exact visitChildren_cons_of (hfg _ _ _ ha) (ih _ _ hcs)

theorem ConstantDeterminingVisitor.visitGlobalVariables_mono
    {f g : SymbolStore → LSLASTNode → Except Fault (SymbolStore × LSLASTNode)}
    (hfg : ∀ s c r, f s c = .ok r → g s c = .ok r) :
    ∀ (cs : List LSLASTNode) (s : SymbolStore) (r : SymbolStore × List LSLASTNode),
      visitGlobalVariables f s cs = .ok r → visitGlobalVariables g s cs = .ok r := by
  intro cs
  induction cs with
  | nil => intro s r h; exact h
  | cons a cs ih =>
    intro s r h
    obtain ⟨s', l'⟩ := r
    obtain ⟨s1, a1, cs1, hcs, rfl, hstep⟩ := visitGlobalVariables_cons_ok h
    rcases hstep with ⟨gv, gv1, hg, hnt, hrun, rfl⟩ | ⟨hno, hs, ha⟩
    · exact visitGlobalVariables_cons_visit hg hnt (hfg _ _ _ hrun) (ih _ _ hcs)
    · rw [ha]
      rw [hs] at hcs
      exact visitGlobalVariables_cons_skip hno (ih _ _ hcs)

/-- More fuel does not change the result of a run that returns. -/
theorem ConstantDeterminingVisitor.propagate_mono (lib : Library) :
    ∀ (fuel : Nat) (s : SymbolStore) (t : LSLASTNode) (r : SymbolStore × LSLASTNode),
      propagate lib fuel s t = .ok r → propagate lib (fuel + 1) s t = .ok r := by
  intro fuel
  induction fuel with
  | zero => intro s t r h; cases h
  | succ fuel ih =>
    intro s t r h
    obtain ⟨d, cs⟩ := t
    by_cases hscript : d.nodeType = .NODE_SCRIPT
    · rw [propagate_script lib fuel s d cs hscript] at h
      rw [propagate_script lib (fuel + 1) s d cs hscript]
      obtain ⟨g, items, rest, s1, items1, s2, cs2, rfl, hp1, hp2, rfl⟩ := visitScript_ok h
      exact visitScript_of (visitGlobalVariables_mono ih _ _ _ hp1)
        (visitChildren_mono ih _ _ _ hp2)
    · obtain ⟨s1, cs1, hbelow, hv⟩ := propagate_node lib fuel s d cs _ h hscript
      rw [propagate_succ]
      have hbelow' : (if hookDescends d = true then
            visitChildren (propagate lib (fuel + 1)) s cs
          else .ok (s, cs)) = .ok (s1, cs1) := by
        by_cases hd : hookDescends d = true
        · rw [if_pos hd] at hbelow ⊢
          exact visitChildren_mono ih _ _ _ hbelow
        · rw [if_neg hd] at hbelow ⊢
          exact hbelow
      rw [hbelow']
      simp only [if_neg hscript, hv]

theorem ConstantDeterminingVisitor.propagate_mono_le (lib : Library) {fuel fuel' : Nat}
    (hle : fuel ≤ fuel') {s : SymbolStore} {t : LSLASTNode} {r : SymbolStore × LSLASTNode}
    (h : propagate lib fuel s t = .ok r) : propagate lib fuel' s t = .ok r := by
  induction hle with
  | refl => exact h
  | step _ ih => exact propagate_mono lib _ _ _ _ ih

end TwoRuns

section TwoRuns

open ConstantDeterminingVisitor

/-- On an expression other than an lvalue the `visit` overloads do not look at the symbol
store. -/
theorem ConstantDeterminingVisitor.visitSpecific_expression_store (lib : Library)
    (σ τ : SymbolStore) (n : LSLASTNode) (h1 : n.getNodeType = .NODE_EXPRESSION)
    (h2 : n.getNodeSubType ≠ .NODE_LVALUE_EXPRESSION) :
    visitSpecific lib τ n = (visitSpecific lib σ n).map (fun r => (τ, r.2)) := by
  by_cases h3 : n.getNodeSubType = .NODE_LIST_EXPRESSION
  · rw [visitSpecific_list lib τ n h1 h3, visitSpecific_list lib σ n h1 h3]
    cases visitListExpression n <;> rfl
  by_cases h4 : n.getNodeSubType = .NODE_VECTOR_EXPRESSION
  · rw [visitSpecific_vector lib τ n h1 h4, visitSpecific_vector lib σ n h1 h4]
    rfl
  by_cases h5 : n.getNodeSubType = .NODE_QUATERNION_EXPRESSION
  · rw [visitSpecific_quaternion lib τ n h1 h5, visitSpecific_quaternion lib σ n h1 h5]
    rfl
  by_cases h6 : n.getNodeSubType = .NODE_TYPECAST_EXPRESSION
  · rw [visitSpecific_typecast lib τ n h1 h6, visitSpecific_typecast lib σ n h1 h6]
    cases visitTypecastExpression lib n <;> rfl
  rw [visitSpecific_expression lib τ n h1 h2 h3 h4 h5 h6,
    visitSpecific_expression lib σ n h1 h2 h3 h4 h5 h6]
  cases visitExpression lib n <;> rfl

/-- The visit of an lvalue looks at the symbol store at the symbol of the identifier
only. -/
theorem ConstantDeterminingVisitor.visitLValueExpression_store (σ τ : SymbolStore)
    (n : LSLASTNode)
    (h : ∀ id x, n.getChild 0 = some id → id.getSymbol = some x → σ x = τ x) :
    ConstantDeterminingVisitor.visitLValueExpression τ n =
      ConstantDeterminingVisitor.visitLValueExpression σ n := by
  unfold ConstantDeterminingVisitor.visitLValueExpression
  cases hid : n.getChild 0 with
  | none => rfl
  | some id =>
    cases hsy : id.getSymbol with
    | none => simp [hsy]
    | some x =>
      simp only [Option.bind_eq_bind, Option.some_bind, hsy, h id x hid hsy]

/-- What `visit(LSLDeclaration *)` does to the store does not depend on the store: it
fails, or writes fixed constant slots to the symbol of the identifier. -/
theorem ConstantDeterminingVisitor.visitDeclaration_write (n : LSLASTNode) :
    (∀ s, ConstantDeterminingVisitor.visitDeclaration s n = none) ∨
    ∃ id y cv cp, n.getChild 0 = some id ∧ id.getSymbol = some y ∧
      ∀ s, ConstantDeterminingVisitor.visitDeclaration s n = some (Function.update s y
        { s y with constantValue := cv, constantPrecluded := cp }) := by
  cases hid : n.getChild 0 with
  | none =>
    left
    intro s
    simp [ConstantDeterminingVisitor.visitDeclaration, hid]
  | some id =>
    cases hsy : id.getSymbol with
    | none =>
      left
      intro s
      simp [ConstantDeterminingVisitor.visitDeclaration, hid, hsy]
    | some y =>
      right
      cases hr : n.getChild 1 with
      | none =>
        exact ⟨id, y, none, false, rfl, hsy, fun s => by
          simp [ConstantDeterminingVisitor.visitDeclaration, hid, hsy, hr]⟩
      | some r =>
        by_cases hnull : r.getNodeType = .NODE_NULL
        · exact ⟨id, y, none, false, rfl, hsy, fun s => by
            simp [ConstantDeterminingVisitor.visitDeclaration, hid, hsy, hr, hnull]⟩
        · exact ⟨id, y, r.getConstantValue, r.getConstantPrecluded, rfl, hsy, fun s => by
            simp [ConstantDeterminingVisitor.visitDeclaration, hid, hsy, hr, hnull]⟩

/-- What `visit(LSLGlobalVariable *)` does to the store does not depend on the store. -/
theorem ConstantDeterminingVisitor.visitGlobalVariable_write (n : LSLASTNode) :
    (∀ s, visitGlobalVariable s n = none) ∨
    (n.getNumChildren ≤ 1 ∧ ∀ s, visitGlobalVariable s n = some s) ∨
    ∃ id y cv cp, n.getChild 0 = some id ∧ id.getSymbol = some y ∧
      ∀ s, visitGlobalVariable s n = some (Function.update s y
        { s y with constantValue := cv, constantPrecluded := cp }) := by
  cases hid : n.getChild 0 with
  | none =>
    left
    intro s
    simp [visitGlobalVariable, hid]
  | some id =>
    cases hr : n.getChild 1 with
    | none =>
      right; left
      refine ⟨?_, fun s => by simp [visitGlobalVariable, hid, hr]⟩
      simp only [LSLASTNode.getChild] at hr
      rw [List.get?_eq_none] at hr
      exact hr
    | some r =>
      cases hsy : id.getSymbol with
      | none =>
        left
        intro s
        simp [visitGlobalVariable, hid, hr, hsy]
      | some y =>
        right; right
        exact ⟨id, y, r.getConstantValue, r.getConstantPrecluded, rfl, hsy, fun s => by
          simp [visitGlobalVariable, hid, hr, hsy]⟩

/-- The `visit` overload of a node under two stores that hold the same symbols up to the
constant slots and agree on the symbol the node reads: the node comes out the same, the
stores agree wherever they agreed, and on the symbol the node writes. -/
theorem ConstantDeterminingVisitor.visitSpecific_congr (lib : Library) (σ τ σ' : SymbolStore)
    (n n' : LSLASTNode) (hskel : ∀ x, (σ x).SameSkeleton (τ x))
    (hreads : ∀ x, n.ReadsSymbol x → σ x = τ x)
    (h : visitSpecific lib σ n = some (σ', n')) :
    ∃ τ', visitSpecific lib τ n = some (τ', n')
      ∧ (∀ x, (σ' x).SameSkeleton (τ' x))
      ∧ (∀ x, σ x = τ x → σ' x = τ' x)
      ∧ ∀ id x, n.getChild 0 = some id → id.getSymbol = some x →
          ((n.getNodeType = .NODE_STATEMENT ∧ n.getNodeSubType = .NODE_DECLARATION)
            ∨ (n.getNodeType = .NODE_GLOBAL_VARIABLE ∧ n.getNumChildren > 1)) →
          σ' x = τ' x := by
  have upd : ∀ (y : Nat) (cv : Option LSLConstant) (cp : Bool) (a b : LSLSymbol),
      a = { σ y with constantValue := cv, constantPrecluded := cp } →
      b = { τ y with constantValue := cv, constantPrecluded := cp } →
      (∀ x, ((Function.update σ y a) x).SameSkeleton ((Function.update τ y b) x))
      ∧ (∀ x, σ x = τ x → (Function.update σ y a) x = (Function.update τ y b) x)
      ∧ (Function.update σ y a) y = (Function.update τ y b) y := by
    intro y cv cp a b ha hb
    have hy := (hskel y).update cv cp
    rw [← ha, ← hb] at hy
    subst hy
    refine ⟨?_, ?_, ?_⟩
    · intro x
      by_cases hxy : x = y
      · subst hxy
        rw [Function.update_same, Function.update_same]
        exact LSLSymbol.SameSkeleton.same_symbol _
      · rw [Function.update_noteq hxy, Function.update_noteq hxy]
        exact hskel x
    · intro x hx
      by_cases hxy : x = y
      · subst hxy
        rw [Function.update_same, Function.update_same]
      · rw [Function.update_noteq hxy, Function.update_noteq hxy]
        exact hx
    · rw [Function.update_same, Function.update_same]
  have same : ∀ (hne1 : ¬ (n.getNodeType = .NODE_STATEMENT
        ∧ n.getNodeSubType = .NODE_DECLARATION))
      (hne2 : n.getNodeType ≠ .NODE_GLOBAL_VARIABLE),
      σ' = σ → visitSpecific lib τ n = some (τ, n') →
      ∃ τ', visitSpecific lib τ n = some (τ', n')
        ∧ (∀ x, (σ' x).SameSkeleton (τ' x))
        ∧ (∀ x, σ x = τ x → σ' x = τ' x)
        ∧ ∀ id x, n.getChild 0 = some id → id.getSymbol = some x →
            ((n.getNodeType = .NODE_STATEMENT ∧ n.getNodeSubType = .NODE_DECLARATION)
              ∨ (n.getNodeType = .NODE_GLOBAL_VARIABLE ∧ n.getNumChildren > 1)) →
            σ' x = τ' x := by
    intro hne1 hne2 hs hv
    subst hs
    refine ⟨τ, hv, hskel, fun _ hx => hx, ?_⟩
    intro id x _ _ hw
    rcases hw with hw | hw
    · exact absurd hw hne1
    · exact absurd hw.1 hne2
  by_cases hgv : n.getNodeType = .NODE_GLOBAL_VARIABLE
  · have hS : ∀ s, visitSpecific lib s n = (visitGlobalVariable s n).map (fun s1 => (s1, n)) :=
      fun s => by simp only [visitSpecific, hgv]
    rw [hS] at h
    rw [hS]
    rcases visitGlobalVariable_write n with hn | ⟨hlen, hsame⟩ | ⟨id, y, cv, cp, hid, hsy, hw⟩
    · rw [hn] at h; cases h
    · rw [hsame] at h
      simp only [Option.map_some', Option.some.injEq, Prod.mk.injEq] at h
      obtain ⟨rfl, rfl⟩ := h
      refine ⟨τ, by rw [hsame]; rfl, hskel, fun _ hx => hx, ?_⟩
      intro id' x _ _ hw
      rcases hw with hw | hw
      · rw [hgv] at hw; cases hw.1
      · exact absurd hw.2 (Nat.not_lt.mpr hlen)
    · rw [hw] at h
      simp only [Option.map_some', Option.some.injEq, Prod.mk.injEq] at h
      obtain ⟨rfl, rfl⟩ := h
      obtain ⟨u1, u2, u3⟩ := upd y cv cp _ _ rfl rfl
      refine ⟨_, by rw [hw]; rfl, u1, u2, ?_⟩
      intro id' x hid' hsy' _
      rw [hid] at hid'
      cases hid'
      rw [hsy] at hsy'
      cases hsy'
      exact u3
  by_cases hst : n.getNodeType = .NODE_STATEMENT
  · by_cases hsub : n.getNodeSubType = .NODE_DECLARATION
    · have hS : ∀ s, visitSpecific lib s n =
          (ConstantDeterminingVisitor.visitDeclaration s n).map (fun s1 => (s1, n)) :=
        fun s => by simp only [visitSpecific, hst, hsub, if_true]
      rw [hS] at h
      rw [hS]
      rcases visitDeclaration_write n with hn | ⟨id, y, cv, cp, hid, hsy, hw⟩
      · rw [hn] at h; cases h
      · rw [hw] at h
        simp only [Option.map_some', Option.some.injEq, Prod.mk.injEq] at h
        obtain ⟨rfl, rfl⟩ := h
        obtain ⟨u1, u2, u3⟩ := upd y cv cp _ _ rfl rfl
        refine ⟨_, by rw [hw]; rfl, u1, u2, ?_⟩
        intro id' x hid' hsy' _
        rw [hid] at hid'
        cases hid'
        rw [hsy] at hsy'
        cases hsy'
        exact u3
    · have hS : ∀ s, visitSpecific lib s n = some (s, n) :=
        fun s => by simp only [visitSpecific, hst, hsub, if_false]
      rw [hS] at h
      simp only [Option.some.injEq, Prod.mk.injEq] at h
      obtain ⟨rfl, rfl⟩ := h
      exact same (fun hh => hsub hh.2) hgv rfl (hS τ)
  by_cases hex : n.getNodeType = .NODE_EXPRESSION
  · have hσ' : σ' = σ := by
      obtain ⟨d, cs⟩ := n
      rcases visitSpecific_effect lib σ d cs with hn | ⟨s1, cv, cp, _, _, hs, he⟩
      · have h0 : visitSpecific lib σ (.mk d cs) = none :=
          hn d.constantValue d.constantPrecluded
        rw [h] at h0
        cases h0
      · have h0 : visitSpecific lib σ (.mk d cs) = some (s1, _) :=
          he d.constantValue d.constantPrecluded
        rw [h] at h0
        simp only [Option.some.injEq, Prod.mk.injEq] at h0
        rw [h0.1]
        exact hs hex
    refine same (fun hh => by rw [hex] at hh; cases hh.1) hgv hσ' ?_
    by_cases hlv : n.getNodeSubType = .NODE_LVALUE_EXPRESSION
    · rw [visitSpecific_lvalue lib τ n hex hlv,
        visitLValueExpression_store σ τ n (fun id x hid hsy =>
          hreads x ⟨hex, hlv, id, hid, hsy⟩)]
      rw [visitSpecific_lvalue lib σ n hex hlv] at h
      cases hv : ConstantDeterminingVisitor.visitLValueExpression σ n with
      | none => rw [hv] at h; cases h
      | some v =>
        rw [hv] at h
        simp only [Option.map_some', Option.some.injEq, Prod.mk.injEq] at h
        rw [Option.map_some', h.2]
    · rw [visitSpecific_expression_store lib σ τ n hex hlv, h]
      rfl
  · have hS : ∀ s, visitSpecific lib s n = some (s, n) := by
      intro s
      unfold visitSpecific
      split
      · rename_i hh; exact absurd hh hgv
      · rename_i hh; exact absurd hh hst
      · rename_i hh; exact absurd hh hex
      · rfl
    rw [hS] at h
    simp only [Option.some.injEq, Prod.mk.injEq] at h
    obtain ⟨rfl, rfl⟩ := h
    exact same (fun hh => hst hh.1) hgv rfl (hS τ)

end TwoRuns

section TwoRuns

open ConstantDeterminingVisitor

theorem ConstantDeterminingVisitor.hookData_constantValue_again {d d' : NodeData}
    (hsk : d.SameSkeleton d')
    (h : d'.constantValue = (hookData d).constantValue) :
    (hookData d').constantValue = (hookData d).constantValue := by
  obtain ⟨h1, _, _, _, _, h6, _⟩ := hsk.fields
  rw [hookData_eq] at h ⊢
  rw [hookData_eq]
  simp only at h ⊢
  rw [h1, h6, h]
  by_cases hc : d.staticNode = false ∧ d.nodeType ≠ .NODE_CONSTANT
  · simp [hc]
  · simp [hc]

theorem ConstantDeterminingVisitor.hookData_constantPrecluded_again {d d' : NodeData}
    (hsk : d.SameSkeleton d')
    (h : d'.constantPrecluded = (hookData d).constantPrecluded) :
    (hookData d').constantPrecluded = (hookData d).constantPrecluded := by
  obtain ⟨h1, _, h3, _, _, h6, _⟩ := hsk.fields
  rw [hookData_eq] at h ⊢
  rw [hookData_eq]
  simp only at h ⊢
  rw [h1, h3, h6, h]
  by_cases he : d.type = .LST_ERROR
  · simp [he]
  · by_cases hc : d.staticNode = false ∧ d.nodeType ≠ .NODE_CONSTANT
    · simp [he, hc]
    · simp [he, hc]

theorem NodeData.SameSkeleton.rebuild_data {a b : NodeData} (h : a.SameSkeleton b) :
    b = { a with constantValue := b.constantValue,
                 constantPrecluded := b.constantPrecluded } :=
  h.flip_data.symm

/-- The `visit` overload run again on what it left, after the hook: nothing changes. -/
theorem ConstantDeterminingVisitor.visitSpecific_rerun (lib : Library) (σ σ' : SymbolStore)
    (d d' : NodeData) (cs : List LSLASTNode)
    (h : visitSpecific lib σ (.mk (hookData d) cs) = some (σ', .mk d' cs)) :
    visitSpecific lib σ (.mk (hookData d') cs) = some (σ', .mk d' cs) := by
  have hsk0 : (hookData d).SameSkeleton d' :=
    (visitSpecific_node lib σ σ' (hookData d) cs _ h).2
  have hsk : d.SameSkeleton d' := (hookData_skeleton d).compose hsk0
  have hsk1 : (hookData d).SameSkeleton (hookData d') :=
    hsk0.compose (hookData_skeleton d')
  rcases visitSpecific_effect lib σ (hookData d) cs with hn | ⟨s1, cv, cp, _, _, _, he⟩
  · have h0 : visitSpecific lib σ (.mk (hookData d) cs) = none :=
      hn (hookData d).constantValue (hookData d).constantPrecluded
    rw [h] at h0
    cases h0
  · have h0 : visitSpecific lib σ (.mk (hookData d) cs) = some (s1, _) :=
      he (hookData d).constantValue (hookData d).constantPrecluded
    rw [h] at h0
    simp only [Option.some.injEq, Prod.mk.injEq, LSLASTNode.mk.injEq, and_true] at h0
    obtain ⟨hs, hd'⟩ := h0
    have h1 := he (hookData d').constantValue (hookData d').constantPrecluded
    rw [← hsk1.rebuild_data] at h1
    rw [h1, hs]
    have hcv : cv.getD (hookData d').constantValue = d'.constantValue := by
      cases cv with
      | some v => rw [hd']; rfl
      | none =>
        have : d'.constantValue = (hookData d).constantValue := by rw [hd']; rfl
        simp only [Option.getD_none]
        rw [hookData_constantValue_again hsk this, this]
    have hcp : cp.getD (hookData d').constantPrecluded = d'.constantPrecluded := by
      cases cp with
      | some v => rw [hd']; rfl
      | none =>
        have : d'.constantPrecluded = (hookData d).constantPrecluded := by rw [hd']; rfl
        simp only [Option.getD_none]
        rw [hookData_constantPrecluded_again hsk this, this]
    rw [hcv, hcp, ← hsk0.rebuild_data]

end TwoRuns

section TwoRuns

open ConstantDeterminingVisitor

theorem WritesBefore.zero (cs : List LSLASTNode) (y : Nat) : ¬ WritesBefore cs 0 y := by
  rintro ⟨j, _, hj, _⟩
  omega

theorem WritesBefore.cons_succ {a : LSLASTNode} {cs : List LSLASTNode} {i y : Nat}
    (h : WritesBefore (a :: cs) (i + 1) y) : a.Writes y ∨ WritesBefore cs i y := by
  obtain ⟨j, c, hj, hc, hw⟩ := h
  cases j with
  | zero =>
    simp only [List.get?_cons_zero, Option.some.injEq] at hc
    subst hc
    exact Or.inl hw
  | succ j => exact Or.inr ⟨j, c, by omega, by simpa using hc, hw⟩

theorem WritesBefore.of_head {a : LSLASTNode} {cs : List LSLASTNode} {i y : Nat}
    (h : a.Writes y) : WritesBefore (a :: cs) (i + 1) y :=
  ⟨0, a, by omega, rfl, h⟩

theorem WritesBefore.of_tail {a : LSLASTNode} {cs : List LSLASTNode} {i y : Nat}
    (h : WritesBefore cs i y) : WritesBefore (a :: cs) (i + 1) y := by
  obtain ⟨j, c, hj, hc, hw⟩ := h
  exact ⟨j + 1, c, by omega, by simpa using hc, hw⟩

theorem WritesBefore.of_mem {cs : List LSLASTNode} {c : LSLASTNode} {y : Nat}
    (hc : c ∈ cs) (hw : c.Writes y) : WritesBefore cs cs.length y := by
  obtain ⟨i, hi⟩ := LSLASTNode.get?_of_mem hc
  refine ⟨i, c, ?_, hi, hw⟩
  by_contra hlt
  rw [List.get?_eq_none.mpr (Nat.le_of_not_lt hlt)] at hi
  cases hi

theorem WritesBefore.mem {cs : List LSLASTNode} {i y : Nat} (h : WritesBefore cs i y) :
    ∃ c, c ∈ cs ∧ c.Writes y := by
  obtain ⟨j, c, _, hc, hw⟩ := h
  exact ⟨c, LSLASTNode.mem_of_get? hc, hw⟩

/-- The children of a node run again. -/
theorem ConstantDeterminingVisitor.visitChildren_again
    {f : SymbolStore → LSLASTNode → Except Fault (SymbolStore × LSLASTNode)}
    (hf : Reruns f) :
    ∀ (cs cs1 : List LSLASTNode) (σA σA' : SymbolStore) (E : Nat → Prop) (σB : SymbolStore),
      visitChildren f σA cs = .ok (σA', cs1) →
      (∀ (i : Nat) (c : LSLASTNode), cs.get? i = some c →
        c.Scoped (fun y => E y ∨ WritesBefore cs i y)) →
      StoresAgree E σA σB →
      ∃ σB', visitChildren f σB cs1 = .ok (σB', cs1)
        ∧ StoresAgree (fun y => E y ∨ WritesBefore cs cs.length y) σA' σB' := by
  intro cs
  induction cs with
  | nil =>
    intro cs1 σA σA' E σB h _ hag
    simp only [visitChildren, Except.ok.injEq, Prod.mk.injEq] at h
    obtain ⟨rfl, rfl⟩ := h
    exact ⟨σB, rfl, hag.anti (fun y hy => hy.elim id (fun hw => absurd hw
      (WritesBefore.zero _ y)))⟩
  | cons a cs ih =>
    intro cs1 σA σA' E σB h hsc hag
    obtain ⟨s1, a1, cs1', ha, hcs, rfl⟩ := visitChildren_cons_ok h
    obtain ⟨τ1, hb, hag1⟩ := hf σA a s1 a1 ha _ σB (hsc 0 a rfl)
      (hag.anti (fun y hy => hy.elim id (fun hw => absurd hw (WritesBefore.zero _ y))))
    obtain ⟨τ2, hbs, hag2⟩ := ih cs1' s1 σA' (fun y => E y ∨ a.Writes y) τ1 hcs
      (fun i c hc => (hsc (i + 1) c (by simpa using hc)).scoped_mono _ (fun y hy => by
        rcases hy with hy | hy
        · exact Or.inl (Or.inl hy)
        · rcases hy.cons_succ with hy | hy
          · exact Or.inl (Or.inr hy)
          · exact Or.inr hy))
      (hag1.anti (fun y hy => hy.elim (fun h => Or.inl (Or.inl h)) Or.inr))
    refine ⟨τ2, visitChildren_cons_of hb hbs, hag2.anti ?_⟩
    intro y hy
    rcases hy with hy | hy
    · exact Or.inl (Or.inl hy)
    · rcases hy.cons_succ with hy | hy
      · exact Or.inl (Or.inr hy)
      · exact Or.inr hy

end TwoRuns

section TwoRuns

open ConstantDeterminingVisitor

/-- The run on a node other than a script, run again. -/
theorem ConstantDeterminingVisitor.propagate_again_node (lib : Library) (fuel : Nat)
    (hf : Reruns (propagate lib fuel)) (σA σA' : SymbolStore) (d : NodeData)
    (cs : List LSLASTNode) (t' : LSLASTNode)
    (h : propagate lib (fuel + 1) σA (.mk d cs) = .ok (σA', t'))
    (hns : d.nodeType ≠ .NODE_SCRIPT) (D : Nat → Prop) (σB : SymbolStore)
    (hread : ∀ x, (LSLASTNode.mk d cs).ReadsSymbol x → D x)
    (hch : d.type ≠ .LST_ERROR → ∀ (i : Nat) (c : LSLASTNode), cs.get? i = some c →
      c.Scoped (fun y => D y ∨ WritesBefore cs i y))
    (hag : StoresAgree D σA σB) :
    ∃ σB', propagate lib (fuel + 1) σB t' = .ok (σB', t')
      ∧ StoresAgree (fun y => D y ∨ (LSLASTNode.mk d cs).Writes y) σA' σB' := by
  obtain ⟨hrel, _, _⟩ := propagate_kept lib _ _ _ _ _ h
  obtain ⟨s1, cs1, hbelow, hv⟩ := propagate_node lib fuel σA d cs _ h hns
  obtain ⟨hcs', hsk0⟩ := visitSpecific_node lib s1 σA' (hookData d) cs1 t' hv
  obtain ⟨d', cs2⟩ := t'
  simp only [LSLASTNode.children_mk] at hcs'
  subst hcs'
  simp only [LSLASTNode.data_mk] at hsk0
  have hsk : d.SameSkeleton d' := (hookData_skeleton d).compose hsk0
  have hdesc : hookDescends d' = hookDescends d := by
    rw [hookDescends_eq, hookDescends_eq, hsk.fields.1, hsk.fields.2.2.1]
  have hns' : d'.nodeType ≠ .NODE_SCRIPT := by rw [hsk.fields.1]; exact hns
  -- the children
  have hbelowB : ∃ τ1,
      (if hookDescends d' = true then visitChildren (propagate lib fuel) σB cs2
        else .ok (σB, cs2)) = .ok (τ1, cs2)
      ∧ StoresAgree (fun y => D y ∨ (hookDescends d = true ∧ WritesBefore cs cs.length y))
          s1 τ1 := by
    by_cases hd : hookDescends d = true
    · rw [if_pos hd] at hbelow
      obtain ⟨τ1, hb, hag1⟩ := visitChildren_again hf cs cs2 σA s1 D σB hbelow
        (hch ((hookDescends_iff d).mp hd).1) hag
      refine ⟨τ1, by rw [hdesc, if_pos hd]; exact hb, hag1.anti ?_⟩
      exact fun y hy => hy.imp id (fun h => h.2)
    · rw [if_neg hd] at hbelow
      simp only [Except.ok.injEq, Prod.mk.injEq] at hbelow
      obtain ⟨rfl, rfl⟩ := hbelow
      refine ⟨σB, by rw [hdesc, if_neg hd], hag.anti ?_⟩
      exact fun y hy => hy.elim id (fun h => absurd h.1 hd)
  obtain ⟨τ1, hbB, hag1⟩ := hbelowB
  -- the visit
  have hrelB : (LSLASTNode.mk (hookData d') cs2).Related NodeData.SameSkeleton
      (.mk d cs) := by
    refine LSLASTNode.Related.skeleton_trans ?_ hrel.flip
    exact .mk _ _ cs2 cs2 (hookData_skeleton d').flip_data rfl
      (fun i c c' hc hc' => by
        rw [hc] at hc'; cases hc'
        exact LSLASTNode.Related.reflexive NodeData.SameSkeleton.same c)
  obtain ⟨τ', hvB, hskB, hkeep, hwrite⟩ := visitSpecific_congr lib s1 τ1 σA'
    (.mk (hookData d') cs2) (.mk d' cs2) hag1.1
    (fun x hx => hag1.2 x (Or.inl (hread x (hx.reads_of_related hrelB))))
    (visitSpecific_rerun lib s1 σA' d d' cs2 hv)
  refine ⟨τ', ?_, hskB, ?_⟩
  · rw [propagate_succ, hbB]
    simp only [if_neg hns', hvB]
  · intro y hy
    rcases hy with hy | hy
    · exact hkeep y (hag1.2 y (Or.inl hy))
    · have hyB : (LSLASTNode.mk (hookData d') cs2).Writes y := hy.writes_of_related hrelB.flip
      cases hy with
      | declaration _ id _ hnt hst hid hsym =>
        obtain ⟨id', hid', hr⟩ := hrelB.flip.getChild_some hid
        exact hwrite id' y hid' (hr.skeleton_fields.2.2.2.1.trans hsym)
          (Or.inl ⟨hrelB.flip.skeleton_fields.1.trans hnt,
            hrelB.flip.skeleton_fields.2.1.trans hst⟩)
      | globalVariable _ id _ hnt hnum hid hsym =>
        obtain ⟨id', hid', hr⟩ := hrelB.flip.getChild_some hid
        exact hwrite id' y hid' (hr.skeleton_fields.2.2.2.1.trans hsym)
          (Or.inr ⟨hrelB.flip.skeleton_fields.1.trans hnt, by
            rw [hrelB.flip.skeleton_fields.2.2.2.2]; exact hnum⟩)
      | child _ c _ hty hc hw =>
        have hty' : d.type ≠ .LST_ERROR := hty.elim id (fun h => absurd h hns)
        have hd : hookDescends d = true := (hookDescends_iff d).mpr ⟨hty', hns⟩
        exact hkeep y (hag1.2 y (Or.inr ⟨hd, WritesBefore.of_mem hc hw⟩))
      | global _ globals storage gv _ hnt =>
        exact absurd hnt hns

end TwoRuns

section TwoRuns

open ConstantDeterminingVisitor

theorem GlobalWrites.global_cons_succ {a gv : LSLASTNode} {cs : List LSLASTNode} {i y : Nat}
    (hg : a.getChild 0 = some gv) (h : GlobalWrites (a :: cs) (i + 1) y) :
    gv.Writes y ∨ GlobalWrites cs i y := by
  obtain ⟨j, item, gv', hj, hi, hg', hnt, hw⟩ := h
  cases j with
  | zero =>
    simp only [List.get?_cons_zero, Option.some.injEq] at hi
    subst hi
    rw [hg] at hg'
    cases hg'
    exact Or.inl hw
  | succ j => exact Or.inr ⟨j, item, gv', by omega, by simpa using hi, hg', hnt, hw⟩

theorem GlobalWrites.cons_succ_skip {a : LSLASTNode} {cs : List LSLASTNode} {i y : Nat}
    (hno : ∀ gv, a.getChild 0 = some gv → gv.getNodeType ≠ .NODE_GLOBAL_VARIABLE)
    (h : GlobalWrites (a :: cs) (i + 1) y) : GlobalWrites cs i y := by
  obtain ⟨j, item, gv', hj, hi, hg', hnt, hw⟩ := h
  cases j with
  | zero =>
    simp only [List.get?_cons_zero, Option.some.injEq] at hi
    subst hi
    exact absurd hnt (hno gv' hg')
  | succ j => exact ⟨j, item, gv', by omega, by simpa using hi, hg', hnt, hw⟩

theorem GlobalWrites.global_zero (cs : List LSLASTNode) (y : Nat) : ¬ GlobalWrites cs 0 y := by
  rintro ⟨j, _, _, hj, _⟩
  omega

theorem GlobalWrites.global_of_head {a gv : LSLASTNode} {cs : List LSLASTNode} {i y : Nat}
    (hg : a.getChild 0 = some gv) (hnt : gv.getNodeType = .NODE_GLOBAL_VARIABLE)
    (hw : gv.Writes y) : GlobalWrites (a :: cs) (i + 1) y :=
  ⟨0, a, gv, by omega, rfl, hg, hnt, hw⟩

theorem GlobalWrites.upto {cs : List LSLASTNode} {i y : Nat} (h : GlobalWrites cs i y) :
    GlobalWrites cs cs.length y := by
  obtain ⟨j, item, gv, _, hi, hg, hnt, hw⟩ := h
  refine ⟨j, item, gv, ?_, hi, hg, hnt, hw⟩
  by_contra hlt
  rw [List.get?_eq_none.mpr (Nat.le_of_not_lt hlt)] at hi
  cases hi

theorem LSLASTNode.replaceChild_getChild_self (n c : LSLASTNode) {i : Nat}
    (h : n.getChild i = some c) : n.replaceChild i c = n := by
  obtain ⟨d, cs⟩ := n
  simp only [LSLASTNode.getChild, LSLASTNode.children] at h
  simp only [LSLASTNode.replaceChild, LSLASTNode.data, LSLASTNode.children,
    LSLASTNode.mk.injEq, true_and]
  apply List.ext_get?
  intro j
  by_cases hij : i = j
  · subst hij
    have hi : i < cs.length := by
      by_contra hlt
      rw [List.get?_eq_none.mpr (Nat.le_of_not_lt hlt)] at h
      cases h
    rw [List.get?_eq_getElem?, List.getElem?_set_self hi]
    exact h.symm
  · rw [List.get?_eq_getElem?, List.getElem?_set_ne hij]
    simp

theorem ConstantDeterminingVisitor.hookData_idem (d : NodeData) :
    hookData (hookData d) = hookData d := by
  have hsk := hookData_skeleton d
  have h1 := hookData_constantValue_again hsk rfl
  have h2 := hookData_constantPrecluded_again hsk rfl
  rw [(hookData_skeleton (hookData d)).rebuild_data, h1, h2]

theorem ConstantDeterminingVisitor.visitSpecific_plain (lib : Library) (s : SymbolStore)
    (n : LSLASTNode) (h1 : n.getNodeType ≠ .NODE_GLOBAL_VARIABLE)
    (h2 : n.getNodeType ≠ .NODE_STATEMENT) (h3 : n.getNodeType ≠ .NODE_EXPRESSION) :
    visitSpecific lib s n = some (s, n) := by
  unfold visitSpecific
  split
  · rename_i hh; exact absurd hh h1
  · rename_i hh; exact absurd hh h2
  · rename_i hh; exact absurd hh h3
  · rfl

/-- The run on a plain node: its children are visited, the node takes what the hook
leaves. -/
theorem ConstantDeterminingVisitor.propagate_plain (lib : Library) (fuel : Nat)
    (s s' : SymbolStore) (g : NodeData) (cs : List LSLASTNode) (t' : LSLASTNode)
    (hg : g.Plain) (h : propagate lib fuel s (.mk g cs) = .ok (s', t')) :
    ∃ f cs2, fuel = f + 1 ∧ visitChildren (propagate lib f) s cs = .ok (s', cs2)
      ∧ t' = .mk (hookData g) cs2 := by
  cases fuel with
  | zero => cases h
  | succ f =>
    obtain ⟨hty, hns, hgv, hst, hex⟩ := hg
    obtain ⟨s1, cs1, hbelow, hv⟩ := propagate_node lib f s g cs _ h hns
    rw [if_pos ((hookDescends_iff g).mpr ⟨hty, hns⟩)] at hbelow
    have hnt : (LSLASTNode.mk (hookData g) cs1).getNodeType = g.nodeType :=
      (hookData_skeleton g).fields.1
    rw [visitSpecific_plain lib s1 _ (by rw [hnt]; exact hgv) (by rw [hnt]; exact hst)
      (by rw [hnt]; exact hex)] at hv
    simp only [Option.some.injEq, Prod.mk.injEq] at hv
    obtain ⟨rfl, rfl⟩ := hv
    exact ⟨f, cs1, rfl, hbelow, rfl⟩

theorem ConstantDeterminingVisitor.propagate_plain_of (lib : Library) (f : Nat)
    (s s' : SymbolStore) (g : NodeData) (cs cs2 : List LSLASTNode) (hg : g.Plain)
    (h : visitChildren (propagate lib f) s cs = .ok (s', cs2)) :
    propagate lib (f + 1) s (.mk g cs) = .ok (s', .mk (hookData g) cs2) := by
  obtain ⟨hty, hns, hgv, hst, hex⟩ := hg
  rw [propagate_succ, if_pos ((hookDescends_iff g).mpr ⟨hty, hns⟩), h]
  have hnt : (LSLASTNode.mk (hookData g) cs2).getNodeType = g.nodeType :=
    (hookData_skeleton g).fields.1
  simp only [if_neg hns, visitSpecific_plain lib s' _ (by rw [hnt]; exact hgv)
    (by rw [hnt]; exact hst) (by rw [hnt]; exact hex)]

theorem StoresAgree.of_pointwise {D : Nat → Prop} {σ τ τ' : SymbolStore}
    (h : StoresAgree D σ τ) (hp : ∀ x, τ' x = τ x) : StoresAgree D σ τ' :=
  ⟨fun x => by rw [hp x]; exact h.1 x, fun x hx => by rw [hp x]; exact h.2 x hx⟩

end TwoRuns

section TwoRuns

open ConstantDeterminingVisitor

/-- The global variables, visited first, come out of the second visit (with the other
children of the script) as the first visit left them, and the second visit leaves the
symbols the global variables wrote as the first visit left them. `Safe` are symbols that
only the global variables may write. -/
theorem ConstantDeterminingVisitor.visitGlobalVariables_reproduced (lib : Library)
    (fuel f : Nat) (hf : Reruns (propagate lib fuel)) (hle : f ≤ fuel) (Safe : Nat → Prop) :
    ∀ (items items1 items2 : List LSLASTNode) (σP σP' σQ σQ' : SymbolStore)
      (E : Nat → Prop),
      visitGlobalVariables (propagate lib fuel) σP items = .ok (σP', items1) →
      visitChildren (propagate lib f) σQ items1 = .ok (σQ', items2) →
      (∀ item ∈ items, item.data.Plain) →
      (∀ item ∈ items, ∀ gv, item.getChild 0 = some gv →
        gv.getNodeType = .NODE_GLOBAL_VARIABLE →
        ∀ (k : Nat) (c : LSLASTNode) (y : Nat), 0 < k → item.getChild k = some c →
          ¬ c.Writes y) →
      (∀ item ∈ items,
        (∀ gv, item.getChild 0 = some gv → gv.getNodeType ≠ .NODE_GLOBAL_VARIABLE) →
        ∀ y, item.Writes y → ¬ Safe y) →
      (∀ item ∈ items, ∀ gv, item.getChild 0 = some gv →
        gv.getNodeType = .NODE_GLOBAL_VARIABLE → ∀ y, gv.Writes y → Safe y) →
      (∀ y, E y → Safe y) →
      (∀ (i : Nat) (item gv : LSLASTNode), items.get? i = some item →
        item.getChild 0 = some gv → gv.getNodeType = .NODE_GLOBAL_VARIABLE →
        gv.Scoped (fun y => E y ∨ GlobalWrites items i y)) →
      StoresAgree E σP σQ →
      StoresAgree (fun y => E y ∨ GlobalWrites items items.length y) σP' σQ' ∧
      ∀ (i : Nat) (item1 item2 gv1 : LSLASTNode), items1.get? i = some item1 →
        items2.get? i = some item2 → item1.getChild 0 = some gv1 →
        gv1.getNodeType = .NODE_GLOBAL_VARIABLE → item2.getChild 0 = some gv1 := by
  intro items
  induction items with
  | nil =>
    intro items1 items2 σP σP' σQ σQ' E hp1 hq _ _ _ _ _ _ hag
    simp only [visitGlobalVariables, Except.ok.injEq, Prod.mk.injEq] at hp1
    obtain ⟨rfl, rfl⟩ := hp1
    simp only [visitChildren, Except.ok.injEq, Prod.mk.injEq] at hq
    obtain ⟨rfl, rfl⟩ := hq
    refine ⟨hag.anti (fun y hy => hy.elim id (fun hw => absurd hw (GlobalWrites.global_zero _ y))),
      ?_⟩
    intro i item1 item2 gv1 h1
    simp at h1
  | cons a items ih =>
    intro items1 items2 σP σP' σQ σQ' E hp1 hq hplain hinert hsafe1 hsafe2 hE hsc hag
    obtain ⟨s1, a1, is1, hp1', rfl, hstep⟩ := visitGlobalVariables_cons_ok hp1
    obtain ⟨q1, a2, is2, ha2, hq', rfl⟩ := visitChildren_cons_ok hq
    have tailP : ∀ item ∈ items, item.data.Plain :=
      fun item hm => hplain item (List.mem_cons_of_mem a hm)
    have tailI : ∀ item ∈ items, ∀ gv, item.getChild 0 = some gv →
        gv.getNodeType = .NODE_GLOBAL_VARIABLE →
        ∀ (k : Nat) (c : LSLASTNode) (y : Nat), 0 < k → item.getChild k = some c →
          ¬ c.Writes y := fun item hm => hinert item (List.mem_cons_of_mem a hm)
    have tailS1 : ∀ item ∈ items,
        (∀ gv, item.getChild 0 = some gv → gv.getNodeType ≠ .NODE_GLOBAL_VARIABLE) →
        ∀ y, item.Writes y → ¬ Safe y :=
      fun item hm => hsafe1 item (List.mem_cons_of_mem a hm)
    have tailS2 : ∀ item ∈ items, ∀ gv, item.getChild 0 = some gv →
        gv.getNodeType = .NODE_GLOBAL_VARIABLE → ∀ y, gv.Writes y → Safe y :=
      fun item hm => hsafe2 item (List.mem_cons_of_mem a hm)
    rcases hstep with ⟨gv, gv1, hg, hnt, hrun, rfl⟩ | ⟨hno, hs, ha⟩
    · -- an item with a global variable
      obtain ⟨ad, acs⟩ := a
      rcases acs with _ | ⟨c0, others⟩
      · simp [LSLASTNode.getChild] at hg
      simp only [LSLASTNode.getChild, LSLASTNode.children, List.get?_cons_zero,
        Option.some.injEq] at hg
      subst hg
      have ha1 : (LSLASTNode.mk ad (c0 :: others)).replaceChild 0 gv1
          = .mk ad (gv1 :: others) := rfl
      rw [ha1] at ha2
      obtain ⟨f', cs2, rfl, hch, rfl⟩ := propagate_plain lib f σQ q1 ad _ a2
        (hplain _ (List.mem_cons_self _ _)) ha2
      obtain ⟨qa, gv2, others2, hgv2, hothers, rfl⟩ := visitChildren_cons_ok hch
      obtain ⟨qb, hb, hagb⟩ := hf σP c0 s1 gv1 hrun _ σQ
        (hsc 0 _ c0 rfl rfl hnt)
        (hag.anti (fun y hy => hy.elim id (fun hw => absurd hw (GlobalWrites.global_zero _ y))))
      have hsame := propagate_mono_le lib (Nat.le_trans (Nat.le_succ f') hle) hgv2
      rw [hb] at hsame
      simp only [Except.ok.injEq, Prod.mk.injEq] at hsame
      obtain ⟨rfl, rfl⟩ := hsame
      obtain ⟨_, _, hfr, hsk⟩ := visitChildren_kept (propagate_kept lib f') others qb q1
        others2 hothers
      have hq1 : ∀ x, q1 x = qb x := by
        intro x
        refine hfr x (fun c hc hw => ?_)
        obtain ⟨j, hj⟩ := LSLASTNode.get?_of_mem hc
        exact hinert _ (List.mem_cons_self _ _) c0 rfl hnt (j + 1) c x (by omega)
          (by simpa [LSLASTNode.getChild] using hj) hw
      have hag1 : StoresAgree (fun y => E y ∨ c0.Writes y) s1 q1 :=
        (hagb.anti (fun y hy => hy.imp Or.inl id)).of_pointwise hq1
      have key := ih is1 is2 s1 σP' q1 σQ' (fun y => E y ∨ c0.Writes y) hp1' hq' tailP tailI
        tailS1 tailS2
        (fun y hy => hy.elim (hE y) (hsafe2 _ (List.mem_cons_self _ _) c0 rfl hnt y))
        (fun i item gv' hi hg' hnt' => (hsc (i + 1) item gv' (by simpa using hi) hg'
          hnt').scoped_mono _ (fun y hy => by
            rcases hy with hy | hy
            · exact Or.inl (Or.inl hy)
            · rcases GlobalWrites.global_cons_succ
                (show (LSLASTNode.mk ad (c0 :: others)).getChild 0 = some c0 from rfl) hy
                with hy | hy
              · exact Or.inl (Or.inr hy)
              · exact Or.inr hy))
        hag1
      refine ⟨key.1.anti (fun y hy => ?_), ?_⟩
      · rcases hy with hy | hy
        · exact Or.inl (Or.inl hy)
        · rcases GlobalWrites.global_cons_succ
            (show (LSLASTNode.mk ad (c0 :: others)).getChild 0 = some c0 from rfl) hy
            with hy | hy
          · exact Or.inl (Or.inr hy)
          · exact Or.inr hy
      replace key := key.2
      intro i item1 item2 gv1' h1 h2 hg1 hnt1
      cases i with
      | zero =>
        simp only [List.get?_cons_zero, Option.some.injEq] at h1 h2
        subst h1 h2
        rw [ha1] at hg1
        simp only [LSLASTNode.getChild, LSLASTNode.children, List.get?_cons_zero,
          Option.some.injEq] at hg1 ⊢
        exact hg1
      | succ i => exact key i item1 item2 gv1' (by simpa using h1) (by simpa using h2) hg1 hnt1
    · -- any other item
      rw [ha] at ha2
      rw [hs] at hp1'
      obtain ⟨_, hfr, hsk⟩ := propagate_kept lib f σQ a q1 a2 ha2
      have hag1 : StoresAgree E σP q1 := by
        refine ⟨fun x => (hag.1 x).compose_symbol (hsk x), fun x hx => ?_⟩
        rw [hfr x (fun hw => hsafe1 a (List.mem_cons_self _ _) hno x hw (hE x hx))]
        exact hag.2 x hx
      have key := ih is1 is2 σP σP' q1 σQ' E hp1' hq' tailP tailI tailS1 tailS2 hE
        (fun i item gv' hi hg' hnt' => (hsc (i + 1) item gv' (by simpa using hi) hg'
          hnt').scoped_mono _ (fun y hy => hy.imp id (GlobalWrites.cons_succ_skip hno)))
        hag1
      refine ⟨key.1.anti (fun y hy => hy.imp id (GlobalWrites.cons_succ_skip hno)), ?_⟩
      replace key := key.2
      intro i item1 item2 gv1' h1 h2 hg1 hnt1
      cases i with
      | zero =>
        simp only [List.get?_cons_zero, Option.some.injEq] at h1
        subst h1
        rw [ha] at hg1
        exact absurd hnt1 (hno gv1' hg1)
      | succ i => exact key i item1 item2 gv1' (by simpa using h1) (by simpa using h2) hg1 hnt1

end TwoRuns

section TwoRuns

open ConstantDeterminingVisitor

/-- The first phase of a second run: visiting the global variables of the items the first
run produced reproduces these items, and the stores of the two runs agree on what the
global variables wrote. -/
theorem ConstantDeterminingVisitor.visitGlobalVariables_again (lib : Library) (fuel : Nat)
    (hf : Reruns (propagate lib fuel)) :
    ∀ (items items1 items2 : List LSLASTNode) (σP σP' τ : SymbolStore) (E : Nat → Prop),
      visitGlobalVariables (propagate lib fuel) σP items = .ok (σP', items1) →
      items2.length = items1.length →
      (∀ (i : Nat) (item1 item2 gv1 : LSLASTNode), items1.get? i = some item1 →
        items2.get? i = some item2 → item1.getChild 0 = some gv1 →
        gv1.getNodeType = .NODE_GLOBAL_VARIABLE → item2.getChild 0 = some gv1) →
      (∀ (i : Nat) (item1 item2 : LSLASTNode), items1.get? i = some item1 →
        items2.get? i = some item2 → item1.Related NodeData.SameSkeleton item2) →
      (∀ (i : Nat) (item gv : LSLASTNode), items.get? i = some item →
        item.getChild 0 = some gv → gv.getNodeType = .NODE_GLOBAL_VARIABLE →
        gv.Scoped (fun y => E y ∨ GlobalWrites items i y)) →
      StoresAgree E σP τ →
      ∃ τ', visitGlobalVariables (propagate lib fuel) τ items2 = .ok (τ', items2)
        ∧ StoresAgree (fun y => E y ∨ GlobalWrites items items.length y) σP' τ' := by
  intro items
  induction items with
  | nil =>
    intro items1 items2 σP σP' τ E hp1 hlen _ _ _ hag
    simp only [visitGlobalVariables, Except.ok.injEq, Prod.mk.injEq] at hp1
    obtain ⟨rfl, rfl⟩ := hp1
    have h2 : items2 = [] := List.length_eq_zero.mp hlen
    subst h2
    exact ⟨τ, rfl, hag.anti (fun y hy => hy.elim id (fun hw => absurd hw
      (GlobalWrites.global_zero _ y)))⟩
  | cons a items ih =>
    intro items1 items2 σP σP' τ E hp1 hlen hrep hrel hsc hag
    obtain ⟨s1, a1, is1, hp1', rfl, hstep⟩ := visitGlobalVariables_cons_ok hp1
    rcases items2 with _ | ⟨b, is2⟩
    · simp at hlen
    have hlen' : is2.length = is1.length := by simpa using hlen
    have hrep' : ∀ (i : Nat) (item1 item2 gv1 : LSLASTNode), is1.get? i = some item1 →
        is2.get? i = some item2 → item1.getChild 0 = some gv1 →
        gv1.getNodeType = .NODE_GLOBAL_VARIABLE → item2.getChild 0 = some gv1 :=
      fun i item1 item2 gv1 h1 h2 => hrep (i + 1) item1 item2 gv1 (by simpa using h1)
        (by simpa using h2)
    have hrel' : ∀ (i : Nat) (item1 item2 : LSLASTNode), is1.get? i = some item1 →
        is2.get? i = some item2 → item1.Related NodeData.SameSkeleton item2 :=
      fun i item1 item2 h1 h2 => hrel (i + 1) item1 item2 (by simpa using h1)
        (by simpa using h2)
    rcases hstep with ⟨gv, gv1, hg, hnt, hrun, rfl⟩ | ⟨hno, hs, ha⟩
    · have hnt1 : gv1.getNodeType = .NODE_GLOBAL_VARIABLE := by
        rw [(propagate_kept lib fuel σP gv s1 gv1 hrun).1.skeleton_fields.1]
        exact hnt
      have hb0 : b.getChild 0 = some gv1 :=
        hrep 0 _ b gv1 rfl rfl (LSLASTNode.getChild_replaceChild_self a gv1 hg) hnt1
      obtain ⟨τ1, hb, hag1⟩ := hf σP gv s1 gv1 hrun _ τ (hsc 0 a gv rfl hg hnt)
        (hag.anti (fun y hy => hy.elim id (fun hw => absurd hw (GlobalWrites.global_zero _ y))))
      obtain ⟨τ2, hbs, hag2⟩ := ih is1 is2 s1 σP' τ1 (fun y => E y ∨ gv.Writes y) hp1' hlen'
        hrep' hrel'
        (fun i item gv' hi hg' hnt' => (hsc (i + 1) item gv' (by simpa using hi) hg'
          hnt').scoped_mono _ (fun y hy => by
            rcases hy with hy | hy
            · exact Or.inl (Or.inl hy)
            · rcases GlobalWrites.global_cons_succ hg hy with hy | hy
              · exact Or.inl (Or.inr hy)
              · exact Or.inr hy))
        (hag1.anti (fun y hy => hy.imp Or.inl id))
      refine ⟨τ2, ?_, hag2.anti (fun y hy => ?_)⟩
      · have := visitGlobalVariables_cons_visit hb0 hnt1 hb hbs
        rw [LSLASTNode.replaceChild_getChild_self b gv1 hb0] at this
        exact this
      · rcases hy with hy | hy
        · exact Or.inl (Or.inl hy)
        · rcases GlobalWrites.global_cons_succ hg hy with hy | hy
          · exact Or.inl (Or.inr hy)
          · exact Or.inr hy
    · subst hs
      subst ha
      have hab : a1.Related NodeData.SameSkeleton b := hrel 0 a1 b rfl rfl
      have hnob : ∀ gv, b.getChild 0 = some gv → gv.getNodeType ≠ .NODE_GLOBAL_VARIABLE := by
        intro gv hgv
        obtain ⟨c, hc, hcr⟩ := hab.flip.getChild_some hgv
        rw [← hcr.skeleton_fields.1]
        exact hno c hc
      obtain ⟨τ2, hbs, hag2⟩ := ih is1 is2 s1 σP' τ E hp1' hlen' hrep' hrel'
        (fun i item gv' hi hg' hnt' => (hsc (i + 1) item gv' (by simpa using hi) hg'
          hnt').scoped_mono _ (fun y hy => hy.imp id (GlobalWrites.cons_succ_skip hno)))
        hag
      exact ⟨τ2, visitGlobalVariables_cons_skip hnob hbs,
        hag2.anti (fun y hy => hy.imp id (GlobalWrites.cons_succ_skip hno))⟩

end TwoRuns

section TwoRuns

open ConstantDeterminingVisitor

theorem LSLASTNode.Writes.script_cases {d g : NodeData} {items rest : List LSLASTNode}
    {y : Nat} (hd : d.nodeType = .NODE_SCRIPT)
    (h : (LSLASTNode.mk d (.mk g items :: rest)).Writes y) :
    GlobalWrites items items.length y
      ∨ WritesBefore (LSLASTNode.mk g items :: rest) (rest.length + 1) y := by
  cases h with
  | declaration _ id _ hnt _ _ _ =>
    simp only [LSLASTNode.getNodeType, LSLASTNode.data, hd] at hnt
    cases hnt
  | globalVariable _ id _ hnt _ _ _ =>
    simp only [LSLASTNode.getNodeType, LSLASTNode.data, hd] at hnt
    cases hnt
  | child _ c _ _ hc hw => exact Or.inr (WritesBefore.of_mem hc hw)
  | global _ globals storage gv _ _ hgl hst hgv hnt hw =>
    simp only [LSLASTNode.getChild, LSLASTNode.children, List.get?_cons_zero,
      Option.some.injEq] at hgl
    subst hgl
    obtain ⟨i, hi⟩ := LSLASTNode.get?_of_mem hst
    exact Or.inl (GlobalWrites.upto ⟨i, storage, gv, Nat.lt_succ_self i, hi, hgv, hnt, hw⟩)

theorem GlobalWrites.script_writes {d g : NodeData} {items rest : List LSLASTNode}
    {i y : Nat} (hd : d.nodeType = .NODE_SCRIPT) (h : GlobalWrites items i y) :
    (LSLASTNode.mk d (.mk g items :: rest)).Writes y := by
  obtain ⟨j, item, gv, _, hi, hg, hnt, hw⟩ := h
  exact .global _ (.mk g items) item gv y hd rfl (LSLASTNode.mem_of_get? hi) hg hnt hw

/-- The script case of the second run. -/
theorem ConstantDeterminingVisitor.propagate_again_script (lib : Library) (fuel : Nat)
    (hf : Reruns (propagate lib fuel)) (σA σA' : SymbolStore) (d g : NodeData)
    (items rest : List LSLASTNode) (t' : LSLASTNode)
    (h : propagate lib (fuel + 1) σA (.mk d (.mk g items :: rest)) = .ok (σA', t'))
    (hd : d.nodeType = .NODE_SCRIPT) (D : Nat → Prop) (σB : SymbolStore)
    (hg : g.Plain) (hplain : ∀ item ∈ items, item.data.Plain)
    (hinert : ∀ item ∈ items, ∀ gv, item.getChild 0 = some gv →
      gv.getNodeType = .NODE_GLOBAL_VARIABLE →
      ∀ (k : Nat) (c : LSLASTNode) (y : Nat), 0 < k → item.getChild k = some c →
        ¬ c.Writes y)
    (hsep : ∀ item ∈ items,
      (∀ gv, item.getChild 0 = some gv → gv.getNodeType ≠ .NODE_GLOBAL_VARIABLE) →
      ∀ y, item.Writes y → ¬ GlobalWrites items items.length y)
    (hph1 : ∀ (i : Nat) (item gv : LSLASTNode), items.get? i = some item →
      item.getChild 0 = some gv → gv.getNodeType = .NODE_GLOBAL_VARIABLE →
      gv.Scoped (fun y => (D y ∧ ¬ (LSLASTNode.mk d (.mk g items :: rest)).Writes y)
        ∨ GlobalWrites items i y))
    (hph2 : ∀ (i : Nat) (c : LSLASTNode),
      (LSLASTNode.mk g items :: rest).get? i = some c →
      c.Scoped (fun y => (D y ∨ GlobalWrites items items.length y)
        ∨ WritesBefore (LSLASTNode.mk g items :: rest) i y))
    (hag : StoresAgree D σA σB) :
    ∃ σB', propagate lib (fuel + 1) σB t' = .ok (σB', t')
      ∧ StoresAgree (fun y => D y ∨ (LSLASTNode.mk d (.mk g items :: rest)).Writes y)
          σA' σB' := by
  rw [propagate_script lib fuel σA d _ hd] at h
  obtain ⟨g0, items0, rest0, s1, items1, s2, cs2, hcs, hp1, hp2, hr⟩ := visitScript_ok h
  simp only [List.cons.injEq, LSLASTNode.mk.injEq] at hcs
  obtain ⟨⟨rfl, rfl⟩, rfl⟩ := hcs
  simp only [Prod.mk.injEq] at hr
  obtain ⟨rfl, rfl⟩ := hr
  obtain ⟨q1, G2, rest2, hG, hrest, rfl⟩ := visitChildren_cons_ok hp2
  obtain ⟨f, items2, rfl, hch, rfl⟩ := propagate_plain lib fuel s1 q1 g items1 G2 hg hG
  -- what the two phases of the first run keep
  obtain ⟨hlen1, hrel1, hfr1, hsk1⟩ := visitGlobalVariables_kept (propagate_kept lib (f + 1))
    items σA s1 items1 hp1
  obtain ⟨hlen2, hrel2, _, _⟩ := visitChildren_kept (propagate_kept lib f) items1 s1 q1
    items2 hch
  have hw1 : ∀ y, GlobalWrites items items.length y →
      (LSLASTNode.mk d (.mk g items :: rest)).Writes y :=
    fun y hy => GlobalWrites.script_writes hd hy
  have hitemW : ∀ item ∈ items, ∀ y, item.Writes y →
      (LSLASTNode.mk d (.mk g items :: rest)).Writes y := by
    intro item hm y hw
    refine .child _ (.mk g items) y (Or.inr hd) (List.mem_cons_self _ _) ?_
    exact .child _ item y (Or.inl hg.1) hm hw
  -- the global variables are not touched by the second phase
  have hrep := (visitGlobalVariables_reproduced lib (f + 1) f hf (Nat.le_succ f)
    (fun y => (D y ∧ ¬ (LSLASTNode.mk d (.mk g items :: rest)).Writes y)
      ∨ GlobalWrites items items.length y)
    items items1 items2 σA s1 s1 q1
    (fun y => D y ∧ ¬ (LSLASTNode.mk d (.mk g items :: rest)).Writes y)
    hp1 hch hplain hinert
    (fun item hm hno y hw hs => hs.elim (fun h0 => h0.2 (hitemW item hm y hw))
      (hsep item hm hno y hw))
    (fun item hm gv hgv hnt y hw => by
      obtain ⟨i, hi⟩ := LSLASTNode.get?_of_mem hm
      exact Or.inr (GlobalWrites.upto ⟨i, item, gv, Nat.lt_succ_self i, hi, hgv, hnt, hw⟩))
    (fun y hy => Or.inl hy) hph1
    ⟨hsk1, fun x hx => (hfr1 x (fun hgw => hx.2 (hw1 x hgw))).symm⟩).2
  -- the first phase of the second run
  obtain ⟨τ1, hb1, hag1⟩ := visitGlobalVariables_again lib (f + 1) hf items items1 items2
    σA s1 σB D hp1 hlen2 hrep hrel2
    (fun i item gv hi hgv hnt => (hph1 i item gv hi hgv hnt).scoped_mono _
      (fun y hy => hy.imp (fun h0 => h0.1) id))
    hag
  -- the second phase of the second run
  have hl : (LSLASTNode.mk g items1 :: rest).length = (LSLASTNode.mk g items :: rest).length :=
    rfl
  have hrl : ∀ (i : Nat) (c c' : LSLASTNode),
      (LSLASTNode.mk g items :: rest).get? i = some c →
      (LSLASTNode.mk g items1 :: rest).get? i = some c' →
      c.Related NodeData.SameSkeleton c' := by
    intro i c c' hc hc'
    cases i with
    | zero =>
      simp only [List.get?_cons_zero, Option.some.injEq] at hc hc'
      subst hc hc'
      exact .mk g g items items1 (NodeData.SameSkeleton.same g) hlen1 hrel1
    | succ i =>
      simp only [List.get?_cons_succ] at hc hc'
      rw [hc] at hc'
      cases hc'
      exact LSLASTNode.Related.reflexive NodeData.SameSkeleton.same c
  obtain ⟨σB', hb2, hag2⟩ := visitChildren_again hf (LSLASTNode.mk g items1 :: rest) _ s1 σA'
    (fun y => D y ∨ GlobalWrites items items.length y) τ1 hp2
    (fun i c hc => by
      obtain ⟨c0, hc0⟩ := LSLASTNode.get?_of_length_eq hl.symm hc
      exact ((hph2 i c0 hc0).scoped_of_related (hrl i c0 c hc0 hc)).scoped_mono _
        (fun y hy => hy.imp id (WritesBefore.before_of_related hl hrl)))
    hag1
  refine ⟨σB', ?_, hag2.anti (fun y hy => ?_)⟩
  · have hd' : (hookData d).nodeType = .NODE_SCRIPT := by
      rw [(hookData_skeleton d).fields.1]
      exact hd
    rw [propagate_script lib (f + 1) σB (hookData d) _ hd', hookData_idem]
    have hb2' : visitChildren (propagate lib (f + 1)) τ1
        (LSLASTNode.mk (hookData g) items2 :: rest2)
        = .ok (σB', LSLASTNode.mk (hookData g) items2 :: rest2) := hb2
    exact visitScript_of hb1 hb2'
  · rcases hy with hy | hy
    · exact Or.inl (Or.inl hy)
    · rcases LSLASTNode.Writes.script_cases hd hy with hy | hy
      · exact Or.inl (Or.inr hy)
      · exact Or.inr (WritesBefore.before_of_related hl hrl hy)

end TwoRuns

section TwoRuns

open ConstantDeterminingVisitor

/-- Running the pass on its own output: on a tree whose reads are covered by `D` and by
the writes that come before them in the order of the walk, a run from a store that agrees
on `D` with the store the first run started from reproduces the tree the first run
produced, and the final stores agree on `D` and on everything the tree writes. -/
theorem ConstantDeterminingVisitor.propagate_again (lib : Library) :
    ∀ fuel, Reruns (propagate lib fuel) := by
  intro fuel
  induction fuel with
  | zero =>
    intro σA t σA' t' h
    cases h
  | succ fuel ih =>
    intro σA t σA' t' h D σB hsc hag
    cases hsc with
    | node _ d cs hns hread hch =>
      exact propagate_again_node lib fuel ih σA σA' d cs t' h hns D σB hread hch hag
    | script _ d g items rest hd hg hplain hinert hsep hph1 hph2 =>
      exact propagate_again_script lib fuel ih σA σA' d g items rest t' h hd D σB hg hplain
        hinert hsep hph1 hph2 hag

end TwoRuns

section TwoRuns

open ConstantDeterminingVisitor

theorem LSLASTNode.writes_mk_iff (d : NodeData) (cs : List LSLASTNode) (x : Nat) :
    (LSLASTNode.mk d cs).Writes x ↔
      (d.nodeType = .NODE_STATEMENT ∧ d.subType = .NODE_DECLARATION
          ∧ ∃ id, cs.head? = some id ∧ id.getSymbol = some x)
        ∨ (d.nodeType = .NODE_GLOBAL_VARIABLE ∧ cs.length > 1
          ∧ ∃ id, cs.head? = some id ∧ id.getSymbol = some x)
        ∨ ((d.type ≠ .LST_ERROR ∨ d.nodeType = .NODE_SCRIPT) ∧ ∃ c ∈ cs, c.Writes x)
        ∨ (d.nodeType = .NODE_SCRIPT ∧ ∃ globals, cs.head? = some globals ∧
            ∃ storage ∈ globals.children, ∃ gv, storage.children.head? = some gv ∧
              gv.getNodeType = .NODE_GLOBAL_VARIABLE ∧ gv.Writes x) := by
  have hhead : ∀ (n : LSLASTNode), n.getChild 0 = n.children.head? := by
    intro n
    obtain ⟨_, l⟩ := n
    cases l <;> rfl
  constructor
  · intro h
    cases h with
    | declaration _ id _ hnt hst hid hsym =>
      exact Or.inl ⟨hnt, hst, id, (hhead _).symm.trans hid, hsym⟩
    | globalVariable _ id _ hnt hnum hid hsym =>
      exact Or.inr (Or.inl ⟨hnt, hnum, id, (hhead _).symm.trans hid, hsym⟩)
    | child _ c _ hd hc hw => exact Or.inr (Or.inr (Or.inl ⟨hd, c, hc, hw⟩))
    | global _ globals storage gv _ hd hgl hst hgv hnt hw =>
      exact Or.inr (Or.inr (Or.inr ⟨hd, globals, (hhead _).symm.trans hgl, storage, hst, gv,
        (hhead _).symm.trans hgv, hnt, hw⟩))
  · rintro (⟨hnt, hst, id, hid, hsym⟩ | ⟨hnt, hnum, id, hid, hsym⟩ | ⟨hd, c, hc, hw⟩
      | ⟨hd, globals, hgl, storage, hst, gv, hgv, hnt, hw⟩)
    · exact .declaration _ id x hnt hst ((hhead _).trans hid) hsym
    · exact .globalVariable _ id x hnt hnum ((hhead _).trans hid) hsym
    · exact .child _ c x hd hc hw
    · exact .global _ globals storage gv x hd ((hhead _).trans hgl) hst
        ((hhead _).trans hgv) hnt hw

/-- A subtree without a script node whose reads are all covered is well scoped. -/
theorem LSLASTNode.Scoped.of_reads {t : LSLASTNode} {D : Nat → Prop}
    (hall : t.All (fun n => n.getNodeType ≠ .NODE_SCRIPT ∧ ∀ x, n.ReadsSymbol x → D x)) :
    ∀ (E : Nat → Prop), (∀ y, D y → E y) → t.Scoped E := by
  induction hall with
  | mk d cs hp _ ih =>
    intro E hE
    exact .node E d cs hp.1 (fun x hx => hE x (hp.2 x hx))
      (fun _ i c hc => ih c (LSLASTNode.mem_of_get? hc) _ (fun y hy => Or.inl (hE y hy)))

end TwoRuns

section TwoRuns

open ConstantDeterminingVisitor

theorem Sample.functionBeforeGlobal_ready :
    Sample.functionBeforeGlobal.All LSLASTNode.ConstantReady := by
  simp [Sample.functionBeforeGlobal, Sample.functionStorage, Sample.globalStorage,
    Sample.declaration, Sample.binary, Sample.literal, Sample.lvalue, LSLASTNode.newNullNode,
    Sample.identifier, LSLConstant.toNode, LSLASTNode.all_mk_iff, LSLASTNode.ConstantReady,
    LSLASTNode.getNodeType, LSLASTNode.getNodeSubType, LSLASTNode.getChild,
    LSLASTNode.getSymbol, LSLASTNode.getOperation, LSLASTNode.getNumChildren,
    LSLConstant.getNodeSubType, LSLConstant.getIType]

theorem Sample.newNullNode_writes (y : Nat) : ¬ LSLASTNode.newNullNode.Writes y := by
  simp [LSLASTNode.newNullNode, LSLASTNode.writes_mk_iff]

theorem Sample.functionStorage_writes (y : Nat) (h : Sample.functionStorage.Writes y) :
    y = 1 := by
  simp [Sample.functionStorage, Sample.declaration, Sample.lvalue, LSLASTNode.newNullNode,
    Sample.identifier, LSLASTNode.writes_mk_iff, LSLASTNode.getSymbol,
    LSLASTNode.getNodeType, LSLASTNode.children] at h
  exact h.symm

theorem Sample.globalStorage_variable :
    ∃ gv, Sample.globalStorage.getChild 0 = some gv
      ∧ gv.getNodeType = .NODE_GLOBAL_VARIABLE ∧ ∀ y, gv.Writes y ↔ y = 0 := by
  refine ⟨_, rfl, rfl, fun y => ?_⟩
  simp [Sample.declaration, Sample.binary, Sample.literal, LSLConstant.toNode,
    Sample.identifier, LSLASTNode.writes_mk_iff, LSLASTNode.getSymbol,
    LSLASTNode.getNodeType, LSLASTNode.children]
  exact eq_comm

theorem Sample.functionBeforeGlobal_globalWrites (i y : Nat) :
    GlobalWrites [Sample.functionStorage, Sample.globalStorage] i y ↔ 1 < i ∧ y = 0 := by
  obtain ⟨gv, hg, hnt, hw⟩ := Sample.globalStorage_variable
  constructor
  · rintro ⟨j, item, gv', hj, hi, hg', hnt', hw'⟩
    rcases j with _ | _ | j
    · simp only [List.get?_cons_zero, Option.some.injEq] at hi
      subst hi
      cases hg'
      cases hnt'
    · simp only [List.get?_cons_succ, List.get?_cons_zero, Option.some.injEq] at hi
      subst hi
      rw [hg] at hg'
      cases hg'
      exact ⟨by omega, (hw y).mp hw'⟩
    · simp at hi
  · rintro ⟨hi, rfl⟩
    exact ⟨1, _, gv, hi, rfl, hg, hnt, (hw 0).mpr rfl⟩

theorem Sample.functionBeforeGlobal_scoped :
    Sample.functionBeforeGlobal.Scoped (fun x => ¬ Sample.functionBeforeGlobal.Writes x) := by
  refine .script _ _ _ _ _ rfl (by simp [NodeData.Plain]) ?_ ?_ ?_ ?_ ?_
  · intro item hm
    simp only [List.mem_cons, List.mem_singleton, List.not_mem_nil, or_false] at hm
    rcases hm with rfl | rfl <;> simp [NodeData.Plain, Sample.functionStorage,
      Sample.globalStorage, LSLASTNode.data]
  · intro item hm gv hg hnt k c y hk hc
    simp only [List.mem_cons, List.mem_singleton, List.not_mem_nil, or_false] at hm
    rcases hm with rfl | rfl
    · cases hg
      cases hnt
    · rcases k with _ | _ | k
      · omega
      · cases hc
        exact Sample.newNullNode_writes y
      · simp [Sample.globalStorage, LSLASTNode.getChild, LSLASTNode.children] at hc
  · intro item hm hno y hw hgw
    simp only [List.mem_cons, List.mem_singleton, List.not_mem_nil, or_false] at hm
    rcases hm with rfl | rfl
    · have h1 := Sample.functionStorage_writes y hw
      have h0 := ((Sample.functionBeforeGlobal_globalWrites _ y).mp hgw).2
      omega
    · exact hno _ rfl rfl
  · intro i item gv hi hg hnt
    rcases i with _ | _ | i
    · cases hi
      cases hg
      cases hnt
    · cases hi
      cases hg
      refine LSLASTNode.Scoped.of_reads (D := fun _ => False) ?_ _ (fun _ h => h.elim)
      simp [Sample.binary, Sample.literal, LSLConstant.toNode, Sample.identifier,
        LSLASTNode.all_mk_iff, LSLASTNode.ReadsSymbol, LSLASTNode.getNodeType,
        LSLASTNode.getNodeSubType]
    · simp at hi
  · intro i c hc
    have hcov : ∀ y, y = 0 → ((¬ Sample.functionBeforeGlobal.Writes y
        ∨ GlobalWrites [Sample.functionStorage, Sample.globalStorage]
            [Sample.functionStorage, Sample.globalStorage].length y)
        ∨ WritesBefore (LSLASTNode.mk { nodeType := .NODE_AST_NODE_LIST }
            [Sample.functionStorage, Sample.globalStorage] ::
              [LSLASTNode.mk { nodeType := .NODE_AST_NODE_LIST } []]) i y) :=
      fun y hy => Or.inl (Or.inr
        ((Sample.functionBeforeGlobal_globalWrites _ y).mpr ⟨by decide, hy⟩))
    rcases i with _ | _ | i
    · cases hc
      refine LSLASTNode.Scoped.of_reads (D := fun y => y = 0) ?_ _ hcov
      simp [Sample.functionStorage, Sample.globalStorage, Sample.declaration, Sample.lvalue,
        Sample.binary, Sample.literal, LSLConstant.toNode, Sample.identifier,
        LSLASTNode.newNullNode, LSLASTNode.getChild, LSLASTNode.getSymbol,
        LSLASTNode.all_mk_iff, LSLASTNode.ReadsSymbol, LSLASTNode.getNodeType,
        LSLASTNode.getNodeSubType]
    · cases hc
      refine LSLASTNode.Scoped.of_reads (D := fun y => y = 0) ?_ _ hcov
      simp [LSLASTNode.all_mk_iff, LSLASTNode.ReadsSymbol, LSLASTNode.getNodeType,
        LSLASTNode.getNodeSubType]
    · simp at hc

/-- C17: on a tree of the parser's form in which every variable an expression reads is
written by the pass, if at all, earlier in the walk (a global variable by the first
phase of the script node, before the functions and states are entered), the
constant-propagation pass ends, and a second run, on the tree and from the symbol store
the first run left, ends with the same tree and the same symbol store: every node and
every symbol keeps its constant value and its precluded flag. -/
theorem propagate_twice (lib : Library) (fuel : Nat) (s : SymbolStore) (t : LSLASTNode)
    (hall : t.All LSLASTNode.ConstantReady) (hfuel : t.height ≤ fuel)
    (hsc : t.Scoped (fun x => ¬ t.Writes x)) :
    ∃ s' t', propagate lib fuel s t = .ok (s', t')
      ∧ propagate lib fuel s' t' = .ok (s', t') := by
  obtain ⟨⟨s', t'⟩, hrun, _⟩ := propagate_total lib fuel s t hall hfuel
  obtain ⟨_, hfr, hsk⟩ := propagate_kept lib fuel s t s' t' hrun
  obtain ⟨s'', hrun2, hag⟩ := propagate_again lib fuel s t s' t' hrun _ s' hsc
    ⟨hsk, fun x hx => (hfr x hx).symm⟩
  have hs : s'' = s' := by
    funext x
    by_cases hw : t.Writes x
    · exact (hag.2 x (Or.inr hw)).symm
    · exact (hag.2 x (Or.inl hw)).symm
  rw [hs] at hrun2
  exact ⟨s', t', hrun, hrun2⟩

theorem propagate_twice_witness :
    Sample.functionBeforeGlobal.All LSLASTNode.ConstantReady
      ∧ Sample.functionBeforeGlobal.height ≤ 10
      ∧ Sample.functionBeforeGlobal.Scoped
          (fun x => ¬ Sample.functionBeforeGlobal.Writes x)
      ∧ ∃ s' t', propagate Library.sample 10 Sample.locals Sample.functionBeforeGlobal
            = .ok (s', t')
          ∧ propagate Library.sample 10 s' t' = .ok (s', t') :=
  ⟨Sample.functionBeforeGlobal_ready, by decide, Sample.functionBeforeGlobal_scoped,
    propagate_twice Library.sample 10 Sample.locals Sample.functionBeforeGlobal
      Sample.functionBeforeGlobal_ready (by decide) Sample.functionBeforeGlobal_scoped⟩

end TwoRuns

section TwoRuns

open ConstantDeterminingVisitor

/-- The visit of a list of children, cut at the child number `j`. -/
theorem ConstantDeterminingVisitor.visitChildren_split
    {f : SymbolStore → LSLASTNode → Except Fault (SymbolStore × LSLASTNode)} :
    ∀ (cs : List LSLASTNode) (s s' : SymbolStore) (cs' : List LSLASTNode) (j : Nat),
      visitChildren f s cs = .ok (s', cs') →
      ∃ σ, visitChildren f s (cs.take j) = .ok (σ, cs'.take j)
        ∧ visitChildren f σ (cs.drop j) = .ok (s', cs'.drop j) := by
  intro cs
  induction cs with
  | nil =>
    intro s s' cs' j h
    simp only [visitChildren, Except.ok.injEq, Prod.mk.injEq] at h
    obtain ⟨rfl, rfl⟩ := h
    exact ⟨s, by simp [visitChildren], by simp [visitChildren]⟩
  | cons a cs ih =>
    intro s s' cs' j h
    obtain ⟨s1, a1, cs1, ha, hcs, rfl⟩ := visitChildren_cons_ok h
    cases j with
    | zero => exact ⟨s, by simp [visitChildren], by simpa using h⟩
    | succ j =>
      obtain ⟨σ, hp, hd⟩ := ih s1 s' cs1 j hcs
      exact ⟨σ, by simpa using visitChildren_cons_of ha hp, by simpa using hd⟩

/-- Where the walk arrives, the store differs from the store at the start only in
symbols the subtree writes. -/
theorem ConstantDeterminingVisitor.Arrives.frame {lib : Library} {fuel : Nat}
    {s σ : SymbolStore} {t n : LSLASTNode} (h : Arrives lib fuel s t σ n) :
    ∀ x, ¬ t.Writes x → σ x = s x := by
  induction h with
  | root fuel s t => exact fun _ _ => rfl
  | child fuel s σj σ d cs front j c n hdesc hc hpre _ ih =>
    intro x hx
    have hty : d.type ≠ .LST_ERROR := ((hookDescends_iff d).mp hdesc).1
    have hcw : ∀ c' ∈ cs, ¬ c'.Writes x :=
      fun c' hm hw => hx (.child _ c' x (Or.inl hty) hm hw)
    obtain ⟨_, _, hfr, _⟩ := visitChildren_kept (propagate_kept lib fuel) (cs.take j) s σj
      front hpre
    rw [ih x (hcw c (LSLASTNode.mem_of_get? hc)),
      hfr x (fun c' hm => hcw c' (List.mem_of_mem_take hm))]

/-- After the visit of a global variable with an initializer slot its symbol holds the
constant and the precluded flag of the visited initializer. -/
theorem ConstantDeterminingVisitor.propagate_global_carries (lib : Library) (fuel : Nat)
    (s s' : SymbolStore) (gv gv1 id r1 : LSLASTNode) (x : Nat)
    (h : propagate lib fuel s gv = .ok (s', gv1))
    (hnt : gv.getNodeType = .NODE_GLOBAL_VARIABLE) (hid : gv1.getChild 0 = some id)
    (hx : id.getSymbol = some x) (hr : gv1.getChild 1 = some r1) :
    (s' x).constantValue = r1.getConstantValue
      ∧ (s' x).constantPrecluded = r1.getConstantPrecluded := by
  cases fuel with
  | zero => cases h
  | succ fuel =>
    obtain ⟨d, cs⟩ := gv
    have hns : d.nodeType ≠ .NODE_SCRIPT := by
      have hd : d.nodeType = .NODE_GLOBAL_VARIABLE := hnt
      rw [hd]
      decide
    obtain ⟨s1, cs1, _, hv⟩ := propagate_node lib fuel s d cs _ h hns
    have hnt1 : (LSLASTNode.mk (hookData d) cs1).getNodeType = .NODE_GLOBAL_VARIABLE :=
      ((hookData_skeleton d).fields.1).trans hnt
    unfold visitSpecific at hv
    simp only [hnt1] at hv
    cases hg : visitGlobalVariable s1 (.mk (hookData d) cs1) with
    | none => simp [hg] at hv
    | some s2 =>
      simp only [hg, Option.map_some', Option.some.injEq, Prod.mk.injEq] at hv
      obtain ⟨rfl, rfl⟩ := hv
      simp only [visitGlobalVariable, hid, hr, hx, Option.bind_eq_bind, Option.some_bind,
        Option.pure_def, Option.some.injEq] at hg
      subst hg
      simp

/-- After the first phase of the script node the symbol of a global variable holds the
constant of its visited initializer, when no later global variable writes it. -/
theorem ConstantDeterminingVisitor.visitGlobalVariables_carries (lib : Library)
    (fuel : Nat) :
    ∀ (items items1 : List LSLASTNode) (s s1 : SymbolStore),
      visitGlobalVariables (propagate lib fuel) s items = .ok (s1, items1) →
      ∀ (i : Nat) (item1 gv1 id r1 : LSLASTNode) (x : Nat), items1.get? i = some item1 →
        item1.getChild 0 = some gv1 → gv1.getNodeType = .NODE_GLOBAL_VARIABLE →
        gv1.getChild 0 = some id → id.getSymbol = some x → gv1.getChild 1 = some r1 →
        (∀ (k : Nat) (item gv : LSLASTNode), i < k → items.get? k = some item →
          item.getChild 0 = some gv → gv.getNodeType = .NODE_GLOBAL_VARIABLE →
          ¬ gv.Writes x) →
        (s1 x).constantValue = r1.getConstantValue
          ∧ (s1 x).constantPrecluded = r1.getConstantPrecluded := by
  intro items
  induction items with
  | nil =>
    intro items1 s s1 h i item1 gv1 id r1 x hi
    simp only [visitGlobalVariables, Except.ok.injEq, Prod.mk.injEq] at h
    obtain ⟨_, rfl⟩ := h
    simp at hi
  | cons a items ih =>
    intro items1 s s1 h i item1 gv1 id r1 x hi hg1 hnt1 hid hx hr hlater
    obtain ⟨s0, a1, is1, htail, rfl, hstep⟩ := visitGlobalVariables_cons_ok h
    cases i with
    | succ i =>
      exact ih is1 s0 s1 htail i item1 gv1 id r1 x (by simpa using hi) hg1 hnt1 hid hx hr
        (fun k item gv hk hik => hlater (k + 1) item gv (by omega) (by simpa using hik))
    | zero =>
      simp only [List.get?_cons_zero, Option.some.injEq] at hi
      subst hi
      rcases hstep with ⟨gv, gv1', hg, hnt, hrun, rfl⟩ | ⟨hno, _, ha⟩
      · rw [LSLASTNode.getChild_replaceChild_self a gv1' hg] at hg1
        cases hg1
        have hc := propagate_global_carries lib fuel s s0 gv gv1 id r1 x hrun hnt hid hx hr
        obtain ⟨_, _, hfr, _⟩ := visitGlobalVariables_kept (propagate_kept lib fuel) items s0
          s1 is1 htail
        have hkeep : s1 x = s0 x := by
          refine hfr x ?_
          rintro ⟨j, item, gv', _, hj, hg', hnt', hw⟩
          exact hlater (j + 1) item gv' (by omega) (by simpa using hj) hg' hnt' hw
        rw [hkeep]
        exact hc
      · rw [ha] at hg1
        exact absurd hnt1 (hno gv1 hg1)

end TwoRuns

section TwoRuns

open ConstantDeterminingVisitor

/-- A storage of a global variable writes what its global variable writes. -/
theorem LSLASTNode.Writes.of_storage {item gv : LSLASTNode} {x : Nat}
    (hplain : item.data.Plain) (hg : item.getChild 0 = some gv)
    (hinert : ∀ (k : Nat) (c : LSLASTNode), 0 < k → item.getChild k = some c → ¬ c.Writes x)
    (hw : item.Writes x) : gv.Writes x := by
  obtain ⟨d, cs⟩ := item
  obtain ⟨_, hns, hgv, hst, _⟩ := hplain
  rw [LSLASTNode.writes_mk_iff] at hw
  rcases hw with ⟨h, _⟩ | ⟨h, _⟩ | ⟨_, c, hc, hcw⟩ | ⟨h, _⟩
  · exact absurd h hst
  · exact absurd h hgv
  · obtain ⟨m, hm⟩ := LSLASTNode.get?_of_mem hc
    cases m with
    | zero =>
      have : some c = some gv := hm.symm.trans hg
      cases this
      exact hcw
    | succ m => exact absurd hcw (hinert (m + 1) c (by omega) hm)
  · exact absurd h hns

end TwoRuns

section TwoRuns

open ConstantDeterminingVisitor

/-- C16: on a script of the parser's form (every variable read after it is written in
the order of the walk, the global variables bound to symbols of their own that nothing
else writes) the constant-propagation pass first visits all the global variables, from
the store it starts with, and only then the children of the script node, from the store
the global variables left; and whenever the walk of the second phase arrives at a node of
the storage of a function or at a node of a state, the symbol of every global variable
with an initializer slot holds the constant value and the precluded flag of its visited
initializer, wherever in the list of globals the variable stands. -/
theorem globals_known_in_bodies (lib : Library) (fuel : Nat) (s : SymbolStore)
    (d g : NodeData) (items rest : List LSLASTNode) (hd : d.nodeType = .NODE_SCRIPT)
    (hall : (LSLASTNode.mk d (.mk g items :: rest)).All LSLASTNode.ConstantReady)
    (hfuel : (LSLASTNode.mk d (.mk g items :: rest)).height ≤ fuel + 2)
    (hsc : (LSLASTNode.mk d (.mk g items :: rest)).Scoped
      (fun x => ¬ (LSLASTNode.mk d (.mk g items :: rest)).Writes x))
    (hdis : GlobalsDistinct items)
    (hrest : ∀ c ∈ rest, ∀ y, c.Writes y → ¬ GlobalWrites items items.length y) :
    ∃ (s1 q1 s' : SymbolStore) (items1 items2 rest2 : List LSLASTNode),
      visitGlobalVariables (propagate lib (fuel + 1)) s items = .ok (s1, items1)
      ∧ visitChildren (propagate lib fuel) s1 items1 = .ok (q1, items2)
      ∧ visitChildren (propagate lib (fuel + 1)) q1 rest = .ok (s', rest2)
      ∧ propagate lib (fuel + 2) s (.mk d (.mk g items :: rest))
          = .ok (s', .mk (hookData d) (.mk (hookData g) items2 :: rest2))
      ∧ ∀ (i : Nat) (item1 gv1 id r1 : LSLASTNode) (x : Nat), items1.get? i = some item1 →
          item1.getChild 0 = some gv1 → gv1.getNodeType = .NODE_GLOBAL_VARIABLE →
          gv1.getChild 0 = some id → id.getSymbol = some x → gv1.getChild 1 = some r1 →
          ((s1 x).constantValue = r1.getConstantValue
            ∧ (s1 x).constantPrecluded = r1.getConstantPrecluded)
          ∧ (∀ (j : Nat) (item : LSLASTNode) (σ : SymbolStore) (n : LSLASTNode),
              items1.get? j = some item →
              (∀ gv, item.getChild 0 = some gv → gv.getNodeType ≠ .NODE_GLOBAL_VARIABLE) →
              ArrivesIn lib fuel s1 items1 j σ n →
              (σ x).constantValue = r1.getConstantValue
                ∧ (σ x).constantPrecluded = r1.getConstantPrecluded)
          ∧ ∀ (j : Nat) (σ : SymbolStore) (n : LSLASTNode),
              ArrivesIn lib (fuel + 1) q1 rest j σ n →
              (σ x).constantValue = r1.getConstantValue
                ∧ (σ x).constantPrecluded = r1.getConstantPrecluded := by
  obtain ⟨⟨s', t'⟩, hrun, _⟩ := propagate_total lib (fuel + 2) s _ hall hfuel
  have h := hrun
  rw [propagate_script lib (fuel + 1) s d _ hd] at h
  obtain ⟨g0, items0, rest0, s1, items1, s2, cs2, hcs, hp1, hp2, hr⟩ := visitScript_ok h
  simp only [List.cons.injEq, LSLASTNode.mk.injEq] at hcs
  obtain ⟨⟨rfl, rfl⟩, rfl⟩ := hcs
  simp only [Prod.mk.injEq] at hr
  obtain ⟨rfl, rfl⟩ := hr
  obtain ⟨q1, G2, rest2, hG, hrest2, rfl⟩ := visitChildren_cons_ok hp2
  cases hsc with
  | node _ _ _ hns => exact absurd hd hns
  | script _ _ _ _ _ _ hg hplain hinert hsep hph1 hph2 =>
  obtain ⟨f, items2, hf, hch, rfl⟩ := propagate_plain lib (fuel + 1) s1 q1 g items1 G2 hg hG
  have hff : f = fuel := by omega
  subst hff
  refine ⟨s1, q1, s', items1, items2, rest2, hp1, hch, hrest2, hrun, ?_⟩
  -- what the first phase keeps
  obtain ⟨hlen1, hrel1, hfr1, hsk1⟩ := visitGlobalVariables_kept
    (propagate_kept lib (f + 1)) items s s1 items1 hp1
  have hw1 : ∀ y, GlobalWrites items items.length y →
      (LSLASTNode.mk d (.mk g items :: rest)).Writes y :=
    fun y hy => GlobalWrites.script_writes hd hy
  have hitemW : ∀ item ∈ items, ∀ y, item.Writes y →
      (LSLASTNode.mk d (.mk g items :: rest)).Writes y := by
    intro item hm y hw
    refine .child _ (.mk g items) y (Or.inr hd) (List.mem_cons_self _ _) ?_
    exact .child _ item y (Or.inl hg.1) hm hw
  -- the second visit of the storages leaves what the global variables wrote
  have hstore := (visitGlobalVariables_reproduced lib (f + 1) f (propagate_again lib (f + 1))
    (Nat.le_succ f)
    (fun y => (¬ (LSLASTNode.mk d (.mk g items :: rest)).Writes y)
      ∨ GlobalWrites items items.length y)
    items items1 items2 s s1 s1 q1
    (fun y => ¬ (LSLASTNode.mk d (.mk g items :: rest)).Writes y)
    hp1 hch hplain hinert
    (fun item hm hno y hw hs => hs.elim (fun h0 => h0 (hitemW item hm y hw))
      (hsep item hm hno y hw))
    (fun item hm gv hgv hnt y hw => by
      obtain ⟨i, hi⟩ := LSLASTNode.get?_of_mem hm
      exact Or.inr (GlobalWrites.upto ⟨i, item, gv, Nat.lt_succ_self i, hi, hgv, hnt, hw⟩))
    (fun y hy => Or.inl hy)
    (fun i item gv hi hgv hnt => (hph1 i item gv hi hgv hnt).scoped_mono _
      (fun y hy => hy.imp (fun h0 => h0.2) id))
    ⟨hsk1, fun x hx => (hfr1 x (fun hgw => hx (hw1 x hgw))).symm⟩).1
  intro i item1 gv1 id r1 x hi1 hg1 hnt1 hid hx hr1
  -- the global variable before the visit
  obtain ⟨item, hi⟩ := LSLASTNode.get?_of_length_eq hlen1.symm hi1
  have hrel := hrel1 i item item1 hi hi1
  obtain ⟨gv, hgv, hgrel⟩ := hrel.flip.getChild_some hg1
  have hgrel' : gv.Related NodeData.SameSkeleton gv1 := hgrel.flip
  have hnt : gv.getNodeType = .NODE_GLOBAL_VARIABLE := by
    rw [← hgrel'.skeleton_fields.1]
    exact hnt1
  obtain ⟨id0, hid0, hidrel⟩ := hgrel.getChild_some hid
  have hx0 : id0.getSymbol = some x := by
    rw [hidrel.skeleton_fields.2.2.2.1]
    exact hx
  have hnum : gv.getNumChildren > 1 := by
    obtain ⟨r0, hr0, _⟩ := hgrel.getChild_some hr1
    obtain ⟨gd, gcs⟩ := gv
    simp only [LSLASTNode.getChild, LSLASTNode.children] at hr0
    show gcs.length > 1
    by_contra hle
    rw [List.get?_eq_none.mpr (Nat.le_of_not_lt hle)] at hr0
    cases hr0
  have hgvw : gv.Writes x := .globalVariable gv id0 x hnt hnum hid0 hx0
  have hGx : GlobalWrites items items.length x :=
    GlobalWrites.upto ⟨i, item, gv, Nat.lt_succ_self i, hi, hgv, hnt, hgvw⟩
  have hs1 := visitGlobalVariables_carries lib (f + 1) items items1 s s1 hp1 i item1 gv1 id
    r1 x hi1 hg1 hnt1 hid hx hr1
    (fun k item' gv' hk hik hg' hnt' hw' => by
      have := hdis i k item item' gv gv' x hi hgv hnt hik hg' hnt' hgvw hw'
      omega)
  -- a storage that writes the symbol is the storage of this global variable
  have hwho : ∀ (k : Nat) (c : LSLASTNode), items1.get? k = some c → c.Writes x → k = i := by
    intro k c hk hcw
    obtain ⟨c0, hk0⟩ := LSLASTNode.get?_of_length_eq hlen1.symm hk
    have hc0w : c0.Writes x := hcw.writes_of_related (hrel1 k c0 c hk0 hk).flip
    have hm0 := LSLASTNode.mem_of_get? hk0
    by_cases hex : ∃ gv', c0.getChild 0 = some gv' ∧ gv'.getNodeType = .NODE_GLOBAL_VARIABLE
    · obtain ⟨gv', hg', hnt'⟩ := hex
      have hw' : gv'.Writes x := LSLASTNode.Writes.of_storage (hplain c0 hm0) hg'
        (fun m c' hm hc' => hinert c0 hm0 gv' hg' hnt' m c' x hm hc') hc0w
      exact hdis k i c0 item gv' gv x hk0 hg' hnt' hi hgv hnt hw' hgvw
    · exact absurd hGx (hsep c0 hm0 (fun gv' hg' hnt' => hex ⟨gv', hg', hnt'⟩) x hc0w)
  have hq1 : q1 x = s1 x := (hstore.2 x (Or.inr hGx)).symm
  refine ⟨hs1, ?_, ?_⟩
  · -- inside the storage of a function
    rintro j itemj σ n hj hno ⟨c, σj, front, hc, hpre, harr⟩
    rw [hj] at hc
    cases hc
    have hnw : ¬ itemj.Writes x := by
      intro hw
      have hji := hwho j itemj hj hw
      subst hji
      rw [hi1] at hj
      cases hj
      exact hno gv1 hg1 hnt1
    obtain ⟨σ', hpre', hsuf⟩ := visitChildren_split items1 s1 q1 items2 j hch
    rw [hpre] at hpre'
    simp only [Except.ok.injEq, Prod.mk.injEq] at hpre'
    obtain ⟨rfl, _⟩ := hpre'
    have hσj : σj x = s1 x := by
      by_cases hij : i < j
      · obtain ⟨_, _, hfr, _⟩ := visitChildren_kept (propagate_kept lib f) (items1.drop j) σj
          q1 (items2.drop j) hsuf
        rw [← hq1]
        refine (hfr x (fun c hm hw => ?_)).symm
        obtain ⟨k, hk⟩ := LSLASTNode.get?_of_mem hm
        rw [List.get?_drop] at hk
        have := hwho (j + k) c hk hw
        omega
      · obtain ⟨_, _, hfr, _⟩ := visitChildren_kept (propagate_kept lib f) (items1.take j) s1
          σj front hpre
        refine hfr x (fun c hm hw => ?_)
        obtain ⟨k, hk⟩ := LSLASTNode.get?_of_mem hm
        have hkj : k < j := by
          by_contra hge
          rw [List.get?_eq_none.mpr (by
            rw [List.length_take]
            omega)] at hk
          cases hk
        rw [List.get?_take hkj] at hk
        have := hwho k c hk hw
        omega
    rw [harr.frame x hnw, hσj]
    exact hs1
  · -- inside a state
    rintro j σ n ⟨c, σj, front, hc, hpre, harr⟩
    have hnw : ¬ c.Writes x :=
      fun hw => hrest c (LSLASTNode.mem_of_get? hc) x hw hGx
    obtain ⟨_, _, hfr, _⟩ := visitChildren_kept (propagate_kept lib (f + 1)) (rest.take j) q1
      σj front hpre
    rw [harr.frame x hnw, hfr x (fun c' hm hw =>
      hrest c' (List.mem_of_mem_take hm) x hw hGx), hq1]
    exact hs1

end TwoRuns

section TwoRuns

open ConstantDeterminingVisitor

theorem Sample.functionBeforeGlobal_distinct :
    GlobalsDistinct [Sample.functionStorage, Sample.globalStorage] := by
  intro i k a b gv gv' y hi hg hnt hk hg' hnt' _ _
  rcases i with _ | _ | i
  · cases hi
    cases hg
    cases hnt
  · rcases k with _ | _ | k
    · cases hk
      cases hg'
      cases hnt'
    · rfl
    · simp at hk
  · simp at hi

theorem Sample.functionBeforeGlobal_states (c : LSLASTNode)
    (hc : c ∈ [LSLASTNode.mk { nodeType := .NODE_AST_NODE_LIST } []]) (y : Nat)
    (hw : c.Writes y) :
    ¬ GlobalWrites [Sample.functionStorage, Sample.globalStorage]
      [Sample.functionStorage, Sample.globalStorage].length y := by
  simp only [List.mem_singleton] at hc
  subst hc
  simp [LSLASTNode.writes_mk_iff] at hw

theorem globals_known_in_bodies_witness :
    Sample.functionBeforeGlobal.All LSLASTNode.ConstantReady
    ∧ Sample.functionBeforeGlobal.height ≤ 8 + 2
    ∧ Sample.functionBeforeGlobal.Scoped (fun x => ¬ Sample.functionBeforeGlobal.Writes x)
    ∧ GlobalsDistinct [Sample.functionStorage, Sample.globalStorage]
    ∧ ∃ (s1 q1 s' : SymbolStore) (items1 items2 rest2 : List LSLASTNode),
      visitGlobalVariables (propagate Library.sample (8 + 1)) Sample.locals
          [Sample.functionStorage, Sample.globalStorage] = .ok (s1, items1)
      ∧ visitChildren (propagate Library.sample 8) s1 items1 = .ok (q1, items2)
      ∧ visitChildren (propagate Library.sample (8 + 1)) q1
          [LSLASTNode.mk { nodeType := .NODE_AST_NODE_LIST } []] = .ok (s', rest2)
      ∧ propagate Library.sample (8 + 2) Sample.locals Sample.functionBeforeGlobal
          = .ok (s', .mk (hookData { nodeType := .NODE_SCRIPT })
              (.mk (hookData { nodeType := .NODE_AST_NODE_LIST }) items2 :: rest2))
      ∧ ∀ (i : Nat) (item1 gv1 id r1 : LSLASTNode) (x : Nat), items1.get? i = some item1 →
          item1.getChild 0 = some gv1 → gv1.getNodeType = .NODE_GLOBAL_VARIABLE →
          gv1.getChild 0 = some id → id.getSymbol = some x → gv1.getChild 1 = some r1 →
          ((s1 x).constantValue = r1.getConstantValue
            ∧ (s1 x).constantPrecluded = r1.getConstantPrecluded)
          ∧ (∀ (j : Nat) (item : LSLASTNode) (σ : SymbolStore) (n : LSLASTNode),
              items1.get? j = some item →
              (∀ gv, item.getChild 0 = some gv → gv.getNodeType ≠ .NODE_GLOBAL_VARIABLE) →
              ArrivesIn Library.sample 8 s1 items1 j σ n →
              (σ x).constantValue = r1.getConstantValue
                ∧ (σ x).constantPrecluded = r1.getConstantPrecluded)
          ∧ ∀ (j : Nat) (σ : SymbolStore) (n : LSLASTNode),
              ArrivesIn Library.sample (8 + 1) q1
                [LSLASTNode.mk { nodeType := .NODE_AST_NODE_LIST } []] j σ n →
              (σ x).constantValue = r1.getConstantValue
                ∧ (σ x).constantPrecluded = r1.getConstantPrecluded :=
  ⟨Sample.functionBeforeGlobal_ready, by decide, Sample.functionBeforeGlobal_scoped,
    Sample.functionBeforeGlobal_distinct,
    globals_known_in_bodies Library.sample 8 Sample.locals { nodeType := .NODE_SCRIPT }
      { nodeType := .NODE_AST_NODE_LIST } [Sample.functionStorage, Sample.globalStorage]
      [LSLASTNode.mk { nodeType := .NODE_AST_NODE_LIST } []] rfl
      Sample.functionBeforeGlobal_ready (by decide) Sample.functionBeforeGlobal_scoped
      Sample.functionBeforeGlobal_distinct Sample.functionBeforeGlobal_states⟩

/-- In the run on the script `f() { integer y = g; } integer g = 1 + 2;` the walk arrives
at the reference to `g` in the body of `f` when the symbol of `g` holds the constant 3,
though `g` is declared after `f`. -/
theorem Sample.functionBeforeGlobal_arrival :
    ∃ (s1 : SymbolStore) (items1 : List LSLASTNode),
      visitGlobalVariables (propagate Library.sample 9) Sample.locals
          [Sample.functionStorage, Sample.globalStorage] = .ok (s1, items1)
      ∧ ∃ σ, ArrivesIn Library.sample 8 s1 items1 0 σ
            (Sample.lvalue .LST_INTEGER "g" (some 0))
          ∧ (σ 0).constantValue = some (.integer 3) := by
  refine ⟨_, _, rfl, ?_⟩
  exact ⟨_, ⟨_, _, _, rfl, rfl,
    .child 7 _ _ _ _ _ _ 1 _ _ rfl rfl rfl
      (.child 6 _ _ _ _ _ _ 2 _ _ rfl rfl rfl
        (.child 5 _ _ _ _ _ _ 0 _ _ rfl rfl rfl
          (.child 4 _ _ _ _ _ _ 1 _ _ rfl rfl rfl (.root 4 _ _))))⟩, rfl⟩

/-- Why the two-run property asks for reads that follow the writes: on a tree in which a
reference stands before the declaration of its symbol the first run leaves the reference
without a constant, and a second run, which finds the constant of the declaration in the
symbol, gives it the constant 1. -/
theorem Sample.readBeforeDeclaration_second_run :
    ∃ r1 r2, propagate Library.sample 6 Sample.locals Sample.readBeforeDeclaration = .ok r1
      ∧ propagate Library.sample 6 r1.1 r1.2 = .ok r2
      ∧ (r1.2.getChild 0).map LSLASTNode.getConstantValue = some none
      ∧ (r2.2.getChild 0).map LSLASTNode.getConstantValue = some (some (.integer 1)) :=
  ⟨_, _, rfl, rfl, rfl, rfl⟩

end TwoRuns

namespace SymbolResolutionVisitor

open BaseSymbolResolutionVisitor

theorem visitSpecific_declaration (legacy : Bool) (fuel : Nat)
    (visitNode : Resolution → Place → LSLASTNode → Except Fault (Resolution × LSLASTNode))
    (st : Resolution) (place : Place) (node : LSLASTNode)
    (hnt : node.getNodeType = .NODE_STATEMENT)
    (hst : node.getNodeSubType = .NODE_DECLARATION) :
    visitSpecific legacy fuel visitNode st place node
      = visitDeclaration visitNode st place node := by
  unfold visitSpecific
  rw [hnt]
  simp only
  rw [hst]

theorem Resolution.defineSymbol_errors (st : Resolution) (scopes : List Nat) (sym : Nat) :
    (st.defineSymbol scopes sym).errors = st.errors := by
  cases scopes <;> rfl

/-- C22: when the walk of the initializer of a declaration returns (or the declaration
has no initializer slot), `visit(LSLDeclaration *)` returns, and what it has reported
after that walk is `E_DECLARATION_INVALID_HERE`, once, when the declaration-allowed flag
of the node is false, and nothing when the flag is true. -/
theorem declaration_invalid_here (legacy : Bool) (fuel : Nat) (st st1 : Resolution)
    (place : Place) (node id : LSLASTNode)
    (hnt : node.getNodeType = .NODE_STATEMENT)
    (hst : node.getNodeSubType = .NODE_DECLARATION)
    (hid : node.getChild 0 = some id)
    (hinit : (node.getChild 1 = none ∧ st1 = st) ∨
      ∃ rvalue rvalue1, node.getChild 1 = some rvalue ∧
        resolve legacy fuel st (initializerPlace place node) rvalue = .ok (st1, rvalue1)) :
    ∃ st2 node2, resolve legacy (fuel + 1) st place node = .ok (st2, node2)
      ∧ st2.errors = st1.errors ++ declarationReports node id
      ∧ (declarationReports node id).length ≤ 1
      ∧ (∀ e ∈ declarationReports node id, e.code = .E_DECLARATION_INVALID_HERE)
      ∧ ((declarationReports node id).length = 1 ↔ node.getDeclarationAllowed = false) := by
  have hv := visitSpecific_declaration legacy fuel (resolve legacy fuel) st place node hnt hst
  have hrep : (declarationReports node id).length ≤ 1
      ∧ (∀ e ∈ declarationReports node id, e.code = .E_DECLARATION_INVALID_HERE)
      ∧ ((declarationReports node id).length = 1 ↔ node.getDeclarationAllowed = false) := by
    unfold declarationReports
    by_cases hf : node.getDeclarationAllowed = false <;> simp [hf]
  have hflag : ∀ (node1 c : LSLASTNode), node1.data = node.data →
      (node1.replaceChild 0 c).data.declarationAllowed = node.getDeclarationAllowed := by
    intro node1 c hd
    obtain ⟨d1, cs1⟩ := node1
    simp only [LSLASTNode.replaceChild, LSLASTNode.data] at hd ⊢
    rw [hd]
    rfl
  have herr : ∀ (sy : LSLSymbol) (node1 : LSLASTNode), node1.data = node.data →
      (if (node1.replaceChild 0 (id.setSymbol (some st1.symbols.length))).data.declarationAllowed
          = false then
        ((st1.newSymbol sy).1.defineSymbol
          ((node1.replaceChild 0 (id.setSymbol (some st1.symbols.length))).scopesFrom
            place.scopes) st1.symbols.length).report .E_DECLARATION_INVALID_HERE id.getName
       else
        (st1.newSymbol sy).1.defineSymbol
          ((node1.replaceChild 0 (id.setSymbol (some st1.symbols.length))).scopesFrom
            place.scopes) st1.symbols.length).errors
        = st1.errors ++ declarationReports node id := by
    intro sy node1 hd
    rw [hflag node1 _ hd]
    unfold declarationReports
    by_cases hf : node.getDeclarationAllowed = false
    · simp only [hf, if_true]
      simp [Resolution.report, Resolution.defineSymbol_errors, Resolution.newSymbol]
    · simp only [hf, if_false]
      simp [Resolution.defineSymbol_errors, Resolution.newSymbol]
  obtain ⟨sy, hsy⟩ : ∃ sy : LSLSymbol, sy =
      { name := id.getName, type := id.getType, symbolType := .SYM_VARIABLE,
        subType := .SYM_LOCAL } := ⟨_, rfl⟩
  have hfin : ∀ (node1 : LSLASTNode), node1.data = node.data →
      visitDeclaration (resolve legacy fuel) st place node = .ok
        (if (node1.replaceChild 0 (id.setSymbol (some st1.symbols.length))).data.declarationAllowed
            = false then
          ((st1.newSymbol sy).1.defineSymbol
            ((node1.replaceChild 0 (id.setSymbol (some st1.symbols.length))).scopesFrom
              place.scopes) st1.symbols.length).report .E_DECLARATION_INVALID_HERE id.getName
         else
          (st1.newSymbol sy).1.defineSymbol
            ((node1.replaceChild 0 (id.setSymbol (some st1.symbols.length))).scopesFrom
              place.scopes) st1.symbols.length,
         node1.replaceChild 0 (id.setSymbol (some st1.symbols.length)), false) →
      ∃ st2 node2, resolve legacy (fuel + 1) st place node = .ok (st2, node2)
        ∧ st2.errors = st1.errors ++ declarationReports node id
        ∧ (declarationReports node id).length ≤ 1
        ∧ (∀ e ∈ declarationReports node id, e.code = .E_DECLARATION_INVALID_HERE)
        ∧ ((declarationReports node id).length = 1 ↔ node.getDeclarationAllowed = false) := by
    intro node1 hd hvd
    refine ⟨_, node1.replaceChild 0 (id.setSymbol (some st1.symbols.length)), ?_,
      herr sy node1 hd, hrep⟩
    simp only [resolve, hv, hvd, Bool.false_eq_true, if_false]
  rcases hinit with ⟨hnone, rfl⟩ | ⟨rvalue, rvalue1, hrv, hrun⟩
  · refine hfin node rfl ?_
    simp only [visitDeclaration, hnone, hid]
    rw [hsy]
    rfl
  · have hid1 : (node.replaceChild 1 rvalue1).getChild 0 = some id := by
      rw [LSLASTNode.getChild_replaceChild_ne node _ (by decide)]; exact hid
    have hrun' : resolve legacy fuel st
        { scopes := node.scopesFrom place.scopes,
          root := some (place.root.getD (node.scopesFrom place.scopes)),
          path := place.path ++ [1] } rvalue = .ok (st1, rvalue1) := hrun
    refine hfin (node.replaceChild 1 rvalue1) (by obtain ⟨d, cs⟩ := node; rfl) ?_
    simp only [visitDeclaration, hrv, hrun', hid1]
    rw [hsy]
    rfl

/-- C22 on the declaration `string foo = foo;` with the flag cleared. -/
theorem declaration_invalid_here_witness :
    Sample.fooNotAllowed.getNodeType = .NODE_STATEMENT
    ∧ Sample.fooNotAllowed.getNodeSubType = .NODE_DECLARATION
    ∧ Sample.fooNotAllowed.getChild 0 = some (Sample.identifier .LST_STRING "foo" none)
    ∧ Sample.fooNotAllowed.getDeclarationAllowed = false
    ∧ ∃ st2 node2, resolve false (2 + 1) Sample.emptyScopes { scopes := [1, 0] }
          Sample.fooNotAllowed = .ok (st2, node2)
      ∧ st2.errors = (Sample.emptyScopes.report .E_UNDECLARED "foo").errors ++
          declarationReports Sample.fooNotAllowed (Sample.identifier .LST_STRING "foo" none)
      ∧ (declarationReports Sample.fooNotAllowed
          (Sample.identifier .LST_STRING "foo" none)).length ≤ 1
      ∧ (∀ e ∈ declarationReports Sample.fooNotAllowed
          (Sample.identifier .LST_STRING "foo" none), e.code = .E_DECLARATION_INVALID_HERE)
      ∧ ((declarationReports Sample.fooNotAllowed
          (Sample.identifier .LST_STRING "foo" none)).length = 1
        ↔ Sample.fooNotAllowed.getDeclarationAllowed = false) :=
  ⟨rfl, rfl, rfl, rfl,
    declaration_invalid_here false 2 Sample.emptyScopes
      (Sample.emptyScopes.report .E_UNDECLARED "foo") { scopes := [1, 0] }
      Sample.fooNotAllowed (Sample.identifier .LST_STRING "foo" none) rfl rfl rfl
      (Or.inr ⟨Sample.lvalue .LST_STRING "foo" none, _, rfl, rfl⟩)⟩

/-- On `string foo = foo;` with the flag cleared the visit reports the undeclared
reference of the initializer and then, once, the misplaced declaration; with the flag
set, the undeclared reference only. -/
theorem Sample.fooNotAllowed_errors :
    (∃ st2 node2, resolve false 3 Sample.emptyScopes { scopes := [1, 0] }
        Sample.fooNotAllowed = .ok (st2, node2)
      ∧ st2.errors = [{ code := .E_UNDECLARED, name := "foo" },
          { code := .E_DECLARATION_INVALID_HERE, name := "foo" }]) ∧
    (∃ st2 node2, resolve false 3 Sample.emptyScopes { scopes := [1, 0] }
        (Sample.fooFromFoo .NODE_STATEMENT) = .ok (st2, node2)
      ∧ st2.errors = [{ code := .E_UNDECLARED, name := "foo" }]) :=
  ⟨⟨_, _, rfl, rfl⟩, ⟨_, _, rfl, rfl⟩⟩

end SymbolResolutionVisitor

namespace Sling

theorem allret_all_get? : ∀ (cs : List LSLASTNode) (i : Nat),
    (allret.all cs).get? i = (cs.get? i).map allret := by
  intro cs
  induction cs with
  | nil => intro i; simp [allret.all]
  | cons c cs ih =>
    intro i
    cases i with
    | zero => simp [allret.all]
    | succ i => simpa [allret.all] using ih i

theorem allret_all_mem (cs : List LSLASTNode) :
    true ∈ allret.all cs ↔ ∃ c ∈ cs, allret c = true := by
  induction cs with
  | nil => simp [allret.all]
  | cons c cs ih =>
    simp only [allret.all, List.mem_cons, ih, exists_eq_or_imp]
    constructor
    · rintro (h | h)
      · exact Or.inl h.symm
      · exact Or.inr h
    · rintro (h | h)
      · exact Or.inl h.symm
      · exact Or.inr h

theorem foldl_or_true (l : List Bool) : ∀ (b : Bool),
    l.foldl (fun ret r => ret || r) b = true ↔ b = true ∨ true ∈ l := by
  induction l with
  | nil => intro b; simp
  | cons a l ih =>
    intro b
    rw [List.foldl_cons, ih]
    cases a <;> cases b <;> simp

theorem allret_return (p : LSLASTNode) (hnt : p.getNodeType = .NODE_STATEMENT)
    (hst : p.getNodeSubType = .NODE_RETURN_STATEMENT) : allret p = true := by
  obtain ⟨d, cs⟩ := p
  have h1 : d.nodeType = .NODE_STATEMENT := hnt
  have h2 : d.subType = .NODE_RETURN_STATEMENT := hst
  simp [allret, h1, h2]

theorem allret_if (p : LSLASTNode) (hnt : p.getNodeType = .NODE_STATEMENT)
    (hst : p.getNodeSubType = .NODE_IF_STATEMENT) :
    allret p = (((p.getChild 1).map allret).getD false
      && ((p.getChild 2).map allret).getD false) := by
  obtain ⟨d, cs⟩ := p
  have h1 : d.nodeType = .NODE_STATEMENT := hnt
  have h2 : d.subType = .NODE_IF_STATEMENT := hst
  simp only [allret, h1, h2, allret_all_get?, LSLASTNode.getChild, LSLASTNode.children]
  simp

theorem allret_compound (p : LSLASTNode) (hnt : p.getNodeType = .NODE_STATEMENT)
    (hst : p.getNodeSubType = .NODE_COMPOUND_STATEMENT) :
    allret p = true ↔ ∃ q ∈ p.children, allret q = true := by
  obtain ⟨d, cs⟩ := p
  have h1 : d.nodeType = .NODE_STATEMENT := hnt
  have h2 : d.subType = .NODE_COMPOUND_STATEMENT := hst
  simp only [allret, h1, h2, LSLASTNode.children]
  simp only [true_and, reduceCtorEq, if_false, if_true, foldl_or_true, allret_all_mem]
  simp

theorem allret_other (p : LSLASTNode)
    (h : p.getNodeType ≠ .NODE_STATEMENT ∨
      (p.getNodeSubType ≠ .NODE_RETURN_STATEMENT ∧ p.getNodeSubType ≠ .NODE_IF_STATEMENT
        ∧ p.getNodeSubType ≠ .NODE_COMPOUND_STATEMENT)) : allret p = false := by
  obtain ⟨d, cs⟩ := p
  simp only [LSLASTNode.getNodeType, LSLASTNode.getNodeSubType, LSLASTNode.data] at h
  simp only [allret]
  rcases h with h | ⟨h1, h2, h3⟩
  · simp [h]
  · simp [h1, h2, h3]

end Sling

namespace Sling

/-- C28: `allret(p)` is true exactly when `p` is a return statement, or an if statement
whose children 1 and 2 (the then-branch and the else-branch) both exist and both satisfy
`allret`, or a compound statement one of whose children satisfies `allret`. It is false
on every other node: on a loop whatever its body, and on an if statement whose else-branch
is missing or is the null placeholder. -/
theorem allret_iff (p : LSLASTNode) :
    (allret p = true ↔
      (p.getNodeType = .NODE_STATEMENT ∧ p.getNodeSubType = .NODE_RETURN_STATEMENT)
      ∨ (p.getNodeType = .NODE_STATEMENT ∧ p.getNodeSubType = .NODE_IF_STATEMENT
          ∧ ∃ t e, p.getChild 1 = some t ∧ p.getChild 2 = some e
            ∧ allret t = true ∧ allret e = true)
      ∨ (p.getNodeType = .NODE_STATEMENT ∧ p.getNodeSubType = .NODE_COMPOUND_STATEMENT
          ∧ ∃ q ∈ p.children, allret q = true))
    ∧ ((p.getNodeSubType = .NODE_FOR_STATEMENT ∨ p.getNodeSubType = .NODE_DO_STATEMENT
          ∨ p.getNodeSubType = .NODE_WHILE_STATEMENT) → allret p = false)
    ∧ (p.getNodeType = .NODE_STATEMENT → p.getNodeSubType = .NODE_IF_STATEMENT →
        (p.getChild 2 = none ∨ ∃ e, p.getChild 2 = some e ∧ e.getNodeType = .NODE_NULL) →
        allret p = false) := by
  refine ⟨?_, ?_, ?_⟩
  · by_cases hnt : p.getNodeType = .NODE_STATEMENT
    · by_cases hr : p.getNodeSubType = .NODE_RETURN_STATEMENT
      · simp [allret_return p hnt hr, hnt, hr]
      · by_cases hi : p.getNodeSubType = .NODE_IF_STATEMENT
        · rw [allret_if p hnt hi]
          simp only [hnt, hi, true_and, reduceCtorEq, false_and, or_false, false_or]
          cases h1 : p.getChild 1 <;> cases h2 : p.getChild 2 <;> simp
        · by_cases hc : p.getNodeSubType = .NODE_COMPOUND_STATEMENT
          · rw [allret_compound p hnt hc]
            simp [hnt, hc]
          · rw [allret_other p (Or.inr ⟨hr, hi, hc⟩)]
            simp [hr, hi, hc]
    · rw [allret_other p (Or.inl hnt)]
      simp [hnt]
  · intro h
    refine allret_other p (Or.inr ?_)
    rcases h with h | h | h <;> rw [h] <;> decide
  · intro hnt hi h
    rw [allret_if p hnt hi]
    rcases h with h | ⟨e, h, he⟩
    · simp [h]
    · have hf := allret_other e (Or.inl (by rw [he]; decide))
      simp [h, hf]

end Sling

namespace Sling

/-- C29 (counterexample): the function `integer f() { if (1) return 1; }` does not pass the all-paths-return
analysis: its check reports `E_NOT_ALL_PATHS_RETURN`, and the walk of the final checks
over the function reports it and then `W_CONDITION_ALWAYS_TRUE` for the condition. -/
theorem returnsInIf_not_all_paths :
    allret Sample.ifOneReturn = false
    ∧ LLScriptGlobalFunction.final_pre_checks Sample.env Sample.returnsInIf
        = .ok (Sample.returnsInIf, [{ code := .E_NOT_ALL_PATHS_RETURN }])
    ∧ ∃ node1, LLASTNode.final_pre_walk Sample.env 6 [] 0 Sample.returnsInIf
        = .ok (node1, [{ code := .E_NOT_ALL_PATHS_RETURN },
            { code := .W_CONDITION_ALWAYS_TRUE }]) :=
  ⟨rfl, rfl, _, rfl⟩

/-- C29 (amended): the check of a global function that has an identifier and a body
returns; after what the resolution of an unresolved identifier reports it reports
`E_NOT_ALL_PATHS_RETURN`, once, exactly when the identifier then has a symbol whose type is
not void and `allret` fails on the body, and nothing otherwise. The constant of a condition
is not consulted: for `integer f() { if (1) return 1; }` the error is reported. -/
theorem not_all_paths_return_iff (env : Env) (node id statement : LSLASTNode)
    (hid : node.getChild 0 = some id) (hbody : node.getChild 2 = some statement) :
    (∃ reports, LLScriptGlobalFunction.final_pre_checks env node
        = .ok (node.replaceChild 0 (resolveIfUnresolved env id .SYM_FUNCTION).1,
            (resolveIfUnresolved env id .SYM_FUNCTION).2 ++ reports)
      ∧ (reports = [{ code := .E_NOT_ALL_PATHS_RETURN }] ∨ reports = [])
      ∧ (reports = [{ code := .E_NOT_ALL_PATHS_RETURN }] ↔
          ∃ sym, (resolveIfUnresolved env id .SYM_FUNCTION).1.getSymbol = some sym
            ∧ (env.symbols sym).type ≠ .LST_NULL ∧ allret statement = false))
    ∧ LLScriptGlobalFunction.final_pre_checks Sample.env Sample.returnsInIf
        = .ok (Sample.returnsInIf, [{ code := .E_NOT_ALL_PATHS_RETURN }]) := by
  refine ⟨?_, rfl⟩
  rcases hr : resolveIfUnresolved env id .SYM_FUNCTION with ⟨id1, resolved⟩
  simp only []
  cases hs : id1.getSymbol with
  | none =>
    refine ⟨[], ?_, Or.inr rfl, by simp⟩
    simp only [LLScriptGlobalFunction.final_pre_checks, hid, hr, hs, List.append_nil]
  | some sym =>
    by_cases ht : (env.symbols sym).type = .LST_NULL
    · refine ⟨[], ?_, Or.inr rfl, by simp [ht]⟩
      simp only [LLScriptGlobalFunction.final_pre_checks, hid, hr, hs, ht, ne_eq,
        not_true_eq_false, if_false, List.append_nil]
    · by_cases ha : allret statement = false
      · refine ⟨[{ code := .E_NOT_ALL_PATHS_RETURN }], ?_, Or.inl rfl, by simp [ht, ha]⟩
        simp only [LLScriptGlobalFunction.final_pre_checks, hid, hr, hs, ht, ne_eq,
          not_false_eq_true, if_true, hbody, ha]
      · refine ⟨[], ?_, Or.inr rfl, by simp [ha]⟩
        simp only [LLScriptGlobalFunction.final_pre_checks, hid, hr, hs, ht, ne_eq,
          not_false_eq_true, if_true, hbody, ha, if_false, List.append_nil]
        simp

/-- C29 on the function `integer f() { if (1) return 1; }`. -/
theorem not_all_paths_return_iff_witness :
    Sample.returnsInIf.getChild 0 = some (Sample.identifier .LST_INTEGER "f" (some 0))
    ∧ Sample.returnsInIf.getChild 2
        = some (.mk { nodeType := .NODE_STATEMENT, subType := .NODE_COMPOUND_STATEMENT }
            [Sample.ifOneReturn])
    ∧ (∃ reports, LLScriptGlobalFunction.final_pre_checks Sample.env Sample.returnsInIf
        = .ok (Sample.returnsInIf.replaceChild 0 (resolveIfUnresolved Sample.env
              (Sample.identifier .LST_INTEGER "f" (some 0)) .SYM_FUNCTION).1,
            (resolveIfUnresolved Sample.env
              (Sample.identifier .LST_INTEGER "f" (some 0)) .SYM_FUNCTION).2 ++ reports)
      ∧ (reports = [{ code := .E_NOT_ALL_PATHS_RETURN }] ∨ reports = [])
      ∧ (reports = [{ code := .E_NOT_ALL_PATHS_RETURN }] ↔
          ∃ sym, (resolveIfUnresolved Sample.env
              (Sample.identifier .LST_INTEGER "f" (some 0)) .SYM_FUNCTION).1.getSymbol
                = some sym
            ∧ (Sample.env.symbols sym).type ≠ .LST_NULL
            ∧ allret (.mk { nodeType := .NODE_STATEMENT, subType := .NODE_COMPOUND_STATEMENT }
                [Sample.ifOneReturn]) = false)) :=
  ⟨rfl, rfl, (not_all_paths_return_iff Sample.env Sample.returnsInIf
    (Sample.identifier .LST_INTEGER "f" (some 0))
    (.mk { nodeType := .NODE_STATEMENT, subType := .NODE_COMPOUND_STATEMENT }
      [Sample.ifOneReturn]) rfl rfl).1⟩

end Sling

namespace Sling

end Sling

namespace Sling

/-- The five outcomes on handlers of `touch_start`, whose prototype has one integer
parameter: an unknown name, a float parameter, two parameters, no parameter, and one
integer parameter. -/
theorem Sample.touchStart_outcomes :
    (LLScriptEventHandler.final_pre_checks Sample.env [] 0
        (Sample.touchStart false [.LST_INTEGER])).map Prod.snd
      = .ok [{ code := .E_UNDECLARED, name := "touch_start" },
             { code := .E_INVALID_EVENT, name := "touch_start" }]
    ∧ (LLScriptEventHandler.final_pre_checks Sample.env [] 0
        (Sample.touchStart true [.LST_FLOATINGPOINT, .LST_INTEGER])).map Prod.snd
      = .ok [{ code := .E_ARGUMENT_WRONG_TYPE_EVENT, name := "touch_start", param_num := 1 }]
    ∧ (LLScriptEventHandler.final_pre_checks Sample.env [] 0
        (Sample.touchStart true [.LST_INTEGER, .LST_FLOATINGPOINT])).map Prod.snd
      = .ok [{ code := .E_TOO_MANY_ARGUMENTS_EVENT, name := "touch_start" }]
    ∧ (LLScriptEventHandler.final_pre_checks Sample.env [] 0
        (Sample.touchStart true [])).map Prod.snd
      = .ok [{ code := .E_TOO_FEW_ARGUMENTS_EVENT, name := "touch_start" }]
    ∧ (LLScriptEventHandler.final_pre_checks Sample.env [] 0
        (Sample.touchStart true [.LST_INTEGER])).map Prod.snd = .ok [] :=
  ⟨rfl, rfl, rfl, rfl, rfl⟩

end Sling

section Jumps

theorem Path.apart_comm (p q : List Nat) : Path.apart p q = Path.apart q p := by
  simp [Path.apart, Bool.and_comm]

theorem Path.apart_cons_cons (i j : Nat) (p q : List Nat)
    (h : Path.apart (i :: p) (j :: q) = true) : i ≠ j ∨ (i = j ∧ Path.apart p q = true) := by
  by_cases hij : i = j
  · subst hij
    right
    refine ⟨rfl, ?_⟩
    simpa [Path.apart, Path.below] using h
  · exact Or.inl hij

theorem Path.apart_nil_left (q : List Nat) : Path.apart [] q = false := by
  simp [Path.apart, Path.below]

theorem Path.apart_nil_right (p : List Nat) : Path.apart p [] = false := by
  rw [Path.apart_comm]; exact Path.apart_nil_left p

theorem LSLASTNode.nodeAt_cons (t : LSLASTNode) (i : Nat) (rest : List Nat) :
    t.nodeAt (i :: rest) = (t.getChild i).bind (fun c => c.nodeAt rest) := by
  simp only [LSLASTNode.nodeAt]
  cases t.getChild i <;> rfl

theorem LSLASTNode.nodeAt_setAt_self : ∀ (p : List Nat) (t r : LSLASTNode),
    (t.nodeAt p).isSome = true → (t.setAt p r).nodeAt p = some r := by
  intro p
  induction p with
  | nil => intro t r _; rfl
  | cons i rest ih =>
    intro t r h
    rw [LSLASTNode.nodeAt_cons] at h
    cases hc : t.getChild i with
    | none => rw [hc] at h; cases h
    | some c =>
      rw [hc] at h
      simp only [LSLASTNode.setAt, hc]
      rw [LSLASTNode.nodeAt_cons, LSLASTNode.getChild_replaceChild_self t _ hc]
      exact ih c r h

theorem LSLASTNode.nodeAt_setAt_apart : ∀ (p q : List Nat) (t r : LSLASTNode),
    Path.apart p q = true → (t.setAt p r).nodeAt q = t.nodeAt q := by
  intro p
  induction p with
  | nil => intro q t r h; rw [Path.apart_nil_left] at h; cases h
  | cons i rest ih =>
    intro q t r h
    cases q with
    | nil => rw [Path.apart_nil_right] at h; cases h
    | cons j q =>
      simp only [LSLASTNode.setAt]
      cases hc : t.getChild i with
      | none => rfl
      | some c =>
        simp only []
        rw [LSLASTNode.nodeAt_cons, LSLASTNode.nodeAt_cons]
        rcases Path.apart_cons_cons i j rest q h with hne | ⟨rfl, hap⟩
        · rw [LSLASTNode.getChild_replaceChild_ne t _ hne]
        · rw [LSLASTNode.getChild_replaceChild_self t _ hc, hc]
          exact ih q c r hap

theorem LSLASTNode.replaceChild_replaceChild (t a b : LSLASTNode) (i : Nat) :
    (t.replaceChild i a).replaceChild i b = t.replaceChild i b := by
  obtain ⟨d, cs⟩ := t
  simp [LSLASTNode.replaceChild, LSLASTNode.data, LSLASTNode.children]

theorem LSLASTNode.setAt_setAt : ∀ (p : List Nat) (t r r0 : LSLASTNode),
    (t.setAt p r).setAt p r0 = t.setAt p r0 := by
  intro p
  induction p with
  | nil => intro t r r0; rfl
  | cons i rest ih =>
    intro t r r0
    cases hc : t.getChild i with
    | none => simp only [LSLASTNode.setAt, hc]
    | some c =>
      simp only [LSLASTNode.setAt, hc, LSLASTNode.getChild_replaceChild_self t _ hc,
        LSLASTNode.replaceChild_replaceChild, ih]

namespace Resolution

theorem lookupInTable_congr {st st0 : Resolution} (hs : st0.symbols = st.symbols)
    (ht : st0.tables = st.tables) (table : Nat) (name : String) (type : LSLSymbolType) :
    st0.lookupInTable table name type = st.lookupInTable table name type := by
  simp only [lookupInTable, hs, ht]

theorem lookupSymbol_congr {st st0 : Resolution} (hs : st0.symbols = st.symbols)
    (ht : st0.tables = st.tables) (scopes : List Nat) (name : String) (type : LSLSymbolType) :
    st0.lookupSymbol scopes name type = st.lookupSymbol scopes name type := by
  simp only [lookupSymbol, lookupInTable_congr hs ht]

end Resolution

namespace SymbolResolutionVisitor

theorem findLabel_eq (st : Resolution) (body : LSLASTNode) (name : String) :
    ∀ (refs : List IdentifierRef),
      findLabel st body name refs
        = ((refs.filterMap (symbolAt body)).filter (isLabelNamed st name)).head? := by
  intro refs
  induction refs with
  | nil => rfl
  | cons label rest ih =>
    cases hc : symbolAt body label with
    | none =>
      have h1 : findLabel st body name (label :: rest) = findLabel st body name rest := by
        have hc0 : (body.nodeAt label.path).bind LSLASTNode.getSymbol = none := hc
        simp only [findLabel, hc0]
      rw [h1, ih, List.filterMap_cons, hc]
    | some cand =>
      have hc0 : (body.nodeAt label.path).bind LSLASTNode.getSymbol = some cand := hc
      rw [List.filterMap_cons, hc]
      simp only [List.filter_cons]
      cases hs : st.symbols.get? cand with
      | none =>
        have h1 : findLabel st body name (label :: rest) = findLabel st body name rest := by
          simp only [findLabel, hc0, hs]
        have hl : isLabelNamed st name cand = false := by simp only [isLabelNamed, hs]
        rw [h1, ih, hl]
        simp
      | some cand_sym =>
        by_cases hm : cand_sym.symbolType = .SYM_LABEL ∧ cand_sym.name = name
        · have h1 : findLabel st body name (label :: rest) = some cand := by
            simp only [findLabel, hc0, hs, hm, and_self, if_true]
          have hl : isLabelNamed st name cand = true := by
            simp only [isLabelNamed, hs]
            simpa using hm
          rw [h1, hl]
          simp
        · have h1 : findLabel st body name (label :: rest) = findLabel st body name rest := by
            simp only [findLabel, hc0, hs, hm, if_false]
          have hl : isLabelNamed st name cand = false := by
            simp only [isLabelNamed, hs]
            simpa using hm
          rw [h1, ih, hl]
          simp

theorem findLabel_reverse (st : Resolution) (body : LSLASTNode) (name : String)
    (labels : List IdentifierRef) :
    findLabel st body name labels.reverse = (labelsNamed st body name labels).getLast? := by
  rw [findLabel_eq, List.filterMap_reverse, List.filter_reverse, List.head?_reverse]
  rfl

theorem isLabelNamed_congr {st st0 : Resolution} (hs : st0.symbols = st.symbols)
    (name : String) : isLabelNamed st0 name = isLabelNamed st name := by
  funext cand
  simp only [isLabelNamed, hs]

theorem symbolAt_setAt_apart (body r : LSLASTNode) (p : List Nat) (ref : IdentifierRef)
    (h : Path.apart p ref.path = true) : symbolAt (body.setAt p r) ref = symbolAt body ref := by
  simp only [symbolAt, LSLASTNode.nodeAt_setAt_apart p ref.path body r h]

end SymbolResolutionVisitor

end Jumps

section Jumps

namespace SymbolResolutionVisitor

theorem labelsNamed_setAt (st : Resolution) (body r : LSLASTNode) (p : List Nat) (name : String)
    (labels : List IdentifierRef) (h : ∀ l ∈ labels, Path.apart p l.path = true) :
    labelsNamed st (body.setAt p r) name labels = labelsNamed st body name labels := by
  unfold labelsNamed
  rw [List.filterMap_congr (fun l hl => symbolAt_setAt_apart body r p l (h l hl))]

theorem Resolution.errors_append_nil (st : Resolution) :
    { st with errors := st.errors ++ [] } = st := by
  cases st
  simp

theorem LSLASTNode.setSymbol_setSymbol (n : LSLASTNode) (a b : Option Nat) :
    (n.setSymbol a).setSymbol b = n.setSymbol b := rfl

theorem LSLASTNode.getSymbol_setSymbol (n : LSLASTNode) (a : Option Nat) :
    (n.setSymbol a).getSymbol = a := rfl

theorem lexicalLabel_of (st : Resolution) (body : LSLASTNode) (jump : IdentifierRef)
    (id : LSLASTNode) (hid : body.nodeAt jump.path = some id) :
    lexicalLabel st body jump = st.lookupSymbol jump.scopes id.getName .SYM_LABEL := by
  simp only [lexicalLabel, hid, Option.some_bind]

theorem legacyLabel_of (st : Resolution) (body : LSLASTNode) (labels : List IdentifierRef)
    (jump : IdentifierRef) (orig : Nat) (orig_sym : LSLSymbol)
    (h1 : lexicalLabel st body jump = some orig) (h2 : st.symbols.get? orig = some orig_sym) :
    legacyLabel st body labels jump = (labelsNamed st body orig_sym.name labels).getLast? := by
  simp only [legacyLabel, h1, Option.some_bind, h2]

theorem legacyLabel_untracked (st : Resolution) (body : LSLASTNode)
    (labels : List IdentifierRef) (jump : IdentifierRef) (orig : Nat)
    (h1 : lexicalLabel st body jump = some orig) (h2 : st.symbols.get? orig = none) :
    legacyLabel st body labels jump = none := by
  simp only [legacyLabel, h1, Option.some_bind, h2, Option.none_bind]

/-- One turn of the first loop of `resolvePendingJumps`. -/
theorem resolveJumps_cons (legacy : Bool) (labels : List IdentifierRef) (st : Resolution)
    (body : LSLASTNode) (jump : IdentifierRef) (rest : List IdentifierRef) (id : LSLASTNode)
    (hid : body.nodeAt jump.path = some id)
    (hlab : ∀ l ∈ labels, Path.apart jump.path l.path = true)
    (hassert : legacy = true → ∀ orig, lexicalLabel st body jump = some orig →
      (legacyLabel st body labels jump).isSome = true) :
    resolveJumps legacy labels st body (jump :: rest) =
      resolveJumps legacy labels
        { st with errors := st.errors ++ jumpReports legacy st body labels jump }
        (body.setAt jump.path (resolvedJump legacy st body labels jump id)) rest := by
  have hlex := lexicalLabel_of st body jump id hid
  cases hl : st.lookupSymbol jump.scopes id.getName .SYM_LABEL with
  | none =>
    rw [hl] at hlex
    have hrep : jumpReports legacy st body labels jump
        = [{ code := .E_UNDECLARED, name := id.getName }] := by
      simp only [jumpReports, hid, hlex]
    have hres : resolvedJump legacy st body labels jump id
        = (id.setSymbol none).setType .LST_ERROR := by
      simp only [resolvedJump, hlex]
    rw [hrep, hres]
    cases legacy with
    | false =>
      simp only [resolveJumps, hid, Resolution.resolveSymbol, hl, if_true]
      rfl
    | true =>
      simp only [resolveJumps, hid, Resolution.resolveSymbol, hl, Bool.true_eq_false, if_false]
      rfl
  | some orig =>
    rw [hl] at hlex
    cases legacy with
    | false =>
      have hrep : jumpReports false st body labels jump = [] := by
        simp [jumpReports, hid, hlex]
      have hres : resolvedJump false st body labels jump id = id.setSymbol (some orig) := by
        simp [resolvedJump, hlex]
      rw [hrep, hres, Resolution.errors_append_nil]
      simp only [resolveJumps, hid, Resolution.resolveSymbol, hl, if_true]
    | true =>
      have hsome := hassert rfl orig hlex
      cases hos : st.symbols.get? orig with
      | none =>
        rw [legacyLabel_untracked st body labels jump orig hlex hos] at hsome
        cases hsome
      | some orig_sym =>
        cases ht : (labelsNamed st body orig_sym.name labels).getLast? with
        | none =>
          rw [legacyLabel_of st body labels jump orig orig_sym hlex hos, ht] at hsome
          cases hsome
        | some target =>
          have hleg : legacyLabel st body labels jump = some target := by
            rw [legacyLabel_of st body labels jump orig orig_sym hlex hos, ht]
          have hfind : findLabel st (body.setAt jump.path (id.setSymbol (some orig)))
              orig_sym.name labels.reverse = some target := by
            rw [findLabel_reverse, labelsNamed_setAt st body _ jump.path _ labels hlab, ht]
          have hres : resolvedJump true st body labels jump id
              = id.setSymbol (some target) := by
            simp [resolvedJump, hlex, hleg]
          rw [hres]
          by_cases hne : target = orig
          · have hrep : jumpReports true st body labels jump = [] := by
              simp [jumpReports, hid, hlex, hleg, hne]
            rw [hrep, Resolution.errors_append_nil]
            simp only [resolveJumps, hid, Resolution.resolveSymbol, hl, Bool.true_eq_false,
              if_false, LSLASTNode.getSymbol_setSymbol, hos, hfind, ne_eq, hne,
              not_true_eq_false, LSLASTNode.setAt_setAt, LSLASTNode.setSymbol_setSymbol]
          · have hrep : jumpReports true st body labels jump
                = [{ code := .W_JUMP_TO_WRONG_LABEL, name := orig_sym.name }] := by
              simp only [jumpReports, hid, hlex, hleg, hos, Option.map_some', Option.getD_some,
                ne_eq, Option.some.injEq, hne, not_false_eq_true, and_self, if_true]
            rw [hrep]
            simp only [resolveJumps, hid, Resolution.resolveSymbol, hl, Bool.true_eq_false,
              if_false, LSLASTNode.getSymbol_setSymbol, hos, hfind, ne_eq, hne,
              not_false_eq_true, if_true, LSLASTNode.setAt_setAt,
              LSLASTNode.setSymbol_setSymbol]
            rfl

end SymbolResolutionVisitor

end Jumps

section Jumps

namespace SymbolResolutionVisitor

/-- What the outcome of a pending jump depends on. -/
theorem jump_congr (legacy : Bool) (labels : List IdentifierRef) (st st0 : Resolution)
    (body body0 : LSLASTNode) (jump : IdentifierRef)
    (hs : st0.symbols = st.symbols) (ht : st0.tables = st.tables)
    (hj : body0.nodeAt jump.path = body.nodeAt jump.path)
    (hl : ∀ l ∈ labels, symbolAt body0 l = symbolAt body l) :
    lexicalLabel st0 body0 jump = lexicalLabel st body jump
    ∧ legacyLabel st0 body0 labels jump = legacyLabel st body labels jump
    ∧ jumpReports legacy st0 body0 labels jump = jumpReports legacy st body labels jump
    ∧ ∀ id, resolvedJump legacy st0 body0 labels jump id
        = resolvedJump legacy st body labels jump id := by
  have h1 : lexicalLabel st0 body0 jump = lexicalLabel st body jump := by
    simp only [lexicalLabel, hj, Resolution.lookupSymbol_congr hs ht]
  have hn : ∀ name, labelsNamed st0 body0 name labels = labelsNamed st body name labels := by
    intro name
    simp only [labelsNamed, isLabelNamed_congr hs, List.filterMap_congr hl]
  have h2 : legacyLabel st0 body0 labels jump = legacyLabel st body labels jump := by
    simp only [legacyLabel, h1, hs, hn]
  refine ⟨h1, h2, ?_, fun id => ?_⟩
  · simp only [jumpReports, hj, h1, h2, hs]
  · simp only [resolvedJump, h1, h2]

/-- The first loop of `resolvePendingJumps`: what it reports and what it leaves of each
pending jump. -/
theorem resolveJumps_outcome (legacy : Bool) (labels : List IdentifierRef) :
    ∀ (jumps : List IdentifierRef) (st : Resolution) (body : LSLASTNode),
      (∀ j ∈ jumps, (body.nodeAt j.path).isSome = true) →
      jumps.Pairwise (fun a b => Path.apart a.path b.path = true) →
      (∀ l ∈ labels, ∀ j ∈ jumps, Path.apart j.path l.path = true) →
      (legacy = true → ∀ j ∈ jumps, ∀ orig, lexicalLabel st body j = some orig →
        (legacyLabel st body labels j).isSome = true) →
      ∃ body1, resolveJumps legacy labels st body jumps = .ok
          ({ st with errors := st.errors ++ jumps.flatMap (jumpReports legacy st body labels) },
            body1)
        ∧ (∀ q, (∀ j ∈ jumps, Path.apart j.path q = true) → body1.nodeAt q = body.nodeAt q)
        ∧ ∀ j ∈ jumps, ∀ id, body.nodeAt j.path = some id →
            body1.nodeAt j.path = some (resolvedJump legacy st body labels j id) := by
  intro jumps
  induction jumps with
  | nil =>
    intro st body _ _ _ _
    refine ⟨body, ?_, fun _ _ => rfl, fun j hj => by cases hj⟩
    simp only [resolveJumps, List.flatMap_nil, Resolution.errors_append_nil]
  | cons j rest ih =>
    intro st body hvalid hpair hlab hassert
    obtain ⟨hjr, hrest⟩ := List.pairwise_cons.mp hpair
    cases hid : body.nodeAt j.path with
    | none =>
      have := hvalid j (List.mem_cons_self _ _)
      rw [hid] at this
      cases this
    | some id =>
    have hstep := resolveJumps_cons legacy labels st body j rest id hid
      (fun l hl => hlab l hl j (List.mem_cons_self _ _))
      (fun hleg => hassert hleg j (List.mem_cons_self _ _))
    have hcongr : ∀ k ∈ rest,
        lexicalLabel { st with errors := st.errors ++ jumpReports legacy st body labels j }
            (body.setAt j.path (resolvedJump legacy st body labels j id)) k
          = lexicalLabel st body k
        ∧ legacyLabel { st with errors := st.errors ++ jumpReports legacy st body labels j }
            (body.setAt j.path (resolvedJump legacy st body labels j id)) labels k
          = legacyLabel st body labels k
        ∧ jumpReports legacy
            { st with errors := st.errors ++ jumpReports legacy st body labels j }
            (body.setAt j.path (resolvedJump legacy st body labels j id)) labels k
          = jumpReports legacy st body labels k
        ∧ ∀ id0, resolvedJump legacy
            { st with errors := st.errors ++ jumpReports legacy st body labels j }
            (body.setAt j.path (resolvedJump legacy st body labels j id)) labels k id0
          = resolvedJump legacy st body labels k id0 :=
      fun k hk => jump_congr legacy labels st _ body _ k rfl rfl
        (LSLASTNode.nodeAt_setAt_apart j.path k.path body _ (hjr k hk))
        (fun l hl => symbolAt_setAt_apart body _ j.path l
          (hlab l hl j (List.mem_cons_self _ _)))
    obtain ⟨body1, hrun, hframe, heach⟩ := ih
      { st with errors := st.errors ++ jumpReports legacy st body labels j }
      (body.setAt j.path (resolvedJump legacy st body labels j id))
      (fun k hk => by
        rw [LSLASTNode.nodeAt_setAt_apart j.path k.path body _ (hjr k hk)]
        exact hvalid k (List.mem_cons_of_mem _ hk))
      hrest
      (fun l hl k hk => hlab l hl k (List.mem_cons_of_mem _ hk))
      (fun hleg k hk orig ho => by
        rw [(hcongr k hk).2.1]
        rw [(hcongr k hk).1] at ho
        exact hassert hleg k (List.mem_cons_of_mem _ hk) orig ho)
    refine ⟨body1, ?_, ?_, ?_⟩
    · rw [hstep, hrun, List.flatMap_cons,
        List.flatMap_congr (fun k hk => (hcongr k hk).2.2.1)]
      simp only [List.append_assoc]
    · intro q hq
      rw [hframe q (fun k hk => hq k (List.mem_cons_of_mem _ hk)),
        LSLASTNode.nodeAt_setAt_apart j.path q body _ (hq j (List.mem_cons_self _ _))]
    · intro k hk id0 hid0
      rcases List.mem_cons.mp hk with rfl | hk
      · rw [hframe k.path (fun m hm => by
          rw [Path.apart_comm]
          exact hjr m hm)]
        rw [hid] at hid0
        cases hid0
        exact LSLASTNode.nodeAt_setAt_self k.path body _ (by rw [hid]; rfl)
      · have hk0 : (body.setAt j.path (resolvedJump legacy st body labels j id)).nodeAt k.path
            = some id0 := by
          rw [LSLASTNode.nodeAt_setAt_apart j.path k.path body _ (hjr k hk)]
          exact hid0
        rw [heach k hk id0 hk0, (hcongr k hk).2.2.2 id0]

end SymbolResolutionVisitor

end Jumps

section Jumps

namespace SymbolResolutionVisitor

theorem repeatedAfter_congr (names : List String) :
    ∀ (a b : List String), (∀ n, n ∈ a ↔ n ∈ b) → repeatedAfter a names = repeatedAfter b names := by
  induction names with
  | nil => intro a b _; rfl
  | cons n rest ih =>
    intro a b h
    simp only [repeatedAfter]
    rw [ih (a ++ [n]) (b ++ [n]) (fun m => by simp only [List.mem_append, h m])]
    by_cases hn : n ∈ a
    · rw [if_pos hn, if_pos ((h n).mp hn)]
    · rw [if_neg hn, if_neg (fun hb => hn ((h n).mpr hb))]

/-- The names that repeat and the distinct names make up all the names. -/
theorem repeatedAfter_length (names : List String) :
    ∀ earlier : List String,
      (repeatedAfter earlier names).length + (earlier ++ names).toFinset.card
        = earlier.toFinset.card + names.length := by
  induction names with
  | nil => intro earlier; simp [repeatedAfter]
  | cons n rest ih =>
    intro earlier
    have h := ih (earlier ++ [n])
    simp only [repeatedAfter, List.length_append, List.length_cons]
    rw [List.append_assoc, List.singleton_append] at h
    by_cases hn : n ∈ earlier
    · have hc : (earlier ++ [n]).toFinset = earlier.toFinset := by
        ext x
        simp only [List.mem_toFinset, List.mem_append, List.mem_singleton]
        constructor
        · rintro (hx | rfl)
          · exact hx
          · exact hn
        · exact Or.inl
      rw [hc] at h
      simp only [if_pos hn, List.length_singleton]
      omega
    · have hc : (earlier ++ [n]).toFinset.card = earlier.toFinset.card + 1 := by
        have : (earlier ++ [n]).toFinset = insert n earlier.toFinset := by
          ext x
          simp only [List.mem_toFinset, List.mem_append, List.mem_singleton, Finset.mem_insert]
          exact Or.comm
        rw [this, Finset.card_insert_of_not_mem (by simpa using hn)]
      rw [hc] at h
      simp only [if_neg hn, List.length_nil]
      omega

/-- The number of names that repeat an earlier one is the number of names less the number
of distinct names. -/
theorem repeatedAfter_count (names : List String) :
    (repeatedAfter [] names).length = names.length - names.dedup.length := by
  have h := repeatedAfter_length names []
  simp only [List.nil_append, List.toFinset_nil, Finset.card_empty, Nat.zero_add] at h
  rw [List.card_toFinset] at h
  omega

theorem repeatedAfter_nodup (names : List String) (h : names.Nodup) :
    repeatedAfter [] names = [] := by
  have hc := repeatedAfter_count names
  rw [List.Nodup.dedup h, Nat.sub_self] at hc
  exact List.length_eq_zero.mp hc

theorem labelNames_length (body : LSLASTNode) :
    ∀ labels : List IdentifierRef, (∀ l ∈ labels, (body.nodeAt l.path).isSome = true) →
      (labelNames body labels).length = labels.length := by
  intro labels
  induction labels with
  | nil => intro _; rfl
  | cons l rest ih =>
    intro h
    have hl := h l (List.mem_cons_self _ _)
    cases hn : body.nodeAt l.path with
    | none => rw [hn] at hl; cases hl
    | some id =>
      have hrest := ih (fun k hk => h k (List.mem_cons_of_mem _ hk))
      simp only [labelNames] at hrest ⊢
      simp only [List.filterMap_cons, hn, Option.map_some', List.length_cons, hrest]

/-- The second loop of `resolvePendingJumps`: one warning for each collected label whose
name one of `earlier` or an earlier collected label has. -/
theorem warnDuplicateLabels_outcome (body : LSLASTNode) :
    ∀ (labels : List IdentifierRef) (st : Resolution) (label_names earlier : List String),
      (∀ n, n ∈ label_names ↔ n ∈ earlier) →
      (∀ l ∈ labels, (body.nodeAt l.path).isSome = true) →
      warnDuplicateLabels body st label_names labels = .ok
        { st with
            errors := st.errors ++ (repeatedAfter earlier (labelNames body labels)).map
              (fun n => { code := .W_DUPLICATE_LABEL_NAME, name := n }) } := by
  intro labels
  induction labels with
  | nil =>
    intro st label_names earlier _ _
    simp only [warnDuplicateLabels, labelNames, List.filterMap_nil, repeatedAfter,
      List.map_nil, Resolution.errors_append_nil]
  | cons l rest ih =>
    intro st label_names earlier hmem hvalid
    have hl := hvalid l (List.mem_cons_self _ _)
    have hrest : ∀ k ∈ rest, (body.nodeAt k.path).isSome = true :=
      fun k hk => hvalid k (List.mem_cons_of_mem _ hk)
    cases hn : body.nodeAt l.path with
    | none => rw [hn] at hl; cases hl
    | some id =>
      have hnames : labelNames body (l :: rest) = id.getName :: labelNames body rest := by
        simp only [labelNames, List.filterMap_cons, hn, Option.map_some']
      rw [hnames]
      simp only [warnDuplicateLabels, hn, repeatedAfter]
      by_cases hin : id.getName ∈ label_names
      · rw [if_pos hin, if_pos ((hmem _).mp hin)]
        rw [ih (st.report .W_DUPLICATE_LABEL_NAME id.getName) label_names
          (earlier ++ [id.getName]) (fun n => by
            simp only [List.mem_append, List.mem_singleton]
            constructor
            · exact fun h => Or.inl ((hmem n).mp h)
            · rintro (h | rfl)
              · exact (hmem n).mpr h
              · exact hin) hrest]
        simp only [Resolution.report, List.singleton_append, List.map_cons, List.append_assoc]
      · rw [if_neg hin, if_neg (fun h => hin ((hmem _).mpr h))]
        rw [ih st (label_names ++ [id.getName]) (earlier ++ [id.getName]) (fun n => by
            simp only [List.mem_append, hmem n]) hrest]
        simp only [List.nil_append]

theorem labelNames_congr (body body0 : LSLASTNode) (labels : List IdentifierRef)
    (h : ∀ l ∈ labels, body0.nodeAt l.path = body.nodeAt l.path) :
    labelNames body0 labels = labelNames body labels := by
  simp only [labelNames]
  exact List.filterMap_congr (fun l hl => by rw [h l hl])

/-- What `resolvePendingJumps` does: the state keeps its symbols and tables, the two
lists are cleared, the reports of the pending jumps are added in the order of the jumps
and, in legacy mode, after them the warnings of the duplicate labels; the tree changes at
the pending jumps only, each of which is left as `resolvedJump` says. -/
theorem resolvePendingJumps_outcome (legacy : Bool) (st : Resolution) (body : LSLASTNode)
    (hap : PendingApart st body) (hcol : legacy = true → LabelsCollected st body) :
    ∃ body1, resolvePendingJumps legacy st body = .ok
        ({ st with
            errors := st.errors
              ++ st.mPendingJumps.flatMap (jumpReports legacy st body st.mCollectedLabels)
              ++ (if legacy = true then duplicateReports body st.mCollectedLabels else []),
            mPendingJumps := [], mCollectedLabels := [] }, body1)
      ∧ (∀ q, (∀ j ∈ st.mPendingJumps, Path.apart j.path q = true) →
          body1.nodeAt q = body.nodeAt q)
      ∧ ∀ j ∈ st.mPendingJumps, ∀ id, body.nodeAt j.path = some id →
          body1.nodeAt j.path
            = some (resolvedJump legacy st body st.mCollectedLabels j id) := by
  obtain ⟨hj, hl, hpair, hlab⟩ := hap
  obtain ⟨body1, hrun, hframe, heach⟩ :=
    resolveJumps_outcome legacy st.mCollectedLabels st.mPendingJumps st body hj hpair hlab
      (fun hleg j hj0 orig ho => hcol hleg j hj0 (by rw [ho]; rfl))
  refine ⟨body1, ?_, hframe, heach⟩
  have hsame : ∀ l ∈ st.mCollectedLabels, body1.nodeAt l.path = body.nodeAt l.path :=
    fun l hl0 => hframe l.path (fun j hj0 => hlab l hl0 j hj0)
  simp only [resolvePendingJumps, hrun]
  cases legacy with
  | false => simp
  | true =>
    have hw := warnDuplicateLabels_outcome body1 st.mCollectedLabels
      { st with errors := st.errors
          ++ st.mPendingJumps.flatMap (jumpReports true st body st.mCollectedLabels) }
      [] [] (fun _ => Iff.rfl)
      (fun l hl0 => by rw [hsame l hl0]; exact hl l hl0)
    simp only [if_true, hw, labelNames_congr body body1 _ hsame, duplicateReports]

end SymbolResolutionVisitor

end Jumps

section Jumps

namespace Resolution

theorem lookupInTable_some {st : Resolution} {table : Nat} {name : String}
    {type : LSLSymbolType} {p : Nat} (h : st.lookupInTable table name type = some p) :
    p ∈ st.tables.getD table [] ∧ ∃ s, st.symbols.get? p = some s ∧ s.name = name
      ∧ (type = .SYM_ANY ∨ s.symbolType = type) := by
  unfold lookupInTable at h
  refine ⟨List.mem_of_find?_eq_some h, ?_⟩
  have hp := List.find?_some h
  cases hs : st.symbols.get? p with
  | none => simp only [hs] at hp; cases hp
  | some s =>
    simp only [hs, Bool.and_eq_true, Bool.or_eq_true, decide_eq_true_eq] at hp
    exact ⟨s, rfl, hp.1, hp.2⟩

theorem lookupInTable_isSome {st : Resolution} {table : Nat} {name : String}
    {type : LSLSymbolType} {p : Nat} {s : LSLSymbol} (hp : p ∈ st.tables.getD table [])
    (hs : st.symbols.get? p = some s) (hn : s.name = name)
    (ht : type = .SYM_ANY ∨ s.symbolType = type) :
    (st.lookupInTable table name type).isSome = true := by
  unfold lookupInTable
  rw [List.find?_isSome]
  refine ⟨p, hp, ?_⟩
  simp only [hs, Bool.and_eq_true, Bool.or_eq_true, decide_eq_true_eq]
  exact ⟨hn, ht⟩

theorem lookupSymbol_some {st : Resolution} {scopes : List Nat} {name : String}
    {type : LSLSymbolType} {p : Nat} (h : st.lookupSymbol scopes name type = some p) :
    ∃ table ∈ scopes, p ∈ st.tables.getD table [] ∧ ∃ s, st.symbols.get? p = some s
      ∧ s.name = name ∧ (type = .SYM_ANY ∨ s.symbolType = type) := by
  unfold lookupSymbol at h
  obtain ⟨table, ht, hf⟩ := List.exists_of_findSome?_eq_some h
  exact ⟨table, ht, lookupInTable_some hf⟩

/-- The lookup finds a symbol exactly when one with the name and of the kind is
visible. -/
theorem lookupSymbol_isSome_iff (st : Resolution) (scopes : List Nat) (name : String)
    (type : LSLSymbolType) :
    (st.lookupSymbol scopes name type).isSome = true ↔ st.Visible scopes name type := by
  constructor
  · intro h
    cases hl : st.lookupSymbol scopes name type with
    | none => rw [hl] at h; cases h
    | some p =>
      obtain ⟨table, ht, hp, s, hs, hn, hty⟩ := lookupSymbol_some hl
      exact ⟨table, ht, p, hp, s, hs, hn, hty⟩
  · rintro ⟨table, ht, p, hp, s, hs, hn, hty⟩
    unfold lookupSymbol
    rw [List.findSome?_isSome_iff]
    exact ⟨table, ht, lookupInTable_isSome hp hs hn hty⟩

end Resolution

namespace SymbolResolutionVisitor

open BaseSymbolResolutionVisitor

/-- The visit of an event handler, once it has entered and walked the children, is the
call of `resolvePendingJumps`. -/
theorem visitEventHandler_enter (legacy : Bool)
    (f : Resolution → Place → LSLASTNode → Except Fault (Resolution × LSLASTNode))
    (st : Resolution) (place : Place) (node : LSLASTNode) (st0 : Resolution)
    (node0 : LSLASTNode) (st1 : Resolution) (body : LSLASTNode)
    (r : Resolution × LSLASTNode)
    (he : enterEventHandler st place node = .ok (st0, node0))
    (hp : st0.mPendingJumps = [])
    (hw : visitChildren f st0 { place with path := [] } node0 = .ok (st1, body))
    (hr : resolvePendingJumps legacy st1 body = .ok r) :
    visitEventHandler legacy f st place node = .ok (r.1, r.2, false) := by
  unfold enterEventHandler at he
  unfold visitEventHandler
  simp only [] at he ⊢
  cases hid : (replaceSymbolTable st node).2.getChild 0 with
  | none => rw [hid] at he; cases he
  | some id =>
    simp only [hid] at he
    simp only [hid]
    cases hl : (replaceSymbolTable st node).1.lookupSymbol
        (place.root.getD ((replaceSymbolTable st node).2.scopesFrom place.scopes))
        id.getName .SYM_EVENT with
    | none =>
      simp only [hl, Except.ok.injEq, Prod.mk.injEq] at he
      obtain ⟨h1, h2⟩ := he
      simp only [hl, h1, h2, hp, ne_eq, not_true_eq_false, if_false, hw, hr]
    | some sym =>
      simp only [hl, Except.ok.injEq, Prod.mk.injEq] at he
      obtain ⟨h1, h2⟩ := he
      simp only [hl, h1, h2, hp, ne_eq, not_true_eq_false, if_false, hw, hr]

/-- The visit of a global function or event handler whose children have been walked
ends with `resolvePendingJumps` on what the walk of the children has returned. -/
theorem resolve_of_childrenWalked (legacy : Bool) (fuel : Nat) (st : Resolution)
    (place : Place) (node : LSLASTNode) (st1 : Resolution) (body : LSLASTNode)
    (r : Resolution × LSLASTNode)
    (hw : ChildrenWalked (resolve legacy fuel) st place node st1 body)
    (hr : resolvePendingJumps legacy st1 body = .ok r) :
    resolve legacy (fuel + 1) st place node = .ok r := by
  rcases hw with ⟨hnt, hp, hw⟩ | ⟨hnt, st0, node0, he, hp, hw⟩
  · have hv : visitSpecific legacy fuel (resolve legacy fuel) st place node
        = .ok (r.1, r.2, false) := by
      simp only [visitSpecific, hnt, visitGlobalFunction, hp, ne_eq, not_true_eq_false,
        if_false, hw, hr]
    simp only [resolve, hv, Bool.false_eq_true, if_false]
  · have hv : visitSpecific legacy fuel (resolve legacy fuel) st place node
        = .ok (r.1, r.2, false) := by
      simp only [visitSpecific, hnt]
      exact visitEventHandler_enter legacy _ st place node st0 node0 st1 body r he hp hw hr
    simp only [resolve, hv, Bool.false_eq_true, if_false]

end SymbolResolutionVisitor

end Jumps

section Jumps

namespace SymbolResolutionVisitor

open BaseSymbolResolutionVisitor

theorem resolvedJump_symbol (legacy : Bool) (st : Resolution) (body : LSLASTNode)
    (labels : List IdentifierRef) (jump : IdentifierRef) (id : LSLASTNode) :
    (resolvedJump legacy st body labels jump id).getSymbol
      = if legacy = true then legacyLabel st body labels jump
        else lexicalLabel st body jump := by
  unfold resolvedJump
  cases hlex : lexicalLabel st body jump with
  | none =>
    have hleg : legacyLabel st body labels jump = none := by
      simp only [legacyLabel, hlex, Option.none_bind]
    simp [hleg, LSLASTNode.getSymbol, LSLASTNode.setType, LSLASTNode.setSymbol]
  | some orig =>
    simp only [LSLASTNode.getSymbol_setSymbol]

theorem reportsOf_append (code : ErrorCode) (a b : List Diagnostic) :
    reportsOf code (a ++ b) = reportsOf code a ++ reportsOf code b := by
  simp only [reportsOf, List.filter_append]

theorem reportsOf_flatMap {α : Type} (code : ErrorCode) (l : List α)
    (f : α → List Diagnostic) :
    reportsOf code (l.flatMap f) = l.flatMap (fun a => reportsOf code (f a)) := by
  induction l with
  | nil => rfl
  | cons a rest ih => simp only [List.flatMap_cons, reportsOf_append, ih]

theorem reportsOf_duplicateReports (body : LSLASTNode) (labels : List IdentifierRef)
    (code : ErrorCode) :
    reportsOf code (duplicateReports body labels)
      = if code = .W_DUPLICATE_LABEL_NAME then duplicateReports body labels else [] := by
  unfold duplicateReports reportsOf
  by_cases h : code = .W_DUPLICATE_LABEL_NAME
  · rw [if_pos h, List.filter_eq_self]
    intro e he
    obtain ⟨n, _, rfl⟩ := List.mem_map.mp he
    simp [h]
  · rw [if_neg h, List.filter_eq_nil_iff]
    intro e he
    obtain ⟨n, _, rfl⟩ := List.mem_map.mp he
    simpa using fun heq => h heq.symm

/-- The reports for one pending jump, by code: the undeclared name when the lexical
lookup fails, the wrong-label warning when in legacy mode the last label of the name is
not the label the lookup found, and no other. -/
theorem jumpReports_codes (legacy : Bool) (st : Resolution) (body : LSLASTNode)
    (labels : List IdentifierRef) (jump : IdentifierRef) (id : LSLASTNode)
    (hid : body.nodeAt jump.path = some id) :
    (reportsOf .E_UNDECLARED (jumpReports legacy st body labels jump)
        = if lexicalLabel st body jump = none
          then [{ code := .E_UNDECLARED, name := id.getName }] else [])
    ∧ ((reportsOf .W_JUMP_TO_WRONG_LABEL (jumpReports legacy st body labels jump)).length
        = if legacy = true ∧ legacyLabel st body labels jump ≠ lexicalLabel st body jump
          then 1 else 0)
    ∧ reportsOf .W_DUPLICATE_LABEL_NAME (jumpReports legacy st body labels jump) = []
    ∧ (jumpReports legacy st body labels jump).length ≤ 1 := by
  unfold jumpReports
  simp only [hid]
  cases hlex : lexicalLabel st body jump with
  | none =>
    have hleg : legacyLabel st body labels jump = none := by
      simp only [legacyLabel, hlex, Option.none_bind]
    simp [reportsOf, hleg]
  | some orig =>
    simp only []
    by_cases h : legacy = true ∧ legacyLabel st body labels jump ≠ some orig
    · rw [if_pos h]
      simp [reportsOf, h]
    · rw [if_neg h]
      simp [reportsOf, h]

/-- The visit of a global function or event handler from the walk of its children on:
the pending jumps are resolved against the state the walk of the children has left. -/
theorem resolve_jumps (legacy : Bool) (fuel : Nat) (st : Resolution) (place : Place)
    (node : LSLASTNode) (st1 : Resolution) (body : LSLASTNode)
    (hw : ChildrenWalked (resolve legacy fuel) st place node st1 body)
    (hap : PendingApart st1 body) (hcol : legacy = true → LabelsCollected st1 body) :
    ∃ st2 body1, resolve legacy (fuel + 1) st place node = .ok (st2, body1)
      ∧ st2.symbols = st1.symbols ∧ st2.tables = st1.tables
      ∧ st2.mPendingJumps = [] ∧ st2.mCollectedLabels = []
      ∧ st2.errors = st1.errors
          ++ st1.mPendingJumps.flatMap (jumpReports legacy st1 body st1.mCollectedLabels)
          ++ (if legacy = true then duplicateReports body st1.mCollectedLabels else [])
      ∧ (∀ q, (∀ j ∈ st1.mPendingJumps, Path.apart j.path q = true) →
          body1.nodeAt q = body.nodeAt q)
      ∧ ∀ j ∈ st1.mPendingJumps, symbolAt body1 j
          = if legacy = true then legacyLabel st1 body st1.mCollectedLabels j
            else lexicalLabel st1 body j := by
  obtain ⟨body1, hrun, hframe, heach⟩ := resolvePendingJumps_outcome legacy st1 body hap hcol
  refine ⟨_, body1, resolve_of_childrenWalked legacy fuel st place node st1 body _ hw hrun,
    rfl, rfl, rfl, rfl, rfl, hframe, ?_⟩
  intro j hj
  cases hid : body.nodeAt j.path with
  | none =>
    have := hap.1 j hj
    rw [hid] at this
    cases this
  | some id =>
    simp only [symbolAt, heach j hj id hid, Option.some_bind, resolvedJump_symbol]

end SymbolResolutionVisitor

end Jumps

section Jumps

namespace SymbolResolutionVisitor

open BaseSymbolResolutionVisitor

theorem lexicalLabel_eq {st : Resolution} {body : LSLASTNode} {j : IdentifierRef}
    {id : LSLASTNode} (hid : body.nodeAt j.path = some id) :
    lexicalLabel st body j = st.lookupSymbol j.scopes id.getName .SYM_LABEL := by
  simp only [lexicalLabel, hid, Option.some_bind]

/-- In legacy mode the label of a jump whose name is visible is the last collected label
of that name. -/
theorem legacyLabel_eq {st : Resolution} {body : LSLASTNode} {labels : List IdentifierRef}
    {j : IdentifierRef} {id : LSLASTNode} (hid : body.nodeAt j.path = some id)
    (hv : st.Visible j.scopes id.getName .SYM_LABEL) :
    legacyLabel st body labels j = (labelsNamed st body id.getName labels).getLast? := by
  have hs := (st.lookupSymbol_isSome_iff j.scopes id.getName .SYM_LABEL).mpr hv
  cases hl : st.lookupSymbol j.scopes id.getName .SYM_LABEL with
  | none => rw [hl] at hs; cases hs
  | some orig =>
    obtain ⟨_, _, _, s, hget, hname, _⟩ := Resolution.lookupSymbol_some hl
    rw [legacyLabel_of st body labels j orig s ((lexicalLabel_eq hid).trans hl) hget, hname]

theorem length_flatMap_indicator {α : Type} (l : List α) (f : α → List Diagnostic)
    (p : α → Bool) (h : ∀ a ∈ l, (f a).length = if p a = true then 1 else 0) :
    (l.flatMap f).length = (l.filter p).length := by
  induction l with
  | nil => rfl
  | cons a rest ih =>
    have ha := h a (List.mem_cons_self _ _)
    have hr := ih (fun b hb => h b (List.mem_cons_of_mem _ hb))
    simp only [List.flatMap_cons, List.length_append, hr, ha, List.filter_cons]
    cases p a
    · simp
    · simp
      omega

end SymbolResolutionVisitor

end Jumps

section Growing

open BaseSymbolResolutionVisitor

namespace Resolution

theorem Grows.same_state (allowed : ErrorCode → Prop) (st : Resolution) :
    Grows allowed st st :=
  ⟨fun _ _ h => h, Nat.le_refl _, fun _ _ h => h, [], (List.append_nil _).symm,
    fun _ h => absurd h (List.not_mem_nil _)⟩

theorem Grows.then {allowed : ErrorCode → Prop} {a b c : Resolution}
    (h1 : Grows allowed a b) (h2 : Grows allowed b c) : Grows allowed a c := by
  obtain ⟨s1, l1, t1, e1, he1, ha1⟩ := h1
  obtain ⟨s2, l2, t2, e2, he2, ha2⟩ := h2
  refine ⟨fun p s h => s2 p s (s1 p s h), Nat.le_trans l1 l2,
    fun t p h => t2 t p (t1 t p h), e1 ++ e2, ?_, ?_⟩
  · rw [he2, he1, List.append_assoc]
  · intro e he
    rcases List.mem_append.mp he with he | he
    · exact ha1 e he
    · exact ha2 e he

theorem Grows.weaken_codes {allowed allowed0 : ErrorCode → Prop} {a b : Resolution}
    (h : Grows allowed a b) (hm : ∀ c, allowed c → allowed0 c) : Grows allowed0 a b := by
  obtain ⟨s1, l1, t1, e1, he1, ha1⟩ := h
  exact ⟨s1, l1, t1, e1, he1, fun e he => hm _ (ha1 e he)⟩

/-- A change of the two lists of the visitor alone continues the state. -/
theorem Grows.of_lists (allowed : ErrorCode → Prop) {a b : Resolution}
    (hs : b.symbols = a.symbols) (ht : b.tables = a.tables) (he : b.errors = a.errors) :
    Grows allowed a b :=
  ⟨fun _ _ h => by rw [hs]; exact h, by rw [ht], fun _ _ h => by rw [ht]; exact h, [],
    by rw [he, List.append_nil], fun _ h => absurd h (List.not_mem_nil _)⟩

theorem Grows.of_newSymbol (allowed : ErrorCode → Prop) (st : Resolution) (sym : LSLSymbol) :
    Grows allowed st (st.newSymbol sym).1 := by
  refine ⟨?_, Nat.le_refl _, fun _ _ h => h, [], (List.append_nil _).symm,
    fun _ h => absurd h (List.not_mem_nil _)⟩
  intro p s h
  simp only [newSymbol, List.get?_eq_getElem?] at h ⊢
  have hlt : p < st.symbols.length := by
    by_contra hge
    rw [List.getElem?_eq_none (Nat.le_of_not_lt hge)] at h
    cases h
  rw [List.getElem?_append_left hlt]
  exact h

theorem newSymbol_get (st : Resolution) (sym : LSLSymbol) :
    (st.newSymbol sym).1.symbols.get? (st.newSymbol sym).2 = some sym := by
  simp [newSymbol, List.get?_eq_getElem?]

theorem defineSymbol_tables_mem (st : Resolution) (scopes : List Nat) (sym t p : Nat)
    (h : p ∈ st.tables.getD t []) : p ∈ (st.defineSymbol scopes sym).tables.getD t [] := by
  unfold defineSymbol
  cases scopes with
  | nil => exact h
  | cons table rest =>
    simp only [List.getD_eq_getElem?_getD] at h ⊢
    by_cases ht : t = table
    · subst ht
      by_cases hlt : t < st.tables.length
      · rw [List.getElem?_set_self hlt]
        simp only [Option.getD_some, List.mem_append]
        exact Or.inl h
      · rw [List.getElem?_eq_none (Nat.le_of_not_lt hlt)] at h
        exact absurd h (List.not_mem_nil p)
    · rw [List.getElem?_set_ne (fun heq => ht heq.symm)]
      exact h

theorem defineSymbol_defines (st : Resolution) (table : Nat) (rest : List Nat) (sym : Nat)
    (hlt : table < st.tables.length) :
    sym ∈ (st.defineSymbol (table :: rest) sym).tables.getD table [] := by
  simp only [defineSymbol, List.getD_eq_getElem?_getD, List.getElem?_set_self hlt,
    Option.getD_some, List.mem_append, List.mem_singleton, or_true]

theorem Grows.of_defineSymbol (allowed : ErrorCode → Prop) (st : Resolution)
    (scopes : List Nat) (sym : Nat) : Grows allowed st (st.defineSymbol scopes sym) := by
  refine ⟨fun p s h => by rw [defineSymbol_symbols]; exact h, ?_,
    fun t p h => defineSymbol_tables_mem st scopes sym t p h, [], ?_,
    fun _ h => absurd h (List.not_mem_nil _)⟩
  · unfold defineSymbol
    cases scopes with
    | nil => exact Nat.le_refl _
    | cons table rest => simp only [List.length_set, Nat.le_refl]
  · unfold defineSymbol
    cases scopes with
    | nil => simp only [List.append_nil]
    | cons table rest => simp only [List.append_nil]

theorem Grows.of_report {allowed : ErrorCode → Prop} (st : Resolution) {code : ErrorCode}
    (name : String) (h : allowed code) : Grows allowed st (st.report code name) :=
  ⟨fun _ _ h => h, Nat.le_refl _, fun _ _ h => h, [{ code := code, name := name }], rfl,
    fun e he => by
      rw [List.mem_singleton] at he
      subst he
      exact h⟩

theorem Grows.of_resolveSymbol {allowed : ErrorCode → Prop} (st : Resolution)
    (scopes : List Nat) (id : LSLASTNode) (type : LSLSymbolType)
    (h : allowed .E_UNDECLARED) : Grows allowed st (st.resolveSymbol scopes id type).1 := by
  unfold resolveSymbol
  cases st.lookupSymbol scopes id.getName type with
  | none => exact .of_report st _ h
  | some p => exact .same_state _ _

theorem Grows.of_declared (allowed : ErrorCode → Prop) (st : Resolution) (sym : LSLSymbol)
    (scopes : List Nat) :
    Grows allowed st ((st.newSymbol sym).1.defineSymbol scopes (st.newSymbol sym).2) :=
  (Grows.of_newSymbol allowed st sym).then (.of_defineSymbol allowed _ _ _)

theorem Grows.of_replaceSymbolTable (allowed : ErrorCode → Prop) (st : Resolution)
    (node : LSLASTNode) : Grows allowed st (replaceSymbolTable st node).1 := by
  refine ⟨fun _ _ h => h, ?_, ?_, [], (List.append_nil _).symm,
    fun _ h => absurd h (List.not_mem_nil _)⟩
  · simp only [replaceSymbolTable, List.length_append, List.length_singleton]
    omega
  · intro t p h
    simp only [replaceSymbolTable, List.getD_eq_getElem?_getD] at h ⊢
    by_cases hlt : t < st.tables.length
    · rw [List.getElem?_append_left hlt]
      exact h
    · rw [List.getElem?_eq_none (Nat.le_of_not_lt hlt)] at h
      exact absurd h (List.not_mem_nil p)

/-- A name visible in a state is visible in every state that continues it. -/
theorem Visible.of_grows {allowed : ErrorCode → Prop} {st st1 : Resolution}
    {scopes : List Nat} {name : String} {type : LSLSymbolType}
    (h : st.Visible scopes name type) (hg : Grows allowed st st1) :
    st1.Visible scopes name type := by
  obtain ⟨table, ht, p, hp, s, hs, hn, hty⟩ := h
  exact ⟨table, ht, p, hg.2.2.1 table p hp, s, hg.1 p s hs, hn, hty⟩

theorem Visible.of_scopes {st : Resolution} {scopes scopes0 : List Nat} {name : String}
    {type : LSLSymbolType} (h : st.Visible scopes name type)
    (hsub : ∀ t ∈ scopes, t ∈ scopes0) : st.Visible scopes0 name type := by
  obtain ⟨table, ht, rest⟩ := h
  exact ⟨table, hsub table ht, rest⟩

end Resolution

namespace BaseSymbolResolutionVisitor

theorem visitChildrenFrom_grows {allowed : ErrorCode → Prop}
    {f : Resolution → Place → LSLASTNode → Except Fault (Resolution × LSLASTNode)}
    (hf : Resolution.Growing allowed f) (scopes root path : List Nat) :
    ∀ (cs : List LSLASTNode) (i : Nat) (st : Resolution) (r : Resolution × List LSLASTNode),
      visitChildrenFrom f scopes root path i st cs = .ok r →
      Resolution.Grows allowed st r.1 := by
  intro cs
  induction cs with
  | nil =>
    intro i st r hr
    simp only [visitChildrenFrom, Except.ok.injEq] at hr
    subst hr
    exact .same_state _ _
  | cons a cs ih =>
    intro i st r hr
    simp only [visitChildrenFrom] at hr
    cases ha : f st { scopes := scopes, root := some root, path := path ++ [i] } a with
    | error e => rw [ha] at hr; cases hr
    | ok r1 =>
      obtain ⟨st1, a1⟩ := r1
      rw [ha] at hr
      simp only at hr
      cases hrest : visitChildrenFrom f scopes root path (i + 1) st1 cs with
      | error e => rw [hrest] at hr; cases hr
      | ok r2 =>
        obtain ⟨st2, rest1⟩ := r2
        rw [hrest] at hr
        simp only [Except.ok.injEq] at hr
        subst hr
        exact (hf _ _ _ _ ha).then (ih (i + 1) st1 (st2, rest1) hrest)

theorem visitChildren_grows {allowed : ErrorCode → Prop}
    {f : Resolution → Place → LSLASTNode → Except Fault (Resolution × LSLASTNode)}
    (hf : Resolution.Growing allowed f) {st : Resolution} (place : Place)
    {node : LSLASTNode} {r : Resolution × LSLASTNode}
    (hr : visitChildren f st place node = .ok r) : Resolution.Grows allowed st r.1 := by
  unfold visitChildren at hr
  cases hc : visitChildrenFrom f (node.scopesFrom place.scopes)
      (place.root.getD (node.scopesFrom place.scopes)) place.path 0 st node.children with
  | error e => rw [hc] at hr; cases hr
  | ok r1 =>
    obtain ⟨st1, cs1⟩ := r1
    rw [hc] at hr
    simp only [Except.ok.injEq] at hr
    subst hr
    exact visitChildrenFrom_grows hf _ _ _ _ _ _ _ hc

theorem visitLValueExpression_grows {allowed : ErrorCode → Prop}
    (h : allowed .E_UNDECLARED) {st : Resolution} (place : Place) {node : LSLASTNode}
    {r : Resolution × LSLASTNode × Bool}
    (hr : visitLValueExpression st place node = .ok r) : Resolution.Grows allowed st r.1 := by
  unfold visitLValueExpression at hr
  cases hid : node.getChild 0 with
  | none => rw [hid] at hr; cases hr
  | some id =>
    rw [hid] at hr
    simp only [Except.ok.injEq] at hr
    subst hr
    exact .of_resolveSymbol st _ id _ h

theorem visitFunctionExpression_grows {allowed : ErrorCode → Prop}
    (h : allowed .E_UNDECLARED) {st : Resolution} (place : Place) {node : LSLASTNode}
    {r : Resolution × LSLASTNode × Bool}
    (hr : visitFunctionExpression st place node = .ok r) :
    Resolution.Grows allowed st r.1 := by
  unfold visitFunctionExpression at hr
  cases hid : node.getChild 0 with
  | none => rw [hid] at hr; cases hr
  | some id =>
    rw [hid] at hr
    simp only [Except.ok.injEq] at hr
    subst hr
    exact .of_resolveSymbol st _ id _ h

end BaseSymbolResolutionVisitor

namespace GlobalSymbolResolutionVisitor

theorem visitGlobalVariable_grows {allowed : ErrorCode → Prop}
    {f : Resolution → Place → LSLASTNode → Except Fault (Resolution × LSLASTNode)}
    (hf : Resolution.Growing allowed f) {st : Resolution} (place : Place)
    {node : LSLASTNode} {r : Resolution × LSLASTNode × Bool}
    (hr : visitGlobalVariable f st place node = .ok r) : Resolution.Grows allowed st r.1 := by
  unfold visitGlobalVariable at hr
  cases hc : visitChildren f st place node with
  | error e => rw [hc] at hr; cases hr
  | ok r1 =>
    obtain ⟨st1, node1⟩ := r1
    rw [hc] at hr
    simp only at hr
    cases hid : node1.getChild 0 with
    | none => rw [hid] at hr; cases hr
    | some id =>
      rw [hid] at hr
      simp only [Except.ok.injEq] at hr
      subst hr
      exact (visitChildren_grows hf place hc).then (.of_declared allowed st1 _ _)

theorem visitGlobalFunction_grows_global (allowed : ErrorCode → Prop) {st : Resolution}
    (place : Place) {node : LSLASTNode} {r : Resolution × LSLASTNode × Bool}
    (hr : visitGlobalFunction st place node = .ok r) : Resolution.Grows allowed st r.1 := by
  unfold visitGlobalFunction at hr
  simp only at hr
  cases hid : (replaceSymbolTable st node).2.getChild 0 with
  | none => rw [hid] at hr; cases hr
  | some id =>
    rw [hid] at hr
    simp only [Except.ok.injEq] at hr
    subst hr
    exact (Resolution.Grows.of_replaceSymbolTable allowed st node).then
      (.of_declared allowed _ _ _)

theorem visitState_grows (allowed : ErrorCode → Prop) {st : Resolution}
    (place : Place) {node : LSLASTNode} {r : Resolution × LSLASTNode × Bool}
    (hr : visitState st place node = .ok r) : Resolution.Grows allowed st r.1 := by
  unfold visitState at hr
  simp only at hr
  cases hid : (replaceSymbolTable st node).2.getChild 0 with
  | none => rw [hid] at hr; cases hr
  | some id =>
    rw [hid] at hr
    simp only [Except.ok.injEq] at hr
    subst hr
    exact (Resolution.Grows.of_replaceSymbolTable allowed st node).then
      (.of_declared allowed _ _ _)

theorem visitSpecific_grows_global {allowed : ErrorCode → Prop} (h : allowed .E_UNDECLARED)
    {f : Resolution → Place → LSLASTNode → Except Fault (Resolution × LSLASTNode)}
    (hf : Resolution.Growing allowed f) {st : Resolution} (place : Place)
    {node : LSLASTNode} {r : Resolution × LSLASTNode × Bool}
    (hr : visitSpecific f st place node = .ok r) : Resolution.Grows allowed st r.1 := by
  unfold visitSpecific at hr
  split at hr
  · exact visitGlobalVariable_grows hf place hr
  · exact visitGlobalFunction_grows_global allowed place hr
  · exact visitState_grows allowed place hr
  · split at hr
    · exact visitLValueExpression_grows h place hr
    · exact visitFunctionExpression_grows h place hr
    · cases hr; exact .same_state _ _
  · cases hr; exact .same_state _ _

/-- The global phase only adds: symbols, tables, entries of tables, and reports of
undeclared names. -/
theorem resolve_grows_global {allowed : ErrorCode → Prop} (h : allowed .E_UNDECLARED) :
    ∀ fuel, Resolution.Growing allowed (resolve fuel) := by
  intro fuel
  induction fuel with
  | zero => intro st place t r hr; cases hr
  | succ fuel ih =>
    intro st place t r hr
    simp only [resolve] at hr
    cases hv : visitSpecific (resolve fuel) st place t with
    | error e => rw [hv] at hr; cases hr
    | ok r1 =>
      obtain ⟨st1, node1, descend⟩ := r1
      rw [hv] at hr
      simp only at hr
      have h1 : Resolution.Grows allowed st st1 := visitSpecific_grows_global h ih place hv
      cases descend with
      | false =>
        simp only [Bool.false_eq_true, if_false, Except.ok.injEq] at hr
        subst hr
        exact h1
      | true =>
        simp only [if_true] at hr
        exact h1.then (visitChildren_grows ih place hr)

end GlobalSymbolResolutionVisitor

end Growing

section Growing

open BaseSymbolResolutionVisitor

namespace SymbolResolutionVisitor

theorem mayReport_undeclared (legacy : Bool) : mayReport legacy .E_UNDECLARED :=
  fun _ => ⟨by decide, by decide⟩

theorem mayReport_declaration (legacy : Bool) : mayReport legacy .E_DECLARATION_INVALID_HERE :=
  fun _ => ⟨by decide, by decide⟩

theorem mayReport_event (legacy : Bool) : mayReport legacy .E_INVALID_EVENT :=
  fun _ => ⟨by decide, by decide⟩

theorem mayReport_legacy (code : ErrorCode) : mayReport true code :=
  fun h => by cases h

theorem visitScript_grows (legacy : Bool) (fuel : Nat) {st : Resolution} (place : Place)
    {node : LSLASTNode} {r : Resolution × LSLASTNode × Bool}
    (hr : visitScript fuel st place node = .ok r) :
    Resolution.Grows (mayReport legacy) st r.1 := by
  unfold visitScript at hr
  simp only at hr
  split at hr
  · cases hr
  · rename_i st2 node2 hg
    simp only [Except.ok.injEq] at hr
    subst hr
    exact (Resolution.Grows.of_replaceSymbolTable _ st node).then
      (GlobalSymbolResolutionVisitor.resolve_grows_global (mayReport_undeclared legacy)
        fuel _ _ _ _ hg)

theorem visitDeclaration_grows (legacy : Bool)
    {f : Resolution → Place → LSLASTNode → Except Fault (Resolution × LSLASTNode)}
    (hf : Resolution.Growing (mayReport legacy) f) {st : Resolution} (place : Place)
    {node : LSLASTNode} {r : Resolution × LSLASTNode × Bool}
    (hr : visitDeclaration f st place node = .ok r) :
    Resolution.Grows (mayReport legacy) st r.1 := by
  unfold visitDeclaration at hr
  simp only at hr
  split at hr
  · cases hr
  · rename_i st1 node1 hv
    have h1 : Resolution.Grows (mayReport legacy) st st1 := by
      split at hv
      · split at hv
        · cases hv
        · rename_i st0 rvalue1 hrv
          simp only [Except.ok.injEq, Prod.mk.injEq] at hv
          obtain ⟨rfl, _⟩ := hv
          exact hf _ _ _ _ hrv
      · simp only [Except.ok.injEq, Prod.mk.injEq] at hv
        obtain ⟨rfl, _⟩ := hv
        exact .same_state _ _
    split at hr
    · cases hr
    · rename_i identifier _
      simp only [Except.ok.injEq] at hr
      subst hr
      refine h1.then ?_
      show Resolution.Grows _ st1 (if _ then _ else _)
      split
      · exact (Resolution.Grows.of_declared _ st1 _ _).then
          (.of_report _ _ (mayReport_declaration legacy))
      · exact .of_declared _ st1 _ _

theorem registerParams_grows (allowed : ErrorCode → Prop) (scopes : List Nat)
    (sub : LSLSymbolSubType) :
    ∀ (cs : List LSLASTNode) (st : Resolution),
      Resolution.Grows allowed st (registerParams scopes sub st cs).1 := by
  intro cs
  induction cs with
  | nil => intro st; exact .same_state _ _
  | cons id rest ih =>
    intro st
    simp only [registerParams]
    exact (Resolution.Grows.of_declared allowed st _ scopes).then (ih _)

theorem register_func_param_symbols_grows (allowed : ErrorCode → Prop) (st : Resolution)
    (place : Place) (proto : LSLASTNode) (is_event : Bool) :
    Resolution.Grows allowed st (register_func_param_symbols st place proto is_event).1 :=
  registerParams_grows allowed _ _ _ _

theorem resolveJumps_grows (legacy : Bool) (labels : List IdentifierRef) :
    ∀ (pending : List IdentifierRef) (st : Resolution) (body : LSLASTNode)
      (r : Resolution × LSLASTNode),
      resolveJumps legacy labels st body pending = .ok r →
      Resolution.Grows (mayReport legacy) st r.1 := by
  intro pending
  induction pending with
  | nil =>
    intro st body r hr
    simp only [resolveJumps, Except.ok.injEq] at hr
    subst hr
    exact .same_state _ _
  | cons jump rest ih =>
    intro st body r hr
    simp only [resolveJumps] at hr
    cases hid : body.nodeAt jump.path with
    | none => rw [hid] at hr; cases hr
    | some id =>
      rw [hid] at hr
      simp only at hr
      have h1 : Resolution.Grows (mayReport legacy) st
          (st.resolveSymbol jump.scopes id .SYM_LABEL).1 :=
        .of_resolveSymbol st _ id _ (mayReport_undeclared legacy)
      split at hr
      · exact h1.then (ih _ _ _ hr)
      · rename_i hleg
        have hl : legacy = true := by
          cases legacy
          · exact absurd rfl hleg
          · rfl
        split at hr
        · exact h1.then (ih _ _ _ hr)
        · split at hr
          · cases hr
          · split at hr
            · cases hr
            · refine h1.then (Resolution.Grows.then ?_ (ih _ _ _ hr))
              split
              · subst hl
                exact .of_report _ _ (mayReport_legacy _)
              · exact .same_state _ _

theorem warnDuplicateLabels_grows (body : LSLASTNode) :
    ∀ (labels : List IdentifierRef) (st : Resolution) (names : List String) (r : Resolution),
      warnDuplicateLabels body st names labels = .ok r →
      Resolution.Grows (mayReport true) st r := by
  intro labels
  induction labels with
  | nil =>
    intro st names r hr
    simp only [warnDuplicateLabels, Except.ok.injEq] at hr
    subst hr
    exact .same_state _ _
  | cons label rest ih =>
    intro st names r hr
    simp only [warnDuplicateLabels] at hr
    split at hr
    · cases hr
    · rename_i label_id _
      split at hr
      · exact (Resolution.Grows.of_report st _ (mayReport_legacy _)).then (ih _ _ _ hr)
      · exact ih st _ _ hr

theorem resolvePendingJumps_grows (legacy : Bool) {st : Resolution} {body : LSLASTNode}
    {r : Resolution × LSLASTNode} (hr : resolvePendingJumps legacy st body = .ok r) :
    Resolution.Grows (mayReport legacy) st r.1 := by
  unfold resolvePendingJumps at hr
  split at hr
  · cases hr
  · rename_i st1 body1 hj
    have h1 := resolveJumps_grows legacy _ _ _ _ _ hj
    simp only at hr
    split at hr
    · cases hr
    · rename_i st2 hw
      simp only [Except.ok.injEq] at hr
      subst hr
      have h2 : Resolution.Grows (mayReport legacy) st1 st2 := by
        cases legacy with
        | false =>
          simp only [Bool.false_eq_true, if_false, Except.ok.injEq] at hw
          subst hw
          exact .same_state _ _
        | true =>
          simp only [if_true] at hw
          exact warnDuplicateLabels_grows _ _ _ _ _ hw
      exact h1.then (h2.then (.of_lists _ rfl rfl rfl))

theorem visitGlobalFunction_grows (legacy : Bool)
    {f : Resolution → Place → LSLASTNode → Except Fault (Resolution × LSLASTNode)}
    (hf : Resolution.Growing (mayReport legacy) f) {st : Resolution} (place : Place)
    {node : LSLASTNode} {r : Resolution × LSLASTNode × Bool}
    (hr : visitGlobalFunction legacy f st place node = .ok r) :
    Resolution.Grows (mayReport legacy) st r.1 := by
  unfold visitGlobalFunction at hr
  split at hr
  · cases hr
  · split at hr
    · cases hr
    · rename_i st1 node1 hch
      split at hr
      · cases hr
      · rename_i st2 node2 hj
        simp only [Except.ok.injEq] at hr
        subst hr
        exact (visitChildren_grows hf _ hch).then (resolvePendingJumps_grows legacy hj)

theorem enterEventHandler_grows (legacy : Bool) {st : Resolution} (place : Place)
    {node : LSLASTNode} {r : Resolution × LSLASTNode}
    (hr : enterEventHandler st place node = .ok r) :
    Resolution.Grows (mayReport legacy) st r.1 := by
  unfold enterEventHandler at hr
  simp only at hr
  split at hr
  · cases hr
  · split at hr
    · simp only [Except.ok.injEq] at hr
      subst hr
      exact (Resolution.Grows.of_replaceSymbolTable _ st node).then (.of_declared _ _ _ _)
    · simp only [Except.ok.injEq] at hr
      subst hr
      exact (Resolution.Grows.of_replaceSymbolTable _ st node).then
        (.of_report _ _ (mayReport_event legacy))

/-- The visit of an event handler that returns has entered, walked the children from
there and resolved the pending jumps. -/
theorem visitEventHandler_returns (legacy : Bool)
    {f : Resolution → Place → LSLASTNode → Except Fault (Resolution × LSLASTNode)}
    {st : Resolution} {place : Place} {node : LSLASTNode}
    {r : Resolution × LSLASTNode × Bool}
    (hr : visitEventHandler legacy f st place node = .ok r) :
    ∃ st0 node0 st1 body, enterEventHandler st place node = .ok (st0, node0)
      ∧ st0.mPendingJumps = []
      ∧ visitChildren f st0 { place with path := [] } node0 = .ok (st1, body)
      ∧ resolvePendingJumps legacy st1 body = .ok (r.1, r.2.1) ∧ r.2.2 = false := by
  unfold visitEventHandler at hr
  unfold enterEventHandler
  simp only at hr ⊢
  cases hid : (replaceSymbolTable st node).2.getChild 0 with
  | none => rw [hid] at hr; cases hr
  | some id =>
    simp only [hid] at hr ⊢
    cases hl : (replaceSymbolTable st node).1.lookupSymbol
        (place.root.getD ((replaceSymbolTable st node).2.scopesFrom place.scopes))
        id.getName .SYM_EVENT with
    | none =>
      simp only [hl] at hr ⊢
      split at hr
      · cases hr
      · rename_i hp
        split at hr
        · cases hr
        · rename_i st3 node3 hch
          split at hr
          · cases hr
          · rename_i st4 node4 hj
            simp only [Except.ok.injEq] at hr
            subst hr
            exact ⟨_, _, st3, node3, rfl, by simpa using hp, hch, hj, rfl⟩
    | some sym =>
      simp only [hl] at hr ⊢
      split at hr
      · cases hr
      · rename_i hp
        split at hr
        · cases hr
        · rename_i st3 node3 hch
          split at hr
          · cases hr
          · rename_i st4 node4 hj
            simp only [Except.ok.injEq] at hr
            subst hr
            exact ⟨_, _, st3, node3, rfl, by simpa using hp, hch, hj, rfl⟩

theorem visitEventHandler_grows (legacy : Bool)
    {f : Resolution → Place → LSLASTNode → Except Fault (Resolution × LSLASTNode)}
    (hf : Resolution.Growing (mayReport legacy) f) {st : Resolution} (place : Place)
    {node : LSLASTNode} {r : Resolution × LSLASTNode × Bool}
    (hr : visitEventHandler legacy f st place node = .ok r) :
    Resolution.Grows (mayReport legacy) st r.1 := by
  obtain ⟨st0, node0, st1, body, he, _, hch, hj, _⟩ := visitEventHandler_returns legacy hr
  exact (enterEventHandler_grows legacy place he).then
    ((visitChildren_grows hf _ hch).then (resolvePendingJumps_grows legacy hj))

theorem visitLabel_grows (allowed : ErrorCode → Prop) {st : Resolution} (place : Place)
    {node : LSLASTNode} {r : Resolution × LSLASTNode × Bool}
    (hr : visitLabel st place node = .ok r) : Resolution.Grows allowed st r.1 := by
  unfold visitLabel at hr
  cases hid : node.getChild 0 with
  | none => rw [hid] at hr; cases hr
  | some id =>
    rw [hid] at hr
    simp only [Except.ok.injEq] at hr
    subst hr
    exact (Resolution.Grows.of_declared allowed st _ _).then (.of_lists _ rfl rfl rfl)

theorem visitStateStatement_grows {allowed : ErrorCode → Prop} (h : allowed .E_UNDECLARED)
    {st : Resolution} (place : Place) {node : LSLASTNode}
    {r : Resolution × LSLASTNode × Bool}
    (hr : visitStateStatement st place node = .ok r) : Resolution.Grows allowed st r.1 := by
  unfold visitStateStatement at hr
  cases hid : node.getChild 0 with
  | none => rw [hid] at hr; cases hr
  | some id =>
    rw [hid] at hr
    simp only [Except.ok.injEq] at hr
    subst hr
    exact .of_resolveSymbol st _ id _ h

theorem visitSpecific_grows (legacy : Bool) (fuel : Nat)
    {f : Resolution → Place → LSLASTNode → Except Fault (Resolution × LSLASTNode)}
    (hf : Resolution.Growing (mayReport legacy) f) {st : Resolution} (place : Place)
    {node : LSLASTNode} {r : Resolution × LSLASTNode × Bool}
    (hr : visitSpecific legacy fuel f st place node = .ok r) :
    Resolution.Grows (mayReport legacy) st r.1 := by
  unfold visitSpecific at hr
  split at hr
  · exact visitScript_grows legacy fuel place hr
  · exact visitGlobalFunction_grows legacy hf place hr
  · simp only [Except.ok.injEq] at hr
    subst hr
    exact register_func_param_symbols_grows _ st place node false
  · cases hr; exact .same_state _ _
  · exact visitEventHandler_grows legacy hf place hr
  · simp only [Except.ok.injEq] at hr
    subst hr
    exact register_func_param_symbols_grows _ st place node true
  · split at hr
    · exact visitDeclaration_grows legacy hf place hr
    · exact visitLabel_grows _ place hr
    · unfold visitJumpStatement at hr
      simp only [Except.ok.injEq] at hr
      subst hr
      exact .of_lists _ rfl rfl rfl
    · exact visitStateStatement_grows (mayReport_undeclared legacy) place hr
    · unfold visitCompoundStatement at hr
      simp only [Except.ok.injEq] at hr
      subst hr
      exact .of_replaceSymbolTable _ st node
    · cases hr; exact .same_state _ _
  · split at hr
    · exact visitLValueExpression_grows (mayReport_undeclared legacy) place hr
    · exact visitFunctionExpression_grows (mayReport_undeclared legacy) place hr
    · cases hr; exact .same_state _ _
  · cases hr; exact .same_state _ _

/-- The pass only adds: symbols, tables, entries of tables and reports, and in clean mode
no report of the two warnings about labels. -/
theorem resolve_grows (legacy : Bool) :
    ∀ fuel, Resolution.Growing (mayReport legacy) (resolve legacy fuel) := by
  intro fuel
  induction fuel with
  | zero => intro st place t r hr; cases hr
  | succ fuel ih =>
    intro st place t r hr
    simp only [resolve] at hr
    cases hv : visitSpecific legacy fuel (resolve legacy fuel) st place t with
    | error e => rw [hv] at hr; cases hr
    | ok r1 =>
      obtain ⟨st1, node1, descend⟩ := r1
      rw [hv] at hr
      simp only at hr
      have h1 : Resolution.Grows (mayReport legacy) st st1 :=
        visitSpecific_grows legacy fuel ih place hv
      cases descend with
      | false =>
        simp only [Bool.false_eq_true, if_false, Except.ok.injEq] at hr
        subst hr
        exact h1
      | true =>
        simp only [if_true] at hr
        exact h1.then (visitChildren_grows ih place hr)

/-- In clean mode a run of the pass leaves the reports of the two warnings about labels
as they were. -/
theorem resolve_clean_warnings (fuel : Nat) (st : Resolution) (place : Place)
    (t : LSLASTNode) (r : Resolution × LSLASTNode)
    (hr : resolve false fuel st place t = .ok r) :
    reportsOf .W_JUMP_TO_WRONG_LABEL r.1.errors = reportsOf .W_JUMP_TO_WRONG_LABEL st.errors
    ∧ reportsOf .W_DUPLICATE_LABEL_NAME r.1.errors
        = reportsOf .W_DUPLICATE_LABEL_NAME st.errors := by
  obtain ⟨_, _, _, added, he, ha⟩ := resolve_grows false fuel st place t r hr
  have hnone : ∀ code, (code = .W_JUMP_TO_WRONG_LABEL ∨ code = .W_DUPLICATE_LABEL_NAME) →
      reportsOf code added = [] := by
    intro code hc
    unfold reportsOf
    rw [List.filter_eq_nil_iff]
    intro e he0
    have := ha e he0 rfl
    rcases hc with rfl | rfl
    · simpa using this.1
    · simpa using this.2
  rw [he, reportsOf_append, reportsOf_append, hnone _ (Or.inl rfl), hnone _ (Or.inr rfl),
    List.append_nil, List.append_nil]
  exact ⟨rfl, rfl⟩

end SymbolResolutionVisitor

end Growing

section Jumps

namespace SymbolResolutionVisitor

open BaseSymbolResolutionVisitor

/-- The names that repeat, by position: the name at position `i` is listed when it is in
`earlier` or at a position before `i`. -/
theorem repeatedAfter_eq_filterMap (names : List String) :
    ∀ earlier : List String,
      repeatedAfter earlier names = (List.range names.length).filterMap (fun i =>
        (names.get? i).bind (fun n =>
          if n ∈ earlier ++ names.take i then some n else none)) := by
  induction names with
  | nil => intro earlier; rfl
  | cons n rest ih =>
    intro earlier
    simp only [repeatedAfter, List.length_cons, List.range_succ_eq_map, List.filterMap_cons,
      List.get?_cons_zero, Option.some_bind, List.take_zero, List.append_nil,
      List.filterMap_map, ih (earlier ++ [n])]
    have hrest : List.filterMap (fun i => (rest.get? i).bind (fun m =>
          if m ∈ earlier ++ [n] ++ List.take i rest then some m else none))
          (List.range rest.length)
        = List.filterMap ((fun i => ((n :: rest).get? i).bind (fun m =>
          if m ∈ earlier ++ List.take i (n :: rest) then some m else none)) ∘ Nat.succ)
          (List.range rest.length) := by
      apply List.filterMap_congr
      intro i _
      simp only [Function.comp, List.get?_cons_succ, List.take_succ_cons, List.append_assoc,
        List.singleton_append]
    rw [hrest]
    by_cases h : n ∈ earlier
    · simp only [if_pos h, List.singleton_append]
    · simp only [if_neg h, List.nil_append]

end SymbolResolutionVisitor

end Jumps

section Jumps

namespace SymbolResolutionVisitor

open BaseSymbolResolutionVisitor

/-- What the visit of a function or event handler leaves of a pending jump whose name no
visible label has: no symbol, and the report of the undeclared name. -/
theorem undeclared_reported (legacy : Bool) (st1 : Resolution) (body : LSLASTNode)
    (j : IdentifierRef) (id : LSLASTNode) (errors : List Diagnostic)
    (tail : List Diagnostic)
    (he : errors = st1.errors
      ++ st1.mPendingJumps.flatMap (jumpReports legacy st1 body st1.mCollectedLabels) ++ tail)
    (hj : j ∈ st1.mPendingJumps) (hid : body.nodeAt j.path = some id)
    (hv : ¬ st1.Visible j.scopes id.getName .SYM_LABEL) :
    lexicalLabel st1 body j = none
      ∧ { code := .E_UNDECLARED, name := id.getName } ∈ errors := by
  have hnone : lexicalLabel st1 body j = none := by
    rw [lexicalLabel_eq hid]
    cases hl : st1.lookupSymbol j.scopes id.getName .SYM_LABEL with
    | none => rfl
    | some p =>
      exact absurd ((st1.lookupSymbol_isSome_iff j.scopes id.getName .SYM_LABEL).mp
        (by rw [hl]; rfl)) hv
  refine ⟨hnone, ?_⟩
  rw [he]
  refine List.mem_append_left _ (List.mem_append_right _ ?_)
  rw [List.mem_flatMap]
  refine ⟨j, hj, ?_⟩
  simp only [jumpReports, hid, hnone, List.mem_singleton]

/-- C23: in clean mode the visit of a jump statement only notes the jump as pending, and
leaves the statement, the symbols, the tables and the reports as they are; the jump is
resolved in the visit of its function or event handler once the walk of all the children
has returned: the visit then returns, keeps the symbols and tables of the state `st1` the
walk has left, and gives every pending jump exactly the symbol the lookup of its name as
a label finds in `st1` through the scopes around the jump. A jump is so bound exactly when
a label of its name stands in a table of these scopes at the end of the walk, be it
declared before or after the jump; otherwise the name is reported undeclared. Neither
warning about labels is added, here or by any run of the pass in clean mode. -/
theorem clean_jump_lexical (fuel : Nat) (st : Resolution) (place : Place)
    (node : LSLASTNode) (st1 : Resolution) (body : LSLASTNode)
    (hw : ChildrenWalked (resolve false fuel) st place node st1 body)
    (hap : PendingApart st1 body) :
    (∀ (st0 : Resolution) (place0 : Place) (stmt : LSLASTNode),
      ∃ st3, visitJumpStatement st0 place0 stmt = .ok (st3, stmt, true)
        ∧ st3.mPendingJumps = st0.mPendingJumps
            ++ [{ path := place0.path ++ [0], scopes := stmt.scopesFrom place0.scopes }]
        ∧ st3.symbols = st0.symbols ∧ st3.tables = st0.tables ∧ st3.errors = st0.errors)
    ∧ (∃ st2 body1, resolve false (fuel + 1) st place node = .ok (st2, body1)
        ∧ st2.symbols = st1.symbols ∧ st2.tables = st1.tables
        ∧ (∀ j ∈ st1.mPendingJumps, ∀ id, body.nodeAt j.path = some id →
            symbolAt body1 j = st1.lookupSymbol j.scopes id.getName .SYM_LABEL
            ∧ ((symbolAt body1 j).isSome = true
                ↔ st1.Visible j.scopes id.getName .SYM_LABEL)
            ∧ (¬ st1.Visible j.scopes id.getName .SYM_LABEL →
                { code := .E_UNDECLARED, name := id.getName } ∈ st2.errors))
        ∧ reportsOf .W_JUMP_TO_WRONG_LABEL st2.errors
            = reportsOf .W_JUMP_TO_WRONG_LABEL st1.errors
        ∧ reportsOf .W_DUPLICATE_LABEL_NAME st2.errors
            = reportsOf .W_DUPLICATE_LABEL_NAME st1.errors)
    ∧ ∀ (fuel0 : Nat) (st0 : Resolution) (place0 : Place) (t : LSLASTNode)
        (r : Resolution × LSLASTNode), resolve false fuel0 st0 place0 t = .ok r →
        reportsOf .W_JUMP_TO_WRONG_LABEL r.1.errors
            = reportsOf .W_JUMP_TO_WRONG_LABEL st0.errors
          ∧ reportsOf .W_DUPLICATE_LABEL_NAME r.1.errors
            = reportsOf .W_DUPLICATE_LABEL_NAME st0.errors := by
  refine ⟨fun st0 place0 stmt => ⟨_, rfl, rfl, rfl, rfl, rfl⟩, ?_, resolve_clean_warnings⟩
  obtain ⟨st2, body1, hrun, hs, ht, _, _, he, _, hsym⟩ :=
    resolve_jumps false fuel st place node st1 body hw hap (fun h => by cases h)
  refine ⟨st2, body1, hrun, hs, ht, ?_, ?_, ?_⟩
  · intro j hj id hid
    have hsj : symbolAt body1 j = st1.lookupSymbol j.scopes id.getName .SYM_LABEL := by
      rw [hsym j hj, ← lexicalLabel_eq hid]
      simp
    refine ⟨hsj, ?_, fun hv => ?_⟩
    · rw [hsj]
      exact st1.lookupSymbol_isSome_iff j.scopes id.getName .SYM_LABEL
    · exact (undeclared_reported false st1 body j id st2.errors [] (by
        rw [he]; simp) hj hid hv).2
  · rw [he]
    simp only [Bool.false_eq_true, if_false, List.append_nil, reportsOf_append,
      reportsOf_flatMap]
    have hz : st1.mPendingJumps.flatMap (fun a => reportsOf .W_JUMP_TO_WRONG_LABEL
        (jumpReports false st1 body st1.mCollectedLabels a)) = [] := by
      rw [List.flatMap_eq_nil_iff]
      intro j hj
      cases hid : body.nodeAt j.path with
      | none => simp [jumpReports, hid, reportsOf]
      | some id =>
        have := (jumpReports_codes false st1 body st1.mCollectedLabels j id hid).2.1
        simpa using this
    rw [hz, List.append_nil]
  · rw [he]
    simp only [Bool.false_eq_true, if_false, List.append_nil, reportsOf_append,
      reportsOf_flatMap]
    have hz : st1.mPendingJumps.flatMap (fun a => reportsOf .W_DUPLICATE_LABEL_NAME
        (jumpReports false st1 body st1.mCollectedLabels a)) = [] := by
      rw [List.flatMap_eq_nil_iff]
      intro j hj
      cases hid : body.nodeAt j.path with
      | none => simp [jumpReports, hid, reportsOf]
      | some id =>
        exact (jumpReports_codes false st1 body st1.mCollectedLabels j id hid).2.2.1
    rw [hz, List.append_nil]

/-- C23 on the function `f() { jump L; @L; }`. -/
theorem clean_jump_lexical_witness :
    ChildrenWalked (resolve false 8) Sample.emptyScopes { scopes := [1, 0] }
        Sample.jumpForward (Sample.walked false Sample.jumpForward).1
        (Sample.walked false Sample.jumpForward).2
    ∧ PendingApart (Sample.walked false Sample.jumpForward).1
        (Sample.walked false Sample.jumpForward).2
    ∧ ∃ st2 body1, resolve false (8 + 1) Sample.emptyScopes { scopes := [1, 0] }
          Sample.jumpForward = .ok (st2, body1)
        ∧ st2.symbols = (Sample.walked false Sample.jumpForward).1.symbols
        ∧ symbolAt body1 { path := [2, 0, 0], scopes := [2, 1, 0] } = some 0
        ∧ reportsOf .W_JUMP_TO_WRONG_LABEL st2.errors = []
        ∧ reportsOf .W_DUPLICATE_LABEL_NAME st2.errors = [] :=
  ⟨Or.inl ⟨rfl, rfl, rfl⟩, by decide,
    (clean_jump_lexical 8 Sample.emptyScopes { scopes := [1, 0] } Sample.jumpForward
      (Sample.walked false Sample.jumpForward).1 (Sample.walked false Sample.jumpForward).2
      (Or.inl ⟨rfl, rfl, rfl⟩) (by decide)).2.1.imp (fun _ h => h.imp (fun _ h =>
        ⟨h.1, h.2.1,
          (h.2.2.2.1 { path := [2, 0, 0], scopes := [2, 1, 0] } (by decide) _ rfl).1.trans rfl,
          h.2.2.2.2.1.trans rfl, h.2.2.2.2.2.trans rfl⟩))⟩

end SymbolResolutionVisitor

end Jumps

section Jumps

namespace SymbolResolutionVisitor

open BaseSymbolResolutionVisitor

/-- C24: in legacy mode the visit of a function or event handler whose children have been
walked returns, and of every pending jump it holds: the jump gets a symbol exactly when a
label of its name stands in a table of the scopes around the jump; it is then bound to
the symbol of the last of the collected labels, in the order of their collection, that is
a label of that name, whatever scope that label stands in; and a jump without a visible
label of its name is left without a symbol and its name is reported undeclared. Here the
pending and collected pointers are apart and the assertion of the pass holds. -/
theorem legacy_jump_last_label (fuel : Nat) (st : Resolution) (place : Place)
    (node : LSLASTNode) (st1 : Resolution) (body : LSLASTNode)
    (hw : ChildrenWalked (resolve true fuel) st place node st1 body)
    (hap : PendingApart st1 body) (hcol : LabelsCollected st1 body) :
    ∃ st2 body1, resolve true (fuel + 1) st place node = .ok (st2, body1)
      ∧ ∀ j ∈ st1.mPendingJumps, ∀ id, body.nodeAt j.path = some id →
          ((symbolAt body1 j).isSome = true ↔ st1.Visible j.scopes id.getName .SYM_LABEL)
          ∧ (st1.Visible j.scopes id.getName .SYM_LABEL →
              symbolAt body1 j
                = (labelsNamed st1 body id.getName st1.mCollectedLabels).getLast?)
          ∧ (¬ st1.Visible j.scopes id.getName .SYM_LABEL →
              symbolAt body1 j = none
                ∧ { code := .E_UNDECLARED, name := id.getName } ∈ st2.errors) := by
  obtain ⟨st2, body1, hrun, _, _, _, _, he, _, hsym⟩ :=
    resolve_jumps true fuel st place node st1 body hw hap (fun _ => hcol)
  refine ⟨st2, body1, hrun, ?_⟩
  intro j hj id hid
  have hsj : symbolAt body1 j = legacyLabel st1 body st1.mCollectedLabels j := by
    rw [hsym j hj]
    simp
  have hnot : ¬ st1.Visible j.scopes id.getName .SYM_LABEL →
      symbolAt body1 j = none
        ∧ { code := .E_UNDECLARED, name := id.getName } ∈ st2.errors := by
    intro hv
    obtain ⟨hnone, hmem⟩ := undeclared_reported true st1 body j id st2.errors _
      (by rw [he]) hj hid hv
    refine ⟨?_, hmem⟩
    rw [hsj]
    simp only [legacyLabel, hnone, Option.none_bind]
  refine ⟨⟨fun hs => ?_, fun hv => ?_⟩, fun hv => ?_, hnot⟩
  · by_contra hv
    rw [(hnot hv).1] at hs
    cases hs
  · rw [hsj]
    exact hcol j hj (by
      rw [lexicalLabel_eq hid]
      exact (st1.lookupSymbol_isSome_iff j.scopes id.getName .SYM_LABEL).mpr hv)
  · rw [hsj]
    exact legacyLabel_eq hid hv

/-- C24 on the function `f() { @L; jump L; { @L; } }`. -/
theorem legacy_jump_last_label_witness :
    ChildrenWalked (resolve true 8) Sample.emptyScopes { scopes := [1, 0] }
        Sample.jumpPastVisible (Sample.walked true Sample.jumpPastVisible).1
        (Sample.walked true Sample.jumpPastVisible).2
    ∧ PendingApart (Sample.walked true Sample.jumpPastVisible).1
        (Sample.walked true Sample.jumpPastVisible).2
    ∧ LabelsCollected (Sample.walked true Sample.jumpPastVisible).1
        (Sample.walked true Sample.jumpPastVisible).2
    ∧ ∃ st2 body1, resolve true (8 + 1) Sample.emptyScopes { scopes := [1, 0] }
          Sample.jumpPastVisible = .ok (st2, body1)
        ∧ symbolAt body1 { path := [2, 1, 0], scopes := [2, 1, 0] } = some 1 :=
  ⟨Or.inl ⟨rfl, rfl, rfl⟩, by decide, by decide,
    (legacy_jump_last_label 8 Sample.emptyScopes { scopes := [1, 0] } Sample.jumpPastVisible
      (Sample.walked true Sample.jumpPastVisible).1
      (Sample.walked true Sample.jumpPastVisible).2
      (Or.inl ⟨rfl, rfl, rfl⟩) (by decide) (by decide)).imp (fun _ h => h.imp (fun _ h =>
        ⟨h.1,
          ((h.2 { path := [2, 1, 0], scopes := [2, 1, 0] } (by decide) _ rfl).2.1
            ⟨2, by decide, 0, by decide, _, rfl, rfl, Or.inr rfl⟩).trans rfl⟩))⟩

/-- C25: in legacy mode the visit of a function or event handler whose children have been
walked returns with the reports of the pending jumps, in the order of the jumps, and the
warnings of the duplicate labels after those it had; the reports of a pending jump hold
the wrong-label warning once when the symbol the jump is left with differs from the one
the lexical lookup finds, and not at all when the two are the same; so the warnings of
the visit are as many as the pending jumps whose symbol differs. Here the pending and
collected pointers are apart and the assertion of the pass holds. -/
theorem wrong_label_iff (fuel : Nat) (st : Resolution) (place : Place)
    (node : LSLASTNode) (st1 : Resolution) (body : LSLASTNode)
    (hw : ChildrenWalked (resolve true fuel) st place node st1 body)
    (hap : PendingApart st1 body) (hcol : LabelsCollected st1 body) :
    ∃ st2 body1, resolve true (fuel + 1) st place node = .ok (st2, body1)
      ∧ st2.errors = st1.errors
          ++ st1.mPendingJumps.flatMap (jumpReports true st1 body st1.mCollectedLabels)
          ++ duplicateReports body st1.mCollectedLabels
      ∧ (∀ j ∈ st1.mPendingJumps,
          (reportsOf .W_JUMP_TO_WRONG_LABEL
              (jumpReports true st1 body st1.mCollectedLabels j)).length
            = if symbolAt body1 j = lexicalLabel st1 body j then 0 else 1)
      ∧ (reportsOf .W_JUMP_TO_WRONG_LABEL st2.errors).length
          = (reportsOf .W_JUMP_TO_WRONG_LABEL st1.errors).length
            + (st1.mPendingJumps.filter
                (fun j => decide (symbolAt body1 j ≠ lexicalLabel st1 body j))).length := by
  obtain ⟨st2, body1, hrun, _, _, _, _, he, _, hsym⟩ :=
    resolve_jumps true fuel st place node st1 body hw hap (fun _ => hcol)
  have hone : ∀ j ∈ st1.mPendingJumps,
      (reportsOf .W_JUMP_TO_WRONG_LABEL
          (jumpReports true st1 body st1.mCollectedLabels j)).length
        = if symbolAt body1 j = lexicalLabel st1 body j then 0 else 1 := by
    intro j hj
    cases hid : body.nodeAt j.path with
    | none =>
      have := hap.1 j hj
      rw [hid] at this
      cases this
    | some id =>
      rw [(jumpReports_codes true st1 body st1.mCollectedLabels j id hid).2.1, hsym j hj]
      by_cases h : legacyLabel st1 body st1.mCollectedLabels j = lexicalLabel st1 body j
      · simp [h]
      · simp [h]
  refine ⟨st2, body1, hrun, by rw [he]; simp, hone, ?_⟩
  rw [he]
  simp only [if_true, reportsOf_append, reportsOf_flatMap, List.length_append,
    reportsOf_duplicateReports]
  rw [length_flatMap_indicator st1.mPendingJumps _
    (fun j => decide (symbolAt body1 j ≠ lexicalLabel st1 body j)) (fun j hj => by
      rw [hone j hj]
      by_cases h : symbolAt body1 j = lexicalLabel st1 body j
      · simp [h]
      · simp [h])]
  simp

/-- C25 on the function `f() { @L; jump L; { @L; } }`. -/
theorem wrong_label_iff_witness :
    ChildrenWalked (resolve true 8) Sample.emptyScopes { scopes := [1, 0] }
        Sample.jumpPastVisible (Sample.walked true Sample.jumpPastVisible).1
        (Sample.walked true Sample.jumpPastVisible).2
    ∧ PendingApart (Sample.walked true Sample.jumpPastVisible).1
        (Sample.walked true Sample.jumpPastVisible).2
    ∧ LabelsCollected (Sample.walked true Sample.jumpPastVisible).1
        (Sample.walked true Sample.jumpPastVisible).2
    ∧ ∃ st2 body1, resolve true (8 + 1) Sample.emptyScopes { scopes := [1, 0] }
          Sample.jumpPastVisible = .ok (st2, body1)
        ∧ st2.errors = [{ code := .W_JUMP_TO_WRONG_LABEL, name := "L" },
            { code := .W_DUPLICATE_LABEL_NAME, name := "L" }] :=
  ⟨Or.inl ⟨rfl, rfl, rfl⟩, by decide, by decide,
    (wrong_label_iff 8 Sample.emptyScopes { scopes := [1, 0] } Sample.jumpPastVisible
      (Sample.walked true Sample.jumpPastVisible).1
      (Sample.walked true Sample.jumpPastVisible).2
      (Or.inl ⟨rfl, rfl, rfl⟩) (by decide) (by decide)).imp (fun _ h => h.imp (fun _ h =>
        ⟨h.1, h.2.1.trans rfl⟩))⟩

/-- C26: the visit of a function or event handler whose children have been walked returns,
and to the duplicate-label warnings the state had it adds, in legacy mode, one for each
collected label, in the order of collection, whose name an earlier collected label has
(by position: the name at position `i` is warned of when it is among the names before
`i`), and no other; these are as many as the collected labels less the distinct names
among them, none when the names are all distinct. In clean mode the visit adds none, and
no run of the pass adds any. Here the pending and collected pointers are apart and, in
legacy mode, the assertion of the pass holds. -/
theorem duplicate_label_warnings (legacy : Bool) (fuel : Nat) (st : Resolution)
    (place : Place) (node : LSLASTNode) (st1 : Resolution) (body : LSLASTNode)
    (hw : ChildrenWalked (resolve legacy fuel) st place node st1 body)
    (hap : PendingApart st1 body) (hcol : legacy = true → LabelsCollected st1 body) :
    (∃ st2 body1, resolve legacy (fuel + 1) st place node = .ok (st2, body1)
      ∧ reportsOf .W_DUPLICATE_LABEL_NAME st2.errors
          = reportsOf .W_DUPLICATE_LABEL_NAME st1.errors
            ++ if legacy = true then duplicateReports body st1.mCollectedLabels else [])
    ∧ duplicateReports body st1.mCollectedLabels
        = (List.range (labelNames body st1.mCollectedLabels).length).filterMap (fun i =>
            ((labelNames body st1.mCollectedLabels).get? i).bind (fun n =>
              if n ∈ (labelNames body st1.mCollectedLabels).take i
              then some { code := .W_DUPLICATE_LABEL_NAME, name := n } else none))
    ∧ (labelNames body st1.mCollectedLabels).length = st1.mCollectedLabels.length
    ∧ (duplicateReports body st1.mCollectedLabels).length
        = st1.mCollectedLabels.length - (labelNames body st1.mCollectedLabels).dedup.length
    ∧ ((labelNames body st1.mCollectedLabels).Nodup →
        duplicateReports body st1.mCollectedLabels = [])
    ∧ ∀ (fuel0 : Nat) (st0 : Resolution) (place0 : Place) (t : LSLASTNode)
        (r : Resolution × LSLASTNode), resolve false fuel0 st0 place0 t = .ok r →
        reportsOf .W_DUPLICATE_LABEL_NAME r.1.errors
          = reportsOf .W_DUPLICATE_LABEL_NAME st0.errors := by
  obtain ⟨st2, body1, hrun, _, _, _, _, he, _, _⟩ :=
    resolve_jumps legacy fuel st place node st1 body hw hap hcol
  have hlen := labelNames_length body st1.mCollectedLabels hap.2.1
  refine ⟨⟨st2, body1, hrun, ?_⟩, ?_, hlen, ?_, ?_,
    fun fuel0 st0 place0 t r hr => (resolve_clean_warnings fuel0 st0 place0 t r hr).2⟩
  · rw [he]
    simp only [reportsOf_append, reportsOf_flatMap]
    have hz : st1.mPendingJumps.flatMap (fun a => reportsOf .W_DUPLICATE_LABEL_NAME
        (jumpReports legacy st1 body st1.mCollectedLabels a)) = [] := by
      rw [List.flatMap_eq_nil_iff]
      intro j hj
      cases hid : body.nodeAt j.path with
      | none => simp [jumpReports, hid, reportsOf]
      | some id =>
        exact (jumpReports_codes legacy st1 body st1.mCollectedLabels j id hid).2.2.1
    rw [hz, List.append_nil]
    cases legacy with
    | false => simp [reportsOf]
    | true => simp [reportsOf_duplicateReports]
  · unfold duplicateReports
    rw [repeatedAfter_eq_filterMap, List.map_filterMap]
    apply List.filterMap_congr
    intro i _
    cases (labelNames body st1.mCollectedLabels).get? i with
    | none => rfl
    | some n =>
      simp only [Option.some_bind, List.nil_append]
      by_cases h : n ∈ (labelNames body st1.mCollectedLabels).take i
      · simp [h]
      · simp [h]
  · unfold duplicateReports
    rw [List.length_map, repeatedAfter_count, hlen]
  · intro hnd
    unfold duplicateReports
    rw [repeatedAfter_nodup _ hnd]
    rfl

/-- C26 on the function `f() { @L; jump L; { @L; } }`. -/
theorem duplicate_label_warnings_witness :
    ChildrenWalked (resolve true 8) Sample.emptyScopes { scopes := [1, 0] }
        Sample.jumpPastVisible (Sample.walked true Sample.jumpPastVisible).1
        (Sample.walked true Sample.jumpPastVisible).2
    ∧ PendingApart (Sample.walked true Sample.jumpPastVisible).1
        (Sample.walked true Sample.jumpPastVisible).2
    ∧ (true = true → LabelsCollected (Sample.walked true Sample.jumpPastVisible).1
        (Sample.walked true Sample.jumpPastVisible).2)
    ∧ ∃ st2 body1, resolve true (8 + 1) Sample.emptyScopes { scopes := [1, 0] }
          Sample.jumpPastVisible = .ok (st2, body1)
        ∧ reportsOf .W_DUPLICATE_LABEL_NAME st2.errors
            = [{ code := .W_DUPLICATE_LABEL_NAME, name := "L" }] :=
  ⟨Or.inl ⟨rfl, rfl, rfl⟩, by decide, fun _ => by decide,
    (duplicate_label_warnings true 8 Sample.emptyScopes { scopes := [1, 0] }
      Sample.jumpPastVisible (Sample.walked true Sample.jumpPastVisible).1
      (Sample.walked true Sample.jumpPastVisible).2
      (Or.inl ⟨rfl, rfl, rfl⟩) (by decide) (fun _ => by decide)).1.imp
        (fun _ h => h.imp (fun _ h => ⟨h.1, h.2.trans rfl⟩))⟩

end SymbolResolutionVisitor

end Jumps

section Jumps

namespace SymbolResolutionVisitor

open BaseSymbolResolutionVisitor

/-- C27 (counterexample): on `f() { jump L; { @L; } }` in legacy mode the pass leaves the jump unresolved: the
lookup from the jump does not go through the table of the nested block, the name is
reported undeclared, the jump has no symbol and no wrong-label warning is given; so it is
for the function alone below two empty scopes and for the script of the function. -/
theorem jumpIntoNested_legacy_unresolved :
    (∃ st2 body1, resolve true 9 Sample.emptyScopes { scopes := [1, 0] }
        Sample.jumpIntoNested = .ok (st2, body1)
      ∧ st2.errors = [{ code := .E_UNDECLARED, name := "L" }]
      ∧ symbolAt body1 { path := [2, 0, 0], scopes := [2, 1, 0] } = none
      ∧ symbolAt body1 { path := [2, 1, 0, 0], scopes := [3, 2, 1, 0] } = some 0)
    ∧ ∃ st2 script1, resolve true 12 Sample.builtinsOnly { scopes := [0] }
        (Sample.script [Sample.jumpIntoNested] []) = .ok (st2, script1)
      ∧ st2.errors = [{ code := .E_UNDECLARED, name := "L" }]
      ∧ (script1.nodeAt [0, 0, 1, 2, 0, 0]).bind LSLASTNode.getSymbol = none :=
  ⟨⟨_, _, rfl, rfl, rfl, rfl⟩, ⟨_, _, rfl, rfl, rfl⟩⟩

/-- C27 (amended): on `f() { jump L; { @L; } }` the jump fails to resolve in
both modes; the name is reported undeclared, the jump is left without a symbol and no
warning is given. The retargeting of legacy mode shows where a label of the name is
visible from the jump: on `f() { @L; jump L; { @L; } }` the jump is bound to the nested
label, the one collected last, with the wrong-label warning and the duplicate-label
warning, and in clean mode to the visible label without a report. -/
theorem jump_into_nested_unresolved (legacy : Bool) :
    (∃ st2 body1, resolve legacy 9 Sample.emptyScopes { scopes := [1, 0] }
        Sample.jumpIntoNested = .ok (st2, body1)
      ∧ st2.errors = [{ code := .E_UNDECLARED, name := "L" }]
      ∧ symbolAt body1 { path := [2, 0, 0], scopes := [2, 1, 0] } = none)
    ∧ (∃ st2 body1, resolve true 9 Sample.emptyScopes { scopes := [1, 0] }
        Sample.jumpPastVisible = .ok (st2, body1)
      ∧ st2.errors = [{ code := .W_JUMP_TO_WRONG_LABEL, name := "L" },
          { code := .W_DUPLICATE_LABEL_NAME, name := "L" }]
      ∧ symbolAt body1 { path := [2, 1, 0], scopes := [2, 1, 0] }
          = symbolAt body1 { path := [2, 2, 0, 0], scopes := [3, 2, 1, 0] }
      ∧ symbolAt body1 { path := [2, 2, 0, 0], scopes := [3, 2, 1, 0] } = some 1
      ∧ symbolAt body1 { path := [2, 0, 0], scopes := [2, 1, 0] } = some 0)
    ∧ ∃ st2 body1, resolve false 9 Sample.emptyScopes { scopes := [1, 0] }
        Sample.jumpPastVisible = .ok (st2, body1)
      ∧ st2.errors = []
      ∧ symbolAt body1 { path := [2, 1, 0], scopes := [2, 1, 0] } = some 0 := by
  refine ⟨?_, ⟨_, _, rfl, rfl, rfl, rfl, rfl⟩, ⟨_, _, rfl, rfl, rfl⟩⟩
  cases legacy
  · exact ⟨_, _, rfl, rfl, rfl⟩
  · exact ⟨_, _, rfl, rfl, rfl⟩

end SymbolResolutionVisitor

end Jumps

section Phases

open BaseSymbolResolutionVisitor

namespace BaseSymbolResolutionVisitor

theorem visitChildrenFrom_length
    (f : Resolution → Place → LSLASTNode → Except Fault (Resolution × LSLASTNode))
    (scopes root path : List Nat) :
    ∀ (cs : List LSLASTNode) (i : Nat) (st : Resolution) (r : Resolution × List LSLASTNode),
      visitChildrenFrom f scopes root path i st cs = .ok r → r.2.length = cs.length := by
  intro cs
  induction cs with
  | nil =>
    intro i st r hr
    simp only [visitChildrenFrom, Except.ok.injEq] at hr
    subst hr
    rfl
  | cons a cs ih =>
    intro i st r hr
    simp only [visitChildrenFrom] at hr
    cases ha : f st { scopes := scopes, root := some root, path := path ++ [i] } a with
    | error e => rw [ha] at hr; cases hr
    | ok r1 =>
      obtain ⟨st1, a1⟩ := r1
      rw [ha] at hr
      simp only at hr
      cases hrest : visitChildrenFrom f scopes root path (i + 1) st1 cs with
      | error e => rw [hrest] at hr; cases hr
      | ok r2 =>
        obtain ⟨st2, rest1⟩ := r2
        rw [hrest] at hr
        simp only [Except.ok.injEq] at hr
        subst hr
        simp only [List.length_cons, ih (i + 1) st1 (st2, rest1) hrest]

/-- The walk of a list of children, seen from the child at position `k`: the children
before it are walked first, the child is visited from the state they leave, and what the
visit returns stands at position `k` of the result. -/
theorem visitChildrenFrom_at
    (f : Resolution → Place → LSLASTNode → Except Fault (Resolution × LSLASTNode))
    (scopes root path : List Nat) :
    ∀ (cs : List LSLASTNode) (i : Nat) (st st2 : Resolution) (cs2 : List LSLASTNode)
      (k : Nat) (c : LSLASTNode),
      visitChildrenFrom f scopes root path i st cs = .ok (st2, cs2) → cs.get? k = some c →
      ∃ stk front stk1 c2,
        visitChildrenFrom f scopes root path i st (cs.take k) = .ok (stk, front)
        ∧ f stk { scopes := scopes, root := some root, path := path ++ [i + k] } c
            = .ok (stk1, c2)
        ∧ cs2.get? k = some c2
        ∧ visitChildrenFrom f scopes root path (i + k + 1) stk1 (cs.drop (k + 1))
            = .ok (st2, cs2.drop (k + 1)) := by
  intro cs
  induction cs with
  | nil => intro i st st2 cs2 k c _ hk; cases hk
  | cons a cs ih =>
    intro i st st2 cs2 k c hr hk
    simp only [visitChildrenFrom] at hr
    cases ha : f st { scopes := scopes, root := some root, path := path ++ [i] } a with
    | error e => rw [ha] at hr; cases hr
    | ok r1 =>
      obtain ⟨st1, a1⟩ := r1
      rw [ha] at hr
      simp only at hr
      cases hrest : visitChildrenFrom f scopes root path (i + 1) st1 cs with
      | error e => rw [hrest] at hr; cases hr
      | ok r2 =>
        obtain ⟨st3, rest1⟩ := r2
        rw [hrest] at hr
        simp only [Except.ok.injEq, Prod.mk.injEq] at hr
        obtain ⟨rfl, rfl⟩ := hr
        cases k with
        | zero =>
          simp only [List.get?_cons_zero, Option.some.injEq] at hk
          subst hk
          exact ⟨st, [], st1, a1, rfl, ha, rfl, hrest⟩
        | succ k =>
          simp only [List.get?_cons_succ] at hk
          obtain ⟨stk, front, stk1, c2, h1, h2, h3, h4⟩ := ih (i + 1) st1 st3 rest1 k c hrest hk
          refine ⟨stk, a1 :: front, stk1, c2, ?_, ?_, ?_, ?_⟩
          · simp only [List.take_succ_cons, visitChildrenFrom, ha, h1]
          · have : i + (k + 1) = i + 1 + k := by omega
            rw [this]
            exact h2
          · simp only [List.get?_cons_succ]
            exact h3
          · have : i + (k + 1) + 1 = i + 1 + k + 1 := by omega
            rw [this]
            simp only [List.drop_succ_cons]
            exact h4

theorem visitChildren_data
    {f : Resolution → Place → LSLASTNode → Except Fault (Resolution × LSLASTNode)}
    {st : Resolution} {place : Place} {node : LSLASTNode} {r : Resolution × LSLASTNode}
    (hr : visitChildren f st place node = .ok r) :
    ∃ cs2, visitChildrenFrom f (node.scopesFrom place.scopes)
        (place.root.getD (node.scopesFrom place.scopes)) place.path 0 st node.children
          = .ok (r.1, cs2)
      ∧ r.2 = .mk node.data cs2 := by
  unfold visitChildren at hr
  cases hc : visitChildrenFrom f (node.scopesFrom place.scopes)
      (place.root.getD (node.scopesFrom place.scopes)) place.path 0 st node.children with
  | error e => rw [hc] at hr; cases hr
  | ok r1 =>
    obtain ⟨st1, cs1⟩ := r1
    rw [hc] at hr
    simp only [Except.ok.injEq] at hr
    subst hr
    exact ⟨cs1, rfl, rfl⟩

end BaseSymbolResolutionVisitor

theorem LSLASTNode.getName_replaceChild (n c : LSLASTNode) (i : Nat) :
    (n.replaceChild i c).getName = n.getName := rfl

theorem LSLASTNode.getName_setSymbolTable (n : LSLASTNode) (t : Option Nat) :
    (n.setSymbolTable t).getName = n.getName := rfl

theorem LSLASTNode.getChild_setSymbolTable (n : LSLASTNode) (t : Option Nat) (i : Nat) :
    (n.setSymbolTable t).getChild i = n.getChild i := rfl

namespace GlobalSymbolResolutionVisitor

/-- The global phase leaves every node its name. -/
theorem resolve_name_global :
    ∀ (fuel : Nat) (st : Resolution) (place : Place) (t : LSLASTNode)
      (r : Resolution × LSLASTNode), resolve fuel st place t = .ok r →
      r.2.getName = t.getName := by
  intro fuel
  induction fuel with
  | zero => intro st place t r hr; cases hr
  | succ fuel _ =>
    intro st place t r hr
    simp only [resolve] at hr
    cases hv : visitSpecific (resolve fuel) st place t with
    | error e => rw [hv] at hr; cases hr
    | ok r1 =>
      obtain ⟨st1, node1, descend⟩ := r1
      rw [hv] at hr
      simp only at hr
      have h1 : node1.getName = t.getName := by
        unfold visitSpecific at hv
        split at hv
        · unfold visitGlobalVariable at hv
          split at hv
          · cases hv
          · rename_i st0 node0 hch
            obtain ⟨cs2, _, hn0⟩ := visitChildren_data hch
            simp only at hn0
            split at hv
            · cases hv
            · simp only [Except.ok.injEq, Prod.mk.injEq] at hv
              obtain ⟨_, rfl, _⟩ := hv
              rw [LSLASTNode.getName_replaceChild, hn0]
              rfl
        · unfold visitGlobalFunction at hv
          simp only at hv
          split at hv
          · cases hv
          · simp only [Except.ok.injEq, Prod.mk.injEq] at hv
            obtain ⟨_, rfl, _⟩ := hv
            rfl
        · unfold visitState at hv
          simp only at hv
          split at hv
          · cases hv
          · simp only [Except.ok.injEq, Prod.mk.injEq] at hv
            obtain ⟨_, rfl, _⟩ := hv
            rfl
        · split at hv
          · unfold visitLValueExpression at hv
            split at hv
            · cases hv
            · simp only [Except.ok.injEq, Prod.mk.injEq] at hv
              obtain ⟨_, rfl, _⟩ := hv
              rfl
          · unfold visitFunctionExpression at hv
            split at hv
            · cases hv
            · simp only [Except.ok.injEq, Prod.mk.injEq] at hv
              obtain ⟨_, rfl, _⟩ := hv
              rfl
          · simp only [Except.ok.injEq, Prod.mk.injEq] at hv
            obtain ⟨_, rfl, _⟩ := hv
            rfl
        · simp only [Except.ok.injEq, Prod.mk.injEq] at hv
          obtain ⟨_, rfl, _⟩ := hv
          rfl
      cases descend with
      | false =>
        simp only [Bool.false_eq_true, if_false, Except.ok.injEq] at hr
        subst hr
        exact h1
      | true =>
        simp only [if_true] at hr
        obtain ⟨cs2, _, hn⟩ := visitChildren_data hr
        rw [hn, ← h1]
        rfl

end GlobalSymbolResolutionVisitor

end Phases

section Phases

open BaseSymbolResolutionVisitor

namespace GlobalSymbolResolutionVisitor

theorem itemKind_function {n : LSLASTNode} (h : n.getNodeType = .NODE_GLOBAL_FUNCTION) :
    itemKind n = some .SYM_FUNCTION := by
  simp only [itemKind, h]

theorem itemKind_state {n : LSLASTNode} (h : n.getNodeType = .NODE_STATE) :
    itemKind n = some .SYM_STATE := by
  simp only [itemKind, h]

theorem itemKind_variable {n : LSLASTNode} (h : n.getNodeType = .NODE_GLOBAL_VARIABLE) :
    itemKind n = some .SYM_VARIABLE := by
  simp only [itemKind, h]

theorem itemKind_cases {n : LSLASTNode} (h : (itemKind n).isSome = true) :
    n.getNodeType = .NODE_GLOBAL_VARIABLE ∨ n.getNodeType = .NODE_GLOBAL_FUNCTION
      ∨ n.getNodeType = .NODE_STATE := by
  unfold itemKind at h
  split at h
  · exact Or.inl (by assumption)
  · exact Or.inr (Or.inl (by assumption))
  · exact Or.inr (Or.inr (by assumption))
  · cases h

/-- A node the global visitor passes through is visited by walking its children. -/
theorem resolve_passesThrough (fuel : Nat) (st : Resolution) (place : Place)
    (n : LSLASTNode) (h : passesThrough n = true) :
    resolve (fuel + 1) st place n = visitChildren (resolve fuel) st place n := by
  have hv : visitSpecific (resolve fuel) st place n = .ok (st, n, true) := by
    unfold passesThrough itemKind isReference at h
    unfold visitSpecific
    split
    · rename_i hnt; simp [hnt] at h
    · rename_i hnt; simp [hnt] at h
    · rename_i hnt; simp [hnt] at h
    · rename_i hnt
      split
      · rename_i hst; simp [hnt, hst] at h
      · rename_i hst; simp [hnt, hst] at h
      · rfl
    · rfl
  simp only [resolve, hv, if_true]

/-- What the visit of a global function or a state by the global visitor returns, whatever
the fuel of the walk and whatever stands below the node: the node with a table of its own
and its identifier bound to the new symbol, which is defined in the table of the parent
scope; no child is visited. -/
theorem resolve_function_or_state (fuel : Nat) (st : Resolution) (place : Place)
    (node id : LSLASTNode)
    (hnt : node.getNodeType = .NODE_GLOBAL_FUNCTION ∨ node.getNodeType = .NODE_STATE)
    (hid : node.getChild 0 = some id) :
    ∃ sym : LSLSymbol,
      resolve (fuel + 1) st place node = .ok
        (({ st with tables := st.tables ++ [[]], symbols := st.symbols ++ [sym] }
            : Resolution).defineSymbol place.scopes st.symbols.length,
          (node.setSymbolTable (some st.tables.length)).replaceChild 0
            (id.setSymbol (some st.symbols.length)))
      ∧ sym.name = id.getName ∧ some sym.symbolType = itemKind node := by
  rcases hnt with hnt | hnt
  · refine ⟨{ name := id.getName, type := id.getType, symbolType := .SYM_FUNCTION,
              subType := .SYM_GLOBAL,
              functionDecl :=
                functionDecl ((node.setSymbolTable (some st.tables.length)).getChild 1) },
      ?_, rfl, (itemKind_function hnt).symm⟩
    have hid1 : (replaceSymbolTable st node).2.getChild 0 = some id := hid
    simp only [resolve, visitSpecific, hnt, visitGlobalFunction, hid1, Bool.false_eq_true,
      if_false]
    rfl
  · refine ⟨{ name := id.getName, type := id.getType, symbolType := .SYM_STATE,
              subType := .SYM_GLOBAL }, ?_, rfl, (itemKind_state hnt).symm⟩
    have hid1 : (replaceSymbolTable st node).2.getChild 0 = some id := hid
    simp only [resolve, visitSpecific, hnt, visitState, hid1, Bool.false_eq_true, if_false]
    rfl

theorem resolve_returns_identifier {fuel : Nat} {st : Resolution} {place : Place}
    {node : LSLASTNode} {r : Resolution × LSLASTNode}
    (hnt : node.getNodeType = .NODE_GLOBAL_FUNCTION ∨ node.getNodeType = .NODE_STATE)
    (hr : resolve fuel st place node = .ok r) : ∃ id, node.getChild 0 = some id := by
  cases fuel with
  | zero => cases hr
  | succ fuel =>
    cases hid : node.getChild 0 with
    | some id => exact ⟨id, rfl⟩
    | none =>
      have hid1 : (replaceSymbolTable st node).2.getChild 0 = none := hid
      rcases hnt with hnt | hnt
      · simp [resolve, visitSpecific, hnt, visitGlobalFunction, hid1] at hr
      · simp [resolve, visitSpecific, hnt, visitState, hid1] at hr

end GlobalSymbolResolutionVisitor

end Phases

section Phases

open BaseSymbolResolutionVisitor

namespace GlobalSymbolResolutionVisitor

theorem Defined.lift {allowed : ErrorCode → Prop} {stk1 st2 : Resolution}
    {c2 : LSLASTNode} {table : Nat} {q : List Nat} {x : LSLASTNode}
    (h : Defined stk1 c2 table q x) (hg : Resolution.Grows allowed stk1 st2)
    (d : NodeData) {cs2 : List LSLASTNode} {i : Nat} (hc : cs2.get? i = some c2) :
    Defined st2 (.mk d cs2) table (i :: q) x := by
  obtain ⟨id, p, sym, hid, hsym, hget, hname, hkind, hmem, hkeep⟩ := h
  have hstep : ∀ q0, (LSLASTNode.mk d cs2).nodeAt (i :: q0) = c2.nodeAt q0 := by
    intro q0
    simp only [LSLASTNode.nodeAt, LSLASTNode.getChild, LSLASTNode.children, hc]
  refine ⟨id, p, sym, hid, ?_, hg.1 p sym hget, hname, hkind, hg.2.2.1 table p hmem, ?_⟩
  · rw [List.cons_append, hstep]
    exact hsym
  · intro hnt i0 hi0
    rw [hstep]
    exact hkeep hnt i0 hi0

theorem defined_function_or_state (fuel : Nat) (st : Resolution) (place : Place)
    (node : LSLASTNode) (st2 : Resolution) (node2 : LSLASTNode) (table : Nat)
    (rest : List Nat)
    (hnt : node.getNodeType = .NODE_GLOBAL_FUNCTION ∨ node.getNodeType = .NODE_STATE)
    (hr : resolve (fuel + 1) st place node = .ok (st2, node2))
    (hsc : place.scopes = table :: rest) (hlt : table < st.tables.length) :
    Defined st2 node2 table [] node := by
  obtain ⟨id, hid⟩ := resolve_returns_identifier hnt hr
  obtain ⟨sym, hrun, hname, hkind⟩ := resolve_function_or_state fuel st place node id hnt hid
  rw [hrun] at hr
  simp only [Except.ok.injEq, Prod.mk.injEq] at hr
  obtain ⟨rfl, rfl⟩ := hr
  have hid1 : (node.setSymbolTable (some st.tables.length)).getChild 0 = some id := hid
  refine ⟨id, st.symbols.length, sym, hid, ?_, ?_, hname, hkind, ?_, ?_⟩
  · simp only [List.nil_append, LSLASTNode.nodeAt,
      LSLASTNode.getChild_replaceChild_self _ _ hid1, Option.some_bind]
    rfl
  · rw [Resolution.defineSymbol_symbols]
    simp [List.get?_eq_getElem?]
  · rw [hsc]
    exact Resolution.defineSymbol_defines _ table rest _ (by
      simp only [List.length_append, List.length_singleton]
      omega)
  · intro _ i hi
    simp only [LSLASTNode.nodeAt, Option.some_bind]
    rw [LSLASTNode.getChild_replaceChild_ne _ _ (Nat.ne_of_lt hi)]
    rfl

theorem defined_variable (fuel : Nat) (st : Resolution) (place : Place)
    (node : LSLASTNode) (st2 : Resolution) (node2 : LSLASTNode) (table : Nat)
    (rest : List Nat) (hnt : node.getNodeType = .NODE_GLOBAL_VARIABLE)
    (hr : resolve (fuel + 1) st place node = .ok (st2, node2))
    (hno : node.getSymbolTable = none)
    (hsc : place.scopes = table :: rest) (hlt : table < st.tables.length) :
    Defined st2 node2 table [] node := by
  simp only [resolve, visitSpecific, hnt, visitGlobalVariable] at hr
  cases hch : visitChildren (resolve fuel) st place node with
  | error e => rw [hch] at hr; cases hr
  | ok r1 =>
    obtain ⟨st1, node1⟩ := r1
    rw [hch] at hr
    simp only at hr
    cases hid1 : node1.getChild 0 with
    | none => rw [hid1] at hr; cases hr
    | some id1 =>
      rw [hid1] at hr
      simp only [Bool.false_eq_true, if_false, Except.ok.injEq, Prod.mk.injEq] at hr
      obtain ⟨rfl, rfl⟩ := hr
      obtain ⟨cs2, hfrom, hn1⟩ := visitChildren_data hch
      simp only at hfrom hn1
      have hlen := visitChildrenFrom_length _ _ _ _ _ _ _ _ hfrom
      simp only at hlen
      have hcs2 : cs2.get? 0 = some id1 := by
        rw [hn1] at hid1
        exact hid1
      cases hid : node.children.get? 0 with
      | none =>
        rw [List.get?_eq_none] at hid
        have h0 : cs2.length = 0 := by omega
        rw [List.length_eq_zero] at h0
        rw [h0] at hcs2
        cases hcs2
      | some id =>
        obtain ⟨stk, front, stk1, c2, htake, hvisit, hget, _⟩ :=
          visitChildrenFrom_at _ _ _ _ _ _ _ _ _ _ _ hfrom hid
        rw [hcs2] at hget
        cases hget
        have hname : id1.getName = id.getName := resolve_name_global _ _ _ _ _ hvisit
        have hg : Resolution.Grows (fun _ => True) st st1 :=
          visitChildren_grows (resolve_grows_global trivial fuel) place hch
        have hnode2 : ∀ c, (node1.replaceChild 0 c).scopesFrom place.scopes
            = table :: rest := by
          intro c
          rw [hn1]
          simp only [LSLASTNode.scopesFrom, LSLASTNode.getSymbolTable, LSLASTNode.replaceChild,
            LSLASTNode.data] at hno ⊢
          rw [hno]
          exact hsc
        refine ⟨id, st1.symbols.length,
          { name := id1.getName, type := id1.getType, symbolType := .SYM_VARIABLE,
            subType := .SYM_GLOBAL }, hid, ?_, ?_, hname, (itemKind_variable hnt).symm,
          ?_, fun h => absurd hnt h⟩
        · simp only [List.nil_append, LSLASTNode.nodeAt,
            LSLASTNode.getChild_replaceChild_self _ _ hid1, Option.some_bind]
          rfl
        · rw [Resolution.defineSymbol_symbols]
          exact Resolution.newSymbol_get st1 _
        · rw [hnode2]
          exact Resolution.defineSymbol_defines _ table rest _ (Nat.lt_of_lt_of_le hlt hg.2.1)

/-- The global phase defines every item it reaches in the table of the scope around
it. -/
theorem resolve_defines : ∀ fuel, Defines (resolve fuel) := by
  intro fuel
  induction fuel with
  | zero => intro st place node st2 node2 table rest hr; cases hr
  | succ fuel ih =>
    intro st place node st2 node2 table rest hr hno hsc hlt q x hreach
    cases hreach with
    | here _ hitem =>
      rcases itemKind_cases hitem with hnt | hnt | hnt
      · exact defined_variable fuel st place node st2 node2 table rest hnt hr hno.here hsc hlt
      · exact defined_function_or_state fuel st place node st2 node2 table rest
          (Or.inl hnt) hr hsc hlt
      · exact defined_function_or_state fuel st place node st2 node2 table rest
          (Or.inr hnt) hr hsc hlt
    | child _ i c q _ hpass hc hrc =>
      rw [resolve_passesThrough fuel st place node hpass] at hr
      obtain ⟨cs2, hfrom, hn2⟩ := visitChildren_data hr
      simp only at hfrom hn2
      subst hn2
      obtain ⟨stk, front, stk1, c2, htake, hvisit, hget, hdrop⟩ :=
        visitChildrenFrom_at _ _ _ _ _ _ _ _ _ _ _ hfrom hc
      have hg1 : Resolution.Grows (fun _ => True) st stk :=
        visitChildrenFrom_grows (resolve_grows_global trivial fuel) _ _ _ _ _ _ _ htake
      have hg2 : Resolution.Grows (fun _ => True) stk1 st2 :=
        visitChildrenFrom_grows (resolve_grows_global trivial fuel) _ _ _ _ _ _ _ hdrop
      have hscope : node.scopesFrom place.scopes = table :: rest := by
        have := hno.here
        simp only [LSLASTNode.scopesFrom, this]
        exact hsc
      have hd := ih stk _ c stk1 c2 table rest hvisit
        (hno.child (List.mem_iff_get?.mpr ⟨i, hc⟩)) hscope
        (Nat.lt_of_lt_of_le hlt hg1.2.1) q x hrc
      exact hd.lift hg2 node.data hget

end GlobalSymbolResolutionVisitor

end Phases

section Phases

open BaseSymbolResolutionVisitor

namespace GlobalSymbolResolutionVisitor

/-- A node with the kind and the children of a shaped node is shaped and as high. -/
theorem Shaped.of_same_kind {a b : LSLASTNode} (h : Shaped a)
    (hc : b.children = a.children) (hnt : b.getNodeType = a.getNodeType)
    (hst : b.getNodeSubType = a.getNodeSubType) : Shaped b ∧ b.height = a.height := by
  obtain ⟨da, ca⟩ := a
  obtain ⟨db, cb⟩ := b
  simp only [LSLASTNode.children] at hc
  subst hc
  refine ⟨?_, by rw [LSLASTNode.height_mk, LSLASTNode.height_mk]⟩
  unfold Shaped at h ⊢
  rw [LSLASTNode.all_mk_iff] at h ⊢
  refine ⟨?_, h.2⟩
  have h1 := h.1
  simp only [itemKind, isReference, LSLASTNode.getNodeType, LSLASTNode.getNodeSubType,
    LSLASTNode.data, LSLASTNode.getChild, LSLASTNode.children] at h1 hnt hst ⊢
  simp only [hnt, hst]
  exact h1

theorem resolveSymbol_same_kind (st : Resolution) (scopes : List Nat) (id : LSLASTNode)
    (type : LSLSymbolType) :
    (st.resolveSymbol scopes id type).2.children = id.children
      ∧ (st.resolveSymbol scopes id type).2.getNodeType = id.getNodeType
      ∧ (st.resolveSymbol scopes id type).2.getNodeSubType = id.getNodeSubType := by
  unfold Resolution.resolveSymbol
  cases st.lookupSymbol scopes id.getName type <;> exact ⟨rfl, rfl, rfl⟩

theorem visitChildrenFrom_total {fuel : Nat}
    (ih : ∀ t : LSLASTNode, t.height ≤ fuel → Shaped t →
      ∀ st place, ∃ r, resolve fuel st place t = .ok r)
    (scopes root path : List Nat) :
    ∀ (cs : List LSLASTNode), (∀ c ∈ cs, c.height ≤ fuel ∧ Shaped c) →
      ∀ (i : Nat) (st : Resolution),
        ∃ r, visitChildrenFrom (resolve fuel) scopes root path i st cs = .ok r := by
  intro cs
  induction cs with
  | nil => intro _ i st; exact ⟨_, rfl⟩
  | cons a cs ihcs =>
    intro h i st
    obtain ⟨⟨st1, a1⟩, ha⟩ := ih a (h a (List.mem_cons_self _ _)).1
      (h a (List.mem_cons_self _ _)).2 st
      { scopes := scopes, root := some root, path := path ++ [i] }
    obtain ⟨⟨st2, rest1⟩, hrest⟩ := ihcs (fun c hc => h c (List.mem_cons_of_mem _ hc))
      (i + 1) st1
    simp only [visitChildrenFrom, ha, hrest]
    exact ⟨_, rfl⟩

theorem visitChildren_total_global {fuel : Nat}
    (ih : ∀ t : LSLASTNode, t.height ≤ fuel → Shaped t →
      ∀ st place, ∃ r, resolve fuel st place t = .ok r)
    (node : LSLASTNode) (hh : node.height ≤ fuel + 1) (hs : Shaped node)
    (st : Resolution) (place : Place) :
    ∃ r, visitChildren (resolve fuel) st place node = .ok r := by
  obtain ⟨d, cs⟩ := node
  obtain ⟨⟨st1, cs1⟩, hrun⟩ := visitChildrenFrom_total ih
    ((LSLASTNode.mk d cs).scopesFrom place.scopes)
    (place.root.getD ((LSLASTNode.mk d cs).scopesFrom place.scopes)) place.path cs
    (fun c hc => ⟨by
        have := LSLASTNode.height_lt_of_mem hc d
        omega, LSLASTNode.All.child hs hc⟩) 0 st
  simp only [visitChildren, LSLASTNode.children, hrun]
  exact ⟨_, rfl⟩

/-- The global phase returns on a tree every node of which has the identifier the visitor
takes, for every fuel not below the height of the tree. -/
theorem resolve_total_global :
    ∀ (fuel : Nat) (t : LSLASTNode), t.height ≤ fuel → Shaped t →
      ∀ (st : Resolution) (place : Place), ∃ r, resolve fuel st place t = .ok r := by
  intro fuel
  induction fuel with
  | zero =>
    intro t hh
    have := t.height_pos
    omega
  | succ fuel ih =>
    intro t hh hs st place
    by_cases hitem : (itemKind t).isSome = true
    · obtain ⟨id, hid⟩ := Option.isSome_iff_exists.mp (hs.here (Or.inl hitem))
      rcases itemKind_cases hitem with hnt | hnt | hnt
      · obtain ⟨⟨st1, node1⟩, hch⟩ := visitChildren_total_global ih t hh hs st place
        obtain ⟨cs2, hfrom, hn1⟩ := visitChildren_data hch
        simp only at hfrom hn1
        have hlen := visitChildrenFrom_length _ _ _ _ _ _ _ _ hfrom
        simp only at hlen
        have hlt : 0 < t.children.length := by
          by_contra h0
          have : t.children.get? 0 = none := List.get?_eq_none.mpr (by omega)
          rw [LSLASTNode.getChild, this] at hid
          cases hid
        cases hid1 : node1.getChild 0 with
        | none =>
          rw [hn1, LSLASTNode.getChild, LSLASTNode.children, List.get?_eq_none] at hid1
          omega
        | some id1 =>
          simp only [resolve, visitSpecific, hnt, visitGlobalVariable, hch, hid1,
            Bool.false_eq_true, if_false]
          exact ⟨_, rfl⟩
      · obtain ⟨sym, hrun, _⟩ := resolve_function_or_state fuel st place t id (Or.inl hnt) hid
        exact ⟨_, hrun⟩
      · obtain ⟨sym, hrun, _⟩ := resolve_function_or_state fuel st place t id (Or.inr hnt) hid
        exact ⟨_, hrun⟩
    · by_cases href : isReference t = true
      · obtain ⟨id, hid⟩ := Option.isSome_iff_exists.mp (hs.here (Or.inr href))
        have href0 := href
        simp only [isReference, Bool.and_eq_true, Bool.or_eq_true, decide_eq_true_eq] at href0
        obtain ⟨hnt, hst | hst⟩ := href0
        · simp only [resolve, visitSpecific, hnt, hst, visitLValueExpression, hid,
            Bool.false_eq_true, if_false]
          exact ⟨_, rfl⟩
        · have hkind := resolveSymbol_same_kind st (t.scopesFrom place.scopes) id .SYM_FUNCTION
          have hid_shaped : Shaped id :=
            LSLASTNode.All.child hs (List.mem_iff_get?.mpr ⟨0, hid⟩)
          obtain ⟨hs1, hh1⟩ := hid_shaped.of_same_kind hkind.1 hkind.2.1 hkind.2.2
          have hnode1 : Shaped (t.replaceChild 0
                (st.resolveSymbol (t.scopesFrom place.scopes) id .SYM_FUNCTION).2)
              ∧ (t.replaceChild 0
                (st.resolveSymbol (t.scopesFrom place.scopes) id .SYM_FUNCTION).2).height
                ≤ fuel + 1 := by
            obtain ⟨d, cs⟩ := t
            simp only [LSLASTNode.getChild, LSLASTNode.children] at hid
            have hmem : ∀ c ∈ cs.set 0
                (st.resolveSymbol ((LSLASTNode.mk d cs).scopesFrom place.scopes) id
                  .SYM_FUNCTION).2,
                Shaped c ∧ c.height ≤ fuel := by
              intro c hc
              rcases List.mem_or_eq_of_mem_set hc with hc | hc
              · exact ⟨LSLASTNode.All.child hs hc, by
                  have := LSLASTNode.height_lt_of_mem hc d
                  omega⟩
              · subst hc
                refine ⟨hs1, ?_⟩
                rw [hh1]
                have := LSLASTNode.height_lt_of_mem (List.mem_iff_get?.mpr ⟨0, hid⟩) d
                omega
            constructor
            · unfold Shaped
              rw [LSLASTNode.replaceChild, LSLASTNode.all_mk_iff]
              refine ⟨?_, fun c hc => (hmem c hc).1⟩
              intro _
              simp only [LSLASTNode.getChild, LSLASTNode.children, LSLASTNode.data]
              cases cs with
              | nil => cases hid
              | cons a rest => rfl
            · rw [LSLASTNode.replaceChild, LSLASTNode.height_mk]
              have hmax : ∀ (l : List LSLASTNode), (∀ c ∈ l, c.height ≤ fuel) →
                  LSLASTNode.height.heightList l ≤ fuel := by
                intro l
                induction l with
                | nil => intro _; simp [LSLASTNode.height.heightList]
                | cons a l ihl =>
                  intro hl
                  simp only [LSLASTNode.height.heightList]
                  have h1 := hl a (List.mem_cons_self _ _)
                  have h2 := ihl (fun c hc => hl c (List.mem_cons_of_mem _ hc))
                  omega
              have := hmax _ (fun c hc => (hmem c hc).2)
              simp only [LSLASTNode.children, LSLASTNode.data]
              omega
          obtain ⟨r, hrun⟩ := visitChildren_total_global ih _ hnode1.2 hnode1.1
            (st.resolveSymbol (t.scopesFrom place.scopes) id .SYM_FUNCTION).1 place
          simp only [resolve, visitSpecific, hnt, hst, visitFunctionExpression, hid,
            if_true, hrun]
          exact ⟨_, rfl⟩
      · have hpass : passesThrough t = true := by
          simp only [passesThrough, Bool.and_eq_true, Option.isNone_iff_eq_none,
            Bool.not_eq_true']
          refine ⟨?_, by simpa using href⟩
          cases hk : itemKind t with
          | none => rfl
          | some k => rw [hk] at hitem; exact absurd rfl hitem
        rw [resolve_passesThrough fuel st place t hpass]
        exact visitChildren_total_global ih t hh hs st place

end GlobalSymbolResolutionVisitor

end Phases

section Phases

open BaseSymbolResolutionVisitor

namespace SymbolResolutionVisitor

/-- The global phase, run from `visit(LSLScript *)`, returns and leaves every item it
reaches defined in the new table of the script. -/
theorem visitScript_defines (fuel : Nat) (st : Resolution) (place : Place)
    (script : LSLASTNode) (hnt : script.getNodeType = .NODE_SCRIPT)
    (hkids : ∀ c ∈ script.children, c.All (fun x => x.getSymbolTable = none))
    (hshape : GlobalSymbolResolutionVisitor.Shaped script) (hfuel : script.height ≤ fuel) :
    ∃ st2 script2, visitScript fuel st place script = .ok (st2, script2, true)
      ∧ script2.getSymbolTable = some st.tables.length
      ∧ Resolution.Grows (fun c => c = .E_UNDECLARED) st st2
      ∧ ∀ q x, GlobalSymbolResolutionVisitor.Reaches script q x →
          GlobalSymbolResolutionVisitor.Defined st2 script2 st.tables.length q x := by
  obtain ⟨hs1, hh1⟩ := hshape.of_same_kind
    (b := script.setSymbolTable (some st.tables.length)) rfl rfl rfl
  obtain ⟨⟨st2, script2⟩, hrun⟩ := GlobalSymbolResolutionVisitor.resolve_total_global fuel
    (script.setSymbolTable (some st.tables.length)) (by rw [hh1]; exact hfuel) hs1
    { st with tables := st.tables ++ [[]] } place
  have hgrow : Resolution.Grows (fun c => c = .E_UNDECLARED)
      { st with tables := st.tables ++ [[]] } st2 :=
    @GlobalSymbolResolutionVisitor.resolve_grows_global (fun c => c = .E_UNDECLARED)
      rfl fuel _ _ _ _ hrun
  have hvs : visitScript fuel st place script = .ok (st2, script2, true) := by
    have : GlobalSymbolResolutionVisitor.resolve fuel (replaceSymbolTable st script).1 place
        (replaceSymbolTable st script).2 = .ok (st2, script2) := hrun
    simp only [visitScript, this]
  cases fuel with
  | zero => cases hrun
  | succ fuel =>
    have hpass : GlobalSymbolResolutionVisitor.passesThrough
        (script.setSymbolTable (some st.tables.length)) = true := by
      have h1 : (script.setSymbolTable (some st.tables.length)).getNodeType = .NODE_SCRIPT := hnt
      simp [GlobalSymbolResolutionVisitor.passesThrough, GlobalSymbolResolutionVisitor.itemKind,
        GlobalSymbolResolutionVisitor.isReference, h1]
    rw [GlobalSymbolResolutionVisitor.resolve_passesThrough fuel _ place _ hpass] at hrun
    obtain ⟨cs2, hfrom, hn2⟩ := visitChildren_data hrun
    simp only at hfrom hn2
    subst hn2
    refine ⟨st2, _, hvs, rfl,
      (Resolution.Grows.of_replaceSymbolTable _ st script).then hgrow, ?_⟩
    intro q x hreach
    cases hreach with
    | here _ hitem =>
      simp [GlobalSymbolResolutionVisitor.itemKind, hnt] at hitem
    | child _ i c q _ _ hc hrc =>
      have hc1 : (script.setSymbolTable (some st.tables.length)).children.get? i = some c := hc
      obtain ⟨stk, front, stk1, c2, htake, hvisit, hget, hdrop⟩ :=
        visitChildrenFrom_at _ _ _ _ _ _ _ _ _ _ _ hfrom hc1
      have hg1 : Resolution.Grows (fun _ => True) { st with tables := st.tables ++ [[]] } stk :=
        visitChildrenFrom_grows
          (GlobalSymbolResolutionVisitor.resolve_grows_global trivial fuel) _ _ _ _ _ _ _ htake
      have hg2 : Resolution.Grows (fun _ => True) stk1 st2 :=
        visitChildrenFrom_grows
          (GlobalSymbolResolutionVisitor.resolve_grows_global trivial fuel) _ _ _ _ _ _ _ hdrop
      have hd := GlobalSymbolResolutionVisitor.resolve_defines fuel stk _ c stk1 c2
        st.tables.length place.scopes hvisit
        (hkids c (List.mem_iff_get?.mpr ⟨i, hc⟩)) rfl (by
          have := hg1.2.1
          simp only [List.length_append, List.length_singleton] at this
          omega) q x hrc
      exact hd.lift hg2 _ hget

end SymbolResolutionVisitor

end Phases

section Phases

open BaseSymbolResolutionVisitor

theorem LSLASTNode.mem_scopesFrom (n : LSLASTNode) (scopes : List Nat) :
    ∀ t ∈ scopes, t ∈ n.scopesFrom scopes := by
  intro t ht
  unfold LSLASTNode.scopesFrom
  cases n.getSymbolTable with
  | none => exact ht
  | some table => exact List.mem_cons_of_mem _ ht

namespace SymbolResolutionVisitor

/-- Where the visitor comes to in a run, the state continues the state of the start and
the scopes of the start are among the scopes there. -/
theorem Arrives.continues {legacy : Bool} {fuel : Nat} {st : Resolution} {place : Place}
    {node : LSLASTNode} {st2 : Resolution} {place2 : Place} {x : LSLASTNode}
    (h : Arrives legacy fuel st place node st2 place2 x) :
    Resolution.Grows (mayReport legacy) st st2 ∧ ∀ t ∈ place.scopes, t ∈ place2.scopes := by
  induction h with
  | here fuel st place node => exact ⟨.same_state _ _, fun _ h => h⟩
  | descend fuel st place node st1 node1 j c stj front st2 place2 x hv _ htake _ ih =>
    refine ⟨((visitSpecific_grows legacy fuel (resolve_grows legacy fuel) place hv).then
      (visitChildrenFrom_grows (resolve_grows legacy fuel) _ _ _ _ _ _ _ htake)).then ih.1,
      fun t ht => ih.2 t (node1.mem_scopesFrom _ t ht)⟩
  | function fuel st place node j c stj front st2 place2 x _ _ _ htake _ ih =>
    refine ⟨(visitChildrenFrom_grows (resolve_grows legacy fuel) _ _ _ _ _ _ _ htake).then
      ih.1, fun t ht => ih.2 t (node.mem_scopesFrom _ t ht)⟩
  | handler fuel st place node st0 node0 j c stj front st2 place2 x _ he _ _ htake _ ih =>
    refine ⟨((enterEventHandler_grows legacy place he).then
      (visitChildrenFrom_grows (resolve_grows legacy fuel) _ _ _ _ _ _ _ htake)).then ih.1,
      fun t ht => ih.2 t (node0.mem_scopesFrom _ t ht)⟩
  | declaration fuel st place node rvalue st2 place2 x _ _ _ _ ih =>
    exact ⟨ih.1, fun t ht => ih.2 t (node.mem_scopesFrom _ t ht)⟩

/-- A call of a visible function resolves: the visit reports nothing and binds the
identifier to a function symbol of its name. -/
theorem visitFunctionExpression_resolves (st : Resolution) (place : Place)
    (call id : LSLASTNode) (hid : call.getChild 0 = some id)
    (hv : st.Visible (call.scopesFrom place.scopes) id.getName .SYM_FUNCTION) :
    ∃ p sym, visitFunctionExpression st place call
        = .ok (st, call.replaceChild 0 (id.setSymbol (some p)), true)
      ∧ st.symbols.get? p = some sym ∧ sym.name = id.getName
      ∧ sym.symbolType = .SYM_FUNCTION := by
  have hs := (st.lookupSymbol_isSome_iff _ _ _).mpr hv
  cases hl : st.lookupSymbol (call.scopesFrom place.scopes) id.getName .SYM_FUNCTION with
  | none => rw [hl] at hs; cases hs
  | some p =>
    obtain ⟨_, _, _, sym, hget, hname, hty⟩ := Resolution.lookupSymbol_some hl
    refine ⟨p, sym, ?_, hget, hname, ?_⟩
    · simp only [visitFunctionExpression, hid, Resolution.resolveSymbol, hl]
    · rcases hty with hty | hty
      · cases hty
      · exact hty

/-- A state change to a visible state resolves: the visit reports nothing and binds the
identifier to a state symbol of its name. -/
theorem visitStateStatement_resolves (st : Resolution) (place : Place)
    (stmt id : LSLASTNode) (hid : stmt.getChild 0 = some id)
    (hv : st.Visible (stmt.scopesFrom place.scopes) id.getName .SYM_STATE) :
    ∃ p sym, visitStateStatement st place stmt
        = .ok (st, stmt.replaceChild 0 (id.setSymbol (some p)), true)
      ∧ st.symbols.get? p = some sym ∧ sym.name = id.getName
      ∧ sym.symbolType = .SYM_STATE := by
  have hs := (st.lookupSymbol_isSome_iff _ _ _).mpr hv
  cases hl : st.lookupSymbol (stmt.scopesFrom place.scopes) id.getName .SYM_STATE with
  | none => rw [hl] at hs; cases hs
  | some p =>
    obtain ⟨_, _, _, sym, hget, hname, hty⟩ := Resolution.lookupSymbol_some hl
    refine ⟨p, sym, ?_, hget, hname, ?_⟩
    · simp only [visitStateStatement, hid, Resolution.resolveSymbol, hl]
    · rcases hty with hty | hty
      · cases hty
      · exact hty

/-- An item defined in a table is visible, under its name and kind, wherever the table is
among the scopes. -/
theorem visible_of_defined {st2 : Resolution} {t2 : LSLASTNode} {table : Nat}
    {q : List Nat} {x : LSLASTNode}
    (h : GlobalSymbolResolutionVisitor.Defined st2 t2 table q x) {xid : LSLASTNode}
    (hx : x.getChild 0 = some xid) {kind : LSLSymbolType}
    (hk : GlobalSymbolResolutionVisitor.itemKind x = some kind) :
    st2.Visible [table] xid.getName kind := by
  obtain ⟨id, p, sym, hid, _, hget, hname, hkind, hmem, _⟩ := h
  rw [hx] at hid
  cases hid
  rw [hk] at hkind
  cases hkind
  exact ⟨table, List.mem_singleton.mpr rfl, p, hmem, sym, hget, hname, Or.inr rfl⟩

/-- Below the script the visitor comes only to states that continue the one the global
phase has left, at places whose scopes hold the table of the script. -/
theorem Arrives.after_global {legacy : Bool} {fuel : Nat} {st : Resolution} {place : Place}
    {script : LSLASTNode} {st2 : Resolution} {script2 : LSLASTNode} {st3 : Resolution}
    {place3 : Place} {x : LSLASTNode}
    (hnt : script.getNodeType = .NODE_SCRIPT)
    (hvs : visitScript fuel st place script = .ok (st2, script2, true))
    (htable : script2.getSymbolTable = some st.tables.length)
    (h : Arrives legacy (fuel + 1) st place script st3 place3 x)
    (hx : x.getNodeType ≠ .NODE_SCRIPT) :
    Resolution.Grows (mayReport legacy) st2 st3 ∧ st.tables.length ∈ place3.scopes := by
  cases h with
  | here => exact absurd hnt hx
  | descend _ _ _ _ st1 node1 j c stj front _ _ _ hv _ htake hc =>
    have hv1 : visitSpecific legacy fuel (resolve legacy fuel) st place script
        = .ok (st2, script2, true) := by
      simp only [visitSpecific, hnt, hvs]
    rw [hv1] at hv
    simp only [Except.ok.injEq, Prod.mk.injEq, and_true] at hv
    obtain ⟨rfl, rfl⟩ := hv
    obtain ⟨hg, hsc⟩ := hc.continues
    refine ⟨(visitChildrenFrom_grows (resolve_grows legacy fuel) _ _ _ _ _ _ _ htake).then hg,
      hsc _ ?_⟩
    simp only [LSLASTNode.scopesFrom, htable, List.mem_cons, true_or]
  | function _ _ _ _ _ _ _ _ _ _ _ hf => rw [hnt] at hf; cases hf
  | handler _ _ _ _ _ _ _ _ _ _ _ _ _ hf => rw [hnt] at hf; cases hf
  | declaration _ _ _ _ _ _ _ _ hf => rw [hnt] at hf; cases hf

end SymbolResolutionVisitor

end Phases

section Phases

open BaseSymbolResolutionVisitor

namespace SymbolResolutionVisitor

/-- C21: the global visitor visits a global function and a state without walking a
child: whatever stands below the node and with fuel for the one visit only, the visit
returns, tracks one new symbol and one new table, reports nothing and leaves every
child but the identifier as it was. On a script no node below which owns a table yet and
every node of which has the identifier the visitor takes, `visit(LSLScript *)` returns
for every fuel not below the height of the script, and in the state `st2` it leaves the
new table of the script holds, for every global variable, global function and state the
walk of the global phase reaches (those in the storages of the list of globals and those
of the list of states among them), a tracked symbol of the name and kind of the item, to
which the identifier of the item is bound, while every other child of a function or
state is as it was. The visitor comes to every node below the script only afterwards, in
a state that continues `st2` and at a place whose scopes hold the table of the script;
hence the visit of a call that names a reached global function, and of a state change
that names a reached state, wherever the item stands in the source, reports nothing and
binds the identifier to a symbol of that name and kind. -/
theorem globals_defined_before_bodies (legacy : Bool) (fuel : Nat) (st : Resolution)
    (place : Place) (script : LSLASTNode) (hnt : script.getNodeType = .NODE_SCRIPT)
    (hkids : ∀ c ∈ script.children, c.All (fun x => x.getSymbolTable = none))
    (hshape : GlobalSymbolResolutionVisitor.Shaped script) (hfuel : script.height ≤ fuel) :
    (∀ (fuel0 : Nat) (st0 : Resolution) (place0 : Place) (node id : LSLASTNode),
      node.getNodeType = .NODE_GLOBAL_FUNCTION ∨ node.getNodeType = .NODE_STATE →
      node.getChild 0 = some id →
      ∃ st1 node1,
        GlobalSymbolResolutionVisitor.resolve (fuel0 + 1) st0 place0 node = .ok (st1, node1)
        ∧ st1.symbols.length = st0.symbols.length + 1
        ∧ st1.tables.length = st0.tables.length + 1
        ∧ st1.errors = st0.errors
        ∧ ∀ i, 0 < i → node1.getChild i = node.getChild i)
    ∧ ∃ st2 script2, visitScript fuel st place script = .ok (st2, script2, true)
      ∧ (∀ q x, GlobalSymbolResolutionVisitor.Reaches script q x →
          GlobalSymbolResolutionVisitor.Defined st2 script2 st.tables.length q x)
      ∧ (∀ globals storage x i k, script.getChild 0 = some globals →
          GlobalSymbolResolutionVisitor.passesThrough globals = true →
          globals.getChild i = some storage →
          GlobalSymbolResolutionVisitor.passesThrough storage = true →
          storage.getChild k = some x →
          (GlobalSymbolResolutionVisitor.itemKind x).isSome = true →
          GlobalSymbolResolutionVisitor.Reaches script [0, i, k] x)
      ∧ (∀ states x j, script.getChild 1 = some states →
          GlobalSymbolResolutionVisitor.passesThrough states = true →
          states.getChild j = some x →
          (GlobalSymbolResolutionVisitor.itemKind x).isSome = true →
          GlobalSymbolResolutionVisitor.Reaches script [1, j] x)
      ∧ (∀ st3 place3 x, Arrives legacy (fuel + 1) st place script st3 place3 x →
          x.getNodeType ≠ .NODE_SCRIPT →
          Resolution.Grows (mayReport legacy) st2 st3 ∧ st.tables.length ∈ place3.scopes)
      ∧ (∀ st3 place3 call id q x xid,
          Arrives legacy (fuel + 1) st place script st3 place3 call →
          call.getNodeType = .NODE_EXPRESSION →
          call.getNodeSubType = .NODE_FUNCTION_EXPRESSION → call.getChild 0 = some id →
          GlobalSymbolResolutionVisitor.Reaches script q x →
          x.getNodeType = .NODE_GLOBAL_FUNCTION → x.getChild 0 = some xid →
          xid.getName = id.getName →
          ∃ p sym, visitFunctionExpression st3 place3 call
              = .ok (st3, call.replaceChild 0 (id.setSymbol (some p)), true)
            ∧ st3.symbols.get? p = some sym ∧ sym.name = id.getName
            ∧ sym.symbolType = .SYM_FUNCTION)
      ∧ ∀ st3 place3 stmt id q x xid,
          Arrives legacy (fuel + 1) st place script st3 place3 stmt →
          stmt.getNodeType = .NODE_STATEMENT →
          stmt.getNodeSubType = .NODE_STATE_STATEMENT → stmt.getChild 0 = some id →
          GlobalSymbolResolutionVisitor.Reaches script q x →
          x.getNodeType = .NODE_STATE → x.getChild 0 = some xid →
          xid.getName = id.getName →
          ∃ p sym, visitStateStatement st3 place3 stmt
              = .ok (st3, stmt.replaceChild 0 (id.setSymbol (some p)), true)
            ∧ st3.symbols.get? p = some sym ∧ sym.name = id.getName
            ∧ sym.symbolType = .SYM_STATE := by
  have hpass : GlobalSymbolResolutionVisitor.passesThrough script = true := by
    simp [GlobalSymbolResolutionVisitor.passesThrough, GlobalSymbolResolutionVisitor.itemKind,
      GlobalSymbolResolutionVisitor.isReference, hnt]
  refine ⟨?_, ?_⟩
  · intro fuel0 st0 place0 node id hk hid
    obtain ⟨sym, hrun, _, _⟩ :=
      GlobalSymbolResolutionVisitor.resolve_function_or_state fuel0 st0 place0 node id hk hid
    refine ⟨_, _, hrun, ?_, ?_, ?_, ?_⟩
    · rw [Resolution.defineSymbol_symbols]
      simp only [List.length_append, List.length_singleton]
    · unfold Resolution.defineSymbol
      cases place0.scopes with
      | nil => simp only [List.length_append, List.length_singleton]
      | cons table rest =>
        simp only [List.length_set, List.length_append, List.length_singleton]
    · unfold Resolution.defineSymbol
      cases place0.scopes with
      | nil => rfl
      | cons table rest => rfl
    · intro i hi
      rw [LSLASTNode.getChild_replaceChild_ne _ _ (Nat.ne_of_lt hi)]
      rfl
  · obtain ⟨st2, script2, hvs, htable, _, hdef⟩ :=
      visitScript_defines fuel st place script hnt hkids hshape hfuel
    refine ⟨st2, script2, hvs, hdef, ?_, ?_, ?_, ?_, ?_⟩
    · intro globals storage x i k hg hpg hs hps hx hitem
      exact .child _ _ _ _ _ hpass hg (.child _ _ _ _ _ hpg hs
        (.child _ _ _ _ _ hps hx (.here _ hitem)))
    · intro states x j hs hps hx hitem
      exact .child _ _ _ _ _ hpass hs (.child _ _ _ _ _ hps hx (.here _ hitem))
    · intro st3 place3 x ha hx
      exact ha.after_global hnt hvs htable hx
    · intro st3 place3 call id q x xid ha hcnt _ hid hreach hxnt hxid hname
      obtain ⟨hg, hsc⟩ := ha.after_global hnt hvs htable (by rw [hcnt]; decide)
      have hv := (visible_of_defined (hdef q x hreach) hxid
        (GlobalSymbolResolutionVisitor.itemKind_function hxnt)).of_grows hg
      rw [hname] at hv
      exact visitFunctionExpression_resolves st3 place3 call id hid
        (hv.of_scopes (fun t ht => by
          rw [List.mem_singleton] at ht
          subst ht
          exact call.mem_scopesFrom _ _ hsc))
    · intro st3 place3 stmt id q x xid ha hcnt _ hid hreach hxnt hxid hname
      obtain ⟨hg, hsc⟩ := ha.after_global hnt hvs htable (by rw [hcnt]; decide)
      have hv := (visible_of_defined (hdef q x hreach) hxid
        (GlobalSymbolResolutionVisitor.itemKind_state hxnt)).of_grows hg
      rw [hname] at hv
      exact visitStateStatement_resolves st3 place3 stmt id hid
        (hv.of_scopes (fun t ht => by
          rw [List.mem_singleton] at ht
          subst ht
          exact stmt.mem_scopesFrom _ _ hsc))

theorem Sample.forwardReferences_unscoped :
    ∀ c ∈ Sample.forwardReferences.children, c.All (fun x => x.getSymbolTable = none) := by
  simp [Sample.forwardReferences, Sample.script, Sample.function, Sample.compound,
    Sample.call, Sample.stateChange, Sample.state, Sample.identifier, LSLASTNode.newNullNode,
    LSLASTNode.children, LSLASTNode.all_mk_iff, LSLASTNode.getSymbolTable, LSLASTNode.data]

theorem Sample.forwardReferences_shaped :
    GlobalSymbolResolutionVisitor.Shaped Sample.forwardReferences := by
  simp [GlobalSymbolResolutionVisitor.Shaped, Sample.forwardReferences, Sample.script,
    Sample.function, Sample.compound, Sample.call, Sample.stateChange, Sample.state,
    Sample.identifier, LSLASTNode.newNullNode, LSLASTNode.all_mk_iff,
    GlobalSymbolResolutionVisitor.itemKind, GlobalSymbolResolutionVisitor.isReference,
    LSLASTNode.getNodeType, LSLASTNode.getNodeSubType, LSLASTNode.getChild,
    LSLASTNode.children, LSLASTNode.data]

/-- In the run of the pass on `f() { g(); state other; } g() { }` with the states
`default` and `other` the visitor comes to the call `g()` and to the state change in the
body of `f`, in the state the global phase has left with two more tables. -/
theorem Sample.forwardReferences_arrives (legacy : Bool) :
    (∃ st3, Arrives legacy 12 Sample.builtinsOnly { scopes := [0] } Sample.forwardReferences
        st3 { scopes := [6, 2, 1, 0], root := some [1, 0], path := [2, 0, 0] }
        (.mk { nodeType := .NODE_EXPRESSION, subType := .NODE_FUNCTION_EXPRESSION }
          [Sample.identifier .LST_NULL "g" none])
      ∧ st3.tables = [[], [0, 1, 2, 3], [], [], [], [], []])
    ∧ ∃ st3, Arrives legacy 12 Sample.builtinsOnly { scopes := [0] } Sample.forwardReferences
        st3 { scopes := [6, 2, 1, 0], root := some [1, 0], path := [2, 1] }
        (Sample.stateChange "other")
      ∧ st3.tables = [[], [0, 1, 2, 3], [], [], [], [], []] := by
  cases legacy
  · exact ⟨⟨_, .descend _ _ _ _ _ _ 0 _ _ _ _ _ _ rfl rfl rfl
      (.descend _ _ _ _ _ _ 0 _ _ _ _ _ _ rfl rfl rfl
        (.descend _ _ _ _ _ _ 1 _ _ _ _ _ _ rfl rfl rfl
          (.function _ _ _ _ 2 _ _ _ _ _ _ rfl rfl rfl rfl
            (.descend _ _ _ _ _ _ 0 _ _ _ _ _ _ rfl rfl rfl
              (.descend _ _ _ _ _ _ 0 _ _ _ _ _ _ rfl rfl rfl (.here _ _ _ _)))))), rfl⟩,
      ⟨_, .descend _ _ _ _ _ _ 0 _ _ _ _ _ _ rfl rfl rfl
      (.descend _ _ _ _ _ _ 0 _ _ _ _ _ _ rfl rfl rfl
        (.descend _ _ _ _ _ _ 1 _ _ _ _ _ _ rfl rfl rfl
          (.function _ _ _ _ 2 _ _ _ _ _ _ rfl rfl rfl rfl
            (.descend _ _ _ _ _ _ 1 _ _ _ _ _ _ rfl rfl rfl (.here _ _ _ _))))), rfl⟩⟩
  · exact ⟨⟨_, .descend _ _ _ _ _ _ 0 _ _ _ _ _ _ rfl rfl rfl
      (.descend _ _ _ _ _ _ 0 _ _ _ _ _ _ rfl rfl rfl
        (.descend _ _ _ _ _ _ 1 _ _ _ _ _ _ rfl rfl rfl
          (.function _ _ _ _ 2 _ _ _ _ _ _ rfl rfl rfl rfl
            (.descend _ _ _ _ _ _ 0 _ _ _ _ _ _ rfl rfl rfl
              (.descend _ _ _ _ _ _ 0 _ _ _ _ _ _ rfl rfl rfl (.here _ _ _ _)))))), rfl⟩,
      ⟨_, .descend _ _ _ _ _ _ 0 _ _ _ _ _ _ rfl rfl rfl
      (.descend _ _ _ _ _ _ 0 _ _ _ _ _ _ rfl rfl rfl
        (.descend _ _ _ _ _ _ 1 _ _ _ _ _ _ rfl rfl rfl
          (.function _ _ _ _ 2 _ _ _ _ _ _ rfl rfl rfl rfl
            (.descend _ _ _ _ _ _ 1 _ _ _ _ _ _ rfl rfl rfl (.here _ _ _ _))))), rfl⟩⟩

/-- C21 on the script `f() { g(); state other; } g() { }` with the states `default` and
`other`. -/
theorem globals_defined_before_bodies_witness :
    Sample.forwardReferences.getNodeType = .NODE_SCRIPT
    ∧ (∀ c ∈ Sample.forwardReferences.children, c.All (fun x => x.getSymbolTable = none))
    ∧ GlobalSymbolResolutionVisitor.Shaped Sample.forwardReferences
    ∧ Sample.forwardReferences.height ≤ 11
    ∧ ∃ st2 script2, visitScript 11 Sample.builtinsOnly { scopes := [0] }
          Sample.forwardReferences = .ok (st2, script2, true)
        ∧ GlobalSymbolResolutionVisitor.Defined st2 script2 1 [0, 1, 1]
            (Sample.function "g" (Sample.compound []))
        ∧ GlobalSymbolResolutionVisitor.Defined st2 script2 1 [1, 1] (Sample.state "other")
        ∧ (∀ st3 place3, Arrives true (11 + 1) Sample.builtinsOnly { scopes := [0] }
              Sample.forwardReferences st3 place3
              (.mk { nodeType := .NODE_EXPRESSION, subType := .NODE_FUNCTION_EXPRESSION }
                [Sample.identifier .LST_NULL "g" none]) →
            ∃ p sym, visitFunctionExpression st3 place3
                (.mk { nodeType := .NODE_EXPRESSION, subType := .NODE_FUNCTION_EXPRESSION }
                  [Sample.identifier .LST_NULL "g" none])
                = .ok (st3,
                    (LSLASTNode.mk
                      { nodeType := .NODE_EXPRESSION, subType := .NODE_FUNCTION_EXPRESSION }
                      [Sample.identifier .LST_NULL "g" none]).replaceChild 0
                      ((Sample.identifier .LST_NULL "g" none).setSymbol (some p)), true)
              ∧ st3.symbols.get? p = some sym ∧ sym.name = "g"
              ∧ sym.symbolType = .SYM_FUNCTION)
        ∧ ∀ st3 place3, Arrives true (11 + 1) Sample.builtinsOnly { scopes := [0] }
              Sample.forwardReferences st3 place3 (Sample.stateChange "other") →
            ∃ p sym, visitStateStatement st3 place3 (Sample.stateChange "other")
                = .ok (st3, (Sample.stateChange "other").replaceChild 0
                    ((Sample.identifier .LST_NULL "other" none).setSymbol (some p)), true)
              ∧ st3.symbols.get? p = some sym ∧ sym.name = "other"
              ∧ sym.symbolType = .SYM_STATE :=
  ⟨rfl, Sample.forwardReferences_unscoped, Sample.forwardReferences_shaped, by decide,
    (globals_defined_before_bodies true 11 Sample.builtinsOnly { scopes := [0] }
      Sample.forwardReferences rfl Sample.forwardReferences_unscoped
      Sample.forwardReferences_shaped (by decide)).2.imp (fun _ h => h.imp (fun _ h =>
        ⟨h.1,
          h.2.1 _ _ (h.2.2.1 _ _ (Sample.function "g" (Sample.compound [])) 1 1
            rfl rfl rfl rfl rfl rfl),
          h.2.1 _ _ (h.2.2.2.1 _ (Sample.state "other") 1 rfl rfl rfl rfl),
          fun st3 place3 ha => h.2.2.2.2.2.1 st3 place3 _ _ _ _ _ ha rfl rfl rfl
            (h.2.2.1 _ _ (Sample.function "g" (Sample.compound [])) 1 1
              rfl rfl rfl rfl rfl rfl) rfl rfl rfl,
          fun st3 place3 ha => h.2.2.2.2.2.2 st3 place3 _ _ _ _ _ ha rfl rfl rfl
            (h.2.2.2.1 _ (Sample.state "other") 1 rfl rfl rfl rfl) rfl rfl rfl⟩))⟩

end SymbolResolutionVisitor

end Phases

/-! ## The LSO bit stream -/

namespace LSOBitStream

theorem bytesOf_length (f : F32) : (bytesOf f).length = 4 := rfl

theorem readFloat_writeFloat (pre post : List Nat) (f : F32) (h : f.bits < 2 ^ 32) :
    readFloat { data := pre ++ (bytesOf f ++ post), pos := pre.length }
      = some (f, { data := pre ++ (bytesOf f ++ post), pos := pre.length + 4 }) := by
  unfold readFloat
  simp only [List.drop_left, bytesOf, List.cons_append, List.nil_append]
  obtain ⟨b⟩ := f
  simp only at h ⊢
  have : ((b / 2 ^ 24 % 256 * 256 + b / 2 ^ 16 % 256) * 256 + b / 2 ^ 8 % 256) * 256
      + b % 256 = b := by omega
  rw [this]

/-- C35: `operator<<` on an `LSOBitStream` appends to the stream the bytes of the
components of a `Vector3` in the order z, y, x and of a `Quaternion` in the order
s, z, y, x (four bytes each, so twelve and sixteen bytes), and changes nothing else of
the stream: the bytes already there and the read position stay. -/
theorem write_reversed_components (bs : LSOBitStream) :
    (∀ v : Vector3,
      (bs.writeVector3 v).data = bs.data ++ (bytesOf v.z ++ bytesOf v.y ++ bytesOf v.x)
        ∧ (bs.writeVector3 v).data.length = bs.data.length + 12
        ∧ (bs.writeVector3 v).pos = bs.pos
        ∧ bs.writeVector3 v = ((bs.writeFloat v.z).writeFloat v.y).writeFloat v.x) ∧
    (∀ q : Quaternion,
      (bs.writeQuaternion q).data
          = bs.data ++ (bytesOf q.s ++ bytesOf q.z ++ bytesOf q.y ++ bytesOf q.x)
        ∧ (bs.writeQuaternion q).data.length = bs.data.length + 16
        ∧ (bs.writeQuaternion q).pos = bs.pos
        ∧ bs.writeQuaternion q
            = (((bs.writeFloat q.s).writeFloat q.z).writeFloat q.y).writeFloat q.x) := by
  refine ⟨fun v => ?_, fun q => ?_⟩
  · refine ⟨?_, ?_, rfl, rfl⟩
    · simp [writeVector3, writeFloat, List.append_assoc]
    · simp [writeVector3, writeFloat, bytesOf]
  · refine ⟨?_, ?_, rfl, rfl⟩
    · simp [writeQuaternion, writeFloat, List.append_assoc]
    · simp [writeQuaternion, writeFloat, bytesOf]

/-- C39: for components that are 32-bit patterns, `operator>>` on a stream positioned at
the bytes `operator<<` has written (whatever follows them, and whatever the target held
before) yields exactly the vector, respectively the quaternion, that was written, and
leaves the read position right after those twelve, respectively sixteen, bytes. -/
theorem read_after_write (bs : LSOBitStream) (post : List Nat) :
    (∀ v v0 : Vector3, v.x.bits < 2 ^ 32 → v.y.bits < 2 ^ 32 → v.z.bits < 2 ^ 32 →
      readVector3 { data := (bs.writeVector3 v).data ++ post, pos := bs.data.length } v0
        = some (v, { data := (bs.writeVector3 v).data ++ post,
                     pos := (bs.writeVector3 v).data.length })) ∧
    (∀ q q0 : Quaternion, q.x.bits < 2 ^ 32 → q.y.bits < 2 ^ 32 → q.z.bits < 2 ^ 32 →
      q.s.bits < 2 ^ 32 →
      readQuaternion { data := (bs.writeQuaternion q).data ++ post, pos := bs.data.length }
          q0
        = some (q, { data := (bs.writeQuaternion q).data ++ post,
                     pos := (bs.writeQuaternion q).data.length })) := by
  refine ⟨fun v v0 hx hy hz => ?_, fun q q0 hx hy hz hs => ?_⟩
  · have e1 : (bs.writeVector3 v).data ++ post
        = bs.data ++ (bytesOf v.z ++ (bytesOf v.y ++ (bytesOf v.x ++ post))) := by
      simp [writeVector3, writeFloat, List.append_assoc]
    have e2 : (bs.writeVector3 v).data ++ post
        = (bs.data ++ bytesOf v.z) ++ (bytesOf v.y ++ (bytesOf v.x ++ post)) := by
      simp [writeVector3, writeFloat, List.append_assoc]
    have e3 : (bs.writeVector3 v).data ++ post
        = (bs.data ++ bytesOf v.z ++ bytesOf v.y) ++ (bytesOf v.x ++ post) := by
      simp [writeVector3, writeFloat, List.append_assoc]
    have r1 := readFloat_writeFloat bs.data (bytesOf v.y ++ (bytesOf v.x ++ post)) v.z hz
    have r2 := readFloat_writeFloat (bs.data ++ bytesOf v.z) (bytesOf v.x ++ post) v.y hy
    have r3 := readFloat_writeFloat (bs.data ++ bytesOf v.z ++ bytesOf v.y) post v.x hx
    rw [← e1] at r1
    rw [← e2] at r2
    rw [← e3] at r3
    simp only [List.length_append, bytesOf_length] at r2 r3
    have hl : (bs.writeVector3 v).data.length = bs.data.length + 4 + 4 + 4 := by
      simp [writeVector3, writeFloat, bytesOf]
    simp only [readVector3, r1, r2, r3, hl, Option.bind_eq_bind, Option.some_bind,
      Option.pure_def]
  · have e1 : (bs.writeQuaternion q).data ++ post
        = bs.data ++ (bytesOf q.s ++ (bytesOf q.z ++ (bytesOf q.y ++ (bytesOf q.x ++ post))))
        := by
      simp [writeQuaternion, writeFloat, List.append_assoc]
    have e2 : (bs.writeQuaternion q).data ++ post
        = (bs.data ++ bytesOf q.s) ++ (bytesOf q.z ++ (bytesOf q.y ++ (bytesOf q.x ++ post)))
        := by
      simp [writeQuaternion, writeFloat, List.append_assoc]
    have e3 : (bs.writeQuaternion q).data ++ post
        = (bs.data ++ bytesOf q.s ++ bytesOf q.z) ++ (bytesOf q.y ++ (bytesOf q.x ++ post))
        := by
      simp [writeQuaternion, writeFloat, List.append_assoc]
    have e4 : (bs.writeQuaternion q).data ++ post
        = (bs.data ++ bytesOf q.s ++ bytesOf q.z ++ bytesOf q.y) ++ (bytesOf q.x ++ post)
        := by
      simp [writeQuaternion, writeFloat, List.append_assoc]
    have r1 := readFloat_writeFloat bs.data
      (bytesOf q.z ++ (bytesOf q.y ++ (bytesOf q.x ++ post))) q.s hs
    have r2 := readFloat_writeFloat (bs.data ++ bytesOf q.s)
      (bytesOf q.y ++ (bytesOf q.x ++ post)) q.z hz
    have r3 := readFloat_writeFloat (bs.data ++ bytesOf q.s ++ bytesOf q.z)
      (bytesOf q.x ++ post) q.y hy
    have r4 := readFloat_writeFloat (bs.data ++ bytesOf q.s ++ bytesOf q.z ++ bytesOf q.y)
      post q.x hx
    rw [← e1] at r1
    rw [← e2] at r2
    rw [← e3] at r3
    rw [← e4] at r4
    simp only [List.length_append, bytesOf_length] at r2 r3 r4
    have hl : (bs.writeQuaternion q).data.length = bs.data.length + 4 + 4 + 4 + 4 := by
      simp [writeQuaternion, writeFloat, bytesOf]
    simp only [readQuaternion, r1, r2, r3, r4, hl, Option.bind_eq_bind, Option.some_bind,
      Option.pure_def]

/-- C39 on the vector `<1.0, 2.0, 3.0>` and the rotation `<0.0, 0.0, 0.0, 1.0>`, each
written to a stream that holds one byte already and read back from there. -/
theorem read_after_write_witness :
    (Sample.oneTwoThree.x.bits < 2 ^ 32 ∧ Sample.oneTwoThree.y.bits < 2 ^ 32
      ∧ Sample.oneTwoThree.z.bits < 2 ^ 32
      ∧ readVector3 { data := [7, 64, 64, 0, 0, 64, 0, 0, 0, 63, 128, 0, 0], pos := 1 }
          { x := ⟨0⟩, y := ⟨0⟩, z := ⟨0⟩ }
        = some (Sample.oneTwoThree,
            { data := [7, 64, 64, 0, 0, 64, 0, 0, 0, 63, 128, 0, 0], pos := 13 })) ∧
    (Sample.unitRotation.x.bits < 2 ^ 32 ∧ Sample.unitRotation.y.bits < 2 ^ 32
      ∧ Sample.unitRotation.z.bits < 2 ^ 32 ∧ Sample.unitRotation.s.bits < 2 ^ 32
      ∧ readQuaternion
          { data := [7, 63, 128, 0, 0, 0, 0, 0, 0, 0, 0, 0, 0, 0, 0, 0, 0], pos := 1 }
          { x := ⟨1⟩, y := ⟨1⟩, z := ⟨1⟩, s := ⟨1⟩ }
        = some (Sample.unitRotation,
            { data := [7, 63, 128, 0, 0, 0, 0, 0, 0, 0, 0, 0, 0, 0, 0, 0, 0],
              pos := 17 })) :=
  ⟨⟨by decide, by decide, by decide,
    (read_after_write { data := [7] } []).1 Sample.oneTwoThree _ (by decide) (by decide)
      (by decide)⟩,
   ⟨by decide, by decide, by decide, by decide,
    (read_after_write { data := [7] } []).2 Sample.unitRotation _ (by decide) (by decide)
      (by decide) (by decide)⟩⟩

end LSOBitStream

/-! ## The drivers -/

namespace Driver

theorem analysis_trace {σ : Type} (p : Passes σ) (r : Run σ) :
    (analysis p r).trace = r.trace ++ [.collect_symbols, .link_symbol_tables,
      .determine_types, .recalculate_reference_data, .propagate_values,
      .check_best_practices] := by
  simp [analysis, Run.call]

/-- The fuzz harness, unlike `main`, on a script in which typing reports one error, in
its default mode: the six analysis passes are all it runs, so neither `validate_globals`
nor `check_symbols` runs while the logger counts an error. -/
theorem fuzz_errors_skip_validation :
    (Passes.counting 1 0).get_errors
        (analysis (Passes.counting 1 0) { state := 0, trace := [] }).state = 1
      ∧ (LLVMFuzzerTestOneInput (Passes.counting 1 0) false 0 true).trace
          = [.collect_symbols, .link_symbol_tables, .determine_types,
             .recalculate_reference_data, .propagate_values, .check_best_practices]
      ∧ Call.validate_globals ∉ (LLVMFuzzerTestOneInput (Passes.counting 1 0) false 0 true).trace
      ∧ Call.check_symbols ∉ (LLVMFuzzerTestOneInput (Passes.counting 1 0) false 0 true).trace := by
  decide

/-- C36: in the driver `main`, on a parsed script the optimizer is invoked if and only if
the logger counts no error when the analysis passes (and, with `check_assertions`, the
assertion filter) are done, and `validate_globals` and `check_symbols` run in both
cases; without a script only the report is made. The fuzz harness, which is not the
command-line driver, is described alongside: there the optimizer is invoked if and only
if the harness is in its default mode and the logger counts no error after the analysis
passes, `validate_globals` runs if and only if the harness compiles to LSO or there is
no error, and `check_symbols` if and only if the optimizer does. -/
theorem optimizer_iff_no_errors {σ : Type} (p : Passes σ)
    (check_assertions pretty_print show_tree compile_lso : Bool) (parsed : σ) :
    (Call.optimize ∈ (main p check_assertions pretty_print show_tree parsed true).1.trace
        ↔ p.get_errors
            (if check_assertions then
              ((analysis p { state := parsed, trace := [] }).call p
                .filter_assert_errors).call p .set_check_assertions
             else analysis p { state := parsed, trace := [] }).state = 0)
      ∧ Call.validate_globals
          ∈ (main p check_assertions pretty_print show_tree parsed true).1.trace
      ∧ Call.check_symbols
          ∈ (main p check_assertions pretty_print show_tree parsed true).1.trace
      ∧ (main p check_assertions pretty_print show_tree parsed false).1.trace = [.report]
      ∧ (Call.optimize ∈ (LLVMFuzzerTestOneInput p compile_lso parsed true).trace
          ↔ compile_lso = false
            ∧ p.get_errors (analysis p { state := parsed, trace := [] }).state = 0)
      ∧ (Call.validate_globals ∈ (LLVMFuzzerTestOneInput p compile_lso parsed true).trace
          ↔ compile_lso = true
            ∨ p.get_errors (analysis p { state := parsed, trace := [] }).state = 0)
      ∧ (Call.check_symbols ∈ (LLVMFuzzerTestOneInput p compile_lso parsed true).trace
          ↔ compile_lso = false
            ∧ p.get_errors (analysis p { state := parsed, trace := [] }).state = 0) := by
  refine ⟨?_, ?_, ?_, ?_, ?_, ?_, ?_⟩
  · cases check_assertions <;> cases pretty_print <;> cases show_tree <;>
      simp only [main, Bool.false_eq_true, if_true, if_false] <;>
      split <;> simp_all [Run.call, analysis_trace]
  · cases check_assertions <;> cases pretty_print <;> cases show_tree <;>
      simp only [main, Bool.false_eq_true, if_true, if_false] <;>
      split <;> simp [Run.call, analysis_trace]
  · cases check_assertions <;> cases pretty_print <;> cases show_tree <;>
      simp only [main, Bool.false_eq_true, if_true, if_false] <;>
      split <;> simp [Run.call, analysis_trace]
  · cases show_tree <;> simp [main, Run.call]
  · cases compile_lso <;>
      simp only [LLVMFuzzerTestOneInput, Bool.false_eq_true, if_true, if_false] <;>
      split <;> simp_all [Run.call, analysis_trace]
  · cases compile_lso <;>
      simp only [LLVMFuzzerTestOneInput, Bool.false_eq_true, if_true, if_false] <;>
      split <;> simp_all [Run.call, analysis_trace]
  · cases compile_lso <;>
      simp only [LLVMFuzzerTestOneInput, Bool.false_eq_true, if_true, if_false] <;>
      split <;> simp_all [Run.call, analysis_trace]

end Driver

/-! ## Casts of arguments and return values, builtin constants -/

namespace DeSugaringVisitor

theorem maybeInjectCast_eq (lib : Library) (expr : LSLASTNode) (t : LSLIType) :
    maybeInjectCast lib expr t
      = if expr.getType ≠ t ∧ lib.canCoerce expr.getType t = true then
          (LSLTypecastExpression.new t expr).setLoc expr.getLoc
        else expr := by
  unfold maybeInjectCast
  by_cases h1 : t = expr.getType
  · simp [h1]
  · have h1' : expr.getType ≠ t := fun h => h1 h.symm
    cases h2 : lib.canCoerce expr.getType t <;> simp [h1, h1', h2]

theorem enclosingFunction_append (inner : List LSLASTNode) (f : LSLASTNode)
    (outer : List LSLASTNode)
    (hinner : ∀ a ∈ inner, a.getNodeType ≠ .NODE_GLOBAL_FUNCTION)
    (hf : f.getNodeType = .NODE_GLOBAL_FUNCTION) :
    enclosingFunction (inner ++ f :: outer) = some f := by
  induction inner with
  | nil => simp [enclosingFunction, hf]
  | cons a rest ih =>
    have ha := hinner a (List.mem_cons_self _ _)
    simp only [List.cons_append, enclosingFunction, ha, if_false]
    exact ih (fun b hb => hinner b (List.mem_cons_of_mem _ hb))

theorem enclosingFunction_none (ancestors : List LSLASTNode)
    (h : ∀ a ∈ ancestors, a.getNodeType ≠ .NODE_GLOBAL_FUNCTION) :
    enclosingFunction ancestors = none := by
  induction ancestors with
  | nil => rfl
  | cons a rest ih =>
    have ha := h a (List.mem_cons_self _ _)
    simp only [enclosingFunction, ha, if_false]
    exact ih (fun b hb => h b (List.mem_cons_of_mem _ hb))

/-- C33: the visit of a return statement by the desugaring pass. With an expression
(child 0 is not the null placeholder) and `f` the nearest global function among the
ancestors, child 0 is put through the `maybeInjectCast` rule with the type of the
identifier of `f`: it is wrapped in a typecast to that type when its type differs from it
and can be coerced to it, and stays as it is otherwise. Without an expression, and
outside of every global function, the statement is left unchanged. -/
theorem return_cast_to_function_type (lib : Library) (store : SymbolStore)
    (ancestors : List LSLASTNode) (d : NodeData) (expr : LSLASTNode)
    (rest : List LSLASTNode)
    (hnode : d.nodeType = .NODE_STATEMENT) (hsub : d.subType = .NODE_RETURN_STATEMENT) :
    (expr.getNodeType = .NODE_NULL →
      visitSpecific lib store ancestors (.mk d (expr :: rest))
        = some { node := .mk d (expr :: rest) })
    ∧ (∀ (inner : List LSLASTNode) (f : LSLASTNode) (outer : List LSLASTNode)
        (id : LSLASTNode),
        expr.getNodeType ≠ .NODE_NULL →
        ancestors = inner ++ f :: outer →
        (∀ a ∈ inner, a.getNodeType ≠ .NODE_GLOBAL_FUNCTION) →
        f.getNodeType = .NODE_GLOBAL_FUNCTION → f.getChild 0 = some id →
        visitSpecific lib store ancestors (.mk d (expr :: rest))
          = some { node := .mk d
                     ((if expr.getType ≠ id.getType
                            ∧ lib.canCoerce expr.getType id.getType = true
                        then (LSLTypecastExpression.new id.getType expr).setLoc expr.getLoc
                        else expr) :: rest) })
    ∧ (expr.getNodeType ≠ .NODE_NULL →
        (∀ a ∈ ancestors, a.getNodeType ≠ .NODE_GLOBAL_FUNCTION) →
        visitSpecific lib store ancestors (.mk d (expr :: rest))
          = some { node := .mk d (expr :: rest) }) := by
  have hvs : visitSpecific lib store ancestors (.mk d (expr :: rest))
      = visitReturnStatement lib ancestors (.mk d (expr :: rest)) := by
    simp only [visitSpecific, LSLASTNode.getNodeSubType, LSLASTNode.data, hsub]
  have hg0 : (LSLASTNode.mk d (expr :: rest)).getChild 0 = some expr := rfl
  have hself : (LSLASTNode.mk d (expr :: rest)).getNodeType ≠ .NODE_GLOBAL_FUNCTION := by
    simp [LSLASTNode.getNodeType, LSLASTNode.data, hnode]
  refine ⟨fun hnull => ?_, fun inner f outer id hexpr hanc hinner hf hid => ?_,
    fun hexpr hnone => ?_⟩
  · rw [hvs]
    simp [visitReturnStatement, hg0, hnull]
  · rw [hvs]
    have henc : enclosingFunction (LSLASTNode.mk d (expr :: rest) :: ancestors) = some f := by
      rw [hanc]
      exact enclosingFunction_append (LSLASTNode.mk d (expr :: rest) :: inner) f outer
        (fun a ha => by
          rcases List.mem_cons.1 ha with ha | ha
          · rw [ha]; exact hself
          · exact hinner a ha) hf
    simp only [visitReturnStatement, hg0, Option.bind_eq_bind, Option.some_bind, hexpr,
      if_false, henc, hid, Option.pure_def, maybeInjectCast_eq, LSLASTNode.replaceChild,
      LSLASTNode.data, LSLASTNode.children, List.set_cons_zero]
  · rw [hvs]
    have henc : enclosingFunction (LSLASTNode.mk d (expr :: rest) :: ancestors) = none :=
      enclosingFunction_none _ (fun a ha => by
        rcases List.mem_cons.1 ha with ha | ha
        · rw [ha]; exact hself
        · exact hnone a ha)
    simp only [visitReturnStatement, hg0, Option.bind_eq_bind, Option.some_bind, hexpr,
      if_false, henc, Option.pure_def]

/-- C33 on `float f() { return 1; }`: the integer 1 is wrapped in a typecast to float. -/
theorem return_cast_to_function_type_witness :
    Sample.returnOne.data.nodeType = .NODE_STATEMENT
      ∧ Sample.returnOne.data.subType = .NODE_RETURN_STATEMENT
      ∧ (LSLConstantExpression.new (.integer 1)).getNodeType ≠ .NODE_NULL
      ∧ Sample.floatFunction.getNodeType = .NODE_GLOBAL_FUNCTION
      ∧ Sample.floatFunction.getChild 0
          = some (Sample.identifier .LST_FLOATINGPOINT "f" (some 0))
      ∧ visitSpecific Library.sample Sample.locals
          [Sample.compound [Sample.returnOne], Sample.floatFunction] Sample.returnOne
        = some { node := .mk { nodeType := .NODE_STATEMENT,
                               subType := .NODE_RETURN_STATEMENT }
                   [LSLTypecastExpression.new .LST_FLOATINGPOINT
                     (LSLConstantExpression.new (.integer 1))] } :=
  ⟨rfl, rfl, by decide, rfl, rfl,
    ((return_cast_to_function_type Library.sample Sample.locals
        [Sample.compound [Sample.returnOne], Sample.floatFunction]
        Sample.returnOne.data (LSLConstantExpression.new (.integer 1)) [] rfl rfl).2.1
      [Sample.compound [Sample.returnOne]] Sample.floatFunction []
      (Sample.identifier .LST_FLOATINGPOINT "f" (some 0)) (by decide) rfl
      (by decide) rfl rfl).trans rfl⟩

/-- C34: the visit of an lvalue by the desugaring pass, the identifier of which is bound
to the symbol `sym`. When the symbol is a builtin variable and the lvalue holds a
constant, the lvalue is replaced, at its location, and the visit does not descend: a
vector constant gives a vector expression over the float constant expressions of x, y,
z, a quaternion constant a quaternion expression over those of x, y, z, s, each holding
the original constant, and a constant of another type gives the constant expression of
that constant; the node put for a vector or quaternion constant is no constant
expression. When the symbol is no variable or is not builtin, or the lvalue holds no
constant, the lvalue stays and is not replaced. -/
theorem builtin_constant_replaced (store : SymbolStore) (d : NodeData) (id : LSLASTNode)
    (rest : List LSLASTNode) (sym : Nat) (hsym : id.getSymbol = some sym) :
    ((store sym).symbolType = .SYM_VARIABLE → (store sym).subType = .SYM_BUILTIN →
      (∀ x y z, d.constantValue = some (.vector x y z) →
        visitLValueExpression store (.mk d (id :: rest))
          = some { node := .mk { nodeType := .NODE_EXPRESSION,
                                 subType := .NODE_VECTOR_EXPRESSION, type := .LST_VECTOR,
                                 constantValue := some (.vector x y z), loc := d.loc }
                     [(LSLConstantExpression.new (.float x)).setLoc d.loc,
                      (LSLConstantExpression.new (.float y)).setLoc d.loc,
                      (LSLConstantExpression.new (.float z)).setLoc d.loc],
                   replaced := true, descend := false })
      ∧ (∀ x y z s, d.constantValue = some (.quaternion x y z s) →
        visitLValueExpression store (.mk d (id :: rest))
          = some { node := .mk { nodeType := .NODE_EXPRESSION,
                                 subType := .NODE_QUATERNION_EXPRESSION,
                                 type := .LST_QUATERNION,
                                 constantValue := some (.quaternion x y z s),
                                 loc := d.loc }
                     [(LSLConstantExpression.new (.float x)).setLoc d.loc,
                      (LSLConstantExpression.new (.float y)).setLoc d.loc,
                      (LSLConstantExpression.new (.float z)).setLoc d.loc,
                      (LSLConstantExpression.new (.float s)).setLoc d.loc],
                   replaced := true, descend := false })
      ∧ (∀ cv, d.constantValue = some cv → cv.getIType ≠ .LST_VECTOR →
          cv.getIType ≠ .LST_QUATERNION →
        visitLValueExpression store (.mk d (id :: rest))
          = some { node := (LSLConstantExpression.new cv).setLoc d.loc,
                   replaced := true, descend := false })
      ∧ (∀ cv v, d.constantValue = some cv →
          (cv.getIType = .LST_VECTOR ∨ cv.getIType = .LST_QUATERNION) →
          visitLValueExpression store (.mk d (id :: rest)) = some v →
          v.node.getNodeSubType ≠ .NODE_CONSTANT_EXPRESSION)
      ∧ (d.constantValue = none →
        visitLValueExpression store (.mk d (id :: rest))
          = some { node := .mk d (id :: rest) }))
    ∧ (((store sym).symbolType ≠ .SYM_VARIABLE ∨ (store sym).subType ≠ .SYM_BUILTIN) →
        visitLValueExpression store (.mk d (id :: rest))
          = some { node := .mk d (id :: rest), replaced := false }) := by
  have hs : (LSLASTNode.mk d (id :: rest)).getIdentifierSymbol = some (some sym) := by
    simp [LSLASTNode.getIdentifierSymbol, LSLASTNode.getChild, LSLASTNode.children, hsym]
  have hcv : (LSLASTNode.mk d (id :: rest)).getConstantValue = d.constantValue := rfl
  have hloc : (LSLASTNode.mk d (id :: rest)).getLoc = d.loc := rfl
  refine ⟨fun hvar hbuiltin => ⟨?_, ?_, ?_, ?_, ?_⟩, fun hno => ?_⟩
  · intro x y z hc
    simp only [visitLValueExpression, hs, Option.bind_eq_bind, Option.some_bind, hvar,
      hbuiltin, ne_eq, not_true_eq_false, if_false, hcv, hc, Option.pure_def, hloc,
      axisExpression]
    rfl
  · intro x y z s hc
    simp only [visitLValueExpression, hs, Option.bind_eq_bind, Option.some_bind, hvar,
      hbuiltin, ne_eq, not_true_eq_false, if_false, hcv, hc, Option.pure_def, hloc,
      axisExpression]
    rfl
  · intro cv hc hv hq
    simp only [visitLValueExpression, hs, Option.bind_eq_bind, Option.some_bind, hvar,
      hbuiltin, ne_eq, not_true_eq_false, if_false, hcv, hc, Option.pure_def, hloc]
    cases cv <;> first | rfl | exact absurd rfl hv | exact absurd rfl hq
  · intro cv v hc hvq hv
    simp only [visitLValueExpression, hs, Option.bind_eq_bind, Option.some_bind, hvar,
      hbuiltin, ne_eq, not_true_eq_false, if_false, hcv, hc, Option.pure_def, hloc,
      Option.some.injEq] at hv
    subst hv
    cases cv <;> simp [LSLConstant.getIType] at hvq <;>
      simp [LSLASTNode.getNodeSubType, LSLASTNode.setLoc, LSLASTNode.setConstantValue,
        LSLVectorExpression.new, LSLQuaternionExpression.new, LSLASTNode.data]
  · intro hc
    simp only [visitLValueExpression, hs, Option.bind_eq_bind, Option.some_bind, hvar,
      hbuiltin, ne_eq, not_true_eq_false, if_false, hcv, hc, Option.pure_def]
  · by_cases hvar : (store sym).symbolType = .SYM_VARIABLE
    · have hb : (store sym).subType ≠ .SYM_BUILTIN := by
        rcases hno with h | h
        · exact absurd hvar h
        · exact h
      simp only [visitLValueExpression, hs, Option.bind_eq_bind, Option.some_bind, hvar,
        ne_eq, not_true_eq_false, if_false, hb, not_false_eq_true, if_true,
        Option.pure_def]
    · simp only [visitLValueExpression, hs, Option.bind_eq_bind, Option.some_bind, ne_eq,
        hvar, not_false_eq_true, if_true, Option.pure_def]

/-- C34 on a reference to the builtin constant `ZERO_VECTOR`. -/
theorem builtin_constant_replaced_witness :
    (Sample.identifier .LST_VECTOR "ZERO_VECTOR" (some 0)).getSymbol = some 0
      ∧ (Sample.builtins 0).symbolType = .SYM_VARIABLE
      ∧ (Sample.builtins 0).subType = .SYM_BUILTIN
      ∧ Sample.zeroVector.data.constantValue = some (.vector ⟨0⟩ ⟨0⟩ ⟨0⟩)
      ∧ visitLValueExpression Sample.builtins Sample.zeroVector
        = some { node := (LSLVectorExpression.new (LSLConstantExpression.new (.float ⟨0⟩))
                    (LSLConstantExpression.new (.float ⟨0⟩))
                    (LSLConstantExpression.new (.float ⟨0⟩))).setConstantValue
                      (some (.vector ⟨0⟩ ⟨0⟩ ⟨0⟩)),
                 replaced := true, descend := false } :=
  ⟨rfl, rfl, rfl, rfl,
    ((builtin_constant_replaced Sample.builtins Sample.zeroVector.data
        (Sample.identifier .LST_VECTOR "ZERO_VECTOR" (some 0)) [] 0 rfl).1 rfl rfl).1
      ⟨0⟩ ⟨0⟩ ⟨0⟩ rfl⟩

end DeSugaringVisitor

/-! ## Arguments of calls -/

theorem LSLASTNode.isSome_get?_iff {α : Type} (l : List α) (j : Nat) :
    (l.get? j).isSome = true ↔ j < l.length := by
  constructor
  · intro h
    by_contra hge
    rw [List.get?_eq_none.2 (by omega)] at h
    cases h
  · intro h
    rw [List.get?_eq_get h]
    rfl

theorem LSLASTNode.length_eq_of_isSome {α β : Type} (l1 : List α) (l2 : List β)
    (h : ∀ j, (l1.get? j).isSome = (l2.get? j).isSome) : l1.length = l2.length := by
  rcases Nat.lt_trichotomy l1.length l2.length with hlt | heq | hgt
  · have h1 := (LSLASTNode.isSome_get?_iff l2 l1.length).2 hlt
    rw [← h] at h1
    exact absurd ((LSLASTNode.isSome_get?_iff l1 l1.length).1 h1) (Nat.lt_irrefl _)
  · exact heq
  · have h1 := (LSLASTNode.isSome_get?_iff l1 l2.length).2 hgt
    rw [h] at h1
    exact absurd ((LSLASTNode.isSome_get?_iff l2 l2.length).1 h1) (Nat.lt_irrefl _)

namespace DeSugaringVisitor

theorem castArguments_children (lib : Library) (params : List LSLIType) :
    ∀ (k i : Nat) (n : LSLASTNode),
      (castArguments lib params k i n).data = n.data
        ∧ ∀ j, (castArguments lib params k i n).children.get? j
          = if i + 1 ≤ j ∧ j < i + 1 + k then
              (n.children.get? j).map
                (fun c => ((params.get? (j - 1)).map (maybeInjectCast lib c)).getD c)
            else n.children.get? j := by
  intro k
  induction k with
  | zero =>
    intro i n
    refine ⟨rfl, fun j => ?_⟩
    have : ¬ (i + 1 ≤ j ∧ j < i + 1 + 0) := by omega
    simp only [castArguments, this, if_false]
  | succ k ih =>
    intro i n
    unfold castArguments
    cases hp : params.get? i with
    | none =>
      simp only []
      refine ⟨by first | rfl | trivial, fun j => ?_⟩
      split
      · rename_i hj
        have hlen : params.length ≤ j - 1 := by
          have := List.get?_eq_none.1 hp
          omega
        rw [List.get?_eq_none.2 hlen]
        simp
      · rfl
    | some t =>
      cases hc : n.getChild (i + 1) with
      | none =>
        simp only []
        refine ⟨by first | rfl | trivial, fun j => ?_⟩
        split
        · rename_i hj
          have hlen : n.children.length ≤ j := by
            have := List.get?_eq_none.1 hc
            omega
          rw [List.get?_eq_none.2 hlen]
          rfl
        · rfl
      | some c =>
        simp only []
        obtain ⟨hd, hch⟩ := ih (i + 1)
          (n.replaceChild (i + 1) (maybeInjectCast lib c t))
        refine ⟨hd, fun j => ?_⟩
        rw [hch j]
        have hlt : i + 1 < n.children.length := by
          by_contra hge
          have : n.children.get? (i + 1) = none := List.get?_eq_none.2 (by omega)
          rw [show n.children.get? (i + 1) = n.getChild (i + 1) from rfl, hc] at this
          cases this
        have hc' : n.children.get? (i + 1) = some c := hc
        by_cases hj : j = i + 1
        · subst hj
          have h1 : ¬ (i + 1 + 1 ≤ i + 1 ∧ i + 1 < i + 1 + 1 + k) := by omega
          have h2 : i + 1 ≤ i + 1 ∧ i + 1 < i + 1 + (k + 1) := by omega
          simp only [h1, if_false, h2, and_self, if_true, hc', Option.map_some',
            Nat.add_sub_cancel, hp, Option.getD_some]
          show (n.children.set (i + 1) (maybeInjectCast lib c t)).get? (i + 1) = _
          simp only [List.get?_eq_getElem?]
          rw [List.getElem?_set_eq hlt]
        · have hset : (n.replaceChild (i + 1) (maybeInjectCast lib c t)).children.get? j
              = n.children.get? j := by
            show (n.children.set (i + 1) (maybeInjectCast lib c t)).get? j = _
            simp only [List.get?_eq_getElem?]
            exact List.getElem?_set_ne (fun h => hj h.symm)
          rw [hset]
          by_cases h1 : i + 1 + 1 ≤ j ∧ j < i + 1 + 1 + k
          · have h2 : i + 1 ≤ j ∧ j < i + 1 + (k + 1) := by omega
            simp only [h1, and_self, if_true, h2]
          · have h2 : ¬ (i + 1 ≤ j ∧ j < i + 1 + (k + 1)) := by omega
            simp only [h1, if_false, h2]

/-- C32 (counterexample): the call `f(1, 2.0, 3)` of a function `f(float, float)` whose
symbol has the type ERROR and a parameter list: the integer argument 1 differs from the
float parameter and can be coerced to it, yet the visit leaves the call as it is. -/
theorem error_typed_function_not_cast :
    (Sample.functions .LST_ERROR 0).functionDecl
        = some [.LST_FLOATINGPOINT, .LST_FLOATINGPOINT]
      ∧ (Sample.callWithArguments .LST_ERROR).getChild 1 = some (Sample.literal (.integer 1))
      ∧ (Sample.literal (.integer 1)).getType ≠ .LST_FLOATINGPOINT
      ∧ Library.sample.canCoerce (Sample.literal (.integer 1)).getType .LST_FLOATINGPOINT
          = true
      ∧ visitFunctionExpression Library.sample (Sample.functions .LST_ERROR)
          (Sample.callWithArguments .LST_ERROR)
        = some { node := Sample.callWithArguments .LST_ERROR } := by
  refine ⟨rfl, rfl, by decide, rfl, rfl⟩

/-- C32 (amended): for a call whose function symbol has a parameter list and a type
other than ERROR, after the visit every argument at a position `i` within the parameter
list is wrapped in a typecast to the type of the parameter `i` when its type differs
from it and can be coerced to it, and is as before otherwise; the arguments beyond the
parameter list and the identifier are as before, and the number of children, hence the
number and order of the arguments, is unchanged. -/
theorem arguments_cast_to_parameters (lib : Library) (store : SymbolStore) (d : NodeData)
    (id : LSLASTNode) (args : List LSLASTNode) (sym : Nat) (params : List LSLIType)
    (hsym : id.getSymbol = some sym) (htype : (store sym).type ≠ .LST_ERROR)
    (hdecl : (store sym).functionDecl = some params) :
    ∃ v, visitFunctionExpression lib store (.mk d (id :: args)) = some v
      ∧ v.replaced = false ∧ v.descend = true
      ∧ v.node.data = d
      ∧ v.node.getNumChildren = (LSLASTNode.mk d (id :: args)).getNumChildren
      ∧ v.node.getChild 0 = some id
      ∧ (∀ i arg t, args.get? i = some arg → params.get? i = some t →
          v.node.getChild (i + 1)
            = some (if arg.getType ≠ t ∧ lib.canCoerce arg.getType t = true then
                      (LSLTypecastExpression.new t arg).setLoc arg.getLoc
                    else arg))
      ∧ (∀ i arg, args.get? i = some arg → params.get? i = none →
          v.node.getChild (i + 1) = some arg) := by
  have hs : (LSLASTNode.mk d (id :: args)).getIdentifierSymbol = some (some sym) := by
    simp [LSLASTNode.getIdentifierSymbol, LSLASTNode.getChild, LSLASTNode.children, hsym]
  obtain ⟨hd, hch⟩ := castArguments_children lib params
    ((LSLASTNode.mk d (id :: args)).getNumChildren - 1) 0 (.mk d (id :: args))
  refine ⟨⟨castArguments lib params
      ((LSLASTNode.mk d (id :: args)).getNumChildren - 1) 0 (.mk d (id :: args)), false, true⟩,
    ?_, rfl, rfl, hd, ?_, ?_, ?_, ?_⟩
  · simp only [visitFunctionExpression, hs, Option.bind_eq_bind, Option.some_bind, htype,
      if_false, hdecl, Option.pure_def]
  · have hnum : (LSLASTNode.mk d (id :: args)).getNumChildren - 1 = args.length := by
      simp [LSLASTNode.getNumChildren, LSLASTNode.children]
    have hlen : ∀ j, ((castArguments lib params
        ((LSLASTNode.mk d (id :: args)).getNumChildren - 1) 0
          (.mk d (id :: args))).children.get? j).isSome
          = ((id :: args).get? j).isSome := by
      intro j
      rw [hch j]
      split
      · simp [LSLASTNode.children]
      · rfl
    exact LSLASTNode.length_eq_of_isSome _ _ hlen
  · show (castArguments lib params _ 0 _).children.get? 0 = some id
    rw [hch 0]
    simp [LSLASTNode.children]
  · intro i arg t harg hpar
    show (castArguments lib params _ 0 _).children.get? (i + 1) = _
    rw [hch (i + 1)]
    have hi : i < args.length := by
      by_contra h
      rw [List.get?_eq_none.2 (by omega)] at harg
      cases harg
    have hcond : 0 + 1 ≤ i + 1
        ∧ i + 1 < 0 + 1 + ((LSLASTNode.mk d (id :: args)).getNumChildren - 1) := by
      simp [LSLASTNode.getNumChildren, LSLASTNode.children]
      omega
    simp only [hcond, and_self, if_true, LSLASTNode.children, List.get?_cons_succ, harg,
      Option.map_some', Nat.add_sub_cancel, hpar, Option.getD_some, maybeInjectCast_eq]
  · intro i arg harg hpar
    show (castArguments lib params _ 0 _).children.get? (i + 1) = _
    rw [hch (i + 1)]
    split
    · simp only [LSLASTNode.children, List.get?_cons_succ, harg, Option.map_some',
        Nat.add_sub_cancel, hpar, Option.map_none', Option.getD_none]
    · simp only [LSLASTNode.children, List.get?_cons_succ, harg]

/-- C32 (amended) on the call `f(1, 2.0, 3)` of a function `float f(float, float)`: the
integer 1 is wrapped in a typecast to float, the float 2.0 and the third argument, which
has no parameter, stay. -/
theorem arguments_cast_to_parameters_witness :
    (Sample.identifier .LST_FLOATINGPOINT "f" (some 0)).getSymbol = some 0
      ∧ (Sample.functions .LST_FLOATINGPOINT 0).type ≠ .LST_ERROR
      ∧ (Sample.functions .LST_FLOATINGPOINT 0).functionDecl
          = some [.LST_FLOATINGPOINT, .LST_FLOATINGPOINT]
      ∧ ∃ v, visitFunctionExpression Library.sample (Sample.functions .LST_FLOATINGPOINT)
            (Sample.callWithArguments .LST_FLOATINGPOINT) = some v
          ∧ v.node.getChild 1
            = some (LSLTypecastExpression.new .LST_FLOATINGPOINT
                (Sample.literal (.integer 1)))
          ∧ v.node.getChild 2 = some (Sample.literal (.float ⟨0x40000000⟩))
          ∧ v.node.getChild 3 = some (Sample.literal (.integer 3))
          ∧ v.node.getNumChildren = 4 :=
  ⟨rfl, by decide, rfl,
    (arguments_cast_to_parameters Library.sample (Sample.functions .LST_FLOATINGPOINT)
        (Sample.callWithArguments .LST_FLOATINGPOINT).data
        (Sample.identifier .LST_FLOATINGPOINT "f" (some 0))
        [Sample.literal (.integer 1), Sample.literal (.float ⟨0x40000000⟩),
          Sample.literal (.integer 3)] 0 [.LST_FLOATINGPOINT, .LST_FLOATINGPOINT]
        rfl (by decide) rfl).elim
      (fun v h => ⟨v, h.1,
        (h.2.2.2.2.2.2.1 0 _ _ rfl rfl).trans rfl,
        (h.2.2.2.2.2.2.1 1 _ _ rfl rfl).trans rfl,
        h.2.2.2.2.2.2.2 2 _ rfl rfl,
        h.2.2.2.2.1.trans rfl⟩)⟩

end DeSugaringVisitor

/-! ## Operands of type ERROR -/

namespace ConstantDeterminingVisitor

/-- C37: for an expression one of whose operands (child 0, or child 1 when there is one)
has the type ERROR, `visit(LSLExpression)` sets the precluded flag, leaves the constant
slot and everything else of the node as it is, and makes no call of the operation
module. And `beforeDescend` on a node whose own type is ERROR sets the precluded flag
and answers not to descend, so that the walk of such a node (other than the script)
leaves its children as they are. -/
theorem error_operand_precludes (lib : Library) :
    (∀ (d : NodeData) (left : LSLASTNode) (rest : List LSLASTNode),
      (left.getType = .LST_ERROR
        ∨ ∃ right, (LSLASTNode.mk d (left :: rest)).getChild 1 = some right
            ∧ right.getType = .LST_ERROR) →
      visitExpression lib (.mk d (left :: rest))
          = some ({ node := .mk { d with constantPrecluded := true } (left :: rest) }, [])
        ∧ ∃ v calls, visitExpression lib (.mk d (left :: rest)) = some (v, calls)
            ∧ calls = [] ∧ v.node.getConstantPrecluded = true
            ∧ v.node.getConstantValue = d.constantValue) ∧
    (∀ node : LSLASTNode, node.getType = .LST_ERROR →
      (beforeDescend node).2 = false
        ∧ (beforeDescend node).1.getConstantPrecluded = true
        ∧ (beforeDescend node).1.children = node.children) ∧
    (∀ (fuel : Nat) (store : SymbolStore) (d : NodeData) (cs : List LSLASTNode)
      (r : SymbolStore × LSLASTNode),
      d.type = .LST_ERROR → d.nodeType ≠ .NODE_SCRIPT →
      propagate lib (fuel + 1) store (.mk d cs) = .ok r → r.2.children = cs) := by
  refine ⟨fun d left rest h => ?_, fun node h => ?_, fun fuel store d cs r hty hnt hr => ?_⟩
  · have hv : visitExpression lib (.mk d (left :: rest))
        = some ({ node := .mk { d with constantPrecluded := true } (left :: rest) }, []) := by
      have hg0 : (LSLASTNode.mk d (left :: rest)).getChild 0 = some left := rfl
      rcases h with h | ⟨right, hr, h⟩
      · simp only [visitExpression, hg0, Option.bind_eq_bind, Option.some_bind, h, true_or,
          if_true, Option.pure_def]
        rfl
      · simp only [visitExpression, hg0, Option.bind_eq_bind, Option.some_bind, hr, h,
          decide_True, or_true, if_true, Option.pure_def]
        rfl
    exact ⟨hv, _, _, hv, rfl, rfl, rfl⟩
  · have hs := beforeDescend_spec node
    have h2 : (beforeDescend node).2 = false := by
      cases hb : (beforeDescend node).2
      · rfl
      · exact absurd h (hs.2.1 hb).1
    refine ⟨h2, ?_, ?_⟩
    · rw [hs.1]
      simp [LSLASTNode.getConstantPrecluded, LSLASTNode.data, h]
    · rw [hs.1]
      rfl
  · rw [propagate_succ] at hr
    have hdesc : hookDescends d = false := by
      rw [hookDescends_eq]
      simp [hty]
    have hnt' : ¬ d.nodeType = .NODE_SCRIPT := hnt
    simp only [hdesc, Bool.false_eq_true, if_false, hnt'] at hr
    cases hv : visitSpecific lib store (.mk (hookData d) cs) with
    | none => simp [hv] at hr
    | some r1 =>
      obtain ⟨s1, n1⟩ := r1
      simp only [hv, Except.ok.injEq] at hr
      subst hr
      exact (visitSpecific_node lib store s1 (hookData d) cs n1 hv).1

/-- C37 on `x / 0` with `x` of type ERROR: the division is not handed to the operation
module. -/
theorem error_operand_precludes_witness :
    (Sample.lvalue .LST_ERROR "x" none).getType = .LST_ERROR
      ∧ visitExpression Library.sample Sample.errorDividedByZero
        = some ({ node := Sample.errorDividedByZero.setConstantPrecluded true }, [])
      ∧ Sample.errorDividedByZero.getType = .LST_ERROR
      ∧ (beforeDescend Sample.errorDividedByZero).2 = false
      ∧ (beforeDescend Sample.errorDividedByZero).1.getConstantPrecluded = true :=
  ⟨rfl,
    ((error_operand_precludes Library.sample).1 Sample.errorDividedByZero.data
      (Sample.lvalue .LST_ERROR "x" none)
      [(Sample.literal (.integer 0)).setConstantValue (some (.integer 0))]
      (Or.inl rfl)).1,
    rfl, rfl, rfl⟩

end ConstantDeterminingVisitor

/-! ## Several handlers of one event -/

namespace Sling

theorem scanHandlers_count (name : String) (self : Nat) :
    ∀ (siblings : List LSLASTNode) (i found : Nat) (is_last : Bool),
      (∀ s ∈ siblings, s.getNodeType = .NODE_EVENT_HANDLER → (s.getChild 0).isSome = true) →
      ∃ flag, scanHandlers name self i siblings (found, is_last)
          = .ok (found + handlersNamed name siblings, flag)
        ∧ (handlersNamed name siblings = 0 → flag = is_last)
        ∧ (self < i → 0 < handlersNamed name siblings → flag = false) := by
  intro siblings
  induction siblings with
  | nil =>
    intro i found is_last _
    exact ⟨is_last, rfl, fun _ => rfl, fun _ h => absurd h (by simp [handlersNamed])⟩
  | cons s rest ih =>
    intro i found is_last hall
    have hrest : ∀ x ∈ rest, x.getNodeType = .NODE_EVENT_HANDLER →
        (x.getChild 0).isSome = true := fun x hx => hall x (List.mem_cons_of_mem _ hx)
    unfold scanHandlers
    by_cases hk : s.getNodeType = .NODE_EVENT_HANDLER
    · have hsome := hall s (List.mem_cons_self _ _) hk
      cases hc : s.getChild 0 with
      | none => rw [hc] at hsome; cases hsome
      | some other_id =>
        by_cases hn : other_id.getName = name
        · have hs : isHandlerNamed name s = true := by
            simp [isHandlerNamed, hk, hc, hn]
          have hcount : handlersNamed name (s :: rest) = handlersNamed name rest + 1 := by
            simp [handlersNamed, List.filter_cons, hs]
          obtain ⟨flag, h1, h2, h3⟩ := ih (i + 1) (found + 1) (decide (i = self)) hrest
          refine ⟨flag, ?_, ?_, ?_⟩
          · simp only [hk, ne_eq, not_true_eq_false, if_false, hn, if_true, h1, hcount]
            congr 2
            omega
          · intro h0
            rw [hcount] at h0
            cases h0
          · intro hlt _
            by_cases hz : handlersNamed name rest = 0
            · rw [h2 hz]
              simp only [decide_eq_false_iff_not]
              omega
            · exact h3 (by omega) (Nat.pos_of_ne_zero hz)
        · have hs : isHandlerNamed name s = false := by
            simp [isHandlerNamed, hk, hc, hn]
          have hcount : handlersNamed name (s :: rest) = handlersNamed name rest := by
            simp [handlersNamed, List.filter_cons, hs]
          obtain ⟨flag, h1, h2, h3⟩ := ih (i + 1) found is_last hrest
          refine ⟨flag, ?_, ?_, ?_⟩
          · simp only [hk, ne_eq, not_true_eq_false, if_false, hn, h1, hcount]
          · rw [hcount]; exact h2
          · rw [hcount]; exact fun hlt hp => h3 (by omega) hp
    · have hs : isHandlerNamed name s = false := by
        simp [isHandlerNamed, hk]
      have hcount : handlersNamed name (s :: rest) = handlersNamed name rest := by
        simp [handlersNamed, List.filter_cons, hs]
      obtain ⟨flag, h1, h2, h3⟩ := ih (i + 1) found is_last hrest
      refine ⟨flag, ?_, ?_, ?_⟩
      · simp only [ne_eq, hk, not_false_eq_true, if_true, h1, hcount]
      · rw [hcount]; exact h2
      · rw [hcount]; exact fun hlt hp => h3 (by omega) hp

theorem scanHandlers_append (name : String) (self : Nat) :
    ∀ (pre post : List LSLASTNode) (i : Nat) (acc : Nat × Bool),
      scanHandlers name self i (pre ++ post) acc
        = match scanHandlers name self i pre acc with
          | .ok acc1 => scanHandlers name self (i + pre.length) post acc1
          | .error e => .error e := by
  intro pre
  induction pre with
  | nil => intro post i acc; rfl
  | cons s rest ih =>
    intro post i acc
    obtain ⟨found, is_last⟩ := acc
    have hi : i + (s :: rest).length = i + 1 + rest.length := by
      simp only [List.length_cons]; omega
    simp only [List.cons_append, scanHandlers, hi]
    split
    · exact ih post (i + 1) _
    · split
      · rfl
      · split
        · exact ih post (i + 1) _
        · exact ih post (i + 1) _

theorem scanHandlers_at (name : String) (self : Nat) (siblings : List LSLASTNode)
    (node : LSLASTNode)
    (hall : ∀ s ∈ siblings, s.getNodeType = .NODE_EVENT_HANDLER →
      (s.getChild 0).isSome = true)
    (hself : siblings.get? self = some node) (hnode : isHandlerNamed name node = true) :
    scanHandlers name self 0 siblings (0, true)
      = .ok (handlersNamed name siblings, noneAfter name self siblings) := by
  have hlt : self < siblings.length := (LSLASTNode.isSome_get?_iff siblings self).1 (by
    rw [hself]; rfl)
  have hsplit : siblings = siblings.take self ++ node :: siblings.drop (self + 1) := by
    have h1 : siblings.drop self = node :: siblings.drop (self + 1) := by
      rw [List.drop_eq_getElem_cons hlt]
      congr 1
      have := List.get?_eq_get hlt
      rw [hself] at this
      simpa using this.symm
    rw [← h1, List.take_append_drop]
  have hpre : ∀ s ∈ siblings.take self, s.getNodeType = .NODE_EVENT_HANDLER →
      (s.getChild 0).isSome = true := fun s hs => hall s (List.mem_of_mem_take hs)
  have hpost : ∀ s ∈ siblings.drop (self + 1), s.getNodeType = .NODE_EVENT_HANDLER →
      (s.getChild 0).isSome = true := fun s hs => hall s (List.mem_of_mem_drop hs)
  obtain ⟨flag1, h1, _, _⟩ := scanHandlers_count name self (siblings.take self) 0 0 true hpre
  have hk : node.getNodeType = .NODE_EVENT_HANDLER := by
    simp only [isHandlerNamed, Bool.and_eq_true, decide_eq_true_eq] at hnode
    exact hnode.1
  have hname : (node.getChild 0).map LSLASTNode.getName = some name := by
    simp only [isHandlerNamed, Bool.and_eq_true, decide_eq_true_eq] at hnode
    exact hnode.2
  obtain ⟨flag2, h2, h3, h4⟩ := scanHandlers_count name self (siblings.drop (self + 1))
    (self + 1) (0 + handlersNamed name (siblings.take self) + 1) true hpost
  have hlen : (siblings.take self).length = self := by
    rw [List.length_take]; omega
  have hcount : handlersNamed name siblings
      = 0 + handlersNamed name (siblings.take self) + 1
        + handlersNamed name (siblings.drop (self + 1)) := by
    conv_lhs => rw [hsplit]
    simp only [handlersNamed, List.filter_append, List.filter_cons, hnode, if_true,
      List.length_append, List.length_cons]
    omega
  have hflag : flag2 = noneAfter name self siblings := by
    by_cases hz : handlersNamed name (siblings.drop (self + 1)) = 0
    · rw [h3 hz]
      symm
      simp only [noneAfter, List.all_eq_true, Bool.not_eq_true']
      intro s hs
      by_contra hne
      have hmem : s ∈ (siblings.drop (self + 1)).filter (isHandlerNamed name) :=
        List.mem_filter.2 ⟨hs, by simpa using hne⟩
      have : 0 < handlersNamed name (siblings.drop (self + 1)) :=
        List.length_pos_of_mem hmem
      omega
    · rw [h4 (by omega) (Nat.pos_of_ne_zero hz)]
      symm
      rw [Bool.eq_false_iff]
      intro hall'
      apply hz
      simp only [noneAfter, List.all_eq_true, Bool.not_eq_true'] at hall'
      simp only [handlersNamed, List.length_eq_zero, List.filter_eq_nil_iff]
      intro s hs
      simp [hall' s hs]
  conv_lhs => rw [hsplit]
  rw [scanHandlers_append, h1]
  simp only [hlen]
  cases hc : node.getChild 0 with
  | none => rw [hc] at hname; cases hname
  | some other_id =>
    have hn : other_id.getName = name := by
      rw [hc] at hname
      simpa using hname
    rw [hcount, ← hflag, ← h2]
    simp only [scanHandlers, hk, ne_eq, not_true_eq_false, if_false, hc, hn, if_true,
      Nat.zero_add, decide_True]

theorem noneAfter_iff (name : String) (self : Nat) (siblings : List LSLASTNode) :
    noneAfter name self siblings = true
      ↔ ∀ j s, self < j → siblings.get? j = some s → isHandlerNamed name s = false := by
  simp only [noneAfter, List.all_eq_true, Bool.not_eq_true']
  constructor
  · intro h j s hj hs
    apply h s
    have : (siblings.drop (self + 1)).get? (j - (self + 1)) = some s := by
      rw [List.get?_drop]
      rw [show self + 1 + (j - (self + 1)) = j by omega]
      exact hs
    exact List.get?_mem this
  · intro h s hs
    obtain ⟨k, hk⟩ := List.get?_of_mem hs
    rw [List.get?_drop] at hk
    exact h (self + 1 + k) s (by omega) hk

theorem warnsMultiple_at (name : String) (self : Nat) (siblings : List LSLASTNode)
    (node : LSLASTNode)
    (hall : ∀ s ∈ siblings, s.getNodeType = .NODE_EVENT_HANDLER →
      (s.getChild 0).isSome = true)
    (hself : siblings.get? self = some node) (hnode : isHandlerNamed name node = true) :
    warnsMultiple name siblings self
      = (decide (2 ≤ handlersNamed name siblings) && noneAfter name self siblings) := by
  simp only [warnsMultiple, scanHandlers_at name self siblings node hall hself hnode]
  rfl

theorem lastHandler_unique (name : String) :
    ∀ siblings : List LSLASTNode,
      ((List.range siblings.length).filter (fun i =>
          (siblings.get? i).any (isHandlerNamed name) && noneAfter name i siblings)).length
        = if 1 ≤ handlersNamed name siblings then 1 else 0 := by
  intro siblings
  induction siblings with
  | nil => rfl
  | cons s rest ih =>
    rw [List.length_cons, List.range_succ_eq_map, List.filter_cons, List.filter_map]
    have hshift : ((fun i => ((s :: rest).get? i).any (isHandlerNamed name)
          && noneAfter name i (s :: rest)) ∘ Nat.succ)
        = fun i => (rest.get? i).any (isHandlerNamed name) && noneAfter name i rest := by
      funext i
      simp [noneAfter]
    rw [hshift]
    have h0 : (((s :: rest).get? 0).any (isHandlerNamed name)
          && noneAfter name 0 (s :: rest))
        = (isHandlerNamed name s && decide (handlersNamed name rest = 0)) := by
      have : noneAfter name 0 (s :: rest) = decide (handlersNamed name rest = 0) := by
        simp only [noneAfter, Nat.zero_add, List.drop_succ_cons, List.drop_zero,
          handlersNamed, List.length_eq_zero, List.filter_eq_nil_iff]
        rw [Bool.eq_iff_iff]
        simp [List.all_eq_true]
      rw [this]
      rfl
    rw [h0]
    have hcount : handlersNamed name (s :: rest)
        = (if isHandlerNamed name s = true then 1 else 0) + handlersNamed name rest := by
      simp only [handlersNamed, List.filter_cons]
      split
      · rw [List.length_cons]; omega
      · omega
    rw [hcount]
    cases hs : isHandlerNamed name s <;>
      by_cases hz : handlersNamed name rest = 0 <;>
      simp only [hs, hz, Bool.false_and, Bool.true_and, decide_True, decide_False,
        Bool.false_eq_true, if_true, if_false, List.length_cons, List.length_map, ih] <;>
      split_ifs <;> omega

/-- C31: within the children `siblings` of a state, each event handler among them having
its identifier, the check of the handler `node`, the child number `self`, reports
`W_MULTIPLE_EVENT_HANDLERS` for its name, ahead of what the check reports on the handler
alone, if and only if at least two of the children are event handlers of that name and
none of them comes after `node`. Hence for every name the children at which the warning
is made are: the last handler of the name alone when there are two or more, and none
when there is at most one. -/
theorem multiple_handlers_warning (env : Env) (siblings : List LSLASTNode)
    (hall : ∀ s ∈ siblings, s.getNodeType = .NODE_EVENT_HANDLER →
      (s.getChild 0).isSome = true) :
    (∀ self node id, siblings.get? self = some node →
        node.getNodeType = .NODE_EVENT_HANDLER → node.getChild 0 = some id →
        scanHandlers id.getName self 0 siblings (0, true)
            = .ok (handlersNamed id.getName siblings, noneAfter id.getName self siblings)
          ∧ LLScriptEventHandler.final_pre_checks env siblings self node
            = (LLScriptEventHandler.final_pre_checks env [node] 0 node).map
                (fun r => (r.1,
                  (if 2 ≤ handlersNamed id.getName siblings
                        ∧ noneAfter id.getName self siblings = true then
                      [{ code := .W_MULTIPLE_EVENT_HANDLERS, name := id.getName }]
                    else []) ++ r.2))
          ∧ (warnsMultiple id.getName siblings self = true
              ↔ 2 ≤ handlersNamed id.getName siblings
                ∧ ∀ j s, self < j → siblings.get? j = some s →
                    isHandlerNamed id.getName s = false)) ∧
    (∀ name : String,
      ((List.range siblings.length).filter (fun i =>
          (siblings.get? i).any (isHandlerNamed name)
            && warnsMultiple name siblings i)).length
        = if 2 ≤ handlersNamed name siblings then 1 else 0) := by
  refine ⟨fun self node id hself hk hid => ?_, fun name => ?_⟩
  · have hnode : isHandlerNamed id.getName node = true := by
      simp [isHandlerNamed, hk, hid]
    have hscan := scanHandlers_at id.getName self siblings node hall hself hnode
    refine ⟨hscan, ?_, ?_⟩
    · have hone : scanHandlers id.getName 0 0 [node] (0, true) = .ok (1, true) := by
        simp [scanHandlers, hk, hid]
      simp only [LLScriptEventHandler.final_pre_checks, hid, hscan, hone]
      rcases resolveIfUnresolved env id .SYM_EVENT with ⟨id1, resolved⟩
      simp only []
      have hif : (if handlersNamed id.getName siblings > 1
            ∧ noneAfter id.getName self siblings = true then
            [({ code := .W_MULTIPLE_EVENT_HANDLERS, name := id.getName } : Report)] else [])
          = (if 2 ≤ handlersNamed id.getName siblings
            ∧ noneAfter id.getName self siblings = true then
            [({ code := .W_MULTIPLE_EVENT_HANDLERS, name := id.getName } : Report)]
            else []) := rfl
      rw [hif]
      cases id1.getSymbol with
      | none => simp [Except.map]
      | some sym =>
        simp only []
        cases (env.symbols sym).functionDecl with
        | none => simp [Except.map]
        | some declared =>
          cases node.getChild 1 with
          | none => simp [Except.map]
          | some passed => simp [Except.map]
    · rw [warnsMultiple_at id.getName self siblings node hall hself hnode,
        ← noneAfter_iff]
      simp
  · have hcongr : (List.range siblings.length).filter (fun i =>
          (siblings.get? i).any (isHandlerNamed name) && warnsMultiple name siblings i)
        = (List.range siblings.length).filter (fun i =>
          decide (2 ≤ handlersNamed name siblings)
            && ((siblings.get? i).any (isHandlerNamed name)
              && noneAfter name i siblings)) := by
      apply List.filter_congr
      intro i _
      cases hg : siblings.get? i with
      | none => simp
      | some s =>
        cases hs : isHandlerNamed name s with
        | false => simp [hs]
        | true =>
          rw [warnsMultiple_at name i siblings s hall hg hs]
          simp [hs]
    rw [hcongr]
    by_cases h2 : 2 ≤ handlersNamed name siblings
    · simp only [h2, decide_True, Bool.true_and, if_true]
      rw [lastHandler_unique]
      simp only [ite_eq_left_iff, not_le]
      omega
    · simp [h2]

/-- C31 on the handlers `touch_start`, `timer`, `touch_start`, `touch_start` of a state:
the check of the last child warns and the check of the first child does not. -/
theorem multiple_handlers_warning_witness :
    (∀ s ∈ Sample.handlers, s.getNodeType = .NODE_EVENT_HANDLER →
        (s.getChild 0).isSome = true)
      ∧ (LLScriptEventHandler.final_pre_checks Sample.env Sample.handlers 3
            (Sample.touchStart true [.LST_INTEGER])
          = .ok (Sample.touchStart true [.LST_INTEGER],
              [{ code := .W_MULTIPLE_EVENT_HANDLERS, name := "touch_start" }]))
      ∧ (LLScriptEventHandler.final_pre_checks Sample.env Sample.handlers 0
            (Sample.touchStart true [.LST_INTEGER])
          = .ok (Sample.touchStart true [.LST_INTEGER], []))
      ∧ ((List.range Sample.handlers.length).filter (fun i =>
            (Sample.handlers.get? i).any (isHandlerNamed "touch_start")
              && warnsMultiple "touch_start" Sample.handlers i)).length = 1
      ∧ ((List.range Sample.handlers.length).filter (fun i =>
            (Sample.handlers.get? i).any (isHandlerNamed "timer")
              && warnsMultiple "timer" Sample.handlers i)).length = 0 :=
  ⟨by decide,
    (((multiple_handlers_warning Sample.env Sample.handlers (by decide)).1 3
      (Sample.touchStart true [.LST_INTEGER])
      (Sample.identifier .LST_NULL "touch_start" (some 10)) rfl rfl rfl).2.1).trans rfl,
    (((multiple_handlers_warning Sample.env Sample.handlers (by decide)).1 0
      (Sample.touchStart true [.LST_INTEGER])
      (Sample.identifier .LST_NULL "touch_start" (some 10)) rfl rfl rfl).2.1).trans rfl,
    ((multiple_handlers_warning Sample.env Sample.handlers (by decide)).2
      "touch_start").trans rfl,
    ((multiple_handlers_warning Sample.env Sample.handlers (by decide)).2 "timer").trans rfl⟩

end Sling

/-! ## The assertions of symbol resolution -/

section Asserting

open BaseSymbolResolutionVisitor

theorem Path.below_iff : ∀ (p q : List Nat), Path.below p q = true ↔ ∃ r, q = p ++ r := by
  intro p
  induction p with
  | nil => intro q; simp [Path.below]
  | cons a p ih =>
    intro q
    cases q with
    | nil => simp [Path.below]
    | cons b q =>
      simp only [Path.below, Bool.and_eq_true, decide_eq_true_eq, ih, List.cons_append,
        List.cons.injEq]
      constructor
      · rintro ⟨hab, r, hr⟩
        exact ⟨r, hab.symm, hr⟩
      · rintro ⟨r, hab, hr⟩
        exact ⟨hab.symm, r, hr⟩

theorem LSLASTNode.nodeAt_append : ∀ (p q : List Nat) (t : LSLASTNode),
    t.nodeAt (p ++ q) = (t.nodeAt p).bind (fun x => x.nodeAt q) := by
  intro p
  induction p with
  | nil => intro q t; rfl
  | cons i p ih =>
    intro q t
    rw [List.cons_append, LSLASTNode.nodeAt_cons, LSLASTNode.nodeAt_cons]
    cases t.getChild i with
    | none => rfl
    | some c => exact ih q c

theorem LSLASTNode.nodeAt_below_leaf (t x y : LSLASTNode) (p q : List Nat)
    (hp : t.nodeAt p = some x) (hq : t.nodeAt q = some y) (hx : x.children = [])
    (hb : Path.below p q = true) : p = q := by
  obtain ⟨r, hr⟩ := (Path.below_iff p q).1 hb
  cases r with
  | nil => rw [hr, List.append_nil]
  | cons i r =>
    rw [hr, LSLASTNode.nodeAt_append, hp, Option.some_bind, LSLASTNode.nodeAt_cons] at hq
    have : x.getChild i = none := by
      simp [LSLASTNode.getChild, hx]
    rw [this] at hq
    cases hq

/-- Two different paths to childless nodes of a tree are apart. -/
theorem LSLASTNode.leaves_apart (t x y : LSLASTNode) (p q : List Nat)
    (hp : t.nodeAt p = some x) (hq : t.nodeAt q = some y) (hx : x.children = [])
    (hy : y.children = []) (hne : p ≠ q) : Path.apart p q = true := by
  simp only [Path.apart, Bool.and_eq_true, Bool.not_eq_true']
  constructor
  · cases hb : Path.below p q with
    | false => rfl
    | true => exact absurd (LSLASTNode.nodeAt_below_leaf t x y p q hp hq hx hb) hne
  · cases hb : Path.below q p with
    | false => rfl
    | true => exact absurd (LSLASTNode.nodeAt_below_leaf t y x q p hq hp hy hb).symm hne

namespace Resolution

theorem Quiet.stay (st : Resolution) : Quiet st st :=
  ⟨.same_state _ _, rfl, rfl, fun _ _ h hn => absurd h hn⟩

theorem Quiet.andThen {a b c : Resolution} (h1 : Quiet a b) (h2 : Quiet b c) : Quiet a c := by
  obtain ⟨g1, j1, l1, e1⟩ := h1
  obtain ⟨g2, j2, l2, e2⟩ := h2
  refine ⟨g1.then g2, j2.trans j1, l2.trans l1, fun table e he hn => ?_⟩
  by_cases hb : e ∈ b.tables.getD table []
  · obtain ⟨s, hs, hk⟩ := e1 table e hb hn
    exact ⟨s, g2.1 e s hs, hk⟩
  · exact e2 table e he hb

theorem Quiet.of_tables {a b : Resolution} (hg : Grows (fun _ => True) a b)
    (hj : b.mPendingJumps = a.mPendingJumps) (hl : b.mCollectedLabels = a.mCollectedLabels)
    (ht : ∀ table e, e ∈ b.tables.getD table [] → e ∈ a.tables.getD table []) :
    Quiet a b :=
  ⟨hg, hj, hl, fun table e he hn => absurd (ht table e he) hn⟩

theorem Quiet.by_report (st : Resolution) (code : ErrorCode) (name : String) :
    Quiet st (st.report code name) :=
  .of_tables (.of_report st name trivial) rfl rfl (fun _ _ h => h)

theorem Quiet.by_resolveSymbol (st : Resolution) (scopes : List Nat) (id : LSLASTNode)
    (type : LSLSymbolType) : Quiet st (st.resolveSymbol scopes id type).1 := by
  unfold resolveSymbol
  cases st.lookupSymbol scopes id.getName type with
  | none => exact .by_report st _ _
  | some p => exact .stay _

theorem Quiet.by_replaceSymbolTable (st : Resolution) (node : LSLASTNode) :
    Quiet st (BaseSymbolResolutionVisitor.replaceSymbolTable st node).1 := by
  refine .of_tables (.of_replaceSymbolTable _ st node) rfl rfl (fun table e he => ?_)
  simp only [BaseSymbolResolutionVisitor.replaceSymbolTable,
    List.getD_eq_getElem?_getD] at he ⊢
  by_cases hlt : table < st.tables.length
  · rw [List.getElem?_append_left hlt] at he
    exact he
  · by_cases heq : table = st.tables.length
    · subst heq
      simp at he
    · rw [List.getElem?_eq_none (by simp; omega)] at he
      exact absurd he (List.not_mem_nil e)

theorem defineSymbol_mem (st : Resolution) (scopes : List Nat) (sym table e : Nat)
    (h : e ∈ (st.defineSymbol scopes sym).tables.getD table []) :
    e ∈ st.tables.getD table [] ∨ (e = sym ∧ scopes.head? = some table) := by
  unfold defineSymbol at h
  cases scopes with
  | nil => exact Or.inl h
  | cons head rest =>
    simp only [List.getD_eq_getElem?_getD] at h ⊢
    by_cases ht : table = head
    · subst ht
      by_cases hlt : table < st.tables.length
      · rw [List.getElem?_set_self hlt] at h
        simp only [Option.getD_some, List.mem_append, List.mem_singleton] at h
        rcases h with h | h
        · exact Or.inl h
        · exact Or.inr ⟨h, rfl⟩
      · rw [List.getElem?_eq_none (by simp; omega)] at h
        exact absurd h (List.not_mem_nil e)
    · rw [List.getElem?_set_ne (fun heq => ht heq.symm)] at h
      exact Or.inl h

theorem Quiet.by_declared (st : Resolution) (sym : LSLSymbol) (scopes : List Nat)
    (hk : sym.symbolType ≠ .SYM_LABEL) :
    Quiet st ((st.newSymbol sym).1.defineSymbol scopes (st.newSymbol sym).2) := by
  refine ⟨.of_declared _ st sym scopes, ?_, ?_, fun table e he hn => ?_⟩
  · unfold defineSymbol
    cases scopes <;> rfl
  · unfold defineSymbol
    cases scopes <;> rfl
  · rcases defineSymbol_mem _ scopes _ table e he with h | ⟨h, _⟩
    · exact absurd h hn
    · subst h
      refine ⟨sym, ?_, hk⟩
      rw [defineSymbol_symbols]
      exact newSymbol_get st sym

theorem LabelFreeBelow.through_quiet {K : Nat} {st st1 : Resolution} (h : st.LabelFreeBelow K)
    (hq : Quiet st st1) : st1.LabelFreeBelow K := by
  intro table ht p hp
  by_cases hb : p ∈ st.tables.getD table []
  · obtain ⟨s, hs, hk⟩ := h table ht p hb
    exact ⟨s, hq.1.1 p s hs, hk⟩
  · exact hq.2.2.2 table p hp hb

theorem labelFree_below {st : Resolution} (h : st.labelFree = true) (K : Nat) :
    st.LabelFreeBelow K := by
  intro table _ p hp
  simp only [labelFree, List.all_eq_true] at h
  simp only [List.getD_eq_getElem?_getD] at hp
  cases ht : st.tables[table]? with
  | none => rw [ht] at hp; exact absurd hp (List.not_mem_nil p)
  | some entries =>
    rw [ht] at hp
    have := h entries (List.get?_mem (by rw [List.get?_eq_getElem?]; exact ht)) p hp
    cases hs : st.symbols.get? p with
    | none => rw [hs] at this; cases this
    | some s =>
      rw [hs] at this
      exact ⟨s, rfl, by simpa using this⟩

end Resolution

namespace SymbolResolutionVisitor

theorem bodyForm_all_iff (inner : Bool) (cs : List LSLASTNode) :
    bodyForm.all inner cs = true ↔ ∀ c ∈ cs, bodyForm inner c = true := by
  induction cs with
  | nil => simp [bodyForm.all]
  | cons c cs ih => simp [bodyForm.all, ih]

theorem plainIdentifier_iff (cs : List LSLASTNode) :
    plainIdentifier cs = true ↔ ∃ id, cs = [id] ∧ id.getNodeType = .NODE_IDENTIFIER
      ∧ id.children = [] ∧ id.getSymbolTable = none := by
  match cs with
  | [] => simp [plainIdentifier]
  | [id] =>
    simp [plainIdentifier, List.isEmpty_iff, Option.isNone_iff_eq_none, and_assoc]
  | _ :: _ :: _ => simp [plainIdentifier]

theorem bodyForm_mk (inner : Bool) (d : NodeData) (cs : List LSLASTNode) :
    bodyForm inner (.mk d cs) = true ↔
      d.symbolTable = none
        ∧ d.nodeType ≠ .NODE_SCRIPT ∧ d.nodeType ≠ .NODE_GLOBAL_FUNCTION
        ∧ d.nodeType ≠ .NODE_EVENT_HANDLER
        ∧ (d.nodeType = .NODE_STATEMENT → d.subType = .NODE_JUMP_STATEMENT →
            plainIdentifier cs = true)
        ∧ (d.nodeType = .NODE_STATEMENT → d.subType = .NODE_LABEL →
            inner = true ∧ plainIdentifier cs = true)
        ∧ ∀ c ∈ cs, bodyForm (inner || decide (d.nodeType = .NODE_STATEMENT
            ∧ d.subType = .NODE_COMPOUND_STATEMENT)) c = true := by
  simp only [bodyForm, Bool.and_eq_true, Option.isNone_iff_eq_none, decide_eq_true_eq,
    bodyForm_all_iff]
  by_cases hs : d.nodeType = .NODE_STATEMENT
  · by_cases hj : d.subType = .NODE_JUMP_STATEMENT
    · simp [hs, hj]
      try tauto
    · by_cases hl : d.subType = .NODE_LABEL
      · simp [hs, hj, hl]
        try tauto
      · simp [hs, hj, hl]
        try tauto
  · simp [hs]
    try tauto

/-- The form depends on the class of the node, its table and its children only. -/
theorem bodyForm_data {inner : Bool} {d d1 : NodeData} {cs : List LSLASTNode}
    (h : bodyForm inner (.mk d cs) = true) (hn : d1.nodeType = d.nodeType)
    (hs : d1.subType = d.subType) (ht : d1.symbolTable = d.symbolTable) :
    bodyForm inner (.mk d1 cs) = true := by
  rw [bodyForm_mk] at h ⊢
  rw [hn, hs, ht]
  exact h

theorem bodyForm_setSymbol {inner : Bool} {t : LSLASTNode} (h : bodyForm inner t = true)
    (sym : Option Nat) : bodyForm inner (t.setSymbol sym) = true := by
  obtain ⟨d, cs⟩ := t
  exact bodyForm_data h rfl rfl rfl

theorem bodyForm_setType {inner : Bool} {t : LSLASTNode} (h : bodyForm inner t = true)
    (ty : LSLIType) : bodyForm inner (t.setType ty) = true := by
  obtain ⟨d, cs⟩ := t
  exact bodyForm_data h rfl rfl rfl

theorem Kept.lifted {path : List Nat} {i : Nat} {c parent : LSLASTNode} {r : IdentifierRef}
    (h : Kept (path ++ [i]) c r) (hc : parent.getChild i = some c) : Kept path parent r := by
  obtain ⟨q, id, hp, hn, hl⟩ := h
  refine ⟨i :: q, id, ?_, ?_, hl⟩
  · rw [hp, List.append_assoc]; rfl
  · rw [LSLASTNode.nodeAt_cons, hc]; exact hn

theorem KeptSymbol.lifted_symbol {path : List Nat} {i : Nat} {c parent : LSLASTNode}
    {r : IdentifierRef} {e : Nat}
    (h : KeptSymbol (path ++ [i]) c r e) (hc : parent.getChild i = some c) :
    KeptSymbol path parent r e := by
  obtain ⟨q, id, hp, hn, hl⟩ := h
  refine ⟨i :: q, id, ?_, ?_, hl⟩
  · rw [hp, List.append_assoc]; rfl
  · rw [LSLASTNode.nodeAt_cons, hc]; exact hn

theorem Walked.lifted_walk {K0 Kf : Nat} {st st1 : Resolution} {path : List Nat} {i : Nat}
    {c parent : LSLASTNode} {js ls : List IdentifierRef}
    (h : Walked K0 Kf st st1 (path ++ [i]) c js ls) (hc : parent.getChild i = some c) :
    Walked K0 Kf st st1 path parent js ls where
  grows := h.grows
  jumps := h.jumps
  labels := h.labels
  scopes := h.scopes
  kept := fun r hr => (h.kept r hr).lifted hc
  nodup := h.nodup
  distinct := h.distinct
  entries := fun table e he hn => by
    rcases h.entries table e he hn with hs | ⟨hk, l, hl, hsym⟩
    · exact Or.inl hs
    · exact Or.inr ⟨hk, l, hl, hsym.lifted_symbol hc⟩

theorem Walked.from_quiet {st st1 : Resolution} (h : st.Quiet st1) (K0 Kf : Nat)
    (path : List Nat) (t : LSLASTNode) : Walked K0 Kf st st1 path t [] [] where
  grows := h.1
  jumps := by rw [h.2.1, List.append_nil]
  labels := by rw [h.2.2.1, List.append_nil]
  scopes := fun j hj => absurd hj (List.not_mem_nil j)
  kept := fun r hr => absurd hr (List.not_mem_nil r)
  nodup := List.nodup_nil
  distinct := fun j hj => absurd hj (List.not_mem_nil j)
  entries := fun table e he hn => Or.inl (h.2.2.2 table e he hn)

theorem Walked.followed {K0 Kf : Nat} {a b c : Resolution} {path : List Nat} {t : LSLASTNode}
    {js1 ls1 js2 ls2 : List IdentifierRef}
    (h1 : Walked K0 Kf a b path t js1 ls1) (h2 : Walked K0 Kf b c path t js2 ls2)
    (hcross : ∀ x ∈ js1 ++ ls1, ∀ y ∈ js2 ++ ls2, x.path ≠ y.path) :
    Walked K0 Kf a c path t (js1 ++ js2) (ls1 ++ ls2) where
  grows := h1.grows.then h2.grows
  jumps := by rw [h2.jumps, h1.jumps, List.append_assoc]
  labels := by rw [h2.labels, h1.labels, List.append_assoc]
  scopes := fun j hj => by
    rcases List.mem_append.1 hj with hj | hj
    · exact h1.scopes j hj
    · exact h2.scopes j hj
  kept := fun r hr => by
    have : r ∈ js1 ++ ls1 ∨ r ∈ js2 ++ ls2 := by
      simp only [List.mem_append] at hr ⊢
      tauto
    rcases this with hr | hr
    · exact h1.kept r hr
    · exact h2.kept r hr
  nodup := by
    rw [List.map_append, List.nodup_append]
    refine ⟨h1.nodup, h2.nodup, ?_⟩
    intro p hp1 hp2
    obtain ⟨x, hx, hxp⟩ := List.mem_map.1 hp1
    obtain ⟨y, hy, hyp⟩ := List.mem_map.1 hp2
    exact hcross x (List.mem_append_left _ hx) y (List.mem_append_left _ hy)
      (hxp.trans hyp.symm)
  distinct := fun j hj l hl => by
    rcases List.mem_append.1 hj with hj | hj <;> rcases List.mem_append.1 hl with hl | hl
    · exact h1.distinct j hj l hl
    · exact hcross j (List.mem_append_left _ hj) l (List.mem_append_right _ hl)
    · exact fun h => hcross l (List.mem_append_right _ hl) j (List.mem_append_left _ hj)
        h.symm
    · exact h2.distinct j hj l hl
  entries := fun table e he hn => by
    by_cases hb : e ∈ b.tables.getD table []
    · rcases h1.entries table e hb hn with ⟨s, hs, hk⟩ | ⟨hk, l, hl, hsym⟩
      · exact Or.inl ⟨s, h2.grows.1 e s hs, hk⟩
      · exact Or.inr ⟨hk, l, List.mem_append_left _ hl, hsym⟩
    · rcases h2.entries table e he hb with hs | ⟨hk, l, hl, hsym⟩
      · exact Or.inl hs
      · exact Or.inr ⟨hk, l, List.mem_append_right _ hl, hsym⟩

theorem Walked.after_quiet {K0 Kf : Nat} {a b c : Resolution} {path : List Nat}
    {t : LSLASTNode} {js ls : List IdentifierRef} (h1 : a.Quiet b)
    (h2 : Walked K0 Kf b c path t js ls) : Walked K0 Kf a c path t js ls :=
  (Walked.from_quiet h1 K0 Kf path t).followed h2
    (fun x hx => absurd hx (List.not_mem_nil x))

theorem Walked.before_quiet {K0 Kf : Nat} {a b c : Resolution} {path : List Nat}
    {t : LSLASTNode} {js ls : List IdentifierRef}
    (h1 : Walked K0 Kf a b path t js ls) (h2 : b.Quiet c) :
    Walked K0 Kf a c path t js ls := by
  have := h1.followed (Walked.from_quiet h2 K0 Kf path t)
    (fun x _ y hy => absurd hy (List.not_mem_nil y))
  rwa [List.append_nil, List.append_nil] at this

end SymbolResolutionVisitor

end Asserting

section Asserting

open BaseSymbolResolutionVisitor

namespace SymbolResolutionVisitor

theorem resolveSymbol_form {inner : Bool} {id : LSLASTNode} (h : bodyForm inner id = true)
    (st : Resolution) (scopes : List Nat) (type : LSLSymbolType) :
    bodyForm inner (st.resolveSymbol scopes id type).2 = true := by
  unfold Resolution.resolveSymbol
  cases st.lookupSymbol scopes id.getName type with
  | none => exact bodyForm_setType (bodyForm_setSymbol h _) _
  | some p => exact bodyForm_setSymbol h _

theorem replaceChild_forms {P : LSLASTNode → Prop} {t x : LSLASTNode} (i : Nat)
    (h : ∀ c ∈ t.children, P c) (hx : P x) : ∀ c ∈ (t.replaceChild i x).children, P c := by
  intro c hc
  simp only [LSLASTNode.replaceChild, LSLASTNode.children_mk] at hc
  rcases List.mem_or_eq_of_mem_set hc with hc | hc
  · exact h c hc
  · rw [hc]; exact hx

theorem registerParams_quiet (scopes : List Nat) (sub : LSLSymbolSubType) :
    ∀ (cs : List LSLASTNode) (st : Resolution),
      st.Quiet (registerParams scopes sub st cs).1 := by
  intro cs
  induction cs with
  | nil => intro st; exact .stay _
  | cons id rest ih =>
    intro st
    simp only [registerParams]
    exact (Resolution.Quiet.by_declared st _ scopes (by simp)).andThen (ih _)

theorem registerParams_forms (scopes : List Nat) (sub : LSLSymbolSubType) (inner : Bool) :
    ∀ (cs : List LSLASTNode) (st : Resolution),
      (∀ c ∈ cs, bodyForm inner c = true) →
      ∀ c ∈ (registerParams scopes sub st cs).2, bodyForm inner c = true := by
  intro cs
  induction cs with
  | nil => intro st _ c hc; simp [registerParams] at hc
  | cons id rest ih =>
    intro st h c hc
    simp only [registerParams, List.mem_cons] at hc
    rcases hc with hc | hc
    · rw [hc]
      exact bodyForm_setSymbol (h id (List.mem_cons_self _ _)) _
    · exact ih _ (fun x hx => h x (List.mem_cons_of_mem _ hx)) c hc

theorem scopesFrom_none {t : LSLASTNode} (h : t.getSymbolTable = none) (scopes : List Nat) :
    t.scopesFrom scopes = scopes := by
  simp only [LSLASTNode.scopesFrom, h]

/-- The visit overloads that neither keep a pointer nor walk a child themselves: they
leave the lists as they are, add no label to a table, and only a compound statement
opens a scope, with a table registered by the visit. -/
theorem visitSpecific_plain_body (legacy : Bool) (fuel : Nat)
    (f : Resolution → Place → LSLASTNode → Except Fault (Resolution × LSLASTNode))
    (st : Resolution) (place : Place) (inner : Bool) (d : NodeData) (cs : List LSLASTNode)
    (hform : bodyForm inner (.mk d cs) = true)
    (hkind : ¬ (d.nodeType = .NODE_STATEMENT ∧ (d.subType = .NODE_DECLARATION
      ∨ d.subType = .NODE_LABEL ∨ d.subType = .NODE_JUMP_STATEMENT))) :
    visitSpecific legacy fuel f st place (.mk d cs) = .error .nullDereference
      ∨ ∃ st1 node1 descend,
          visitSpecific legacy fuel f st place (.mk d cs) = .ok (st1, node1, descend)
          ∧ st.Quiet st1
          ∧ (∀ c ∈ node1.children, bodyForm (inner || decide (d.nodeType = .NODE_STATEMENT
              ∧ d.subType = .NODE_COMPOUND_STATEMENT)) c = true)
          ∧ ((¬ (d.nodeType = .NODE_STATEMENT ∧ d.subType = .NODE_COMPOUND_STATEMENT)
              ∧ node1.scopesFrom place.scopes = place.scopes)
            ∨ (d.nodeType = .NODE_STATEMENT ∧ d.subType = .NODE_COMPOUND_STATEMENT
              ∧ node1.scopesFrom place.scopes = st.tables.length :: place.scopes)) := by
  obtain ⟨htab, hns, hnf, hnh, _, _, hcs⟩ := (bodyForm_mk inner d cs).1 hform
  by_cases hcomp : d.nodeType = .NODE_STATEMENT ∧ d.subType = .NODE_COMPOUND_STATEMENT
  · have hv : visitSpecific legacy fuel f st place (.mk d cs)
        = visitCompoundStatement st (.mk d cs) := by
      simp only [visitSpecific, LSLASTNode.getNodeType, LSLASTNode.data_mk, hcomp.1,
        LSLASTNode.getNodeSubType, hcomp.2]
    rw [hv]
    exact Or.inr ⟨_, _, true, rfl, .by_replaceSymbolTable st (.mk d cs), hcs,
      Or.inr ⟨hcomp.1, hcomp.2, rfl⟩⟩
  have hnone : (LSLASTNode.mk d cs).getSymbolTable = none := htab
  have hsame : ∃ st1 node1 descend,
      (Except.ok (st, LSLASTNode.mk d cs, true) : Except Fault _) = .ok (st1, node1, descend)
      ∧ st.Quiet st1
      ∧ (∀ c ∈ node1.children, bodyForm (inner || decide (d.nodeType = .NODE_STATEMENT
          ∧ d.subType = .NODE_COMPOUND_STATEMENT)) c = true)
      ∧ ((¬ (d.nodeType = .NODE_STATEMENT ∧ d.subType = .NODE_COMPOUND_STATEMENT)
          ∧ node1.scopesFrom place.scopes = place.scopes)
        ∨ (d.nodeType = .NODE_STATEMENT ∧ d.subType = .NODE_COMPOUND_STATEMENT
          ∧ node1.scopesFrom place.scopes = st.tables.length :: place.scopes)) :=
    ⟨st, _, true, rfl, .stay _, hcs, Or.inl ⟨hcomp, scopesFrom_none hnone _⟩⟩
  have hresolved : ∀ (type : LSLSymbolType) (descend : Bool),
      (match (LSLASTNode.mk d cs).getChild 0 with
        | none => (Except.error .nullDereference : Except Fault _)
        | some id =>
          let (st1, id1) := st.resolveSymbol ((LSLASTNode.mk d cs).scopesFrom place.scopes)
            id type
          .ok (st1, (LSLASTNode.mk d cs).replaceChild 0 id1, descend))
        = .error .nullDereference
      ∨ ∃ st1 node1 descend1,
        (match (LSLASTNode.mk d cs).getChild 0 with
        | none => (Except.error .nullDereference : Except Fault _)
        | some id =>
          let (st1, id1) := st.resolveSymbol ((LSLASTNode.mk d cs).scopesFrom place.scopes)
            id type
          .ok (st1, (LSLASTNode.mk d cs).replaceChild 0 id1, descend))
          = .ok (st1, node1, descend1)
        ∧ st.Quiet st1
        ∧ (∀ c ∈ node1.children, bodyForm (inner || decide (d.nodeType = .NODE_STATEMENT
            ∧ d.subType = .NODE_COMPOUND_STATEMENT)) c = true)
        ∧ ((¬ (d.nodeType = .NODE_STATEMENT ∧ d.subType = .NODE_COMPOUND_STATEMENT)
            ∧ node1.scopesFrom place.scopes = place.scopes)
          ∨ (d.nodeType = .NODE_STATEMENT ∧ d.subType = .NODE_COMPOUND_STATEMENT
            ∧ node1.scopesFrom place.scopes = st.tables.length :: place.scopes)) := by
    intro type descend
    cases hid : (LSLASTNode.mk d cs).getChild 0 with
    | none => exact Or.inl rfl
    | some id =>
      right
      have hidm : id ∈ cs := List.get?_mem hid
      exact ⟨_, _, descend, rfl, .by_resolveSymbol st _ id type,
        replaceChild_forms 0 hcs (resolveSymbol_form (hcs id hidm) st _ type),
        Or.inl ⟨hcomp, scopesFrom_none hnone _⟩⟩
  have hparams : ∀ is_event : Bool, ∃ st1 node1 descend,
      (Except.ok ((register_func_param_symbols st place (.mk d cs) is_event).1,
          (register_func_param_symbols st place (.mk d cs) is_event).2, true)
            : Except Fault _) = .ok (st1, node1, descend)
      ∧ st.Quiet st1
      ∧ (∀ c ∈ node1.children, bodyForm (inner || decide (d.nodeType = .NODE_STATEMENT
          ∧ d.subType = .NODE_COMPOUND_STATEMENT)) c = true)
      ∧ ((¬ (d.nodeType = .NODE_STATEMENT ∧ d.subType = .NODE_COMPOUND_STATEMENT)
          ∧ node1.scopesFrom place.scopes = place.scopes)
        ∨ (d.nodeType = .NODE_STATEMENT ∧ d.subType = .NODE_COMPOUND_STATEMENT
          ∧ node1.scopesFrom place.scopes = st.tables.length :: place.scopes)) := by
    intro is_event
    refine ⟨_, _, true, rfl, registerParams_quiet _ _ _ _, ?_, Or.inl ⟨hcomp, ?_⟩⟩
    · exact registerParams_forms _ _ _ _ _ hcs
    · exact scopesFrom_none hnone _
  unfold visitSpecific
  split
  · rename_i h; exact absurd h hns
  · rename_i h; exact absurd h hnf
  · exact Or.inr (hparams false)
  · exact Or.inr ⟨st, _, false, rfl, .stay _, hcs,
      Or.inl ⟨hcomp, scopesFrom_none hnone _⟩⟩
  · rename_i h; exact absurd h hnh
  · exact Or.inr (hparams true)
  · rename_i hnt
    have hnt' : d.nodeType = .NODE_STATEMENT := hnt
    split
    · rename_i h; exact absurd ⟨hnt', Or.inl h⟩ hkind
    · rename_i h; exact absurd ⟨hnt', Or.inr (Or.inl h)⟩ hkind
    · rename_i h; exact absurd ⟨hnt', Or.inr (Or.inr h)⟩ hkind
    · exact hresolved .SYM_STATE true
    · rename_i hsub
      exact absurd ⟨hnt', hsub⟩ hcomp
    · exact Or.inr hsame
  · split
    · exact hresolved .SYM_VARIABLE false
    · exact hresolved .SYM_FUNCTION true
    · exact Or.inr hsame
  · exact Or.inr hsame

end SymbolResolutionVisitor

end Asserting

section Asserting

open BaseSymbolResolutionVisitor

namespace SymbolResolutionVisitor

theorem resolve_plain_identifier (legacy : Bool) (fuel : Nat) (st : Resolution)
    (place : Place) (id : LSLASTNode) (hk : id.getNodeType = .NODE_IDENTIFIER)
    (hc : id.children = []) : resolve legacy (fuel + 1) st place id = .ok (st, id) := by
  obtain ⟨d, cs⟩ := id
  have hk' : d.nodeType = .NODE_IDENTIFIER := hk
  have hc' : cs = [] := hc
  subst hc'
  simp only [resolve, visitSpecific, LSLASTNode.getNodeType, LSLASTNode.data_mk, hk',
    if_true, visitChildren, LSLASTNode.children_mk, visitChildrenFrom]

/-- The walk of the children of a label or jump statement, one childless identifier,
runs out of fuel or changes nothing. -/
theorem visitChildren_plain (legacy : Bool) (fuel : Nat) (st : Resolution) (place : Place)
    (d : NodeData) (id : LSLASTNode) (hk : id.getNodeType = .NODE_IDENTIFIER)
    (hc : id.children = []) :
    visitChildren (resolve legacy fuel) st place (.mk d [id]) = .error .outOfFuel
      ∨ visitChildren (resolve legacy fuel) st place (.mk d [id]) = .ok (st, .mk d [id]) := by
  cases fuel with
  | zero =>
    left
    simp only [visitChildren, LSLASTNode.children_mk, visitChildrenFrom, resolve]
  | succ fuel =>
    right
    simp only [visitChildren, LSLASTNode.children_mk, visitChildrenFrom,
      resolve_plain_identifier legacy fuel st _ id hk hc, LSLASTNode.data_mk]

theorem defineSymbol_jumps (st : Resolution) (scopes : List Nat) (sym : Nat) :
    (st.defineSymbol scopes sym).mPendingJumps = st.mPendingJumps := by
  unfold Resolution.defineSymbol
  cases scopes <;> rfl

theorem defineSymbol_labels (st : Resolution) (scopes : List Nat) (sym : Nat) :
    (st.defineSymbol scopes sym).mCollectedLabels = st.mCollectedLabels := by
  unfold Resolution.defineSymbol
  cases scopes <;> rfl

theorem visitLabel_walk (K0 Kf : Nat) (st : Resolution) (place : Place) (d : NodeData)
    (id : LSLASTNode) (htab : d.symbolTable = none) (hc : id.children = [])
    (hhead : HeadFresh Kf place.scopes) :
    ∃ st1 sym, visitLabel st place (.mk d [id]) = .ok (st1, .mk d [id.setSymbol sym], true)
      ∧ ∃ ls, Walked K0 Kf st st1 place.path (.mk d [id.setSymbol sym]) [] ls := by
  obtain ⟨head, rest, hscopes, hfresh⟩ := hhead
  have hnone : ((LSLASTNode.mk d [id]).replaceChild 0
      (id.setSymbol (some st.symbols.length))).getSymbolTable = none := htab
  have hsc : ((LSLASTNode.mk d [id]).replaceChild 0
      (id.setSymbol (some st.symbols.length))).scopesFrom place.scopes = place.scopes :=
    scopesFrom_none hnone _
  refine ⟨_, some st.symbols.length, rfl,
    [⟨place.path ++ [0], ((LSLASTNode.mk d [id]).replaceChild 0
      (id.setSymbol (some st.symbols.length))).scopesFrom place.scopes⟩], ?_⟩
  refine
    { grows := ?_, jumps := ?_, labels := ?_, scopes := ?_, kept := ?_, nodup := ?_,
      distinct := ?_, entries := ?_ }
  · exact (Resolution.Grows.of_declared _ st _ _).then (.of_lists _ rfl rfl rfl)
  · show (Resolution.defineSymbol _ _ _).mPendingJumps = _
    rw [List.append_nil, defineSymbol_jumps]
  · show (Resolution.defineSymbol _ _ _).mCollectedLabels ++ _ = _
    rw [defineSymbol_labels]
  · exact fun j hj => absurd hj (List.not_mem_nil j)
  · intro r hr
    simp only [List.nil_append, List.mem_singleton] at hr
    subst hr
    exact ⟨[0], id.setSymbol (some st.symbols.length), rfl, rfl, hc⟩
  · exact List.nodup_nil
  · exact fun j hj => absurd hj (List.not_mem_nil j)
  · intro table e he hn
    have he' : e ∈ ((st.newSymbol
        { name := id.getName, type := id.getType, symbolType := .SYM_LABEL,
          subType := .SYM_LOCAL }).1.defineSymbol
        (((LSLASTNode.mk d [id]).replaceChild 0
          (id.setSymbol (some st.symbols.length))).scopesFrom place.scopes)
        st.symbols.length).tables.getD table [] := he
    rcases Resolution.defineSymbol_mem _ _ _ table e he' with h | ⟨h, hh⟩
    · exact absurd h hn
    · right
      rw [hsc, hscopes] at hh
      simp only [List.head?_cons, Option.some.injEq] at hh
      subst hh
      refine ⟨hfresh, _, List.mem_singleton.2 rfl, [0], id.setSymbol (some st.symbols.length),
        rfl, rfl, ?_⟩
      rw [h]
      rfl

theorem visitJumpStatement_walk (K0 Kf : Nat) (st : Resolution) (place : Place)
    (d : NodeData) (id : LSLASTNode) (htab : d.symbolTable = none) (hc : id.children = [])
    (hgood : GoodScopes K0 Kf place.scopes) :
    ∃ st1, visitJumpStatement st place (.mk d [id]) = .ok (st1, .mk d [id], true)
      ∧ ∃ js, Walked K0 Kf st st1 place.path (.mk d [id]) js [] := by
  have hsc : (LSLASTNode.mk d [id]).scopesFrom place.scopes = place.scopes :=
    scopesFrom_none (show (LSLASTNode.mk d [id]).getSymbolTable = none from htab) _
  refine ⟨_, rfl, [⟨place.path ++ [0], (LSLASTNode.mk d [id]).scopesFrom place.scopes⟩], ?_⟩
  refine
    { grows := .of_lists _ rfl rfl rfl, jumps := rfl, labels := ?_, scopes := ?_,
      kept := ?_, nodup := ?_, distinct := ?_, entries := ?_ }
  · show st.mCollectedLabels = _
    rw [List.append_nil]
  · intro j hj table ht
    rw [List.mem_singleton] at hj
    subst hj
    rw [hsc] at ht
    exact hgood table ht
  · intro r hr
    simp only [List.append_nil, List.mem_singleton] at hr
    subst hr
    exact ⟨[0], id, rfl, rfl, hc⟩
  · simp
  · exact fun j _ l hl => absurd hl (List.not_mem_nil l)
  · intro table e he hn
    exact absurd he hn

theorem visitChildrenFrom_bodyWalk {K0 Kf : Nat}
    {f : Resolution → Place → LSLASTNode → Except Fault (Resolution × LSLASTNode)}
    (hf : BodyWalk K0 Kf f) (inner : Bool) (scopes root path : List Nat)
    (hhead : inner = true → HeadFresh Kf scopes) (hgood : GoodScopes K0 Kf scopes) :
    ∀ (cs : List LSLASTNode) (i : Nat) (st : Resolution),
      (∀ c ∈ cs, bodyForm inner c = true) → Kf ≤ st.tables.length →
      visitChildrenFrom f scopes root path i st cs ≠ .error .assertionFailed
        ∧ ∀ st1 cs1, visitChildrenFrom f scopes root path i st cs = .ok (st1, cs1) →
            ∃ js ls, (∀ r ∈ js ++ ls, ∃ k q, r.path = path ++ (i + k) :: q)
              ∧ ∀ parent : LSLASTNode,
                  (∀ k c, cs1.get? k = some c → parent.getChild (i + k) = some c) →
                  Walked K0 Kf st st1 path parent js ls := by
  intro cs
  induction cs with
  | nil =>
    intro i st _ _
    refine ⟨by simp [visitChildrenFrom], fun st1 cs1 h => ?_⟩
    simp only [visitChildrenFrom, Except.ok.injEq, Prod.mk.injEq] at h
    obtain ⟨h1, _⟩ := h
    subst h1
    exact ⟨[], [], fun r hr => absurd hr (List.not_mem_nil r),
      fun parent _ => .from_quiet (.stay _) K0 Kf path parent⟩
  | cons c rest ih =>
    intro i st hforms hK
    obtain ⟨hna, hok⟩ := hf st { scopes := scopes, root := some root, path := path ++ [i] }
      inner c (hforms c (List.mem_cons_self _ _)) hhead hgood hK
    simp only [visitChildrenFrom]
    cases hc : f st { scopes := scopes, root := some root, path := path ++ [i] } c with
    | error e =>
      refine ⟨fun h => ?_, fun st1 cs1 h => by cases h⟩
      simp only [Except.error.injEq] at h
      rw [hc, h] at hna
      exact hna rfl
    | ok r1 =>
      obtain ⟨st1, c1⟩ := r1
      obtain ⟨js1, ls1, hw1⟩ := hok st1 c1 hc
      have hK1 : Kf ≤ st1.tables.length := Nat.le_trans hK hw1.grows.2.1
      obtain ⟨hna2, hok2⟩ := ih (i + 1) st1
        (fun x hx => hforms x (List.mem_cons_of_mem _ hx)) hK1
      simp only []
      cases hrest : visitChildrenFrom f scopes root path (i + 1) st1 rest with
      | error e =>
        refine ⟨fun h => ?_, fun st2 cs2 h => by cases h⟩
        simp only [Except.error.injEq] at h
        rw [hrest, h] at hna2
        exact hna2 rfl
      | ok r2 =>
        obtain ⟨st2, rest1⟩ := r2
        obtain ⟨js2, ls2, hpre2, hw2⟩ := hok2 st2 rest1 hrest
        refine ⟨by simp, fun st3 cs3 h => ?_⟩
        simp only [Except.ok.injEq, Prod.mk.injEq] at h
        obtain ⟨h1, h2⟩ := h
        subst h1
        subst h2
        have hpre1 : ∀ r ∈ js1 ++ ls1, ∃ q, r.path = path ++ i :: q := by
          intro r hr
          obtain ⟨q, _, hq, _, _⟩ := hw1.kept r hr
          exact ⟨q, by rw [hq, List.append_assoc]; rfl⟩
        refine ⟨js1 ++ js2, ls1 ++ ls2, ?_, ?_⟩
        · intro r hr
          have : r ∈ js1 ++ ls1 ∨ r ∈ js2 ++ ls2 := by
            simp only [List.mem_append] at hr ⊢
            tauto
          rcases this with hr | hr
          · obtain ⟨q, hq⟩ := hpre1 r hr
            exact ⟨0, q, hq⟩
          · obtain ⟨k, q, hq⟩ := hpre2 r hr
            exact ⟨k + 1, q, by rw [hq, show i + 1 + k = i + (k + 1) by omega]⟩
        · intro parent hpar
          refine (hw1.lifted_walk (hpar 0 c1 rfl)).followed
            (hw2 parent (fun k x hx => ?_)) ?_
          · have := hpar (k + 1) x hx
            rwa [show i + (k + 1) = i + 1 + k by omega] at this
          · intro x hx y hy hxy
            obtain ⟨q, hq⟩ := hpre1 x hx
            obtain ⟨k, q2, hq2⟩ := hpre2 y hy
            rw [hq, hq2] at hxy
            have := List.append_cancel_left hxy
            simp only [List.cons.injEq] at this
            omega

theorem visitDeclaration_walk {K0 Kf : Nat}
    {f : Resolution → Place → LSLASTNode → Except Fault (Resolution × LSLASTNode)}
    (hf : BodyWalk K0 Kf f) (st : Resolution) (place : Place) (inner : Bool) (d : NodeData)
    (cs : List LSLASTNode) (hform : bodyForm inner (.mk d cs) = true)
    (hsub : d.subType = .NODE_DECLARATION)
    (hhead : inner = true → HeadFresh Kf place.scopes)
    (hgood : GoodScopes K0 Kf place.scopes) (hK : Kf ≤ st.tables.length) :
    visitDeclaration f st place (.mk d cs) ≠ .error .assertionFailed
      ∧ ∀ st1 node1 descend,
          visitDeclaration f st place (.mk d cs) = .ok (st1, node1, descend) →
          descend = false ∧ ∃ js ls, Walked K0 Kf st st1 place.path node1 js ls := by
  obtain ⟨htab, _, _, _, _, _, hcs⟩ := (bodyForm_mk inner d cs).1 hform
  have hnone : (LSLASTNode.mk d cs).getSymbolTable = none := htab
  have hinner : (inner || decide (d.nodeType = .NODE_STATEMENT
      ∧ d.subType = .NODE_COMPOUND_STATEMENT)) = inner := by
    simp [hsub]
  rw [hinner] at hcs
  have hdefine : ∀ (st1 : Resolution) (node1 : LSLASTNode) (js ls : List IdentifierRef),
      Walked K0 Kf st st1 place.path node1 js ls →
      (∀ (identifier : LSLASTNode) (sym : Option Nat), Walked K0 Kf st st1 place.path
        (node1.replaceChild 0 (identifier.setSymbol sym)) js ls) →
      (match node1.getChild 0 with
        | none => (Except.error .nullDereference : Except Fault _)
        | some identifier =>
          let (st2, sym) := st1.newSymbol
            { name := identifier.getName, type := identifier.getType,
              symbolType := .SYM_VARIABLE, subType := .SYM_LOCAL }
          let node2 := node1.replaceChild 0 (identifier.setSymbol (some sym))
          let st3 := st2.defineSymbol (node2.scopesFrom place.scopes) sym
          let st4 :=
            if node2.data.declarationAllowed = false then
              st3.report .E_DECLARATION_INVALID_HERE identifier.getName
            else st3
          .ok (st4, node2, false)) ≠ .error .assertionFailed
      ∧ ∀ st5 node5 descend,
        (match node1.getChild 0 with
        | none => (Except.error .nullDereference : Except Fault _)
        | some identifier =>
          let (st2, sym) := st1.newSymbol
            { name := identifier.getName, type := identifier.getType,
              symbolType := .SYM_VARIABLE, subType := .SYM_LOCAL }
          let node2 := node1.replaceChild 0 (identifier.setSymbol (some sym))
          let st3 := st2.defineSymbol (node2.scopesFrom place.scopes) sym
          let st4 :=
            if node2.data.declarationAllowed = false then
              st3.report .E_DECLARATION_INVALID_HERE identifier.getName
            else st3
          .ok (st4, node2, false)) = .ok (st5, node5, descend) →
        descend = false ∧ ∃ js ls, Walked K0 Kf st st5 place.path node5 js ls := by
    intro st1 node1 js ls _ hw
    cases hid : node1.getChild 0 with
    | none => exact ⟨by simp, fun _ _ _ h => by cases h⟩
    | some identifier =>
      refine ⟨by simp, fun st5 node5 descend h => ?_⟩
      simp only [Except.ok.injEq, Prod.mk.injEq] at h
      obtain ⟨h1, h2, h3⟩ := h
      subst h1
      subst h2
      refine ⟨h3.symm, js, ls, (hw identifier _).before_quiet ?_⟩
      have hq := Resolution.Quiet.by_declared st1
        { name := identifier.getName, type := identifier.getType,
          symbolType := .SYM_VARIABLE, subType := .SYM_LOCAL }
        ((node1.replaceChild 0 (identifier.setSymbol (some st1.symbols.length))).scopesFrom
          place.scopes) (by simp)
      split
      · exact hq.andThen (.by_report _ _ _)
      · exact hq
  unfold visitDeclaration
  cases hr : (LSLASTNode.mk d cs).getChild 1 with
  | none =>
    simp only []
    exact hdefine st (.mk d cs) [] [] (.from_quiet (.stay _) K0 Kf _ _)
      (fun _ _ => .from_quiet (.stay _) K0 Kf _ _)
  | some rvalue =>
    have hrm : rvalue ∈ cs := List.get?_mem hr
    obtain ⟨hna, hok⟩ := hf st
      { scopes := (LSLASTNode.mk d cs).scopesFrom place.scopes,
        root := some (place.root.getD ((LSLASTNode.mk d cs).scopesFrom place.scopes)),
        path := place.path ++ [1] } inner rvalue (hcs rvalue hrm)
      (by rw [scopesFrom_none hnone]; exact hhead)
      (by rw [scopesFrom_none hnone]; exact hgood) hK
    simp only []
    cases hv : f st
        { scopes := (LSLASTNode.mk d cs).scopesFrom place.scopes,
          root := some (place.root.getD ((LSLASTNode.mk d cs).scopesFrom place.scopes)),
          path := place.path ++ [1] } rvalue with
    | error e =>
      refine ⟨fun h => ?_, fun _ _ _ h => by cases h⟩
      simp only [Except.error.injEq] at h
      rw [hv, h] at hna
      exact hna rfl
    | ok r1 =>
      obtain ⟨st1, rvalue1⟩ := r1
      obtain ⟨js, ls, hw⟩ := hok st1 rvalue1 hv
      have hc1 : ((LSLASTNode.mk d cs).replaceChild 1 rvalue1).getChild 1 = some rvalue1 :=
        LSLASTNode.getChild_replaceChild_self _ _ hr
      simp only []
      refine hdefine st1 _ js ls (hw.lifted_walk hc1) (fun identifier sym => hw.lifted_walk ?_)
      rw [LSLASTNode.getChild_replaceChild_ne _ _ (by decide : (0 : Nat) ≠ 1)]
      exact hc1

/-- Inside a function or event handler of the parser's form the walk fails no assertion
and keeps pointers to childless nodes only, each to a node of its own; the labels it
defines are the labels it collects. -/
theorem resolve_bodyWalk (legacy : Bool) (K0 Kf : Nat) :
    ∀ fuel, BodyWalk K0 Kf (resolve legacy fuel) := by
  intro fuel
  induction fuel with
  | zero =>
    intro st place inner t _ _ _ _
    exact ⟨by simp [resolve], fun _ _ h => by cases h⟩
  | succ fuel ih =>
    intro st place inner t hform hhead hgood hK
    obtain ⟨d, cs⟩ := t
    obtain ⟨htab, _, _, _, hjump, hlabel, hcs⟩ := (bodyForm_mk inner d cs).1 hform
    by_cases hkind : d.nodeType = .NODE_STATEMENT ∧ (d.subType = .NODE_DECLARATION
        ∨ d.subType = .NODE_LABEL ∨ d.subType = .NODE_JUMP_STATEMENT)
    · obtain ⟨hnt, hsub⟩ := hkind
      rcases hsub with hsub | hsub | hsub
      · obtain ⟨hna, hok⟩ := visitDeclaration_walk ih st place inner d cs hform hsub
          hhead hgood hK
        have hv : visitSpecific legacy fuel (resolve legacy fuel) st place (.mk d cs)
            = visitDeclaration (resolve legacy fuel) st place (.mk d cs) := by
          simp only [visitSpecific, LSLASTNode.getNodeType, LSLASTNode.data_mk, hnt,
            LSLASTNode.getNodeSubType, hsub]
        simp only [resolve, hv]
        cases hd : visitDeclaration (resolve legacy fuel) st place (.mk d cs) with
        | error e =>
          refine ⟨fun h => ?_, fun _ _ h => by cases h⟩
          simp only [Except.error.injEq] at h
          rw [hd, h] at hna
          exact hna rfl
        | ok r =>
          obtain ⟨st1, node1, descend⟩ := r
          obtain ⟨hdesc, js, ls, hw⟩ := hok st1 node1 descend hd
          subst hdesc
          refine ⟨by simp, fun st2 t2 h => ?_⟩
          simp only [Bool.false_eq_true, if_false, Except.ok.injEq, Prod.mk.injEq] at h
          obtain ⟨h1, h2⟩ := h
          subst h1
          subst h2
          exact ⟨js, ls, hw⟩
      · obtain ⟨hin, hplain⟩ := hlabel hnt hsub
        obtain ⟨id, hcs1, hid, hleaf, _⟩ := (plainIdentifier_iff cs).1 hplain
        subst hcs1
        obtain ⟨st1, sym, hvl, ls, hw⟩ := visitLabel_walk K0 Kf st place d id htab hleaf
          (hhead hin)
        have hv : visitSpecific legacy fuel (resolve legacy fuel) st place (.mk d [id])
            = .ok (st1, .mk d [id.setSymbol sym], true) := by
          simp only [visitSpecific, LSLASTNode.getNodeType, LSLASTNode.data_mk, hnt,
            LSLASTNode.getNodeSubType, hsub, hvl]
        simp only [resolve, hv, if_true]
        rcases visitChildren_plain legacy fuel st1 place d (id.setSymbol sym) hid hleaf with
          h | h
        · rw [h]
          exact ⟨by simp, fun _ _ h => by cases h⟩
        · rw [h]
          refine ⟨by simp, fun st2 t2 h2 => ?_⟩
          simp only [Except.ok.injEq, Prod.mk.injEq] at h2
          obtain ⟨h1, h2⟩ := h2
          subst h1
          subst h2
          exact ⟨[], ls, hw⟩
      · have hplain := hjump hnt hsub
        obtain ⟨id, hcs1, hid, hleaf, _⟩ := (plainIdentifier_iff cs).1 hplain
        subst hcs1
        obtain ⟨st1, hvj, js, hw⟩ := visitJumpStatement_walk K0 Kf st place d id htab hleaf
          hgood
        have hv : visitSpecific legacy fuel (resolve legacy fuel) st place (.mk d [id])
            = .ok (st1, .mk d [id], true) := by
          simp only [visitSpecific, LSLASTNode.getNodeType, LSLASTNode.data_mk, hnt,
            LSLASTNode.getNodeSubType, hsub, hvj]
        simp only [resolve, hv, if_true]
        rcases visitChildren_plain legacy fuel st1 place d id hid hleaf with h | h
        · rw [h]
          exact ⟨by simp, fun _ _ h => by cases h⟩
        · rw [h]
          refine ⟨by simp, fun st2 t2 h2 => ?_⟩
          simp only [Except.ok.injEq, Prod.mk.injEq] at h2
          obtain ⟨h1, h2⟩ := h2
          subst h1
          subst h2
          exact ⟨js, [], hw⟩
    · rcases visitSpecific_plain_body legacy fuel (resolve legacy fuel) st place inner d cs hform
          hkind with herr | ⟨st1, node1, descend, hv, hq, hforms, hscopes⟩
      · simp only [resolve, herr]
        exact ⟨by simp, fun _ _ h => by cases h⟩
      · simp only [resolve, hv]
        cases descend with
        | false =>
          refine ⟨by simp, fun st2 t2 h => ?_⟩
          simp only [Bool.false_eq_true, if_false, Except.ok.injEq, Prod.mk.injEq] at h
          obtain ⟨h1, h2⟩ := h
          subst h1
          subst h2
          exact ⟨[], [], .from_quiet hq K0 Kf _ _⟩
        | true =>
          have hK1 : Kf ≤ st1.tables.length := Nat.le_trans hK hq.1.2.1
          have hhead1 : (inner || decide (d.nodeType = .NODE_STATEMENT
              ∧ d.subType = .NODE_COMPOUND_STATEMENT)) = true →
              HeadFresh Kf (node1.scopesFrom place.scopes) := by
            intro hin
            rcases hscopes with ⟨hnc, hs⟩ | ⟨_, _, hs⟩
            · rw [hs]
              apply hhead
              simpa [hnc] using hin
            · rw [hs]
              exact ⟨_, _, rfl, hK⟩
          have hgood1 : GoodScopes K0 Kf (node1.scopesFrom place.scopes) := by
            rcases hscopes with ⟨_, hs⟩ | ⟨_, _, hs⟩
            · rw [hs]; exact hgood
            · rw [hs]
              intro table ht
              rcases List.mem_cons.1 ht with ht | ht
              · rw [ht]; exact Or.inr hK
              · exact hgood table ht
          obtain ⟨hna, hok⟩ := visitChildrenFrom_bodyWalk ih _
            (node1.scopesFrom place.scopes)
            (place.root.getD (node1.scopesFrom place.scopes)) place.path hhead1 hgood1
            node1.children 0 st1 hforms hK1
          simp only [if_true, visitChildren]
          cases hch : visitChildrenFrom (resolve legacy fuel) (node1.scopesFrom place.scopes)
              (place.root.getD (node1.scopesFrom place.scopes)) place.path 0 st1
              node1.children with
          | error e =>
            refine ⟨fun h => ?_, fun _ _ h => by cases h⟩
            simp only [Except.error.injEq] at h
            rw [hch, h] at hna
            exact hna rfl
          | ok r =>
            obtain ⟨st2, cs2⟩ := r
            obtain ⟨js, ls, _, hw⟩ := hok st2 cs2 hch
            refine ⟨by simp, fun st3 t3 h => ?_⟩
            simp only [Except.ok.injEq, Prod.mk.injEq] at h
            obtain ⟨h1, h2⟩ := h
            subst h1
            subst h2
            refine ⟨js, ls, (hw (.mk node1.data cs2) (fun k c hc => ?_)).after_quiet hq⟩
            rw [Nat.zero_add]
            exact hc

end SymbolResolutionVisitor

end Asserting

section Asserting

open BaseSymbolResolutionVisitor

namespace SymbolResolutionVisitor

/-- After the walk of the children of a function or event handler of the parser's form
the kept pointers are apart: what `resolvePendingJumps` relies on. -/
theorem Walked.pendingApart {K0 Kf : Nat} {st st1 : Resolution} {body : LSLASTNode}
    {js ls : List IdentifierRef} (h : Walked K0 Kf st st1 [] body js ls)
    (hj : st.mPendingJumps = []) (hl : st.mCollectedLabels = []) :
    PendingApart st1 body := by
  have hjs : st1.mPendingJumps = js := by rw [h.jumps, hj, List.nil_append]
  have hls : st1.mCollectedLabels = ls := by rw [h.labels, hl, List.nil_append]
  have hkept : ∀ r ∈ js ++ ls, ∃ id, body.nodeAt r.path = some id ∧ id.children = [] := by
    intro r hr
    obtain ⟨q, id, hq, hn, hc⟩ := h.kept r hr
    rw [List.nil_append] at hq
    exact ⟨id, by rw [hq]; exact hn, hc⟩
  refine ⟨?_, ?_, ?_, ?_⟩
  · intro jump hjump
    rw [hjs] at hjump
    obtain ⟨id, hn, _⟩ := hkept jump (List.mem_append_left _ hjump)
    rw [hn]; rfl
  · intro label hlabel
    rw [hls] at hlabel
    obtain ⟨id, hn, _⟩ := hkept label (List.mem_append_right _ hlabel)
    rw [hn]; rfl
  · rw [hjs]
    have hnd := h.nodup
    rw [List.Nodup, List.pairwise_map] at hnd
    refine hnd.imp_of_mem ?_
    intro a b ha hb hab
    obtain ⟨x, hx, hxc⟩ := hkept a (List.mem_append_left _ ha)
    obtain ⟨y, hy, hyc⟩ := hkept b (List.mem_append_left _ hb)
    exact LSLASTNode.leaves_apart body x y a.path b.path hx hy hxc hyc hab
  · intro label hlabel jump hjump
    rw [hls] at hlabel
    rw [hjs] at hjump
    obtain ⟨x, hx, hxc⟩ := hkept jump (List.mem_append_left _ hjump)
    obtain ⟨y, hy, hyc⟩ := hkept label (List.mem_append_right _ hlabel)
    exact LSLASTNode.leaves_apart body x y jump.path label.path hx hy hxc hyc
      (h.distinct jump hjump label hlabel)

theorem Walked.labelFreeBelow {K0 Kf : Nat} {st st1 : Resolution} {path : List Nat}
    {t : LSLASTNode} {js ls : List IdentifierRef} (h : Walked K0 Kf st st1 path t js ls)
    (hK : K0 ≤ Kf) (hfree : st.LabelFreeBelow K0) : st1.LabelFreeBelow K0 := by
  intro table ht p hp
  by_cases hb : p ∈ st.tables.getD table []
  · obtain ⟨s, hs, hk⟩ := hfree table ht p hb
    exact ⟨s, h.grows.1 p s hs, hk⟩
  · rcases h.entries table p hp hb with hs | ⟨hge, _⟩
    · exact hs
    · omega

/-- After the walk of the children of a function or event handler of the parser's form
the `assert(new_sym)` of `resolvePendingJumps` holds: a label the lexical lookup finds
for a pending jump is one of the collected labels. -/
theorem Walked.labelsCollected {K0 Kf : Nat} {st st1 : Resolution} {body : LSLASTNode}
    {js ls : List IdentifierRef} (h : Walked K0 Kf st st1 [] body js ls)
    (hj : st.mPendingJumps = []) (hl : st.mCollectedLabels = []) (hK : K0 ≤ Kf)
    (hfree : st.LabelFreeBelow K0)
    (hempty : ∀ table, Kf ≤ table → st.tables.getD table [] = []) :
    LabelsCollected st1 body := by
  have hjs : st1.mPendingJumps = js := by rw [h.jumps, hj, List.nil_append]
  have hls : st1.mCollectedLabels = ls := by rw [h.labels, hl, List.nil_append]
  have hfree1 := h.labelFreeBelow hK hfree
  intro jump hjump hlex
  rw [hjs] at hjump
  rw [hls]
  obtain ⟨q, id, hq, hn, _⟩ := h.kept jump (List.mem_append_left _ hjump)
  rw [List.nil_append] at hq
  have hid : body.nodeAt jump.path = some id := by rw [hq]; exact hn
  cases hlook : lexicalLabel st1 body jump with
  | none => rw [hlook] at hlex; cases hlex
  | some orig =>
    have hl0 : st1.lookupSymbol jump.scopes id.getName .SYM_LABEL = some orig := by
      rw [← lexicalLabel_eq hid]; exact hlook
    obtain ⟨table, ht, hmem, s, hget, _, hkind⟩ := Resolution.lookupSymbol_some hl0
    have hlabel : s.symbolType = .SYM_LABEL := by
      rcases hkind with hkind | hkind
      · cases hkind
      · exact hkind
    have hcollected : ∃ l ∈ ls, KeptSymbol [] body l orig := by
      rcases h.scopes jump hjump table ht with hlow | hhigh
      · obtain ⟨s1, hs1, hk1⟩ := hfree1 table hlow orig hmem
        rw [hget] at hs1
        cases hs1
        exact absurd hlabel hk1
      · have hnot : orig ∉ st.tables.getD table [] := by
          rw [hempty table hhigh]
          exact List.not_mem_nil orig
        rcases h.entries table orig hmem hnot with ⟨s1, hs1, hk1⟩ | ⟨_, hc⟩
        · rw [hget] at hs1
          cases hs1
          exact absurd hlabel hk1
        · exact hc
    obtain ⟨l, hlm, q1, id1, hq1, hn1, hsym1⟩ := hcollected
    rw [List.nil_append] at hq1
    have hat : symbolAt body l = some orig := by
      simp only [symbolAt, hq1, hn1, Option.some_bind, hsym1]
    rw [legacyLabel_of st1 body ls jump orig s hlook hget]
    have hmem1 : orig ∈ labelsNamed st1 body s.name ls := by
      simp only [labelsNamed, List.mem_filter, List.mem_filterMap]
      refine ⟨⟨l, hlm, hat⟩, ?_⟩
      simp only [isLabelNamed, hget, hlabel, and_self, decide_True]
    cases hlast : (labelsNamed st1 body s.name ls).getLast? with
    | none =>
      rw [List.getLast?_eq_none_iff] at hlast
      rw [hlast] at hmem1
      exact absurd hmem1 (List.not_mem_nil orig)
    | some x => rfl

/-- The walk of the children of a function or event handler of the parser's form, from a
state with empty lists, fails no assertion, and after it `resolvePendingJumps` returns,
leaving a state between two bodies. -/
theorem visitChildren_body (legacy : Bool) (fuel : Nat) (K0 : Nat) (st : Resolution)
    (place : Place) (node : LSLASTNode) (Kf : Nat)
    (hforms : ∀ c ∈ node.children, bodyForm false c = true)
    (hj : st.mPendingJumps = []) (hl : st.mCollectedLabels = [])
    (hfree : st.LabelFreeBelow K0) (hK : K0 ≤ Kf) (hKf : Kf ≤ st.tables.length)
    (hempty : ∀ table, Kf ≤ table → st.tables.getD table [] = [])
    (hgood : GoodScopes K0 Kf (node.scopesFrom place.scopes)) :
    visitChildren (resolve legacy fuel) st { place with path := [] } node
        ≠ .error .assertionFailed
      ∧ ∀ st1 body,
          visitChildren (resolve legacy fuel) st { place with path := [] } node
            = .ok (st1, body) →
          ∃ st2 body1, resolvePendingJumps legacy st1 body = .ok (st2, body1)
            ∧ OuterState K0 st2 := by
  obtain ⟨hna, hok⟩ := visitChildrenFrom_bodyWalk (resolve_bodyWalk legacy K0 Kf fuel) false
    (node.scopesFrom place.scopes) (place.root.getD (node.scopesFrom place.scopes)) []
    (fun h => by cases h) hgood node.children 0 st hforms hKf
  simp only [visitChildren]
  cases hch : visitChildrenFrom (resolve legacy fuel) (node.scopesFrom place.scopes)
      (place.root.getD (node.scopesFrom place.scopes)) [] 0 st node.children with
  | error e =>
    refine ⟨fun h => ?_, fun _ _ h => by cases h⟩
    simp only [Except.error.injEq] at h
    rw [hch, h] at hna
    exact hna rfl
  | ok r =>
    obtain ⟨st1, cs1⟩ := r
    obtain ⟨js, ls, _, hw⟩ := hok st1 cs1 hch
    refine ⟨by simp, fun st2 body h => ?_⟩
    simp only [Except.ok.injEq, Prod.mk.injEq] at h
    obtain ⟨h1, h2⟩ := h
    subst h1
    subst h2
    have hwalk := hw (.mk node.data cs1) (fun k c hc => by rw [Nat.zero_add]; exact hc)
    obtain ⟨body1, hrun, _, _⟩ := resolvePendingJumps_outcome legacy st1 _
      (hwalk.pendingApart hj hl)
      (fun _ => hwalk.labelsCollected hj hl hK hfree hempty)
    refine ⟨_, body1, hrun, rfl, rfl, ?_, ?_⟩
    · exact hwalk.labelFreeBelow hK hfree
    · exact Nat.le_trans (Nat.le_trans hK hKf) hwalk.grows.2.1

end SymbolResolutionVisitor

end Asserting

section Asserting

open BaseSymbolResolutionVisitor

namespace SymbolResolutionVisitor

theorem outerForm_all_iff (K : Nat) (inState : Bool) (cs : List LSLASTNode) :
    outerForm.all K inState cs = true ↔ ∀ c ∈ cs, outerForm K inState c = true := by
  induction cs with
  | nil => simp [outerForm.all]
  | cons c cs ih => simp [outerForm.all, ih]

theorem outerForm_cases {K : Nat} {inState : Bool} {d : NodeData} {cs : List LSLASTNode}
    (h : outerForm K inState (.mk d cs) = true) :
    (d.nodeType = .NODE_GLOBAL_FUNCTION ∧ tableBelow K d = true
        ∧ ∀ c ∈ cs, bodyForm false c = true)
      ∨ (d.nodeType = .NODE_EVENT_HANDLER ∧ inState = true
        ∧ ∀ c ∈ cs, bodyForm false c = true)
      ∨ d.nodeType = .NODE_GLOBAL_VARIABLE
      ∨ (d.nodeType = .NODE_STATE ∧ tableBelow K d = true
        ∧ ∀ c ∈ cs, outerForm K true c = true)
      ∨ ((d.nodeType = .NODE_NODE ∨ d.nodeType = .NODE_NULL
          ∨ d.nodeType = .NODE_AST_NODE_LIST ∨ d.nodeType = .NODE_IDENTIFIER
          ∨ d.nodeType = .NODE_CONSTANT ∨ d.nodeType = .NODE_TYPE)
        ∧ d.symbolTable = none ∧ ∀ c ∈ cs, outerForm K inState c = true) := by
  unfold outerForm at h
  cases hnt : d.nodeType <;>
    simp only [hnt, Bool.and_eq_true, bodyForm_all_iff, outerForm_all_iff,
      Option.isNone_iff_eq_none, Bool.false_eq_true] at h <;>
    first
      | exact absurd h id
      | (simp [h.1]; exact h.2)
      | simp_all

theorem tableBelow_scopes {K : Nat} {d : NodeData} (h : tableBelow K d = true)
    (cs : List LSLASTNode) {scopes : List Nat} (hs : ∀ table ∈ scopes, table < K) :
    ∀ table ∈ (LSLASTNode.mk d cs).scopesFrom scopes, table < K := by
  intro table ht
  unfold tableBelow at h
  simp only [LSLASTNode.scopesFrom, LSLASTNode.getSymbolTable, LSLASTNode.data_mk] at ht
  cases hd : d.symbolTable with
  | none =>
    rw [hd] at ht
    exact hs table ht
  | some q =>
    rw [hd] at ht h
    rcases List.mem_cons.1 ht with ht | ht
    · rw [ht]; simpa using h
    · exact hs table ht

theorem getD_beyond (st : Resolution) (table : Nat) (h : st.tables.length ≤ table) :
    st.tables.getD table [] = [] := by
  simp only [List.getD_eq_getElem?_getD, List.getElem?_eq_none h, Option.getD_none]

/-- The visit of a global function of the parser's form from a state between two bodies. -/
theorem resolve_function (legacy : Bool) (fuel K0 : Nat) (st : Resolution) (place : Place)
    (d : NodeData) (cs : List LSLASTNode) (hnt : d.nodeType = .NODE_GLOBAL_FUNCTION)
    (htb : tableBelow K0 d = true) (hforms : ∀ c ∈ cs, bodyForm false c = true)
    (hst : OuterState K0 st) (hsc : ∀ table ∈ place.scopes, table < K0) :
    resolve legacy (fuel + 1) st place (.mk d cs) ≠ .error .assertionFailed
      ∧ ∀ st1 t1, resolve legacy (fuel + 1) st place (.mk d cs) = .ok (st1, t1) →
          OuterState K0 st1 := by
  obtain ⟨hj, hl, hfree, hK⟩ := hst
  obtain ⟨hna, hok⟩ := visitChildren_body legacy fuel K0 st place (.mk d cs) st.tables.length
    hforms hj hl hfree hK (Nat.le_refl _) (getD_beyond st)
    (fun table ht => Or.inl (tableBelow_scopes htb cs hsc table ht))
  have hv : visitSpecific legacy fuel (resolve legacy fuel) st place (.mk d cs)
      = visitGlobalFunction legacy (resolve legacy fuel) st place (.mk d cs) := by
    simp only [visitSpecific, LSLASTNode.getNodeType, LSLASTNode.data_mk, hnt]
  simp only [resolve, hv, visitGlobalFunction, hj, ne_eq, not_true_eq_false, if_false]
  cases hch : visitChildren (resolve legacy fuel) st { place with path := [] }
      (.mk d cs) with
  | error e =>
    refine ⟨fun h => ?_, fun _ _ h => by cases h⟩
    simp only [Except.error.injEq] at h
    rw [hch, h] at hna
    exact hna rfl
  | ok r =>
    obtain ⟨st1, body⟩ := r
    obtain ⟨st2, body1, hrun, hpost⟩ := hok st1 body hch
    simp only [hrun, Bool.false_eq_true, if_false]
    refine ⟨by simp, fun st3 t3 h => ?_⟩
    simp only [Except.ok.injEq, Prod.mk.injEq] at h
    rw [← h.1]
    exact hpost

theorem enterEventHandler_facts (K0 : Nat) (st : Resolution) (place : Place)
    (node : LSLASTNode) (hforms : ∀ c ∈ node.children, bodyForm false c = true)
    (hsc : ∀ table ∈ place.scopes, table < K0) (hK : K0 ≤ st.tables.length) :
    enterEventHandler st place node = .error .nullDereference
      ∨ ∃ st0 node0, enterEventHandler st place node = .ok (st0, node0)
          ∧ st.Quiet st0
          ∧ node0.scopesFrom place.scopes = st.tables.length :: place.scopes
          ∧ (∀ c ∈ node0.children, bodyForm false c = true)
          ∧ ∀ table, st.tables.length ≤ table → st0.tables.getD table [] = [] := by
  have hnew : ∀ table, st.tables.length ≤ table →
      (replaceSymbolTable st node).1.tables.getD table [] = [] := by
    intro table ht
    simp only [replaceSymbolTable, List.getD_eq_getElem?_getD]
    by_cases heq : table = st.tables.length
    · subst heq
      simp
    · rw [List.getElem?_eq_none (by simp; omega)]
      rfl
  unfold enterEventHandler
  simp only []
  cases hid : (replaceSymbolTable st node).2.getChild 0 with
  | none => exact Or.inl rfl
  | some id =>
    right
    have hidm : id ∈ node.children := List.get?_mem hid
    simp only []
    cases hlook : (replaceSymbolTable st node).1.lookupSymbol
        (place.root.getD ((replaceSymbolTable st node).2.scopesFrom place.scopes))
        id.getName .SYM_EVENT with
    | none =>
      refine ⟨_, _, rfl, (Resolution.Quiet.by_replaceSymbolTable st node).andThen
        (.by_report _ _ _), rfl, hforms, hnew⟩
    | some found =>
      refine ⟨_, _, rfl, (Resolution.Quiet.by_replaceSymbolTable st node).andThen
        (.by_declared _ _ _ (by simp)), rfl, ?_, ?_⟩
      · exact replaceChild_forms 0 hforms (bodyForm_setSymbol (hforms id hidm) _)
      · intro table ht
        cases hmem : (((replaceSymbolTable st node).1.newSymbol
            { name := id.getName, type := id.getType, symbolType := .SYM_EVENT,
              subType := .SYM_BUILTIN,
              functionDecl := GlobalSymbolResolutionVisitor.functionDecl
                ((replaceSymbolTable st node).2.getChild 1) }).1.defineSymbol place.scopes
            ((replaceSymbolTable st node).1.newSymbol
              { name := id.getName, type := id.getType, symbolType := .SYM_EVENT,
                subType := .SYM_BUILTIN,
                functionDecl := GlobalSymbolResolutionVisitor.functionDecl
                  ((replaceSymbolTable st node).2.getChild 1) }).2).tables.getD table [] with
        | nil => rfl
        | cons e rest =>
          have he : e ∈ (((replaceSymbolTable st node).1.newSymbol
            { name := id.getName, type := id.getType, symbolType := .SYM_EVENT,
              subType := .SYM_BUILTIN,
              functionDecl := GlobalSymbolResolutionVisitor.functionDecl
                ((replaceSymbolTable st node).2.getChild 1) }).1.defineSymbol place.scopes
            ((replaceSymbolTable st node).1.newSymbol
              { name := id.getName, type := id.getType, symbolType := .SYM_EVENT,
                subType := .SYM_BUILTIN,
                functionDecl := GlobalSymbolResolutionVisitor.functionDecl
                  ((replaceSymbolTable st node).2.getChild 1) }).2).tables.getD table [] := by
            rw [hmem]
            exact List.mem_cons_self _ _
          rcases Resolution.defineSymbol_mem _ _ _ table e he with h | ⟨_, hh⟩
          · have h0 : e ∈ (replaceSymbolTable st node).1.tables.getD table [] := h
            rw [hnew table ht] at h0
            exact absurd h0 (List.not_mem_nil e)
          · have : table ∈ place.scopes := by
              cases hps : place.scopes with
              | nil => rw [hps] at hh; cases hh
              | cons a b =>
                rw [hps] at hh
                simp only [List.head?_cons, Option.some.injEq] at hh
                rw [hh]
                exact List.mem_cons_self _ _
            have := hsc table this
            omega

theorem visitEventHandler_fails (legacy : Bool)
    (f : Resolution → Place → LSLASTNode → Except Fault (Resolution × LSLASTNode))
    (st : Resolution) (place : Place) (node : LSLASTNode)
    (he : enterEventHandler st place node = .error .nullDereference) :
    visitEventHandler legacy f st place node = .error .nullDereference := by
  unfold enterEventHandler at he
  unfold visitEventHandler
  simp only [] at he ⊢
  cases hid : (replaceSymbolTable st node).2.getChild 0 with
  | none => rfl
  | some id =>
    simp only [hid] at he
    split at he <;> cases he

theorem visitEventHandler_walk_fails (legacy : Bool)
    (f : Resolution → Place → LSLASTNode → Except Fault (Resolution × LSLASTNode))
    (st : Resolution) (place : Place) (node : LSLASTNode) (st0 : Resolution)
    (node0 : LSLASTNode) (e : Fault)
    (he : enterEventHandler st place node = .ok (st0, node0))
    (hp : st0.mPendingJumps = [])
    (hw : visitChildren f st0 { place with path := [] } node0 = .error e) :
    visitEventHandler legacy f st place node = .error e := by
  unfold enterEventHandler at he
  unfold visitEventHandler
  simp only [] at he ⊢
  cases hid : (replaceSymbolTable st node).2.getChild 0 with
  | none => rw [hid] at he; cases he
  | some id =>
    simp only [hid] at he
    simp only [hid]
    cases hl : (replaceSymbolTable st node).1.lookupSymbol
        (place.root.getD ((replaceSymbolTable st node).2.scopesFrom place.scopes))
        id.getName .SYM_EVENT with
    | none =>
      simp only [hl, Except.ok.injEq, Prod.mk.injEq] at he
      obtain ⟨h1, h2⟩ := he
      simp only [hl, h1, h2, hp, ne_eq, not_true_eq_false, if_false, hw]
    | some sym =>
      simp only [hl, Except.ok.injEq, Prod.mk.injEq] at he
      obtain ⟨h1, h2⟩ := he
      simp only [hl, h1, h2, hp, ne_eq, not_true_eq_false, if_false, hw]

/-- The visit of an event handler of the parser's form from a state between two
bodies. -/
theorem resolve_handler (legacy : Bool) (fuel K0 : Nat) (st : Resolution) (place : Place)
    (d : NodeData) (cs : List LSLASTNode) (hnt : d.nodeType = .NODE_EVENT_HANDLER)
    (hforms : ∀ c ∈ cs, bodyForm false c = true)
    (hst : OuterState K0 st) (hsc : ∀ table ∈ place.scopes, table < K0) :
    resolve legacy (fuel + 1) st place (.mk d cs) ≠ .error .assertionFailed
      ∧ ∀ st1 t1, resolve legacy (fuel + 1) st place (.mk d cs) = .ok (st1, t1) →
          OuterState K0 st1 := by
  obtain ⟨hj, hl, hfree, hK⟩ := hst
  have hv : visitSpecific legacy fuel (resolve legacy fuel) st place (.mk d cs)
      = visitEventHandler legacy (resolve legacy fuel) st place (.mk d cs) := by
    simp only [visitSpecific, LSLASTNode.getNodeType, LSLASTNode.data_mk, hnt]
  rcases enterEventHandler_facts K0 st place (.mk d cs) hforms hsc hK with
    he | ⟨st0, node0, he, hq, hscopes, hforms0, hempty⟩
  · simp only [resolve, hv, visitEventHandler_fails legacy _ st place _ he]
    exact ⟨by simp, fun _ _ h => by cases h⟩
  · have hj0 : st0.mPendingJumps = [] := hq.2.1.trans hj
    have hl0 : st0.mCollectedLabels = [] := hq.2.2.1.trans hl
    obtain ⟨hna, hok⟩ := visitChildren_body legacy fuel K0 st0 place node0 st.tables.length
      hforms0 hj0 hl0 (hfree.through_quiet hq) hK hq.1.2.1 hempty
      (by
        rw [hscopes]
        intro table ht
        rcases List.mem_cons.1 ht with ht | ht
        · rw [ht]; exact Or.inr (Nat.le_refl _)
        · exact Or.inl (hsc table ht))
    cases hch : visitChildren (resolve legacy fuel) st0 { place with path := [] } node0 with
    | error e =>
      simp only [resolve, hv,
        visitEventHandler_walk_fails legacy _ st place _ st0 node0 e he hj0 hch]
      refine ⟨fun h => ?_, fun _ _ h => by cases h⟩
      simp only [Except.error.injEq] at h
      rw [hch, h] at hna
      exact hna rfl
    | ok r =>
      obtain ⟨st1, body⟩ := r
      obtain ⟨st2, body1, hrun, hpost⟩ := hok st1 body hch
      simp only [resolve, hv,
        visitEventHandler_enter legacy _ st place _ st0 node0 st1 body (st2, body1) he hj0
          hch hrun, Bool.false_eq_true, if_false]
      refine ⟨by simp, fun st3 t3 h => ?_⟩
      simp only [Except.ok.injEq, Prod.mk.injEq] at h
      rw [← h.1]
      exact hpost

theorem visitChildrenFrom_outerWalk {K0 : Nat}
    {f : Resolution → Place → LSLASTNode → Except Fault (Resolution × LSLASTNode)}
    (hf : OuterWalk K0 f) (inState : Bool) (scopes root path : List Nat)
    (hsc : ∀ table ∈ scopes, table < K0) :
    ∀ (cs : List LSLASTNode) (i : Nat) (st : Resolution),
      (∀ c ∈ cs, outerForm K0 inState c = true) → OuterState K0 st →
      visitChildrenFrom f scopes root path i st cs ≠ .error .assertionFailed
        ∧ ∀ st1 cs1, visitChildrenFrom f scopes root path i st cs = .ok (st1, cs1) →
            OuterState K0 st1 := by
  intro cs
  induction cs with
  | nil =>
    intro i st _ hst
    refine ⟨by simp [visitChildrenFrom], fun st1 cs1 h => ?_⟩
    simp only [visitChildrenFrom, Except.ok.injEq, Prod.mk.injEq] at h
    rw [← h.1]
    exact hst
  | cons c rest ih =>
    intro i st hforms hst
    obtain ⟨hna, hok⟩ := hf st { scopes := scopes, root := some root, path := path ++ [i] }
      inState c (hforms c (List.mem_cons_self _ _)) hst hsc
    simp only [visitChildrenFrom]
    cases hc : f st { scopes := scopes, root := some root, path := path ++ [i] } c with
    | error e =>
      refine ⟨fun h => ?_, fun _ _ h => by cases h⟩
      simp only [Except.error.injEq] at h
      rw [hc, h] at hna
      exact hna rfl
    | ok r1 =>
      obtain ⟨st1, c1⟩ := r1
      obtain ⟨hna2, hok2⟩ := ih (i + 1) st1
        (fun x hx => hforms x (List.mem_cons_of_mem _ hx)) (hok st1 c1 hc)
      simp only []
      cases hrest : visitChildrenFrom f scopes root path (i + 1) st1 rest with
      | error e =>
        refine ⟨fun h => ?_, fun _ _ h => by cases h⟩
        simp only [Except.error.injEq] at h
        rw [hrest, h] at hna2
        exact hna2 rfl
      | ok r2 =>
        obtain ⟨st2, rest1⟩ := r2
        refine ⟨by simp, fun st3 cs3 h => ?_⟩
        simp only [Except.ok.injEq, Prod.mk.injEq] at h
        rw [← h.1]
        exact hok2 st2 rest1 hrest

/-- Outside of the functions and event handlers the walk over a tree of the parser's
form fails no assertion and keeps the state one between two bodies. -/
theorem resolve_outerWalk (legacy : Bool) (K0 : Nat) :
    ∀ fuel, OuterWalk K0 (resolve legacy fuel) := by
  intro fuel
  induction fuel with
  | zero =>
    intro st place inState t _ _ _
    exact ⟨by simp [resolve], fun _ _ h => by cases h⟩
  | succ fuel ih =>
    intro st place inState t hform hst hsc
    obtain ⟨d, cs⟩ := t
    have hdescend : ∀ (inState1 : Bool), (∀ c ∈ cs, outerForm K0 inState1 c = true) →
        tableBelow K0 d = true →
        visitSpecific legacy fuel (resolve legacy fuel) st place (.mk d cs)
          = .ok (st, .mk d cs, true) →
        resolve legacy (fuel + 1) st place (.mk d cs) ≠ .error .assertionFailed
          ∧ ∀ st1 t1, resolve legacy (fuel + 1) st place (.mk d cs) = .ok (st1, t1) →
              OuterState K0 st1 := by
      intro inState1 hforms htb hv
      obtain ⟨hna, hok⟩ := visitChildrenFrom_outerWalk ih inState1
        ((LSLASTNode.mk d cs).scopesFrom place.scopes)
        (place.root.getD ((LSLASTNode.mk d cs).scopesFrom place.scopes)) place.path
        (tableBelow_scopes htb cs hsc) cs 0 st hforms hst
      simp only [resolve, hv, if_true, visitChildren, LSLASTNode.children_mk]
      cases hch : visitChildrenFrom (resolve legacy fuel)
          ((LSLASTNode.mk d cs).scopesFrom place.scopes)
          (place.root.getD ((LSLASTNode.mk d cs).scopesFrom place.scopes)) place.path 0 st
          cs with
      | error e =>
        refine ⟨fun h => ?_, fun _ _ h => by cases h⟩
        simp only [Except.error.injEq] at h
        rw [hch, h] at hna
        exact hna rfl
      | ok r =>
        obtain ⟨st1, cs1⟩ := r
        refine ⟨by simp, fun st2 t2 h => ?_⟩
        simp only [Except.ok.injEq, Prod.mk.injEq] at h
        rw [← h.1]
        exact hok st1 cs1 hch
    rcases outerForm_cases hform with ⟨hnt, htb, hforms⟩ | ⟨hnt, _, hforms⟩ | hnt
        | ⟨hnt, htb, hforms⟩ | ⟨hnt, htab, hforms⟩
    · exact resolve_function legacy fuel K0 st place d cs hnt htb hforms hst hsc
    · exact resolve_handler legacy fuel K0 st place d cs hnt hforms hst hsc
    · have hv : visitSpecific legacy fuel (resolve legacy fuel) st place (.mk d cs)
          = .ok (st, .mk d cs, false) := by
        simp only [visitSpecific, LSLASTNode.getNodeType, LSLASTNode.data_mk, hnt]
      simp only [resolve, hv, Bool.false_eq_true, if_false]
      refine ⟨by simp, fun st1 t1 h => ?_⟩
      simp only [Except.ok.injEq, Prod.mk.injEq] at h
      rw [← h.1]
      exact hst
    · refine hdescend true hforms htb ?_
      simp only [visitSpecific, LSLASTNode.getNodeType, LSLASTNode.data_mk, hnt]
    · refine hdescend inState hforms (by simp [tableBelow, htab]) ?_
      rcases hnt with hnt | hnt | hnt | hnt | hnt | hnt <;>
        simp only [visitSpecific, LSLASTNode.getNodeType, LSLASTNode.data_mk, hnt]

end SymbolResolutionVisitor

end Asserting

section Asserting

open BaseSymbolResolutionVisitor

namespace SymbolResolutionVisitor

theorem tableBelow_mono {K K1 : Nat} (h : K ≤ K1) {d : NodeData}
    (hd : tableBelow K d = true) : tableBelow K1 d = true := by
  unfold tableBelow at hd ⊢
  cases hs : d.symbolTable with
  | none => rfl
  | some table =>
    rw [hs] at hd
    simp only [decide_eq_true_eq] at hd ⊢
    omega

theorem outerForm_setSymbol (K : Nat) (inState : Bool) (t : LSLASTNode) (sym : Option Nat) :
    outerForm K inState (t.setSymbol sym) = outerForm K inState t := by
  obtain ⟨d, cs⟩ := t
  simp only [LSLASTNode.setSymbol, LSLASTNode.data_mk, LSLASTNode.children_mk, outerForm,
    tableBelow]

/-- A node with a table among the first `K` and a first child that only differs in its
symbol is a global function of the form when its children were of the form. -/
theorem outerForm_function {K : Nat} {inState : Bool} {t : LSLASTNode}
    (hnt : t.getNodeType = .NODE_GLOBAL_FUNCTION) (htb : tableBelow K t.data = true)
    (hforms : ∀ c ∈ t.children, bodyForm false c = true) : outerForm K inState t = true := by
  obtain ⟨d, cs⟩ := t
  have hnt1 : d.nodeType = .NODE_GLOBAL_FUNCTION := hnt
  simp only [outerForm, hnt1, Bool.and_eq_true, bodyForm_all_iff]
  exact ⟨htb, hforms⟩

theorem outerForm_state {K : Nat} {inState : Bool} {t : LSLASTNode}
    (hnt : t.getNodeType = .NODE_STATE) (htb : tableBelow K t.data = true)
    (hforms : ∀ c ∈ t.children, outerForm K true c = true) : outerForm K inState t = true := by
  obtain ⟨d, cs⟩ := t
  have hnt1 : d.nodeType = .NODE_STATE := hnt
  simp only [outerForm, hnt1, Bool.and_eq_true, outerForm_all_iff]
  exact ⟨htb, hforms⟩

theorem outerForm_variable {K : Nat} {inState : Bool} {t : LSLASTNode}
    (hnt : t.getNodeType = .NODE_GLOBAL_VARIABLE) : outerForm K inState t = true := by
  obtain ⟨d, cs⟩ := t
  have hnt1 : d.nodeType = .NODE_GLOBAL_VARIABLE := hnt
  simp only [outerForm, hnt1]

theorem outerForm_carrier {K : Nat} {inState : Bool} {d : NodeData} {cs : List LSLASTNode}
    (hnt : d.nodeType = .NODE_NODE ∨ d.nodeType = .NODE_NULL
      ∨ d.nodeType = .NODE_AST_NODE_LIST ∨ d.nodeType = .NODE_IDENTIFIER
      ∨ d.nodeType = .NODE_CONSTANT ∨ d.nodeType = .NODE_TYPE)
    (htab : d.symbolTable = none)
    (hforms : ∀ c ∈ cs, outerForm K inState c = true) :
    outerForm K inState (.mk d cs) = true := by
  rcases hnt with hnt | hnt | hnt | hnt | hnt | hnt <;>
    simp only [outerForm, hnt, Bool.and_eq_true, outerForm_all_iff, htab, Option.isNone_none,
      true_and] <;>
    exact hforms

theorem outerForm_mono_height {K K1 : Nat} (h : K ≤ K1) :
    ∀ (n : Nat) (inState : Bool) (t : LSLASTNode), t.height < n →
      outerForm K inState t = true → outerForm K1 inState t = true := by
  intro n
  induction n with
  | zero => intro _ _ hn; exact absurd hn (Nat.not_lt_zero _)
  | succ n ih =>
    intro inState t hn hf
    obtain ⟨d, cs⟩ := t
    have hkids : ∀ (s : Bool), (∀ c ∈ cs, outerForm K s c = true) →
        ∀ c ∈ cs, outerForm K1 s c = true := by
      intro s hcs c hc
      have := LSLASTNode.height_lt_of_mem hc d
      exact ih s c (by omega) (hcs c hc)
    rcases outerForm_cases hf with ⟨hnt, htb, hforms⟩ | ⟨hnt, hs, hforms⟩ | hnt
        | ⟨hnt, htb, hforms⟩ | ⟨hnt, htab, hforms⟩
    · exact outerForm_function hnt (tableBelow_mono h htb) hforms
    · simp only [outerForm, hnt, hs, Bool.true_and, bodyForm_all_iff]
      exact hforms
    · exact outerForm_variable hnt
    · exact outerForm_state hnt (tableBelow_mono h htb) (hkids true hforms)
    · exact outerForm_carrier hnt htab (hkids inState hforms)

/-- The form with the tables below `K` is the form with the tables below any larger
bound. -/
theorem outerForm_mono {K K1 : Nat} (h : K ≤ K1) (inState : Bool) (t : LSLASTNode)
    (hf : outerForm K inState t = true) : outerForm K1 inState t = true :=
  outerForm_mono_height h (t.height + 1) inState t (Nat.lt_succ_self _) hf

theorem visitChildrenFrom_quietWalk
    {f : Resolution → Place → LSLASTNode → Except Fault (Resolution × LSLASTNode)}
    (hf : QuietWalk f) (scopes root path : List Nat) :
    ∀ (cs : List LSLASTNode) (i : Nat) (st : Resolution),
      visitChildrenFrom f scopes root path i st cs ≠ .error .assertionFailed
        ∧ ∀ st1 cs1, visitChildrenFrom f scopes root path i st cs = .ok (st1, cs1) →
            st.Quiet st1 := by
  intro cs
  induction cs with
  | nil =>
    intro i st
    refine ⟨by simp [visitChildrenFrom], fun st1 cs1 h => ?_⟩
    simp only [visitChildrenFrom, Except.ok.injEq, Prod.mk.injEq] at h
    rw [← h.1]
    exact .stay _
  | cons c rest ih =>
    intro i st
    obtain ⟨hna, hok⟩ := hf st { scopes := scopes, root := some root, path := path ++ [i] } c
    simp only [visitChildrenFrom]
    cases hc : f st { scopes := scopes, root := some root, path := path ++ [i] } c with
    | error e =>
      refine ⟨fun h => ?_, fun _ _ h => by cases h⟩
      simp only [Except.error.injEq] at h
      rw [hc, h] at hna
      exact hna rfl
    | ok r1 =>
      obtain ⟨st1, c1⟩ := r1
      obtain ⟨hna2, hok2⟩ := ih (i + 1) st1
      simp only []
      cases hrest : visitChildrenFrom f scopes root path (i + 1) st1 rest with
      | error e =>
        refine ⟨fun h => ?_, fun _ _ h => by cases h⟩
        simp only [Except.error.injEq] at h
        rw [hrest, h] at hna2
        exact hna2 rfl
      | ok r2 =>
        obtain ⟨st2, rest1⟩ := r2
        refine ⟨by simp, fun st3 cs3 h => ?_⟩
        simp only [Except.ok.injEq, Prod.mk.injEq] at h
        rw [← h.1]
        exact (hok st1 c1 hc).1.andThen (hok2 st2 rest1 hrest)

theorem visitChildren_quietWalk
    {f : Resolution → Place → LSLASTNode → Except Fault (Resolution × LSLASTNode)}
    (hf : QuietWalk f) (st : Resolution) (place : Place) (node : LSLASTNode) :
    visitChildren f st place node ≠ .error .assertionFailed
      ∧ ∀ st1 t1, visitChildren f st place node = .ok (st1, t1) →
          st.Quiet st1 ∧ t1.data = node.data := by
  obtain ⟨hna, hok⟩ := visitChildrenFrom_quietWalk hf (node.scopesFrom place.scopes)
    (place.root.getD (node.scopesFrom place.scopes)) place.path node.children 0 st
  unfold visitChildren
  cases hch : visitChildrenFrom f (node.scopesFrom place.scopes)
      (place.root.getD (node.scopesFrom place.scopes)) place.path 0 st node.children with
  | error e =>
    refine ⟨fun h => ?_, fun _ _ h => by cases h⟩
    simp only [Except.error.injEq] at h
    rw [hch, h] at hna
    exact hna rfl
  | ok r =>
    obtain ⟨st1, cs1⟩ := r
    refine ⟨by simp, fun st2 t2 h => ?_⟩
    simp only [Except.ok.injEq, Prod.mk.injEq] at h
    rw [← h.1, ← h.2]
    exact ⟨hok st1 cs1 hch, rfl⟩

/-- The `visit` overloads of the global visitor hold no assertion, keep no pointer and
define no label. -/
theorem visitSpecific_quietWalk
    {f : Resolution → Place → LSLASTNode → Except Fault (Resolution × LSLASTNode)}
    (hf : QuietWalk f) (st : Resolution) (place : Place) (node : LSLASTNode) :
    GlobalSymbolResolutionVisitor.visitSpecific f st place node ≠ .error .assertionFailed
      ∧ ∀ st1 node1 descend,
          GlobalSymbolResolutionVisitor.visitSpecific f st place node
            = .ok (st1, node1, descend) →
          st.Quiet st1 ∧ node1.getNodeType = node.getNodeType := by
  unfold GlobalSymbolResolutionVisitor.visitSpecific
  split
  · unfold GlobalSymbolResolutionVisitor.visitGlobalVariable
    obtain ⟨hna, hok⟩ := visitChildren_quietWalk hf st place node
    cases hch : visitChildren f st place node with
    | error e =>
      refine ⟨fun h => ?_, fun _ _ _ h => by cases h⟩
      simp only [Except.error.injEq] at h
      rw [hch, h] at hna
      exact hna rfl
    | ok r =>
      obtain ⟨st1, node1⟩ := r
      obtain ⟨hq, hd⟩ := hok st1 node1 hch
      simp only []
      cases hid : node1.getChild 0 with
      | none => exact ⟨by simp, fun _ _ _ h => by cases h⟩
      | some id =>
        refine ⟨by simp, fun st2 node2 descend h => ?_⟩
        simp only [Except.ok.injEq, Prod.mk.injEq] at h
        rw [← h.1, ← h.2.1]
        refine ⟨hq.andThen (.by_declared _ _ _ (by simp)), ?_⟩
        show node1.data.nodeType = node.data.nodeType
        rw [hd]
  · unfold GlobalSymbolResolutionVisitor.visitGlobalFunction
    simp only []
    cases hid : (replaceSymbolTable st node).2.getChild 0 with
    | none => exact ⟨by simp, fun _ _ _ h => by cases h⟩
    | some id =>
      refine ⟨by simp, fun st2 node2 descend h => ?_⟩
      simp only [Except.ok.injEq, Prod.mk.injEq] at h
      rw [← h.1, ← h.2.1]
      exact ⟨(Resolution.Quiet.by_replaceSymbolTable st node).andThen
        (.by_declared _ _ _ (by simp)), rfl⟩
  · unfold GlobalSymbolResolutionVisitor.visitState
    simp only []
    cases hid : (replaceSymbolTable st node).2.getChild 0 with
    | none => exact ⟨by simp, fun _ _ _ h => by cases h⟩
    | some id =>
      refine ⟨by simp, fun st2 node2 descend h => ?_⟩
      simp only [Except.ok.injEq, Prod.mk.injEq] at h
      rw [← h.1, ← h.2.1]
      exact ⟨(Resolution.Quiet.by_replaceSymbolTable st node).andThen
        (.by_declared _ _ _ (by simp)), rfl⟩
  · split
    · unfold visitLValueExpression
      cases hid : node.getChild 0 with
      | none => exact ⟨by simp, fun _ _ _ h => by cases h⟩
      | some id =>
        refine ⟨by simp, fun st2 node2 descend h => ?_⟩
        simp only [Except.ok.injEq, Prod.mk.injEq] at h
        rw [← h.1, ← h.2.1]
        exact ⟨.by_resolveSymbol _ _ _ _, rfl⟩
    · unfold visitFunctionExpression
      cases hid : node.getChild 0 with
      | none => exact ⟨by simp, fun _ _ _ h => by cases h⟩
      | some id =>
        refine ⟨by simp, fun st2 node2 descend h => ?_⟩
        simp only [Except.ok.injEq, Prod.mk.injEq] at h
        rw [← h.1, ← h.2.1]
        exact ⟨.by_resolveSymbol _ _ _ _, rfl⟩
    · refine ⟨by simp, fun st2 node2 descend h => ?_⟩
      simp only [Except.ok.injEq, Prod.mk.injEq] at h
      rw [← h.1, ← h.2.1]
      exact ⟨.stay _, rfl⟩
  · refine ⟨by simp, fun st2 node2 descend h => ?_⟩
    simp only [Except.ok.injEq, Prod.mk.injEq] at h
    rw [← h.1, ← h.2.1]
    exact ⟨.stay _, rfl⟩

/-- The walk of the global visitor fails no assertion on any tree, keeps no pointer and
defines no label. -/
theorem resolve_quietWalk : ∀ fuel, QuietWalk (GlobalSymbolResolutionVisitor.resolve fuel) := by
  intro fuel
  induction fuel with
  | zero =>
    intro st place t
    exact ⟨by simp [GlobalSymbolResolutionVisitor.resolve], fun _ _ h => by cases h⟩
  | succ fuel ih =>
    intro st place t
    obtain ⟨hna, hok⟩ := visitSpecific_quietWalk ih st place t
    simp only [GlobalSymbolResolutionVisitor.resolve]
    cases hv : GlobalSymbolResolutionVisitor.visitSpecific
        (GlobalSymbolResolutionVisitor.resolve fuel) st place t with
    | error e =>
      refine ⟨fun h => ?_, fun _ _ h => by cases h⟩
      simp only [Except.error.injEq] at h
      rw [hv, h] at hna
      exact hna rfl
    | ok r =>
      obtain ⟨st1, node1, descend⟩ := r
      obtain ⟨hq, hnt⟩ := hok st1 node1 descend hv
      cases descend with
      | false =>
        simp only [Bool.false_eq_true, if_false]
        refine ⟨by simp, fun st2 t2 h => ?_⟩
        simp only [Except.ok.injEq, Prod.mk.injEq] at h
        rw [← h.1, ← h.2]
        exact ⟨hq, hnt⟩
      | true =>
        simp only [if_true]
        obtain ⟨hna2, hok2⟩ := visitChildren_quietWalk ih st1 place node1
        refine ⟨hna2, fun st2 t2 h => ?_⟩
        obtain ⟨hq2, hd⟩ := hok2 st2 t2 h
        refine ⟨hq.andThen hq2, ?_⟩
        rw [← hnt]
        show t2.data.nodeType = node1.data.nodeType
        rw [hd]

theorem visitChildrenFrom_formWalk
    {f : Resolution → Place → LSLASTNode → Except Fault (Resolution × LSLASTNode)}
    (hq : QuietWalk f) (hf : FormWalk f) (scopes root path : List Nat) :
    ∀ (cs : List LSLASTNode) (i K : Nat) (st st1 : Resolution) (cs1 : List LSLASTNode),
      (∀ c ∈ cs, outerForm K false c = true) → K ≤ st.tables.length →
      visitChildrenFrom f scopes root path i st cs = .ok (st1, cs1) →
      st.tables.length ≤ st1.tables.length
        ∧ ∀ c ∈ cs1, outerForm st1.tables.length false c = true := by
  intro cs
  induction cs with
  | nil =>
    intro i K st st1 cs1 _ _ h
    simp only [visitChildrenFrom, Except.ok.injEq, Prod.mk.injEq] at h
    rw [← h.1, ← h.2]
    exact ⟨Nat.le_refl _, fun c hc => absurd hc (List.not_mem_nil c)⟩
  | cons c rest ih =>
    intro i K st st1 cs1 hforms hK h
    simp only [visitChildrenFrom] at h
    cases hc : f st { scopes := scopes, root := some root, path := path ++ [i] } c with
    | error e => rw [hc] at h; cases h
    | ok r1 =>
      obtain ⟨sa, c1⟩ := r1
      rw [hc] at h
      simp only [] at h
      have hqa := ((hq st _ c).2 sa c1 hc).1
      have hla : st.tables.length ≤ sa.tables.length := hqa.1.2.1
      cases hrest : visitChildrenFrom f scopes root path (i + 1) sa rest with
      | error e => rw [hrest] at h; cases h
      | ok r2 =>
        obtain ⟨sb, rest1⟩ := r2
        rw [hrest] at h
        simp only [Except.ok.injEq, Prod.mk.injEq] at h
        obtain ⟨hlb, hfb⟩ := ih (i + 1) K sa sb rest1
          (fun x hx => hforms x (List.mem_cons_of_mem _ hx)) (Nat.le_trans hK hla) hrest
        rw [← h.1, ← h.2]
        refine ⟨Nat.le_trans hla hlb, fun x hx => ?_⟩
        rcases List.mem_cons.1 hx with hx | hx
        · rw [hx]
          exact outerForm_mono hlb false c1
            (hf K st _ c sa c1 (hforms c (List.mem_cons_self _ _)) hK hc)
        · exact hfb x hx

end SymbolResolutionVisitor

end Asserting

section Asserting

open BaseSymbolResolutionVisitor

namespace SymbolResolutionVisitor

theorem tableBelow_of {K table : Nat} {t : LSLASTNode} (ht : t.getSymbolTable = some table)
    (hlt : table < K) : tableBelow K t.data = true := by
  have ht1 : t.data.symbolTable = some table := ht
  simp only [tableBelow, ht1, decide_eq_true_eq]
  exact hlt

theorem replaceSymbolTable_length (st : Resolution) (node : LSLASTNode) :
    (replaceSymbolTable st node).1.tables.length = st.tables.length + 1 := by
  simp [replaceSymbolTable]

/-- The walk of the global visitor gives each global function and each state a table of
its own and leaves the script in the parser's form otherwise. -/
theorem resolve_formWalk : ∀ fuel, FormWalk (GlobalSymbolResolutionVisitor.resolve fuel) := by
  intro fuel
  induction fuel with
  | zero =>
    intro K st place t st1 t1 _ _ h
    cases h
  | succ fuel ih =>
    intro K st place t st1 t1 hform hK h
    obtain ⟨d, cs⟩ := t
    rcases outerForm_cases hform with ⟨hnt, _, hforms⟩ | ⟨_, hs, _⟩ | hnt
        | ⟨hnt, _, hforms⟩ | ⟨hnt, htab, hforms⟩
    · have hv : GlobalSymbolResolutionVisitor.visitSpecific
          (GlobalSymbolResolutionVisitor.resolve fuel) st place (.mk d cs)
          = GlobalSymbolResolutionVisitor.visitGlobalFunction st place (.mk d cs) := by
        simp only [GlobalSymbolResolutionVisitor.visitSpecific, LSLASTNode.getNodeType,
          LSLASTNode.data_mk, hnt]
      simp only [GlobalSymbolResolutionVisitor.resolve, hv] at h
      unfold GlobalSymbolResolutionVisitor.visitGlobalFunction at h
      simp only [] at h
      cases hid : (replaceSymbolTable st (.mk d cs)).2.getChild 0 with
      | none => rw [hid] at h; cases h
      | some id =>
        rw [hid] at h
        simp only [Bool.false_eq_true, if_false, Except.ok.injEq, Prod.mk.injEq] at h
        obtain ⟨h1, h2⟩ := h
        have hlen := (Resolution.Quiet.by_declared (replaceSymbolTable st (.mk d cs)).1
          { name := id.getName, type := id.getType, symbolType := .SYM_FUNCTION,
            subType := .SYM_GLOBAL,
            functionDecl := GlobalSymbolResolutionVisitor.functionDecl
              ((replaceSymbolTable st (.mk d cs)).2.getChild 1) } place.scopes
          (by simp)).1.2.1
        rw [replaceSymbolTable_length, h1] at hlen
        rw [← h2]
        exact outerForm_function hnt (tableBelow_of rfl (by omega))
          (replaceChild_forms 0 hforms
            (bodyForm_setSymbol (hforms id (List.get?_mem hid)) _))
    · cases hs
    · have hk := ((resolve_quietWalk (fuel + 1) st place (.mk d cs)).2 st1 t1 h).2
      exact outerForm_variable (hk.trans hnt)
    · have hv : GlobalSymbolResolutionVisitor.visitSpecific
          (GlobalSymbolResolutionVisitor.resolve fuel) st place (.mk d cs)
          = GlobalSymbolResolutionVisitor.visitState st place (.mk d cs) := by
        simp only [GlobalSymbolResolutionVisitor.visitSpecific, LSLASTNode.getNodeType,
          LSLASTNode.data_mk, hnt]
      simp only [GlobalSymbolResolutionVisitor.resolve, hv] at h
      unfold GlobalSymbolResolutionVisitor.visitState at h
      simp only [] at h
      cases hid : (replaceSymbolTable st (.mk d cs)).2.getChild 0 with
      | none => rw [hid] at h; cases h
      | some id =>
        rw [hid] at h
        simp only [Bool.false_eq_true, if_false, Except.ok.injEq, Prod.mk.injEq] at h
        obtain ⟨h1, h2⟩ := h
        have hlen := (Resolution.Quiet.by_declared (replaceSymbolTable st (.mk d cs)).1
          { name := id.getName, type := id.getType, symbolType := .SYM_STATE,
            subType := .SYM_GLOBAL } place.scopes (by simp)).1.2.1
        rw [replaceSymbolTable_length, h1] at hlen
        have hmono : ∀ c ∈ cs, outerForm st1.tables.length true c = true :=
          fun c hc => outerForm_mono (by omega) true c (hforms c hc)
        rw [← h2]
        refine outerForm_state hnt (tableBelow_of rfl (by omega))
          (replaceChild_forms 0 hmono ?_)
        rw [outerForm_setSymbol]
        exact hmono id (List.get?_mem hid)
    · have hv : GlobalSymbolResolutionVisitor.visitSpecific
          (GlobalSymbolResolutionVisitor.resolve fuel) st place (.mk d cs)
          = .ok (st, .mk d cs, true) := by
        rcases hnt with hnt | hnt | hnt | hnt | hnt | hnt <;>
          simp only [GlobalSymbolResolutionVisitor.visitSpecific, LSLASTNode.getNodeType,
            LSLASTNode.data_mk, hnt]
      simp only [GlobalSymbolResolutionVisitor.resolve, hv, if_true, visitChildren,
        LSLASTNode.children_mk, LSLASTNode.data_mk] at h
      cases hch : visitChildrenFrom (GlobalSymbolResolutionVisitor.resolve fuel)
          ((LSLASTNode.mk d cs).scopesFrom place.scopes)
          (place.root.getD ((LSLASTNode.mk d cs).scopesFrom place.scopes)) place.path 0 st
          cs with
      | error e => rw [hch] at h; cases h
      | ok r =>
        obtain ⟨st2, cs2⟩ := r
        rw [hch] at h
        simp only [Except.ok.injEq, Prod.mk.injEq] at h
        obtain ⟨_, hf2⟩ := visitChildrenFrom_formWalk (resolve_quietWalk fuel) ih _ _ _ cs 0 K
          st st2 cs2 hforms hK hch
        rw [← h.1, ← h.2]
        exact outerForm_carrier hnt htab hf2

/-- What `visit(LSLScript *)` leaves: the global visitor has failed no assertion, and
when it returns the script owns the table registered first, its children are in the
parser's form with the tables of the functions and states among those registered, and
the state is one between two bodies. -/
theorem visitScript_outer (fuel : Nat) (st : Resolution) (place : Place)
    (script : LSLASTNode) (hscript : script.getNodeType = .NODE_SCRIPT)
    (hform : outerForm.all 0 false script.children = true)
    (hj : st.mPendingJumps = []) (hl : st.mCollectedLabels = [])
    (hfree : st.labelFree = true) :
    visitScript fuel st place script ≠ .error .assertionFailed
      ∧ ∀ st1 t1 descend, visitScript fuel st place script = .ok (st1, t1, descend) →
          descend = true ∧ OuterState st1.tables.length st1
            ∧ t1.getSymbolTable = some st.tables.length
            ∧ st.tables.length < st1.tables.length
            ∧ ∀ c ∈ t1.children, outerForm st1.tables.length false c = true := by
  obtain ⟨hna, hok⟩ := resolve_quietWalk fuel (replaceSymbolTable st script).1 place
    (replaceSymbolTable st script).2
  unfold visitScript
  simp only []
  cases hg : GlobalSymbolResolutionVisitor.resolve fuel (replaceSymbolTable st script).1 place
      (replaceSymbolTable st script).2 with
  | error e =>
    refine ⟨fun h => ?_, fun _ _ _ h => by cases h⟩
    simp only [Except.error.injEq] at h
    rw [hg, h] at hna
    exact hna rfl
  | ok r =>
    obtain ⟨st2, t2⟩ := r
    refine ⟨by simp, fun st1 t1 descend h => ?_⟩
    simp only [Except.ok.injEq, Prod.mk.injEq] at h
    rw [← h.1, ← h.2.1, ← h.2.2]
    have hq : st.Quiet st2 :=
      (Resolution.Quiet.by_replaceSymbolTable st script).andThen (hok st2 t2 hg).1
    have hstate : OuterState st2.tables.length st2 :=
      ⟨hq.2.1.trans hj, hq.2.2.1.trans hl,
        (Resolution.labelFree_below hfree _).through_quiet hq, Nat.le_refl _⟩
    cases fuel with
    | zero => cases hg
    | succ fuel =>
      have hv : GlobalSymbolResolutionVisitor.visitSpecific
          (GlobalSymbolResolutionVisitor.resolve fuel) (replaceSymbolTable st script).1 place
          (replaceSymbolTable st script).2
          = .ok ((replaceSymbolTable st script).1, (replaceSymbolTable st script).2, true) := by
        have hnt : (replaceSymbolTable st script).2.getNodeType = .NODE_SCRIPT := hscript
        simp only [GlobalSymbolResolutionVisitor.visitSpecific, hnt]
      simp only [GlobalSymbolResolutionVisitor.resolve, hv, if_true, visitChildren] at hg
      cases hch : visitChildrenFrom (GlobalSymbolResolutionVisitor.resolve fuel)
          ((replaceSymbolTable st script).2.scopesFrom place.scopes)
          (place.root.getD ((replaceSymbolTable st script).2.scopesFrom place.scopes))
          place.path 0 (replaceSymbolTable st script).1
          (replaceSymbolTable st script).2.children with
      | error e => rw [hch] at hg; cases hg
      | ok r =>
        obtain ⟨st3, cs3⟩ := r
        rw [hch] at hg
        simp only [Except.ok.injEq, Prod.mk.injEq] at hg
        obtain ⟨hlen, hf3⟩ := visitChildrenFrom_formWalk (resolve_quietWalk fuel)
          (resolve_formWalk fuel) _ _ _ _ 0 0 _ st3 cs3
          ((outerForm_all_iff 0 false script.children).1 hform) (Nat.zero_le _) hch
        rw [replaceSymbolTable_length] at hlen
        obtain ⟨hg1, hg2⟩ := hg
        subst hg1
        subst hg2
        exact ⟨rfl, hstate, rfl, by omega, hf3⟩

end SymbolResolutionVisitor

end Asserting

section Asserting

open BaseSymbolResolutionVisitor

namespace SymbolResolutionVisitor

/-- C38: on a script in the form the parser builds it (`outerForm`: global variables,
global functions and states with their event handlers, whose bodies hold the labels
inside compound statements and the jumps with an identifier each), from a state of the
pass with empty lists of pending jumps and collected labels and tables that hold no
label, the pass fails none of its assertions, in either mode and for every bound on the
depth of the walk: the list of pending jumps is empty wherever a global function or an
event handler is entered, and in legacy mode a replacement label is found for every jump
whose lexical lookup succeeded. When the pass returns, both lists are empty again. -/
theorem assertions_never_fail (legacy : Bool) (fuel : Nat) (st : Resolution) (place : Place)
    (script : LSLASTNode) (hscript : script.getNodeType = .NODE_SCRIPT)
    (hform : outerForm.all 0 false script.children = true)
    (hj : st.mPendingJumps = []) (hl : st.mCollectedLabels = [])
    (hfree : st.labelFree = true)
    (hscopes : ∀ table ∈ place.scopes, table < st.tables.length) :
    resolve legacy fuel st place script ≠ .error .assertionFailed
      ∧ ∀ st1 t1, resolve legacy fuel st place script = .ok (st1, t1) →
          st1.mPendingJumps = [] ∧ st1.mCollectedLabels = [] := by
  cases fuel with
  | zero => exact ⟨by simp [resolve], fun _ _ h => by cases h⟩
  | succ fuel =>
    obtain ⟨hna, hok⟩ := visitScript_outer fuel st place script hscript hform hj hl hfree
    have hv : visitSpecific legacy fuel (resolve legacy fuel) st place script
        = visitScript fuel st place script := by
      simp only [visitSpecific, hscript]
    simp only [resolve, hv]
    cases hs : visitScript fuel st place script with
    | error e =>
      refine ⟨fun h => ?_, fun _ _ h => by cases h⟩
      simp only [Except.error.injEq] at h
      rw [hs, h] at hna
      exact hna rfl
    | ok r =>
      obtain ⟨st1, t1, descend⟩ := r
      obtain ⟨hd, hstate, htab, hlen, hforms⟩ := hok st1 t1 descend hs
      subst hd
      have hsc : ∀ table ∈ t1.scopesFrom place.scopes, table < st1.tables.length := by
        intro table ht
        simp only [LSLASTNode.scopesFrom, htab, List.mem_cons] at ht
        rcases ht with ht | ht
        · rw [ht]; exact hlen
        · exact Nat.lt_trans (hscopes table ht) hlen
      obtain ⟨hna2, hok2⟩ := visitChildrenFrom_outerWalk
        (resolve_outerWalk legacy st1.tables.length fuel) false
        (t1.scopesFrom place.scopes) (place.root.getD (t1.scopesFrom place.scopes))
        place.path hsc t1.children 0 st1 hforms hstate
      simp only [if_true, visitChildren]
      cases hch : visitChildrenFrom (resolve legacy fuel) (t1.scopesFrom place.scopes)
          (place.root.getD (t1.scopesFrom place.scopes)) place.path 0 st1 t1.children with
      | error e =>
        refine ⟨fun h => ?_, fun _ _ h => by cases h⟩
        simp only [Except.error.injEq] at h
        rw [hch, h] at hna2
        exact hna2 rfl
      | ok r2 =>
        obtain ⟨st2, cs2⟩ := r2
        refine ⟨by simp, fun st3 t3 h => ?_⟩
        simp only [Except.ok.injEq, Prod.mk.injEq] at h
        rw [← h.1]
        exact ⟨(hok2 st2 cs2 hch).1, (hok2 st2 cs2 hch).2.1⟩

/-- C38 on the script of the functions `f() { @L; jump L; { @L; } }` and
`f() { jump L; @L; }` and the state `default` with the handler
`touch_start() { jump L; { @L; } @L; }`, in legacy mode from the state with the table of
the builtins. -/
theorem assertions_never_fail_witness :
    Sample.jumpingScript.getNodeType = .NODE_SCRIPT
      ∧ outerForm.all 0 false Sample.jumpingScript.children = true
      ∧ Sample.builtinsOnly.mPendingJumps = []
      ∧ Sample.builtinsOnly.mCollectedLabels = []
      ∧ Sample.builtinsOnly.labelFree = true
      ∧ (∀ table ∈ [0], table < Sample.builtinsOnly.tables.length)
      ∧ resolve true 14 Sample.builtinsOnly { scopes := [0] } Sample.jumpingScript
          ≠ .error .assertionFailed
      ∧ ∀ st1 t1, resolve true 14 Sample.builtinsOnly { scopes := [0] } Sample.jumpingScript
            = .ok (st1, t1) →
          st1.mPendingJumps = [] ∧ st1.mCollectedLabels = [] :=
  ⟨rfl, by decide, rfl, rfl, by decide, by decide,
    assertions_never_fail true 14 Sample.builtinsOnly { scopes := [0] } Sample.jumpingScript
      rfl (by decide) rfl rfl (by decide) (by decide)⟩

/-- The pass returns on the script of the example within the bound on the depth: the jump
of the first function is bound to the label collected last, with the wrong-label warning,
the event `touch_start` is not among the builtins of the example, and both lists are
empty at the end. -/
theorem jumpingScript_returns :
    ∃ st1 t1, resolve true 14 Sample.builtinsOnly { scopes := [0] } Sample.jumpingScript
        = .ok (st1, t1)
      ∧ st1.mPendingJumps = [] ∧ st1.mCollectedLabels = []
      ∧ st1.errors.map (fun e => e.code)
          = [.W_JUMP_TO_WRONG_LABEL, .W_DUPLICATE_LABEL_NAME, .E_INVALID_EVENT,
             .W_DUPLICATE_LABEL_NAME] :=
  ⟨_, _, rfl, rfl, rfl, rfl⟩

end SymbolResolutionVisitor

end Asserting

end Tailslide
